import Mathlib

/-!
# Ion graph analyses and graph building

A shallow embedding of the analysis passes of `js/src/ion/IonAnalysis.cpp` and
of the methods of `js/src/ion/IonBuilder.cpp` that build the control flow
graph, and the properties they establish.

Pointers are modelled as indices: an `MBasicBlock *` is the position of the
block in the graph's block list (the list that `graph.begin()`,
`graph.rpoBegin()` and, reversed, `graph.poBegin()` iterate) or in the table of
the blocks, an `MDefinition *` is the position of the definition in the table
of the definitions, and `NULL` is `none`.  A function that dereferences `NULL`
or an index that names nothing fails: it returns `none`, or `Run.fail` where
the kind of the failure matters.  The loops of the source whose termination
depends on the state of the graph take a fuel argument and fail when it runs
out.  Allocation is taken to succeed.  A `JS_ASSERT` on which a property
depends is executed and makes the function fail with `Failure.assertion`; the
other assertions are left out, as in a release build.
-/

namespace Ion

/-! ## Data model: definitions -/

/-- The result type tags of a definition. -/
inductive MIRType
  | Undefined | Null | Boolean | Int32 | Double | String | Object | Magic | Value | None
deriving DecidableEq, Repr

/-- The payload of a constant, as far as the passes look at it. -/
inductive ConstantValue
  | Int32 (i : Int)
  | Boolean (b : Bool)
  | Undefined
  | Null
  | Other
deriving DecidableEq, Repr

/-- The opcode of a definition, with the data that belongs to the opcode:
the value of a constant and the `[minimum, maximum]` range of a bounds check.
Opcodes that no pass modelled here tells apart are `Other`. -/
inductive Opcode
  | Phi
  | Constant (value : ConstantValue)
  | Add
  | Sub
  | BoundsCheck (minimum maximum : Int)
  | ToDouble
  | Box
  | Unbox
  | Other
deriving DecidableEq, Repr

/-- A definition (`MDefinition`): a Phi or an instruction.  Operands are
pointers to definitions, that is positions in the graph's definition table.
The flags are those that the passes read and write. -/
structure MDefinition where
  op : Opcode
  type : MIRType
  operands : List Nat
  block : Nat
  movable : Bool := false
  effectful : Bool := false
  guard : Bool := false
  controlInstruction : Bool := false
  hasBytecodeUses : Bool := false
  slot : Nat := 0
  inWorklist : Bool := false
  unused : Bool := false
  triedToSpecialize : Bool := false
deriving DecidableEq, Repr

/-- The call `def->isPhi()`. -/
def MDefinition.isPhi (d : MDefinition) : Bool :=
  match d.op with
  | .Phi => true
  | _ => false

/-- The call `def->isBoundsCheck()`. -/
def MDefinition.isBoundsCheck (d : MDefinition) : Bool :=
  match d.op with
  | .BoundsCheck _ _ => true
  | _ => false

/-! ## Data model: blocks and graph -/

/-- A basic block: its id, its edges, its dominator annotations, and its
Phis and instructions in list order (pointers into the definition table). -/
structure MBasicBlock where
  id : Nat
  predecessors : List Nat
  successors : List Nat
  immediateDominator : Option Nat
  immediatelyDominated : List Nat
  numDominated : Nat
  domIndex : Nat
  phis : List Nat := []
  instructions : List Nat := []
deriving DecidableEq, Repr

/-- The graph: the block list of `MIRGraph` (in iteration order), its OSR
entry, the table of definitions that block and operand pointers index, and the
operand lists of the resume points.  A definition is in the graph when a block
lists it; discarding a definition takes it off its block's list. -/
structure MIRGraph where
  blocks : List MBasicBlock
  osrBlock : Option Nat
  defs : List MDefinition := []
  resumePoints : List (List Nat) := []
deriving DecidableEq, Repr

/-- Dereference of a block pointer. -/
def MIRGraph.block (g : MIRGraph) (b : Nat) : Option MBasicBlock :=
  g.blocks[b]?

/-- The call `graph.numBlocks()`. -/
def MIRGraph.numBlocks (g : MIRGraph) : Nat :=
  g.blocks.length

/-- The call `block->setImmediateDominator(d)`. -/
def setImmediateDominator (g : MIRGraph) (b d : Nat) : MIRGraph :=
  { g with
    blocks := List.modify (fun blk => { blk with immediateDominator := some d }) b g.blocks }

/-- The call `block->addImmediatelyDominatedBlock(child)`. -/
def addImmediatelyDominatedBlock (g : MIRGraph) (b child : Nat) : MIRGraph :=
  { g with
    blocks := List.modify
      (fun blk => { blk with immediatelyDominated := blk.immediatelyDominated ++ [child] })
      b g.blocks }

/-- The call `block->addNumDominated(n)`. -/
def addNumDominated (g : MIRGraph) (b n : Nat) : MIRGraph :=
  { g with
    blocks := List.modify (fun blk => { blk with numDominated := blk.numDominated + n })
      b g.blocks }

/-- The call `block->setDomIndex(i)`. -/
def setDomIndex (g : MIRGraph) (b i : Nat) : MIRGraph :=
  { g with
    blocks := List.modify (fun blk => { blk with domIndex := i }) b g.blocks }

/-! ## IntersectDominators -/

/-- One inner loop of `IntersectDominators`:
`while (finger->id() > other->id()) { idom = finger->immediateDominator();
if (idom == finger) return NULL; finger = idom; }`.
The result `some none` is the `return NULL`, `some (some f)` is the finger at
loop exit, `none` is a `NULL` dereference or exhausted fuel. -/
def walkFinger : Nat → MIRGraph → Nat → Nat → Option (Option Nat)
  | 0, _, _, _ => none
  | fuel + 1, g, finger, otherId =>
    match g.block finger with
    | none => none
    | some fb =>
      if fb.id > otherId then
        match fb.immediateDominator with
        | none => none
        | some idom =>
          if idom = finger then some none
          else walkFinger fuel g idom otherId
      else some (some finger)

/-- The outer loop of `IntersectDominators(block1, block2)`, fingers being
`block1` and `block2`.  `some none` is the empty intersection (`NULL`). -/
def IntersectDominators : Nat → MIRGraph → Nat → Nat → Option (Option Nat)
  | 0, _, _, _ => none
  | fuel + 1, g, finger1, finger2 =>
    match g.block finger1, g.block finger2 with
    | some b1, some b2 =>
      if b1.id ≠ b2.id then
        match walkFinger fuel g finger1 b2.id with
        | none => none
        | some none => some none
        | some (some f1) =>
          match g.block f1 with
          | none => none
          | some b1' =>
            match walkFinger fuel g finger2 b1'.id with
            | none => none
            | some none => some none
            | some (some f2) => IntersectDominators fuel g f1 f2
      else some (some finger1)
    | _, _ => none

/-! ## ComputeImmediateDominators -/

/-- The loop `for (i = 1; i < numPredecessors; i++)` of
`ComputeImmediateDominators`, run over the predecessors from index 1 on.
`some none` means the loop left through `break` with `newIdom == NULL`. -/
def intersectPredecessors (fuel : Nat) (g : MIRGraph) :
    List Nat → Nat → Option (Option Nat)
  | [], newIdom => some (some newIdom)
  | pred :: rest, newIdom =>
    match g.block pred with
    | none => none
    | some pb =>
      match (if pb.immediateDominator.isSome then IntersectDominators fuel g pred newIdom
             else some (some newIdom)) with
      | none => none
      | some none => some none
      | some (some d) => intersectPredecessors fuel g rest d

/-- The body of the RPO loop of `ComputeImmediateDominators` for one block;
the Boolean is the `changed` flag. -/
def processBlock (fuel : Nat) (g : MIRGraph) (changed : Bool) (b : Nat) :
    Option (MIRGraph × Bool) :=
  match g.block b with
  | none => none
  | some blk =>
    if blk.immediateDominator = some b then some (g, changed)
    else
      match blk.predecessors with
      | [] => none
      | p0 :: rest =>
        match intersectPredecessors fuel g rest p0 with
        | none => none
        | some none => some (setImmediateDominator g b b, true)
        | some (some newIdom) =>
          if blk.immediateDominator ≠ some newIdom then
            some (setImmediateDominator g b newIdom, true)
          else some (g, changed)

/-- One sweep `for (; block != graph.rpoEnd(); block++)` over the given
blocks. -/
def rpoSweep (fuel : Nat) : List Nat → MIRGraph → Bool → Option (MIRGraph × Bool)
  | [], g, changed => some (g, changed)
  | b :: bs, g, changed =>
    match processBlock fuel g changed b with
    | none => none
    | some (g', changed') => rpoSweep fuel bs g' changed'

/-- The loop `while (changed)` of `ComputeImmediateDominators`. -/
def fixpointLoop (fuel : Nat) : Nat → MIRGraph → Option MIRGraph
  | 0, _ => none
  | n + 1, g =>
    match rpoSweep fuel (List.range g.blocks.length) g false with
    | none => none
    | some (g', changed) => if changed then fixpointLoop fuel n g' else some g'

/-- The function `ComputeImmediateDominators(graph)`. -/
def ComputeImmediateDominators (fuel : Nat) (g : MIRGraph) : Option MIRGraph :=
  match g.blocks with
  | [] => none
  | _ :: _ =>
    let g1 := setImmediateDominator g 0 0
    match g1.osrBlock with
    | none => fixpointLoop fuel fuel g1
    | some osr =>
      match g1.block osr with
      | none => none
      | some _ => fixpointLoop fuel fuel (setImmediateDominator g1 osr osr)

/-! ## BuildDominatorTree -/

/-- The body of the post-order loop of `BuildDominatorTree` for one block. -/
def linkChild (g : MIRGraph) (child : Nat) : Option MIRGraph :=
  match g.block child with
  | none => none
  | some cb =>
    match cb.immediateDominator with
    | none => none
    | some parent =>
      if child = parent then some g
      else
        match g.block parent with
        | none => none
        | some _ =>
          some (addNumDominated (addImmediatelyDominatedBlock g parent child) parent
            (cb.numDominated + 1))

/-- The loop `for (PostorderIterator i(graph.poBegin()); ...)`. -/
def linkChildren : List Nat → MIRGraph → Option MIRGraph
  | [], g => some g
  | c :: cs, g =>
    match linkChild g c with
    | none => none
    | some g' => linkChildren cs g'

/-- The blocks that the loop over `graph.begin() .. graph.end()` appends to
the worklist: the self-dominating ones, in list order. -/
def selfDominating (g : MIRGraph) : List Nat :=
  (List.range g.blocks.length).filter
    (fun b => match g.block b with
      | some blk => decide (blk.immediateDominator = some b)
      | none => false)

/-- The loop `while (!worklist.empty())` of `BuildDominatorTree`; the
worklist is a vector whose last element is popped, `index` is the running
pre-order index. -/
def assignDomIndex : Nat → MIRGraph → List Nat → Nat → Option MIRGraph
  | _, g, [], _ => some g
  | 0, _, _ :: _, _ => none
  | fuel + 1, g, w :: ws, index =>
    let worklist := w :: ws
    let block := worklist.getLast (List.cons_ne_nil w ws)
    let remaining := worklist.dropLast
    match g.block block with
    | none => none
    | some blk =>
      assignDomIndex fuel (setDomIndex g block index)
        (remaining ++ blk.immediatelyDominated) (index + 1)

/-- The function `BuildDominatorTree(graph)`.  The assertion of the debug build
after the post-order loop, `numDominated` of the start block being
`numBlocks - 1` without an OSR entry, is not executed. -/
def BuildDominatorTree (fuel : Nat) (g : MIRGraph) : Option MIRGraph :=
  match ComputeImmediateDominators fuel g with
  | none => none
  | some g1 =>
    match linkChildren (List.range g1.blocks.length).reverse g1 with
    | none => none
    | some g2 => assignDomIndex fuel g2 (selfDominating g2) 0

/-! ## Paths, dominator chains and the fixpoint -/

/-- The block `v` is a successor of the block `u`. -/
def isSuccessor (g : MIRGraph) (u v : Nat) : Bool :=
  match g.block u with
  | some ub => decide (v ∈ ub.successors)
  | none => false

/-- A list of blocks each of which is a successor of the one before. -/
def isSuccessorPath (g : MIRGraph) : List Nat → Bool
  | [] => true
  | [_] => true
  | u :: v :: rest => isSuccessor g u v && isSuccessorPath g (v :: rest)

/-- Every successor edge is recorded in the predecessor list of its target
(the check `CheckSuccessorImpliesPredecessor` of `AssertGraphCoherency`). -/
def successorsCoherent (g : MIRGraph) : Bool :=
  g.blocks.enum.all fun (u, ub) =>
    ub.successors.all fun v =>
      match g.block v with
      | some vb => decide (u ∈ vb.predecessors)
      | none => false

/-- The immediate dominator recorded for a block, `NULL` also for a pointer
that names no block. -/
def idomOf (g : MIRGraph) (b : Nat) : Option Nat :=
  match g.block b with
  | some blk => blk.immediateDominator
  | none => none

/-- The block `d` is reached from `b` by following immediate-dominator links
zero or more times. -/
def IdomChain (g : MIRGraph) (b d : Nat) : Prop :=
  Relation.ReflTransGen (fun x y => idomOf g x = some y) b d

/-- The dominator-tree annotations of a block, which
`ComputeImmediateDominators` does not write. -/
def MBasicBlock.annotations (b : MBasicBlock) : Nat × List Nat × Nat :=
  (b.numDominated, b.immediatelyDominated, b.domIndex)

/-- The part of a block that the dominator passes never write. -/
def MBasicBlock.shape (b : MBasicBlock) : Nat × List Nat × List Nat :=
  (b.id, b.predecessors, b.successors)

/-- The RPO loop body leaves block `b` alone: it is self-dominating, or its
recorded immediate dominator is the intersection over its predecessors. -/
def Settled (fuel : Nat) (g : MIRGraph) (b : Nat) : Prop :=
  ∃ blk, g.block b = some blk ∧
    (blk.immediateDominator = some b ∨
      ∃ p0 rest d, blk.predecessors = p0 :: rest ∧
        intersectPredecessors fuel g rest p0 = some (some d) ∧
        blk.immediateDominator = some d)

/-- What every step of `ComputeImmediateDominators` preserves: the number of
blocks, the OSR entry, the shape and the tree annotations of each block, and
self-domination. -/
structure Frame (g g' : MIRGraph) : Prop where
  length : g'.blocks.length = g.blocks.length
  osr : g'.osrBlock = g.osrBlock
  shape : ∀ i, (g'.block i).map MBasicBlock.shape = (g.block i).map MBasicBlock.shape
  annotations :
    ∀ i, (g'.block i).map MBasicBlock.annotations = (g.block i).map MBasicBlock.annotations
  self : ∀ i, idomOf g i = some i → idomOf g' i = some i

/-- The predecessor list of a block, empty for a pointer that names no block. -/
def predsOf (g : MIRGraph) (b : Nat) : List Nat :=
  match g.block b with
  | some blk => blk.predecessors
  | none => []

/-- At the fixpoint the immediate dominator of a block that is not
self-dominating lies on the dominator chain of each of its predecessors. -/
def PredsChain (g : MIRGraph) : Prop :=
  ∀ b d, idomOf g b = some d → d ≠ b → ∀ p ∈ predsOf g b, IdomChain g p d

/-- The fields of a block that the loops after `ComputeImmediateDominators`
leave alone. -/
def MBasicBlock.core (b : MBasicBlock) : (Nat × List Nat × List Nat) × Option Nat :=
  (b.shape, b.immediateDominator)

/-- Two graphs with the same blocks up to the dominator-tree annotations. -/
def CoreEq (g g' : MIRGraph) : Prop :=
  ∀ i, (g'.block i).map MBasicBlock.core = (g.block i).map MBasicBlock.core

/-- A block with no dominator information yet. -/
def freshBlock (id : Nat) (preds succs : List Nat) : MBasicBlock :=
  { id := id, predecessors := preds, successors := succs, immediateDominator := none,
    immediatelyDominated := [], numDominated := 0, domIndex := 0 }

/-- A loop: entry 0, header 1 (entered from 0, back edge from 2), body 2,
exit 3. -/
def loopGraph : MIRGraph :=
  { blocks := [freshBlock 0 [] [1], freshBlock 1 [0, 2] [2, 3], freshBlock 2 [1] [1],
      freshBlock 3 [1] []],
    osrBlock := none }

/-- The graph `loopGraph` with its dominator tree. -/
def loopGraphTree : MIRGraph :=
  { blocks := [
      { freshBlock 0 [] [1] with
        immediateDominator := some 0, immediatelyDominated := [1], numDominated := 3 },
      { freshBlock 1 [0, 2] [2, 3] with
        immediateDominator := some 0, immediatelyDominated := [3, 2], numDominated := 2,
        domIndex := 1 },
      { freshBlock 2 [1] [1] with immediateDominator := some 1, domIndex := 2 },
      { freshBlock 3 [1] [] with immediateDominator := some 1, domIndex := 3 }],
    osrBlock := none }

/-! ## Accessors and hypotheses for the dominator tree -/

/-- The call `block->numDominated()`, 0 for a pointer that names no block. -/
def numDominatedOf (g : MIRGraph) (b : Nat) : Nat :=
  match g.block b with
  | some blk => blk.numDominated
  | none => 0

/-- The immediately dominated blocks of a block, in the order of
`getImmediatelyDominatedBlock`. -/
def childrenOf (g : MIRGraph) (b : Nat) : List Nat :=
  match g.block b with
  | some blk => blk.immediatelyDominated
  | none => []

/-- The call `block->domIndex()`, 0 for a pointer that names no block. -/
def domIndexOf (g : MIRGraph) (b : Nat) : Nat :=
  match g.block b with
  | some blk => blk.domIndex
  | none => 0

/-- The function `RenumberBlocks(graph)`: ids are assigned in list order. -/
def RenumberBlocks (g : MIRGraph) : MIRGraph :=
  { g with blocks := g.blocks.enum.map (fun (i, b) => { b with id := i }) }

/-- The id of every block is its position in the block list, as
`RenumberBlocks` leaves it. -/
def idsRenumbered (g : MIRGraph) : Bool :=
  g.blocks.enum.all fun (i, b) => decide (b.id = i)

/-- Every block other than the start block and the OSR entry has a
predecessor that comes earlier in the block list.  This holds of a block list
in reverse postorder all of whose blocks are reachable from the start block or
the OSR entry: the predecessor is the parent in the depth-first tree. -/
def hasEarlierPredecessor (g : MIRGraph) : Bool :=
  g.blocks.enum.all fun (i, b) =>
    decide (i = 0) || decide (g.osrBlock = some i) || b.predecessors.any (fun p => decide (p < i))

/-- No block carries dominator information yet. -/
def freshDominators (g : MIRGraph) : Bool :=
  g.blocks.all fun b =>
    decide (b.immediateDominator = none) && decide (b.immediatelyDominated = []) &&
      decide (b.numDominated = 0)

/-- Dominator links of the blocks at position `k` or later, self links left
out: the part of the tree that the post-order loop has linked when it has
visited exactly those blocks. -/
def LinkFrom (g : MIRGraph) (k : Nat) (a b : Nat) : Prop :=
  k ≤ a ∧ idomOf g a = some b ∧ b ≠ a

/-- Reachability along `LinkFrom`. -/
def ReachFrom (g : MIRGraph) (k : Nat) (a b : Nat) : Prop :=
  Relation.ReflTransGen (LinkFrom g k) a b

/-- The state of the post-order loop of `BuildDominatorTree` when it has
visited the blocks at position `k` or later of the graph `g1` that
`ComputeImmediateDominators` returned: `numDominated` counts the blocks linked
below a block so far, and the immediately dominated list has grown by the
children linked so far. -/
def LinkInv (g1 g : MIRGraph) (k : Nat) : Prop :=
  CoreEq g1 g ∧
    ∀ X, X < g1.blocks.length →
      (∃ S : Finset Nat, (∀ Y, Y ∈ S ↔ Y ≠ X ∧ ReachFrom g1 k Y X) ∧
        numDominatedOf g X = S.card) ∧
      ∃ L : List Nat, childrenOf g X = childrenOf g1 X ++ L ∧ L.Nodup ∧
        (∀ c, c ∈ L ↔ k ≤ c ∧ idomOf g1 c = some X ∧ c ≠ X) ∧
        numDominatedOf g X = (L.map (fun c => numDominatedOf g c + 1)).sum

/-- No block has an immediate dominator recorded yet. -/
def idomsUnset (g : MIRGraph) : Bool :=
  g.blocks.all fun b => decide (b.immediateDominator = none)

/-- Every block starts with `numDominated = 0`. -/
def numDominatedZero (g : MIRGraph) : Bool :=
  g.blocks.all fun b => decide (b.numDominated = 0)

/-- No block has immediately dominated blocks recorded yet. -/
def childrenEmpty (g : MIRGraph) : Bool :=
  g.blocks.all fun b => decide (b.immediatelyDominated = [])

/-- The facts about the shape of a graph without OSR entry that the sweeps of
`ComputeImmediateDominators` rely on: ids are positions, and every block but
the first has an earlier predecessor. -/
def SweepShape (g : MIRGraph) : Prop :=
  (∀ i blk, g.block i = some blk → blk.id = i) ∧
    ∀ b, b < g.blocks.length → b = 0 ∨ ∃ p ∈ predsOf g b, p < b

/-- Invariant of the sweeps of `ComputeImmediateDominators` on a graph
without OSR entry, the loop being about to visit block `k`: recorded dominators
are not later than the block, only block 0 is self-dominating, and the blocks
before `k` have a dominator recorded. -/
def SweepInv (g : MIRGraph) (k : Nat) : Prop :=
  SweepShape g ∧ idomOf g 0 = some 0 ∧
    (∀ b d, idomOf g b = some d → d ≤ b) ∧ (∀ b, idomOf g b = some b → b = 0) ∧
    ∀ x, x < k → x < g.blocks.length → idomOf g x ≠ none

/-- The fields of a block that the pre-order numbering loop leaves alone. -/
def MBasicBlock.links (b : MBasicBlock) :
    ((Nat × List Nat × List Nat) × Option Nat) × Nat × List Nat :=
  (b.core, b.numDominated, b.immediatelyDominated)

/-- Two graphs with the same blocks up to `domIndex`. -/
def LinksEq (g g' : MIRGraph) : Prop :=
  ∀ i, (g'.block i).map MBasicBlock.links = (g.block i).map MBasicBlock.links

/-- The dominator tree as the post-order loop of `BuildDominatorTree` leaves
it: every block has an immediate dominator, which precedes it unless the block
is self-dominating; the immediately dominated list of a block holds exactly
its children, once each; and `numDominated` adds up over the children. -/
structure DomTree (T : MIRGraph) : Prop where
  total : ∀ b, b < T.blocks.length → ∃ d, idomOf T b = some d
  lt : ∀ b d, idomOf T b = some d → d ≠ b → d < b
  children_nodup : ∀ X, (childrenOf T X).Nodup
  mem_children : ∀ X c, c ∈ childrenOf T X ↔ idomOf T c = some X ∧ c ≠ X
  size : ∀ X, X < T.blocks.length →
    numDominatedOf T X = ((childrenOf T X).map (fun c => numDominatedOf T c + 1)).sum

/-- The block `X` is in the dominator subtree of one of the blocks `cs`. -/
def InSubtrees (T : MIRGraph) (cs : List Nat) (X : Nat) : Prop :=
  ∃ c ∈ cs, IdomChain T X c

/-- The number of blocks in the dominator subtrees of the blocks `cs`. -/
def subtreeSizes (T : MIRGraph) (cs : List Nat) : Nat :=
  (cs.map (fun c => numDominatedOf T c + 1)).sum

/-- What the pre-order numbering loop has done when it has popped the blocks
`cs` and everything they pushed, starting with index `i` on the graph `g` and
ending with the graph `g'`: the dominator subtrees of `cs` are numbered from
`i` on, and each block's subtree takes the indices from its own index up to its
own index plus its `numDominated`. -/
structure Numbered (T g g' : MIRGraph) (cs : List Nat) (i : Nat) : Prop where
  links : LinksEq g g'
  outside : ∀ X, ¬ InSubtrees T cs X → domIndexOf g' X = domIndexOf g X
  range : ∀ X, InSubtrees T cs X →
    i ≤ domIndexOf g' X ∧ domIndexOf g' X + numDominatedOf T X < i + subtreeSizes T cs
  interval : ∀ X Y, InSubtrees T cs X → InSubtrees T cs Y →
    (IdomChain T Y X ↔
      domIndexOf g' X ≤ domIndexOf g' Y ∧
        domIndexOf g' Y ≤ domIndexOf g' X + numDominatedOf T X)
  onto : ∀ j, i ≤ j → j < i + subtreeSizes T cs → ∃ X, InSubtrees T cs X ∧ domIndexOf g' X = j

/-- The pre-order numbering loop, given enough fuel, numbers the subtrees of
the blocks `cs` on top of any worklist `ws`, from any graph that has the
dominator tree `T` and from any index. -/
def Visits (T : MIRGraph) (cs : List Nat) : Prop :=
  ∀ (g : MIRGraph) (ws : List Nat) (i : Nat), LinksEq T g →
    ∃ g', Numbered T g g' cs i ∧
      ∀ fuel, assignDomIndex (fuel + subtreeSizes T cs) g (ws ++ cs) i =
        assignDomIndex fuel g' ws (i + subtreeSizes T cs)

/-! ## Definitions in the graph, uses and removal -/

/-- Dereference of a definition pointer. -/
def MIRGraph.definition (g : MIRGraph) (d : Nat) : Option MDefinition :=
  g.defs[d]?

/-- The definition `d` is in the graph: some block lists it among its Phis or
its instructions. -/
def MIRGraph.inGraph (g : MIRGraph) (d : Nat) : Bool :=
  g.blocks.any fun b => decide (d ∈ b.phis) || decide (d ∈ b.instructions)

/-- Modelled from the spec: `MDefinition::replaceAllUsesWith` (MIR.cpp is not
among the sources).  Every use of `d` becomes a use of `r`.  The uses of `d`
are the operand slots that hold `d` in the definitions that are in the graph
and in the resume points: a definition that was removed from its block is no
longer in the use lists of its operands, and its operand slots stay as they
are. -/
def replaceAllUsesWith (g : MIRGraph) (d r : Nat) : MIRGraph :=
  { g with
    defs := g.defs.enum.map fun (i, x) =>
      if g.inGraph i then { x with operands := x.operands.map fun o => if o = d then r else o }
      else x
    resumePoints := g.resumePoints.map fun rp => rp.map fun o => if o = d then r else o }

/-- Modelled from the spec: `MBasicBlock::discardDefAt` and `discardPhiAt`
(MIRGraph.cpp is not among the sources).  The definition is taken off the Phi
list or the instruction list of its block. -/
def discardDef (g : MIRGraph) (block d : Nat) : MIRGraph :=
  { g with
    blocks := List.modify
      (fun b => { b with phis := b.phis.erase d, instructions := b.instructions.erase d })
      block g.blocks }

/-! ## ExtractLinearSum -/

/-- The smallest `int32`. -/
def INT32_MIN : Int := -2147483648

/-- The largest `int32`. -/
def INT32_MAX : Int := 2147483647

/-- Modelled from the spec: `SafeAdd` (its header is not among the sources),
the `int32` addition that reports overflow: `none` is the result `false`. -/
def SafeAdd (one two : Int) : Option Int :=
  if INT32_MIN ≤ one + two ∧ one + two ≤ INT32_MAX then some (one + two) else none

/-- Modelled from the spec: `SafeSub`, the `int32` subtraction that reports
overflow. -/
def SafeSub (one two : Int) : Option Int :=
  if INT32_MIN ≤ one - two ∧ one - two ≤ INT32_MAX then some (one - two) else none

/-- The struct `LinearSum`: a term (`NULL` is `none`) plus a constant. -/
structure LinearSum where
  term : Option Nat
  constant : Int
deriving DecidableEq, Repr

/-- The function `ExtractLinearSum(ins)`.  The fuel bounds the depth of the
recursion through the operands of `Add` and `Sub`; `none` is exhausted fuel, a
dangling pointer, or an `Int32` constant whose value is not an `int32` (the
`JS_ASSERT(v.isInt32())`). -/
def ExtractLinearSum : Nat → MIRGraph → Nat → Option LinearSum
  | 0, _, _ => none
  | fuel + 1, g, ins =>
    match g.definition ins with
    | none => none
    | some d =>
      if d.type ≠ MIRType.Int32 then some ⟨some ins, 0⟩
      else
        match d.op with
        | .Constant (.Int32 v) => some ⟨none, v⟩
        | .Constant _ => none
        | .Add =>
          match d.operands with
          | lhs :: rhs :: _ =>
            match g.definition lhs, g.definition rhs with
            | some ld, some rd =>
              if ld.type = MIRType.Int32 ∧ rd.type = MIRType.Int32 then
                match ExtractLinearSum fuel g lhs, ExtractLinearSum fuel g rhs with
                | some lsum, some rsum =>
                  if lsum.term.isSome ∧ rsum.term.isSome then some ⟨some ins, 0⟩
                  else
                    match SafeAdd lsum.constant rsum.constant with
                    | none => some ⟨some ins, 0⟩
                    | some constant =>
                      some ⟨if lsum.term.isSome then lsum.term else rsum.term, constant⟩
                | _, _ => none
              else some ⟨some ins, 0⟩
            | _, _ => none
          | _ => none
        | .Sub =>
          match d.operands with
          | lhs :: rhs :: _ =>
            match g.definition lhs, g.definition rhs with
            | some ld, some rd =>
              if ld.type = MIRType.Int32 ∧ rd.type = MIRType.Int32 then
                match ExtractLinearSum fuel g lhs, ExtractLinearSum fuel g rhs with
                | some lsum, some rsum =>
                  if lsum.term.isSome ∧ rsum.term.isSome then some ⟨some ins, 0⟩
                  else if lsum.term.isSome then
                    match SafeSub lsum.constant rsum.constant with
                    | none => some ⟨some ins, 0⟩
                    | some constant => some ⟨lsum.term, constant⟩
                  else some ⟨some ins, 0⟩
                | _, _ => none
              else some ⟨some ins, 0⟩
            | _, _ => none
          | _ => none
        | _ => some ⟨some ins, 0⟩

/-- The fuel that `ExtractLinearSum` gets from the passes: enough for every
operand chain without a cycle. -/
def MIRGraph.sumFuel (g : MIRGraph) : Nat :=
  g.defs.length + 1

/-! ## Bounds checks -/

/-- Modelled from the spec: `MBoundsCheck::index()`, operand 0 (MIR.h is not
among the sources). -/
def boundsCheckIndex (g : MIRGraph) (check : Nat) : Option Nat :=
  match g.definition check with
  | some d => if d.isBoundsCheck then d.operands[0]? else none
  | none => none

/-- Modelled from the spec: `MBoundsCheck::length()`, operand 1. -/
def boundsCheckLength (g : MIRGraph) (check : Nat) : Option Nat :=
  match g.definition check with
  | some d => if d.isBoundsCheck then d.operands[1]? else none
  | none => none

/-- The calls `check->minimum()` and `check->maximum()`. -/
def boundsCheckRange (g : MIRGraph) (check : Nat) : Option (Int × Int) :=
  match g.definition check with
  | some d =>
    match d.op with
    | .BoundsCheck minimum maximum => some (minimum, maximum)
    | _ => none
  | none => none

/-- The calls `check->setMinimum(minimum)` and `check->setMaximum(maximum)`. -/
def setBoundsCheckRange (g : MIRGraph) (check : Nat) (minimum maximum : Int) : MIRGraph :=
  { g with
    defs := List.modify (fun d => { d with op := Opcode.BoundsCheck minimum maximum })
      check g.defs }

/-- The struct `BoundsCheckInfo`. -/
structure BoundsCheckInfo where
  check : Nat
  validUntil : Nat
deriving DecidableEq, Repr

/-- The hash map `BoundsCheckMap`, keyed by the hash number itself: at most
one entry per key. -/
abbrev BoundsCheckMap := List (Nat × BoundsCheckInfo)

/-- The call `checks.lookup(hash)`. -/
def BoundsCheckMap.lookup (checks : BoundsCheckMap) (hash : Nat) : Option BoundsCheckInfo :=
  match checks.find? (fun e => e.1 == hash) with
  | some e => some e.2
  | none => none

/-- The call `checks.put(hash, info)`: the entry of the key is overwritten. -/
def BoundsCheckMap.put (checks : BoundsCheckMap) (hash : Nat) (info : BoundsCheckInfo) :
    BoundsCheckMap :=
  (hash, info) :: checks.filter (fun e => e.1 != hash)

/-- The function `BoundsCheckHashIgnoreOffset(check)`.  The function `addr`
gives the machine address of a definition; the hash number has 32 bits. -/
def BoundsCheckHashIgnoreOffset (addr : Nat → Nat) (g : MIRGraph) (check : Nat) :
    Option Nat :=
  match boundsCheckIndex g check, boundsCheckLength g check with
  | some index, some length =>
    match ExtractLinearSum g.sumFuel g index with
    | none => none
    | some indexSum =>
      let index := match indexSum.term with
        | some term => addr term
        | none => 0
      some ((index ^^^ addr length) % 2 ^ 32)
  | _, _ => none

/-- The function `FindDominatingBoundsCheck(checks, check, index)`; the map
is returned with the result.  `validUntil` is a `uint32`. -/
def FindDominatingBoundsCheck (addr : Nat → Nat) (g : MIRGraph) (checks : BoundsCheckMap)
    (check index : Nat) : Option (Nat × BoundsCheckMap) :=
  match BoundsCheckHashIgnoreOffset addr g check, g.definition check with
  | some hash, some d =>
    match
      (match checks.lookup hash with
       | none => none
       | some info => if index > info.validUntil then none else some info) with
    | none =>
      match g.block d.block with
      | none => none
      | some blk =>
        some (check,
          checks.put hash ⟨check, (index + blk.numDominated) % 2 ^ 32⟩)
    | some info => some (info.check, checks)
  | _, _ => none

/-- The function `TryEliminateBoundsCheck(dominating, dominated, &eliminated)`.
The result is the returned Boolean, the flag `eliminated`, and the graph. -/
def TryEliminateBoundsCheck (g : MIRGraph) (dominating dominated : Nat) :
    Option (Bool × Bool × MIRGraph) :=
  match boundsCheckLength g dominating, boundsCheckLength g dominated,
      boundsCheckIndex g dominating, boundsCheckIndex g dominated,
      boundsCheckRange g dominating, boundsCheckRange g dominated with
  | some lengthA, some lengthB, some indexA, some indexB, some (minA, maxA), some (minB, maxB) =>
    if lengthA ≠ lengthB then some (true, false, g)
    else
      match ExtractLinearSum g.sumFuel g indexA, ExtractLinearSum g.sumFuel g indexB with
      | some sumA, some sumB =>
        if sumA.term ≠ sumB.term then some (true, false, g)
        else
          match SafeAdd sumA.constant minA, SafeAdd sumA.constant maxA,
              SafeAdd sumB.constant minB, SafeAdd sumB.constant maxB with
          | some minimumA, some maximumA, some minimumB, some maximumB =>
            match SafeSub (min minimumA minimumB) sumA.constant,
                SafeSub (max maximumA maximumB) sumA.constant with
            | some newMinimum, some newMaximum =>
              some (true, true, setBoundsCheckRange g dominating newMinimum newMaximum)
            | _, _ => some (false, true, g)
          | _, _, _, _ => some (false, true, g)
      | _, _ => none
  | _, _, _, _, _, _ => none

/-! ## EliminateRedundantBoundsChecks -/

/-- A record of one discard by `EliminateRedundantBoundsChecks`: the two
checks, the traversal counter, the graph as it was when
`TryEliminateBoundsCheck` was called, and the movable checks visited before. -/
structure Elimination where
  dominating : Nat
  dominated : Nat
  index : Nat
  graph : MIRGraph
  visitedBefore : List Nat
deriving DecidableEq, Repr

/-- The state of `EliminateRedundantBoundsChecks`: the graph and the map
`checks`.  The last two fields are history variables, which the pass does not
have and which do not influence it: the movable checks handed to
`FindDominatingBoundsCheck` so far, latest first, and the discards made so far,
latest first. -/
structure BoundsCheckState where
  graph : MIRGraph
  checks : BoundsCheckMap
  visited : List Nat := []
  eliminations : List Elimination := []
deriving DecidableEq, Repr

/-- The body of the loop `for (MDefinitionIterator iter(block); iter; )` of
`EliminateRedundantBoundsChecks` for the definition at `iter`.  The Boolean
is `false` when the pass returns `false`. -/
def visitDefinition (addr : Nat → Nat) (index : Nat) (s : BoundsCheckState) (d : Nat) :
    Option (Bool × BoundsCheckState) :=
  match s.graph.definition d with
  | none => none
  | some def_ =>
    if !def_.isBoundsCheck then some (true, s)
    else
      match boundsCheckIndex s.graph d with
      | none => none
      | some idx =>
        let g1 := replaceAllUsesWith s.graph d idx
        if !def_.movable then some (true, { s with graph := g1 })
        else
          match FindDominatingBoundsCheck addr g1 s.checks d index with
          | none => none
          | some (dominating, checks) =>
            let s1 : BoundsCheckState :=
              { s with graph := g1, checks := checks, visited := d :: s.visited }
            if dominating = d then some (true, s1)
            else
              match TryEliminateBoundsCheck g1 dominating d with
              | none => none
              | some (false, _, g2) => some (false, { s1 with graph := g2 })
              | some (true, true, g2) =>
                some (true,
                  { s1 with
                    graph := discardDef g2 def_.block d
                    eliminations := ⟨dominating, d, index, g1, s.visited⟩ :: s.eliminations })
              | some (true, false, g2) => some (true, { s1 with graph := g2 })

/-- The loop `for (MDefinitionIterator iter(block); iter; )` over the Phis and
instructions that the block had when the loop started; the loop takes only the
definition at `iter` off the block. -/
def visitDefinitions (addr : Nat → Nat) (index : Nat) :
    List Nat → BoundsCheckState → Option (Bool × BoundsCheckState)
  | [], s => some (true, s)
  | d :: ds, s =>
    match visitDefinition addr index s d with
    | none => none
    | some (false, s') => some (false, s')
    | some (true, s') => visitDefinitions addr index ds s'

/-- The body of the loop `while (!worklist.empty())` after the block has been
popped and its immediately dominated blocks appended. -/
def visitBlock (addr : Nat → Nat) (index : Nat) (s : BoundsCheckState) (block : Nat) :
    Option (Bool × BoundsCheckState) :=
  match s.graph.block block with
  | none => none
  | some blk => visitDefinitions addr index (blk.phis ++ blk.instructions) s

/-- The loop `while (!worklist.empty())` of `EliminateRedundantBoundsChecks`. -/
def boundsCheckLoop (addr : Nat → Nat) :
    Nat → BoundsCheckState → List Nat → Nat → Option (Bool × BoundsCheckState)
  | _, s, [], _ => some (true, s)
  | 0, _, _ :: _, _ => none
  | fuel + 1, s, w :: ws, index =>
    let worklist := w :: ws
    let block := worklist.getLast (List.cons_ne_nil w ws)
    let remaining := worklist.dropLast
    match s.graph.block block with
    | none => none
    | some blk =>
      match visitBlock addr index s block with
      | none => none
      | some (false, s') => some (false, s')
      | some (true, s') =>
        boundsCheckLoop addr fuel s' (remaining ++ blk.immediatelyDominated) (index + 1)

/-- The pass `EliminateRedundantBoundsChecks` with its history variables. -/
def runBoundsChecks (addr : Nat → Nat) (fuel : Nat) (g : MIRGraph) :
    Option (Bool × BoundsCheckState) :=
  boundsCheckLoop addr fuel { graph := g, checks := [] } (selfDominating g) 0

/-- The function `EliminateRedundantBoundsChecks(graph)`: the returned Boolean
and the graph. -/
def EliminateRedundantBoundsChecks (addr : Nat → Nat) (fuel : Nat) (g : MIRGraph) :
    Option (Bool × MIRGraph) :=
  (runBoundsChecks addr fuel g).map fun r => (r.1, r.2.graph)

/-! ## The order in which the dominator tree is traversed -/

/-- The blocks in the order in which the loop `while (!worklist.empty())` of
`BuildDominatorTree` and of `EliminateRedundantBoundsChecks` pops them from the
worklist `ws`: the last block is popped and its immediately dominated blocks
are appended. -/
def popOrder (T : MIRGraph) : Nat → List Nat → Option (List Nat)
  | _, [] => some []
  | 0, _ :: _ => none
  | fuel + 1, w :: ws =>
    let worklist := w :: ws
    let block := worklist.getLast (List.cons_ne_nil w ws)
    match T.block block with
    | none => none
    | some blk =>
      match popOrder T fuel (worklist.dropLast ++ blk.immediatelyDominated) with
      | none => none
      | some rest => some (block :: rest)

/-- The list `L` is a pre-order of the dominator subtrees of the blocks `cs`:
it holds exactly their blocks, and the subtree of the block at position `p`
fills the positions `p` to `p + numDominated`. -/
structure PreOrdered (T : MIRGraph) (cs : List Nat) (L : List Nat) : Prop where
  mem : ∀ X, X ∈ L ↔ InSubtrees T cs X
  length : L.length = subtreeSizes T cs
  range : ∀ p X, L[p]? = some X → p + numDominatedOf T X < L.length
  interval : ∀ p q X Y, L[p]? = some X → L[q]? = some Y →
    (IdomChain T Y X ↔ p ≤ q ∧ q ≤ p + numDominatedOf T X)

/-- The worklist loops pop the subtrees of `cs`, on top of any worklist, in a
pre-order. -/
def Pops (T : MIRGraph) (cs : List Nat) : Prop :=
  ∃ L, PreOrdered T cs L ∧
    ∀ fuel ws, popOrder T (fuel + subtreeSizes T cs) (ws ++ cs) =
      (popOrder T fuel ws).map (fun rest => L ++ rest)

/-! ## Invariants of EliminateRedundantBoundsChecks -/

/-- The fields of a block other than its Phi and instruction lists. -/
def MBasicBlock.annotated (b : MBasicBlock) :
    (((Nat × List Nat × List Nat) × Option Nat) × Nat × List Nat) × Nat :=
  (b.links, b.domIndex)

/-- The definitions that a block lists: its Phis, then its instructions, the
order of `MDefinitionIterator`. -/
def definitionsOf (g : MIRGraph) (b : Nat) : List Nat :=
  match g.block b with
  | some blk => blk.phis ++ blk.instructions
  | none => []

/-- The Phis of the block `b`. -/
def phisOf (g : MIRGraph) (b : Nat) : List Nat :=
  match g.block b with
  | some blk => blk.phis
  | none => []

/-- The attributes of a definition that `EliminateRedundantBoundsChecks` never
changes. -/
def MDefinition.stable (d : MDefinition) : Bool × Bool × Nat :=
  (d.isBoundsCheck, d.movable, d.block)

/-- What `EliminateRedundantBoundsChecks` keeps of the graph `T` it started
from: the blocks up to their definition lists, which only lose definitions, and
the stable attributes of the definitions. -/
structure BoundsFrame (T g : MIRGraph) : Prop where
  blocks : ∀ i, (g.block i).map MBasicBlock.annotated = (T.block i).map MBasicBlock.annotated
  lists : ∀ i d, d ∈ definitionsOf g i → d ∈ definitionsOf T i
  defs : ∀ d, (g.definition d).map MDefinition.stable = (T.definition d).map MDefinition.stable

/-- Every definition that a block lists has that block as its `block()`. -/
def blocksConsistent (g : MIRGraph) : Bool :=
  g.blocks.enum.all fun (i, b) =>
    (b.phis ++ b.instructions).all fun d =>
      match g.definition d with
      | some def_ => decide (def_.block = i)
      | none => false

/-- The dominator-tree annotations of the graph are consistent, as
`BuildDominatorTree` leaves them: every block has an immediate dominator, which
precedes it in the block list unless the block is self-dominating; the
immediately dominated list of a block holds exactly the blocks it immediately
dominates, once each; and `numDominated` adds up over them. -/
def domTreeOK (g : MIRGraph) : Bool :=
  (List.range g.blocks.length).all fun X =>
    (match idomOf g X with
      | some d => decide (d = X ∨ d < X)
      | none => false) &&
    decide (childrenOf g X).Nodup &&
    ((childrenOf g X).all fun c => decide (idomOf g c = some X ∧ c ≠ X)) &&
    ((List.range g.blocks.length).all fun c =>
      decide (idomOf g c = some X ∧ c ≠ X → c ∈ childrenOf g X)) &&
    decide (numDominatedOf g X =
      ((childrenOf g X).map (fun c => numDominatedOf g c + 1)).sum)

/-- The discard recorded in `e` was justified: the dominating check is a
movable bounds check that was visited before, the two checks have the same
length operand and index sums with the same term, and the block of the
dominated check is the block of the dominating check or is dominated by it. -/
structure GoodElimination (e : Elimination) : Prop where
  earlier : e.dominating ∈ e.visitedBefore
  distinct : e.dominating ≠ e.dominated
  movable : ∃ d, e.graph.definition e.dominating = some d ∧ d.isBoundsCheck = true ∧
    d.movable = true
  length : ∃ length, boundsCheckLength e.graph e.dominating = some length ∧
    boundsCheckLength e.graph e.dominated = some length
  term : ∃ indexA indexB sumA sumB,
    boundsCheckIndex e.graph e.dominating = some indexA ∧
    boundsCheckIndex e.graph e.dominated = some indexB ∧
    ExtractLinearSum e.graph.sumFuel e.graph indexA = some sumA ∧
    ExtractLinearSum e.graph.sumFuel e.graph indexB = some sumB ∧ sumA.term = sumB.term
  dominates : ∃ dA dB, e.graph.definition e.dominating = some dA ∧
    e.graph.definition e.dominated = some dB ∧ IdomChain e.graph dB.block dA.block

/-- The blocks of the list visited one after the other, the traversal counter
going up by one each time: what the loop `while (!worklist.empty())` of
`EliminateRedundantBoundsChecks` does with the blocks it pops. -/
def visitBlocks (addr : Nat → Nat) :
    Nat → List Nat → BoundsCheckState → Option (Bool × BoundsCheckState)
  | _, [], s => some (true, s)
  | index, b :: bs, s =>
    match visitBlock addr index s b with
    | none => none
    | some (false, s') => some (false, s')
    | some (true, s') => visitBlocks addr (index + 1) bs s'

/-- The entries of the map `checks` when the block at position `q` of the
traversal order `L` is being visited: each entry holds a movable bounds check
that was visited in the block at a position `p ≤ q`, and is valid at most until
position `p + numDominated`. -/
def TableInv (T : MIRGraph) (L : List Nat) (q : Nat) (s : BoundsCheckState) : Prop :=
  ∀ key info, (key, info) ∈ s.checks →
    info.check ∈ s.visited ∧
      ∃ d p, T.definition info.check = some d ∧ d.isBoundsCheck = true ∧ d.movable = true ∧
        p ≤ q ∧ L[p]? = some d.block ∧ info.validUntil ≤ p + numDominatedOf T d.block

/-- The invariant of `EliminateRedundantBoundsChecks` while it visits the
block at position `q` of the traversal order `L`, `T` being the graph that the
pass started from. -/
structure BoundsInv (T : MIRGraph) (L : List Nat) (q : Nat) (s : BoundsCheckState) :
    Prop where
  frame : BoundsFrame T s.graph
  table : TableInv T L q s
  good : ∀ e ∈ s.eliminations, GoodElimination e
  discarded : ∀ C i, C ∈ definitionsOf T i → C ∉ definitionsOf s.graph i →
    ∃ e ∈ s.eliminations, e.dominated = C

/-- The definition `X` has no use: no definition in the graph and no resume
point has `X` as an operand. -/
def NoOperand (g : MIRGraph) (X : Nat) : Prop :=
  (∀ i y, g.definition i = some y → g.inGraph i = true → X ∉ y.operands) ∧
    ∀ rp ∈ g.resumePoints, X ∉ rp

/-- The index operand of every bounds check ranks below the check: index
chains of bounds checks have no cycle, as in a graph in which the operands of
an instruction are defined before it. -/
def IndexRanked (rank : Nat → Nat) (g : MIRGraph) : Prop :=
  ∀ X y o, g.definition X = some y → y.isBoundsCheck = true → y.operands[0]? = some o →
    rank o < rank X

/-- The index operand of every bounds check precedes the check in the
definition table. -/
def indexesEarlier (g : MIRGraph) : Bool :=
  g.defs.enum.all fun (X, y) =>
    !y.isBoundsCheck ||
      match y.operands[0]? with
      | some o => decide (o < X)
      | none => true

/-- The invariant of `EliminateRedundantBoundsChecks` about uses, `g` being
the current graph, `ds` the definitions of the current block still to visit and
`bs` the blocks still to visit: a bounds check of the graph `T` that the pass
started from either is still to be visited or has no use left.  Every block
lists a definition at most once, and the definitions still to visit are in the
graph. -/
structure UsesInv (rank : Nat → Nat) (T g : MIRGraph) (ds bs : List Nat) : Prop where
  frame : BoundsFrame T g
  ranked : IndexRanked rank g
  once : ∀ b, (definitionsOf g b).Nodup
  pending : ds.Nodup ∧ ∀ X ∈ ds, g.inGraph X = true
  replaced : ∀ X yT, T.definition X = some yT → yT.isBoundsCheck = true →
    T.inGraph X = true →
    (X ∈ ds ∨ ∃ b ∈ bs, X ∈ definitionsOf g b) ∨ NoOperand g X

/-! ## The same bounds check twice -/

/-- The definition `X` of the graph is a movable bounds check with the given
opcode data, index operand, length operand and block. -/
def IsCheck (g : MIRGraph) (X : Nat) (minimum maximum : Int) (index length block : Nat) :
    Prop :=
  ∃ y, g.definition X = some y ∧ y.op = Opcode.BoundsCheck minimum maximum ∧
    y.movable = true ∧ y.operands[0]? = some index ∧ y.operands[1]? = some length ∧
    y.block = block

/-- The check `A` comes before the check `B`: in the definition list of their
common block, or in a block from which the immediate dominators of the block of
`B` are reached. -/
def Precedes (g : MIRGraph) (A B blockA blockB : Nat) : Prop :=
  (blockA = blockB ∧ ∃ ds1 ds2 ds3, definitionsOf g blockA = ds1 ++ A :: ds2 ++ B :: ds3) ∨
  (blockA ≠ blockB ∧ IdomChain g blockB blockA ∧ A ∈ definitionsOf g blockA ∧
    B ∈ definitionsOf g blockB)

/-- The graph holds the movable bounds checks `A` and `B`, of the same index
and the same length, and no other bounds check; `A` comes first and its range
`[minA, maxA]` covers the range `[minB, maxB]` of `B`.  The dominator tree is
consistent, every definition is listed once, in its own block, neither check
is an operand of an addition or a subtraction, and shifting the range of `A`
by the constant of the index `sum` stays within `int32`. -/
structure RepeatedCheck (g : MIRGraph) (A B index length blockA blockB : Nat)
    (sum : LinearSum) (minA maxA minB maxB : Int) : Prop where
  tree : domTreeOK g = true
  consistent : blocksConsistent g = true
  once : ∀ blk ∈ g.blocks, (blk.phis ++ blk.instructions).Nodup
  small : g.blocks.length < 2 ^ 32
  distinct : A ≠ B
  first : IsCheck g A minA maxA index length blockA
  second : IsCheck g B minB maxB index length blockB
  order : Precedes g A B blockA blockB
  lengthOther : length ≠ A ∧ length ≠ B
  others : ∀ blk ∈ g.blocks, ∀ d ∈ blk.phis ++ blk.instructions,
    d = A ∨ d = B ∨ (g.definition d).all (fun y => !y.isBoundsCheck) = true
  sums : ∀ y ∈ g.defs, y.op = Opcode.Add ∨ y.op = Opcode.Sub → A ∉ y.operands ∧ B ∉ y.operands
  linear : ExtractLinearSum g.sumFuel g index = some sum
  covers : minA ≤ minB ∧ minB ≤ maxB ∧ maxB ≤ maxA
  noOverflow : INT32_MIN ≤ minA ∧ maxA ≤ INT32_MAX ∧ INT32_MIN ≤ sum.constant + minA ∧
    sum.constant + maxA ≤ INT32_MAX

/-- The hash number that `BoundsCheckHashIgnoreOffset` gives a check whose
index has the linear sum `sum` and whose length is `length`. -/
def checkHash (addr : Nat → Nat) (sum : LinearSum) (length : Nat) : Nat :=
  ((match sum.term with
    | some term => addr term
    | none => 0) ^^^ addr length) % 2 ^ 32

/-- The state of `EliminateRedundantBoundsChecks` when the first of two equal
checks has been visited and entered in the map, valid until `validUntil`. -/
def afterFirst (addr : Nat → Nat) (g : MIRGraph) (A index length : Nat) (sum : LinearSum)
    (validUntil : Nat) : BoundsCheckState :=
  { graph := replaceAllUsesWith g A index,
    checks := [(checkHash addr sum length, ⟨A, validUntil⟩)],
    visited := [A] }

/-- The graph in which `EliminateRedundantBoundsChecks` leaves a graph with
two equal checks: the uses of both are replaced and the second is discarded. -/
def afterSecondGraph (g : MIRGraph) (A B index blockB : Nat) (minA maxA : Int) : MIRGraph :=
  discardDef
    (setBoundsCheckRange (replaceAllUsesWith (replaceAllUsesWith g A index) B index) A
      minA maxA)
    blockB B

/-- The state of `EliminateRedundantBoundsChecks` when the second of two equal
checks has been visited, at the traversal counter `position`, and discarded. -/
def afterSecond (addr : Nat → Nat) (g : MIRGraph) (A B index length blockB : Nat)
    (sum : LinearSum) (minA maxA : Int) (validUntil position : Nat) : BoundsCheckState :=
  { graph := afterSecondGraph g A B index blockB minA maxA,
    checks := [(checkHash addr sum length, ⟨A, validUntil⟩)],
    visited := [B, A],
    eliminations :=
      [⟨A, B, position, replaceAllUsesWith (replaceAllUsesWith g A index) B index, [A]⟩] }

/-! ## EliminatePhis -/

/-- How a pass can fail instead of returning: a pointer that is `NULL` or
points to no definition or block is dereferenced, a `JS_ASSERT` does not hold,
or the fuel of a loop of the model is used up. -/
inductive Failure
  | nullPointer
  | assertion
  | outOfFuel
deriving DecidableEq, Repr

/-- The outcome of a pass: it returns `true` with a result, or it fails. -/
inductive Run (α : Type) where
  | ok (value : α)
  | fail (failure : Failure)
deriving DecidableEq, Repr

/-- The result of a run under a function. -/
def Run.map {α β : Type} (f : α → β) : Run α → Run β
  | .ok value => .ok (f value)
  | .fail failure => .fail failure

/-- The result of a run, or `fallback` if the run failed. -/
def Run.get {α : Type} (r : Run α) (fallback : α) : α :=
  match r with
  | .ok value => value
  | .fail _ => fallback

/-- A field of the definition `d` is written. -/
def modifyDefinition (g : MIRGraph) (d : Nat) (f : MDefinition → MDefinition) : MIRGraph :=
  { g with defs := List.modify f d g.defs }

/-- Modelled from the spec: `setUnused()` and `setUnusedUnchecked()` (MIR.h is
not among the sources); the flag `unused` is set. -/
def setUnused (g : MIRGraph) (d : Nat) : MIRGraph :=
  modifyDefinition g d fun x => { x with unused := true }

/-- Modelled from the spec: `setNotUnused()`. -/
def setNotUnused (g : MIRGraph) (d : Nat) : MIRGraph :=
  modifyDefinition g d fun x => { x with unused := false }

/-- Modelled from the spec: `setInWorklist()`. -/
def setInWorklist (g : MIRGraph) (d : Nat) : MIRGraph :=
  modifyDefinition g d fun x => { x with inWorklist := true }

/-- Modelled from the spec: `setNotInWorklist()`. -/
def setNotInWorklist (g : MIRGraph) (d : Nat) : MIRGraph :=
  modifyDefinition g d fun x => { x with inWorklist := false }

/-- Modelled from the spec: `MPhi::setHasBytecodeUses()`. -/
def setHasBytecodeUses (g : MIRGraph) (d : Nat) : MIRGraph :=
  modifyDefinition g d fun x => { x with hasBytecodeUses := true }

/-- Modelled from the spec: `MBasicBlock::discardPhiAt` (MIRGraph.cpp is not
among the sources).  The Phi is taken off the Phi list of the block; being no
longer in the graph, it is no longer in the use lists of its operands. -/
def discardPhi (g : MIRGraph) (block phi : Nat) : MIRGraph :=
  { g with blocks := List.modify (fun b => { b with phis := b.phis.erase phi }) block g.blocks }

/-- The loop `for (MUseDefIterator iter(phi); iter; iter++)` of
`IsPhiObservable` finds a use whose definition is not a Phi.  The iterator
runs over the uses by definitions that are in the graph and skips resume
points. -/
def hasNonPhiUse (g : MIRGraph) (phi : Nat) : Bool :=
  g.defs.enum.any fun (i, y) => g.inGraph i && !y.isPhi && decide (phi ∈ y.operands)

/-- The function `IsPhiObservable(phi)`. -/
def IsPhiObservable (g : MIRGraph) (phi : Nat) : Option Bool :=
  match g.definition phi with
  | none => none
  | some p => some (p.hasBytecodeUses || hasNonPhiUse g phi || decide (p.slot = 1))

/-- The function `IsPhiRedundant(phi)`: the definition that it returns (`none`
is `NULL`) and the graph, in which it may have set `hasBytecodeUses` on the
first operand.  The outer `none` is a pointer to no definition or a Phi
without operand 0. -/
def IsPhiRedundant (g : MIRGraph) (phi : Nat) : Option (Option Nat × MIRGraph) :=
  match g.definition phi with
  | none => none
  | some p =>
    match p.operands with
    | [] => none
    | first :: rest =>
      if rest.any (fun o => decide (o ≠ first ∧ o ≠ phi)) then some (none, g)
      else if p.hasBytecodeUses then
        match g.definition first with
        | none => none
        | some f => some (some first, if f.isPhi then setHasBytecodeUses g first else g)
      else some (some first, g)

/-- The state of `EliminatePhis`: the graph and the worklist.  The field
`replaced` is a history variable, which the pass does not have and which does
not influence it: the Phis whose uses the worklist loop has replaced, latest
first. -/
structure PhiState where
  graph : MIRGraph
  worklist : List Nat
  replaced : List Nat := []
deriving DecidableEq, Repr

/-- The body of the first loop of `EliminatePhis` for the Phi at `iter`, in
the block `block`. -/
def seedPhi (s : PhiState) (block phi : Nat) : Run PhiState :=
  let g1 := setUnused s.graph phi
  match IsPhiRedundant g1 phi with
  | none => .fail .nullPointer
  | some (some redundant, g2) =>
    .ok { s with graph := discardPhi (replaceAllUsesWith g2 phi redundant) block phi }
  | some (none, g2) =>
    match IsPhiObservable g2 phi with
    | none => .fail .nullPointer
    | some true => .ok { s with graph := setInWorklist g2 phi, worklist := s.worklist ++ [phi] }
    | some false => .ok { s with graph := g2 }

/-- The loop `while (iter != block->phisEnd())` of the first pass over the
Phis that the block had when the loop started; the loop takes only the Phi at
`iter` off the list. -/
def seedPhis (block : Nat) : List Nat → PhiState → Run PhiState
  | [], s => .ok s
  | phi :: rest, s =>
    match seedPhi s block phi with
    | .fail e => .fail e
    | .ok s' => seedPhis block rest s'

/-- The first loop of `EliminatePhis` over the blocks `bs`. -/
def seedBlocks : List Nat → PhiState → Run PhiState
  | [], s => .ok s
  | b :: bs, s =>
    match s.graph.block b with
    | none => .fail .nullPointer
    | some blk =>
      match seedPhis b blk.phis s with
      | .fail e => .fail e
      | .ok s' => seedBlocks bs s'

/-- The loop `for (size_t i = 0; i < phi->numOperands(); i++)` at the end of
the body of the worklist loop, over the operands `ins`. -/
def enqueueOperands : List Nat → MIRGraph → List Nat → Run (MIRGraph × List Nat)
  | [], g, worklist => .ok (g, worklist)
  | in_ :: rest, g, worklist =>
    match g.definition in_ with
    | none => .fail .nullPointer
    | some d =>
      if !d.isPhi || !d.unused || d.inWorklist then enqueueOperands rest g worklist
      else enqueueOperands rest (setInWorklist g in_) (worklist ++ [in_])

/-- The body of the loop `while (!worklist.empty())` of `EliminatePhis` when
`phi` has been popped and `worklist` is what is left. -/
def markPhi (s : PhiState) (phi : Nat) (worklist : List Nat) : Run PhiState :=
  match s.graph.definition phi with
  | none => .fail .nullPointer
  | some p =>
    if !p.unused then .fail .assertion
    else
      let g1 := setNotInWorklist s.graph phi
      match IsPhiRedundant g1 phi with
      | none => .fail .nullPointer
      | some (redundant, g2) =>
        match
          (match redundant with
           | some r =>
             let g3 := replaceAllUsesWith g2 phi r
             match g3.definition r with
             | none => none
             | some rd => some (if rd.isPhi then setUnused g3 r else g3)
           | none => some (setNotUnused g2 phi)) with
        | none => .fail .nullPointer
        | some g4 =>
          match g4.definition phi with
          | none => .fail .nullPointer
          | some p4 =>
            match enqueueOperands p4.operands g4 worklist with
            | .fail e => .fail e
            | .ok (g5, worklist5) =>
              .ok { graph := g5, worklist := worklist5,
                    replaced := if redundant.isSome then phi :: s.replaced else s.replaced }

/-- The loop `while (!worklist.empty())` of `EliminatePhis`. -/
def markPhis : Nat → PhiState → Run PhiState
  | fuel, s =>
    match s.worklist with
    | [] => .ok s
    | w :: ws =>
      match fuel with
      | 0 => .fail .outOfFuel
      | fuel + 1 =>
        match markPhi s ((w :: ws).getLast (List.cons_ne_nil w ws)) (w :: ws).dropLast with
        | .fail e => .fail e
        | .ok s' => markPhis fuel s'

/-- The body of the last loop of `EliminatePhis` for the Phi at `iter`. -/
def sweepPhi (g : MIRGraph) (block phi : Nat) : Run MIRGraph :=
  match g.definition phi with
  | none => .fail .nullPointer
  | some p => .ok (if p.unused then discardPhi g block phi else g)

/-- The loop `while (iter != block->phisEnd())` of the last pass. -/
def sweepPhis (block : Nat) : List Nat → MIRGraph → Run MIRGraph
  | [], g => .ok g
  | phi :: rest, g =>
    match sweepPhi g block phi with
    | .fail e => .fail e
    | .ok g' => sweepPhis block rest g'

/-- The last loop of `EliminatePhis` over the blocks `bs`. -/
def sweepBlocks : List Nat → MIRGraph → Run MIRGraph
  | [], g => .ok g
  | b :: bs, g =>
    match g.block b with
    | none => .fail .nullPointer
    | some blk =>
      match sweepPhis b blk.phis g with
      | .fail e => .fail e
      | .ok g' => sweepBlocks bs g'

/-- The blocks in the order of `PostorderIterator`, from `graph.poBegin()` to
`graph.poEnd()`: the block list backwards. -/
def MIRGraph.postorder (g : MIRGraph) : List Nat :=
  (List.range g.blocks.length).reverse

/-- The first two loops of `EliminatePhis`, with the history variable. -/
def markLivePhis (fuel : Nat) (g : MIRGraph) : Run PhiState :=
  match seedBlocks g.postorder { graph := g, worklist := [] } with
  | .fail e => .fail e
  | .ok s => markPhis fuel s

/-- The function `EliminatePhis(graph)`; `Run.ok` is the result `true`. -/
def EliminatePhis (fuel : Nat) (g : MIRGraph) : Run MIRGraph :=
  match markLivePhis fuel g with
  | .fail e => .fail e
  | .ok s => sweepBlocks s.graph.postorder s.graph

/-! ## Invariants of EliminatePhis -/

/-- The Phis of the graph: the Phi lists of the blocks, one after the other. -/
def allPhis (g : MIRGraph) : List Nat :=
  (g.blocks.map MBasicBlock.phis).flatten

/-- A definition without the flags `unused` and `inWorklist`. -/
def MDefinition.unflagged (d : MDefinition) : MDefinition :=
  { d with unused := false, inWorklist := false }

/-- The graph `g` is the graph `T` up to the flags `unused` and `inWorklist`
of the definitions. -/
structure FlagFrame (T g : MIRGraph) : Prop where
  blocks : g.blocks = T.blocks
  resumePoints : g.resumePoints = T.resumePoints
  defs : ∀ x, (g.definition x).map MDefinition.unflagged =
    (T.definition x).map MDefinition.unflagged

/-- The Phi lists and the definition table agree: a listed definition is a
Phi of the table, every Phi of the table is listed, exactly once, its operands
are definitions of the table, and its flag `inWorklist` is not set. -/
def phisCoherent (g : MIRGraph) : Bool :=
  ((allPhis g).all fun p =>
    match g.definition p with
    | some y => y.isPhi
    | none => false) &&
  decide (allPhis g).Nodup &&
  (g.defs.enum.all fun (i, y) =>
    !y.isPhi ||
      (decide (i ∈ allPhis g) && !y.inWorklist &&
        y.operands.all fun o => decide (o < g.defs.length)))

/-- The test of `IsPhiRedundant` fails: the Phi `phi` with the definition `y`
has an operand other than operand 0 and other than the Phi itself. -/
def hasOtherOperand (y : MDefinition) (phi : Nat) : Bool :=
  match y.operands with
  | [] => false
  | first :: rest => rest.any fun o => decide (o ≠ first ∧ o ≠ phi)

/-- No Phi of the graph is redundant. -/
def noPhiRedundant (g : MIRGraph) : Bool :=
  g.defs.enum.all fun (i, y) => !y.isPhi || hasOtherOperand y i

/-- The Phi `a` has the Phi `b` as an operand. -/
def PhiOperand (g : MIRGraph) (a b : Nat) : Prop :=
  ∃ y z, g.definition a = some y ∧ y.isPhi = true ∧ b ∈ y.operands ∧
    g.definition b = some z ∧ z.isPhi = true

/-- The Phi `p` is observable, or is reached from an observable Phi by
following Phi operands. -/
def LivePhi (g : MIRGraph) (p : Nat) : Prop :=
  ∃ q, q ∈ allPhis g ∧ IsPhiObservable g q = some true ∧
    Relation.ReflTransGen (PhiOperand g) q p

/-- The number of definitions flagged `unused`. -/
def unusedCount (g : MIRGraph) : Nat :=
  g.defs.countP fun y => y.unused

/-- The flag `unused` of the definition `p` is set. -/
def isUnused (g : MIRGraph) (p : Nat) : Bool :=
  match g.definition p with
  | some y => y.unused
  | none => false

/-- The flag `inWorklist` of the definition `p` is set. -/
def isInWorklist (g : MIRGraph) (p : Nat) : Bool :=
  match g.definition p with
  | some y => y.inWorklist
  | none => false

/-- The Phis of the blocks `bs`, in the order in which the loops over the
blocks and their Phi lists visit them. -/
def phisIn (g : MIRGraph) (bs : List Nat) : List Nat :=
  (bs.map fun b =>
    match g.block b with
    | some blk => blk.phis
    | none => []).flatten

/-- The Phi `p` is observable in the graph `T`. -/
def observable (T : MIRGraph) (p : Nat) : Bool :=
  IsPhiObservable T p == some true

/-- The state of the first loop of `EliminatePhis` on a graph `T` without
redundant Phis when the Phis `V` have been visited: they are flagged `unused`,
the observable ones are in the worklist and flagged so, and nothing else has
changed. -/
structure Seeded (T : MIRGraph) (s : PhiState) (V : List Nat) : Prop where
  frame : FlagFrame T s.graph
  visited : ∀ p ∈ V, isUnused s.graph p = true ∧ isInWorklist s.graph p = observable T p
  pending : ∀ p, p ∉ V → s.graph.definition p = T.definition p
  worklist : s.worklist = V.filter (observable T)
  replaced : s.replaced = []

/-- The invariant of the worklist loop of `EliminatePhis` on a graph `T`
without redundant Phis: the worklist holds the Phis flagged `inWorklist`, they
are unused and live; a Phi marked used is live and its Phi operands are used
or in the worklist, except for the operands `todo` of the Phi `X`, which the
loop over the operands has still to look at; an observable Phi is used or in
the worklist. -/
structure Marking (T g : MIRGraph) (worklist : List Nat) (X : Nat) (todo : List Nat) :
    Prop where
  frame : FlagFrame T g
  nodup : worklist.Nodup
  flagged : ∀ p ∈ allPhis T, (isInWorklist g p = true ↔ p ∈ worklist)
  queued : ∀ p ∈ worklist, p ∈ allPhis T ∧ isUnused g p = true ∧ LivePhi T p
  used : ∀ p ∈ allPhis T, isUnused g p = false → LivePhi T p ∧
    ∀ o, PhiOperand T p o → (p = X ∧ o ∈ todo) ∨ isUnused g o = false ∨ o ∈ worklist
  observed : ∀ p ∈ allPhis T, IsPhiObservable T p = some true →
    isUnused g p = false ∨ p ∈ worklist

/-- The opcode and the operands of a definition. -/
def MDefinition.shape (d : MDefinition) : Opcode × List Nat :=
  (d.op, d.operands)

/-- The graph `g'` is the graph `g` up to fields of definitions other than
opcode and operands. -/
structure SameShape (g g' : MIRGraph) : Prop where
  blocks : g'.blocks = g.blocks
  resumePoints : g'.resumePoints = g.resumePoints
  defs : ∀ x, (g'.definition x).map MDefinition.shape = (g.definition x).map MDefinition.shape

/-- Operand `k` of the definition `x`. -/
def usesAt (g : MIRGraph) (x k : Nat) : Option Nat :=
  match g.definition x with
  | some y => y.operands[k]?
  | none => none

/-- Operand `k` of the resume point `i`. -/
def resumeAt (g : MIRGraph) (i k : Nat) : Option Nat :=
  match g.resumePoints[i]? with
  | some rp => rp[k]?
  | none => none

/-! ## TypeAnalyzer -/

/-- Modelled from the spec: `IsNumberType` (its header is not among the
sources): the type is `Int32` or `Double`. -/
def IsNumberType (type : MIRType) : Bool :=
  type = MIRType.Int32 || type = MIRType.Double

/-- The test `type <= MIRType_Null`: the type is `Undefined` or `Null`, the
first two tags of the enumeration. -/
def MIRType.atMostNull (type : MIRType) : Bool :=
  type = MIRType.Undefined || type = MIRType.Null

/-- The call `def->isUnbox()`. -/
def MDefinition.isUnbox (d : MDefinition) : Bool :=
  match d.op with
  | .Unbox => true
  | _ => false

/-- Modelled from the spec: `MPhi::specialize(type)` (MIR.h is not among the
sources): the result type is set and the Phi is flagged `triedToSpecialize`. -/
def specialize (g : MIRGraph) (phi : Nat) (type : MIRType) : MIRGraph :=
  modifyDefinition g phi fun x => { x with type := type, triedToSpecialize := true }

/-- The loop of `GuessPhiType` over the operands `ins`, `type` being the type
guessed so far. -/
def guessLoop (g : MIRGraph) : List Nat → MIRType → Option MIRType
  | [], type => some type
  | in_ :: rest, type =>
    match g.definition in_ with
    | none => none
    | some d =>
      if d.isPhi && (!d.triedToSpecialize || d.type = MIRType.None) then guessLoop g rest type
      else if type = MIRType.None then guessLoop g rest d.type
      else if type ≠ d.type then
        if IsNumberType type && IsNumberType d.type then guessLoop g rest MIRType.Double
        else some MIRType.Value
      else guessLoop g rest type

/-- The function `GuessPhiType(phi)`. -/
def GuessPhiType (g : MIRGraph) (phi : Nat) : Option MIRType :=
  match g.definition phi with
  | none => none
  | some p => guessLoop g p.operands MIRType.None

/-- The state of the `TypeAnalyzer`: the graph and `phiWorklist_`. -/
structure TypeState where
  graph : MIRGraph
  phiWorklist : List Nat
deriving DecidableEq, Repr

/-- The method `addPhiToWorklist(phi)`. -/
def addPhiToWorklist (s : TypeState) (phi : Nat) : Option TypeState :=
  match s.graph.definition phi with
  | none => none
  | some p =>
    if p.inWorklist then some s
    else some { graph := setInWorklist s.graph phi, phiWorklist := s.phiWorklist ++ [phi] }

/-- The method `respecialize(phi, type)`. -/
def respecialize (s : TypeState) (phi : Nat) (type : MIRType) : Option TypeState :=
  match s.graph.definition phi with
  | none => none
  | some p =>
    if p.type = type then some s
    else addPhiToWorklist { s with graph := specialize s.graph phi type } phi

/-- The uses of `phi` that `MUseDefIterator` runs over: one for each operand
slot that holds `phi` in a definition that is in the graph, here in the order
of the definition table. -/
def usesOf (g : MIRGraph) (phi : Nat) : List Nat :=
  (g.defs.enum.map fun (i, y) =>
    if g.inGraph i then (y.operands.filter fun o => o = phi).map fun _ => i else []).flatten

/-- The body of the loop of `propagateSpecialization(phi)` for the use
`use`. -/
def propagateToUse (s : TypeState) (phi use : Nat) : Option TypeState :=
  match s.graph.definition phi, s.graph.definition use with
  | some p, some u =>
    if !u.isPhi then some s
    else if !u.triedToSpecialize then some s
    else if u.type = MIRType.None then respecialize s use p.type
    else if u.type ≠ p.type then
      if IsNumberType u.type && IsNumberType p.type then respecialize s use MIRType.Double
      else respecialize s use MIRType.Value
    else some s
  | _, _ => none

/-- The loop of `propagateSpecialization(phi)` over the uses. -/
def propagateToUses (phi : Nat) : List Nat → TypeState → Option TypeState
  | [], s => some s
  | use :: rest, s =>
    match propagateToUse s phi use with
    | none => none
    | some s' => propagateToUses phi rest s'

/-- The method `propagateSpecialization(phi)`. -/
def propagateSpecialization (s : TypeState) (phi : Nat) : Run TypeState :=
  match s.graph.definition phi with
  | none => .fail .nullPointer
  | some p =>
    if p.type = MIRType.None then .fail .assertion
    else
      match propagateToUses phi (usesOf s.graph phi) s with
      | none => .fail .nullPointer
      | some s' => .ok s'

/-- The body of the first loop of `specializePhis` for the Phi `phi`. -/
def specializePhi (s : TypeState) (phi : Nat) : Run TypeState :=
  match GuessPhiType s.graph phi with
  | none => .fail .nullPointer
  | some type =>
    let s1 : TypeState := { s with graph := specialize s.graph phi type }
    if type = MIRType.None then .ok s1
    else propagateSpecialization s1 phi

/-- The first loop of `specializePhis` over the Phis of a block. -/
def specializeBlockPhis : List Nat → TypeState → Run TypeState
  | [], s => .ok s
  | phi :: rest, s =>
    match specializePhi s phi with
    | .fail e => .fail e
    | .ok s' => specializeBlockPhis rest s'

/-- The first loop of `specializePhis` over the blocks `bs`. -/
def specializeBlocks : List Nat → TypeState → Run TypeState
  | [], s => .ok s
  | b :: bs, s =>
    match s.graph.block b with
    | none => .fail .nullPointer
    | some blk =>
      match specializeBlockPhis blk.phis s with
      | .fail e => .fail e
      | .ok s' => specializeBlocks bs s'

/-- The loop `while (!phiWorklist_.empty())` of `specializePhis`. -/
def propagateWorklist : Nat → TypeState → Run TypeState
  | fuel, s =>
    match s.phiWorklist with
    | [] => .ok s
    | w :: ws =>
      match fuel with
      | 0 => .fail .outOfFuel
      | fuel + 1 =>
        let phi := (w :: ws).getLast (List.cons_ne_nil w ws)
        match propagateSpecialization
            { graph := setNotInWorklist s.graph phi, phiWorklist := (w :: ws).dropLast } phi with
        | .fail e => .fail e
        | .ok s' => propagateWorklist fuel s'

/-- The method `specializePhis()`. -/
def specializePhis (fuel : Nat) (g : MIRGraph) : Run MIRGraph :=
  match specializeBlocks g.postorder { graph := g, phiWorklist := [] } with
  | .fail e => .fail e
  | .ok s =>
    match propagateWorklist fuel s with
    | .fail e => .fail e
    | .ok s' => .ok s'.graph

/-- A new definition is allocated: it gets the next position of the
definition table, which is its pointer. -/
def addDefinition (g : MIRGraph) (d : MDefinition) : Nat × MIRGraph :=
  (g.defs.length, { g with defs := g.defs ++ [d] })

/-- Modelled from the spec: `block->insertBefore(block->lastIns(), ins)`
(MIRGraph.cpp is not among the sources); `none` if the block has no last
instruction. -/
def insertBeforeLast (g : MIRGraph) (block ins : Nat) : Option MIRGraph :=
  match g.block block with
  | none => none
  | some blk =>
    if blk.instructions = [] then none
    else
      some { g with
        blocks := List.modify
          (fun b => { b with
            instructions := b.instructions.dropLast ++ ins :: b.instructions.drop
              (b.instructions.length - 1) })
          block g.blocks }

/-- Modelled from the spec: `block->insertBefore(*(block->begin()), ins)`;
`none` if the block has no first instruction. -/
def insertAtBegin (g : MIRGraph) (block ins : Nat) : Option MIRGraph :=
  match g.block block with
  | none => none
  | some blk =>
    if blk.instructions = [] then none
    else
      some { g with
        blocks := List.modify (fun b => { b with instructions := ins :: b.instructions })
          block g.blocks }

/-- Modelled from the spec: `phi->replaceOperand(i, def)`. -/
def replaceOperand (g : MIRGraph) (phi i def_ : Nat) : MIRGraph :=
  modifyDefinition g phi fun x => { x with operands := x.operands.set i def_ }

/-- A conversion of `in_`, as `MToDouble::New(in)` and `MBox::New(in)` make
it: an instruction with the one operand `in_` and the given result type. -/
def conversion (op : Opcode) (type : MIRType) (in_ block : Nat) : MDefinition :=
  { op := op, type := type, operands := [in_], block := block }

/-- The body of the two loops of `adjustPhiInputs(phi)` for operand `i`;
`phiType` is the type of the Phi, `Double` or `Value`. -/
def adjustPhiInput (phiType : MIRType) (g : MIRGraph) (phi i : Nat) : Run MIRGraph :=
  match g.definition phi with
  | none => .fail .nullPointer
  | some p =>
    match p.operands[i]? with
    | none => .fail .nullPointer
    | some in_ =>
      match g.definition in_ with
      | none => .fail .nullPointer
      | some d =>
        if phiType = MIRType.Double then
          if d.type = MIRType.Int32 then
            let (toDouble, g1) :=
              addDefinition g (conversion Opcode.ToDouble MIRType.Double in_ d.block)
            match insertBeforeLast g1 d.block toDouble with
            | none => .fail .nullPointer
            | some g2 => .ok (replaceOperand g2 phi i toDouble)
          else if d.type = MIRType.Double then .ok g
          else .fail .assertion
        else
          if d.type = MIRType.Value then .ok g
          else if d.isUnbox then
            match d.operands[0]? with
            | none => .fail .nullPointer
            | some input => .ok (replaceOperand g phi i input)
          else
            let (box, g1) := addDefinition g (conversion Opcode.Box MIRType.Value in_ d.block)
            match insertBeforeLast g1 d.block box with
            | none => .fail .nullPointer
            | some g2 => .ok (replaceOperand g2 phi i box)

/-- The loops `for (size_t i = 0; i < phi->numOperands(); i++)` of
`adjustPhiInputs`, over the operand positions `is`. -/
def adjustPhiInputsLoop (phiType : MIRType) (phi : Nat) : List Nat → MIRGraph → Run MIRGraph
  | [], g => .ok g
  | i :: is, g =>
    match adjustPhiInput phiType g phi i with
    | .fail e => .fail e
    | .ok g' => adjustPhiInputsLoop phiType phi is g'

/-- The method `adjustPhiInputs(phi)`. -/
def adjustPhiInputs (g : MIRGraph) (phi : Nat) : Run MIRGraph :=
  match g.definition phi with
  | none => .fail .nullPointer
  | some p =>
    if p.type = MIRType.Double ∨ p.type = MIRType.Value then
      adjustPhiInputsLoop p.type phi (List.range p.operands.length) g
    else .ok g

/-- The constant `MConstant::New(v)` of `replaceRedundantPhi` for the Phi with
the definition `p`: `v` is `UndefinedValue()` if the type of the Phi is
`Undefined` and `NullValue()` otherwise. -/
def redundantConstant (p : MDefinition) : MDefinition :=
  if p.type = MIRType.Undefined then
    { op := Opcode.Constant ConstantValue.Undefined, type := MIRType.Undefined,
      operands := [], block := p.block }
  else
    { op := Opcode.Constant ConstantValue.Null, type := MIRType.Null,
      operands := [], block := p.block }

/-- The method `replaceRedundantPhi(phi)`. -/
def replaceRedundantPhi (g : MIRGraph) (phi : Nat) : Run MIRGraph :=
  match g.definition phi with
  | none => .fail .nullPointer
  | some p =>
    let (constant, g1) := addDefinition g (redundantConstant p)
    match insertAtBegin g1 p.block constant with
    | none => .fail .nullPointer
    | some g2 => .ok (replaceAllUsesWith g2 phi constant)

/-- The body of the loop of `insertConversions` over the Phis of a block. -/
def convertPhi (g : MIRGraph) (block phi : Nat) : Run MIRGraph :=
  match g.definition phi with
  | none => .fail .nullPointer
  | some p =>
    if p.type.atMostNull then
      match replaceRedundantPhi g phi with
      | .fail e => .fail e
      | .ok g1 => .ok (discardPhi g1 block phi)
    else adjustPhiInputs g phi

/-- The loop of `insertConversions` over the Phis of a block. -/
def convertPhis (block : Nat) : List Nat → MIRGraph → Run MIRGraph
  | [], g => .ok g
  | phi :: rest, g =>
    match convertPhi g block phi with
    | .fail e => .fail e
    | .ok g' => convertPhis block rest g'

/-- The loop of `insertConversions` over the instructions of a block.  The
function `policy` is `adjustInputs`, that is the type policy of the
instruction (TypePolicy.cpp is not among the sources); `none` is its result
`false`, with which the pass returns `false`. -/
def adjustInstructions (policy : MIRGraph → Nat → Option MIRGraph) :
    List Nat → MIRGraph → Option MIRGraph
  | [], g => some g
  | ins :: rest, g =>
    match policy g ins with
    | none => none
    | some g' => adjustInstructions policy rest g'

/-- The method `insertConversions()` over the blocks `bs`; the Boolean is the
result. -/
def insertConversions (policy : MIRGraph → Nat → Option MIRGraph) :
    List Nat → MIRGraph → Run (Bool × MIRGraph)
  | [], g => .ok (true, g)
  | b :: bs, g =>
    match g.block b with
    | none => .fail .nullPointer
    | some blk =>
      match convertPhis b blk.phis g with
      | .fail e => .fail e
      | .ok g1 =>
        match g1.block b with
        | none => .fail .nullPointer
        | some blk1 =>
          match adjustInstructions policy blk1.instructions g1 with
          | none => .ok (false, g1)
          | some g2 => insertConversions policy bs g2

/-- Every definition that a Phi list names is a Phi of the definition
table. -/
def phisArePhis (g : MIRGraph) : Bool :=
  (allPhis g).all fun p =>
    match g.definition p with
    | some y => y.isPhi
    | none => false

/-- The input of every `Unbox` has type `Value`. -/
def UnboxesTyped (g : MIRGraph) : Prop :=
  ∀ x u, g.definition x = some u → u.isUnbox = true →
    ∃ input i, u.operands[0]? = some input ∧ g.definition input = some i ∧
      i.type = MIRType.Value

/-- What is taken for granted of the type policies, `adjustInputs`: a policy
leaves the Phi lists alone, changes neither type nor opcode of a definition
nor the operands of a Phi, and every `Unbox` has an input of type `Value`
afterwards if that was so before. -/
structure PolicyFrame (policy : MIRGraph → Nat → Option MIRGraph) : Prop where
  phis : ∀ g ins g', policy g ins = some g' →
    g'.blocks.map MBasicBlock.phis = g.blocks.map MBasicBlock.phis
  defs : ∀ g ins g', policy g ins = some g' → ∀ x y, g.definition x = some y →
    ∃ y', g'.definition x = some y' ∧ y'.type = y.type ∧ y'.op = y.op ∧
      (y.isPhi = true → y'.operands = y.operands)
  unboxes : ∀ g ins g', policy g ins = some g' → UnboxesTyped g → UnboxesTyped g'

/-- Under the valuation `value` of the definitions of the graph, an `Add`
denotes the exact integer sum and a `Sub` the exact integer difference of its
first two operands, and an `Int32` constant denotes its value. -/
def denotes (value : Nat → Int) (g : MIRGraph) : Bool :=
  g.defs.enum.all fun (x, d) =>
    match d.op with
    | .Constant (.Int32 v) => decide (value x = v)
    | .Add =>
      match d.operands with
      | lhs :: rhs :: _ => decide (value x = value lhs + value rhs)
      | _ => true
    | .Sub =>
      match d.operands with
      | lhs :: rhs :: _ => decide (value x = value lhs - value rhs)
      | _ => true
    | _ => true

/-- The value of the term of a linear sum: that of the definition, and 0 for
`NULL`. -/
def termValue (value : Nat → Int) (term : Option Nat) : Int :=
  match term with
  | some t => value t
  | none => 0

/-! ## The guess of GuessPhiType -/

/-- The operand with the definition `d` is unresolved: it is a Phi that has
not been tried yet, or one that has been tried and is still typed `None`. -/
def isUnresolved (d : MDefinition) : Bool :=
  d.isPhi && (!d.triedToSpecialize || d.type = MIRType.None)

/-- The types of the operands `ops` that are resolved, in the order of the
operands. -/
def resolvedTypes (g : MIRGraph) (ops : List Nat) : List MIRType :=
  ops.filterMap fun o =>
    match g.definition o with
    | some d => if isUnresolved d then none else some d.type
    | none => none

/-- The loop of `GuessPhiType` as it runs on the types of the resolved
operands. -/
def guessTypes : List MIRType → MIRType → MIRType
  | [], type => type
  | t :: rest, type =>
    if type = MIRType.None then guessTypes rest t
    else if type ≠ t then
      if IsNumberType type && IsNumberType t then guessTypes rest MIRType.Double
      else MIRType.Value
    else guessTypes rest type

/-- The join of the types `ts` in the order `None < T < Value` with
`Int32 < Double < Value`: `None` for no type at all, the common type if all are
the same, `Double` if all are `Int32` or `Double`, and `Value` otherwise. -/
def joinTypes (ts : List MIRType) : MIRType :=
  match ts with
  | [] => MIRType.None
  | t :: _ =>
    if ts.all (fun x => decide (x = t)) then t
    else if ts.all IsNumberType then MIRType.Double
    else MIRType.Value

/-- The operands of the Phi are definitions of the table, and none that is
resolved has the type `None`, which is not the type of a value. -/
def operandsTyped (g : MIRGraph) (ops : List Nat) : Bool :=
  ops.all fun o =>
    match g.definition o with
    | some d => isUnresolved d || decide (d.type ≠ MIRType.None)
    | none => false

/-! ## The measure of specializePhis -/

/-- The order `None < T < Value` with `Int32 < Double < Value` on the types. -/
def typeLe (a b : MIRType) : Bool :=
  decide (a = b) || decide (a = MIRType.None) || decide (b = MIRType.Value) ||
    (decide (a = MIRType.Int32) && decide (b = MIRType.Double))

/-- The height of a type in the order `typeLe`. -/
def typeRank (type : MIRType) : Nat :=
  match type with
  | .None => 0
  | .Double => 2
  | .Value => 3
  | _ => 1

/-- How far the types of the definitions are from `Value`, summed over the
table. -/
def slack (g : MIRGraph) : Nat :=
  (g.defs.map fun d => 3 - typeRank d.type).sum

/-- The worklist of the `TypeAnalyzer` has no Phi twice, and every Phi in it
is a definition of the table that is flagged `inWorklist`. -/
structure WorkInv (s : TypeState) : Prop where
  nodup : s.phiWorklist.Nodup
  flagged : ∀ x ∈ s.phiWorklist, ∃ d, s.graph.definition x = some d ∧ d.inWorklist = true

/-- The state `s'` comes after the state `s` in the worklist loop: the table
has the same size, no type has gone down in the order `typeLe`, and the
worklist has grown by no more than the types have gone up. -/
structure TypeStep (s s' : TypeState) : Prop where
  length : s'.graph.defs.length = s.graph.defs.length
  up : ∀ x d, s.graph.definition x = some d →
    ∃ d', s'.graph.definition x = some d' ∧ typeLe d.type d'.type = true
  measure : s'.phiWorklist.length + slack s'.graph ≤ s.phiWorklist.length + slack s.graph

/-- The Phi `phi` has the type `Undefined` or `Null`, the test
`phi->type() <= MIRType_Null` of `insertConversions`. -/
def redundantPhi (g : MIRGraph) (phi : Nat) : Bool :=
  match g.definition phi with
  | some p => p.type.atMostNull
  | none => false

/-- Every Phi list names a Phi once. -/
def phisNodup (g : MIRGraph) : Bool :=
  g.blocks.all fun blk => decide blk.phis.Nodup

/-- The graph `g'` has the Phi lists of `g` and the definitions of `g` with
their types and opcodes. -/
structure KeepsPhis (g g' : MIRGraph) : Prop where
  phis : g'.blocks.map MBasicBlock.phis = g.blocks.map MBasicBlock.phis
  defs : ∀ x y, g.definition x = some y →
    ∃ y', g'.definition x = some y' ∧ y'.type = y.type ∧ y'.op = y.op

/-- The Phi lists are coherent: each names a Phi once, and the Phi is a
definition of the table. -/
def PhisOk (g : MIRGraph) : Prop :=
  ∀ c, (phisOf g c).Nodup ∧ ∀ x ∈ phisOf g c, ∃ y, g.definition x = some y

/-! ## EliminateDeadCode -/

/-- Modelled from the spec: `MDefinition::hasUses()` (MIR.h is not among the
sources): the use list of the definition is not empty.  The uses of `d` are
the operand slots that hold `d` in the definitions that are in the graph and
in the resume points. -/
def hasUses (g : MIRGraph) (d : Nat) : Bool :=
  (g.defs.enum.any fun (i, y) => g.inGraph i && decide (d ∈ y.operands)) ||
    g.resumePoints.any fun rp => decide (d ∈ rp)

/-- The body of the loop of `EliminateDeadCode` over the instructions of the
block `block`, for the instruction `inst`. -/
def eliminateDead (g : MIRGraph) (block inst : Nat) : Option MIRGraph :=
  match g.definition inst with
  | none => none
  | some d =>
    if !d.effectful && !hasUses g inst && !d.guard && !d.controlInstruction then
      some (discardDef g block inst)
    else some g

/-- The loop `for (MInstructionReverseIterator inst = block->rbegin(); ...)`
over the instructions `insts`, which are those of the block backwards; the
loop takes only the instruction at `inst` off the list. -/
def eliminateDeadInstructions (block : Nat) : List Nat → MIRGraph → Option MIRGraph
  | [], g => some g
  | inst :: rest, g =>
    match eliminateDead g block inst with
    | none => none
    | some g' => eliminateDeadInstructions block rest g'

/-- The loop of `EliminateDeadCode` over the blocks `bs`. -/
def eliminateDeadBlocks : List Nat → MIRGraph → Option MIRGraph
  | [], g => some g
  | b :: bs, g =>
    match g.block b with
    | none => none
    | some blk =>
      match eliminateDeadInstructions b blk.instructions.reverse g with
      | none => none
      | some g' => eliminateDeadBlocks bs g'

/-- The function `EliminateDeadCode(graph)`. -/
def EliminateDeadCode (g : MIRGraph) : Run MIRGraph :=
  match eliminateDeadBlocks g.postorder g with
  | none => .fail .nullPointer
  | some g' => .ok g'

/-- The instructions of the block `b`. -/
def instructionsOf (g : MIRGraph) (b : Nat) : List Nat :=
  match g.block b with
  | some blk => blk.instructions
  | none => []

/-- The instruction lists and the definition table agree: an instruction is
in the list of its block once, and it is a definition of the table. -/
def instructionsCoherent (g : MIRGraph) : Bool :=
  g.blocks.all fun blk =>
    decide blk.instructions.Nodup && blk.instructions.all fun i => decide (i < g.defs.length)

/-- The pass visits every instruction after the instructions that use it: an
instruction that uses the instruction at position `k` of the block `b` is at a
later position of `b` or in a later block of the block list, which is a block
earlier in postorder. -/
def usesLater (g : MIRGraph) : Bool :=
  (List.range g.blocks.length).all fun b =>
    (instructionsOf g b).enum.all fun (k, x) =>
      (List.range g.blocks.length).all fun b' =>
        (instructionsOf g b').enum.all fun (k', j) =>
          match g.definition j with
          | some y => !decide (x ∈ y.operands) || decide (b < b') || (b' = b && decide (k < k'))
          | none => true

/-- The test of `EliminateDeadCode` keeps the instruction `i`: it is
effectful, a guard or a control instruction, or it has a use. -/
def Live (g : MIRGraph) (i : Nat) : Prop :=
  ∃ d, g.definition i = some d ∧
    (d.effectful = true ∨ d.guard = true ∨ d.controlInstruction = true ∨ hasUses g i = true)

/-- The invariant of `EliminateDeadCode` on the graph `T` before the loop over
the blocks comes to block `k - 1`: the blocks below `k` are as in `T`, and the
instructions left in the others are kept by the test. -/
structure DeadOuter (T g : MIRGraph) (k : Nat) : Prop where
  defs : g.defs = T.defs
  resumePoints : g.resumePoints = T.resumePoints
  length : g.blocks.length = T.blocks.length
  before : ∀ b, b < k → instructionsOf g b = instructionsOf T b
  after : ∀ b, k ≤ b → ∀ i ∈ instructionsOf g b, i ∈ instructionsOf T b ∧ Live g i

/-- The invariant of the loop over the instructions of block `b`: `todo` are
the instructions that the loop has yet to visit, backwards, and `kept` those
that it has visited and left in the block. -/
structure DeadInner (T g : MIRGraph) (b : Nat) (todo kept : List Nat) : Prop where
  defs : g.defs = T.defs
  resumePoints : g.resumePoints = T.resumePoints
  length : g.blocks.length = T.blocks.length
  before : ∀ c, c < b → instructionsOf g c = instructionsOf T c
  after : ∀ c, b < c → ∀ i ∈ instructionsOf g c, i ∈ instructionsOf T c ∧ Live g i
  current : instructionsOf g b = todo.reverse ++ kept
  original : ∃ post, instructionsOf T b = todo.reverse ++ post ∧
    ∀ i ∈ kept, i ∈ post ∧ Live g i

/-- The graph `g` is the graph `T` after `EliminateDeadCode` discarded some of
its instructions. -/
structure Shrinks (T g : MIRGraph) : Prop where
  defs : g.defs = T.defs
  resumePoints : g.resumePoints = T.resumePoints
  length : g.blocks.length = T.blocks.length
  phis : ∀ b, (phisOf g b).Sublist (phisOf T b)
  sub : ∀ b, (instructionsOf g b).Sublist (instructionsOf T b)

/-- The only use of the definition `a` is the definition `b`: no other
definition of the graph and no resume point has `a` among its operands. -/
def onlyUse (g : MIRGraph) (a b : Nat) : Bool :=
  (g.defs.enum.all fun (i, y) => !(g.inGraph i && decide (a ∈ y.operands)) || i == b) &&
    g.resumePoints.all fun rp => !decide (a ∈ rp)

/-- The definition `d` is an instruction of no block but `block`, and a Phi of
no block. -/
def instructionOf (g : MIRGraph) (d block : Nat) : Bool :=
  (List.range g.blocks.length).all fun b =>
    !decide (d ∈ phisOf g b) && (!decide (d ∈ instructionsOf g b) || b == block)

/-! ## EliminatePhis: the uses of the Phis -/

/-- The Phi `p` is in the Phi list of the block `b`. -/
def InBlock (g : MIRGraph) (b p : Nat) : Prop :=
  ∃ blk, g.block b = some blk ∧ p ∈ blk.phis

/-- The operands of the definition `x`; there are none if the pointer points
to no definition. -/
def opsAt (g : MIRGraph) (x : Nat) : List Nat :=
  match g.definition x with
  | some y => y.operands
  | none => []

/-- The pointer `x` points to a Phi. -/
def phiAt (g : MIRGraph) (x : Nat) : Bool :=
  match g.definition x with
  | some y => y.isPhi
  | none => false

/-- Operand 0 of each Phi is not a Phi, or it is a Phi of a block that the
postorder iteration visits later than the block of the Phi, that is a block
that is earlier in the block list. -/
def operandZeroLater (g : MIRGraph) : Bool :=
  g.blocks.enum.all fun (b, blk) =>
    blk.phis.all fun p =>
      match (opsAt g p)[0]? with
      | none => true
      | some o => !phiAt g o || (g.blocks.take b).any fun blk1 => decide (o ∈ blk1.phis)

/-- No instruction list holds a Phi. -/
def noPhiInstruction (g : MIRGraph) : Bool :=
  g.blocks.all fun blk => blk.instructions.all fun i => !phiAt g i

/-- What the graph `T` is assumed to be for the uses of its Phis: the Phi
lists and the definition table agree, an instruction list holds no Phi, and
operand 0 of each Phi is no Phi or a Phi of a block earlier in the block
list. -/
structure PhiGraph (T : MIRGraph) : Prop where
  listed : ∀ p ∈ allPhis T, phiAt T p = true
  nodup : (allPhis T).Nodup
  allListed : ∀ p, phiAt T p = true → p ∈ allPhis T
  clear : ∀ p ∈ allPhis T, isInWorklist T p = false
  instrs : ∀ blk ∈ T.blocks, ∀ i ∈ blk.instructions, phiAt T i = false
  later : ∀ b p o, InBlock T b p → (opsAt T p)[0]? = some o → phiAt T o = true →
    ∃ b1, b1 < b ∧ InBlock T b1 o

/-- What `EliminatePhis` keeps of the graph `T` while it runs: which
definitions are Phis, the instruction lists, the Phi lists up to the Phis that
were discarded; a Phi that is an operand of a definition in the graph is in
the graph; and operand 0 of a Phi in the graph is no Phi or a Phi of a block
earlier in the block list. -/
structure PhiCore (T g : MIRGraph) : Prop where
  phi : ∀ x, phiAt g x = phiAt T x
  instrs : g.blocks.map MBasicBlock.instructions = T.blocks.map MBasicBlock.instructions
  sub : (allPhis g).Sublist (allPhis T)
  closed : ∀ x, g.inGraph x = true → ∀ o ∈ opsAt g x, phiAt g o = true → o ∈ allPhis g
  ranked : ∀ b p o, InBlock g b p → (opsAt g p)[0]? = some o → phiAt g o = true →
    ∃ b1, b1 < b ∧ InBlock g b1 o

/-- The Phi `p` of block `b` has been visited when the first loop is in
block `k` and has the Phis `rest` of that block still to visit. -/
def Visited (k : Nat) (rest : List Nat) (b p : Nat) : Prop :=
  k < b ∨ (b = k ∧ p ∉ rest)

/-- The invariant of the first loop of `EliminatePhis`, in block `k` with the
Phis `rest` of that block still to visit: the visited Phis that are in the
graph are flagged unused, those of them that an instruction uses are in the
worklist, and the worklist holds, once each, the Phis flagged so, which are
visited. -/
structure SeedInv (T g : MIRGraph) (W : List Nat) (k : Nat) (rest : List Nat) : Prop where
  core : PhiCore T g
  pending : ∀ p ∈ rest, InBlock g k p
  pendingNodup : rest.Nodup
  unused : ∀ b p, InBlock g b p → Visited k rest b p → isUnused g p = true
  observed : ∀ b p, InBlock g b p → Visited k rest b p → hasNonPhiUse g p = true → p ∈ W
  queued : ∀ p ∈ W, ∃ b, InBlock g b p ∧ Visited k rest b p
  nodup : W.Nodup
  flagged : ∀ p ∈ allPhis g, (isInWorklist g p = true ↔ p ∈ W)

/-- The invariant of the worklist loop of `EliminatePhis`, and of the loop
over the operands `todo` at the end of its body: the worklist holds, once
each, the Phis flagged so, which are in the graph and flagged unused; and a
Phi that is an operand of an instruction or of a Phi marked used is marked
used, in the worklist, or still to be looked at. -/
structure MarkInv (T g : MIRGraph) (W todo : List Nat) : Prop where
  core : PhiCore T g
  nodup : W.Nodup
  queued : ∀ p ∈ W, p ∈ allPhis g ∧ isUnused g p = true
  flagged : ∀ p ∈ allPhis g, (isInWorklist g p = true ↔ p ∈ W)
  live : ∀ x, g.inGraph x = true → phiAt g x = false ∨ isUnused g x = false →
    ∀ o ∈ opsAt g x, phiAt g o = true → isUnused g o = false ∨ o ∈ W ∨ o ∈ todo
  operands : ∀ o ∈ todo, phiAt g o = true → o ∈ allPhis g

/-! ## EliminatePhis: the uses of a redundant Phi -/

/-- Every Phi of a Phi list has an operand. -/
def phisHaveOperands (g : MIRGraph) : Bool :=
  (allPhis g).all fun p => !(opsAt g p).isEmpty

/-- What `EliminatePhis` keeps of the operands of the Phis of the graph `T`
while it runs: the definition table keeps its length, and every Phi in the
graph has an operand and its operands are definitions of the table. -/
structure PhiOps (T g : MIRGraph) : Prop where
  defined : ∀ x, (g.definition x).isSome = (T.definition x).isSome
  nonempty : ∀ p ∈ allPhis g, opsAt g p ≠ []
  operands : ∀ p ∈ allPhis g, ∀ o ∈ opsAt g p, (g.definition o).isSome = true

/-- The Phis `replaced`, whose uses the worklist loop has replaced, are out of
the way: they are Phis of the graph flagged unused, they are not in the
worklist `W`, and no definition in the graph has one of them as an operand. -/
structure Dead (g : MIRGraph) (W replaced : List Nat) : Prop where
  nodup : replaced.Nodup
  listed : ∀ p ∈ replaced, p ∈ allPhis g
  unused : ∀ p ∈ replaced, isUnused g p = true
  notQueued : ∀ p ∈ replaced, p ∉ W
  noUse : ∀ p ∈ replaced, ∀ x, g.inGraph x = true → p ∉ opsAt g x

/-- The measure of the worklist loop for a definition table of length `N`: a
replacement takes a Phi out of the way for good, and between two replacements
every iteration marks a Phi used. -/
def markMeasure (N : Nat) (s : PhiState) : Nat :=
  (N - s.replaced.length) * (N + 2) + unusedCount s.graph

/-- The Phi `d` of the graph `T` has been replaced: it was discarded, or the
worklist loop replaced its uses. -/
def Gone (T g : MIRGraph) (replaced : List Nat) (d : Nat) : Prop :=
  d ∈ allPhis T ∧ (d ∉ allPhis g ∨ d ∈ replaced)

/-- The Phi `P` of the graph `T` has not been visited: its operands and the
operand slots that hold it are as in `T`. -/
structure PendingPhi (T g : MIRGraph) (P : Nat) : Prop where
  ops : opsAt g P = opsAt T P
  uses : ∀ x k, usesAt T x k = some P → usesAt g x k = some P
  resume : ∀ i k, resumeAt T i k = some P → resumeAt g i k = some P

/-- The Phi `P` of the graph `T` has been replaced by `d` and discarded: the
operand slots that held `P` in `T`, in the definitions that are in the graph
and in the resume points, hold `d`, unless `d` has been replaced in turn. -/
structure Redirected (T g : MIRGraph) (replaced : List Nat) (P d : Nat) : Prop where
  removed : P ∉ allPhis g
  uses : ∀ x k, usesAt T x k = some P → g.inGraph x = true →
    usesAt g x k = some d ∨ Gone T g replaced d
  resume : ∀ i k, resumeAt T i k = some P → resumeAt g i k = some d ∨ Gone T g replaced d

/-! ## The graph under the passes that add and remove blocks

`CoalesceBlocks`, `DCEConditionals` and `SplitCriticalEdges` take blocks off
the block list of the graph and put new ones into it.  For them a block
pointer is a position in a table of all blocks that were ever allocated, and
the block list of the graph is a list of pointers.  The successors of a block
are those of its last instruction, as in the source. -/

namespace CFG

/-- The opcode of a definition, as far as these passes tell opcodes apart. -/
inductive Opcode
  | Phi
  | Constant (value : ConstantValue)
  | Test
  | Goto
  | GetPropertyCache
  | GetElementCache
  | CallGetElement
  | Other
deriving DecidableEq, Repr

/-- A definition: its opcode, its operands and, for a control instruction,
its successors (`getSuccessor(i)`; of a `Test`, successor 0 is `ifTrue()` and
successor 1 is `ifFalse()`). -/
structure MDefinition where
  op : Opcode
  operands : List Nat := []
  successors : List Nat := []
deriving DecidableEq, Repr

/-- A block: its id, its predecessor list, its Phis and its instructions, the
last of which is `lastIns()`. -/
structure MBasicBlock where
  id : Nat
  predecessors : List Nat
  phis : List Nat := []
  instructions : List Nat := []
  loopHeader : Bool := false
  loopBackedge : Bool := false
deriving DecidableEq, Repr

/-- The graph: the table of blocks, the block list (the pointers of the
blocks of the graph, in the order of `graph.begin()`, which is reverse
postorder), the table of definitions, `numBlockIds()` and the operand lists of
the resume points. -/
structure MIRGraph where
  table : List MBasicBlock
  blocks : List Nat
  defs : List MDefinition
  numBlockIds : Nat
  resumePoints : List (List Nat) := []
deriving DecidableEq, Repr

/-- Dereference of a block pointer. -/
def MIRGraph.block (g : MIRGraph) (b : Nat) : Option MBasicBlock :=
  g.table[b]?

/-- Dereference of a definition pointer. -/
def MIRGraph.definition (g : MIRGraph) (d : Nat) : Option MDefinition :=
  g.defs[d]?

/-- A field of the block `b` is written. -/
def modifyBlock (g : MIRGraph) (b : Nat) (f : MBasicBlock → MBasicBlock) : MIRGraph :=
  { g with table := List.modify f b g.table }

/-- A field of the definition `d` is written. -/
def modifyDefinition (g : MIRGraph) (d : Nat) (f : MDefinition → MDefinition) : MIRGraph :=
  { g with defs := List.modify f d g.defs }

/-- The call `block->lastIns()`. -/
def lastIns (g : MIRGraph) (b : Nat) : Option Nat :=
  match g.block b with
  | some blk => blk.instructions.getLast?
  | none => none

/-- The successors of the block `b`, `block->getSuccessor(i)` for `i` below
`block->numSuccessors()`: those of its last instruction.  The result is `none`
if there is no such instruction. -/
def successorsOf (g : MIRGraph) (b : Nat) : Option (List Nat) :=
  match lastIns g b with
  | some last => (g.definition last).map MDefinition.successors
  | none => none

/-- Modelled from the spec: `MBasicBlock::replacePredecessor(old, split)`
(MIRGraph.cpp is not among the sources): the first entry `old` of the
predecessor list of `block` becomes `split`; that there is none is
`JS_NOT_REACHED`. -/
def replacePredecessor (g : MIRGraph) (block old split : Nat) : Run MIRGraph :=
  match g.block block with
  | none => .fail .nullPointer
  | some blk =>
    if old ∈ blk.predecessors then
      .ok (modifyBlock g block fun x => { x with predecessors := x.predecessors.replace old split })
    else .fail .assertion

/-! ## SplitCriticalEdges -/

/-- Modelled from the spec: `MGoto::New(target)` (MIR.h is not among the
sources): a `Goto` with the one successor `target`. -/
def newGoto (target : Nat) : MDefinition :=
  { op := Opcode.Goto, successors := [target] }

/-- Modelled from the spec: the block of `MBasicBlock::NewSplitEdge(graph,
info, pred)` once `insertBlockAfter` has given it the next block id and
`split->end(ins)` its last instruction: it has the one predecessor `pred`. -/
def newSplitEdge (g : MIRGraph) (pred ins : Nat) : MBasicBlock :=
  { id := g.numBlockIds, predecessors := [pred], instructions := [ins] }

/-- The body of the inner loop of `SplitCriticalEdges` from
`MBasicBlock::NewSplitEdge` on, for successor `i` of `block`, which is
`target`.  Modelled from the spec: `replaceSuccessor(i, split)` writes
successor `i` of the last instruction.  The new block is the next entry of the
block table and its `Goto` the next entry of the definition table; the caller
puts the block into the list. -/
def splitEdge (g : MIRGraph) (block i target : Nat) : Run MIRGraph :=
  match lastIns g block with
  | none => .fail .nullPointer
  | some last =>
    let split := g.table.length
    let g1 : MIRGraph :=
      { g with
        table := g.table ++ [newSplitEdge g block g.defs.length]
        defs := g.defs ++ [newGoto target]
        numBlockIds := g.numBlockIds + 1 }
    let g2 := modifyDefinition g1 last fun d => { d with successors := d.successors.set i split }
    replacePredecessor g2 target block split

/-- The inner loop `for (size_t i = 0; i < block->numSuccessors(); i++)` over
the successor positions `is`; `news` are the blocks that it has put into the
block list after `block`, the latest first. -/
def splitSuccessors (block : Nat) : List Nat → MIRGraph → List Nat → Run (MIRGraph × List Nat)
  | [], g, news => .ok (g, news)
  | i :: is, g, news =>
    match successorsOf g block with
    | none => .fail .nullPointer
    | some succs =>
      match succs[i]? with
      | none => .fail .nullPointer
      | some target =>
        match g.block target with
        | none => .fail .nullPointer
        | some t =>
          if t.predecessors.length < 2 then splitSuccessors block is g news
          else
            match splitEdge g block i target with
            | .fail e => .fail e
            | .ok g' => splitSuccessors block is g' (g.table.length :: news)

/-- The body of the outer loop of `SplitCriticalEdges` for the block `block`:
the graph and the blocks that are now after `block` in the block list. -/
def splitBlock (g : MIRGraph) (block : Nat) : Run (MIRGraph × List Nat) :=
  match successorsOf g block with
  | none => .fail .nullPointer
  | some succs =>
    if succs.length < 2 then .ok (g, [])
    else splitSuccessors block (List.range succs.length) g []

/-- The outer loop of `SplitCriticalEdges`.  The block list is kept as the
blocks before the iterator, `done`, and those from the iterator on, `todo`;
`insertBlockAfter(*block, split)` puts `split` right after the head of
`todo`.  The loop comes to the blocks that it has put into the list. -/
def splitBlocks : Nat → List Nat → List Nat → MIRGraph → Run MIRGraph
  | _, done, [], g => .ok { g with blocks := done }
  | 0, _, _ :: _, _ => .fail .outOfFuel
  | fuel + 1, done, block :: rest, g =>
    match splitBlock g block with
    | .fail e => .fail e
    | .ok (g', news) => splitBlocks fuel (done ++ [block]) (news ++ rest) g'

/-- The function `SplitCriticalEdges(gen, graph)`. -/
def SplitCriticalEdges (fuel : Nat) (g : MIRGraph) : Run MIRGraph :=
  splitBlocks fuel [] g.blocks g

/-- The number of predecessors of the block `b`. -/
def numPredecessors (g : MIRGraph) (b : Nat) : Nat :=
  match g.block b with
  | some blk => blk.predecessors.length
  | none => 0

/-- The predecessors of the block `b`. -/
def predecessorsOf (g : MIRGraph) (b : Nat) : List Nat :=
  match g.block b with
  | some blk => blk.predecessors
  | none => []

/-- The successors of the block `b`, none if it has no last instruction. -/
def succs (g : MIRGraph) (b : Nat) : List Nat :=
  (successorsOf g b).getD []

/-- The critical edges that leave the block `b`, counted per successor slot:
none if `b` has fewer than two successors, and otherwise the successor slots
with a block that has at least two predecessors. -/
def criticalSlots (g : MIRGraph) (b : Nat) : Nat :=
  if (succs g b).length < 2 then 0
  else ((succs g b).filter fun t => decide (2 ≤ numPredecessors g t)).length

/-- The number of critical edges of the graph. -/
def criticalEdges (g : MIRGraph) : Nat :=
  (g.blocks.map (criticalSlots g)).sum

/-- The graph has a critical edge: an edge from a block of the graph with at
least two successors to a block with at least two predecessors. -/
def hasCriticalEdge (g : MIRGraph) : Bool :=
  g.blocks.any fun a => decide (0 < criticalSlots g a)

end CFG

/-! ## Invariants of SplitCriticalEdges -/

namespace CFG

/-- The graph is coherent: the block list names blocks of the table, each
once; every block of the table has a last instruction of its own, which is a
definition of the table; predecessors and successors are blocks of the table;
and predecessor and successor lists are mutual duals, edge by edge: `a` is as
often a predecessor of `b` as `b` is a successor of `a`. -/
def edgesCoherent (g : MIRGraph) : Bool :=
  decide g.blocks.Nodup &&
  g.blocks.all (fun b => decide (b < g.table.length)) &&
  (List.range g.table.length).all (fun b =>
    (match lastIns g b with
      | some l => decide (l < g.defs.length)
      | none => false) &&
    (predecessorsOf g b).all (fun p => decide (p < g.table.length)) &&
    (succs g b).all (fun s => decide (s < g.table.length))) &&
  decide ((List.range g.table.length).map (lastIns g)).Nodup &&
  (List.range g.table.length).all fun a =>
    (List.range g.table.length).all fun b =>
      decide ((predecessorsOf g b).count a = (succs g a).count b)

/-- The coherence of the edges of the table, as `edgesCoherent` has it. -/
structure EdgeInv (g : MIRGraph) : Prop where
  last : ∀ b, b < g.table.length → ∃ l, lastIns g b = some l ∧ l < g.defs.length
  lastInj : ∀ a b l, a < g.table.length → b < g.table.length →
    lastIns g a = some l → lastIns g b = some l → a = b
  predsValid : ∀ b, ∀ p ∈ predecessorsOf g b, p < g.table.length
  succsValid : ∀ b, ∀ s ∈ succs g b, s < g.table.length
  dual : ∀ a b, (predecessorsOf g b).count a = (succs g a).count b

/-- What `splitEdge g A i T` does to the graph `g` when successor `i` of the
block `A` is `T`. -/
structure SplitEffect (g g' : MIRGraph) (A i T : Nat) : Prop where
  tableLength : g'.table.length = g.table.length + 1
  defsLength : g'.defs.length = g.defs.length + 1
  preds : ∀ b, predecessorsOf g' b =
    if b = T then (predecessorsOf g T).replace A g.table.length
    else if b = g.table.length then [A] else predecessorsOf g b
  succs : ∀ b, succs g' b =
    if b = A then (succs g A).set i g.table.length
    else if b = g.table.length then [T] else succs g b
  lastOld : ∀ b, b < g.table.length → lastIns g' b = lastIns g b
  lastNew : lastIns g' g.table.length = some g.defs.length
  gotoNew : g'.definition g.defs.length = some (newGoto T)
  blocksOld : ∀ b blk, g.block b = some blk →
    ∃ blk', g'.block b = some blk' ∧ blk'.phis = blk.phis ∧
      blk'.instructions = blk.instructions ∧ blk'.id = blk.id
  defsOld : ∀ d y, g.definition d = some y →
    ∃ y', g'.definition d = some y' ∧ y'.op = y.op ∧ y'.operands = y.operands ∧
      (lastIns g A ≠ some d → y' = y)

/-- The graph `g` against the graph `T` on which `SplitCriticalEdges` was
called: the blocks of `T` have their Phis, instructions and ids and as many
predecessors as before, the definitions of `T` their opcodes and operands, a
predecessor entry that is a block of `T` is the entry of `T` at that position,
and a block that `T` did not have has one predecessor `src`, a block of `T`,
ends in a `Goto` to a block `tgt` of `T`, and is in the predecessor list of
`tgt` where `src` was. -/
structure SplitTrack (T g : MIRGraph) : Prop where
  tableGrow : T.table.length ≤ g.table.length
  defsGrow : T.defs.length ≤ g.defs.length
  oldBlocks : ∀ b blk0, T.block b = some blk0 →
    ∃ blk, g.block b = some blk ∧ blk.phis = blk0.phis ∧
      blk.instructions = blk0.instructions ∧ blk.id = blk0.id ∧
      blk.predecessors.length = blk0.predecessors.length
  oldDefs : ∀ d y0, T.definition d = some y0 →
    ∃ y, g.definition d = some y ∧ y.op = y0.op ∧ y.operands = y0.operands
  oldPreds : ∀ (b j e : Nat), b < T.table.length → (predecessorsOf g b)[j]? = some e →
    e < T.table.length → (predecessorsOf T b)[j]? = some e
  newBlocks : ∀ s, T.table.length ≤ s → s < g.table.length →
    ∃ (src tgt j l : Nat), predecessorsOf g s = [src] ∧ lastIns g s = some l ∧
      g.definition l = some (newGoto tgt) ∧ src < T.table.length ∧ tgt < T.table.length ∧
      (predecessorsOf T tgt)[j]? = some src ∧ (predecessorsOf g tgt)[j]? = some s

/-- The invariant of the inner loop of `SplitCriticalEdges` for the block `A`
before it comes to successor `k`; `g0` is the graph when the loop started. -/
structure SlotInv (g0 g : MIRGraph) (A k : Nat) (news : List Nat) : Prop where
  edge : EdgeInv g
  tableGrow : g0.table.length ≤ g.table.length
  fresh : news = (List.range' g0.table.length (g.table.length - g0.table.length)).reverse
  predsOld : ∀ b, b < g0.table.length → numPredecessors g b = numPredecessors g0 b
  newsOne : ∀ s, g0.table.length ≤ s → s < g.table.length →
    numPredecessors g s = 1 ∧ (succs g s).length = 1
  succsOld : ∀ b, b < g0.table.length → b ≠ A → succs g b = succs g0 b
  succsLength : (succs g A).length = (succs g0 A).length
  slotsDone : ∀ (j t : Nat), j < k → (succs g A)[j]? = some t → numPredecessors g t < 2
  slotsTodo : ∀ j : Nat, k ≤ j → (succs g A)[j]? = (succs g0 A)[j]?
  count : news.length +
    (((succs g0 A).drop k).filter fun t => decide (2 ≤ numPredecessors g0 t)).length =
      ((succs g0 A).filter fun t => decide (2 ≤ numPredecessors g0 t)).length

/-- The invariant of the outer loop of `SplitCriticalEdges`: `done` are the
blocks before the iterator, `todo` those from the iterator on, and `total` is
the number of blocks of the graph at the start plus the number of its critical
edges. -/
structure SplitState (g : MIRGraph) (done todo : List Nat) (total : Nat) : Prop where
  edge : EdgeInv g
  nodup : (done ++ todo).Nodup
  valid : ∀ b ∈ done ++ todo, b < g.table.length
  settled : ∀ a ∈ done, criticalSlots g a = 0
  count : done.length + todo.length + (todo.map (criticalSlots g)).sum = total

end CFG

/-! ## CoalesceBlocks -/

namespace CFG

/-- The definition `d` is in a block: it is a Phi or an instruction of a
block of the table.  A block that was removed from the graph has none. -/
def MIRGraph.inGraph (g : MIRGraph) (d : Nat) : Bool :=
  g.table.any fun b => decide (d ∈ b.phis) || decide (d ∈ b.instructions)

/-- Modelled from the spec: `MDefinition::replaceAllUsesWith` (MIR.cpp is not
among the sources).  Every use of `d` becomes a use of `r`.  The uses of `d`
are the operand slots that hold `d` in the definitions that are in a block and
in the resume points: a definition that was discarded is no longer in the use
lists of its operands. -/
def replaceAllUsesWith (g : MIRGraph) (d r : Nat) : MIRGraph :=
  { g with
    defs := g.defs.enum.map fun (i, x) =>
      if g.inGraph i then { x with operands := x.operands.map fun o => if o = d then r else o }
      else x
    resumePoints := g.resumePoints.map fun rp => rp.map fun o => if o = d then r else o }

/-- Modelled from the spec: `MBasicBlock::discardPhiAt` (MIRGraph.cpp is not
among the sources): the Phi is taken off the Phi list of the block. -/
def discardPhi (g : MIRGraph) (block phi : Nat) : MIRGraph :=
  modifyBlock g block fun b => { b with phis := b.phis.erase phi }

/-- The tests `isGetPropertyCache()`, `isGetElementCache()` and
`isCallGetElement()` of `CoalesceBlocks`. -/
def MDefinition.unmovable (d : MDefinition) : Bool :=
  match d.op with
  | .GetPropertyCache => true
  | .GetElementCache => true
  | .CallGetElement => true
  | _ => false

/-- The loop of `CoalesceBlocks` that sets `canCoalesce`, over the
instructions `insts` of the block: the result is `canCoalesce`, and `none` is
an instruction pointer that names no definition. -/
def canCoalesce (g : MIRGraph) : List Nat → Option Bool
  | [] => some true
  | i :: rest =>
    match g.definition i with
    | none => none
    | some d => if d.unmovable then some false else canCoalesce g rest

/-- The loop `for (MPhiIterator itPhi = block->phisBegin(); itPhi !=
itEndPhis; )` of `CoalesceBlocks`.  The iterator is at the first Phi of the
block: it moves on only when `discardPhiAt` returns the next Phi, and on a Phi
that has not exactly one operand the body does nothing, so that the loop comes
to the same Phi again. -/
def replacePhis : Nat → MIRGraph → Nat → Run MIRGraph
  | fuel, g, block =>
    match g.block block with
    | none => .fail .nullPointer
    | some blk =>
      match blk.phis with
      | [] => .ok g
      | phi :: _ =>
        match fuel with
        | 0 => .fail .outOfFuel
        | fuel + 1 =>
          match g.definition phi with
          | none => .fail .nullPointer
          | some p =>
            if p.operands.length = 1 then
              match p.operands[0]? with
              | none => .fail .nullPointer
              | some operand =>
                replacePhis fuel (discardPhi (replaceAllUsesWith g phi operand) block phi) block
            else replacePhis fuel g block

/-- The loop over the successors of `block` that calls
`block->getSuccessor(i)->replacePredecessor(block, pred)`. -/
def replacePredecessors (block pred : Nat) : List Nat → MIRGraph → Run MIRGraph
  | [], g => .ok g
  | s :: rest, g =>
    match replacePredecessor g s block pred with
    | .fail e => .fail e
    | .ok g' => replacePredecessors block pred rest g'

/-- The end of the body of the loop of `CoalesceBlocks`, from the loop that
moves the instructions on.  Modelled from the spec (MIRGraph.cpp is not among
the sources): `moveBefore(predLastIns, ins)` takes `ins` off its block and puts
it before `predLastIns`; `discardLastIns()` takes the last instruction off the
block; `end(ins)` makes `ins` the last instruction; `removeBlock` takes the
block off the block list.  The loop moves every instruction of `block` but the
last, which `pred->end(block->lastIns())` appends.  A block that is its own
predecessor has lost its last instruction when `block->lastIns()` is read.
The removed block is left without instructions: all of them are in `pred`. -/
def mergeBlock (g : MIRGraph) (block pred : Nat) : Run MIRGraph :=
  match g.block block, g.block pred with
  | some blk, some p =>
    if blk.instructions = [] ∨ p.instructions = [] ∨ block = pred then .fail .nullPointer
    else
      match successorsOf g block with
      | none => .fail .nullPointer
      | some succs =>
        match replacePredecessors block pred succs g with
        | .fail e => .fail e
        | .ok g1 =>
          let g2 := modifyBlock g1 pred fun x =>
            { x with instructions := x.instructions.dropLast ++ blk.instructions }
          let g3 := modifyBlock g2 block fun x => { x with instructions := [] }
          .ok { g3 with blocks := g3.blocks.erase block }
  | _, _ => .fail .nullPointer

/-- The body of the loop of `CoalesceBlocks` for the block `block`. -/
def coalesceBlock (fuel : Nat) (g : MIRGraph) (block : Nat) : Run MIRGraph :=
  match g.block block with
  | none => .fail .nullPointer
  | some blk =>
    match blk.predecessors with
    | [pred] =>
      match lastIns g pred with
      | none => .fail .nullPointer
      | some predLastIns =>
        match g.definition predLastIns with
        | none => .fail .nullPointer
        | some last =>
          if last.successors.length ≠ 1 ∨ last.op ≠ Opcode.Goto then .ok g
          else
            match canCoalesce g blk.instructions with
            | none => .fail .nullPointer
            | some false => .ok g
            | some true =>
              match replacePhis fuel g block with
              | .fail e => .fail e
              | .ok g1 => mergeBlock g1 block pred
    | _ => .ok g

/-- The loop of `CoalesceBlocks` over the blocks `bs` of the block list: the
iterator is moved on before the body, which removes no block but its own. -/
def coalesceBlocks (fuel : Nat) : List Nat → MIRGraph → Run MIRGraph
  | [], g => .ok g
  | block :: rest, g =>
    match coalesceBlock fuel g block with
    | .fail e => .fail e
    | .ok g' => coalesceBlocks fuel rest g'

/-- The function `CoalesceBlocks(graph)`; `Run.ok` is the result `true`.  The
fuel is that of each run of the loop over the Phis of a block. -/
def CoalesceBlocks (fuel : Nat) (g : MIRGraph) : Run MIRGraph :=
  coalesceBlocks fuel g.blocks g

/-- The Phi arity invariant as far as `CoalesceBlocks` relies on it: every
Phi of a block with exactly one predecessor is a definition with exactly one
operand. -/
def unaryPhis (g : MIRGraph) : Bool :=
  g.table.all fun b =>
    decide (b.predecessors.length ≠ 1) ||
      b.phis.all fun phi =>
        match g.definition phi with
        | some p => decide (p.operands.length = 1)
        | none => false

/-- No block has more than `n` Phis. -/
def phisAtMost (g : MIRGraph) (n : Nat) : Bool :=
  g.table.all fun b => decide (b.phis.length ≤ n)

/-- The Phis of the block `b`. -/
def phisOf (g : MIRGraph) (b : Nat) : List Nat :=
  match g.block b with
  | some blk => blk.phis
  | none => []

/-- The instructions of the block `b`. -/
def instructionsOf (g : MIRGraph) (b : Nat) : List Nat :=
  match g.block b with
  | some blk => blk.instructions
  | none => []

/-- What `CoalesceBlocks` keeps of the graph `g`: every block of the table
has as many predecessors as before and no Phi that it did not have, and every
definition has as many operands as before. -/
structure CoalesceFrame (g g' : MIRGraph) : Prop where
  table : g'.table.length = g.table.length
  preds : ∀ b, (predecessorsOf g' b).length = (predecessorsOf g b).length
  phis : ∀ b, (phisOf g' b).Sublist (phisOf g b)
  defs : ∀ d, (g'.definition d).map (fun y => y.operands.length) =
    (g.definition d).map fun y => y.operands.length

end CFG
namespace CFG

/-- The Phi arity invariant of `unaryPhis`, for the blocks of the table. -/
def UnaryPhis (g : MIRGraph) : Prop :=
  ∀ b, (predecessorsOf g b).length = 1 →
    ∀ phi ∈ phisOf g b, ∃ p, g.definition phi = some p ∧ p.operands.length = 1

end CFG

namespace CFG

/-- The test of `CoalesceBlocks` for the block `block`: `pred` is its only
predecessor, `pred` ends in a `Goto` and has exactly one successor, and no
instruction of `block` is a `GetPropertyCache`, `GetElementCache` or
`CallGetElement`. -/
def mergeable (g : MIRGraph) (block pred : Nat) : Bool :=
  decide (predecessorsOf g block = [pred]) &&
    (match lastIns g pred with
      | some last =>
        match g.definition last with
        | some d => decide (d.successors.length = 1) && decide (d.op = Opcode.Goto)
        | none => false
      | none => false) &&
    (instructionsOf g block).all fun i =>
      match g.definition i with
      | some d => !d.unmovable
      | none => false

/-- The Phi `phi` of the block `block` is replaced by its only operand: every
use of the Phi becomes a use of the operand, and the Phi is discarded. -/
def replacePhi (block : Nat) (g : MIRGraph) (phi : Nat) : MIRGraph :=
  match g.definition phi with
  | some p =>
    match p.operands[0]? with
    | some operand => discardPhi (replaceAllUsesWith g phi operand) block phi
    | none => g
  | none => g

end CFG

namespace CFG

/-- The graph `g'` is the graph `g` up to the predecessor lists of its
blocks. -/
structure OnlyPreds (g g' : MIRGraph) : Prop where
  blocks : g'.blocks = g.blocks
  defs : g'.defs = g.defs
  resumePoints : g'.resumePoints = g.resumePoints
  table : g'.table.length = g.table.length
  phis : ∀ b, phisOf g' b = phisOf g b
  instructions : ∀ b, instructionsOf g' b = instructionsOf g b

end CFG

namespace CFG

/-- The graph `g'` is the graph `g` up to the Phi list of the block `block`
and the operands of the definitions. -/
structure OnlyUses (g g' : MIRGraph) (block : Nat) : Prop where
  blocks : g'.blocks = g.blocks
  table : g'.table.length = g.table.length
  preds : ∀ b, predecessorsOf g' b = predecessorsOf g b
  instructions : ∀ b, instructionsOf g' b = instructionsOf g b
  phis : ∀ b, b ≠ block → phisOf g' b = phisOf g b
  defs : ∀ d, (g'.definition d).map (fun y => (y.op, y.successors)) =
    (g.definition d).map fun y => (y.op, y.successors)

end CFG

/-! ## DCEConditionals -/

namespace CFG

/-- The read `deleteBlock[id]`; `none` is a read outside the array. -/
def isMarked (deleteBlock : List Bool) (id : Nat) : Option Bool :=
  deleteBlock[id]?

/-- The write `deleteBlock[id] = value`; `none` is a write outside the
array. -/
def setMarked (deleteBlock : List Bool) (id : Nat) (value : Bool) : Option (List Bool) :=
  if id < deleteBlock.length then some (deleteBlock.set id value) else none

/-- The loop `for (uint32 i = 0; i < delBlock->numPredecessors(); i++)` that
sets `branchOver` and `atLeastOneDel`, over the predecessors `preds` of the
block with the id `delId`.  The state is `deleteBlock`, `branchOver` and
`atLeastOneDel`. -/
def scanPredecessors (g : MIRGraph) (delId : Nat) :
    List Nat → List Bool × Bool × Bool → Option (List Bool × Bool × Bool)
  | [], state => some state
  | pred :: rest, (deleteBlock, branchOver, atLeastOneDel) =>
    match g.block pred with
    | none => none
    | some p =>
      match isMarked deleteBlock p.id with
      | none => none
      | some false =>
        match setMarked deleteBlock delId false with
        | none => none
        | some deleteBlock' => scanPredecessors g delId rest (deleteBlock', true, atLeastOneDel)
      | some true =>
        if branchOver then some (deleteBlock, branchOver, true)
        else scanPredecessors g delId rest (deleteBlock, branchOver, true)

/-- The loop that looks for `lastBranchBlock` among the predecessors:
`index` is the position of the first entry that is `block`, and stays 0 if
there is none. -/
def predecessorIndex (preds : List Nat) (block : Nat) : Nat :=
  if block ∈ preds then preds.indexOf block else 0

/-- The loop over the Phis `phis` of the block `delBlock` at the end of a
dead branch.  Modelled from the spec: `MPhi::removeOperand(index)` (MIR.cpp is
not among the sources) takes operand `index` off the Phi, and asserts that the
Phi has it.  The operand `getOperand(!index)` is operand 1 if `index` is 0 and
operand 0 otherwise. -/
def fixPhis (delBlock index : Nat) : List Nat → MIRGraph → Run MIRGraph
  | [], g => .ok g
  | phi :: rest, g =>
    match g.definition phi with
    | none => .fail .nullPointer
    | some p =>
      if p.operands.length = 2 then
        match p.operands[if index = 0 then 1 else 0]? with
        | none => .fail .nullPointer
        | some operand =>
          fixPhis delBlock index rest (discardPhi (replaceAllUsesWith g phi operand) delBlock phi)
      else if index < p.operands.length then
        fixPhis delBlock index rest
          (modifyDefinition g phi fun x => { x with operands := x.operands.eraseIdx index })
      else .fail .assertion

/-- The loop `for (uint32 j = 0; j < block->numPredecessors(); j++)` that
removes the first predecessor entry `pred` of the block `block`, if there is
one, and with `mark` set marks the block when it has no predecessor left.
Modelled from the spec: `MBasicBlock::removePredecessor(j)` (MIRGraph.cpp is
not among the sources) takes entry `j` off the predecessor list. -/
def removePredecessorOf (mark : Bool) (g : MIRGraph) (deleteBlock : List Bool)
    (block pred : Nat) : Run (MIRGraph × List Bool) :=
  match g.block block with
  | none => .fail .nullPointer
  | some blk =>
    if pred ∈ blk.predecessors then
      let g1 := modifyBlock g block fun x => { x with predecessors := x.predecessors.erase pred }
      if mark && (blk.predecessors.erase pred).isEmpty then
        match setMarked deleteBlock blk.id true with
        | none => .fail .nullPointer
        | some deleteBlock' => .ok (g1, deleteBlock')
      else .ok (g1, deleteBlock)
    else .ok (g, deleteBlock)

/-- The loop `for (; itDel != graph.rpoEnd(); itDel++)` of `DCEConditionals`
over the blocks `dels` of the block list from `deleteBranchStart` on; `blockId`
is the id of the block with the folded `Test`, and `first` and
`lastBranchBlock` are the variables of the loop. -/
def markBranch (blockId : Nat) :
    List Nat → MIRGraph → List Bool → Bool → Nat → Run (MIRGraph × List Bool)
  | [], g, deleteBlock, _, _ => .ok (g, deleteBlock)
  | delBlock :: rest, g, deleteBlock, first, lastBranchBlock =>
    match g.block delBlock with
    | none => .fail .nullPointer
    | some dblk =>
      match scanPredecessors g dblk.id dblk.predecessors (deleteBlock, false, false) with
      | none => .fail .nullPointer
      | some (deleteBlock1, branchOver, atLeastOneDel) =>
        if branchOver && atLeastOneDel then
          match successorsOf g lastBranchBlock with
          | none => .fail .nullPointer
          | some lastSuccs =>
            if lastSuccs.length = 0 then .ok (g, deleteBlock1)
            else
              match (if first then some delBlock else lastSuccs[0]?) with
              | none => .fail .nullPointer
              | some target =>
                match g.block target with
                | none => .fail .nullPointer
                | some tblk =>
                  match fixPhis target (predecessorIndex tblk.predecessors lastBranchBlock)
                      tblk.phis g with
                  | .fail e => .fail e
                  | .ok g1 =>
                    if first then
                      match setMarked deleteBlock1 blockId false with
                      | none => .fail .nullPointer
                      | some deleteBlock2 => .ok (g1, deleteBlock2)
                    else removePredecessorOf true g1 deleteBlock1 target lastBranchBlock
        else
          match (if first then setMarked deleteBlock1 blockId false else some deleteBlock1) with
          | none => .fail .nullPointer
          | some deleteBlock2 =>
            if atLeastOneDel then
              match setMarked deleteBlock2 dblk.id true with
              | none => .fail .nullPointer
              | some deleteBlock3 => markBranch blockId rest g deleteBlock3 false delBlock
            else markBranch blockId rest g deleteBlock2 false lastBranchBlock

/-- The statements `block->discardLastIns(); block->end(MGoto::New(keep))`:
the new `Goto` is the next entry of the definition table. -/
def replaceLastIns (g : MIRGraph) (block keep : Nat) : MIRGraph :=
  modifyBlock { g with defs := g.defs ++ [newGoto keep] } block fun x =>
    { x with instructions := x.instructions.dropLast ++ [g.defs.length] }

/-- The body of the first loop of `DCEConditionals` for the block `block`.
Of a `Test`, successor 0 is `ifTrue()` and successor 1 is `ifFalse()`, and
`getSuccessor(b)` for a Boolean `b` is successor 1 if `b` is true. -/
def foldConditional (g : MIRGraph) (deleteBlock : List Bool) (block : Nat) :
    Run (MIRGraph × List Bool) :=
  match g.block block with
  | none => .fail .nullPointer
  | some blk =>
    match isMarked deleteBlock blk.id with
    | none => .fail .nullPointer
    | some true => .ok (g, deleteBlock)
    | some false =>
      match lastIns g block with
      | none => .fail .nullPointer
      | some last =>
        match g.definition last with
        | none => .fail .nullPointer
        | some lastDef =>
          if lastDef.op ≠ Opcode.Test then .ok (g, deleteBlock)
          else if lastDef.operands.length ≠ 1 then .fail .assertion
          else
            match lastDef.operands[0]? with
            | none => .fail .nullPointer
            | some lastInsOper =>
              match g.definition lastInsOper with
              | none => .fail .nullPointer
              | some operDef =>
                match operDef.op with
                | .Constant (.Boolean c) =>
                  match lastDef.successors[if c then 1 else 0]?,
                      lastDef.successors[if c then 0 else 1]? with
                  | some deleteBranchStart, some keepBranchStart =>
                    match g.block deleteBranchStart, successorsOf g deleteBranchStart with
                    | some dbs, some dbsSuccs =>
                      if dbsSuccs.length ≤ 2 && (dbs.loopHeader || dbs.loopBackedge) then
                        .ok (g, deleteBlock)
                      else
                        match setMarked deleteBlock dbs.id true with
                        | none => .fail .nullPointer
                        | some deleteBlock1 =>
                          let g1 := replaceLastIns g block keepBranchStart
                          if deleteBranchStart ∉ g.blocks then .fail .nullPointer
                          else
                            match setMarked deleteBlock1 blk.id true with
                            | none => .fail .nullPointer
                            | some deleteBlock2 =>
                              match markBranch blk.id
                                  (g.blocks.dropWhile fun b => b != deleteBranchStart)
                                  g1 deleteBlock2 true block with
                              | .fail e => .fail e
                              | .ok (g2, deleteBlock3) =>
                                removePredecessorOf true g2 deleteBlock3 deleteBranchStart block
                    | _, _ => .fail .nullPointer
                  | _, _ => .fail .nullPointer
                | _ => .ok (g, deleteBlock)

/-- The first loop of `DCEConditionals` over the blocks `bs` in reverse
postorder, which is the order of the block list. -/
def foldConditionals : List Nat → MIRGraph → List Bool → Run (MIRGraph × List Bool)
  | [], g, deleteBlock => .ok (g, deleteBlock)
  | block :: rest, g, deleteBlock =>
    match foldConditional g deleteBlock block with
    | .fail e => .fail e
    | .ok (g', deleteBlock') => foldConditionals rest g' deleteBlock'

/-- The loop of the second loop of `DCEConditionals` over the successors
`succs` of the block `block`, which takes the first entry `block` off the
predecessor list of each. -/
def unlinkSuccessors (block : Nat) : List Nat → MIRGraph → Run MIRGraph
  | [], g => .ok g
  | succ :: rest, g =>
    match removePredecessorOf false g [] succ block with
    | .fail e => .fail e
    | .ok (g', _) => unlinkSuccessors block rest g'

/-- The body of the second loop of `DCEConditionals` for the block `block`.
Modelled from the spec: `discardAt`, `discardPhiAt` and `discardLastIns` take
the instructions and Phis off the block, and `removeBlock` takes the block off
the block list (MIRGraph.cpp is not among the sources). -/
def removeMarked (g : MIRGraph) (deleteBlock : List Bool) (block : Nat) : Run MIRGraph :=
  match g.block block with
  | none => .fail .nullPointer
  | some blk =>
    match isMarked deleteBlock blk.id with
    | none => .fail .nullPointer
    | some false => .ok g
    | some true =>
      match successorsOf g block with
      | none => .fail .nullPointer
      | some succs =>
        match unlinkSuccessors block succs g with
        | .fail e => .fail e
        | .ok g1 =>
          let g2 := modifyBlock g1 block fun x => { x with phis := [], instructions := [] }
          .ok { g2 with blocks := g2.blocks.erase block }

/-- The second loop of `DCEConditionals` over the blocks `bs` of the block
list. -/
def removeMarkedBlocks (deleteBlock : List Bool) : List Nat → MIRGraph → Run MIRGraph
  | [], g => .ok g
  | block :: rest, g =>
    match removeMarked g deleteBlock block with
    | .fail e => .fail e
    | .ok g' => removeMarkedBlocks deleteBlock rest g'

/-- The function `DCEConditionals(graph)`; `Run.ok` is the result `true`. -/
def DCEConditionals (g : MIRGraph) : Run MIRGraph :=
  match foldConditionals g.blocks g (List.replicate g.numBlockIds false) with
  | .fail e => .fail e
  | .ok (g1, deleteBlock) => removeMarkedBlocks deleteBlock g1.blocks g1

end CFG

namespace CFG

/-- What the marking loop of `DCEConditionals` keeps of the graph: the
instructions of the blocks and the opcode and successors of the
definitions. -/
structure SameCode (g g' : MIRGraph) : Prop where
  blocks : g'.blocks = g.blocks
  instructions : ∀ b, instructionsOf g' b = instructionsOf g b
  defs : ∀ d, (g'.definition d).map (fun y => (y.op, y.successors)) =
    (g.definition d).map fun y => (y.op, y.successors)

/-- The last instruction of the block `block` is a `Test` whose operand is a
Boolean constant. -/
def testsBoolean (g : MIRGraph) (block : Nat) : Bool :=
  match lastIns g block with
  | none => false
  | some last =>
    match g.definition last with
    | none => false
    | some d =>
      decide (d.op = Opcode.Test) &&
        match d.operands[0]? with
        | none => false
        | some operand =>
          match g.definition operand with
          | none => false
          | some o =>
            match o.op with
            | .Constant (.Boolean _) => true
            | _ => false

/-- What `DCEConditionals` dereferences of a graph without a `Test` of a
Boolean constant: every block of the block list is a block of the table with
an id below `numBlockIds` and a last instruction, and a `Test` has one operand,
which is a definition of the table. -/
def conditionalsCoherent (g : MIRGraph) : Bool :=
  g.blocks.all fun b =>
    match g.block b with
    | none => false
    | some blk =>
      decide (blk.id < g.numBlockIds) &&
        match lastIns g b with
        | none => false
        | some last =>
          match g.definition last with
          | none => false
          | some d =>
            decide (d.op ≠ Opcode.Test) ||
              (decide (d.operands.length = 1) &&
                match d.operands[0]? with
                | none => false
                | some operand => (g.definition operand).isSome)

/-- The Phi arity invariant: every Phi of every block of the block list is
a definition with as many operands as the block has predecessors. -/
def phiArity (g : MIRGraph) : Bool :=
  g.blocks.all fun b =>
    match g.block b with
    | none => false
    | some blk =>
      blk.phis.all fun phi =>
        match g.definition phi with
        | none => false
        | some p => decide (p.operands.length = blk.predecessors.length)

end CFG


/-! ## The graph builder of IonBuilder.cpp: data model

The builder has its own picture of the graph: blocks carry the abstract stack
(`slots_`), and instructions are allocated while the bytecode is traversed.  A
pointer to a definition or a block is its position in the table of the graph;
`New` appends to the table, so that the new object gets the next position. -/

namespace Builder

/-- The values that the builder makes constants of. -/
inductive Value
  | Undefined
  | Null
  | Int32 (i : Int)
  | Boolean (b : Bool)
  | Object (o : Nat)
  | Magic
  | Other
deriving DecidableEq, Repr

/-- The tags `JSValueType` that `getKnownTypeTag` returns. -/
inductive JSValueType
  | DOUBLE | INT32 | UNDEFINED | BOOLEAN | MAGIC | STRING | NULL | OBJECT | UNKNOWN
deriving DecidableEq, Repr

/-- Modelled from the spec: `MIRTypeFromValueType` (IonTypes.h is not among
the sources); it is applied to tags other than `UNKNOWN`. -/
def MIRTypeFromValueType : JSValueType → MIRType
  | .DOUBLE => .Double
  | .INT32 => .Int32
  | .UNDEFINED => .Undefined
  | .BOOLEAN => .Boolean
  | .MAGIC => .Magic
  | .STRING => .String
  | .NULL => .Null
  | .OBJECT => .Object
  | .UNKNOWN => .Value

/-- Modelled from the spec: the result type of `MConstant::New(v)`. -/
def Value.type : Value → MIRType
  | .Undefined => .Undefined
  | .Null => .Null
  | .Int32 _ => .Int32
  | .Boolean _ => .Boolean
  | .Object _ => .Object
  | .Magic => .Magic
  | .Other => .Value

/-- A `types::TypeSet` as far as the builder queries it: `getKnownTypeTag`,
`unknown()` and `hasType(Type::AnyObjectType())`. -/
structure TypeSet where
  knownTypeTag : JSValueType
  unknown : Bool := false
  anyObject : Bool := false
deriving DecidableEq, Repr

/-- The modes of an `MUnbox`. -/
inductive UnboxMode
  | Fallible | Infallible | TypeBarrier | TypeGuard
deriving DecidableEq, Repr

/-- An `MCall`: the target function if known, the flag `construct`, the number
of actual arguments, one position per stack argument (position 0 is `this`),
filled by `addArg`, the callee definition and the `MPrepareCall`. -/
structure MCall where
  target : Option Nat
  construct : Bool
  numActualArgs : Nat
  args : List (Option Nat)
  function : Option Nat := none
  prepareCall : Option Nat := none
deriving DecidableEq, Repr

/-- Modelled from the spec: `MCall::New(target, maxArgc, numActualArgs,
construct)` has `maxArgc` argument positions, none of them filled. -/
def MCall.New (target : Option Nat) (maxArgc numActualArgs : Nat) (construct : Bool) : MCall :=
  { target := target, construct := construct, numActualArgs := numActualArgs,
    args := List.replicate maxArgc none }

/-- Modelled from the spec: `call->addArg(argnum, arg)`. -/
def MCall.addArg (call : MCall) (argnum arg : Nat) : MCall :=
  { call with args := call.args.set argnum (some arg) }

/-- An `InlinePropertyTable` of an `MGetPropertyCache`: the address of the
property access, the stack that its prior resume point captured, and the
entries, each a type object with the function object that the property holds
for it. -/
structure InlinePropertyTable where
  pc : Nat
  priorResumePoint : List Nat
  entries : List (Nat × Nat)
deriving DecidableEq, Repr

/-- An `MPolyInlineDispatch` beyond its operand: the inline property table and
the three blocks of the fallback path if a property access is optimised away,
and the callees added by `addCallee`, each the constant of the function with
the entry block of its inlined graph. -/
structure MPolyInlineDispatch where
  inlinePropertyTable : Option InlinePropertyTable := none
  fallbackPrepBlock : Option Nat := none
  fallbackMidBlock : Option Nat := none
  fallbackEndBlock : Option Nat := none
  callees : List (Nat × Nat) := []
deriving DecidableEq, Repr

/-- The opcodes of the instructions that the modelled part of the builder
creates or inspects. -/
inductive Opcode
  | Constant (value : Value)
  | Phi
  | Goto
  | Test
  | Return
  | PassArg
  | PrepareCall
  | Call (call : MCall)
  | Unbox (mode : UnboxMode)
  | TypeBarrier (observed : TypeSet)
  | ReturnFromCtor
  | CreateThis
  | CallGetProperty
  | PolyInlineDispatch (dispatch : MPolyInlineDispatch)
  | GetPropertyCache (table : Option InlinePropertyTable)
  | Compare
  | TableSwitch (low high : Int) (cases blocks : List Nat)
  | Other
deriving DecidableEq, Repr

/-- A definition of the graph under construction.  A control instruction has
its target blocks in `successors`; a Phi has its stack slot in `slot`. -/
structure MDefinition where
  op : Opcode
  type : MIRType
  operands : List Nat := []
  successors : List Nat := []
  block : Option Nat := none
  effectful : Bool := false
  slot : Nat := 0
deriving DecidableEq, Repr

/-- The call `def->isPhi()`. -/
def MDefinition.isPhi (d : MDefinition) : Bool :=
  match d.op with
  | .Phi => true
  | _ => false

/-- A basic block under construction: its bytecode address, the predecessors,
the abstract stack `slots_[0 .. stackPosition_)` (arguments and locals first,
the operand stack on top), the Phis, the instructions and the control
instruction that ends the block. -/
structure MBasicBlock where
  pc : Nat
  predecessors : List Nat := []
  slots : List Nat := []
  phis : List Nat := []
  instructions : List Nat := []
  lastIns : Option Nat := none
  loopDepth : Nat := 0
deriving DecidableEq, Repr

/-- The graph under construction: the tables of definitions and blocks, the
block list in its current order, and the blocks that end in a return
(`exitAccumulator`). -/
structure MIRGraph where
  defs : List MDefinition := []
  table : List MBasicBlock := []
  blocks : List Nat := []
  exits : List Nat := []
deriving DecidableEq, Repr

/-- Dereferences a definition pointer. -/
def MIRGraph.definition (g : MIRGraph) (d : Nat) : Option MDefinition :=
  g.defs[d]?

/-- Dereferences a block pointer. -/
def MIRGraph.block (g : MIRGraph) (b : Nat) : Option MBasicBlock :=
  g.table[b]?

/-- Applies `f` to the block at `b`. -/
def modifyBlock (g : MIRGraph) (b : Nat) (f : MBasicBlock → MBasicBlock) : MIRGraph :=
  { g with table := g.table.modify f b }

/-- Applies `f` to the definition at `d`. -/
def modifyDefinition (g : MIRGraph) (d : Nat) (f : MDefinition → MDefinition) : MIRGraph :=
  { g with defs := g.defs.modify f d }

/-- The allocation of a definition: `d` gets the next position of the table. -/
def newDefinition (g : MIRGraph) (d : MDefinition) : Nat × MIRGraph :=
  (g.defs.length, { g with defs := g.defs ++ [d] })

/-- Modelled from the spec: `MConstant::New(v)`. -/
def newConstant (v : Value) : MDefinition :=
  { op := .Constant v, type := v.type }

/-- Modelled from the spec: `MUnbox::New(ins, type, mode)`. -/
def newUnbox (ins : Nat) (type : MIRType) (mode : UnboxMode) : MDefinition :=
  { op := .Unbox mode, type := type, operands := [ins] }

/-- Modelled from the spec: `MTypeBarrier::New(ins, observed)`. -/
def newTypeBarrier (ins : Nat) (observed : TypeSet) : MDefinition :=
  { op := .TypeBarrier observed, type := .Value, operands := [ins] }

/-- Modelled from the spec: `MPassArg::New(def)`, of the type of its
argument. -/
def newPassArg (arg : Nat) (type : MIRType) : MDefinition :=
  { op := .PassArg, type := type, operands := [arg] }

/-- Modelled from the spec: `MGoto::New(target)`. -/
def newGoto (target : Nat) : MDefinition :=
  { op := .Goto, type := .None, successors := [target] }

/-- Modelled from the spec: `MTest::New(ins, ifTrue, ifFalse)`. -/
def newTest (ins ifTrue ifFalse : Nat) : MDefinition :=
  { op := .Test, type := .None, operands := [ins], successors := [ifTrue, ifFalse] }

/-- Modelled from the spec: `MPhi::New(slot)`. -/
def newPhi (slot : Nat) (inputs : List Nat) : MDefinition :=
  { op := .Phi, type := .Value, operands := inputs, slot := slot }

/-- Modelled from the spec: `block->add(ins)`: the instruction is appended to
the block. -/
def add (g : MIRGraph) (b ins : Nat) : MIRGraph :=
  modifyDefinition
    (modifyBlock g b fun x => { x with instructions := x.instructions ++ [ins] })
    ins fun d => { d with block := some b }

/-- Modelled from the spec: `block->end(ins)`: the control instruction is
added and ends the block. -/
def endWith (g : MIRGraph) (b ins : Nat) : MIRGraph :=
  modifyBlock (add g b ins) b fun x => { x with lastIns := some ins }

/-- Modelled from the spec: `block->discardLastIns()`. -/
def discardLastIns (g : MIRGraph) (b : Nat) : MIRGraph :=
  modifyBlock g b fun x => { x with instructions := x.instructions.dropLast, lastIns := none }

/-- Modelled from the spec: `block->push(def)`. -/
def push (g : MIRGraph) (b d : Nat) : MIRGraph :=
  modifyBlock g b fun x => { x with slots := x.slots ++ [d] }

/-- Modelled from the spec: `block->peek(-depth)`, the definition `depth`
positions below the top of the stack; `peek(-1)` is the top. -/
def peek (g : MIRGraph) (b depth : Nat) : Option Nat :=
  match g.block b with
  | none => none
  | some x => if depth = 0 ∨ x.slots.length < depth then none else x.slots[x.slots.length - depth]?

/-- Modelled from the spec: `block->pop()`, with the popped definition; there
is none if the stack is empty. -/
def pop (g : MIRGraph) (b : Nat) : Option (Nat × MIRGraph) :=
  match peek g b 1 with
  | none => none
  | some d => some (d, modifyBlock g b fun x => { x with slots := x.slots.dropLast })

/-- Modelled from the spec: `block->setSlot(slot, def)`. -/
def setSlot (g : MIRGraph) (b slot d : Nat) : MIRGraph :=
  modifyBlock g b fun x => { x with slots := x.slots.set slot d }

/-- Modelled from the spec: `block->rewriteAtDepth(-depth, def)`. -/
def rewriteAtDepth (g : MIRGraph) (b depth d : Nat) : MIRGraph :=
  modifyBlock g b fun x => { x with slots := x.slots.set (x.slots.length - depth) d }

/-- Modelled from the spec: `graph.moveBlockToEnd(block)`. -/
def moveBlockToEnd (g : MIRGraph) (b : Nat) : MIRGraph :=
  { g with blocks := g.blocks.erase b ++ [b] }

/-- Modelled from the spec: `MBasicBlock::New(graph, info, pred, pc, NORMAL)`
followed by `graph.addBlock`: the new block inherits the stack of its
predecessor, which is its only predecessor; without a predecessor it starts
with an empty stack and no predecessor. -/
def newBlockAt (g : MIRGraph) (pred : Option Nat) (pc loopDepth : Nat) : Option (Nat × MIRGraph) :=
  match pred with
  | none =>
    some (g.table.length,
      { g with table := g.table ++ [{ pc := pc, loopDepth := loopDepth }],
               blocks := g.blocks ++ [g.table.length] })
  | some p =>
    match g.block p with
    | none => none
    | some x =>
      some (g.table.length,
        { g with table := g.table ++
                   [{ pc := pc, predecessors := [p], slots := x.slots, loopDepth := loopDepth }],
                 blocks := g.blocks ++ [g.table.length] })

/-- Modelled from the spec: `block->addPredecessorWithoutPhis(pred)`. -/
def addPredecessorWithoutPhis (g : MIRGraph) (b pred : Nat) : MIRGraph :=
  modifyBlock g b fun x => { x with predecessors := x.predecessors ++ [pred] }

/-- The loop of `MBasicBlock::addPredecessor` over the stack slots, from slot
`i` on: `mine` and `other` are the remaining slots of the block and of the new
predecessor, `numPreds` is the number of predecessors the block has.  Where
the two differ, a Phi of this block gets the other definition as a new input;
a definition that is no Phi of this block is replaced by a new Phi, which has
it as input once per predecessor, followed by the other definition.  The
result is the new slots, the new Phis in the order of their creation, and the
table of definitions. -/
def addPredecessorSlots (b numPreds : Nat) :
    Nat → List Nat → List Nat → List MDefinition → List Nat × List Nat × List MDefinition
  | i, m :: mine, o :: other, defs =>
    if m = o then
      let r := addPredecessorSlots b numPreds (i + 1) mine other defs
      (m :: r.1, r.2.1, r.2.2)
    else
      match defs[m]? with
      | some d =>
        if d.isPhi ∧ d.block = some b then
          let r := addPredecessorSlots b numPreds (i + 1) mine other
            (defs.modify (fun x => { x with operands := x.operands ++ [o] }) m)
          (m :: r.1, r.2.1, r.2.2)
        else
          let phi := defs.length
          let r := addPredecessorSlots b numPreds (i + 1) mine other
            (defs ++ [{ newPhi i (List.replicate numPreds m ++ [o]) with block := some b }])
          (phi :: r.1, phi :: r.2.1, r.2.2)
      | none =>
        let phi := defs.length
        let r := addPredecessorSlots b numPreds (i + 1) mine other
          (defs ++ [{ newPhi i (List.replicate numPreds m ++ [o]) with block := some b }])
        (phi :: r.1, phi :: r.2.1, r.2.2)
  | _, mine, _, defs => (mine, [], defs)

/-- Modelled from the spec: `block->addPredecessor(pred)` (MIRGraph.cpp is not
among the sources): the slots in which the block and the new predecessor
differ get a Phi with one input per predecessor, and `pred` is appended to the
predecessors. -/
def addPredecessor (g : MIRGraph) (b pred : Nat) : Option MIRGraph :=
  match g.block b, g.block pred with
  | some x, some p =>
    let r := addPredecessorSlots b x.predecessors.length 0 x.slots p.slots g.defs
    some (modifyBlock { g with defs := r.2.2 } b fun y =>
      { y with slots := r.1, phis := y.phis ++ r.2.1,
               predecessors := y.predecessors ++ [pred] })
  | _, _ => none

/-- Modelled from the spec: `block->inheritSlots(parent)`. -/
def inheritSlots (g : MIRGraph) (b parent : Nat) : Option MIRGraph :=
  match g.block parent with
  | none => none
  | some p => some (modifyBlock g b fun x => { x with slots := p.slots })

/-- Modelled from the spec: `block->addPhi(phi)`. -/
def addPhi (g : MIRGraph) (b phi : Nat) : MIRGraph :=
  modifyDefinition (modifyBlock g b fun x => { x with phis := x.phis ++ [phi] })
    phi fun d => { d with block := some b }

end Builder


/-! ## The graph builder: state, type barriers and calls -/

namespace Builder

/-- The states `CFGState::State` of a pending control structure. -/
inductive CFGState.State
  | IF_TRUE | IF_TRUE_EMPTY_ELSE | IF_ELSE_TRUE | IF_ELSE_FALSE
  | FAKE_IF | FAKE_IF_END | WHILE_OR_FOR_INVERTED
  | DO_WHILE_LOOP_BODY | DO_WHILE_LOOP_COND
  | WHILE_LOOP_COND | WHILE_LOOP_BODY
  | FOR_LOOP_COND | FOR_LOOP_BODY | FOR_LOOP_UPDATE
  | TABLE_SWITCH | LOOKUP_SWITCH | AND_OR
deriving DecidableEq, Repr

/-- An entry `CFGState` of the stack of pending control structures.  The
members of the unions `branch`, `loop`, `tableswitch` and `lookupswitch` are
fields of the one record; the linked lists of `DeferredEdge`s are the lists of
their blocks, the edge added last first.  `ins` is the `MTableSwitch` of a
table switch, `bodies` the body blocks of a lookup switch and `currentBlock`
the position of the body being built. -/
structure CFGState where
  state : CFGState.State
  stopAt : Nat
  ifFalse : Option Nat := none
  ifTrue : Option Nat := none
  falseEnd : Nat := 0
  entry : Option Nat := none
  bodyStart : Nat := 0
  bodyEnd : Nat := 0
  exitpc : Nat := 0
  updatepc : Nat := 0
  updateEnd : Nat := 0
  successor : Option Nat := none
  breaks : List Nat := []
  continues : List Nat := []
  ins : Option Nat := none
  bodies : List Nat := []
  currentBlock : Nat := 0
deriving DecidableEq, Repr

/-- An entry `ControlFlowInfo` of `loops_` or `switches_`: the position of the
loop or switch in the stack of control structures and the address a `continue`
jumps to; for a switch that is the address of its exit. -/
structure ControlFlowInfo where
  cfgEntry : Nat
  continuepc : Nat
deriving DecidableEq, Repr

/-- The state of an `IonBuilder`: the graph, the block being built, the
bytecode address, the stack of pending control structures (`back()` is the
last element), the loops, the loop depth, the script being compiled, the
scripts of the builders on the chain `callerBuilder_`, nearest first, and the
inlining depth, the numbers of formals and locals of the script (`info()`),
and the switches. -/
structure IonBuilder where
  graph : MIRGraph
  current : Option Nat
  pc : Nat := 0
  cfgStack : List CFGState := []
  loops : List ControlFlowInfo := []
  loopDepth : Nat := 0
  script : Nat := 0
  callerBuilder : List Nat := []
  inliningDepth : Nat := 0
  nargs : Nat := 0
  nlocals : Nat := 0
  switches : List ControlFlowInfo := []
deriving DecidableEq, Repr

/-- Modelled from the spec: `info().localSlot(i)` for a function script
(CompileInfo.h is not among the sources): slot 0 is the scope chain, slot 1 is
`this`, the formals follow, then the locals. -/
def IonBuilder.localSlot (b : IonBuilder) (i : Nat) : Nat :=
  2 + b.nargs + i

/-- Modelled from the spec: `info().argSlot(i)`. -/
def IonBuilder.argSlot (_b : IonBuilder) (i : Nat) : Nat :=
  2 + i

/-- The method `pushConstant(v)`. -/
def pushConstant (b : IonBuilder) (v : Value) : Run (Bool × IonBuilder) :=
  match b.current with
  | none => .fail .nullPointer
  | some cur =>
    let ins := newDefinition b.graph (newConstant v)
    .ok (true, { b with graph := push (add ins.2 cur ins.1) cur ins.1 })

/-- The instruction `replace` that `pushTypeBarrier` chooses when there is no
barrier: a constant for `undefined` and `null`, nothing for an unknown tag,
and for every other tag an infallible `MUnbox` if `ins` has the type
`Value`. -/
def barrierReplacement (g : MIRGraph) (ins : Nat) (type : JSValueType) :
    Run (Option MDefinition) :=
  match type with
  | .UNDEFINED => .ok (some (newConstant .Undefined))
  | .NULL => .ok (some (newConstant .Null))
  | .UNKNOWN => .ok none
  | type =>
    match g.definition ins with
    | none => .fail .nullPointer
    | some i =>
      if i.type = MIRType.Value then
        .ok (some (newUnbox ins (MIRTypeFromValueType type) .Infallible))
      else .ok none

/-- The method `pushTypeBarrier(ins, actual, observed)`; an absent type set
is `none`. -/
def pushTypeBarrier (b : IonBuilder) (ins : Nat) (actual observed : Option TypeSet) :
    Run (Bool × IonBuilder) :=
  match actual with
  | none => .ok (true, b)
  | some actual =>
    match observed with
    | none =>
      match barrierReplacement b.graph ins actual.knownTypeTag with
      | .fail e => .fail e
      | .ok none => .ok (true, b)
      | .ok (some replace) =>
        match b.current with
        | none => .fail .nullPointer
        | some cur =>
          match pop b.graph cur with
          | none => .fail .nullPointer
          | some (_, g) =>
            let r := newDefinition g replace
            .ok (true, { b with graph := push (add r.2 cur r.1) cur r.1 })
    | some observed =>
      if observed.unknown then .ok (true, b)
      else
        match b.current with
        | none => .fail .nullPointer
        | some cur =>
          match pop b.graph cur with
          | none => .fail .nullPointer
          | some (_, g) =>
            let isObject : Bool :=
              decide (observed.knownTypeTag = JSValueType.OBJECT) && !observed.anyObject
            let type := if isObject then JSValueType.UNKNOWN else observed.knownTypeTag
            if type = JSValueType.UNKNOWN ∨ type = JSValueType.UNDEFINED ∨
                type = JSValueType.NULL then
              let r := newDefinition g (newTypeBarrier ins observed)
              let g1 := add r.2 cur r.1
              if type = JSValueType.UNDEFINED then
                pushConstant { b with graph := g1 } .Undefined
              else if type = JSValueType.NULL then
                pushConstant { b with graph := g1 } .Null
              else if isObject then
                let u := newDefinition g1 (newUnbox r.1 MIRType.Object .Infallible)
                .ok (true, { b with graph := push (add u.2 cur u.1) cur u.1 })
              else .ok (true, { b with graph := push g1 cur r.1 })
            else
              match g.definition ins with
              | none => .fail .nullPointer
              | some i =>
                let mode := if i.effectful then UnboxMode.TypeBarrier else UnboxMode.TypeGuard
                let u := newDefinition g (newUnbox ins (MIRTypeFromValueType type) mode)
                .ok (true, { b with graph := push (add u.2 cur u.1) cur u.1 })

/-- Modelled from the spec: `MReturnFromCtor::New(value, object)`. -/
def newReturnFromCtor (value object : Nat) : MDefinition :=
  { op := .ReturnFromCtor, type := .Object, operands := [value, object] }

/-- The definition that `jsop_call_inline` remembers for a return of the
callee with the returned definition `rval`: for a constructing call a new
`MReturnFromCtor` in the exit block if `rval` has the type `Value`, `rval`
itself if it has the type `Object`, and `thisDefn` otherwise. -/
def filterReturn (g : MIRGraph) (constructing : Bool) (thisDefn exitBlock rval : Nat) :
    Run (Nat × MIRGraph) :=
  if constructing then
    match g.definition rval with
    | none => .fail .nullPointer
    | some r =>
      if r.type = MIRType.Value then
        let filter := newDefinition g (newReturnFromCtor rval thisDefn)
        .ok (filter.1, add filter.2 exitBlock filter.1)
      else if r.type ≠ MIRType.Object then .ok (thisDefn, g)
      else .ok (rval, g)
  else .ok (rval, g)

/-- The body of the loop of `jsop_call_inline` over the exits of the callee
graph: the `MReturn` of `exitBlock` is replaced by an `MGoto` to `bottom`, and
the returned definition is appended to `retvalDefns`. -/
def linkExit (constructing : Bool) (thisDefn bottom : Nat) (g : MIRGraph)
    (retvalDefns : List Nat) (exitBlock : Nat) : Run (MIRGraph × List Nat) :=
  match g.block exitBlock with
  | none => .fail .nullPointer
  | some x =>
    match x.lastIns with
    | none => .fail .nullPointer
    | some last =>
      match g.definition last with
      | none => .fail .nullPointer
      | some ret =>
        match ret.operands[0]? with
        | none => .fail .nullPointer
        | some rval =>
          match filterReturn (discardLastIns g exitBlock) constructing thisDefn exitBlock rval with
          | .fail e => .fail e
          | .ok (rval1, g1) =>
            let replacement := newDefinition g1 (newGoto bottom)
            .ok (addPredecessorWithoutPhis (endWith replacement.2 exitBlock replacement.1)
                  bottom exitBlock,
                 retvalDefns ++ [rval1])

/-- The loop of `jsop_call_inline` over the exits. -/
def linkExits (constructing : Bool) (thisDefn bottom : Nat) :
    List Nat → MIRGraph → List Nat → Run (MIRGraph × List Nat)
  | [], g, retvalDefns => .ok (g, retvalDefns)
  | exitBlock :: rest, g, retvalDefns =>
    match linkExit constructing thisDefn bottom g retvalDefns exitBlock with
    | .fail e => .fail e
    | .ok (g1, retvalDefns1) => linkExits constructing thisDefn bottom rest g1 retvalDefns1

/-- The loop `for (i = argc; i >= 0; i--) argv[i] = current->pop()` for the
`n` topmost definitions; the result lists them bottom first. -/
def popArgv (cur : Nat) : Nat → MIRGraph → Option (List Nat × MIRGraph)
  | 0, g => some ([], g)
  | n + 1, g =>
    match pop g cur with
    | none => none
    | some (d, g1) =>
      match popArgv cur n g1 with
      | none => none
      | some (argv, g2) => some (argv ++ [d], g2)

/-- A `JSFunction` as far as the builder queries it.  The field `singleton`
is the prototype object for which `createThisScriptedSingleton` succeeds, if
there is one; the field `object` is the function object itself, the value of
`ObjectValue(*func)`. -/
structure JSFunction where
  interpreted : Bool
  native : Bool
  nargs : Nat
  parent : Nat
  script : Nat
  nativeConstructor : Bool := false
  singleton : Option Nat := none
  object : Nat := 0
deriving DecidableEq, Repr

/-- The method `createThis(target, callee)`, with `createThisNative`,
`createThisScriptedSingleton` and `createThisScripted`: the definition of the
new `this`, added to the block `cur`, or `none` for a native function that is
no constructor. -/
def createThis (g : MIRGraph) (cur : Nat) (target : JSFunction) (callee : Nat) :
    Option (Nat × MIRGraph) :=
  if target.native then
    if !target.nativeConstructor then none
    else
      let magic := newDefinition g (newConstant .Magic)
      some (magic.1, add magic.2 cur magic.1)
  else
    let proto := newDefinition g
      (match target.singleton with
       | some o => newConstant (.Object o)
       | none => { op := .CallGetProperty, type := .Value, operands := [callee] })
    let create := newDefinition (add proto.2 cur proto.1)
      { op := .CreateThis, type := .Object, operands := [callee, proto.1] }
    some (create.1, add create.2 cur create.1)

/-- The run of the inline builder, `inlineBuilder.buildInline`, taken from
outside: it gets the caller, the callee, `thisDefn` and the arguments and
returns the graph with its exit blocks. -/
structure InlineEnv where
  buildInline : IonBuilder → JSFunction → Nat → List Nat → Run (Bool × MIRGraph)

/-- The method `jsop_call_inline(callee, argc, constructing, constFun, bottom,
retvalDefns)`; resume points are not part of the model. -/
def jsop_call_inline (env : InlineEnv) (b : IonBuilder) (callee : JSFunction) (argc : Nat)
    (constructing : Bool) (constFun bottom : Nat) (retvalDefns : List Nat) :
    Run (Bool × IonBuilder × List Nat) :=
  match b.current with
  | none => .fail .nullPointer
  | some cur =>
    match popArgv cur (argc + 1) (rewriteAtDepth b.graph cur (argc + 2) constFun) with
    | none => .fail .nullPointer
    | some (argv, g) =>
      let saved := g.exits
      let made : Option (Nat × MIRGraph) :=
        if constructing then createThis { g with exits := [] } cur callee constFun
        else (argv[0]?).map fun t => (t, { g with exits := [] })
      match made with
      | none => .ok (false, b, retvalDefns)
      | some (thisDefn, g2) =>
        let b2 : IonBuilder := { b with graph := g2 }
        match env.buildInline b2 callee thisDefn argv with
        | .fail e => .fail e
        | .ok (false, _) => .ok (false, b, retvalDefns)
        | .ok (true, g3) =>
          match linkExits constructing thisDefn bottom g3.exits g3 retvalDefns with
          | .fail e => .fail e
          | .ok (g4, retvalDefns1) =>
            .ok (true, { b2 with graph := { g4 with exits := saved } }, retvalDefns1)

end Builder


/-! ## The graph builder: calls that are not inlined, and inlining decisions -/

namespace Builder

/-- A `JSScript` as far as the builder queries it. -/
structure JSScript where
  global : Nat
  canIonCompile : Bool
  length : Nat
  useCount : Nat
deriving DecidableEq, Repr

/-- The options `js_IonOptions` that the inlining decision reads. -/
structure IonOptions where
  maxInlineDepth : Nat
  usesBeforeInlining : Nat
  smallFunctionUsesBeforeInlining : Nat
  inlineMaxTotalBytecodeLength : Nat
  smallFunctionMaxBytecodeLength : Nat
deriving DecidableEq, Repr

/-- The world around the builder: the table of scripts (a `JSScript *` is a
position in it), the options, and the answers of the type oracle to
`canEnterInlinedFunction(target)` and `canInlineCall(script, pc)`. -/
structure World where
  scripts : List JSScript
  options : IonOptions
  canEnterInlinedFunction : JSFunction → Bool
  canInlineCall : Nat → Nat → Bool

/-- The loop of `canInlineTarget` along the chain `callerBuilder_`: whether
some builder of the chain compiles `inlineScript`. -/
def onCallerChain (inlineScript : Nat) : List Nat → Bool
  | [] => false
  | script :: rest => if script = inlineScript then true else onCallerChain inlineScript rest

/-- The method `canInlineTarget(target)`. -/
def canInlineTarget (w : World) (b : IonBuilder) (target : JSFunction) : Run Bool :=
  if !target.interpreted then .ok false
  else
    match w.scripts[b.script]? with
    | none => .fail .nullPointer
    | some script =>
      if target.parent ≠ script.global then .ok false
      else
        match w.scripts[target.script]? with
        | none => .fail .nullPointer
        | some inlineScript =>
          if !inlineScript.canIonCompile then .ok false
          else if onCallerChain target.script b.callerBuilder then .ok false
          else if !w.canEnterInlinedFunction target then .ok false
          else .ok true

/-- The first loop of `makeInliningDecision` over the targets: `none` when it
returns `false`, otherwise `totalSize`, a `uint32_t`, and
`allFunctionsAreSmall`. -/
def sizeTargets (w : World) : List JSFunction → Nat → Bool → Run (Option (Nat × Bool))
  | [], totalSize, allSmall => .ok (some (totalSize, allSmall))
  | target :: rest, totalSize, allSmall =>
    if !target.interpreted then .ok none
    else
      match w.scripts[target.script]? with
      | none => .fail .nullPointer
      | some script =>
        let total := (totalSize + script.length) % 2 ^ 32
        if total > w.options.inlineMaxTotalBytecodeLength then .ok none
        else
          sizeTargets w rest total
            (if script.length > w.options.smallFunctionMaxBytecodeLength then false else allSmall)

/-- The last loop of `makeInliningDecision`: every target can be inlined. -/
def canInlineTargets (w : World) (b : IonBuilder) : List JSFunction → Run Bool
  | [] => .ok true
  | target :: rest =>
    match canInlineTarget w b target with
    | .fail e => .fail e
    | .ok false => .ok false
    | .ok true => canInlineTargets w b rest

/-- The method `makeInliningDecision(targets)`. -/
def makeInliningDecision (w : World) (b : IonBuilder) (targets : List JSFunction) : Run Bool :=
  if b.inliningDepth ≥ w.options.maxInlineDepth then .ok false
  else
    match sizeTargets w targets 0 true with
    | .fail e => .fail e
    | .ok none => .ok false
    | .ok (some (_, allFunctionsAreSmall)) =>
      let checkUses :=
        if allFunctionsAreSmall then w.options.smallFunctionUsesBeforeInlining
        else w.options.usesBeforeInlining
      match w.scripts[b.script]? with
      | none => .fail .nullPointer
      | some script =>
        if script.useCount < checkUses then .ok false
        else if !w.canInlineCall b.script b.pc then .ok false
        else canInlineTargets w b targets

/-- The builder that `jsop_call_inline` creates for the callee and
`buildInline` links to its caller `b`: it compiles the script of the callee,
its chain of caller builders starts with `b`, and it is one level deeper. -/
def inlineBuilder (b : IonBuilder) (callee : JSFunction) : IonBuilder :=
  { graph := b.graph, current := none, script := callee.script,
    callerBuilder := b.script :: b.callerBuilder, inliningDepth := b.inliningDepth + 1,
    loopDepth := b.loopDepth }

/-- The loop of `makeCallBarrier` that pads the missing arguments: for
`i = argc + n` down to `argc + 1` an `undefined` constant and an `MPassArg` of
it are added to the current block, and the `MPassArg` is argument `i`. -/
def padMissing (cur argc : Nat) : Nat → MIRGraph → MCall → MIRGraph × MCall
  | 0, g, call => (g, call)
  | n + 1, g, call =>
    let undef := newDefinition g (newConstant .Undefined)
    let pass := newDefinition (add undef.2 cur undef.1) (newPassArg undef.1 MIRType.Undefined)
    padMissing cur argc n (add pass.2 cur pass.1) (call.addArg (argc + n + 1) pass.1)

/-- The loop of `makeCallBarrier` over the explicit arguments: for `i` down
to 1 the top of the stack is popped and is argument `i`. -/
def popArgs (cur : Nat) : Nat → MIRGraph → MCall → Option (MIRGraph × MCall)
  | 0, g, call => some (g, call)
  | i + 1, g, call =>
    match pop g cur with
    | none => none
    | some (d, g1) => popArgs cur i g1 (call.addArg (i + 1) d)

/-- Modelled from the spec: `block->insertBefore(at, ins)`. -/
def insertBefore (g : MIRGraph) (at_ ins : Nat) : Option MIRGraph :=
  match g.definition at_ with
  | none => none
  | some a =>
    match a.block with
    | none => none
    | some blk =>
      some (modifyDefinition
        (modifyBlock g blk fun x =>
          { x with instructions :=
              (x.instructions.takeWhile fun y => y ≠ at_) ++ ins ::
                x.instructions.dropWhile fun y => y ≠ at_ })
        ins fun d => { d with block := some blk })

/-- Modelled from the spec: `block->discard(ins)`. -/
def discard (g : MIRGraph) (ins : Nat) : Option MIRGraph :=
  match g.definition ins with
  | none => none
  | some a =>
    match a.block with
    | none => none
    | some blk => some (modifyBlock g blk fun x => { x with instructions := x.instructions.erase ins })

/-- The block `if (constructing && target)` of `makeCallBarrier`: for a
constructing call with a known target the `MPassArg` of `this` is discarded
and replaced by a new `MPassArg` of the object that `createThis` makes; the
result is the `this` argument of the call, or `none` where the method
aborts. -/
def newThisArg (g : MIRGraph) (cur : Nat) (target : Option JSFunction) (constructing : Bool)
    (thisArg : Nat) : Run (Option (Nat × MIRGraph)) :=
  match constructing, target with
  | true, some t =>
    match peek g cur 1 with
    | none => .fail .nullPointer
    | some callee =>
      match createThis g cur t callee with
      | none => .ok none
      | some (create, g1) =>
        let newThis := newDefinition g1 (newPassArg create MIRType.Object)
        match discard newThis.2 thisArg with
        | none => .fail .nullPointer
        | some g2 => .ok (some (newThis.1, add g2 cur newThis.1))
  | _, _ => .ok (some (thisArg, g))

/-- The number `targetArgs` of `makeCallBarrier`: the number of actual
arguments, or the number of formals of a scripted target if that is more. -/
def targetArgs (target : Option JSFunction) (argc : Nat) : Nat :=
  match target with
  | some t => if !t.native then Nat.max t.nargs argc else argc
  | none => argc

/-- The part of `makeCallBarrier(target, argc, constructing, types, barrier)`
that builds the `MCall`, up to `current->push(call)`; the result is the call
and the state, or `none` where the method aborts. -/
def makeCallIns (b : IonBuilder) (target : Option JSFunction) (targetId : Option Nat) (argc : Nat)
    (constructing : Bool) : Run (Option (Nat × IonBuilder)) :=
  let call := MCall.New targetId (targetArgs target argc + 1) argc constructing
  match b.current with
  | none => .fail .nullPointer
  | some cur =>
    let padded := padMissing cur argc (targetArgs target argc - argc) b.graph call
    match popArgs cur argc padded.1 padded.2 with
    | none => .fail .nullPointer
    | some (g1, call1) =>
      let start := newDefinition g1 { op := .PrepareCall, type := .None }
      match peek start.2 cur 1 with
      | none => .fail .nullPointer
      | some firstArg =>
        match insertBefore start.2 firstArg start.1 with
        | none => .fail .nullPointer
        | some g2 =>
          let call2 := { call1 with prepareCall := some start.1 }
          match pop g2 cur with
          | none => .fail .nullPointer
          | some (thisArg, g3) =>
            match newThisArg g3 cur target constructing thisArg with
            | .fail e => .fail e
            | .ok none => .ok none
            | .ok (some (thisArg1, g6)) =>
              match pop g6 cur with
              | none => .fail .nullPointer
              | some (fn, g7) =>
                let call3 := { call2.addArg 0 thisArg1 with function := some fn }
                let ins := newDefinition g7
                  { op := .Call call3, type := .Value, effectful := true }
                .ok (some (ins.1, { b with graph := push (add ins.2 cur ins.1) cur ins.1 }))

/-- The method `makeCallBarrier(target, argc, constructing, types, barrier)`;
the resume point of the call is not part of the model. -/
def makeCallBarrier (b : IonBuilder) (target : Option JSFunction) (targetId : Option Nat) (argc : Nat)
    (constructing : Bool) (types barrier : Option TypeSet) : Run (Bool × IonBuilder) :=
  match makeCallIns b target targetId argc constructing with
  | .fail e => .fail e
  | .ok none => .ok (false, b)
  | .ok (some (call, b1)) => pushTypeBarrier b1 call types barrier

/-- The loop of `buildInline` that passes `undefined` for the missing
arguments: `missing` constants are added to the entry block and appended to
`argv`. -/
def padArgv (cur : Nat) : Nat → MIRGraph → List Nat → MIRGraph × List Nat
  | 0, g, argv => (g, argv)
  | missing + 1, g, argv =>
    let undef := newDefinition g (newConstant .Undefined)
    padArgv cur missing (add undef.2 cur undef.1) (argv ++ [undef.1])

/-- The method `buildInline(callerBuilder, callerResumePoint, thisDefn,
argv)` of the inline builder `b` for a callee with `nargs` formals, up to the
initialisation of the slots: the entry block is created and linked to the
current block of the caller, and the missing arguments are passed.  What
follows, the slots and `traverseBytecode`, is `rest`. -/
def buildInline (rest : IonBuilder → List Nat → Run (Bool × IonBuilder))
    (b : IonBuilder) (callerCurrent : Option Nat) (nargs : Nat) (argv : List Nat) :
    Run (Bool × IonBuilder) :=
  match newBlockAt b.graph none b.pc b.loopDepth, callerCurrent with
  | some (cur, g), some predecessor =>
    let goto_ := newDefinition g (newGoto cur)
    let g1 := addPredecessorWithoutPhis (endWith goto_.2 predecessor goto_.1) cur predecessor
    let numActualArgs := argv.length - 1
    let padded := if numActualArgs < nargs then padArgv cur (nargs - numActualArgs) g1 argv
                  else (g1, argv)
    rest { b with graph := padded.1, current := some cur } padded.2
  | _, _ => .fail .nullPointer

end Builder


/-! ## The graph builder: relations between graphs -/

namespace Builder

/-- The abstract stack of the block `b`. -/
def stack (g : MIRGraph) (b : Nat) : Option (List Nat) :=
  (g.block b).map fun x => x.slots

/-- The predecessors of the block `b`. -/
def predecessorsOf (g : MIRGraph) (b : Nat) : Option (List Nat) :=
  (g.block b).map fun x => x.predecessors

/-- The opcode and the operands of the definition `d`. -/
def shape (g : MIRGraph) (d : Nat) : Option (Opcode × List Nat) :=
  (g.definition d).map fun y => (y.op, y.operands)

/-- The definitions of `g` are definitions of `g'` with the same opcode,
operands and type, and those that are in a block are still in a block. -/
def Extends (g g' : MIRGraph) : Prop :=
  ∀ d y, g.definition d = some y →
    ∃ y', g'.definition d = some y' ∧ y'.op = y.op ∧ y'.operands = y.operands ∧
      y'.type = y.type ∧ (y.block ≠ none → y'.block ≠ none)

end Builder


/-! ## The graph builder: control structures -/

namespace Builder

/-- The results `ControlStatus` of the control-flow methods. -/
inductive ControlStatus
  | Error | Ended | Joined | Jumped | None
deriving DecidableEq, Repr

/-- Modelled from the spec: `CFGState::isLoop()` (IonBuilder.h is not among
the sources): the states of the loops. -/
def CFGState.isLoop (state : CFGState) : Bool :=
  match state.state with
  | .DO_WHILE_LOOP_BODY | .DO_WHILE_LOOP_COND | .WHILE_LOOP_COND | .WHILE_LOOP_BODY
  | .FOR_LOOP_COND | .FOR_LOOP_BODY | .FOR_LOOP_UPDATE | .WHILE_OR_FOR_INVERTED => true
  | _ => false

/-- The function `CFGState::If(join, ifFalse)`. -/
def CFGState.If (join ifFalse : Nat) : CFGState :=
  { state := .IF_TRUE, stopAt := join, ifFalse := some ifFalse }

/-- The function `CFGState::IfElse(trueEnd, falseEnd, ifFalse)`; `ifFalsePc`
is `ifFalse->pc()`. -/
def CFGState.IfElse (trueEnd falseEnd ifFalse ifFalsePc : Nat) : CFGState :=
  { state := if falseEnd = ifFalsePc then .IF_TRUE_EMPTY_ELSE else .IF_ELSE_TRUE,
    stopAt := trueEnd, falseEnd := falseEnd, ifFalse := some ifFalse }

/-- Replaces the entry `cfgStack_.back()`, which the methods get by
reference. -/
def setBack (b : IonBuilder) (state : CFGState) : IonBuilder :=
  { b with cfgStack := b.cfgStack.dropLast ++ [state] }

/-- The method `popCfgStack()`. -/
def popCfgStack (b : IonBuilder) : IonBuilder :=
  match b.cfgStack.getLast? with
  | none => b
  | some state =>
    { b with loops := if state.isLoop then b.loops.dropLast else b.loops,
             cfgStack := b.cfgStack.dropLast }

/-- The method `pushLoop(initial, stopAt, entry, bodyStart, bodyEnd, exitpc,
continuepc)`; a `continuepc` of `NULL` is `none`. -/
def pushLoop (b : IonBuilder) (initial : CFGState.State) (stopAt entry bodyStart bodyEnd
    exitpc : Nat) (continuepc : Option Nat) : Option IonBuilder :=
  match b.graph.block entry with
  | none => none
  | some e =>
    some { b with
      loops := b.loops ++
        [{ cfgEntry := b.cfgStack.length, continuepc := continuepc.getD e.pc }],
      cfgStack := b.cfgStack ++
        [{ state := initial, stopAt := stopAt, bodyStart := bodyStart, bodyEnd := bodyEnd,
           exitpc := exitpc, entry := some entry }] }

/-- The method `newBlock(predecessor, pc)`. -/
def newBlock (b : IonBuilder) (predecessor : Option Nat) (pc : Nat) :
    Option (Nat × IonBuilder) :=
  match newBlockAt b.graph predecessor pc b.loopDepth with
  | none => none
  | some (blk, g) => some (blk, { b with graph := g })

/-- Ends the block `blk` with a new `MGoto` to `target`:
`blk->end(MGoto::New(target))`. -/
def endWithGoto (g : MIRGraph) (blk target : Nat) : MIRGraph :=
  endWith (newDefinition g (newGoto target)).2 blk g.defs.length

/-- The method `processIfEnd(state)`. -/
def processIfEnd (b : IonBuilder) (state : CFGState) : Run (ControlStatus × IonBuilder) :=
  match state.ifFalse with
  | none => .fail .nullPointer
  | some ifFalse =>
    let joined : Option MIRGraph :=
      match b.current with
      | some cur => addPredecessor (endWithGoto b.graph cur ifFalse) ifFalse cur
      | none => some b.graph
    match joined with
    | none => .fail .nullPointer
    | some g =>
      match g.block ifFalse with
      | none => .fail .nullPointer
      | some blk =>
        .ok (.Joined,
          { b with graph := moveBlockToEnd g ifFalse, current := some ifFalse, pc := blk.pc })

/-- The method `processIfElseTrueEnd(state)`; the changed state replaces the
top of the stack. -/
def processIfElseTrueEnd (b : IonBuilder) (state : CFGState) :
    Run (ControlStatus × IonBuilder) :=
  match state.ifFalse with
  | none => .fail .nullPointer
  | some ifFalse =>
    match b.graph.block ifFalse with
    | none => .fail .nullPointer
    | some blk =>
      let b1 := setBack b
        { state with state := .IF_ELSE_FALSE, ifTrue := b.current, stopAt := state.falseEnd }
      .ok (.Jumped,
        { b1 with pc := blk.pc, current := some ifFalse,
                  graph := moveBlockToEnd b.graph ifFalse })

/-- The method `processIfElseFalseEnd(state)`. -/
def processIfElseFalseEnd (b : IonBuilder) (state : CFGState) :
    Run (ControlStatus × IonBuilder) :=
  let b0 := setBack b { state with ifFalse := b.current }
  let pred := if state.ifTrue.isSome then state.ifTrue else b.current
  let other := if state.ifTrue.isSome then b.current else state.ifTrue
  match pred with
  | none => .ok (.Ended, b0)
  | some pred =>
    match newBlock b0 (some pred) state.falseEnd with
    | none => .fail .nullPointer
    | some (join, b1) =>
      let g1 := endWithGoto b1.graph pred join
      let joined : Option MIRGraph :=
        match other with
        | some other => addPredecessor (endWithGoto g1 other join) join other
        | none => some g1
      match joined with
      | none => .fail .nullPointer
      | some g2 =>
        match g2.block join with
        | none => .fail .nullPointer
        | some blk => .ok (.Joined, { b1 with graph := g2, current := some join, pc := blk.pc })

/-- The method `createBreakCatchBlock(edge, pc)`: the blocks of the deferred
edges are `edges`, the edge added last first. -/
def createBreakCatchBlock (b : IonBuilder) (edges : List Nat) (pc : Nat) :
    Option (Nat × IonBuilder) :=
  match edges with
  | [] => none
  | first :: rest =>
    match newBlock b (some first) pc with
    | none => none
    | some (successor, b1) =>
      let link : Option MIRGraph :=
        rest.foldl
          (fun g edge =>
            match g with
            | none => none
            | some g => addPredecessor (endWithGoto g edge successor) successor edge)
          (some (endWithGoto b1.graph first successor))
      match link with
      | none => none
      | some g => some (successor, { b1 with graph := g })

/-- The loop of `setBackedge` over the slots: the Phi of each slot of the
header gets the definition in the slot of the backedge block as input, or its
own first input if the slot holds the Phi itself. -/
def setBackedgeInputs : List Nat → List Nat → List MDefinition → List MDefinition
  | entryDef :: phis, exitDef :: slots, defs =>
    let input :=
      if entryDef = exitDef then
        match defs[entryDef]? with
        | some d => d.operands.headD exitDef
        | none => exitDef
      else exitDef
    setBackedgeInputs phis slots
      (defs.modify (fun d => { d with operands := d.operands ++ [input] }) entryDef)
  | _, _, defs => defs

/-- Modelled from the spec: `header->setBackedge(pred)` (MIRGraph.cpp is not
among the sources): the Phis of the pending loop header get their second
input, the slots of the header hold the Phis, and `pred` becomes a
predecessor. -/
def setBackedge (g : MIRGraph) (header pred : Nat) : Option MIRGraph :=
  match g.block header, g.block pred with
  | some h, some p =>
    some (modifyBlock { g with defs := setBackedgeInputs h.phis p.slots g.defs } header fun x =>
      { x with slots := h.phis.take p.slots.length ++ x.slots.drop p.slots.length,
               predecessors := x.predecessors ++ [pred] })
  | _, _ => none

/-- The loop of `inheritPhis` over the Phis of the header: a slot that still
holds the first input of the Phi of the slot gets the Phi. -/
def inheritPhiSlots (defs : List MDefinition) : List Nat → List Nat → List Nat
  | [], slots => slots
  | phi :: phis, slots =>
    match defs[phi]? with
    | none => inheritPhiSlots defs phis slots
    | some d =>
      if d.operands[0]? = slots[d.slot]? ∧ d.slot < slots.length then
        inheritPhiSlots defs phis (slots.set d.slot phi)
      else inheritPhiSlots defs phis slots

/-- Modelled from the spec: `block->inheritPhis(header)` (MIRGraph.cpp is not
among the sources). -/
def inheritPhis (g : MIRGraph) (blk header : Nat) : Option MIRGraph :=
  match g.block header with
  | none => none
  | some h => some (modifyBlock g blk fun x => { x with slots := inheritPhiSlots g.defs h.phis x.slots })

/-- The loop of `finishLoop` that propagates the Phis of the header to the
blocks of the breaks. -/
def inheritPhisEdges (header : Nat) : List Nat → MIRGraph → Option MIRGraph
  | [], g => some g
  | edge :: rest, g =>
    match inheritPhis g edge header with
    | none => none
    | some g1 => inheritPhisEdges header rest g1

/-- The method `finishLoop(state, successor)`. -/
def finishLoop (b : IonBuilder) (state : CFGState) (successor : Option Nat) :
    Run (ControlStatus × IonBuilder) :=
  match b.current, state.entry with
  | some cur, some entry =>
    let b0 := { b with loopDepth := b.loopDepth - 1 }
    match setBackedge b0.graph entry cur with
    | none => .fail .nullPointer
    | some g1 =>
      let moved : Option MIRGraph :=
        match successor with
        | some s => inheritPhis (moveBlockToEnd g1 s) s entry
        | none => some g1
      match moved with
      | none => .fail .nullPointer
      | some g2 =>
        let caught : Option (Option Nat × IonBuilder) :=
          if state.breaks ≠ [] then
            match inheritPhisEdges entry state.breaks g2 with
            | none => none
            | some g3 =>
              match createBreakCatchBlock { b0 with graph := g3 } state.breaks state.exitpc with
              | none => none
              | some (block, b1) =>
                match successor with
                | some s =>
                  match addPredecessor (endWithGoto b1.graph s block) block s with
                  | none => none
                  | some g4 => some (some block, { b1 with graph := g4 })
                | none => some (some block, b1)
          else some (successor, { b0 with graph := g2 })
        match caught with
        | none => .fail .nullPointer
        | some (none, b2) => .ok (.Ended, { b2 with current := none })
        | some (some s, b2) =>
          match b2.graph.block s with
          | none => .fail .nullPointer
          | some blk => .ok (.Joined, { b2 with current := some s, pc := blk.pc })
  | _, _ => .fail .nullPointer

/-- The method `processBrokenLoop(state)`; the loop over the blocks that
resets the loop depths is not part of the model. -/
def processBrokenLoop (b : IonBuilder) (state : CFGState) : Run (ControlStatus × IonBuilder) :=
  let b0 := { b with loopDepth := b.loopDepth - 1 }
  let g0 :=
    match state.successor with
    | some s => moveBlockToEnd b0.graph s
    | none => b0.graph
  let caught : Option (Option Nat × IonBuilder) :=
    if state.breaks ≠ [] then
      match createBreakCatchBlock { b0 with graph := g0 } state.breaks state.exitpc with
      | none => none
      | some (block, b1) =>
        match state.successor with
        | some s =>
          match addPredecessor (endWithGoto b1.graph s block) block s with
          | none => none
          | some g1 => some (some block, { b1 with graph := g1 })
        | none => some (some block, b1)
    else some (state.successor, { b0 with graph := g0 })
  match caught with
  | none => .fail .nullPointer
  | some (none, b2) => .ok (.Ended, { b2 with current := none })
  | some (some s, b2) =>
    match b2.graph.block s with
    | none => .fail .nullPointer
    | some blk => .ok (.Joined, { b2 with current := some s, pc := blk.pc })

/-- The method `processDeferredContinues(state)`; the changed state replaces
the top of the stack. -/
def processDeferredContinues (b : IonBuilder) (state : CFGState) :
    Option (IonBuilder × CFGState) :=
  match state.continues with
  | [] => some (b, state)
  | first :: rest =>
    match b.loops.getLast? with
    | none => none
    | some loop =>
      match newBlock b (some first) loop.continuepc with
      | none => none
      | some (update, b1) =>
        let g1 : Option MIRGraph :=
          match b.current with
          | some cur => addPredecessor (endWithGoto b1.graph cur update) update cur
          | none => some b1.graph
        match g1 with
        | none => none
        | some g1 =>
          let link : Option MIRGraph :=
            rest.foldl
              (fun g edge =>
                match g with
                | none => none
                | some g => addPredecessor (endWithGoto g edge update) update edge)
              (some (endWithGoto g1 first update))
          match link with
          | none => none
          | some g2 =>
            let state1 := { state with continues := [] }
            some (setBack { b1 with graph := g2, current := some update } state1, state1)

/-- The method `processWhileCondEnd(state)`. -/
def processWhileCondEnd (b : IonBuilder) (state : CFGState) :
    Run (ControlStatus × IonBuilder) :=
  match b.current with
  | none => .fail .nullPointer
  | some cur =>
    match pop b.graph cur with
    | none => .fail .nullPointer
    | some (ins, g0) =>
      match newBlockAt g0 (some cur) state.bodyStart b.loopDepth with
      | none => .fail .nullPointer
      | some (body, g1) =>
        match newBlockAt g1 (some cur) state.exitpc (b.loopDepth - 1) with
        | none => .fail .nullPointer
        | some (successor, g2) =>
          let test := newDefinition g2 (newTest ins body successor)
          let b1 := setBack { b with graph := endWith test.2 cur test.1 }
            { state with successor := some successor, state := .WHILE_LOOP_BODY,
                         stopAt := state.bodyEnd }
          .ok (.Jumped, { b1 with pc := state.bodyStart, current := some body })

/-- The method `processWhileBodyEnd(state)`. -/
def processWhileBodyEnd (b : IonBuilder) (state : CFGState) :
    Run (ControlStatus × IonBuilder) :=
  match processDeferredContinues b state with
  | none => .fail .nullPointer
  | some (b1, state1) =>
    match b1.current, state1.entry with
    | none, _ => processBrokenLoop b1 state1
    | some cur, some entry =>
      finishLoop { b1 with graph := endWithGoto b1.graph cur entry } state1 state1.successor
    | some _, none => .fail .nullPointer

end Builder


/-! ## The graph builder: the traversal of the bytecode -/

namespace Builder

/-- The opcodes that `snoopControlFlow` and `inspectOpcode` name; every other
opcode of the bytecode is `Unsupported` with its number. -/
inductive JSOp
  | LOOPENTRY | NOP | LABEL | UNDEFINED | IFEQ | BITNOT
  | BITAND | BITOR | BITXOR | LSH | RSH | URSH
  | ADD | SUB | MUL | DIV | MOD | POS | NEG | AND | OR
  | DEFVAR | DEFCONST | LOCALINC | INCLOCAL | LOCALDEC | DECLOCAL
  | EQ | NE | STRICTEQ | STRICTNE | LT | LE | GT | GE
  | ARGINC | INCARG | ARGDEC | DECARG
  | DOUBLE | STRING | ZERO | ONE | NULL | VOID | HOLE | FALSE | TRUE
  | ARGUMENTS | NOTEARG | GETARG | CALLARG | SETARG | GETLOCAL | CALLLOCAL | SETLOCAL | POP
  | NEWINIT | NEWARRAY | NEWOBJECT | INITELEM | INITPROP | ENDINIT
  | FUNCALL | FUNAPPLY | CALL | NEW | INT8 | UINT16
  | GETGNAME | CALLGNAME | BINDGNAME | SETGNAME | NAME | CALLNAME | BINDNAME
  | DUP | DUP2 | SWAP | PICK | GETALIASEDVAR | CALLALIASEDVAR | SETALIASEDVAR
  | UINT24 | INT32 | LOOPHEAD | GETELEM | CALLELEM | SETELEM | LENGTH | NOT | THIS
  | GETPROP | CALLPROP | SETPROP | SETNAME | DELPROP | REGEXP | OBJECT
  | TYPEOF | TYPEOFEXPR | TOID | LAMBDA | ITER | ITERNEXT | MOREITER | ENDITER | INSTANCEOF
  | RETURN | STOP | THROW | GOTO | TABLESWITCH | LOOKUPSWITCH | IFNE
  | Unsupported (code : Nat)
deriving Repr

/-- The source notes that the modelled methods tell apart, with the offsets
they read (`js_GetSrcNoteOffset`). -/
inductive SrcNote
  | IF
  | IF_ELSE (offset : Nat)
  | COND (offset : Nat)
  | WHILE (offset : Nat)
  | FOR_IN (offset : Nat)
  | FOR
  | BREAK
  | BREAK2LABEL
  | CONTINUE
  | CONT2LABEL
  | SWITCHBREAK
  | SWITCH (offset : Nat)
  | Other
deriving DecidableEq, Repr

/-- An instruction of the bytecode: the opcode, its length
(`js_CodeSpec[op].length`), its jump offset, its immediate operand (a slot
number or an integer) and its source note.  A `TABLESWITCH` has the bounds
`low` and `high` and the jump offsets `table` of its cases after the jump
offset of the default; a `LOOKUPSWITCH` has the constants and jump offsets
`lookup` of its cases. -/
structure Bytecode where
  op : JSOp
  length : Nat := 1
  jumpOffset : Int := 0
  operand : Int := 0
  note : Option SrcNote := none
  low : Int := 0
  high : Int := 0
  table : List Int := []
  lookup : List (Value × Int) := []
deriving Repr

/-- A script: the instructions with their addresses. -/
abbrev Script := List (Nat × Bytecode)

/-- The instruction at the address `pc`. -/
def Script.at (code : Script) (pc : Nat) : Option Bytecode :=
  code.lookup pc

/-- The address `pc + offset`. -/
def jump (pc : Nat) (offset : Int) : Nat :=
  (Int.ofNat pc + offset).toNat

/-- The methods of the builder that are taken from outside: the flag
`JOF_DECOMPOSE` of an opcode, the `jsop_` methods of `inspectOpcode` that are
not modelled, the methods of `snoopControlFlow` and `processCfgEntry` that are
not modelled, what `build` does before and after `traverseBytecode`,
`info().hasArguments()`, the option `js_IonOptions.linv` and
`info().hasOsrAt(pc)`. -/
structure Handlers where
  decompose : JSOp → Bool
  jsop : Bytecode → IonBuilder → Run (Bool × IonBuilder)
  control : Bytecode → IonBuilder → Run (ControlStatus × IonBuilder)
  cfgEntry : CFGState → IonBuilder → Run (ControlStatus × IonBuilder)
  prologue : IonBuilder → Run (Bool × IonBuilder)
  processIterators : IonBuilder → Run (Bool × IonBuilder)
  hasArguments : Bool
  linv : Bool
  hasOsrAt : Nat → Bool

/-- The method `abort(message, ...)`: it returns `false`. -/
def abort (b : IonBuilder) : Run (Bool × IonBuilder) :=
  .ok (false, b)

/-- The method `jsop_ifeq(op)`. -/
def jsop_ifeq (code : Script) (b : IonBuilder) (bc : Bytecode) : Run (Bool × IonBuilder) :=
  let trueStart := b.pc + bc.length
  let falseStart := jump b.pc bc.jumpOffset
  match bc.note with
  | none => abort b
  | some sn =>
    match b.current with
    | none => .fail .nullPointer
    | some cur =>
      match pop b.graph cur with
      | none => .fail .nullPointer
      | some (ins, g0) =>
        match newBlockAt g0 (some cur) trueStart b.loopDepth with
        | none => .fail .nullPointer
        | some (ifTrue, g1) =>
          match newBlockAt g1 (some cur) falseStart b.loopDepth with
          | none => .fail .nullPointer
          | some (ifFalse, g2) =>
            let test := newDefinition g2 (newTest ins ifTrue ifFalse)
            let b1 := { b with graph := endWith test.2 cur test.1, current := some ifTrue }
            match sn with
            | .IF => .ok (true, { b1 with cfgStack := b.cfgStack ++ [CFGState.If falseStart ifFalse] })
            | .IF_ELSE offset | .COND offset =>
              let trueEnd := b.pc + offset
              match code.at trueEnd with
              | none => .fail .nullPointer
              | some goto_ =>
                let falseEnd := jump trueEnd goto_.jumpOffset
                .ok (true, { b1 with cfgStack :=
                  b.cfgStack ++ [CFGState.IfElse trueEnd falseEnd ifFalse falseStart] })
            | _ => .ok (true, b1)

/-- The method `processControlEnd()` and the method `processCfgStack()`, with
`processCfgEntry(state)`: the top of the stack of control structures is
processed, and while that ends a structure the next one is.  The fuel bounds
the number of structures that are processed. -/
def processCfgStack (h : Handlers) : Nat → IonBuilder → Run (ControlStatus × IonBuilder)
  | 0, _ => .fail .outOfFuel
  | fuel + 1, b =>
    match b.cfgStack.getLast? with
    | none => .fail .nullPointer
    | some state =>
      let entry : Run (ControlStatus × IonBuilder) :=
        match state.state with
        | .IF_TRUE | .IF_TRUE_EMPTY_ELSE => processIfEnd b state
        | .IF_ELSE_TRUE => processIfElseTrueEnd b state
        | .IF_ELSE_FALSE => processIfElseFalseEnd b state
        | .WHILE_LOOP_COND => processWhileCondEnd b state
        | .WHILE_LOOP_BODY => processWhileBodyEnd b state
        | _ => h.cfgEntry state b
      match entry with
      | .fail e => .fail e
      | .ok (.Ended, b1) =>
        let b2 := popCfgStack b1
        if b2.cfgStack = [] then .ok (.Ended, b2) else processCfgStack h fuel b2
      | .ok (.Joined, b1) => .ok (.Joined, popCfgStack b1)
      | .ok (status, b1) => .ok (status, b1)

/-- The method `processControlEnd()`. -/
def processControlEnd (h : Handlers) (fuel : Nat) (b : IonBuilder) :
    Run (ControlStatus × IonBuilder) :=
  if b.cfgStack = [] then .ok (.Ended, b) else processCfgStack h fuel b

/-- The method `processReturn(op)`; profiling is off. -/
def processReturn (h : Handlers) (fuel : Nat) (b : IonBuilder) (op : JSOp) :
    Run (ControlStatus × IonBuilder) :=
  match b.current with
  | none => .fail .nullPointer
  | some cur =>
    let popped : Option (Nat × MIRGraph) :=
      match op with
      | .RETURN => pop b.graph cur
      | _ =>
        let ins := newDefinition b.graph (newConstant .Undefined)
        some (ins.1, add ins.2 cur ins.1)
    match popped with
    | none => .fail .nullPointer
    | some (d, g) =>
      let ret := newDefinition g { op := .Return, type := .None, operands := [d] }
      let g1 := endWith ret.2 cur ret.1
      processControlEnd h fuel
        { b with graph := { g1 with exits := g1.exits ++ [cur] }, current := none }

/-- The loop of `processBreak` that finds the target loop, innermost first:
the position in the stack of control structures of the loop whose `exitpc` is
`target`. -/
def findBreakTarget (cfgStack : List CFGState) (target : Nat) :
    List ControlFlowInfo → Option Nat
  | [] => none
  | loop :: outer =>
    match cfgStack[loop.cfgEntry]? with
    | some cfg => if cfg.exitpc = target then some loop.cfgEntry
                  else findBreakTarget cfgStack target outer
    | none => findBreakTarget cfgStack target outer

/-- The method `processBreak(op, sn)`. -/
def processBreak (h : Handlers) (fuel : Nat) (b : IonBuilder) (bc : Bytecode) :
    Run (ControlStatus × IonBuilder) :=
  let target := jump b.pc bc.jumpOffset
  match findBreakTarget b.cfgStack target b.loops.reverse with
  | none => .ok (.Error, b)
  | some found =>
    match b.current with
    | none => .fail .nullPointer
    | some cur =>
      processControlEnd h fuel
        { b with
          cfgStack := b.cfgStack.modify (fun state => { state with breaks := cur :: state.breaks })
            found,
          current := none, pc := b.pc + bc.length }

/-- Modelled from the spec: `MBasicBlock::NewPendingLoopHeader(graph, info,
pred, pc)` followed by `graph.addBlock`: the header inherits the stack of its
predecessor with a new Phi in every slot, whose first input is the definition
of the predecessor. -/
def newPendingLoopHeader (b : IonBuilder) (pred pc : Nat) : Option (Nat × IonBuilder) :=
  match b.graph.block pred with
  | none => none
  | some p =>
    let header := b.graph.table.length
    let phis := (List.range p.slots.length).map fun i => b.graph.defs.length + i
    some (header,
      { b with
        loopDepth := b.loopDepth + 1,
        graph :=
          { b.graph with
            defs := b.graph.defs ++
              p.slots.enum.map fun (i, d) => { newPhi i [d] with block := some header },
            table := b.graph.table ++
              [{ pc := pc, predecessors := [pred], slots := phis, phis := phis,
                 loopDepth := b.loopDepth + 1 }],
            blocks := b.graph.blocks ++ [header] } })

/-- The method `jsop_loophead(pc)`: the recompile check and the interrupt
check are added to the current block. -/
def jsop_loophead (b : IonBuilder) : Option IonBuilder :=
  match b.current with
  | none => none
  | some cur =>
    let check := newDefinition b.graph { op := .Other, type := .None }
    some { b with graph := add check.2 cur check.1 }

/-- The method `whileOrForInLoop(op, sn)` for a `while` loop that is not
entered by on-stack replacement and is not inverted; `ifneOffset` is the
offset of the source note. -/
def whileOrForInLoop (code : Script) (b : IonBuilder) (bc : Bytecode) (ifneOffset : Nat) :
    Run (ControlStatus × IonBuilder) :=
  let ifne := b.pc + ifneOffset
  let bodyEnd := jump b.pc bc.jumpOffset
  match b.current, code.at (b.pc + bc.length), code.at ifne with
  | some cur, some loophead, some ifneIns =>
    let bodyStart := b.pc + bc.length + loophead.length
    let exitpc := ifne + ifneIns.length
    match newPendingLoopHeader b cur b.pc with
    | none => .fail .nullPointer
    | some (header, b1) =>
      let b2 := { b1 with graph := endWithGoto b1.graph cur header }
      match pushLoop b2 .WHILE_LOOP_COND ifne header bodyStart bodyEnd exitpc none with
      | none => .fail .nullPointer
      | some b3 =>
        match jsop_loophead { b3 with current := some header } with
        | none => .fail .nullPointer
        | some b4 => .ok (.Jumped, { b4 with pc := bodyEnd })
  | _, _, _ => .fail .nullPointer

/-- The method `snoopControlFlow(op)`. -/
def snoopControlFlow (h : Handlers) (code : Script) (fuel : Nat) (b : IonBuilder)
    (bc : Bytecode) :
    Run (ControlStatus × IonBuilder) :=
  match bc.op with
  | .NOP =>
    match bc.note with
    | some (.WHILE _) | some .FOR => h.control bc b
    | _ => .ok (.None, b)
  | .POP =>
    match bc.note with
    | some .FOR => h.control bc b
    | _ => .ok (.None, b)
  | .RETURN | .STOP => processReturn h fuel b bc.op
  | .THROW => h.control bc b
  | .GOTO =>
    match bc.note with
    | some .BREAK | some .BREAK2LABEL => processBreak h fuel b bc
    | some .CONTINUE | some .CONT2LABEL | some .SWITCHBREAK | some (.FOR_IN _) =>
      h.control bc b
    | some (.WHILE offset) =>
      if h.linv ∨ h.hasOsrAt (jump b.pc bc.jumpOffset) then h.control bc b
      else whileOrForInLoop code b bc offset
    | _ => .ok (.None, b)
  | .TABLESWITCH | .LOOKUPSWITCH => h.control bc b
  | .IFNE => .ok (.Error, b)
  | _ => .ok (.None, b)

/-- Modelled from the spec: `current->pushSlot(slot)`. -/
def pushSlot (b : IonBuilder) (slot : Nat) : Run (Bool × IonBuilder) :=
  match b.current with
  | none => .fail .nullPointer
  | some cur =>
    match b.graph.block cur with
    | none => .fail .nullPointer
    | some x =>
      match x.slots[slot]? with
      | none => .fail .nullPointer
      | some d => .ok (true, { b with graph := push b.graph cur d })

/-- Modelled from the spec: `current->setSlot(slot, current->peek(-1))`, what
`setLocal` and `setArg` do for the slot of the variable. -/
def setVariable (b : IonBuilder) (slot : Nat) : Run (Bool × IonBuilder) :=
  match b.current with
  | none => .fail .nullPointer
  | some cur =>
    match peek b.graph cur 1 with
    | none => .fail .nullPointer
    | some d => .ok (true, { b with graph := setSlot b.graph cur slot d })

/-- The statement `current->pop()` of `inspectOpcode`. -/
def popCurrent (b : IonBuilder) : Run (Bool × IonBuilder) :=
  match b.current with
  | none => .fail .nullPointer
  | some cur =>
    match pop b.graph cur with
    | none => .fail .nullPointer
    | some (_, g) => .ok (true, { b with graph := g })

/-- The method `jsop_notearg()`. -/
def jsop_notearg (b : IonBuilder) : Run (Bool × IonBuilder) :=
  match b.current with
  | none => .fail .nullPointer
  | some cur =>
    match pop b.graph cur with
    | none => .fail .nullPointer
    | some (d, g) =>
      let arg := newDefinition g (newPassArg d ((g.definition d).elim MIRType.Value fun x => x.type))
      .ok (true, { b with graph := push (add arg.2 cur arg.1) cur arg.1 })

/-- The method `inspectOpcode(op)`; `bc` is the instruction at `pc`. -/
def inspectOpcode (h : Handlers) (code : Script) (b : IonBuilder) (bc : Bytecode) :
    Run (Bool × IonBuilder) :=
  if h.decompose bc.op then .ok (true, b)
  else
    match bc.op with
    | .LOOPENTRY | .NOP | .LABEL | .ENDINIT | .LOOPHEAD => .ok (true, b)
    | .UNDEFINED => pushConstant b .Undefined
    | .IFEQ => jsop_ifeq code b bc
    | .DOUBLE | .STRING => pushConstant b .Other
    | .BINDGNAME => pushConstant b (.Object 0)
    | .ZERO => pushConstant b (.Int32 0)
    | .ONE => pushConstant b (.Int32 1)
    | .NULL => pushConstant b .Null
    | .VOID =>
      match popCurrent b with
      | .ok (_, b1) => pushConstant b1 .Undefined
      | .fail e => .fail e
    | .HOLE => pushConstant b .Magic
    | .FALSE => pushConstant b (.Boolean false)
    | .TRUE => pushConstant b (.Boolean true)
    | .INT8 | .UINT16 | .UINT24 | .INT32 => pushConstant b (.Int32 bc.operand)
    | .NOTEARG => jsop_notearg b
    | .GETARG | .CALLARG => pushSlot b (b.argSlot bc.operand.toNat)
    | .SETARG => if h.hasArguments then abort b else setVariable b (b.argSlot bc.operand.toNat)
    | .GETLOCAL | .CALLLOCAL => pushSlot b (b.localSlot bc.operand.toNat)
    | .SETLOCAL => setVariable b (b.localSlot bc.operand.toNat)
    | .POP => popCurrent b
    | .BITNOT | .BITAND | .BITOR | .BITXOR | .LSH | .RSH | .URSH
    | .ADD | .SUB | .MUL | .DIV | .MOD | .POS | .NEG | .AND | .OR
    | .DEFVAR | .DEFCONST | .LOCALINC | .INCLOCAL | .LOCALDEC | .DECLOCAL
    | .EQ | .NE | .STRICTEQ | .STRICTNE | .LT | .LE | .GT | .GE
    | .ARGINC | .INCARG | .ARGDEC | .DECARG | .ARGUMENTS
    | .NEWINIT | .NEWARRAY | .NEWOBJECT | .INITELEM | .INITPROP
    | .FUNCALL | .FUNAPPLY | .CALL | .NEW
    | .GETGNAME | .CALLGNAME | .SETGNAME | .NAME | .CALLNAME | .BINDNAME
    | .DUP | .DUP2 | .SWAP | .PICK | .GETALIASEDVAR | .CALLALIASEDVAR | .SETALIASEDVAR
    | .GETELEM | .CALLELEM | .SETELEM | .LENGTH | .NOT | .THIS
    | .GETPROP | .CALLPROP | .SETPROP | .SETNAME | .DELPROP | .REGEXP | .OBJECT
    | .TYPEOF | .TYPEOFEXPR | .TOID | .LAMBDA | .ITER | .ITERNEXT | .MOREITER | .ENDITER
    | .INSTANCEOF => h.jsop bc b
    | _ => abort b

/-- One iteration of the loops of `traverseBytecode`: the result of the
method if it returns in this iteration, or the state with which the next
iteration starts. -/
def traverseStep (h : Handlers) (code : Script) (fuel : Nat) (b : IonBuilder) :
    Run (Sum (Bool × IonBuilder) IonBuilder) :=
  if (b.cfgStack.getLast?.map fun state => state.stopAt) = some b.pc then
    match processCfgStack h fuel b with
    | .fail e => .fail e
    | .ok (.Error, b1) => .ok (.inl (false, b1))
    | .ok (_, b1) => if b1.current = none then .ok (.inl (true, b1)) else .ok (.inr b1)
  else
    match code.at b.pc with
    | none => .fail .nullPointer
    | some bc =>
      match snoopControlFlow h code fuel b bc with
      | .fail e => .fail e
      | .ok (.None, b1) =>
        match inspectOpcode h code b1 bc with
        | .fail e => .fail e
        | .ok (false, b2) => .ok (.inl (false, b2))
        | .ok (true, b2) => .ok (.inr { b2 with pc := b2.pc + bc.length })
      | .ok (.Error, b1) => .ok (.inl (false, b1))
      | .ok (_, b1) => if b1.current = none then .ok (.inl (true, b1)) else .ok (.inr b1)

/-- The method `traverseBytecode()`; the fuel bounds the number of iterations
of its loops. -/
def traverseBytecode (h : Handlers) (code : Script) : Nat → IonBuilder → Run (Bool × IonBuilder)
  | 0, _ => .fail .outOfFuel
  | fuel + 1, b =>
    match traverseStep h code (fuel + 1) b with
    | .fail e => .fail e
    | .ok (.inl result) => .ok result
    | .ok (.inr b1) => traverseBytecode h code fuel b1

/-- The method `build()`: what comes before `traverseBytecode`, the traversal,
and `processIterators`. -/
def build (h : Handlers) (code : Script) (fuel : Nat) (b : IonBuilder) : Run (Bool × IonBuilder) :=
  match h.prologue b with
  | .fail e => .fail e
  | .ok (false, b1) => .ok (false, b1)
  | .ok (true, b1) =>
    match traverseBytecode h code fuel b1 with
    | .fail e => .fail e
    | .ok (false, b2) => .ok (false, b2)
    | .ok (true, b2) => h.processIterators b2

end Builder

namespace Builder

/-- Whether the opcode is one of the cases of the `switch` of
`inspectOpcode`. -/
def inSwitch : JSOp → Bool
  | .RETURN | .STOP | .THROW | .GOTO | .TABLESWITCH | .LOOKUPSWITCH | .IFNE
  | .Unsupported _ => false
  | _ => true

end Builder

namespace Builder

/-- The state after `n` iterations of the loops of `traverseBytecode` that
all continue. -/
def traverseSteps (h : Handlers) (code : Script) (fuel : Nat) : Nat → IonBuilder → Option IonBuilder
  | 0, b => some b
  | n + 1, b =>
    match traverseStep h code fuel b with
    | .ok (.inr b1) => traverseSteps h code fuel n b1
    | _ => none

end Builder

/-! ## The graph builder: switches -/

namespace Builder

/-- The value `UINT_MAX` of an `unsigned int` of 32 bits. -/
def UINT_MAX : Nat := 4294967295

/-- Modelled from the spec: `MCompare::New(left, right, JSOP_STRICTEQ)`
(MIR.h is not among the sources). -/
def newCompare (left right : Nat) : MDefinition :=
  { op := .Compare, type := .Boolean, operands := [left, right] }

/-- Modelled from the spec: `MTableSwitch::New(ins, low, high)`. -/
def newTableSwitch (ins : Nat) (low high : Int) : MDefinition :=
  { op := .TableSwitch low high [] [], type := .None, operands := [ins] }

/-- Modelled from the spec: `tableswitch->addDefault(block)`: the default is
the first successor. -/
def MDefinition.addDefault (ts : MDefinition) (block : Nat) : MDefinition :=
  { ts with successors := ts.successors ++ [block] }

/-- Modelled from the spec: `tableswitch->addCase(block)`: the block is the
next case and the next successor. -/
def MDefinition.addCase (ts : MDefinition) (block : Nat) : MDefinition :=
  match ts.op with
  | .TableSwitch low high cases blocks =>
    { ts with op := .TableSwitch low high (cases ++ [block]) blocks,
              successors := ts.successors ++ [block] }
  | _ => ts

/-- Modelled from the spec: `tableswitch->addBlock(block)`: the block is
appended to the blocks that are still to be processed. -/
def MDefinition.addBlock (ts : MDefinition) (block : Nat) : MDefinition :=
  match ts.op with
  | .TableSwitch low high cases blocks =>
    { ts with op := .TableSwitch low high cases (blocks ++ [block]) }
  | _ => ts

/-- The list `tableswitch->blocks()` of a table switch. -/
def MDefinition.blocks (ts : MDefinition) : List Nat :=
  match ts.op with
  | .TableSwitch _ _ _ blocks => blocks
  | _ => []

/-- Replaces the list `tableswitch->blocks()`, which `qsort` sorts in
place. -/
def MDefinition.setBlocks (ts : MDefinition) (sorted : List Nat) : MDefinition :=
  match ts.op with
  | .TableSwitch low high cases _ => { ts with op := .TableSwitch low high cases sorted }
  | _ => ts

/-- The address `block->pc()`; 0 for a pointer that names no block. -/
def pcOf (g : MIRGraph) (block : Nat) : Nat :=
  match g.block block with
  | some x => x.pc
  | none => 0

/-- The call of `qsort` with `CmpSuccessors`: the blocks are sorted by their
address.  The order of blocks of equal address, which `qsort` leaves open, is
kept. -/
def sortByPc (g : MIRGraph) (blocks : List Nat) : List Nat :=
  blocks.insertionSort fun x y => pcOf g x ≤ pcOf g y

/-- The function `CFGState::TableSwitch(exitpc, ins)`. -/
def CFGState.TableSwitch (exitpc ins : Nat) : CFGState :=
  { state := .TABLE_SWITCH, stopAt := exitpc, exitpc := exitpc, breaks := [], ins := some ins,
    currentBlock := 0 }

/-- The function `CFGState::LookupSwitch(exitpc)`. -/
def CFGState.LookupSwitch (exitpc : Nat) : CFGState :=
  { state := .LOOKUP_SWITCH, stopAt := exitpc, exitpc := exitpc, breaks := [], bodies := [],
    currentBlock := 0 }

/-- The loop of `tableSwitch` that creates the cases, for the jump offsets
that are still to be read: a case whose address is that of the switch fills a
gap and goes to the default case; every other case is added to the blocks that
are still to be processed. -/
def tableSwitchCases (cur pc defaultcase : Nat) :
    List Int → IonBuilder → MDefinition → Option (IonBuilder × MDefinition)
  | [], b, ts => some (b, ts)
  | offset :: rest, b, ts =>
    let casepc := jump pc offset
    match newBlock b (some cur) casepc with
    | none => none
    | some (caseblock, b1) =>
      if casepc = pc then
        match addPredecessor (endWithGoto b1.graph caseblock defaultcase) defaultcase
            caseblock with
        | none => none
        | some g =>
          tableSwitchCases cur pc defaultcase rest { b1 with graph := g } (ts.addCase caseblock)
      else
        tableSwitchCases cur pc defaultcase rest b1 ((ts.addCase caseblock).addBlock caseblock)

/-- The method `tableSwitch(op, sn)`. -/
def tableSwitch (b : IonBuilder) (bc : Bytecode) : Run (ControlStatus × IonBuilder) :=
  match b.current, bc.note with
  | some cur, some (.SWITCH offset) =>
    match pop b.graph cur with
    | none => .fail .nullPointer
    | some (ins, g0) =>
      let exitpc := b.pc + offset
      let defaultpc := jump b.pc bc.jumpOffset
      match newBlock { b with graph := g0 } (some cur) defaultpc with
      | none => .fail .nullPointer
      | some (defaultcase, b1) =>
        let ts1 := ((newTableSwitch ins bc.low bc.high).addDefault defaultcase).addBlock
          defaultcase
        let n := (bc.high - bc.low + 1).toNat
        if bc.table.length < n then .fail .nullPointer
        else
          match tableSwitchCases cur b.pc defaultcase (bc.table.take n) b1 ts1 with
          | none => .fail .nullPointer
          | some (b2, ts2) =>
            let g2 := moveBlockToEnd b2.graph defaultcase
            let ts3 := ts2.setBlocks (sortByPc g2 ts2.blocks)
            let switchinfo : ControlFlowInfo :=
              { cfgEntry := b2.cfgStack.length, continuepc := exitpc }
            let tableswitch := newDefinition g2 ts3
            let state := CFGState.TableSwitch exitpc tableswitch.1
            let g3 := endWith tableswitch.2 cur tableswitch.1
            let state1 :=
              if 1 < ts3.blocks.length then { state with stopAt := pcOf g3 (ts3.blocks.getD 1 0) }
              else state
            match ts3.blocks[0]? with
            | none => .fail .nullPointer
            | some first =>
              .ok (.Jumped,
                { b2 with graph := g3, switches := b2.switches ++ [switchinfo],
                          cfgStack := b2.cfgStack ++ [state1], current := some first,
                          pc := pcOf g3 first })
  | _, _ => .fail .nullPointer

/-- The method `processTableSwitchEnd(state)` and the method
`processLookupSwitchEnd(state)`, which read the same members of the state. -/
def processSwitchEnd (b : IonBuilder) (state : CFGState) : Run (ControlStatus × IonBuilder) :=
  if state.breaks = [] ∧ b.current = none then .ok (.Ended, b)
  else
    let made : Option (Nat × IonBuilder) :=
      if state.breaks ≠ [] then createBreakCatchBlock b state.breaks state.exitpc
      else newBlock b b.current state.exitpc
    match made with
    | none => .ok (.Ended, b)
    | some (successor, b1) =>
      match b1.current with
      | none => .ok (.Joined, { b1 with pc := state.exitpc, current := some successor })
      | some cur =>
        let g := endWithGoto b1.graph cur successor
        if state.breaks ≠ [] then
          match addPredecessor g successor cur with
          | none => .fail .nullPointer
          | some g1 =>
            .ok (.Joined, { b1 with graph := g1, pc := state.exitpc, current := some successor })
        else .ok (.Joined, { b1 with graph := g, pc := state.exitpc, current := some successor })

/-- The method `processNextTableSwitchCase(state)`; the changed state replaces
the top of the stack. -/
def processNextTableSwitchCase (b : IonBuilder) (state : CFGState) :
    Run (ControlStatus × IonBuilder) :=
  match state.ins.bind b.graph.definition with
  | none => .fail .nullPointer
  | some ins =>
    let state1 := { state with currentBlock := state.currentBlock + 1 }
    if ins.blocks.length ≤ state1.currentBlock then processSwitchEnd (setBack b state1) state1
    else
      match ins.blocks[state1.currentBlock]? with
      | none => .fail .nullPointer
      | some successor =>
        let linked : Option MIRGraph :=
          match b.current with
          | some cur =>
            (addPredecessor (endWithGoto b.graph cur successor) successor cur).map
              fun g => moveBlockToEnd g successor
          | none => some b.graph
        match linked with
        | none => .fail .nullPointer
        | some g =>
          let stopAt :=
            if state1.currentBlock + 1 < ins.blocks.length then
              pcOf g (ins.blocks.getD (state1.currentBlock + 1) 0)
            else state1.exitpc
          .ok (.Jumped,
            { setBack b { state1 with stopAt := stopAt } with
              graph := g, current := some successor, pc := pcOf g successor })

/-- The method `processNextLookupSwitchCase(state)`; the changed state
replaces the top of the stack. -/
def processNextLookupSwitchCase (b : IonBuilder) (state : CFGState) :
    Run (ControlStatus × IonBuilder) :=
  let curBlock := state.currentBlock + 1
  let state1 := { state with currentBlock := curBlock }
  if state.bodies.length ≤ curBlock then processSwitchEnd (setBack b state1) state1
  else
    match state.bodies[curBlock]? with
    | none => .fail .nullPointer
    | some successor =>
      let linked : Option MIRGraph :=
        match b.current with
        | some cur => addPredecessor (endWithGoto b.graph cur successor) successor cur
        | none => some b.graph
      match linked with
      | none => .fail .nullPointer
      | some g =>
        let g1 := moveBlockToEnd g successor
        let stopAt :=
          if curBlock + 1 < state.bodies.length then pcOf g1 (state.bodies.getD (curBlock + 1) 0)
          else state1.exitpc
        .ok (.Jumped,
          { setBack b { state1 with stopAt := stopAt } with
            graph := g1, current := some successor, pc := pcOf g1 successor })

/-- The loop of `processSwitchBreak` that finds the target switch, the entry
added last first: the position in the stack of control structures that the
first entry with the address `target` names. -/
def findSwitchTarget (target : Nat) : List ControlFlowInfo → Option Nat
  | [] => none
  | info :: earlier =>
    if info.continuepc = target then some info.cfgEntry else findSwitchTarget target earlier

/-- The method `processSwitchBreak(op, sn)`.  A break for which no entry is
found, or whose entry names a position beyond the stack of control
structures, dereferences an invalid pointer; the assertion that the state
found is that of a switch is checked. -/
def processSwitchBreak (h : Handlers) (fuel : Nat) (b : IonBuilder) (bc : Bytecode) :
    Run (ControlStatus × IonBuilder) :=
  let target := jump b.pc bc.jumpOffset
  match findSwitchTarget target b.switches.reverse with
  | none => .fail .nullPointer
  | some found =>
    match b.cfgStack[found]? with
    | none => .fail .nullPointer
    | some state =>
      if state.state ≠ .TABLE_SWITCH ∧ state.state ≠ .LOOKUP_SWITCH then .fail .assertion
      else
        match b.current with
        | none => .fail .nullPointer
        | some cur =>
          processControlEnd h fuel
            { b with
              cfgStack := b.cfgStack.modify
                (fun state => { state with breaks := cur :: state.breaks }) found,
              current := none, pc := b.pc + bc.length }

/-- The variables of the loop of `lookupSwitch` over the cases; `NULL` is
`none`. -/
structure LookupSwitchVars where
  bodyBlocks : List Nat := []
  defaultBody : Option Nat := none
  defaultIdx : Nat := UINT_MAX
  defaultShared : Bool := false
  prevCond : Option Nat := none
  prevCmpIns : Option Nat := none
  prevBody : Option Nat := none
  prevShared : Bool := false
  prevpc : Option Nat := none
deriving DecidableEq, Repr

/-- The variables of the loop of `lookupSwitch` at the end of an iteration:
`casepc` is the address of the case, `cond` its conditional block, `cmpIns`
its comparison, `body` its body and `bodyBlocks` the body blocks with it.  The
position of the default is fixed by the first case whose address is not below
`defaultpc`, and its body is the default body if the addresses are equal. -/
def LookupSwitchVars.next (v : LookupSwitchVars) (defaultpc casepc cond cmpIns body : Nat)
    (bodyBlocks : List Nat) : LookupSwitchVars :=
  { bodyBlocks := bodyBlocks,
    defaultIdx :=
      if defaultpc ≤ casepc ∧ v.defaultIdx = UINT_MAX then
        (bodyBlocks.length + UINT_MAX) % (UINT_MAX + 1)
      else v.defaultIdx,
    defaultBody :=
      if (defaultpc ≤ casepc ∧ v.defaultIdx = UINT_MAX) ∧ defaultpc = casepc then some body
      else v.defaultBody,
    defaultShared :=
      if (defaultpc ≤ casepc ∧ v.defaultIdx = UINT_MAX) ∧ defaultpc = casepc then true
      else v.defaultShared,
    prevCond := some cond,
    prevCmpIns := some cmpIns,
    prevBody := some body,
    prevShared := decide (v.prevpc = some casepc),
    prevpc := some casepc }

/-- The instructions of the conditional block `cond` of a case of
`lookupSwitch`: the constant `rval` and the comparison of the input `ins` of
the switch with it are added to the block.  The result is the comparison and
the graph. -/
def caseCondition (g : MIRGraph) (cond ins : Nat) (rval : Value) : Nat × MIRGraph :=
  let rvalIns := newDefinition g (newConstant rval)
  let cmpIns := newDefinition (add rvalIns.2 cond rvalIns.1) (newCompare ins rvalIns.1)
  (cmpIns.1, add cmpIns.2 cond cmpIns.1)

/-- The part of the loop of `lookupSwitch` that goes back to the previous
case: for the first case the current block is ended with an `MGoto` to `cond`;
otherwise the previous conditional block is ended with an `MTest` between the
previous body and `cond`, and if it shared its body it becomes a predecessor
of that body. -/
def endPrevious (g : MIRGraph) (i : Nat) (current : Option Nat) (v : LookupSwitchVars)
    (cond : Nat) : Option MIRGraph :=
  if i = 0 then current.map fun cur => endWithGoto g cur cond
  else
    match v.prevCond, v.prevCmpIns, v.prevBody with
    | some prevCond, some prevCmpIns, some prevBody =>
      let test := newDefinition g (newTest prevCmpIns prevBody cond)
      let g1 := endWith test.2 prevCond test.1
      if v.prevShared then addPredecessor g1 prevBody prevCond else some g1
    | _, _, _ => none

/-- The body of the loop of `lookupSwitch` for case `i` with the constant
`rval` and the jump offset `offset`; `ins` is the input of the switch.  The
body block is that of the previous case if the addresses are equal, and a new
block otherwise. -/
def lookupSwitchCase (pc defaultpc ins i : Nat) (b : IonBuilder) (v : LookupSwitchVars)
    (rval : Value) (offset : Int) : Run (IonBuilder × LookupSwitchVars) :=
  let casepc := jump pc offset
  match newBlock b (if i = 0 then b.current else v.prevCond) casepc with
  | none => .fail .nullPointer
  | some (cond, b1) =>
    let cmpIns := caseCondition b1.graph cond ins rval
    let made : Option (Nat × List Nat × MIRGraph) :=
      if v.prevpc = some casepc then v.prevBody.map fun body => (body, v.bodyBlocks, cmpIns.2)
      else
        (newBlockAt cmpIns.2 (some cond) casepc b1.loopDepth).map
          fun r => (r.1, v.bodyBlocks ++ [r.1], r.2)
    match made with
    | none => .fail .nullPointer
    | some (body, bodyBlocks, g) =>
      match endPrevious g i b.current v cond with
      | none => .fail .nullPointer
      | some g1 =>
        .ok ({ b1 with graph := g1 }, v.next defaultpc casepc cond cmpIns.1 body bodyBlocks)

/-- The loop of `lookupSwitch` over the cases, from case `i` on. -/
def lookupSwitchCases (pc defaultpc ins : Nat) :
    Nat → List (Value × Int) → IonBuilder → LookupSwitchVars →
    Run (IonBuilder × LookupSwitchVars)
  | _, [], b, v => .ok (b, v)
  | i, (rval, offset) :: rest, b, v =>
    match lookupSwitchCase pc defaultpc ins i b v rval offset with
    | .fail e => .fail e
    | .ok (b1, v1) => lookupSwitchCases pc defaultpc ins (i + 1) rest b1 v1

/-- The part of `lookupSwitch` that ends the last conditional block: with
an `MGoto` if the default body is the body of the last case, and otherwise
with an `MTest` between that body and the default body, of which the block
becomes a predecessor if the default body is shared with a case; if the last
case shared its body, the block becomes a predecessor of that body. -/
def endLastCondition (g : MIRGraph) (v : LookupSwitchVars)
    (defaultBody prevCond prevCmpIns prevBody : Nat) : Option MIRGraph :=
  let ended : Option MIRGraph :=
    if defaultBody = prevBody then some (endWithGoto g prevCond defaultBody)
    else
      let test := newDefinition g (newTest prevCmpIns prevBody defaultBody)
      let g1 := endWith test.2 prevCond test.1
      if v.defaultShared then addPredecessor g1 defaultBody prevCond else some g1
  match ended with
  | none => none
  | some g1 => if v.prevShared then addPredecessor g1 prevBody prevCond else some g1

/-- The part of `lookupSwitch` between the loop over the cases and the
creation of the state: a new default body is created if no case has the
address of the default, and put in its place among the body blocks; the last
conditional block is ended.  The result is the builder with the body
blocks. -/
def lookupSwitchDefault (defaultpc : Nat) (b : IonBuilder) (v : LookupSwitchVars) :
    Run (IonBuilder × List Nat) :=
  let made : Option (Nat × List Nat × IonBuilder) :=
    match v.defaultBody with
    | some defaultBody => some (defaultBody, v.bodyBlocks, b)
    | none =>
      (newBlock b v.prevCond defaultpc).map fun r =>
        (r.1,
         if v.bodyBlocks.length ≤ v.defaultIdx then v.bodyBlocks ++ [r.1]
         else v.bodyBlocks.take v.defaultIdx ++ [r.1] ++ v.bodyBlocks.drop v.defaultIdx,
         r.2)
  match made, v.prevCond, v.prevCmpIns, v.prevBody with
  | some (defaultBody, bodyBlocks, b1), some prevCond, some prevCmpIns, some prevBody =>
    match endLastCondition b1.graph v defaultBody prevCond prevCmpIns prevBody with
    | none => .fail .nullPointer
    | some g => .ok ({ b1 with graph := g }, bodyBlocks)
  | _, _, _, _ => .fail .nullPointer

/-- The method `lookupSwitch(op, sn)`. -/
def lookupSwitch (b : IonBuilder) (bc : Bytecode) : Run (ControlStatus × IonBuilder) :=
  match b.current, bc.note with
  | some cur, some (.SWITCH offset) =>
    match pop b.graph cur with
    | none => .fail .nullPointer
    | some (ins, g0) =>
      let exitpc := b.pc + offset
      let defaultpc := jump b.pc bc.jumpOffset
      match lookupSwitchCases b.pc defaultpc ins 0 bc.lookup { b with graph := g0 } {} with
      | .fail e => .fail e
      | .ok (b1, v) =>
        match lookupSwitchDefault defaultpc b1 v with
        | .fail e => .fail e
        | .ok (b2, bodyBlocks) =>
          match bodyBlocks[0]? with
          | none => .fail .nullPointer
          | some first =>
            let state := { CFGState.LookupSwitch exitpc with bodies := bodyBlocks }
            let g := moveBlockToEnd b2.graph first
            let switchinfo : ControlFlowInfo :=
              { cfgEntry := b2.cfgStack.length, continuepc := exitpc }
            let state1 :=
              if 1 < bodyBlocks.length then
                { state with stopAt := pcOf g (bodyBlocks.getD 1 0) }
              else state
            .ok (.Jumped,
              { b2 with graph := g, switches := b2.switches ++ [switchinfo],
                        cfgStack := b2.cfgStack ++ [state1], current := some first,
                        pc := pcOf g first })
  | _, _ => .fail .nullPointer

/-- The state of the loop of `lookupSwitch` after the cases with the
addresses `done`, in a graph whose blocks have the addresses `P` and had `n0`
blocks before the loop: the body blocks are new blocks whose addresses are the
addresses of the cases, strictly increasing; one conditional block per case
and the body blocks are all that was created; the previous body is the last
body block; the body blocks before the position of the default are below
`defaultpc` and the others are not; the default body, if there is one, is the
body block with the address `defaultpc`. -/
structure LookupInv (n0 defaultpc : Nat) (done P : List Nat) (v : LookupSwitchVars) : Prop where
  sorted : (v.bodyBlocks.map fun blk => P.getD blk 0).Pairwise (fun x y => x < y)
  mem : ∀ p, p ∈ (v.bodyBlocks.map fun blk => P.getD blk 0) ↔ p ∈ done
  fresh : ∀ blk ∈ v.bodyBlocks, n0 ≤ blk ∧ blk < P.length
  size : P.length = n0 + done.length + v.bodyBlocks.length
  short : v.bodyBlocks.length ≤ done.length
  prevpc : v.prevpc = done.getLast?
  top : ∀ p ∈ done, ∀ last, done.getLast? = some last → p ≤ last
  prev : ∀ last, done.getLast? = some last →
    ∃ body cond cmp, v.prevBody = some body ∧ v.bodyBlocks.getLast? = some body ∧
      v.prevCond = some cond ∧ cond < P.length ∧ v.prevCmpIns = some cmp ∧ P.getD body 0 = last
  below : ∀ blk ∈ v.bodyBlocks.take v.defaultIdx, P.getD blk 0 < defaultpc
  above : ∀ blk ∈ v.bodyBlocks.drop v.defaultIdx, defaultpc ≤ P.getD blk 0
  noDefault : v.defaultBody = none → ∀ blk ∈ v.bodyBlocks, P.getD blk 0 ≠ defaultpc
  default : ∀ d, v.defaultBody = some d → d ∈ v.bodyBlocks ∧ P.getD d 0 = defaultpc
  idx : v.defaultIdx = UINT_MAX ∨ v.defaultIdx < v.bodyBlocks.length
  unset : v.defaultIdx = UINT_MAX → v.defaultBody = none

/-- Whether every entry of `switches_` refers to a live switch context: its
position is one of the stack of control structures, and the state there is
that of a table switch or lookup switch whose exit is the address of the
entry. -/
def switchesLive (b : IonBuilder) : Bool :=
  b.switches.all fun e =>
    match b.cfgStack[e.cfgEntry]? with
    | some state =>
      (decide (state.state = .TABLE_SWITCH) || decide (state.state = .LOOKUP_SWITCH)) &&
        decide (state.exitpc = e.continuepc)
    | none => false

/-- The addresses of all blocks of the graph, by position in the table. -/
def pcs (g : MIRGraph) : List Nat :=
  g.table.map fun x => x.pc

end Builder

/-! ## The graph builder: inlining of scripted calls -/

namespace Builder

/-- Modelled from the spec: `def->replaceAllUsesWith(other)` (MIR.h is not
among the sources): every operand that is `def` becomes `other`. -/
def replaceAllUsesWith (g : MIRGraph) (d other : Nat) : MIRGraph :=
  { g with defs := g.defs.map fun x =>
      { x with operands := x.operands.map fun o => if o = d then other else o } }

/-- Modelled from the spec: `def->useCount()`, the number of operands of
instructions that are `def`; resume points are not part of the model. -/
def useCount (g : MIRGraph) (d : Nat) : Nat :=
  (g.defs.map fun x => x.operands.count d).sum

/-- Modelled from the spec: `block->addFromElsewhere(ins)`: the instruction is
removed from its block and added to `block`. -/
def addFromElsewhere (g : MIRGraph) (block ins : Nat) : Option MIRGraph :=
  (discard g ins).map fun g1 => add g1 block ins

/-- Modelled from the spec: `MBasicBlock::New` with a resume point, followed by
`graph.addBlock`: the new block has the predecessor `pred` and the stack that
the resume point captured. -/
def newBlockWithResumePoint (g : MIRGraph) (pred pc loopDepth : Nat) (stack : List Nat) :
    Nat × MIRGraph :=
  (g.table.length,
    { g with table := g.table ++
               [{ pc := pc, predecessors := [pred], slots := stack, loopDepth := loopDepth }],
             blocks := g.blocks ++ [g.table.length] })

/-- The inline property table of a definition that is an
`MGetPropertyCache`. -/
def MDefinition.inlinePropertyTable (d : MDefinition) : Option InlinePropertyTable :=
  match d.op with
  | .GetPropertyCache table => table
  | _ => none

/-- The test `def->isGetPropertyCache()`. -/
def MDefinition.isGetPropertyCache (d : MDefinition) : Bool :=
  match d.op with
  | .GetPropertyCache _ => true
  | _ => false

/-- The test `def->isConstant()`. -/
def MDefinition.isConstant (d : MDefinition) : Bool :=
  match d.op with
  | .Constant _ => true
  | _ => false

/-- The test `def->isTypeBarrier()`. -/
def MDefinition.isTypeBarrier (d : MDefinition) : Bool :=
  match d.op with
  | .TypeBarrier _ => true
  | _ => false

/-- The mode of a definition that is an `MUnbox`. -/
def MDefinition.unboxMode (d : MDefinition) : Option UnboxMode :=
  match d.op with
  | .Unbox mode => some mode
  | _ => none

/-- Modelled from the spec: `inlinePropTable->trimToTargets(targets)`
(MIR.cpp is not among the sources): the entries whose function is none of the
targets are removed. -/
def InlinePropertyTable.trimToTargets (table : InlinePropertyTable) (targets : List JSFunction) :
    InlinePropertyTable :=
  { table with entries := table.entries.filter fun e => targets.any fun t => t.object = e.2 }

/-- The loop of `inlineScriptedCall` that unwraps the `MPassArg`s, for the
`n` topmost stack slots of the block `top` that are still wrapped, the deepest
first: the uses of the `MPassArg` and the slot get its argument, and it is
discarded. -/
def unwrapPassArgs (top : Nat) : Nat → MIRGraph → Option MIRGraph
  | 0, g => some g
  | n + 1, g =>
    match peek g top (n + 1) with
    | none => none
    | some passArg =>
      match (g.definition passArg).bind fun p => p.operands[0]? with
      | none => none
      | some wrapped =>
        match discard (rewriteAtDepth (replaceAllUsesWith g passArg wrapped) top (n + 1) wrapped)
            passArg with
        | none => none
        | some g1 => unwrapPassArgs top n g1

/-- The function `ValidateInlineableGetPropertyCache(getPropCache, thisDefn,
maxUseCount)`. -/
def ValidateInlineableGetPropertyCache (g : MIRGraph) (getPropCache thisDefn maxUseCount : Nat) :
    Option Bool :=
  match g.definition getPropCache with
  | none => none
  | some cache =>
    if maxUseCount < useCount g getPropCache then some false
    else if cache.operands[0]? ≠ some thisDefn then some false
    else
      match cache.inlinePropertyTable with
      | none => some false
      | some propTable => some (decide (propTable.entries.length ≠ 0))

/-- The method `checkInlineableGetPropertyCache(argc)` for the current block
`cur`: the `MGetPropertyCache` that defines the callee, directly or through an
`MTypeBarrier` and an infallible `MUnbox`, if it can be optimised away. -/
def checkInlineableGetPropertyCache (g : MIRGraph) (cur argc : Nat) : Run (Option Nat) :=
  match (peek g cur (argc + 1)).bind fun d => (g.definition d).map fun x => (d, x),
        (peek g cur (argc + 2)).bind fun d => (g.definition d).map fun x => (d, x) with
  | some (thisDefn, this), some (funcDefn, func) =>
    if this.type ≠ MIRType.Object then .ok none
    else if func.type ≠ MIRType.Object then .ok none
    else if func.isConstant then .ok none
    else if func.isGetPropertyCache then
      match ValidateInlineableGetPropertyCache g funcDefn thisDefn 0 with
      | none => .fail .nullPointer
      | some valid => .ok (if valid then some funcDefn else none)
    else if func.unboxMode = none ∨ 0 < useCount g funcDefn then .ok none
    else if func.unboxMode ≠ some .Infallible then .ok none
    else
      match func.operands[0]?.bind fun d => (g.definition d).map fun x => (d, x) with
      | none => .fail .nullPointer
      | some (typeBarrier, barrier) =>
        if !barrier.isTypeBarrier then .ok none
        else if useCount g typeBarrier ≠ 1 then .ok none
        else
          match barrier.operands[0]?.bind fun d => (g.definition d).map fun x => (d, x) with
          | none => .fail .nullPointer
          | some (getPropCache, cache) =>
            if !cache.isGetPropertyCache then .ok none
            else
              match ValidateInlineableGetPropertyCache g getPropCache thisDefn 1 with
              | none => .fail .nullPointer
              | some valid => .ok (if valid then some getPropCache else none)
  | _, _ => .fail .nullPointer

/-- Modelled from the spec: `MPolyInlineDispatch::New(operand)` and
`MPolyInlineDispatch::New(operand, inlinePropTable, fallbackPrepBlock,
fallbackMidBlock, fallbackEndBlock)`. -/
def newPolyInlineDispatch (operand : Nat) (dispatch : MPolyInlineDispatch) : MDefinition :=
  { op := .PolyInlineDispatch dispatch, type := .None, operands := [operand] }

/-- The record of a definition that is an `MPolyInlineDispatch`. -/
def MDefinition.dispatch (d : MDefinition) : MPolyInlineDispatch :=
  match d.op with
  | .PolyInlineDispatch dispatch => dispatch
  | _ => {}

/-- Modelled from the spec: `disp->addCallee(constFun, entryBlock)`: the
callee is appended, and its entry block is the next successor. -/
def MDefinition.addCallee (d : MDefinition) (constFun entryBlock : Nat) : MDefinition :=
  match d.op with
  | .PolyInlineDispatch dispatch =>
    { d with
      op := .PolyInlineDispatch
        { dispatch with callees := dispatch.callees ++ [(constFun, entryBlock)] },
      successors := d.successors ++ [entryBlock] }
  | _ => d

/-- A loop that pops `n` definitions off the stack of the block `blk`. -/
def popN (blk : Nat) : Nat → MIRGraph → Option MIRGraph
  | 0, g => some g
  | n + 1, g =>
    match pop g blk with
    | none => none
    | some (_, g1) => popN blk n g1

/-- The loop of `makePolyInlineDispatch` that re-creates the arguments on the
stack of the fallback block: the `n` topmost definitions of the stack of the
current block `cur` are pushed, the deepest first. -/
def pushArgs (cur fallbackBlock : Nat) : Nat → MIRGraph → Option MIRGraph
  | 0, g => some g
  | n + 1, g =>
    match peek g cur (n + 1) with
    | none => none
    | some d => pushArgs cur fallbackBlock n (push g fallbackBlock d)

/-- The loop of `makePolyInlineDispatch` that grabs the arguments of the
fallback call: `n` definitions are popped off the stack of the block, each is
wrapped in a new `MPassArg`, and the one popped first is argument `n - 1`. -/
def passArgs (blk : Nat) : Nat → MIRGraph → MCall → Option (MIRGraph × MCall)
  | 0, g, call => some (g, call)
  | n + 1, g, call =>
    match pop g blk with
    | none => none
    | some (argDefn, g1) =>
      match g1.definition argDefn with
      | none => none
      | some arg =>
        let passArg := newDefinition g1 (newPassArg argDefn arg.type)
        passArgs blk n (add passArg.2 blk passArg.1) (call.addArg n passArg.1)

/-- The part of `makePolyInlineDispatch` that moves the instructions leading
to the callee from the current block to the fallback block and pushes the
callee there. -/
def moveCallee (g : MIRGraph) (fallbackBlock funcDefn getPropCache : Nat) : Option MIRGraph :=
  match g.definition funcDefn with
  | none => none
  | some func =>
    if func.isGetPropertyCache then
      (addFromElsewhere g fallbackBlock getPropCache).map fun g1 => push g1 fallbackBlock getPropCache
    else
      match func.operands[0]? with
      | none => none
      | some typeBarrier =>
        (((addFromElsewhere g fallbackBlock getPropCache).bind fun g1 =>
            addFromElsewhere g1 fallbackBlock typeBarrier).bind fun g2 =>
            addFromElsewhere g2 fallbackBlock funcDefn).map fun g3 => push g3 fallbackBlock funcDefn

/-- The part of `makePolyInlineDispatch` for a call whose callee is defined by
the `MGetPropertyCache` `getPropCache`, which is optimised away: the callee on
the stack of the current block `cur` becomes `undefined`, and a fallback path
of three blocks is created that repeats the property access and calls its
result.  The resume points are the stacks they capture. -/
def makeFallbackPath (b : IonBuilder) (cur argc funcDefn getPropCache : Nat)
    (types barrier : Option TypeSet) : Run (Option MDefinition × IonBuilder) :=
  match b.graph.definition getPropCache, b.graph.block cur with
  | some cache, some top =>
    match cache.inlinePropertyTable, cache.operands[0]? with
    | some inlinePropTable, some targetObject =>
      let undef := newDefinition b.graph (newConstant .Undefined)
      let g1 := rewriteAtDepth (add undef.2 cur undef.1) cur (argc + 2) undef.1
      match newBlockAt g1 (some cur) b.pc b.loopDepth with
      | none => .fail .nullPointer
      | some (fallbackPrepBlock, g2) =>
        match popN fallbackPrepBlock (argc + 2) g2 with
        | none => .fail .nullPointer
        | some g3 =>
          let mid := newBlockWithResumePoint g3 fallbackPrepBlock inlinePropTable.pc b.loopDepth
            inlinePropTable.priorResumePoint
          match pop (endWithGoto mid.2 fallbackPrepBlock mid.1) mid.1 with
          | none => .fail .nullPointer
          | some (_, g4) =>
            match (moveCallee g4 mid.1 funcDefn getPropCache).bind
                (pushArgs cur mid.1 (argc + 1)) with
            | none => .fail .nullPointer
            | some g5 =>
              let fallbackEnd := newBlockWithResumePoint g5 mid.1 b.pc b.loopDepth top.slots
              let prepCall := newDefinition (endWithGoto fallbackEnd.2 mid.1 fallbackEnd.1)
                { op := .PrepareCall, type := .None }
              match passArgs fallbackEnd.1 (argc + 1) (add prepCall.2 fallbackEnd.1 prepCall.1)
                  (MCall.New none (argc + 1) argc false) with
              | none => .fail .nullPointer
              | some (g6, call) =>
                match pop g6 fallbackEnd.1 with
                | none => .fail .nullPointer
                | some (fn, g7) =>
                  let ins := newDefinition g7
                    { op := .Call { call with prepareCall := some prepCall.1, function := some fn },
                      type := .Value, effectful := true }
                  match pushTypeBarrier
                      { b with graph := push (add ins.2 fallbackEnd.1 ins.1) fallbackEnd.1 ins.1,
                               current := some fallbackEnd.1 }
                      ins.1 types barrier with
                  | .fail e => .fail e
                  | .ok (false, b1) => .ok (none, b1)
                  | .ok (true, b1) =>
                    .ok (some (newPolyInlineDispatch targetObject
                          { inlinePropertyTable := some inlinePropTable,
                            fallbackPrepBlock := some fallbackPrepBlock,
                            fallbackMidBlock := some mid.1,
                            fallbackEndBlock := some fallbackEnd.1 }),
                         { b1 with current := some cur })
    | _, _ => .fail .nullPointer
  | _, _ => .fail .nullPointer

/-- The method `makePolyInlineDispatch(cx, targets, argc, getPropCache, types,
barrier, bottom, retvalDefns)`: the dispatch instruction, not yet added to a
block, or `none` for `NULL`. -/
def makePolyInlineDispatch (b : IonBuilder) (argc : Nat) (getPropCache : Option Nat)
    (types barrier : Option TypeSet) : Run (Option MDefinition × IonBuilder) :=
  match b.current with
  | none => .fail .nullPointer
  | some cur =>
    match peek b.graph cur (argc + 2) with
    | none => .fail .nullPointer
    | some funcDefn =>
      match getPropCache with
      | none => .ok (some (newPolyInlineDispatch funcDefn {}), b)
      | some getPropCache => makeFallbackPath b cur argc funcDefn getPropCache types barrier

/-- The loop of `inlineScriptedCall` over the targets that creates the entry
blocks: each target gets a new block after the current block `cur` with the
constant of the function, and is added to the dispatch as a callee. -/
def addCallees (cur pc loopDepth : Nat) :
    List JSFunction → MIRGraph → MDefinition → Option (MIRGraph × MDefinition)
  | [], g, disp => some (g, disp)
  | func :: rest, g, disp =>
    let constFun := newDefinition g (newConstant (.Object func.object))
    match newBlockAt constFun.2 (some cur) pc loopDepth with
    | none => none
    | some (entryBlock, g1) =>
      addCallees cur pc loopDepth rest (add g1 entryBlock constFun.1)
        (disp.addCallee constFun.1 entryBlock)

/-- The loop of `inlineScriptedCall` over the callees of the dispatch that
builds the inlined graphs; the function of the constant of callee `i` is
target `i`, with which it was added. -/
def inlineCallees (env : InlineEnv) (argc : Nat) (constructing : Bool) (bottom : Nat) :
    List (JSFunction × Nat × Nat) → IonBuilder → List Nat → Run (Bool × IonBuilder × List Nat)
  | [], b, retvalDefns => .ok (true, b, retvalDefns)
  | (target, constFun, block) :: rest, b, retvalDefns =>
    match jsop_call_inline env
        { b with graph := moveBlockToEnd b.graph block, current := some block }
        target argc constructing constFun bottom retvalDefns with
    | .fail e => .fail e
    | .ok (false, b1, retvalDefns1) => .ok (false, b1, retvalDefns1)
    | .ok (true, b1, retvalDefns1) =>
      inlineCallees env argc constructing bottom rest b1 retvalDefns1

/-- The part of `inlineScriptedCall` that links the fallback path of a
dispatch with an inline property table to the bottom block: the result of the
fallback call is one more returned definition, and the end of the path one
more predecessor of `bottom`. -/
def linkFallback (g : MIRGraph) (dispatch : MPolyInlineDispatch) (bottom : Nat)
    (retvalDefns : List Nat) : Option (MIRGraph × List Nat) :=
  match dispatch.inlinePropertyTable with
  | none => some (g, retvalDefns)
  | some _ =>
    match dispatch.fallbackPrepBlock, dispatch.fallbackMidBlock, dispatch.fallbackEndBlock with
    | some prep, some mid, some fallbackEndBlock =>
      match pop (moveBlockToEnd (moveBlockToEnd (moveBlockToEnd g prep) mid) fallbackEndBlock)
          fallbackEndBlock with
      | none => none
      | some (fallbackResult, g1) =>
        some (addPredecessorWithoutPhis (endWithGoto g1 fallbackEndBlock bottom) bottom
                fallbackEndBlock,
              retvalDefns ++ [fallbackResult])
    | _, _, _ => none

/-- The end of `inlineScriptedCall`, from `graph().moveBlockToEnd(bottom)` on:
the bottom block gets the stack of `top` without the arguments and the callee,
and on it the returned definition, which is a new Phi of the returned
definitions if there is more than one; after a polymorphic inlining a second
bottom block follows.  The flag `poly` is `getPropCache || targets.length() >
1`. -/
def finishInline (b : IonBuilder) (top bottom argc postCall : Nat) (poly : Bool)
    (retvalDefns : List Nat) : Run (Bool × IonBuilder) :=
  match inheritSlots (moveBlockToEnd b.graph bottom) bottom top with
  | none => .fail .nullPointer
  | some g =>
    match popN bottom ((if poly then argc + 1 else 0) + 1) g with
    | none => .fail .nullPointer
    | some g1 =>
      let made : Option (Nat × MIRGraph) :=
        if 1 < retvalDefns.length then
          (g1.block bottom).map fun x =>
            let phi := newDefinition g1 (newPhi x.slots.length retvalDefns)
            (phi.1, addPhi phi.2 bottom phi.1)
        else retvalDefns.getLast?.map fun d => (d, g1)
      match made with
      | none => .fail .nullPointer
      | some (retvalDefn, g2) =>
        let g3 := push g2 bottom retvalDefn
        if poly then
          match newBlockAt g3 (some bottom) postCall b.loopDepth with
          | none => .fail .nullPointer
          | some (bottom2, g4) =>
            .ok (true, { b with graph := endWithGoto g4 bottom bottom2, current := some bottom2 })
        else .ok (true, { b with graph := g3, current := some bottom })

/-- The polymorphic branch of `inlineScriptedCall`, from
`makePolyInlineDispatch` on: the dispatch gets one entry block for each
target and ends the block `top`, the callees are inlined, the fallback path
is linked to `bottom`, and the bottom block is finished.  The flag `poly` is
`getPropCache || targets.length() > 1`. -/
def inlineDispatch (env : InlineEnv) (b0 : IonBuilder) (targets : List JSFunction)
    (argc : Nat) (constructing : Bool) (types barrier : Option TypeSet)
    (postCall top bottom : Nat) (getPropCache : Option Nat) (poly : Bool) :
    Run (Bool × IonBuilder) :=
  match makePolyInlineDispatch b0 argc getPropCache types barrier with
  | .fail e => .fail e
  | .ok (none, b1) => .ok (false, b1)
  | .ok (some disp0, b1) =>
    match addCallees top b1.pc b1.loopDepth targets b1.graph disp0 with
    | none => .fail .nullPointer
    | some (g2, disp) =>
      let ins := newDefinition g2 disp
      match inlineCallees env argc constructing bottom (targets.zip disp.dispatch.callees)
          { b1 with graph := endWith ins.2 top ins.1 } [] with
      | .fail e => .fail e
      | .ok (false, b2, _) => .ok (false, b2)
      | .ok (true, b2, retvalDefns) =>
        match linkFallback b2.graph disp.dispatch bottom retvalDefns with
        | none => .fail .nullPointer
        | some (g3, retvalDefns1) =>
          finishInline { b2 with graph := g3 } top bottom argc postCall poly retvalDefns1

/-- The part of `inlineScriptedCall` from the creation of the bottom block on,
for the block `top` and the result `getPropCache` of the check of the callee;
`postCall` is the address after the call. -/
def inlineTargets (env : InlineEnv) (b : IonBuilder) (targets : List JSFunction)
    (argc : Nat) (constructing : Bool) (types barrier : Option TypeSet) (postCall top : Nat)
    (getPropCache : Option Nat) : Run (Bool × IonBuilder) :=
  match newBlock b none postCall with
  | none => .fail .nullPointer
  | some (bottom, b0) =>
    let poly : Bool := getPropCache.isSome || decide (1 < targets.length)
    match getPropCache, targets with
    | none, [func] =>
      let constFun := newDefinition b0.graph (newConstant (.Object func.object))
      match jsop_call_inline env { b0 with graph := add constFun.2 top constFun.1 } func argc
          constructing constFun.1 bottom [] with
      | .fail e => .fail e
      | .ok (false, b1, _) => .ok (false, b1)
      | .ok (true, b1, retvalDefns) => finishInline b1 top bottom argc postCall poly retvalDefns
    | _, _ =>
      inlineDispatch env b0 targets argc constructing types barrier postCall top bottom
        getPropCache poly

/-- The part of `inlineScriptedCall` that checks whether the callee is
defined by an `MGetPropertyCache` that can be optimised away: for a call that
is not constructing, the result of `checkInlineableGetPropertyCache` if its
inline property table, trimmed to the targets, keeps an entry.  The result is
`getPropCache` and the graph with the trimmed table. -/
def checkGetPropertyCache (g : MIRGraph) (top argc : Nat) (constructing : Bool)
    (targets : List JSFunction) : Run (Option Nat × MIRGraph) :=
  if constructing then .ok (none, g)
  else
    match checkInlineableGetPropertyCache g top argc with
    | .fail e => .fail e
    | .ok none => .ok (none, g)
    | .ok (some getPropCache) =>
      match (g.definition getPropCache).bind fun d => d.inlinePropertyTable with
      | none => .fail .nullPointer
      | some inlinePropTable =>
        let trimmed := inlinePropTable.trimToTargets targets
        .ok (if trimmed.entries.length = 0 then none else some getPropCache,
             modifyDefinition g getPropCache fun d =>
               { d with op := .GetPropertyCache (some trimmed) })

/-- The method `inlineScriptedCall(targets, argc, constructing, types,
barrier)`; `postCall` is the address after the call. -/
def inlineScriptedCall (env : InlineEnv) (b : IonBuilder) (targets : List JSFunction)
    (argc : Nat) (constructing : Bool) (types barrier : Option TypeSet) (postCall : Nat) :
    Run (Bool × IonBuilder) :=
  match b.current with
  | none => .fail .nullPointer
  | some top =>
    match unwrapPassArgs top (argc + 1) b.graph with
    | none => .fail .nullPointer
    | some g =>
      match checkGetPropertyCache g top argc constructing targets with
      | .fail e => .fail e
      | .ok (getPropCache, g1) =>
        inlineTargets env { b with graph := g1 } targets argc constructing types barrier
          postCall top getPropCache

/-- The blocks that `g` has are blocks of `g1`, and those that are not in
`touched` are the same in both. -/
def Untouched (touched : List Nat) (g g1 : MIRGraph) : Prop :=
  g.table.length ≤ g1.table.length ∧
    ∀ blk, blk < g.table.length → blk ∉ touched → g1.block blk = g.block blk

/-- A step from `g` to `g1` that changes no block outside `touched` and
keeps the definitions of `g`. -/
structure Step (touched : List Nat) (g g1 : MIRGraph) : Prop where
  blocks : Untouched touched g g1
  defs : Extends g g1

/-- Every callee has one return: the run of the inline builder from a block
`cur` of a graph without exits succeeds, changes no block of the graph other
than `cur`, keeps its definitions, and leaves one exit block, a new block
whose last instruction has a definition of the graph as its first operand. -/
def OneReturn (env : InlineEnv) : Prop :=
  ∀ (b : IonBuilder) (callee : JSFunction) (thisDefn : Nat) (argv : List Nat) (cur : Nat),
    b.current = some cur → cur < b.graph.table.length → b.graph.exits = [] →
    ∃ g1 x y last ret rval r, env.buildInline b callee thisDefn argv = .ok (true, g1) ∧
      Step [cur] b.graph g1 ∧ g1.exits = [x] ∧ b.graph.table.length ≤ x ∧
      g1.block x = some y ∧ y.lastIns = some last ∧ g1.definition last = some ret ∧
      ret.operands[0]? = some rval ∧ g1.definition rval = some r

/-- The fallback path of a call with `argc` arguments on the stack `s` of the
block `cur` can be built for the property cache `c`: the cache is an
instruction of `cur` with an inline property table that has a prior resume
point and with the object as its first operand; the callee on the stack is a
definition that is the cache or an instruction of `cur` whose input is one;
and the arguments on the stack are definitions of the graph. -/
structure FallbackReady (g : MIRGraph) (cur argc c : Nat) (s : List Nat) : Prop where
  cache : ∃ cache table targetObject, g.definition c = some cache ∧
    cache.inlinePropertyTable = some table ∧ cache.operands[0]? = some targetObject ∧
    table.priorResumePoint ≠ [] ∧ cache.block = some cur
  callee : ∀ funcDefn, s[s.length - (argc + 2)]? = some funcDefn →
    ∃ func, g.definition funcDefn = some func ∧
      (func.isGetPropertyCache = false →
        func.block = some cur ∧ ∃ tb tbd, func.operands[0]? = some tb ∧
          g.definition tb = some tbd ∧ tbd.block = some cur)
  args : ∀ d ∈ s.drop (s.length - (argc + 1)), ∃ y, g.definition d = some y

end Builder

/-! ## Example graphs -/

/-- A definition with the given opcode, type, operands and block. -/
def mkDefinition (op : Opcode) (type : MIRType) (operands : List Nat) (block : Nat)
    (movable : Bool) : MDefinition :=
  { op := op, type := type, operands := operands, block := block, movable := movable }

/-- One block that checks `a[i]` and then `a[i + 3]`: definition 0 is `i`,
1 the length, 2 the constant 3, 3 the sum `i + 3`, 4 and 5 the two bounds
checks with range `[0, 0]`, and 6 an instruction that uses both checks. -/
def twoChecksGraph : MIRGraph :=
  { blocks := [
      { freshBlock 0 [] [] with
        immediateDominator := some 0, instructions := [0, 1, 2, 3, 4, 5, 6] }],
    osrBlock := none,
    defs := [
      mkDefinition Opcode.Other MIRType.Int32 [] 0 false,
      mkDefinition Opcode.Other MIRType.Int32 [] 0 false,
      mkDefinition (Opcode.Constant (ConstantValue.Int32 3)) MIRType.Int32 [] 0 false,
      mkDefinition Opcode.Add MIRType.Int32 [0, 2] 0 false,
      mkDefinition (Opcode.BoundsCheck 0 0) MIRType.Int32 [0, 1] 0 true,
      mkDefinition (Opcode.BoundsCheck 0 0) MIRType.Int32 [3, 1] 0 true,
      mkDefinition Opcode.Other MIRType.Value [5, 4] 0 false] }

/-- The graph `twoChecksGraph` when the first check has been widened to
`[0, 3]`. -/
def twoChecksWidened : MIRGraph :=
  setBoundsCheckRange twoChecksGraph 4 0 3

/-- The graph `twoChecksGraph` when the uses of both checks have been
replaced by their indexes. -/
def twoChecksReplaced : MIRGraph :=
  replaceAllUsesWith (replaceAllUsesWith twoChecksGraph 4 0) 5 3

/-- The state in which `EliminateRedundantBoundsChecks` leaves
`twoChecksGraph`, addresses being table positions: the second check is
discarded and the first one widened to `[0, 3]`. -/
def twoChecksFinal : BoundsCheckState :=
  { graph := discardDef (setBoundsCheckRange twoChecksReplaced 4 0 3) 0 5,
    checks := [(1, ⟨4, 0⟩)],
    visited := [5, 4],
    eliminations := [⟨4, 5, 0, twoChecksReplaced, [4]⟩] }

/-- One block with three movable bounds checks: definition 2 checks the
index 1 against the length 0, and definitions 3 and 4 both check the index 0
against the length 1.  Definition 2 has the hash number of the other two
whatever the addresses are, the exclusive or being commutative. -/
def collidingChecksGraph : MIRGraph :=
  { blocks := [
      { freshBlock 0 [] [] with
        immediateDominator := some 0, instructions := [0, 1, 2, 3, 4, 5] }],
    osrBlock := none,
    defs := [
      mkDefinition Opcode.Other MIRType.Int32 [] 0 false,
      mkDefinition Opcode.Other MIRType.Int32 [] 0 false,
      mkDefinition (Opcode.BoundsCheck 0 0) MIRType.Int32 [1, 0] 0 true,
      mkDefinition (Opcode.BoundsCheck 0 0) MIRType.Int32 [0, 1] 0 true,
      mkDefinition (Opcode.BoundsCheck 0 0) MIRType.Int32 [0, 1] 0 true,
      mkDefinition Opcode.Other MIRType.Value [2, 3, 4] 0 false] }

/-- Two blocks, the first the immediate dominator of the second, each with a
movable bounds check of the index 0 against the length 1: the definitions 2
and 3.  Definition 4 uses both checks. -/
def repeatedCheckGraph : MIRGraph :=
  { blocks := [
      { freshBlock 0 [] [1] with
        immediateDominator := some 0, immediatelyDominated := [1], numDominated := 1,
        instructions := [0, 1, 2] },
      { freshBlock 1 [0] [] with
        immediateDominator := some 0, domIndex := 1, instructions := [3, 4] }],
    osrBlock := none,
    defs := [
      mkDefinition Opcode.Other MIRType.Int32 [] 0 false,
      mkDefinition Opcode.Other MIRType.Int32 [] 0 false,
      mkDefinition (Opcode.BoundsCheck 0 0) MIRType.Int32 [0, 1] 0 true,
      mkDefinition (Opcode.BoundsCheck 0 0) MIRType.Int32 [0, 1] 1 true,
      mkDefinition Opcode.Other MIRType.Value [2, 3] 1 false] }

/-- A Phi with the given operands, block and flags. -/
def mkPhi (operands : List Nat) (block : Nat) (hasBytecodeUses : Bool) (slot : Nat) :
    MDefinition :=
  { op := Opcode.Phi, type := MIRType.Value, operands := operands, block := block,
    hasBytecodeUses := hasBytecodeUses, slot := slot }

/-- Two blocks.  Definition 0 is a constant; the Phi 1, in block 0, has the
constant as both operands; the Phi 2, in block 1, has the Phi 1 as both
operands; the instruction 3 uses the Phi 2. -/
def phiChainGraph : MIRGraph :=
  { blocks := [
      { freshBlock 0 [] [1] with phis := [1], instructions := [0] },
      { freshBlock 1 [0] [] with phis := [2], instructions := [3] }],
    osrBlock := none,
    defs := [
      mkDefinition (Opcode.Constant (ConstantValue.Int32 7)) MIRType.Int32 [] 0 false,
      mkPhi [0, 0] 0 false 0,
      mkPhi [1, 1] 1 false 0,
      mkDefinition Opcode.Other MIRType.Value [2] 1 false] }

/-- Two blocks.  Definitions 0 and 1 are constants of block 0.  Block 1 has
three Phis, none of them redundant: the Phi 2, which the instruction 5 uses,
the Phi 3, an operand of the Phi 2, and the Phi 4, which nothing uses. -/
def livePhisGraph : MIRGraph :=
  { blocks := [
      { freshBlock 0 [] [1] with instructions := [0, 1] },
      { freshBlock 1 [0, 1] [1] with phis := [2, 3, 4], instructions := [5] }],
    osrBlock := none,
    defs := [
      mkDefinition (Opcode.Constant (ConstantValue.Int32 7)) MIRType.Int32 [] 0 false,
      mkDefinition (Opcode.Constant (ConstantValue.Int32 8)) MIRType.Int32 [] 0 false,
      mkPhi [0, 3] 1 false 0,
      mkPhi [0, 1] 1 false 0,
      mkPhi [1, 0] 1 false 0,
      mkDefinition Opcode.Other MIRType.Value [2] 1 false] }

/-- One block, a loop.  Definition 0 is a constant; the Phi 1 has the
constant as operand 0 and itself as operand 1; the instruction 2 uses the Phi;
the resume point holds the Phi. -/
def selfSecondGraph : MIRGraph :=
  { blocks := [
      { freshBlock 0 [0] [0] with phis := [1], instructions := [0, 2] }],
    osrBlock := none,
    defs := [
      mkDefinition (Opcode.Constant (ConstantValue.Int32 7)) MIRType.Int32 [] 0 false,
      mkPhi [0, 1] 0 false 0,
      mkDefinition Opcode.Other MIRType.Value [1] 0 false],
    resumePoints := [[1]] }

/-- A loop over a value that it does not change.  Block 0 is the entry, with
the constant 0.  Block 1 is the loop: its Phi 1 has the constant, from the
entry, and itself, from the back edge, and its instruction 2 uses the Phi.
Block 2 is the exit, whose instruction 3 uses the Phi.  The resume point
holds the Phi. -/
def invariantLoopGraph : MIRGraph :=
  { blocks := [
      { freshBlock 0 [] [1] with instructions := [0] },
      { freshBlock 1 [0, 1] [1, 2] with phis := [1], instructions := [2] },
      { freshBlock 2 [1] [] with instructions := [3] }],
    osrBlock := none,
    defs := [
      mkDefinition (Opcode.Constant (ConstantValue.Int32 7)) MIRType.Int32 [] 0 false,
      mkPhi [0, 1] 1 false 0,
      mkDefinition Opcode.Other MIRType.Value [1] 1 false,
      mkDefinition Opcode.Other MIRType.Value [1] 2 false],
    resumePoints := [[1]] }

/-- Two nested loops over a value that neither of them changes.  Block 0 is
the entry, with the constant 0.  Block 1 is the header of the outer loop: its
Phi 1 has the constant, from the entry, and the Phi 2, from the back edge.
Block 2 is the inner loop: its Phi 2 has the Phi 1, from the outer header, and
itself, from its own back edge, and its instruction 3 uses the Phi 2.  Block 3
is the exit, whose instruction 4 uses the Phi 1. -/
def nestedLoopGraph : MIRGraph :=
  { blocks := [
      { freshBlock 0 [] [1] with instructions := [0] },
      { freshBlock 1 [0, 2] [2, 3] with phis := [1] },
      { freshBlock 2 [1, 2] [2, 1] with phis := [2], instructions := [3] },
      { freshBlock 3 [1] [] with instructions := [4] }],
    osrBlock := none,
    defs := [
      mkDefinition (Opcode.Constant (ConstantValue.Int32 7)) MIRType.Int32 [] 0 false,
      mkPhi [0, 2] 1 false 0,
      mkPhi [1, 2] 2 false 0,
      mkDefinition Opcode.Other MIRType.Value [2] 2 false,
      mkDefinition Opcode.Other MIRType.Value [1] 3 false] }

/-- No instruction has a type policy: `def->typePolicy()` is `NULL` and
`adjustInputs` returns `true`. -/
def noPolicy (g : MIRGraph) (_ins : Nat) : Option MIRGraph :=
  some g

/-- Two blocks.  Block 0 has the constants 0 and 1, the sum 2 of them, the
effectful instruction 3 that uses 1, and the control instruction 4; block 1
has the instruction 5 that uses 0 and the control instruction 6 that uses 1.
Nothing uses 2 or 5, and nothing but them uses 0. -/
def deadCodeGraph : MIRGraph :=
  { blocks := [
      { freshBlock 0 [] [1] with instructions := [0, 1, 2, 3, 4] },
      { freshBlock 1 [0] [] with instructions := [5, 6] }],
    osrBlock := none,
    defs := [
      mkDefinition (Opcode.Constant (ConstantValue.Int32 7)) MIRType.Int32 [] 0 false,
      mkDefinition (Opcode.Constant (ConstantValue.Int32 8)) MIRType.Int32 [] 0 false,
      mkDefinition Opcode.Add MIRType.Int32 [0, 1] 0 false,
      { mkDefinition Opcode.Other MIRType.None [1] 0 false with effectful := true },
      { mkDefinition Opcode.Other MIRType.None [] 0 false with controlInstruction := true },
      mkDefinition Opcode.Other MIRType.Value [0] 1 false,
      { mkDefinition Opcode.Other MIRType.None [1] 1 false with controlInstruction := true }] }

/-- One block that checks `a[i + 2147483647]` twice with the range `[0, 1]`:
definition 0 is `i`, 1 the length, 2 the constant, 3 the sum, 4 and 5 the two
bounds checks, and 6 an instruction that uses both checks.  Adding the
maximum 1 to the constant of the index overflows. -/
def overflowChecksGraph : MIRGraph :=
  { blocks := [
      { freshBlock 0 [] [] with
        immediateDominator := some 0, instructions := [0, 1, 2, 3, 4, 5, 6] }],
    osrBlock := none,
    defs := [
      mkDefinition Opcode.Other MIRType.Int32 [] 0 false,
      mkDefinition Opcode.Other MIRType.Int32 [] 0 false,
      mkDefinition (Opcode.Constant (ConstantValue.Int32 2147483647)) MIRType.Int32 [] 0 false,
      mkDefinition Opcode.Add MIRType.Int32 [0, 2] 0 false,
      mkDefinition (Opcode.BoundsCheck 0 1) MIRType.Int32 [3, 1] 0 true,
      mkDefinition (Opcode.BoundsCheck 0 1) MIRType.Int32 [3, 1] 0 true,
      mkDefinition Opcode.Other MIRType.Value [5, 4] 0 false] }

/-- Two blocks with a dead chain: block 0 has the constant 0 and the control
instruction 1; block 1 has the instruction 2, whose operand is 0, and the
control instruction 3.  Nothing uses 2, and nothing but 2 uses 0. -/
def deadChainGraph : MIRGraph :=
  { blocks := [
      { freshBlock 0 [] [1] with instructions := [0, 1] },
      { freshBlock 1 [0] [] with instructions := [2, 3] }],
    osrBlock := none,
    defs := [
      mkDefinition (Opcode.Constant (ConstantValue.Int32 7)) MIRType.Int32 [] 0 false,
      { mkDefinition Opcode.Other MIRType.None [] 0 false with controlInstruction := true },
      mkDefinition Opcode.Other MIRType.Int32 [0] 1 false,
      { mkDefinition Opcode.Other MIRType.None [] 1 false with controlInstruction := true }] }

/-- Two blocks.  Block 0 has the undefined constant 0, the null constant 1,
an `Int32` constant 2 and its last instruction 3.  Block 1 has the Phi 4 of
type `Undefined`, the Phi 5 of type `Null`, the Phi 6 of type `Int32`, the
instruction 7 that uses the three Phis and its last instruction 8. -/
def nullPhisGraph : MIRGraph :=
  { blocks := [
      { freshBlock 0 [] [1] with instructions := [0, 1, 2, 3] },
      { freshBlock 1 [0, 0] [] with phis := [4, 5, 6], instructions := [7, 8] }],
    osrBlock := none,
    defs := [
      mkDefinition (Opcode.Constant ConstantValue.Undefined) MIRType.Undefined [] 0 false,
      mkDefinition (Opcode.Constant ConstantValue.Null) MIRType.Null [] 0 false,
      mkDefinition (Opcode.Constant (ConstantValue.Int32 7)) MIRType.Int32 [] 0 false,
      { mkDefinition Opcode.Other MIRType.None [] 0 false with controlInstruction := true },
      { mkPhi [0, 0] 1 false 0 with type := MIRType.Undefined },
      { mkPhi [1, 1] 1 false 0 with type := MIRType.Null },
      { mkPhi [2, 2] 1 false 0 with type := MIRType.Int32 },
      mkDefinition Opcode.Other MIRType.Value [4, 5, 6] 1 false,
      { mkDefinition Opcode.Other MIRType.None [] 1 false with controlInstruction := true }] }

/-- The graph `nullPhisGraph` after `insertConversions`: block 1 has the new
null constant 10 and the new undefined constant 9 before its instructions and
the Phi 6 only, and the instruction 7 uses the two constants and the Phi 6. -/
def nullPhisGraphConverted : MIRGraph :=
  { blocks := [
      { freshBlock 0 [] [1] with instructions := [0, 1, 2, 3] },
      { freshBlock 1 [0, 0] [] with phis := [6], instructions := [10, 9, 7, 8] }],
    osrBlock := none,
    defs := [
      mkDefinition (Opcode.Constant ConstantValue.Undefined) MIRType.Undefined [] 0 false,
      mkDefinition (Opcode.Constant ConstantValue.Null) MIRType.Null [] 0 false,
      mkDefinition (Opcode.Constant (ConstantValue.Int32 7)) MIRType.Int32 [] 0 false,
      { mkDefinition Opcode.Other MIRType.None [] 0 false with controlInstruction := true },
      { mkPhi [0, 0] 1 false 0 with type := MIRType.Undefined },
      { mkPhi [1, 1] 1 false 0 with type := MIRType.Null },
      { mkPhi [2, 2] 1 false 0 with type := MIRType.Int32 },
      mkDefinition Opcode.Other MIRType.Value [9, 10, 6] 1 false,
      { mkDefinition Opcode.Other MIRType.None [] 1 false with controlInstruction := true },
      mkDefinition (Opcode.Constant ConstantValue.Undefined) MIRType.Undefined [] 1 false,
      mkDefinition (Opcode.Constant ConstantValue.Null) MIRType.Null [] 1 false] }

/-! ## Example graphs for the passes that add and remove blocks -/

namespace CFG

/-- Three blocks.  Block 0 ends in the `Test` 1 with the successors 1 and 2,
block 1 in the `Goto` 2 to block 2, and block 2, which has the Phi 4, in the
instruction 3.  The edge from block 0 to block 2 is critical. -/
def criticalGraph : MIRGraph :=
  { table := [
      { id := 0, predecessors := [], instructions := [0, 1] },
      { id := 1, predecessors := [0], instructions := [2] },
      { id := 2, predecessors := [0, 1], phis := [4], instructions := [3] }],
    blocks := [0, 1, 2],
    defs := [
      { op := Opcode.Other },
      { op := Opcode.Test, operands := [0], successors := [1, 2] },
      { op := Opcode.Goto, successors := [2] },
      { op := Opcode.Other },
      { op := Opcode.Phi, operands := [0, 0] }],
    numBlockIds := 3 }

end CFG

namespace CFG

/-- Three blocks in a row.  Block 0 has the constant 0 and ends in the `Goto`
1 to block 1; block 1 has the Phi 2 of the constant, the instruction 3 that
uses the Phi, and ends in the `Goto` 4 to block 2; block 2 has the instruction
5, its last, that uses the Phi too. -/
def chainGraph : MIRGraph :=
  { table := [
      { id := 0, predecessors := [], instructions := [0, 1] },
      { id := 1, predecessors := [0], phis := [2], instructions := [3, 4] },
      { id := 2, predecessors := [1], instructions := [5] }],
    blocks := [0, 1, 2],
    defs := [
      { op := Opcode.Constant (ConstantValue.Int32 7) },
      { op := Opcode.Goto, successors := [1] },
      { op := Opcode.Phi, operands := [0] },
      { op := Opcode.Other, operands := [2] },
      { op := Opcode.Goto, successors := [2] },
      { op := Opcode.Other, operands := [2] }],
    numBlockIds := 3 }

/-- The graph `chainGraph` after `CoalesceBlocks`: block 0 has all the
instructions, and the uses of the Phi are uses of the constant. -/
def chainGraphCoalesced : MIRGraph :=
  { table := [
      { id := 0, predecessors := [], instructions := [0, 3, 5] },
      { id := 1, predecessors := [0], instructions := [] },
      { id := 2, predecessors := [0], instructions := [] }],
    blocks := [0],
    defs := [
      { op := Opcode.Constant (ConstantValue.Int32 7) },
      { op := Opcode.Goto, successors := [1] },
      { op := Opcode.Phi, operands := [0] },
      { op := Opcode.Other, operands := [0] },
      { op := Opcode.Goto, successors := [2] },
      { op := Opcode.Other, operands := [0] }],
    numBlockIds := 3 }

/-- The graph `chainGraph` with a second operand on the Phi of block 1, which
has one predecessor. -/
def chainGraphBinaryPhi : MIRGraph :=
  modifyDefinition chainGraph 2 fun d => { d with operands := [0, 0] }

end CFG

namespace CFG

/-- The graph of `L: { if (true) t; else { if (x) { c; break L; } d; } } r`.
Block 0 ends in the `Test` 2 of the constant `true`, with the successors 1
and 2; block 1 is the true branch; block 2 ends in the `Test` 5 of `x`, with
the successors 3, which leaves the labelled statement, and 4; the blocks 1 and
4 meet in block 5, which has the Phi 10, and the blocks 3 and 5 meet in block
6, which has the Phi 12 and the instruction 13 that uses it. -/
def labelledBreakGraph : MIRGraph :=
  { table := [
      { id := 0, predecessors := [], instructions := [0, 1, 2] },
      { id := 1, predecessors := [0], instructions := [3, 4] },
      { id := 2, predecessors := [0], instructions := [5] },
      { id := 3, predecessors := [2], instructions := [6, 7] },
      { id := 4, predecessors := [2], instructions := [8, 9] },
      { id := 5, predecessors := [1, 4], phis := [10], instructions := [11] },
      { id := 6, predecessors := [3, 5], phis := [12], instructions := [13] }],
    blocks := [0, 1, 2, 3, 4, 5, 6],
    defs := [
      { op := Opcode.Constant (ConstantValue.Boolean true) },
      { op := Opcode.Other },
      { op := Opcode.Test, operands := [0], successors := [1, 2] },
      { op := Opcode.Other },
      { op := Opcode.Goto, successors := [5] },
      { op := Opcode.Test, operands := [1], successors := [3, 4] },
      { op := Opcode.Other },
      { op := Opcode.Goto, successors := [6] },
      { op := Opcode.Other },
      { op := Opcode.Goto, successors := [5] },
      { op := Opcode.Phi, operands := [3, 8] },
      { op := Opcode.Goto, successors := [6] },
      { op := Opcode.Phi, operands := [6, 10] },
      { op := Opcode.Other, operands := [12] }],
    numBlockIds := 7 }

/-- The graph of `if (true) t; else { if (x) c; else d; } r`: as
`labelledBreakGraph`, but the blocks 3 and 4 meet in block 5, which has the
Phi 10, and the blocks 1 and 5 meet in block 6, which has the Phi 12. -/
def nestedDiamondGraph : MIRGraph :=
  { table := [
      { id := 0, predecessors := [], instructions := [0, 1, 2] },
      { id := 1, predecessors := [0], instructions := [3, 4] },
      { id := 2, predecessors := [0], instructions := [5] },
      { id := 3, predecessors := [2], instructions := [6, 7] },
      { id := 4, predecessors := [2], instructions := [8, 9] },
      { id := 5, predecessors := [3, 4], phis := [10], instructions := [11] },
      { id := 6, predecessors := [1, 5], phis := [12], instructions := [13] }],
    blocks := [0, 1, 2, 3, 4, 5, 6],
    defs := [
      { op := Opcode.Constant (ConstantValue.Boolean true) },
      { op := Opcode.Other },
      { op := Opcode.Test, operands := [0], successors := [1, 2] },
      { op := Opcode.Other },
      { op := Opcode.Goto, successors := [6] },
      { op := Opcode.Test, operands := [1], successors := [3, 4] },
      { op := Opcode.Other },
      { op := Opcode.Goto, successors := [5] },
      { op := Opcode.Other },
      { op := Opcode.Goto, successors := [5] },
      { op := Opcode.Phi, operands := [6, 8] },
      { op := Opcode.Goto, successors := [6] },
      { op := Opcode.Phi, operands := [3, 10] },
      { op := Opcode.Other, operands := [12] }],
    numBlockIds := 7 }

end CFG

namespace CFG

/-- The graph `labelledBreakGraph` and the array `deleteBlock` after the first
loop of `DCEConditionals` has visited block 0. -/
def labelledBreakFolded : MIRGraph × List Bool :=
  (foldConditional labelledBreakGraph (List.replicate 7 false) 0).get (labelledBreakGraph, [])

/-- The graph `labelledBreakGraph` after `DCEConditionals`. -/
def labelledBreakResult : MIRGraph :=
  (DCEConditionals labelledBreakGraph).get labelledBreakGraph

end CFG


/-! ## Example builder states -/

namespace Builder

/-- A builder whose current block 0 has the effectful instruction 0 of type
`Value` on top of its stack. -/
def barrierBuilder : IonBuilder :=
  { graph :=
      { defs := [{ op := .Other, type := .Value, block := some 0, effectful := true }],
        table := [{ pc := 0, slots := [0], instructions := [0] }],
        blocks := [0] },
    current := some 0 }

/-- A type set with the known type tag `UNKNOWN`. -/
def unknownTag : TypeSet :=
  { knownTypeTag := .UNKNOWN }

/-- The unknown type set. -/
def unknownSet : TypeSet :=
  { knownTypeTag := .UNKNOWN, unknown := true }

/-- The graph of a caller and an inlined constructor: block 0 is the caller
block with the new `this` object 0, block 1 is the exit block of the callee,
which returns the definition 1 of type `Value` with the `MReturn` 2, and
block 2 is the bottom block. -/
def ctorReturnGraph : MIRGraph :=
  { defs := [
      { op := .CreateThis, type := .Object, block := some 0 },
      { op := .Other, type := .Value, block := some 1 },
      { op := .Return, type := .None, operands := [1], block := some 1 }],
    table := [
      { pc := 0, instructions := [0] },
      { pc := 0, predecessors := [0], instructions := [1, 2], lastIns := some 2 },
      { pc := 3 }],
    blocks := [0, 1, 2],
    exits := [1] }

/-- One script, of the global object 0, that has run often enough. -/
def recursiveWorld : World :=
  { scripts := [{ global := 0, canIonCompile := true, length := 10, useCount := 20000 }],
    options :=
      { maxInlineDepth := 3, usesBeforeInlining := 10240, smallFunctionUsesBeforeInlining := 100,
        inlineMaxTotalBytecodeLength := 800, smallFunctionMaxBytecodeLength := 100 },
    canEnterInlinedFunction := fun _ => true,
    canInlineCall := fun _ _ => true }

/-- The function of the script 0 of `recursiveWorld`, with three formals. -/
def recursiveFunction : JSFunction :=
  { interpreted := true, native := false, nargs := 3, parent := 0, script := 0 }

/-- A builder that compiles the script 0 and has no caller.  Its current
block 0 has on its stack the callee 0, the `MPassArg` 2 of `this` and the
`MPassArg` 4 of the one actual argument. -/
def callBuilder : IonBuilder :=
  { graph :=
      { defs := [
          { op := .Other, type := .Object, block := some 0 },
          { op := .Other, type := .Value, block := some 0 },
          { op := .PassArg, type := .Value, operands := [1], block := some 0 },
          { op := .Other, type := .Value, block := some 0 },
          { op := .PassArg, type := .Value, operands := [3], block := some 0 }],
        table := [{ pc := 0, slots := [0, 2, 4], instructions := [0, 1, 2, 3, 4] }],
        blocks := [0] },
    current := some 0,
    script := 0 }

end Builder

namespace Builder

/-- Handlers that support nothing beyond the modelled methods: every other
`jsop_` method aborts and every other control structure is an error. -/
def noHandlers : Handlers :=
  { decompose := fun _ => false,
    jsop := fun _ b => .ok (false, b),
    control := fun _ b => .ok (.Error, b),
    cfgEntry := fun _ b => .ok (.Error, b),
    prologue := fun b => .ok (true, b),
    processIterators := fun b => .ok (true, b),
    hasArguments := false,
    linv := false,
    hasOsrAt := fun _ => false }

/-- The entry block of a function script without formals and with the two
locals `cond` and `x`, after the prologue of `build`: the slots hold the scope
chain 0, `this` 1 and the `undefined` constants 2 and 3 of the locals. -/
def entryBuilder : IonBuilder :=
  { graph :=
      { defs := [
          { op := .Constant .Undefined, type := .Undefined, block := some 0 },
          { op := .Other, type := .Value, block := some 0 },
          { op := .Constant .Undefined, type := .Undefined, block := some 0 },
          { op := .Constant .Undefined, type := .Undefined, block := some 0 }],
        table := [{ pc := 0, slots := [0, 1, 2, 3], instructions := [0, 1, 2, 3] }],
        blocks := [0] },
    current := some 0,
    nlocals := 2 }

/-- The bytecode of `if (cond) x = 1; else x = 2;`: the `IFEQ` at 3 has an
if-else source note that points to the `GOTO` at 13, the false branch starts
at 18 and the join is at 24. -/
def diamondScript : Script :=
  [(0, { op := .GETLOCAL, length := 3, operand := 0 }),
   (3, { op := .IFEQ, length := 5, jumpOffset := 15, note := some (.IF_ELSE 10) }),
   (8, { op := .ONE }),
   (9, { op := .SETLOCAL, length := 3, operand := 1 }),
   (12, { op := .POP }),
   (13, { op := .GOTO, length := 5, jumpOffset := 11 }),
   (18, { op := .INT8, length := 2, operand := 2 }),
   (20, { op := .SETLOCAL, length := 3, operand := 1 }),
   (23, { op := .POP }),
   (24, { op := .STOP })]

/-- The bytecode of `while (cond) { if (cond) break; if (x) break; }`: the
`GOTO` at 0 has a while source note that points to the `IFNE` at 34, the body
is from 6 to 30, the two breaks are the `GOTO`s at 14 and 27, and the exit is
at 39. -/
def whileScript : Script :=
  [(0, { op := .GOTO, length := 5, jumpOffset := 30, note := some (.WHILE 34) }),
   (5, { op := .LOOPHEAD }),
   (6, { op := .GETLOCAL, length := 3, operand := 0 }),
   (9, { op := .IFEQ, length := 5, jumpOffset := 10, note := some .IF }),
   (14, { op := .GOTO, length := 5, jumpOffset := 25, note := some .BREAK }),
   (19, { op := .GETLOCAL, length := 3, operand := 1 }),
   (22, { op := .IFEQ, length := 5, jumpOffset := 8, note := some .IF }),
   (27, { op := .GOTO, length := 5, jumpOffset := 12, note := some .BREAK }),
   (30, { op := .LOOPENTRY }),
   (31, { op := .GETLOCAL, length := 3, operand := 0 }),
   (34, { op := .IFNE, length := 5, jumpOffset := -29 }),
   (39, { op := .STOP })]

/-- A script whose second instruction has an opcode that the builder does not
support. -/
def unsupportedScript : Script :=
  [(0, { op := .ZERO }), (1, { op := .Unsupported 229 }), (2, { op := .STOP })]

end Builder

namespace Builder

/-- The builder at the end of the false branch of `diamondScript`, after nine
iterations of `traverseBytecode` from `entryBuilder`. -/
def diamondFalseEnd : IonBuilder :=
  (traverseSteps noHandlers diamondScript 30 9 entryBuilder).getD entryBuilder

end Builder

namespace Builder

/-- The builder at the end of the body of the loop of `whileScript`, after
ten iterations of `traverseBytecode` from `entryBuilder`, with the `MGoto` to
the loop header that `processWhileBodyEnd` adds before `finishLoop`. -/
def whileBodyEnd : IonBuilder :=
  let b := (traverseSteps noHandlers whileScript 40 10 entryBuilder).getD entryBuilder
  { b with graph := endWithGoto b.graph 7 1 }

end Builder

namespace Builder

/-- The handlers that dispatch the switches the way `processCfgEntry` does:
a table switch to `processNextTableSwitchCase` and a lookup switch to
`processNextLookupSwitchCase`. -/
def switchEntryHandlers : Handlers :=
  { noHandlers with
    cfgEntry := fun state b =>
      match state.state with
      | .TABLE_SWITCH => processNextTableSwitchCase b state
      | .LOOKUP_SWITCH => processNextLookupSwitchCase b state
      | _ => .ok (.Error, b) }

/-- The handlers that also dispatch the opcodes of switches the way
`snoopControlFlow` does: `TABLESWITCH` to `tableSwitch`, `LOOKUPSWITCH` to
`lookupSwitch` and a `GOTO` with the note of a switch break to
`processSwitchBreak`. -/
def switchHandlers : Handlers :=
  { switchEntryHandlers with
    control := fun bc b =>
      match bc.op, bc.note with
      | .TABLESWITCH, _ => tableSwitch b bc
      | .LOOKUPSWITCH, _ => lookupSwitch b bc
      | .GOTO, some .SWITCHBREAK => processSwitchBreak switchEntryHandlers 8 b bc
      | _, _ => .ok (.Error, b) }

/-- The bytecode of `switch (x) { case 0: x = 1; break; }`: the `TABLESWITCH`
at 3 has the one case at 20, and its default and its exit are at 30; the
`GOTO` at 25 is the break. -/
def tableSwitchScript : Script :=
  [(0, { op := .GETLOCAL, length := 3, operand := 1 }),
   (3, { op := .TABLESWITCH, length := 17, jumpOffset := 27, low := 0, high := 0, table := [17],
         note := some (.SWITCH 27) }),
   (20, { op := .ONE }),
   (21, { op := .SETLOCAL, length := 3, operand := 1 }),
   (24, { op := .POP }),
   (25, { op := .GOTO, length := 5, jumpOffset := 5, note := some .SWITCHBREAK }),
   (30, { op := .STOP })]

/-- The builder after the `TABLESWITCH` of `tableSwitchScript`, two
iterations of `traverseBytecode` from `entryBuilder`. -/
def tableSwitchEntered : IonBuilder :=
  (traverseSteps switchHandlers tableSwitchScript 30 2 entryBuilder).getD entryBuilder

/-- The builder at the end of `build` for `tableSwitchScript`. -/
def tableSwitchBuilt : IonBuilder :=
  ((build switchHandlers tableSwitchScript 30 entryBuilder).get (false, entryBuilder)).2

end Builder

namespace Builder

/-- The `LOOKUPSWITCH` of `switch (x) { case 10: case 20: x = 1; default: x = 2;
case 30: x = 3; }` at the address 3: the first two cases share the body at 20,
the default is at 30 between the bodies, the last case is at 40 and the exit
at 50. -/
def lookupSwitchOp : Bytecode :=
  { op := .LOOKUPSWITCH, length := 17, jumpOffset := 27,
    lookup := [(.Int32 10, 17), (.Int32 20, 17), (.Int32 30, 37)],
    note := some (.SWITCH 47) }

/-- The builder that meets `lookupSwitchOp`: the entry block with the value of
`x` on its stack. -/
def lookupSwitchBuilder : IonBuilder :=
  { entryBuilder with graph := push entryBuilder.graph 0 3, pc := 3 }

end Builder

namespace Builder

/-- The inline builder for callees whose script is the one instruction
`STOP`: the entry block returns `undefined`. -/
def stopEnv : InlineEnv :=
  { buildInline := fun b callee _ argv =>
      (buildInline (fun b1 _ => traverseBytecode noHandlers [(0, { op := .STOP })] 2 b1)
        (inlineBuilder b callee) b.current callee.nargs argv).map fun r => (r.1, r.2.graph) }

/-- Three scripted functions without formals, the function objects 101, 102
and 103. -/
def threeTargets : List JSFunction :=
  [{ interpreted := true, native := false, nargs := 0, parent := 0, script := 1, object := 101 },
   { interpreted := true, native := false, nargs := 0, parent := 0, script := 2, object := 102 },
   { interpreted := true, native := false, nargs := 0, parent := 0, script := 3, object := 103 }]

/-- A builder at a call `f()` without arguments whose callee is a plain
definition: the current block 0 has on its stack the callee 0 and the
`MPassArg` 2 of `this`, the definition 1. -/
def plainCallBuilder : IonBuilder :=
  { graph :=
      { defs := [
          { op := .Other, type := .Object, block := some 0 },
          { op := .Other, type := .Object, block := some 0 },
          { op := .PassArg, type := .Object, operands := [1], block := some 0 }],
        table := [{ pc := 0, slots := [0, 2], instructions := [0, 1, 2] }],
        blocks := [0] },
    current := some 0,
    pc := 7 }

/-- A builder at a call `o.f()` without arguments whose callee is the
`MGetPropertyCache` 1 of the object 0, with an inline property table for the
three functions of `threeTargets`; the current block 0 has on its stack the
callee 1 and the `MPassArg` 2 of `this`, the object 0.  The prior resume point
of the property access captured the stack that holds the object. -/
def cacheCallBuilder : IonBuilder :=
  { graph :=
      { defs := [
          { op := .Other, type := .Object, block := some 0 },
          { op := .GetPropertyCache
              (some { pc := 3, priorResumePoint := [0], entries := [(11, 101), (12, 102), (13, 103)] }),
            type := .Object, operands := [0], block := some 0 },
          { op := .PassArg, type := .Object, operands := [0], block := some 0 }],
        table := [{ pc := 0, slots := [1, 2], instructions := [0, 1, 2] }],
        blocks := [0] },
    current := some 0,
    pc := 7 }

end Builder

namespace Builder

/-- The graph of `cacheCallBuilder` after `inlineScriptedCall` unwrapped the
`MPassArg` of `this`: the stack of block 0 holds the callee 1 and the
object 0. -/
def cacheCallUnwrapped : MIRGraph :=
  { cacheCallBuilder.graph with
    table := [{ pc := 0, slots := [1, 0], instructions := [0, 1] }] }

end Builder

/-! # Theorems -/

/-! ## Dominance of the recorded immediate dominators -/

theorem block_setImmediateDominator (g : MIRGraph) (b d i : Nat) :
    (setImmediateDominator g b d).block i =
      (g.block i).map (fun blk =>
        if b = i then { blk with immediateDominator := some d } else blk) := by
  simp [setImmediateDominator, MIRGraph.block, List.getElem?_modify]

theorem length_setImmediateDominator (g : MIRGraph) (b d : Nat) :
    (setImmediateDominator g b d).blocks.length = g.blocks.length := by
  simp [setImmediateDominator]

theorem idomOf_setImmediateDominator (g : MIRGraph) (b d i : Nat) :
    idomOf (setImmediateDominator g b d) i =
      if b = i then (g.block i).map (fun _ => d) else idomOf g i := by
  unfold idomOf
  rw [block_setImmediateDominator]
  cases h : g.block i <;> by_cases hb : b = i <;> simp [hb]

theorem idomChain_trans {g : MIRGraph} {a b c : Nat}
    (h1 : IdomChain g a b) (h2 : IdomChain g b c) : IdomChain g a c :=
  Relation.ReflTransGen.trans h1 h2

theorem idomChain_refl (g : MIRGraph) (a : Nat) : IdomChain g a a :=
  Relation.ReflTransGen.refl

theorem idomChain_step {g : MIRGraph} {a b : Nat} (h : idomOf g a = some b) :
    IdomChain g a b :=
  Relation.ReflTransGen.single h

theorem walkFinger_chain (g : MIRGraph) (otherId : Nat) :
    ∀ (fuel finger f : Nat), walkFinger fuel g finger otherId = some (some f) →
      IdomChain g finger f := by
  intro fuel
  induction fuel with
  | zero => intro finger f h; simp [walkFinger] at h
  | succ n ih =>
    intro finger f h
    unfold walkFinger at h
    cases hb : g.block finger with
    | none => simp [hb] at h
    | some fb =>
      simp only [hb] at h
      by_cases hgt : fb.id > otherId
      · rw [if_pos hgt] at h
        cases hi : fb.immediateDominator with
        | none => simp [hi] at h
        | some idom =>
          simp only [hi] at h
          by_cases he : idom = finger
          · simp [he] at h
          · rw [if_neg he] at h
            have hstep : idomOf g finger = some idom := by simp [idomOf, hb, hi]
            exact idomChain_trans (idomChain_step hstep) (ih idom f h)
      · rw [if_neg hgt] at h
        cases h
        exact idomChain_refl g _

theorem IntersectDominators_chain (g : MIRGraph)
    (hinj : ∀ a b ba bb, g.block a = some ba → g.block b = some bb → ba.id = bb.id → a = b) :
    ∀ (fuel f1 f2 d : Nat), IntersectDominators fuel g f1 f2 = some (some d) →
      IdomChain g f1 d ∧ IdomChain g f2 d := by
  intro fuel
  induction fuel with
  | zero => intro f1 f2 d h; simp [IntersectDominators] at h
  | succ n ih =>
    intro f1 f2 d h
    unfold IntersectDominators at h
    cases hb1 : g.block f1 with
    | none => simp [hb1] at h
    | some b1 =>
      cases hb2 : g.block f2 with
      | none => simp [hb1, hb2] at h
      | some b2 =>
        simp only [hb1, hb2] at h
        by_cases hid : b1.id ≠ b2.id
        · rw [if_pos hid] at h
          cases hw1 : walkFinger n g f1 b2.id with
          | none => simp [hw1] at h
          | some r1 =>
            cases r1 with
            | none => simp [hw1] at h
            | some f1' =>
              simp only [hw1] at h
              cases hb1' : g.block f1' with
              | none => simp [hb1'] at h
              | some b1' =>
                simp only [hb1'] at h
                cases hw2 : walkFinger n g f2 b1'.id with
                | none => simp [hw2] at h
                | some r2 =>
                  cases r2 with
                  | none => simp [hw2] at h
                  | some f2' =>
                    simp only [hw2] at h
                    obtain ⟨h1, h2⟩ := ih f1' f2' d h
                    exact ⟨idomChain_trans (walkFinger_chain g _ _ _ _ hw1) h1,
                      idomChain_trans (walkFinger_chain g _ _ _ _ hw2) h2⟩
        · rw [if_neg hid] at h
          have hid' : b1.id = b2.id := not_not.mp hid
          have hEq : f1 = f2 := hinj f1 f2 b1 b2 hb1 hb2 hid'
          cases h
          exact ⟨idomChain_refl g _, hEq ▸ idomChain_refl g _⟩

theorem intersectPredecessors_chain (fuel : Nat) (g : MIRGraph)
    (hinj : ∀ a b ba bb, g.block a = some ba → g.block b = some bb → ba.id = bb.id → a = b) :
    ∀ (rest : List Nat) (p0 d : Nat),
      intersectPredecessors fuel g rest p0 = some (some d) →
      IdomChain g p0 d ∧
        ∀ p ∈ rest, ∃ pb, g.block p = some pb ∧
          (pb.immediateDominator.isSome = true → IdomChain g p d) := by
  intro rest
  induction rest with
  | nil =>
    intro p0 d h
    simp [intersectPredecessors] at h
    subst h
    exact ⟨idomChain_refl g _, by simp⟩
  | cons pred rest ih =>
    intro p0 d h
    unfold intersectPredecessors at h
    cases hpb : g.block pred with
    | none => simp [hpb] at h
    | some pb =>
      simp only [hpb] at h
      by_cases hs : pb.immediateDominator.isSome = true
      · rw [if_pos hs] at h
        cases hI : IntersectDominators fuel g pred p0 with
        | none => simp [hI] at h
        | some r =>
          cases r with
          | none => simp [hI] at h
          | some d1 =>
            simp only [hI] at h
            obtain ⟨hc1, hc2⟩ := IntersectDominators_chain g hinj _ _ _ _ hI
            obtain ⟨hd, hrest⟩ := ih d1 d h
            refine ⟨idomChain_trans hc2 hd, ?_⟩
            intro p hp
            rcases List.mem_cons.mp hp with rfl | hp
            · exact ⟨pb, hpb, fun _ => idomChain_trans hc1 hd⟩
            · exact hrest p hp
      · rw [if_neg hs] at h
        simp only at h
        obtain ⟨hd, hrest⟩ := ih p0 d h
        refine ⟨hd, ?_⟩
        intro p hp
        rcases List.mem_cons.mp hp with rfl | hp
        · exact ⟨pb, hpb, fun hc => absurd hc hs⟩
        · exact hrest p hp

theorem frame_refl (g : MIRGraph) : Frame g g :=
  ⟨rfl, rfl, fun _ => rfl, fun _ => rfl, fun _ h => h⟩

theorem frame_trans {a b c : MIRGraph} (h1 : Frame a b) (h2 : Frame b c) : Frame a c :=
  ⟨h2.length.trans h1.length, h2.osr.trans h1.osr,
    fun i => (h2.shape i).trans (h1.shape i),
    fun i => (h2.annotations i).trans (h1.annotations i), fun i h => h2.self i (h1.self i h)⟩

theorem frame_setImmediateDominator (g : MIRGraph) (b d : Nat)
    (h : idomOf g b = some b → d = b) : Frame g (setImmediateDominator g b d) := by
  refine ⟨length_setImmediateDominator g b d, rfl, ?_, ?_, ?_⟩
  · intro i
    rw [block_setImmediateDominator]
    cases g.block i with
    | none => rfl
    | some blk => by_cases hb : b = i <;> simp [hb, MBasicBlock.shape]
  · intro i
    rw [block_setImmediateDominator]
    cases g.block i with
    | none => rfl
    | some blk => by_cases hb : b = i <;> simp [hb, MBasicBlock.annotations]
  · intro i hi
    rw [idomOf_setImmediateDominator]
    by_cases hb : b = i
    · subst hb
      rw [if_pos rfl, h hi]
      cases hblk : g.block b with
      | none => simp [idomOf, hblk] at hi
      | some blk => simp
    · rw [if_neg hb]; exact hi

theorem processBlock_spec (fuel : Nat) (g g' : MIRGraph) (c c' : Bool) (b : Nat)
    (h : processBlock fuel g c b = some (g', c')) :
    Frame g g' ∧ (c = true → c' = true) ∧ (c' = false → g' = g ∧ Settled fuel g b) := by
  unfold processBlock at h
  cases hblk : g.block b with
  | none => simp [hblk] at h
  | some blk =>
    simp only [hblk] at h
    by_cases hself : blk.immediateDominator = some b
    · rw [if_pos hself] at h
      cases h
      exact ⟨frame_refl g, id, fun _ => ⟨rfl, blk, hblk, Or.inl hself⟩⟩
    · rw [if_neg hself] at h
      have hnself : ¬ idomOf g b = some b := by simpa [idomOf, hblk] using hself
      cases hp : blk.predecessors with
      | nil => simp [hp] at h
      | cons p0 rest =>
        simp only [hp] at h
        cases hI : intersectPredecessors fuel g rest p0 with
        | none => simp [hI] at h
        | some r =>
          cases r with
          | none =>
            simp only [hI] at h
            cases h
            exact ⟨frame_setImmediateDominator g b b (fun _ => rfl), fun _ => rfl,
              fun hc => by cases hc⟩
          | some newIdom =>
            simp only [hI] at h
            by_cases hne : blk.immediateDominator ≠ some newIdom
            · rw [if_pos hne] at h
              cases h
              exact ⟨frame_setImmediateDominator g b newIdom (fun hh => absurd hh hnself),
                fun _ => rfl, fun hc => by cases hc⟩
            · rw [if_neg hne] at h
              cases h
              exact ⟨frame_refl g, id,
                fun _ => ⟨rfl, blk, hblk, Or.inr ⟨p0, rest, newIdom, hp, hI, not_not.mp hne⟩⟩⟩

theorem rpoSweep_spec (fuel : Nat) :
    ∀ (bs : List Nat) (g g' : MIRGraph) (c c' : Bool),
      rpoSweep fuel bs g c = some (g', c') →
      Frame g g' ∧ (c = true → c' = true) ∧
        (c' = false → g' = g ∧ ∀ b ∈ bs, Settled fuel g b) := by
  intro bs
  induction bs with
  | nil =>
    intro g g' c c' h
    simp [rpoSweep] at h
    obtain ⟨rfl, rfl⟩ := h
    exact ⟨frame_refl g, id, fun _ => ⟨rfl, by simp⟩⟩
  | cons b bs ih =>
    intro g g' c c' h
    unfold rpoSweep at h
    cases hp : processBlock fuel g c b with
    | none => simp [hp] at h
    | some r =>
      obtain ⟨g1, c1⟩ := r
      simp only [hp] at h
      obtain ⟨hf1, hc1, hs1⟩ := processBlock_spec fuel g g1 c c1 b hp
      obtain ⟨hf2, hc2, hs2⟩ := ih g1 g' c1 c' h
      refine ⟨frame_trans hf1 hf2, fun hc => hc2 (hc1 hc), ?_⟩
      intro hc'
      obtain ⟨hg', hall⟩ := hs2 hc'
      have hc1f : c1 = false := by
        cases c1 with
        | false => rfl
        | true => rw [hc2 rfl] at hc'; cases hc'
      obtain ⟨hg1, hset⟩ := hs1 hc1f
      subst hg1
      subst hg'
      refine ⟨rfl, ?_⟩
      intro x hx
      rcases List.mem_cons.mp hx with rfl | hx
      · exact hset
      · exact hall x hx

theorem fixpointLoop_spec (fuel : Nat) :
    ∀ (n : Nat) (g g' : MIRGraph), fixpointLoop fuel n g = some g' →
      Frame g g' ∧ ∀ b, b < g'.blocks.length → Settled fuel g' b := by
  intro n
  induction n with
  | zero => intro g g' h; simp [fixpointLoop] at h
  | succ n ih =>
    intro g g' h
    unfold fixpointLoop at h
    cases hs : rpoSweep fuel (List.range g.blocks.length) g false with
    | none => simp [hs] at h
    | some r =>
      obtain ⟨g1, c1⟩ := r
      simp only [hs] at h
      obtain ⟨hf, _, hfix⟩ := rpoSweep_spec fuel _ g g1 false c1 hs
      cases c1 with
      | true =>
        simp only [if_true] at h
        obtain ⟨hf2, hall⟩ := ih g1 g' h
        exact ⟨frame_trans hf hf2, hall⟩
      | false =>
        simp only [Bool.false_eq_true, if_false] at h
        cases h
        obtain ⟨hg, hall⟩ := hfix rfl
        subst hg
        exact ⟨hf, fun b hb => hall b (List.mem_range.mpr hb)⟩

theorem idomChain_of_self {g : MIRGraph} {b d : Nat} (hself : idomOf g b = some b)
    (h : IdomChain g b d) : d = b := by
  induction h with
  | refl => rfl
  | tail _ hlink ih =>
    subst ih
    rw [hself] at hlink
    exact (Option.some.inj hlink).symm

theorem idomChain_of_edge {g : MIRGraph} (hpc : PredsChain g) {p b d : Nat}
    (hp : p ∈ predsOf g b) (h : IdomChain g b d) : d = b ∨ IdomChain g p d := by
  rcases Relation.ReflTransGen.cases_head h with rfl | ⟨c, hbc, hcd⟩
  · exact Or.inl rfl
  · by_cases hcb : c = b
    · subst hcb
      exact Or.inl (idomChain_of_self hbc h)
    · exact Or.inr (idomChain_trans (hpc b c hbc hcb p hp) hcd)

theorem chain_subset_path (g : MIRGraph) (hpc : PredsChain g) :
    ∀ (rest : List Nat) (x : Nat) (seen : List Nat),
      List.Chain (fun u v => u ∈ predsOf g v) x rest →
      (∀ d, IdomChain g x d → d ∈ seen ++ [x]) →
      ∀ d, IdomChain g ((x :: rest).getLast (List.cons_ne_nil x rest)) d →
        d ∈ seen ++ x :: rest := by
  intro rest
  induction rest with
  | nil =>
    intro x seen _ hx d hd
    simpa using hx d hd
  | cons y rest ih =>
    intro x seen hch hx d hd
    rw [List.chain_cons] at hch
    obtain ⟨hxy, hch⟩ := hch
    have hy : ∀ d, IdomChain g y d → d ∈ (seen ++ [x]) ++ [y] := by
      intro d hd
      rcases idomChain_of_edge hpc hxy hd with rfl | hd
      · simp
      · exact List.mem_append_left _ (hx d hd)
    have := ih y (seen ++ [x]) hch hy d (by simpa [List.getLast_cons] using hd)
    simpa using this

/-- On a graph at the fixpoint, a path of predecessor edges that starts at a
self-dominating block passes through the immediate dominator of its end. -/
theorem idom_mem_pred_path (g : MIRGraph) (hpc : PredsChain g)
    (root B D : Nat) (rest : List Nat) (hroot : idomOf g root = some root)
    (hpath : List.Chain (fun u v => u ∈ predsOf g v) root rest)
    (hlast : (root :: rest).getLast? = some B)
    (hD : idomOf g B = some D) : D ∈ root :: rest := by
  have hlast' : (root :: rest).getLast (List.cons_ne_nil root rest) = B := by
    rw [List.getLast?_eq_getLast _ (List.cons_ne_nil root rest)] at hlast
    exact Option.some.inj hlast
  have h := chain_subset_path g hpc rest root [] hpath
    (fun d hd => by simp [idomChain_of_self hroot hd]) D
    (by rw [hlast']; exact idomChain_step hD)
  simpa using h

theorem successorsCoherent_spec (g : MIRGraph) (h : successorsCoherent g = true) :
    ∀ u v, isSuccessor g u v = true → u ∈ predsOf g v := by
  intro u v huv
  unfold isSuccessor at huv
  cases hub : g.block u with
  | none => simp [hub] at huv
  | some ub =>
    simp only [hub, decide_eq_true_eq] at huv
    unfold successorsCoherent at h
    rw [List.all_eq_true] at h
    have hmem : (u, ub) ∈ g.blocks.enum := by
      rw [List.mem_enum_iff_getElem?]
      exact hub
    have h2 := h (u, ub) hmem
    simp only [List.all_eq_true] at h2
    have h3 := h2 v huv
    unfold predsOf
    cases hvb : g.block v with
    | none => simp [hvb] at h3
    | some vb => simpa [hvb] using h3

theorem ids_injective (g : MIRGraph) (h : (g.blocks.map MBasicBlock.id).Nodup) :
    ∀ a b ba bb, g.block a = some ba → g.block b = some bb → ba.id = bb.id → a = b := by
  intro a b ba bb ha hb hid
  unfold MIRGraph.block at ha hb
  obtain ⟨hla, hga⟩ := List.getElem?_eq_some.mp ha
  obtain ⟨hlb, hgb⟩ := List.getElem?_eq_some.mp hb
  have hla' : a < (g.blocks.map MBasicBlock.id).length := by simpa using hla
  have hlb' : b < (g.blocks.map MBasicBlock.id).length := by simpa using hlb
  have hget : (g.blocks.map MBasicBlock.id)[a] = (g.blocks.map MBasicBlock.id)[b] := by
    simp [hga, hgb, hid]
  exact (List.Nodup.getElem_inj_iff h).mp hget

theorem predsChain_of_settled (fuel : Nat) (g : MIRGraph)
    (hids : (g.blocks.map MBasicBlock.id).Nodup)
    (hset : ∀ b, b < g.blocks.length → Settled fuel g b) : PredsChain g := by
  have hinj := ids_injective g hids
  have hsome : ∀ p pb, g.block p = some pb → pb.immediateDominator.isSome = true := by
    intro p pb hp
    have hlt : p < g.blocks.length := (List.getElem?_eq_some.mp hp).1
    obtain ⟨blk, hblk, hcase⟩ := hset p hlt
    rw [hp] at hblk
    cases hblk
    rcases hcase with h | ⟨_, _, _, _, _, h⟩ <;> simp [h]
  intro b d hbd hne p hp
  unfold idomOf at hbd
  unfold predsOf at hp
  cases hblk : g.block b with
  | none => simp [hblk] at hbd
  | some blk =>
    simp only [hblk] at hbd hp
    have hlt : b < g.blocks.length := (List.getElem?_eq_some.mp hblk).1
    obtain ⟨blk', hblk', hcase⟩ := hset b hlt
    rw [hblk] at hblk'
    cases hblk'
    rcases hcase with h | ⟨p0, rest, d', hpreds, hI, hd'⟩
    · rw [h] at hbd
      exact absurd (Option.some.inj hbd).symm hne
    · rw [hd'] at hbd
      cases hbd
      obtain ⟨h0, hrest⟩ := intersectPredecessors_chain fuel g hinj rest p0 _ hI
      rw [hpreds] at hp
      rcases List.mem_cons.mp hp with rfl | hp
      · exact h0
      · obtain ⟨pb, hpb, hc⟩ := hrest p hp
        exact hc (hsome p pb hpb)

theorem ComputeImmediateDominators_spec (fuel : Nat) (g g' : MIRGraph)
    (h : ComputeImmediateDominators fuel g = some g') :
    (∀ i, (g'.block i).map MBasicBlock.shape = (g.block i).map MBasicBlock.shape) ∧
      (∀ i, (g'.block i).map MBasicBlock.annotations =
        (g.block i).map MBasicBlock.annotations) ∧
      g'.blocks.length = g.blocks.length ∧ g'.osrBlock = g.osrBlock ∧
      idomOf g' 0 = some 0 ∧ (∀ o, g.osrBlock = some o → idomOf g' o = some o) ∧
      ∀ b, b < g'.blocks.length → Settled fuel g' b := by
  unfold ComputeImmediateDominators at h
  cases hb : g.blocks with
  | nil => simp [hb] at h
  | cons b0 bs =>
    simp only [hb] at h
    have hf0 : Frame g (setImmediateDominator g 0 0) :=
      frame_setImmediateDominator g 0 0 (fun _ => rfl)
    have h00 : idomOf (setImmediateDominator g 0 0) 0 = some 0 := by
      rw [idomOf_setImmediateDominator]
      simp [MIRGraph.block, hb]
    cases hosr : g.osrBlock with
    | none =>
      have : (setImmediateDominator g 0 0).osrBlock = none := hosr
      simp only [this] at h
      obtain ⟨hf, hall⟩ := fixpointLoop_spec fuel fuel _ g' h
      have hF := frame_trans hf0 hf
      exact ⟨hF.shape, hF.annotations, hF.length.trans (by rw [hb]), hF.osr.trans hosr,
        hf.self 0 h00,
        (fun o ho => by cases ho), hall⟩
    | some osr =>
      have : (setImmediateDominator g 0 0).osrBlock = some osr := hosr
      simp only [this] at h
      cases hob : (setImmediateDominator g 0 0).block osr with
      | none => simp [hob] at h
      | some ob =>
        simp only [hob] at h
        obtain ⟨hf, hall⟩ := fixpointLoop_spec fuel fuel _ g' h
        have hf1 : Frame (setImmediateDominator g 0 0)
            (setImmediateDominator (setImmediateDominator g 0 0) osr osr) :=
          frame_setImmediateDominator _ osr osr (fun _ => rfl)
        have hF := frame_trans (frame_trans hf0 hf1) hf
        have hoo : idomOf (setImmediateDominator (setImmediateDominator g 0 0) osr osr) osr
            = some osr := by
          rw [idomOf_setImmediateDominator]
          simp [hob]
        refine ⟨hF.shape, hF.annotations, hF.length.trans (by rw [hb]), hF.osr.trans hosr,
          hf.self 0 (hf1.self 0 h00), ?_, hall⟩
        intro o ho
        cases ho
        exact hf.self _ hoo

theorem coreEq_refl (g : MIRGraph) : CoreEq g g := fun _ => rfl

theorem coreEq_trans {a b c : MIRGraph} (h1 : CoreEq a b) (h2 : CoreEq b c) : CoreEq a c :=
  fun i => (h2 i).trans (h1 i)

theorem coreEq_of_modify (g : MIRGraph) (f : MBasicBlock → MBasicBlock) (n : Nat)
    (hf : ∀ b, (f b).core = b.core) :
    CoreEq g { g with blocks := List.modify f n g.blocks } := by
  intro i
  simp only [MIRGraph.block, List.getElem?_modify]
  cases g.blocks[i]? with
  | none => rfl
  | some blk => by_cases hn : n = i <;> simp [hn, hf]

theorem coreEq_idomOf {g g' : MIRGraph} (h : CoreEq g g') (i : Nat) :
    idomOf g' i = idomOf g i := by
  have := h i
  unfold Ion.idomOf
  cases h1 : g'.block i <;> cases h2 : g.block i <;> simp [h1, h2, MBasicBlock.core] at this ⊢
  exact this.2

theorem coreEq_predsOf {g g' : MIRGraph} (h : CoreEq g g') (i : Nat) :
    predsOf g' i = predsOf g i := by
  have := h i
  unfold Ion.predsOf
  cases h1 : g'.block i <;> cases h2 : g.block i <;>
    simp [h1, h2, MBasicBlock.core, MBasicBlock.shape] at this ⊢
  exact this.1.2.1

theorem coreEq_isSuccessor {g g' : MIRGraph} (h : CoreEq g g') (u v : Nat) :
    isSuccessor g' u v = isSuccessor g u v := by
  have := h u
  unfold Ion.isSuccessor
  cases h1 : g'.block u <;> cases h2 : g.block u <;>
    simp [h1, h2, MBasicBlock.core, MBasicBlock.shape] at this ⊢
  rw [this.1.2.2]

theorem coreEq_length {g g' : MIRGraph} (h : CoreEq g g') :
    g'.blocks.length = g.blocks.length := by
  apply le_antisymm
  · by_contra hlt
    push_neg at hlt
    have := h g.blocks.length
    simp [MIRGraph.block, List.getElem?_eq_getElem hlt] at this
  · by_contra hlt
    push_neg at hlt
    have := h g'.blocks.length
    simp [MIRGraph.block, List.getElem?_eq_getElem hlt] at this

theorem coreEq_idomChain {g g' : MIRGraph} (h : CoreEq g g') (a b : Nat) :
    IdomChain g' a b ↔ IdomChain g a b := by
  have : (fun x y => Ion.idomOf g' x = some y) = (fun x y => Ion.idomOf g x = some y) := by
    funext x y; rw [coreEq_idomOf h]
  unfold IdomChain
  rw [this]

theorem coreEq_addImmediatelyDominatedBlock (g : MIRGraph) (b c : Nat) :
    CoreEq g (addImmediatelyDominatedBlock g b c) :=
  coreEq_of_modify g _ b (fun _ => rfl)

theorem coreEq_addNumDominated (g : MIRGraph) (b n : Nat) :
    CoreEq g (addNumDominated g b n) :=
  coreEq_of_modify g _ b (fun _ => rfl)

theorem coreEq_setDomIndex (g : MIRGraph) (b i : Nat) :
    CoreEq g (setDomIndex g b i) :=
  coreEq_of_modify g _ b (fun _ => rfl)

theorem linkChild_coreEq (g g' : MIRGraph) (c : Nat) (h : linkChild g c = some g') :
    CoreEq g g' := by
  unfold linkChild at h
  cases hb : g.block c with
  | none => simp [hb] at h
  | some cb =>
    simp only [hb] at h
    cases hi : cb.immediateDominator with
    | none => simp [hi] at h
    | some parent =>
      simp only [hi] at h
      by_cases hcp : c = parent
      · rw [if_pos hcp] at h; cases h; exact coreEq_refl g
      · rw [if_neg hcp] at h
        cases hp : g.block parent with
        | none => simp [hp] at h
        | some pb =>
          simp only [hp] at h
          cases h
          exact coreEq_trans (coreEq_addImmediatelyDominatedBlock g parent c)
            (coreEq_addNumDominated _ parent _)

theorem linkChildren_coreEq :
    ∀ (cs : List Nat) (g g' : MIRGraph), linkChildren cs g = some g' → CoreEq g g' := by
  intro cs
  induction cs with
  | nil => intro g g' h; simp [linkChildren] at h; subst h; exact coreEq_refl g
  | cons c cs ih =>
    intro g g' h
    unfold linkChildren at h
    cases hc : linkChild g c with
    | none => simp [hc] at h
    | some g1 =>
      simp only [hc] at h
      exact coreEq_trans (linkChild_coreEq g g1 c hc) (ih g1 g' h)

theorem assignDomIndex_coreEq :
    ∀ (fuel : Nat) (g g' : MIRGraph) (ws : List Nat) (index : Nat),
      assignDomIndex fuel g ws index = some g' → CoreEq g g' := by
  intro fuel
  induction fuel with
  | zero =>
    intro g g' ws index h
    cases ws with
    | nil => simp [assignDomIndex] at h; subst h; exact coreEq_refl g
    | cons w ws => simp [assignDomIndex] at h
  | succ n ih =>
    intro g g' ws index h
    cases ws with
    | nil => simp [assignDomIndex] at h; subst h; exact coreEq_refl g
    | cons w ws =>
      simp only [assignDomIndex] at h
      cases hb : g.block ((w :: ws).getLast (List.cons_ne_nil w ws)) with
      | none => simp [hb] at h
      | some blk =>
        simp only [hb] at h
        exact coreEq_trans (coreEq_setDomIndex g _ index) (ih _ g' _ _ h)

theorem BuildDominatorTree_coreEq (fuel : Nat) (g g' : MIRGraph)
    (h : BuildDominatorTree fuel g = some g') :
    ∃ g1, ComputeImmediateDominators fuel g = some g1 ∧ CoreEq g1 g' := by
  unfold BuildDominatorTree at h
  cases h1 : ComputeImmediateDominators fuel g with
  | none => simp [h1] at h
  | some g1 =>
    simp only [h1] at h
    cases h2 : linkChildren (List.range g1.blocks.length).reverse g1 with
    | none => simp [h2] at h
    | some g2 =>
      simp only [h2] at h
      exact ⟨g1, rfl, coreEq_trans (linkChildren_coreEq _ g1 g2 h2)
        (assignDomIndex_coreEq _ _ _ _ _ h)⟩

theorem predsChain_of_coreEq {g g' : MIRGraph} (h : CoreEq g g') (hpc : PredsChain g) :
    PredsChain g' := by
  intro b d hbd hne p hp
  rw [coreEq_idomOf h] at hbd
  rw [coreEq_predsOf h] at hp
  exact (coreEq_idomChain h p d).mpr (hpc b d hbd hne p hp)

/-- After `BuildDominatorTree` the graph is at the fixpoint of the dominator
computation: block 0 and the OSR entry are self-dominating and the immediate
dominator of every other block lies on the chains of its predecessors. -/
theorem BuildDominatorTree_fixpoint (fuel : Nat) (g g' : MIRGraph)
    (hids : (g.blocks.map MBasicBlock.id).Nodup)
    (h : BuildDominatorTree fuel g = some g') :
    PredsChain g' ∧ idomOf g' 0 = some 0 ∧ (∀ o, g.osrBlock = some o → idomOf g' o = some o) ∧
      (∀ i, predsOf g' i = predsOf g i) ∧ (∀ u v, isSuccessor g' u v = isSuccessor g u v) ∧
      g'.blocks.length = g.blocks.length ∧
      (∀ b, b < g'.blocks.length → ∃ d, idomOf g' b = some d) := by
  obtain ⟨g1, h1, hce⟩ := BuildDominatorTree_coreEq fuel g g' h
  obtain ⟨hshape, _, hlen, hosr, h0, ho, hset⟩ :=
    ComputeImmediateDominators_spec fuel g g1 h1
  have hids1 : (g1.blocks.map MBasicBlock.id).Nodup := by
    have : g1.blocks.map MBasicBlock.id = g.blocks.map MBasicBlock.id := by
      apply List.ext_getElem?
      intro i
      have := hshape i
      simp only [MIRGraph.block] at this
      simp only [List.getElem?_map]
      cases h1 : g1.blocks[i]? <;> cases h2 : g.blocks[i]? <;>
        simp [h1, h2, MBasicBlock.shape] at this ⊢
      exact this.1
    rw [this]; exact hids
  have hpc1 := predsChain_of_settled fuel g1 hids1 hset
  have hp1 : ∀ i, predsOf g1 i = predsOf g i := by
    intro i
    have := hshape i
    unfold predsOf
    cases h1 : g1.block i <;> cases h2 : g.block i <;>
      simp [h1, h2, MBasicBlock.shape] at this ⊢
    exact this.2.1
  have hs1 : ∀ u v, isSuccessor g1 u v = isSuccessor g u v := by
    intro u v
    have := hshape u
    unfold isSuccessor
    cases h1 : g1.block u <;> cases h2 : g.block u <;>
      simp [h1, h2, MBasicBlock.shape] at this ⊢
    rw [this.2.2]
  refine ⟨predsChain_of_coreEq hce hpc1, ?_, ?_, ?_, ?_, (coreEq_length hce).trans hlen, ?_⟩
  · rw [coreEq_idomOf hce]; exact h0
  · intro o hoo; rw [coreEq_idomOf hce]; exact ho o hoo
  · intro i; rw [coreEq_predsOf hce, hp1]
  · intro u v; rw [coreEq_isSuccessor hce, hs1]
  · intro b hb
    rw [coreEq_length hce] at hb
    obtain ⟨blk, hblk, hcase⟩ := hset b hb
    rw [coreEq_idomOf hce]
    unfold idomOf
    rw [hblk]
    rcases hcase with hc | ⟨_, _, d, _, _, hc⟩
    · exact ⟨b, hc⟩
    · exact ⟨d, hc⟩

theorem isSuccessorPath_chain (g : MIRGraph) :
    ∀ (rest : List Nat) (x : Nat), isSuccessorPath g (x :: rest) = true →
      List.Chain (fun u v => isSuccessor g u v = true) x rest := by
  intro rest
  induction rest with
  | nil => intro x _; exact List.Chain.nil
  | cons y rest ih =>
    intro x h
    simp only [isSuccessorPath, Bool.and_eq_true] at h
    exact List.Chain.cons h.1 (ih y h.2)

/-- C1: after `BuildDominatorTree` on a coherent graph with distinct block
ids, every path of successor edges from the start block to a block `B` passes
through the immediate dominator `D` recorded for `B`, when `D` is not `B`. -/
theorem BuildDominatorTree_idom_dominates (fuel : Nat) (g g' : MIRGraph) (B D : Nat)
    (path : List Nat)
    (hids : (g.blocks.map MBasicBlock.id).Nodup)
    (hcoh : successorsCoherent g = true)
    (hrun : BuildDominatorTree fuel g = some g')
    (hD : idomOf g' B = some D) (_hne : D ≠ B)
    (hhead : path.head? = some 0) (hpath : isSuccessorPath g' path = true)
    (hlast : path.getLast? = some B) : D ∈ path := by
  obtain ⟨hpc, h0, _, hpreds, hsucc, _, _⟩ := BuildDominatorTree_fixpoint fuel g g' hids hrun
  cases path with
  | nil => simp at hhead
  | cons x rest =>
    simp only [List.head?_cons, Option.some.injEq] at hhead
    subst hhead
    have hch : List.Chain (fun u v => u ∈ predsOf g' v) 0 rest := by
      have hpath' : List.Chain (fun u v => isSuccessor g' u v = true) 0 rest :=
        isSuccessorPath_chain g' rest 0 hpath
      refine List.Chain.imp ?_ hpath'
      intro u v huv
      rw [hpreds]
      rw [hsucc] at huv
      exact successorsCoherent_spec g hcoh u v huv
    exact idom_mem_pred_path g' hpc 0 B D rest h0 hch hlast hD

theorem BuildDominatorTree_idom_dominates_witness :
    (loopGraph.blocks.map MBasicBlock.id).Nodup ∧ successorsCoherent loopGraph = true ∧
      BuildDominatorTree 4 loopGraph = some loopGraphTree ∧
      idomOf loopGraphTree 3 = some 1 ∧ 1 ≠ 3 ∧
      [0, 1, 2, 1, 3].head? = some 0 ∧ isSuccessorPath loopGraphTree [0, 1, 2, 1, 3] = true ∧
      [0, 1, 2, 1, 3].getLast? = some 3 ∧ 1 ∈ [0, 1, 2, 1, 3] :=
  ⟨by decide, by decide, by decide, by decide, by decide, by decide, by decide, by decide,
    BuildDominatorTree_idom_dominates 4 loopGraph loopGraphTree 3 1 [0, 1, 2, 1, 3]
      (by decide) (by decide) (by decide) (by decide) (by decide) (by decide) (by decide)
      (by decide)⟩

/-! ## Immediate dominators come earlier in the block list -/

theorem idomOf_lt_length {g : MIRGraph} {b d : Nat} (h : idomOf g b = some d) :
    b < g.blocks.length := by
  unfold idomOf at h
  cases hb : g.block b with
  | none => simp [hb] at h
  | some blk => exact (List.getElem?_eq_some.mp hb).1

theorem idomChain_le (g : MIRGraph) (hpc : PredsChain g)
    (hroot : ∀ b, b < g.blocks.length →
      idomOf g b = some b ∨ ∃ p ∈ predsOf g b, p < b) :
    ∀ b, b < g.blocks.length → ∀ d, IdomChain g b d → d ≤ b := by
  intro b
  induction b using Nat.strong_induction_on with
  | _ b ih =>
    intro hb d hd
    rcases hroot b hb with hself | ⟨p, hp, hpb⟩
    · exact le_of_eq (idomChain_of_self hself hd)
    · rcases idomChain_of_edge hpc hp hd with rfl | hd'
      · exact le_refl _
      · exact le_of_lt (lt_of_le_of_lt (ih p hpb (lt_trans hpb hb) d hd') hpb)

theorem idomOf_lt (g : MIRGraph) (hpc : PredsChain g)
    (hroot : ∀ b, b < g.blocks.length →
      idomOf g b = some b ∨ ∃ p ∈ predsOf g b, p < b)
    (b d : Nat) (h : idomOf g b = some d) (hne : d ≠ b) : d < b :=
  lt_of_le_of_ne (idomChain_le g hpc hroot b (idomOf_lt_length h) d (idomChain_step h)) hne

theorem hasEarlierPredecessor_spec (g : MIRGraph) (h : hasEarlierPredecessor g = true) :
    ∀ b, b < g.blocks.length → b = 0 ∨ g.osrBlock = some b ∨ ∃ p ∈ predsOf g b, p < b := by
  intro b hb
  unfold hasEarlierPredecessor at h
  rw [List.all_eq_true] at h
  have hmem : (b, g.blocks[b]) ∈ g.blocks.enum := by
    rw [List.mem_enum_iff_getElem?]
    exact List.getElem?_eq_getElem hb
  have h2 := h _ hmem
  simp only [Bool.or_eq_true, decide_eq_true_eq, List.any_eq_true] at h2
  rcases h2 with (h0 | ho) | ⟨p, hp, hlt⟩
  · exact Or.inl h0
  · exact Or.inr (Or.inl ho)
  · refine Or.inr (Or.inr ⟨p, ?_, hlt⟩)
    unfold predsOf MIRGraph.block
    rw [List.getElem?_eq_getElem hb]
    exact hp

/-! ## The post-order loop: numDominated and the immediately dominated lists -/

theorem block_addImmediatelyDominatedBlock (g : MIRGraph) (b c i : Nat) :
    (addImmediatelyDominatedBlock g b c).block i =
      (g.block i).map (fun blk =>
        if b = i then { blk with immediatelyDominated := blk.immediatelyDominated ++ [c] }
        else blk) := by
  simp [addImmediatelyDominatedBlock, MIRGraph.block, List.getElem?_modify]

theorem block_addNumDominated (g : MIRGraph) (b n i : Nat) :
    (addNumDominated g b n).block i =
      (g.block i).map (fun blk =>
        if b = i then { blk with numDominated := blk.numDominated + n } else blk) := by
  simp [addNumDominated, MIRGraph.block, List.getElem?_modify]

theorem block_setDomIndex (g : MIRGraph) (b n i : Nat) :
    (setDomIndex g b n).block i =
      (g.block i).map (fun blk => if b = i then { blk with domIndex := n } else blk) := by
  simp [setDomIndex, MIRGraph.block, List.getElem?_modify]

theorem reachFrom_mono {g : MIRGraph} {k k' : Nat} (h : k ≤ k') {a b : Nat}
    (hr : ReachFrom g k' a b) : ReachFrom g k a b :=
  Relation.ReflTransGen.mono (fun _ _ hl => ⟨le_trans h hl.1, hl.2⟩) hr

theorem reachFrom_terminal {g : MIRGraph} {k a b : Nat} (ha : a < k)
    (h : ReachFrom g k a b) : b = a := by
  rcases Relation.ReflTransGen.cases_head h with rfl | ⟨c, hac, _⟩
  · rfl
  · exact absurd hac.1 (not_le.mpr ha)

theorem reachFrom_unique {g : MIRGraph} {k a b : Nat} (ha : a < k) (hb : b < k) :
    ∀ y, ReachFrom g k y a → ReachFrom g k y b → a = b := by
  intro y h1
  induction h1 using Relation.ReflTransGen.head_induction_on with
  | refl => intro h2; exact (reachFrom_terminal ha h2).symm
  | head hstep _ ih =>
    intro h2
    rcases Relation.ReflTransGen.cases_head h2 with heq | ⟨c', hyc', hc'b⟩
    · rw [heq] at hstep
      exact absurd hstep.1 (not_le.mpr hb)
    · have : some _ = some c' := hstep.2.1.symm.trans hyc'.2.1
      cases this
      exact ih hc'b

theorem reachFrom_succ_of_self {g : MIRGraph} {c : Nat} (hself : idomOf g c = some c)
    (Y X : Nat) : ReachFrom g c Y X ↔ ReachFrom g (c + 1) Y X := by
  constructor
  · intro h
    refine Relation.ReflTransGen.mono ?_ h
    intro a b hl
    refine ⟨?_, hl.2⟩
    rcases Nat.lt_or_ge c a with hlt | hge
    · exact hlt
    · have : a = c := le_antisymm hge hl.1
      subst this
      have hb : some a = some b := hself.symm.trans hl.2.1
      exact absurd (Option.some.inj hb).symm hl.2.2
  · exact reachFrom_mono (Nat.le_succ c)

theorem reachFrom_succ_of_link {g : MIRGraph} {c P : Nat} (hP : idomOf g c = some P)
    (hPc : P < c) (Y X : Nat) :
    ReachFrom g c Y X ↔ ReachFrom g (c + 1) Y X ∨ (ReachFrom g (c + 1) Y c ∧ X = P) := by
  constructor
  · intro h
    induction h with
    | refl => exact Or.inl Relation.ReflTransGen.refl
    | @tail Z X' _ hl ih =>
      rcases ih with ih | ⟨_, hZ⟩
      · rcases Nat.lt_or_ge c Z with hlt | hge
        · exact Or.inl (Relation.ReflTransGen.tail ih ⟨hlt, hl.2⟩)
        · have hZc : Z = c := le_antisymm hge hl.1
          subst hZc
          have hb : some P = some X' := hP.symm.trans hl.2.1
          exact Or.inr ⟨ih, (Option.some.inj hb).symm⟩
      · subst hZ
        exact absurd hl.1 (not_le.mpr hPc)
  · rintro (h | ⟨h, rfl⟩)
    · exact reachFrom_mono (Nat.le_succ c) h
    · exact Relation.ReflTransGen.tail (reachFrom_mono (Nat.le_succ c) h)
        ⟨le_refl c, hP, ne_of_lt hPc⟩

theorem reachFrom_zero (g : MIRGraph) (Y X : Nat) : ReachFrom g 0 Y X ↔ IdomChain g Y X := by
  constructor
  · intro h
    exact Relation.ReflTransGen.mono (fun _ _ hl => hl.2.1) h
  · intro h
    induction h with
    | refl => exact Relation.ReflTransGen.refl
    | @tail Z X' _ hl ih =>
      by_cases hXZ : X' = Z
      · subst hXZ; exact ih
      · exact Relation.ReflTransGen.tail ih ⟨Nat.zero_le _, hl, hXZ⟩

theorem numDominatedOf_link (g : MIRGraph) (P c n X : Nat) :
    numDominatedOf (addNumDominated (addImmediatelyDominatedBlock g P c) P n) X =
      if P = X ∧ X < g.blocks.length then numDominatedOf g X + n else numDominatedOf g X := by
  unfold numDominatedOf
  rw [block_addNumDominated, block_addImmediatelyDominatedBlock]
  cases hX : g.block X with
  | none =>
    have : ¬ X < g.blocks.length := by
      intro hlt
      simp [MIRGraph.block, List.getElem?_eq_getElem hlt] at hX
    simp [this]
  | some blk =>
    have : X < g.blocks.length := (List.getElem?_eq_some.mp hX).1
    by_cases hP : P = X <;> simp [hP, this]

theorem childrenOf_link (g : MIRGraph) (P c n X : Nat) :
    childrenOf (addNumDominated (addImmediatelyDominatedBlock g P c) P n) X =
      if P = X ∧ X < g.blocks.length then childrenOf g X ++ [c] else childrenOf g X := by
  unfold childrenOf
  rw [block_addNumDominated, block_addImmediatelyDominatedBlock]
  cases hX : g.block X with
  | none =>
    have : ¬ X < g.blocks.length := by
      intro hlt
      simp [MIRGraph.block, List.getElem?_eq_getElem hlt] at hX
    simp [this]
  | some blk =>
    have : X < g.blocks.length := (List.getElem?_eq_some.mp hX).1
    by_cases hP : P = X <;> simp [hP, this]

theorem linkChild_inv (g1 g g' : MIRGraph) (c : Nat)
    (hlt : ∀ b d, idomOf g1 b = some d → d ≠ b → d < b)
    (hinv : LinkInv g1 g (c + 1)) (h : linkChild g c = some g') : LinkInv g1 g' c := by
  obtain ⟨hce, hX⟩ := hinv
  have hlen : g.blocks.length = g1.blocks.length := coreEq_length hce
  unfold linkChild at h
  cases hb : g.block c with
  | none => simp [hb] at h
  | some cb =>
    simp only [hb] at h
    cases hi : cb.immediateDominator with
    | none => simp [hi] at h
    | some P =>
      simp only [hi] at h
      have hP1 : idomOf g1 c = some P := by
        rw [← coreEq_idomOf hce]
        simp [idomOf, hb, hi]
      have hcn : c < g1.blocks.length := idomOf_lt_length hP1
      have hndc : numDominatedOf g c = cb.numDominated := by simp [numDominatedOf, hb]
      by_cases hcp : c = P
      · rw [if_pos hcp] at h
        cases h
        subst hcp
        refine ⟨hce, ?_⟩
        intro X hXn
        obtain ⟨⟨S, hS, hcard⟩, L, hL, hnd, hch, hsum⟩ := hX X hXn
        refine ⟨⟨S, ?_, hcard⟩, L, hL, hnd, ?_, hsum⟩
        · intro Y
          rw [hS, reachFrom_succ_of_self hP1]
        · intro c'
          rw [hch]
          constructor
          · rintro ⟨h1, h2, h3⟩
            exact ⟨le_trans (Nat.le_succ _) h1, h2, h3⟩
          · rintro ⟨h1, h2, h3⟩
            refine ⟨?_, h2, h3⟩
            rcases Nat.lt_or_ge c c' with hl | hge
            · exact hl
            · have : c' = c := le_antisymm hge h1
              subst this
              rw [hP1] at h2
              exact absurd (Option.some.inj h2) h3
      · rw [if_neg hcp] at h
        have hPc : P < c := hlt c P hP1 (fun hh => hcp hh.symm)
        cases hp : g.block P with
        | none => simp [hp] at h
        | some pb =>
          simp only [hp] at h
          cases h
          have hPn : P < g.blocks.length := (List.getElem?_eq_some.mp hp).1
          refine ⟨coreEq_trans hce (coreEq_trans (coreEq_addImmediatelyDominatedBlock g P c)
            (coreEq_addNumDominated _ P _)), ?_⟩
          intro X hXn
          obtain ⟨⟨S, hS, hcard⟩, L, hL, hnd, hch, hsum⟩ := hX X hXn
          have hsame : ∀ c', c' ∈ L →
              numDominatedOf (addNumDominated (addImmediatelyDominatedBlock g P c) P
                (cb.numDominated + 1)) c' + 1 = numDominatedOf g c' + 1 := by
            intro c' hc'
            rw [numDominatedOf_link, if_neg]
            rintro ⟨hPc', _⟩
            subst hPc'
            have := ((hch P).mp hc').1
            omega
          have hsamec : numDominatedOf (addNumDominated (addImmediatelyDominatedBlock g P c) P
              (cb.numDominated + 1)) c = numDominatedOf g c := by
            rw [numDominatedOf_link, if_neg]
            rintro ⟨hPc', _⟩
            exact hcp hPc'.symm
          rw [numDominatedOf_link, childrenOf_link]
          by_cases hPX : P = X
          · subst hPX
            rw [if_pos ⟨rfl, hPn⟩, if_pos ⟨rfl, hPn⟩]
            obtain ⟨⟨Sc, hSc, hcardc⟩, _⟩ := hX c hcn
            refine ⟨⟨S ∪ insert c Sc, ?_, ?_⟩, L ++ [c], ?_, ?_, ?_, ?_⟩
            · intro Y
              rw [Finset.mem_union, Finset.mem_insert, hS, hSc,
                reachFrom_succ_of_link hP1 hPc]
              constructor
              · rintro (⟨h1, h2⟩ | rfl | ⟨h1, h2⟩)
                · exact ⟨h1, Or.inl h2⟩
                · exact ⟨fun hh => hcp hh, Or.inr ⟨Relation.ReflTransGen.refl, rfl⟩⟩
                · refine ⟨?_, Or.inr ⟨h2, rfl⟩⟩
                  intro hYP
                  subst hYP
                  exact hcp (reachFrom_terminal (lt_trans hPc (Nat.lt_succ_self c)) h2)
              · rintro ⟨h1, h2 | ⟨h2, _⟩⟩
                · exact Or.inl ⟨h1, h2⟩
                · by_cases hYc : Y = c
                  · exact Or.inr (Or.inl hYc)
                  · exact Or.inr (Or.inr ⟨hYc, h2⟩)
            · have hdisj : Disjoint S (insert c Sc) := by
                rw [Finset.disjoint_left]
                intro Y hYS hYc
                rw [hS] at hYS
                have hYc' : ReachFrom g1 (c + 1) Y c := by
                  rw [Finset.mem_insert, hSc] at hYc
                  rcases hYc with rfl | ⟨_, h2⟩
                  · exact Relation.ReflTransGen.refl
                  · exact h2
                exact hcp (reachFrom_unique (Nat.lt_succ_self c)
                  (lt_trans hPc (Nat.lt_succ_self c)) Y hYc' hYS.2)
              have hcnot : c ∉ Sc := by
                intro hc
                rw [hSc] at hc
                exact hc.1 rfl
              rw [Finset.card_union_of_disjoint hdisj, Finset.card_insert_of_not_mem hcnot,
                hcard, hndc.symm, hcardc]
            · rw [hL, List.append_assoc]
            · rw [List.nodup_append]
              refine ⟨hnd, List.nodup_singleton c, ?_⟩
              intro x hx hxc
              rw [List.mem_singleton] at hxc
              subst hxc
              rw [hch] at hx
              exact absurd hx.1 (Nat.not_succ_le_self _)
            · intro c'
              rw [List.mem_append, List.mem_singleton, hch]
              constructor
              · rintro (⟨h1, h2, h3⟩ | rfl)
                · exact ⟨le_trans (Nat.le_succ _) h1, h2, h3⟩
                · exact ⟨le_refl _, hP1, hcp⟩
              · rintro ⟨h1, h2, h3⟩
                rcases Nat.lt_or_ge c c' with hl | hge
                · exact Or.inl ⟨hl, h2, h3⟩
                · exact Or.inr (le_antisymm hge h1)
            · rw [List.map_append, List.sum_append, List.map_congr_left hsame, ← hsum]
              simp only [List.map_cons, List.map_nil, List.sum_cons, List.sum_nil, add_zero]
              rw [hsamec, hndc]
          · have hif : ¬ (P = X ∧ X < g.blocks.length) := fun hh => hPX hh.1
            rw [if_neg hif, if_neg hif]
            refine ⟨⟨S, ?_, hcard⟩, L, hL, hnd, ?_, ?_⟩
            rotate_left 2
            · rw [List.map_congr_left hsame]; exact hsum
            · intro Y
              rw [hS, reachFrom_succ_of_link hP1 hPc]
              constructor
              · rintro ⟨h1, h2⟩; exact ⟨h1, Or.inl h2⟩
              · rintro ⟨h1, h2 | ⟨_, h3⟩⟩
                · exact ⟨h1, h2⟩
                · exact absurd h3.symm hPX
            · intro c'
              rw [hch]
              constructor
              · rintro ⟨h1, h2, h3⟩
                exact ⟨le_trans (Nat.le_succ _) h1, h2, h3⟩
              · rintro ⟨h1, h2, h3⟩
                refine ⟨?_, h2, h3⟩
                rcases Nat.lt_or_ge c c' with hl | hge
                · exact hl
                · have : c' = c := le_antisymm hge h1
                  subst this
                  rw [hP1] at h2
                  exact absurd (Option.some.inj h2) hPX

theorem linkChildren_inv (g1 : MIRGraph)
    (hlt : ∀ b d, idomOf g1 b = some d → d ≠ b → d < b) :
    ∀ (k : Nat) (g g' : MIRGraph), LinkInv g1 g k →
      linkChildren (List.range k).reverse g = some g' → LinkInv g1 g' 0 := by
  intro k
  induction k with
  | zero =>
    intro g g' hinv h
    simp [linkChildren] at h
    subst h
    exact hinv
  | succ k ih =>
    intro g g' hinv h
    rw [List.range_succ, List.reverse_append, List.reverse_singleton, List.singleton_append]
      at h
    unfold linkChildren at h
    cases hc : linkChild g k with
    | none => simp [hc] at h
    | some g2 =>
      simp only [hc] at h
      exact ih g2 g' (linkChild_inv g1 g g2 k hlt hinv hc) h

/-! ## Without an OSR entry only the start block is self-dominating -/

theorem walkFinger_ne_null (g : MIRGraph) (hself : ∀ b, idomOf g b = some b → b = 0)
    (hid0 : ∀ blk, g.block 0 = some blk → blk.id = 0) (otherId : Nat) :
    ∀ (fuel finger : Nat), walkFinger fuel g finger otherId ≠ some none := by
  intro fuel
  induction fuel with
  | zero => intro finger h; simp [walkFinger] at h
  | succ n ih =>
    intro finger h
    unfold walkFinger at h
    cases hb : g.block finger with
    | none => simp [hb] at h
    | some fb =>
      simp only [hb] at h
      by_cases hgt : fb.id > otherId
      · rw [if_pos hgt] at h
        cases hi : fb.immediateDominator with
        | none => simp [hi] at h
        | some idom =>
          simp only [hi] at h
          by_cases he : idom = finger
          · subst he
            have h0 : idom = 0 := hself idom (by simp [idomOf, hb, hi])
            subst h0
            rw [hid0 fb hb] at hgt
            exact absurd hgt (Nat.not_lt_zero _)
          · rw [if_neg he] at h
            exact ih idom h
      · rw [if_neg hgt] at h
        cases h

theorem IntersectDominators_ne_null (g : MIRGraph)
    (hself : ∀ b, idomOf g b = some b → b = 0)
    (hid0 : ∀ blk, g.block 0 = some blk → blk.id = 0) :
    ∀ (fuel f1 f2 : Nat), IntersectDominators fuel g f1 f2 ≠ some none := by
  intro fuel
  induction fuel with
  | zero => intro f1 f2 h; simp [IntersectDominators] at h
  | succ n ih =>
    intro f1 f2 h
    unfold IntersectDominators at h
    cases hb1 : g.block f1 with
    | none => simp [hb1] at h
    | some b1 =>
      cases hb2 : g.block f2 with
      | none => simp [hb1, hb2] at h
      | some b2 =>
        simp only [hb1, hb2] at h
        by_cases hid : b1.id ≠ b2.id
        · rw [if_pos hid] at h
          cases hw1 : walkFinger n g f1 b2.id with
          | none => simp [hw1] at h
          | some r1 =>
            cases r1 with
            | none => exact walkFinger_ne_null g hself hid0 _ _ _ hw1
            | some f1' =>
              simp only [hw1] at h
              cases hb1' : g.block f1' with
              | none => simp [hb1'] at h
              | some b1' =>
                simp only [hb1'] at h
                cases hw2 : walkFinger n g f2 b1'.id with
                | none => simp [hw2] at h
                | some r2 =>
                  cases r2 with
                  | none => exact walkFinger_ne_null g hself hid0 _ _ _ hw2
                  | some f2' =>
                    simp only [hw2] at h
                    exact ih f1' f2' h
        · rw [if_neg hid] at h
          cases h

theorem intersectPredecessors_ne_null (fuel : Nat) (g : MIRGraph)
    (hself : ∀ b, idomOf g b = some b → b = 0)
    (hid0 : ∀ blk, g.block 0 = some blk → blk.id = 0) :
    ∀ (rest : List Nat) (p0 : Nat), intersectPredecessors fuel g rest p0 ≠ some none := by
  intro rest
  induction rest with
  | nil => intro p0 h; simp [intersectPredecessors] at h
  | cons pred rest ih =>
    intro p0 h
    unfold intersectPredecessors at h
    cases hpb : g.block pred with
    | none => simp [hpb] at h
    | some pb =>
      simp only [hpb] at h
      by_cases hs : pb.immediateDominator.isSome = true
      · rw [if_pos hs] at h
        cases hI : IntersectDominators fuel g pred p0 with
        | none => simp [hI] at h
        | some r =>
          cases r with
          | none => exact IntersectDominators_ne_null g hself hid0 _ _ _ hI
          | some d1 =>
            simp only [hI] at h
            exact ih d1 h
      · rw [if_neg hs] at h
        exact ih p0 h

theorem idomChain_le_of_links (g : MIRGraph) (hle : ∀ b d, idomOf g b = some d → d ≤ b)
    {a d : Nat} (h : IdomChain g a d) : d ≤ a := by
  induction h with
  | refl => exact le_refl _
  | tail _ hl ih => exact le_trans (hle _ _ hl) ih

theorem sweepShape_ids_injective (g : MIRGraph) (h : SweepShape g) :
    ∀ a b ba bb, g.block a = some ba → g.block b = some bb → ba.id = bb.id → a = b := by
  intro a b ba bb ha hb hid
  rw [h.1 a ba ha, h.1 b bb hb] at hid
  exact hid

theorem sweepShape_of_frame {g g' : MIRGraph} (hf : Frame g g') (h : SweepShape g) :
    SweepShape g' := by
  constructor
  · intro i blk hblk
    have := hf.shape i
    rw [hblk] at this
    cases hg : g.block i with
    | none => simp [hg] at this
    | some blk0 =>
      simp only [hg, Option.map_some', Option.some.injEq, MBasicBlock.shape,
        Prod.mk.injEq] at this
      rw [this.1]
      exact h.1 i blk0 hg
  · intro b hb
    rw [hf.length] at hb
    rcases h.2 b hb with h0 | ⟨p, hp, hlt⟩
    · exact Or.inl h0
    · refine Or.inr ⟨p, ?_, hlt⟩
      have := hf.shape b
      unfold predsOf at hp ⊢
      cases hg : g.block b with
      | none => simp [hg] at hp
      | some blk0 =>
        cases hg' : g'.block b with
        | none => simp [hg, hg'] at this
        | some blk1 =>
          simp only [hg, hg', Option.map_some', Option.some.injEq, MBasicBlock.shape,
            Prod.mk.injEq] at this
          simp only [hg] at hp
          simp only [this.2.1]
          exact hp

theorem processBlock_sweepInv (fuel : Nat) (g g' : MIRGraph) (c c' : Bool) (b k : Nat)
    (hinv : SweepInv g k) (hbk : b ≤ k) (hbn : b < g.blocks.length)
    (h : processBlock fuel g c b = some (g', c')) : SweepInv g' (max k (b + 1)) := by
  obtain ⟨hshape, h0, hle, hself, hset⟩ := hinv
  have hid0 : ∀ blk, g.block 0 = some blk → blk.id = 0 := fun blk hb => hshape.1 0 blk hb
  have hinj := sweepShape_ids_injective g hshape
  have hframe := (processBlock_spec fuel g g' c c' b h).1
  unfold processBlock at h
  cases hblk : g.block b with
  | none => simp [hblk] at h
  | some blk =>
    simp only [hblk] at h
    by_cases hsb : blk.immediateDominator = some b
    · rw [if_pos hsb] at h
      cases h
      refine ⟨hshape, h0, hle, hself, ?_⟩
      intro x hx hxn
      rcases Nat.lt_or_ge x k with hlt | hge
      · exact hset x hlt hxn
      · have hxb : x = b := by
          have : x < b + 1 := by
            rcases lt_max_iff.mp hx with h1 | h1
            · exact absurd h1 (not_lt.mpr hge)
            · exact h1
          omega
        subst hxb
        simp [idomOf, hblk, hsb]
    · rw [if_neg hsb] at h
      have hb0 : b ≠ 0 := by
        intro hb0
        subst hb0
        simp [idomOf, hblk] at h0
        exact hsb h0
      obtain ⟨p, hp, hpb⟩ : ∃ p ∈ predsOf g b, p < b := by
        rcases hshape.2 b hbn with hb | hb
        · exact absurd hb hb0
        · exact hb
      have hpset : idomOf g p ≠ none := hset p (lt_of_lt_of_le hpb hbk) (lt_trans hpb hbn)
      cases hpr : blk.predecessors with
      | nil => simp [hpr] at h
      | cons p0 rest =>
        simp only [hpr] at h
        cases hI : intersectPredecessors fuel g rest p0 with
        | none => simp [hI] at h
        | some r =>
          cases r with
          | none => exact absurd hI (intersectPredecessors_ne_null fuel g hself hid0 rest p0)
          | some newIdom =>
            simp only [hI] at h
            obtain ⟨hc0, hcrest⟩ := intersectPredecessors_chain fuel g hinj rest p0 newIdom hI
            have hnew : newIdom < b := by
              have hpmem : p ∈ p0 :: rest := by
                simpa [predsOf, hblk, hpr] using hp
              rcases List.mem_cons.mp hpmem with rfl | hprest
              · exact lt_of_le_of_lt (idomChain_le_of_links g hle hc0) hpb
              · obtain ⟨pb, hpb', hch⟩ := hcrest p hprest
                have hsome : pb.immediateDominator.isSome = true := by
                  cases hpi : pb.immediateDominator with
                  | none => simp [idomOf, hpb', hpi] at hpset
                  | some _ => rfl
                exact lt_of_le_of_lt (idomChain_le_of_links g hle (hch hsome)) hpb
            have hfinal : ∀ x, idomOf g' x = if b = x then some newIdom else idomOf g x := by
              intro x
              by_cases hne : blk.immediateDominator ≠ some newIdom
              · rw [if_pos hne] at h
                cases h
                rw [idomOf_setImmediateDominator]
                by_cases hbx : b = x
                · subst hbx; simp [hblk]
                · simp [hbx]
              · rw [if_neg hne] at h
                cases h
                by_cases hbx : b = x
                · subst hbx
                  simp [idomOf, hblk, not_not.mp hne]
                · simp [hbx]
            refine ⟨sweepShape_of_frame hframe hshape, hframe.self 0 h0, ?_, ?_, ?_⟩
            · intro x d hx
              rw [hfinal] at hx
              by_cases hbx : b = x
              · subst hbx
                rw [if_pos rfl] at hx
                cases hx
                exact le_of_lt hnew
              · rw [if_neg hbx] at hx
                exact hle x d hx
            · intro x hx
              rw [hfinal] at hx
              by_cases hbx : b = x
              · subst hbx
                rw [if_pos rfl] at hx
                cases hx
                exact absurd hnew (lt_irrefl _)
              · rw [if_neg hbx] at hx
                exact hself x hx
            · intro x hx hxn
              rw [hfinal]
              by_cases hbx : b = x
              · rw [if_pos hbx]; simp
              · rw [if_neg hbx]
                rw [hframe.length] at hxn
                refine hset x ?_ hxn
                rcases lt_max_iff.mp hx with h1 | h1
                · exact h1
                · omega

theorem rpoSweep_sweepInv (fuel : Nat) :
    ∀ (m s : Nat) (g g' : MIRGraph) (c c' : Bool) (k : Nat),
      SweepInv g k → s ≤ k → s + m ≤ g.blocks.length →
      rpoSweep fuel (List.range' s m) g c = some (g', c') → SweepInv g' (max k (s + m)) := by
  intro m
  induction m with
  | zero =>
    intro s g g' c c' k hinv hsk _ h
    simp [rpoSweep] at h
    obtain ⟨rfl, rfl⟩ := h
    simpa [max_eq_left hsk] using hinv
  | succ m ih =>
    intro s g g' c c' k hinv hsk hlen h
    rw [List.range'_succ] at h
    unfold rpoSweep at h
    cases hp : processBlock fuel g c s with
    | none => simp [hp] at h
    | some r =>
      obtain ⟨g1, c1⟩ := r
      simp only [hp] at h
      have h1 := processBlock_sweepInv fuel g g1 c c1 s k hinv hsk (by omega) hp
      have hlen1 : g1.blocks.length = g.blocks.length :=
        (processBlock_spec fuel g g1 c c1 s hp).1.length
      have := ih (s + 1) g1 g' c1 c' (max k (s + 1)) h1 (le_max_right _ _)
        (by rw [hlen1]; omega) h
      have hmax : max (max k (s + 1)) (s + 1 + m) = max k (s + (m + 1)) := by
        simp only [max_def]
        split_ifs <;> omega
      rw [hmax] at this
      exact this

theorem sweepInv_mono {g : MIRGraph} {k k' : Nat} (h : SweepInv g k') (hk : k ≤ k') :
    SweepInv g k :=
  ⟨h.1, h.2.1, h.2.2.1, h.2.2.2.1, fun x hx hxn => h.2.2.2.2 x (lt_of_lt_of_le hx hk) hxn⟩

theorem fixpointLoop_sweepInv (fuel : Nat) :
    ∀ (n : Nat) (g g' : MIRGraph), SweepInv g 0 → fixpointLoop fuel n g = some g' →
      SweepInv g' 0 := by
  intro n
  induction n with
  | zero => intro g g' _ h; simp [fixpointLoop] at h
  | succ n ih =>
    intro g g' hinv h
    unfold fixpointLoop at h
    cases hs : rpoSweep fuel (List.range g.blocks.length) g false with
    | none => simp [hs] at h
    | some r =>
      obtain ⟨g1, c1⟩ := r
      simp only [hs] at h
      have hs' := hs
      rw [List.range_eq_range'] at hs'
      have h1 := rpoSweep_sweepInv fuel g.blocks.length 0 g g1 false c1 0 hinv (le_refl 0)
        (by omega) hs'
      have h1' : SweepInv g1 0 := sweepInv_mono h1 (Nat.zero_le _)
      cases c1 with
      | true =>
        simp only [if_true] at h
        exact ih g1 g' h1' h
      | false =>
        simp only [Bool.false_eq_true, if_false] at h
        cases h
        exact h1'

/-! ## The stages of BuildDominatorTree -/

theorem linksEq_refl (g : MIRGraph) : LinksEq g g := fun _ => rfl

theorem linksEq_trans {a b c : MIRGraph} (h1 : LinksEq a b) (h2 : LinksEq b c) :
    LinksEq a c :=
  fun i => (h2 i).trans (h1 i)

theorem linksEq_setDomIndex (g : MIRGraph) (b n : Nat) : LinksEq g (setDomIndex g b n) := by
  intro i
  rw [block_setDomIndex]
  cases g.block i with
  | none => rfl
  | some blk => by_cases hb : b = i <;> simp [hb, MBasicBlock.links, MBasicBlock.core,
      MBasicBlock.shape]

theorem linksEq_coreEq {g g' : MIRGraph} (h : LinksEq g g') : CoreEq g g' := by
  intro i
  have := h i
  cases h1 : g'.block i <;> cases h2 : g.block i <;>
    simp [h1, h2, MBasicBlock.links] at this ⊢
  exact this.1

theorem linksEq_numDominatedOf {g g' : MIRGraph} (h : LinksEq g g') (i : Nat) :
    numDominatedOf g' i = numDominatedOf g i := by
  have := h i
  unfold numDominatedOf
  cases h1 : g'.block i <;> cases h2 : g.block i <;>
    simp [h1, h2, MBasicBlock.links] at this ⊢
  exact this.2.1

theorem linksEq_childrenOf {g g' : MIRGraph} (h : LinksEq g g') (i : Nat) :
    childrenOf g' i = childrenOf g i := by
  have := h i
  unfold childrenOf
  cases h1 : g'.block i <;> cases h2 : g.block i <;>
    simp [h1, h2, MBasicBlock.links] at this ⊢
  exact this.2.2

theorem assignDomIndex_linksEq :
    ∀ (fuel : Nat) (g g' : MIRGraph) (ws : List Nat) (index : Nat),
      assignDomIndex fuel g ws index = some g' → LinksEq g g' := by
  intro fuel
  induction fuel with
  | zero =>
    intro g g' ws index h
    cases ws with
    | nil => simp [assignDomIndex] at h; subst h; exact linksEq_refl g
    | cons w ws => simp [assignDomIndex] at h
  | succ n ih =>
    intro g g' ws index h
    cases ws with
    | nil => simp [assignDomIndex] at h; subst h; exact linksEq_refl g
    | cons w ws =>
      simp only [assignDomIndex] at h
      cases hb : g.block ((w :: ws).getLast (List.cons_ne_nil w ws)) with
      | none => simp [hb] at h
      | some blk =>
        simp only [hb] at h
        exact linksEq_trans (linksEq_setDomIndex g _ index) (ih _ g' _ _ h)

theorem BuildDominatorTree_stages (fuel : Nat) (g g' : MIRGraph)
    (h : BuildDominatorTree fuel g = some g') :
    ∃ g1 g2, ComputeImmediateDominators fuel g = some g1 ∧
      linkChildren (List.range g1.blocks.length).reverse g1 = some g2 ∧
      assignDomIndex fuel g2 (selfDominating g2) 0 = some g' := by
  unfold BuildDominatorTree at h
  cases h1 : ComputeImmediateDominators fuel g with
  | none => simp [h1] at h
  | some g1 =>
    simp only [h1] at h
    cases h2 : linkChildren (List.range g1.blocks.length).reverse g1 with
    | none => simp [h2] at h
    | some g2 =>
      simp only [h2] at h
      exact ⟨g1, g2, rfl, h2, h⟩

theorem idsRenumbered_spec (g : MIRGraph) (h : idsRenumbered g = true) :
    ∀ i blk, g.block i = some blk → blk.id = i := by
  intro i blk hb
  unfold idsRenumbered at h
  rw [List.all_eq_true] at h
  have hmem : (i, blk) ∈ g.blocks.enum := by
    rw [List.mem_enum_iff_getElem?]
    exact hb
  simpa using h _ hmem

theorem idsRenumbered_nodup (g : MIRGraph) (h : idsRenumbered g = true) :
    (g.blocks.map MBasicBlock.id).Nodup := by
  have hspec := idsRenumbered_spec g h
  have : g.blocks.map MBasicBlock.id = List.range g.blocks.length := by
    apply List.ext_getElem
    · simp
    · intro i h1 h2
      simp only [List.getElem_map, List.getElem_range]
      have hi : i < g.blocks.length := by simpa using h1
      exact hspec i _ (List.getElem?_eq_getElem hi)
  rw [this]
  exact List.nodup_range _

/-- What `ComputeImmediateDominators` establishes on a graph with distinct
ids in which every block but the roots has an earlier predecessor. -/
theorem ComputeImmediateDominators_tree (fuel : Nat) (g g1 : MIRGraph)
    (hids : (g.blocks.map MBasicBlock.id).Nodup)
    (hpred : hasEarlierPredecessor g = true)
    (h : ComputeImmediateDominators fuel g = some g1) :
    g1.blocks.length = g.blocks.length ∧
      (∀ i, (g1.block i).map MBasicBlock.annotations =
        (g.block i).map MBasicBlock.annotations) ∧
      (∀ b, b < g1.blocks.length → ∃ d, idomOf g1 b = some d) ∧
      (∀ b d, idomOf g1 b = some d → d ≠ b → d < b) := by
  obtain ⟨hshape, hann, hlen, hosr, h0, ho, hset⟩ :=
    ComputeImmediateDominators_spec fuel g g1 h
  have hids1 : (g1.blocks.map MBasicBlock.id).Nodup := by
    have : g1.blocks.map MBasicBlock.id = g.blocks.map MBasicBlock.id := by
      apply List.ext_getElem?
      intro i
      have := hshape i
      simp only [MIRGraph.block] at this
      simp only [List.getElem?_map]
      cases h1 : g1.blocks[i]? <;> cases h2 : g.blocks[i]? <;>
        simp [h1, h2, MBasicBlock.shape] at this ⊢
      exact this.1
    rw [this]; exact hids
  have hpc := predsChain_of_settled fuel g1 hids1 hset
  have hp1 : ∀ i, predsOf g1 i = predsOf g i := by
    intro i
    have := hshape i
    unfold predsOf
    cases h1 : g1.block i <;> cases h2 : g.block i <;>
      simp [h1, h2, MBasicBlock.shape] at this ⊢
    exact this.2.1
  have hroot : ∀ b, b < g1.blocks.length →
      idomOf g1 b = some b ∨ ∃ p ∈ predsOf g1 b, p < b := by
    intro b hb
    rw [hlen] at hb
    rcases hasEarlierPredecessor_spec g hpred b hb with h | h | ⟨p, hp, hlt⟩
    · subst h; exact Or.inl h0
    · exact Or.inl (ho b h)
    · exact Or.inr ⟨p, by rw [hp1]; exact hp, hlt⟩
  refine ⟨hlen, hann, ?_, idomOf_lt g1 hpc hroot⟩
  intro b hb
  obtain ⟨blk, hblk, hcase⟩ := hset b hb
  unfold idomOf
  rw [hblk]
  rcases hcase with hc | ⟨_, _, d, _, _, hc⟩
  · exact ⟨b, hc⟩
  · exact ⟨d, hc⟩

theorem linkInv_init (g1 : MIRGraph)
    (hnd : ∀ b, numDominatedOf g1 b = 0) : LinkInv g1 g1 g1.blocks.length := by
  refine ⟨coreEq_refl g1, ?_⟩
  intro X _
  refine ⟨⟨∅, ?_, by simp [hnd]⟩, [], by simp, List.nodup_nil, ?_, by simp [hnd]⟩
  · intro Y
    simp only [Finset.not_mem_empty, false_iff, not_and]
    intro hne hr
    rcases Relation.ReflTransGen.cases_head hr with rfl | ⟨c, hl, _⟩
    · exact hne rfl
    · exact absurd (idomOf_lt_length hl.2.1) (not_lt.mpr hl.1)
  · intro c
    simp only [List.not_mem_nil, false_iff, not_and]
    intro hk hc
    exact absurd (idomOf_lt_length hc) (not_lt.mpr hk)

theorem numDominatedZero_spec (g g1 : MIRGraph) (h : numDominatedZero g = true)
    (hann : ∀ i, (g1.block i).map MBasicBlock.annotations =
      (g.block i).map MBasicBlock.annotations) :
    ∀ b, numDominatedOf g1 b = 0 := by
  intro b
  have := hann b
  unfold numDominatedOf
  cases h1 : g1.block b with
  | none => rfl
  | some blk1 =>
    cases h2 : g.block b with
    | none => simp [h1, h2] at this
    | some blk =>
      simp only [h1, h2, Option.map_some', Option.some.injEq, MBasicBlock.annotations,
        Prod.mk.injEq] at this
      unfold numDominatedZero at h
      rw [List.all_eq_true] at h
      have hmem : blk ∈ g.blocks := List.getElem?_mem h2
      have := h blk hmem
      simp only [decide_eq_true_eq] at this
      simp only [*]

/-- After `BuildDominatorTree` on a graph whose blocks start with
`numDominated = 0`, with distinct ids and an earlier predecessor for every
block but the roots, `numDominated` of each block is the number of blocks
strictly below it in the dominator tree, and immediate dominators precede the
blocks they dominate. -/
theorem BuildDominatorTree_numDominated (fuel : Nat) (g g' : MIRGraph)
    (hids : (g.blocks.map MBasicBlock.id).Nodup)
    (hpred : hasEarlierPredecessor g = true)
    (hzero : numDominatedZero g = true)
    (h : BuildDominatorTree fuel g = some g') :
    g'.blocks.length = g.blocks.length ∧
      (∀ b, b < g'.blocks.length → ∃ d, idomOf g' b = some d) ∧
      (∀ b d, idomOf g' b = some d → d ≠ b → d < b) ∧
      ∀ B, B < g'.blocks.length →
        ∃ S : Finset Nat, (∀ Y, Y ∈ S ↔ Y ≠ B ∧ IdomChain g' Y B) ∧
          numDominatedOf g' B = S.card := by
  obtain ⟨g1, g2, h1, h2, h3⟩ := BuildDominatorTree_stages fuel g g' h
  obtain ⟨hlen, hann, hall, hlt⟩ := ComputeImmediateDominators_tree fuel g g1 hids hpred h1
  have hinv := linkChildren_inv g1 hlt g1.blocks.length g1 g2
    (linkInv_init g1 (numDominatedZero_spec g g1 hzero hann)) h2
  have hl3 := assignDomIndex_linksEq fuel g2 g' _ _ h3
  have hce : CoreEq g1 g' := coreEq_trans hinv.1 (linksEq_coreEq hl3)
  have hlen' : g'.blocks.length = g1.blocks.length := coreEq_length hce
  refine ⟨hlen'.trans hlen, ?_, ?_, ?_⟩
  · intro b hb
    rw [coreEq_idomOf hce]
    exact hall b (hlen' ▸ hb)
  · intro b d hbd hne
    rw [coreEq_idomOf hce] at hbd
    exact hlt b d hbd hne
  · intro B hB
    obtain ⟨⟨S, hS, hcard⟩, _⟩ := hinv.2 B (hlen' ▸ hB)
    refine ⟨S, ?_, ?_⟩
    · intro Y
      rw [hS, reachFrom_zero, coreEq_idomChain hce]
    · rw [linksEq_numDominatedOf hl3]
      exact hcard

theorem idomsUnset_spec (g : MIRGraph) (h : idomsUnset g = true) (b : Nat) :
    idomOf g b = none := by
  unfold idomOf
  cases hb : g.block b with
  | none => rfl
  | some blk =>
    unfold idomsUnset at h
    rw [List.all_eq_true] at h
    simpa using h blk (List.getElem?_mem hb)

theorem sweepShape_of_hyps (g : MIRGraph) (hosr : g.osrBlock = none)
    (hids : idsRenumbered g = true) (hpred : hasEarlierPredecessor g = true) :
    SweepShape g := by
  refine ⟨idsRenumbered_spec g hids, ?_⟩
  intro b hb
  rcases hasEarlierPredecessor_spec g hpred b hb with h | h | h
  · exact Or.inl h
  · rw [hosr] at h; cases h
  · exact Or.inr h

theorem ComputeImmediateDominators_selfOnlyStart (fuel : Nat) (g g1 : MIRGraph)
    (hosr : g.osrBlock = none) (hids : idsRenumbered g = true)
    (hpred : hasEarlierPredecessor g = true) (hunset : idomsUnset g = true)
    (h : ComputeImmediateDominators fuel g = some g1) :
    ∀ b, idomOf g1 b = some b → b = 0 := by
  unfold ComputeImmediateDominators at h
  cases hb : g.blocks with
  | nil => simp [hb] at h
  | cons b0 bs =>
    simp only [hb] at h
    have hosr' : (setImmediateDominator g 0 0).osrBlock = none := hosr
    simp only [hosr'] at h
    have hidom : ∀ x, idomOf (setImmediateDominator g 0 0) x =
        if 0 = x then (g.block x).map (fun _ => 0) else none := by
      intro x
      rw [idomOf_setImmediateDominator, idomsUnset_spec g hunset]
    have hinv : SweepInv (setImmediateDominator g 0 0) 0 := by
      refine ⟨sweepShape_of_frame (frame_setImmediateDominator g 0 0 (fun _ => rfl))
        (sweepShape_of_hyps g hosr hids hpred), ?_, ?_, ?_, ?_⟩
      · rw [hidom]; simp [MIRGraph.block, hb]
      · intro b d hbd
        rw [hidom] at hbd
        by_cases h0 : 0 = b
        · subst h0
          rw [if_pos rfl] at hbd
          cases hg : g.block 0 with
          | none => simp [hg] at hbd
          | some blk => simp [hg] at hbd; omega
        · rw [if_neg h0] at hbd; cases hbd
      · intro b hbd
        rw [hidom] at hbd
        by_cases h0 : 0 = b
        · exact h0.symm
        · rw [if_neg h0] at hbd; cases hbd
      · intro x hx; exact absurd hx (Nat.not_lt_zero _)
    exact (fixpointLoop_sweepInv fuel fuel _ g1 hinv h).2.2.2.1

theorem idomChain_to_start (g : MIRGraph)
    (hall : ∀ b, b < g.blocks.length → ∃ d, idomOf g b = some d)
    (hlt : ∀ b d, idomOf g b = some d → d ≠ b → d < b)
    (hself : ∀ b, idomOf g b = some b → b = 0) :
    ∀ b, b < g.blocks.length → IdomChain g b 0 := by
  intro b
  induction b using Nat.strong_induction_on with
  | _ b ih =>
    intro hb
    obtain ⟨d, hd⟩ := hall b hb
    by_cases hdb : d = b
    · subst hdb
      rw [hself d hd]
      exact idomChain_refl g 0
    · have hlt' := hlt b d hd hdb
      exact idomChain_trans (idomChain_step hd) (ih d hlt' (lt_trans hlt' hb))

/-- C3: after `BuildDominatorTree` on a graph as the pass receives it, whose
blocks start with `numDominated = 0`, whose ids are the positions in the block
list, as `RenumberBlocks` assigns them, and whose block list is in reverse
postorder, so that every block other than the start block and the OSR entry
has an earlier predecessor, `numDominated` of every block is the number of
other blocks whose immediate-dominator chain reaches it; without an OSR entry
and with no immediate dominator recorded beforehand, `numDominated` of the
start block is `numBlocks - 1`, which is what the assertion of the debug build
after the post-order loop states. -/
theorem BuildDominatorTree_numDominated_subtree (fuel : Nat) (g g' : MIRGraph)
    (hids : idsRenumbered g = true) (hpred : hasEarlierPredecessor g = true)
    (hzero : numDominatedZero g = true) (hrun : BuildDominatorTree fuel g = some g') :
    (∀ B, B < g'.numBlocks →
      ∃ S : Finset Nat, (∀ Y, Y ∈ S ↔ Y ≠ B ∧ IdomChain g' Y B) ∧
        numDominatedOf g' B = S.card) ∧
      (g.osrBlock = none → idomsUnset g = true →
        numDominatedOf g' 0 = g'.numBlocks - 1) := by
  obtain ⟨hlen, hall, hlt, hsub⟩ :=
    BuildDominatorTree_numDominated fuel g g' (idsRenumbered_nodup g hids) hpred hzero hrun
  refine ⟨hsub, ?_⟩
  intro hosr hunset
  obtain ⟨g1, h1, hce⟩ := BuildDominatorTree_coreEq fuel g g' hrun
  have hself : ∀ b, idomOf g' b = some b → b = 0 := by
    intro b hb
    rw [coreEq_idomOf hce] at hb
    exact ComputeImmediateDominators_selfOnlyStart fuel g g1 hosr hids hpred hunset h1 b hb
  have hchain := idomChain_to_start g' hall hlt hself
  by_cases hn : g'.blocks.length = 0
  · have : g'.block 0 = none := by simp [MIRGraph.block, List.length_eq_zero.mp hn]
    simp [numDominatedOf, this, MIRGraph.numBlocks, hn]
  · obtain ⟨S, hS, hcard⟩ := hsub 0 (Nat.pos_of_ne_zero hn)
    have hSeq : S = (Finset.range g'.blocks.length).erase 0 := by
      ext Y
      rw [hS, Finset.mem_erase, Finset.mem_range]
      constructor
      · rintro ⟨hne, hch⟩
        refine ⟨hne, ?_⟩
        rcases Relation.ReflTransGen.cases_head hch with rfl | ⟨c, hc, _⟩
        · exact absurd rfl hne
        · exact idomOf_lt_length hc
      · rintro ⟨hne, hlt'⟩
        exact ⟨hne, hchain Y hlt'⟩
    rw [hcard, hSeq, Finset.card_erase_of_mem (Finset.mem_range.mpr (Nat.pos_of_ne_zero hn)),
      Finset.card_range]
    rfl

theorem BuildDominatorTree_numDominated_subtree_witness :
    idsRenumbered loopGraph = true ∧ hasEarlierPredecessor loopGraph = true ∧
      numDominatedZero loopGraph = true ∧
      BuildDominatorTree 4 loopGraph = some loopGraphTree ∧
      ((∀ B, B < loopGraphTree.numBlocks →
        ∃ S : Finset Nat, (∀ Y, Y ∈ S ↔ Y ≠ B ∧ IdomChain loopGraphTree Y B) ∧
          numDominatedOf loopGraphTree B = S.card) ∧
        (loopGraph.osrBlock = none → idomsUnset loopGraph = true →
          numDominatedOf loopGraphTree 0 = loopGraphTree.numBlocks - 1)) :=
  ⟨by decide, by decide, by decide, by decide,
    BuildDominatorTree_numDominated_subtree 4 loopGraph loopGraphTree (by decide) (by decide)
      (by decide) (by decide)⟩

/-! ## The pre-order numbering of the dominator tree -/

theorem idomChain_linear (g : MIRGraph) {x a b : Nat} (h1 : IdomChain g x a)
    (h2 : IdomChain g x b) : IdomChain g a b ∨ IdomChain g b a := by
  induction h1 using Relation.ReflTransGen.head_induction_on with
  | refl => exact Or.inl h2
  | head hstep hrest ih =>
    rcases Relation.ReflTransGen.cases_head h2 with heq | ⟨c', hxc', hc'b⟩
    · subst heq
      exact Or.inr (Relation.ReflTransGen.head hstep hrest)
    · have : some _ = some c' := hstep.symm.trans hxc'
      cases this
      exact ih hc'b

theorem domTree_chain_le {T : MIRGraph} (hT : DomTree T) {x a : Nat}
    (h : IdomChain T x a) : a ≤ x := by
  refine idomChain_le_of_links T ?_ h
  intro b d hbd
  by_cases hdb : d = b
  · exact le_of_eq hdb
  · exact le_of_lt (hT.lt b d hbd hdb)

theorem domTree_chain_antisymm {T : MIRGraph} (hT : DomTree T) {x a : Nat}
    (h1 : IdomChain T x a) (h2 : IdomChain T a x) : x = a :=
  le_antisymm (domTree_chain_le hT h2) (domTree_chain_le hT h1)

theorem domTree_child_lt {T : MIRGraph} (hT : DomTree T) {A c : Nat}
    (hc : c ∈ childrenOf T A) : A < c ∧ c < T.blocks.length := by
  obtain ⟨h1, h2⟩ := (hT.mem_children A c).mp hc
  exact ⟨hT.lt c A h1 (fun h => h2 h.symm), idomOf_lt_length h1⟩

theorem domTree_sub_iff {T : MIRGraph} (hT : DomTree T) (A X : Nat) :
    IdomChain T X A ↔ X = A ∨ InSubtrees T (childrenOf T A) X := by
  constructor
  · intro h
    induction h with
    | refl => exact Or.inl rfl
    | @tail Z A' _ hl ih =>
      by_cases hZ : Z = A'
      · subst hZ; exact ih
      · right
        refine ⟨Z, (hT.mem_children A' Z).mpr ⟨hl, hZ⟩, ?_⟩
        assumption
  · rintro (rfl | ⟨c, hc, hXc⟩)
    · exact idomChain_refl T _
    · exact idomChain_trans hXc (idomChain_step ((hT.mem_children A c).mp hc).1)

theorem domTree_children_disjoint {T : MIRGraph} (hT : DomTree T) {A c c' X : Nat}
    (hc : c ∈ childrenOf T A) (hc' : c' ∈ childrenOf T A)
    (h1 : IdomChain T X c) (h2 : IdomChain T X c') : c = c' := by
  have key : ∀ a b, a ∈ childrenOf T A → b ∈ childrenOf T A → IdomChain T a b → a = b := by
    intro a b ha hb hab
    rcases Relation.ReflTransGen.cases_head hab with heq | ⟨d, had, hdb⟩
    · exact heq
    · have hA : idomOf T a = some A := ((hT.mem_children A a).mp ha).1
      have : some d = some A := had.symm.trans hA
      cases this
      have h3 := domTree_chain_le hT hdb
      have h4 := (domTree_child_lt hT hb).1
      omega
  rcases idomChain_linear T h1 h2 with h | h
  · exact key c c' hc hc' h
  · exact (key c' c hc' hc h).symm

theorem domTree_roots_disjoint {T : MIRGraph} {r r' X : Nat}
    (hr : idomOf T r = some r) (hr' : idomOf T r' = some r')
    (h1 : IdomChain T X r) (h2 : IdomChain T X r') : r = r' := by
  rcases idomChain_linear T h1 h2 with h | h
  · exact (idomChain_of_self hr h).symm
  · exact idomChain_of_self hr' h

theorem assignDomIndex_snoc (fuel : Nat) (g : MIRGraph) (ws : List Nat) (A i : Nat) :
    assignDomIndex (fuel + 1) g (ws ++ [A]) i =
      match g.block A with
      | none => none
      | some blk =>
        assignDomIndex fuel (setDomIndex g A i) (ws ++ blk.immediatelyDominated) (i + 1) := by
  cases h : ws ++ [A] with
  | nil => simp at h
  | cons w rest =>
    simp only [assignDomIndex]
    have h1 : (w :: rest).getLast (List.cons_ne_nil w rest) = A := by
      simp only [← h]
      simp
    have h2 : (w :: rest).dropLast = ws := by
      rw [← h]
      simp
    rw [h1, h2]

theorem assignDomIndex_mono :
    ∀ (fuel : Nat) (g g' : MIRGraph) (ws : List Nat) (i k : Nat),
      assignDomIndex fuel g ws i = some g' → assignDomIndex (fuel + k) g ws i = some g' := by
  intro fuel
  induction fuel with
  | zero =>
    intro g g' ws i k h
    cases ws with
    | nil =>
      simp only [assignDomIndex] at h
      cases k <;> simpa [assignDomIndex] using h
    | cons w ws => simp [assignDomIndex] at h
  | succ n ih =>
    intro g g' ws i k h
    cases ws with
    | nil =>
      simp only [assignDomIndex] at h
      simpa [assignDomIndex] using h
    | cons w ws =>
      have hk : n + 1 + k = (n + k) + 1 := by omega
      rw [hk]
      simp only [assignDomIndex] at h ⊢
      cases hb : g.block ((w :: ws).getLast (List.cons_ne_nil w ws)) with
      | none => simp [hb] at h
      | some blk =>
        simp only [hb] at h ⊢
        exact ih _ g' _ _ k h

theorem inSubtrees_append (T : MIRGraph) (cs : List Nat) (c X : Nat) :
    InSubtrees T (cs ++ [c]) X ↔ InSubtrees T cs X ∨ IdomChain T X c := by
  unfold InSubtrees
  constructor
  · rintro ⟨d, hd, hX⟩
    rcases List.mem_append.mp hd with h | h
    · exact Or.inl ⟨d, h, hX⟩
    · rw [List.mem_singleton] at h; subst h; exact Or.inr hX
  · rintro (⟨d, hd, hX⟩ | hX)
    · exact ⟨d, List.mem_append_left _ hd, hX⟩
    · exact ⟨c, by simp, hX⟩

theorem inSubtrees_singleton (T : MIRGraph) (c X : Nat) :
    InSubtrees T [c] X ↔ IdomChain T X c := by
  unfold InSubtrees
  simp

theorem subtreeSizes_append (T : MIRGraph) (cs : List Nat) (c : Nat) :
    subtreeSizes T (cs ++ [c]) = subtreeSizes T cs + (numDominatedOf T c + 1) := by
  simp [subtreeSizes]

theorem subtreeSizes_singleton (T : MIRGraph) (c : Nat) :
    subtreeSizes T [c] = numDominatedOf T c + 1 := by
  simp [subtreeSizes]

theorem visits_nil (T : MIRGraph) : Visits T [] := by
  intro g ws i _
  refine ⟨g, ⟨linksEq_refl g, fun _ _ => rfl, ?_, ?_, ?_⟩, ?_⟩
  · rintro X ⟨c, hc, _⟩; simp at hc
  · rintro X Y ⟨c, hc, _⟩; simp at hc
  · intro j h1 h2; simp [subtreeSizes] at h2; omega
  · intro fuel; simp [subtreeSizes]

theorem visits_append (T : MIRGraph) (cs : List Nat) (c : Nat)
    (hcs : Visits T cs) (hc : Visits T [c])
    (hdisj : ∀ X, InSubtrees T cs X → ¬ IdomChain T X c) : Visits T (cs ++ [c]) := by
  intro g ws i hl
  obtain ⟨g1, hN1, hf1⟩ := hc g (ws ++ cs) i hl
  have hl1 : LinksEq T g1 := linksEq_trans hl hN1.links
  obtain ⟨g2, hN2, hf2⟩ := hcs g1 ws (i + subtreeSizes T [c]) hl1
  rw [subtreeSizes_singleton] at hf1 hf2
  have hr1 := hN1.range
  have hr2 := hN2.range
  rw [subtreeSizes_singleton] at hr1 hr2
  have hsame : ∀ X, IdomChain T X c → domIndexOf g2 X = domIndexOf g1 X :=
    fun X hX => hN2.outside X (fun hin => hdisj X hin hX)
  refine ⟨g2, ⟨linksEq_trans hN1.links hN2.links, ?_, ?_, ?_, ?_⟩, ?_⟩
  · intro X hX
    rw [inSubtrees_append] at hX
    push_neg at hX
    rw [hN2.outside X hX.1, hN1.outside X (by rw [inSubtrees_singleton]; exact hX.2)]
  · intro X hX
    rw [subtreeSizes_append]
    rcases (inSubtrees_append T cs c X).mp hX with h | h
    · have := hr2 X h
      omega
    · have := hr1 X ((inSubtrees_singleton T c X).mpr h)
      rw [hsame X h]
      omega
  · intro X Y hX hY
    rcases (inSubtrees_append T cs c X).mp hX with hXs | hXc
    · rcases (inSubtrees_append T cs c Y).mp hY with hYs | hYc
      · exact hN2.interval X Y hXs hYs
      · have h1 := hr2 X hXs
        have h2 := hr1 Y ((inSubtrees_singleton T c Y).mpr hYc)
        rw [hsame Y hYc]
        constructor
        · intro hYX
          obtain ⟨d, hd, hXd⟩ := hXs
          exact absurd hYc (hdisj Y ⟨d, hd, idomChain_trans hYX hXd⟩)
        · intro h; omega
    · rcases (inSubtrees_append T cs c Y).mp hY with hYs | hYc
      · have h1 := hr1 X ((inSubtrees_singleton T c X).mpr hXc)
        have h2 := hr2 Y hYs
        rw [hsame X hXc]
        constructor
        · intro hYX
          exact absurd (idomChain_trans hYX hXc) (hdisj Y hYs)
        · intro h; omega
      · rw [hsame X hXc, hsame Y hYc]
        exact hN1.interval X Y ((inSubtrees_singleton T c X).mpr hXc)
          ((inSubtrees_singleton T c Y).mpr hYc)
  · intro j hj1 hj2
    rw [subtreeSizes_append] at hj2
    by_cases hj : j < i + (numDominatedOf T c + 1)
    · obtain ⟨X, hX, hXj⟩ := hN1.onto j hj1 (by rw [subtreeSizes_singleton]; exact hj)
      rw [inSubtrees_singleton] at hX
      exact ⟨X, (inSubtrees_append T cs c X).mpr (Or.inr hX), by rw [hsame X hX]; exact hXj⟩
    · have ho2 := hN2.onto
      rw [subtreeSizes_singleton] at ho2
      obtain ⟨X, hX, hXj⟩ := ho2 j (by omega) (by omega)
      exact ⟨X, (inSubtrees_append T cs c X).mpr (Or.inl hX), hXj⟩
  · intro fuel
    rw [subtreeSizes_append]
    have e1 : fuel + (subtreeSizes T cs + (numDominatedOf T c + 1)) =
        (fuel + subtreeSizes T cs) + (numDominatedOf T c + 1) := by omega
    have e2 : i + (subtreeSizes T cs + (numDominatedOf T c + 1)) =
        i + (numDominatedOf T c + 1) + subtreeSizes T cs := by omega
    rw [e1, e2, ← List.append_assoc, hf1, hf2]

theorem visits_list (T : MIRGraph) :
    ∀ cs : List Nat, (∀ c ∈ cs, Visits T [c]) →
      cs.Pairwise (fun c c' => ∀ X, IdomChain T X c → ¬ IdomChain T X c') → Visits T cs := by
  intro cs
  induction cs using List.reverseRecOn with
  | nil => intro _ _; exact visits_nil T
  | append_singleton cs c ih =>
    intro hall hpw
    rw [List.pairwise_append] at hpw
    obtain ⟨hpw1, _, hcross⟩ := hpw
    refine visits_append T cs c (ih (fun d hd => hall d (List.mem_append_left _ hd)) hpw1)
      (hall c (by simp)) ?_
    rintro X ⟨d, hd, hXd⟩
    exact hcross d hd c (by simp) X hXd

theorem domIndexOf_setDomIndex (g : MIRGraph) (b n X : Nat) :
    domIndexOf (setDomIndex g b n) X =
      if b = X ∧ X < g.blocks.length then n else domIndexOf g X := by
  unfold domIndexOf
  rw [block_setDomIndex]
  cases hX : g.block X with
  | none =>
    have : ¬ X < g.blocks.length := by
      intro hlt
      simp [MIRGraph.block, List.getElem?_eq_getElem hlt] at hX
    simp [this]
  | some blk =>
    have : X < g.blocks.length := (List.getElem?_eq_some.mp hX).1
    by_cases hP : b = X <;> simp [hP, this]

theorem linksEq_length {g g' : MIRGraph} (h : LinksEq g g') :
    g'.blocks.length = g.blocks.length :=
  coreEq_length (linksEq_coreEq h)

theorem visits_block (T : MIRGraph) (hT : DomTree T) (A : Nat) (hA : A < T.blocks.length)
    (hch : Visits T (childrenOf T A)) : Visits T [A] := by
  intro g ws i hl
  have hAg : A < g.blocks.length := by rw [linksEq_length hl]; exact hA
  have hl0 : LinksEq T (setDomIndex g A i) := linksEq_trans hl (linksEq_setDomIndex g A i)
  obtain ⟨g', hN, hf⟩ := hch (setDomIndex g A i) ws (i + 1) hl0
  have hsize : subtreeSizes T (childrenOf T A) = numDominatedOf T A := (hT.size A hA).symm
  have hr := hN.range
  rw [hsize] at hf hr
  have hnotin : ¬ InSubtrees T (childrenOf T A) A := by
    rintro ⟨c, hc, hAc⟩
    have h1 := domTree_chain_le hT hAc
    have h2 := (domTree_child_lt hT hc).1
    omega
  have hA' : domIndexOf g' A = i := by
    rw [hN.outside A hnotin, domIndexOf_setDomIndex, if_pos ⟨rfl, hAg⟩]
  refine ⟨g', ⟨linksEq_trans (linksEq_setDomIndex g A i) hN.links, ?_, ?_, ?_, ?_⟩, ?_⟩
  · intro X hX
    rw [inSubtrees_singleton, domTree_sub_iff hT] at hX
    push_neg at hX
    rw [hN.outside X hX.2, domIndexOf_setDomIndex, if_neg]
    rintro ⟨h, _⟩
    exact hX.1 h.symm
  · intro X hX
    rw [subtreeSizes_singleton]
    rw [inSubtrees_singleton, domTree_sub_iff hT] at hX
    rcases hX with rfl | hX
    · rw [hA']; omega
    · have := hr X hX
      omega
  · intro X Y hX hY
    rw [inSubtrees_singleton] at hX hY
    have hY' := hY
    rw [domTree_sub_iff hT] at hX hY
    rcases hX with rfl | hX
    · rw [hA']
      constructor
      · intro _
        rcases hY with rfl | hY
        · rw [hA']; omega
        · have := hr Y hY
          omega
      · intro _; exact hY'
    · rcases hY with rfl | hY
      · rw [hA']
        have h1 := hr X hX
        constructor
        · intro hYX
          obtain ⟨c, hc, hXc⟩ := hX
          exact absurd ⟨c, hc, idomChain_trans hYX hXc⟩ hnotin
        · intro h; omega
      · exact hN.interval X Y hX hY
  · intro j hj1 hj2
    rw [subtreeSizes_singleton] at hj2
    by_cases hj : j = i
    · exact ⟨A, (inSubtrees_singleton T A A).mpr (idomChain_refl T A), by rw [hA', hj]⟩
    · obtain ⟨X, hX, hXj⟩ := hN.onto j (by omega) (by rw [hsize]; omega)
      refine ⟨X, ?_, hXj⟩
      rw [inSubtrees_singleton, domTree_sub_iff hT]
      exact Or.inr hX
  · intro fuel
    rw [subtreeSizes_singleton]
    have e1 : fuel + (numDominatedOf T A + 1) = (fuel + numDominatedOf T A) + 1 := by omega
    have e2 : i + (numDominatedOf T A + 1) = i + 1 + numDominatedOf T A := by omega
    rw [e1, e2, assignDomIndex_snoc]
    have hchild : childrenOf g A = childrenOf T A := linksEq_childrenOf hl A
    unfold childrenOf at hchild
    cases hb : g.block A with
    | none =>
      simp [MIRGraph.block, List.getElem?_eq_getElem hAg] at hb
    | some blk =>
      simp only [hb] at hchild
      simp only []
      rw [hchild]
      exact hf fuel

theorem visits_all (T : MIRGraph) (hT : DomTree T) :
    ∀ (m A : Nat), T.blocks.length - A ≤ m → A < T.blocks.length → Visits T [A] := by
  intro m
  induction m with
  | zero => intro A h1 h2; omega
  | succ m ih =>
    intro A _ hA
    refine visits_block T hT A hA (visits_list T _ ?_ ?_)
    · intro c hc
      have := domTree_child_lt hT hc
      exact ih c (by omega) this.2
    · have hnd := hT.children_nodup A
      refine List.Pairwise.imp_of_mem ?_ hnd
      intro c c' hc hc' hne X h1 h2
      exact hne (domTree_children_disjoint hT hc hc' h1 h2)

theorem childrenEmpty_spec (g g1 : MIRGraph) (h : childrenEmpty g = true)
    (hann : ∀ i, (g1.block i).map MBasicBlock.annotations =
      (g.block i).map MBasicBlock.annotations) :
    ∀ b, childrenOf g1 b = [] := by
  intro b
  have := hann b
  unfold childrenOf
  cases h1 : g1.block b with
  | none => rfl
  | some blk1 =>
    cases h2 : g.block b with
    | none => simp [h1, h2] at this
    | some blk =>
      simp only [h1, h2, Option.map_some', Option.some.injEq, MBasicBlock.annotations,
        Prod.mk.injEq] at this
      unfold childrenEmpty at h
      rw [List.all_eq_true] at h
      have := h blk (List.getElem?_mem h2)
      simp only [decide_eq_true_eq] at this
      simp only [*]

theorem childrenOf_of_ge (g : MIRGraph) (X : Nat) (h : g.blocks.length ≤ X) :
    childrenOf g X = [] := by
  unfold childrenOf MIRGraph.block
  rw [List.getElem?_eq_none h]

theorem domTree_of_linkInv (g1 g2 : MIRGraph)
    (hall : ∀ b, b < g1.blocks.length → ∃ d, idomOf g1 b = some d)
    (hlt : ∀ b d, idomOf g1 b = some d → d ≠ b → d < b)
    (hempty : ∀ b, childrenOf g1 b = [])
    (hinv : LinkInv g1 g2 0) : DomTree g2 := by
  obtain ⟨hce, hX⟩ := hinv
  have hlen : g2.blocks.length = g1.blocks.length := coreEq_length hce
  have hchildren : ∀ X, X < g1.blocks.length →
      (childrenOf g2 X).Nodup ∧
        (∀ c, c ∈ childrenOf g2 X ↔ idomOf g1 c = some X ∧ c ≠ X) ∧
        numDominatedOf g2 X =
          ((childrenOf g2 X).map (fun c => numDominatedOf g2 c + 1)).sum := by
    intro X hXn
    obtain ⟨_, L, hL, hnd, hmem, hsum⟩ := hX X hXn
    rw [hempty, List.nil_append] at hL
    rw [hL]
    refine ⟨hnd, ?_, hsum⟩
    intro c
    rw [hmem]
    simp
  refine ⟨?_, ?_, ?_, ?_, ?_⟩
  · intro b hb
    rw [coreEq_idomOf hce]
    exact hall b (hlen ▸ hb)
  · intro b d hbd hne
    rw [coreEq_idomOf hce] at hbd
    exact hlt b d hbd hne
  · intro X
    rcases Nat.lt_or_ge X g1.blocks.length with h | h
    · exact (hchildren X h).1
    · rw [childrenOf_of_ge g2 X (hlen ▸ h)]; exact List.nodup_nil
  · intro X c
    rw [coreEq_idomOf hce]
    rcases Nat.lt_or_ge X g1.blocks.length with h | h
    · exact (hchildren X h).2.1 c
    · rw [childrenOf_of_ge g2 X (hlen ▸ h)]
      simp only [List.not_mem_nil, false_iff, not_and, not_not]
      intro hc
      by_contra hne
      have h1 := hlt c X hc (fun hh => hne hh.symm)
      have h2 := idomOf_lt_length hc
      omega
  · intro X hXn
    exact (hchildren X (hlen ▸ hXn)).2.2

theorem mem_selfDominating (g : MIRGraph) (r : Nat) :
    r ∈ selfDominating g ↔ idomOf g r = some r := by
  unfold selfDominating idomOf
  rw [List.mem_filter, List.mem_range]
  cases hb : g.block r with
  | none => simp
  | some blk =>
    have : r < g.blocks.length := (List.getElem?_eq_some.mp hb).1
    simp [this]

theorem domTree_reaches_root {T : MIRGraph} (hT : DomTree T) :
    ∀ X, X < T.blocks.length → InSubtrees T (selfDominating T) X := by
  intro X
  induction X using Nat.strong_induction_on with
  | _ X ih =>
    intro hX
    obtain ⟨d, hd⟩ := hT.total X hX
    by_cases hdX : d = X
    · subst hdX
      exact ⟨d, (mem_selfDominating T d).mpr hd, idomChain_refl T d⟩
    · have hlt := hT.lt X d hd hdX
      obtain ⟨r, hr, hdr⟩ := ih d hlt (lt_trans hlt hX)
      exact ⟨r, hr, idomChain_trans (idomChain_step hd) hdr⟩

theorem inSubtrees_lt_length {T : MIRGraph} {cs : List Nat} {X : Nat}
    (hcs : ∀ c ∈ cs, c < T.blocks.length) (h : InSubtrees T cs X) : X < T.blocks.length := by
  obtain ⟨c, hc, hXc⟩ := h
  rcases Relation.ReflTransGen.cases_head hXc with rfl | ⟨d, hd, _⟩
  · exact hcs _ hc
  · exact idomOf_lt_length hd

theorem assignDomIndex_nil (fuel : Nat) (g : MIRGraph) (i : Nat) :
    assignDomIndex fuel g [] i = some g := by
  cases fuel <;> simp [assignDomIndex]

/-- The pre-order numbering loop, started on the self-dominating blocks of a
graph with dominator tree, numbers all blocks. -/
theorem assignDomIndex_numbered (fuel : Nat) (T g' : MIRGraph) (hT : DomTree T)
    (h : assignDomIndex fuel T (selfDominating T) 0 = some g') :
    Numbered T T g' (selfDominating T) 0 := by
  have hroots : ∀ r ∈ selfDominating T, r < T.blocks.length := by
    intro r hr
    exact idomOf_lt_length ((mem_selfDominating T r).mp hr)
  have hv : Visits T (selfDominating T) := by
    refine visits_list T _ ?_ ?_
    · intro r hr
      exact visits_all T hT _ r (le_refl _) (hroots r hr)
    · have hnd : (selfDominating T).Nodup := by
        unfold selfDominating
        exact List.Nodup.filter _ (List.nodup_range _)
      refine List.Pairwise.imp_of_mem ?_ hnd
      intro r r' hr hr' hne X h1 h2
      exact hne (domTree_roots_disjoint ((mem_selfDominating T r).mp hr)
        ((mem_selfDominating T r').mp hr') h1 h2)
  obtain ⟨gF, hN, hf⟩ := hv T [] 0 (linksEq_refl T)
  have h1 := assignDomIndex_mono fuel T g' _ 0 (subtreeSizes T (selfDominating T)) h
  have h2 := hf fuel
  rw [List.nil_append, assignDomIndex_nil] at h2
  rw [h2] at h1
  cases h1
  exact hN

theorem numbered_all (T g' : MIRGraph) (hT : DomTree T)
    (hN : Numbered T T g' (selfDominating T) 0) :
    (∀ A, A < T.blocks.length → domIndexOf g' A < T.blocks.length) ∧
      (∀ A B, A < T.blocks.length → B < T.blocks.length →
        domIndexOf g' A = domIndexOf g' B → A = B) ∧
      (∀ j, j < T.blocks.length → ∃ A, A < T.blocks.length ∧ domIndexOf g' A = j) ∧
      ∀ A B, A < T.blocks.length → B < T.blocks.length →
        (IdomChain T B A ↔
          domIndexOf g' A ≤ domIndexOf g' B ∧
            domIndexOf g' B ≤ domIndexOf g' A + numDominatedOf T A) := by
  have hin := domTree_reaches_root hT
  have hroots : ∀ r ∈ selfDominating T, r < T.blocks.length := by
    intro r hr
    exact idomOf_lt_length ((mem_selfDominating T r).mp hr)
  have hinj : ∀ A B, A < T.blocks.length → B < T.blocks.length →
      domIndexOf g' A = domIndexOf g' B → A = B := by
    intro A B hA hB hAB
    have h1 := (hN.interval A B (hin A hA) (hin B hB)).mpr (by omega)
    have h2 := (hN.interval B A (hin B hB) (hin A hA)).mpr (by omega)
    exact (domTree_chain_antisymm hT h1 h2).symm
  have hsize : subtreeSizes T (selfDominating T) = T.blocks.length := by
    have himg : (Finset.range T.blocks.length).image (domIndexOf g') =
        Finset.range (subtreeSizes T (selfDominating T)) := by
      ext j
      rw [Finset.mem_image, Finset.mem_range]
      constructor
      · rintro ⟨A, hA, rfl⟩
        have := (hN.range A (hin A (Finset.mem_range.mp hA))).2
        omega
      · intro hj
        obtain ⟨X, hX, hXj⟩ := hN.onto j (Nat.zero_le _) (by omega)
        exact ⟨X, Finset.mem_range.mpr (inSubtrees_lt_length hroots hX), hXj⟩
    have hcard := Finset.card_image_of_injOn (s := Finset.range T.blocks.length)
      (f := domIndexOf g') (by
        intro A hA B hB hAB
        exact hinj A B (Finset.mem_range.mp hA) (Finset.mem_range.mp hB) hAB)
    rw [himg, Finset.card_range, Finset.card_range] at hcard
    exact hcard
  refine ⟨?_, hinj, ?_, ?_⟩
  · intro A hA
    have := (hN.range A (hin A hA)).2
    omega
  · intro j hj
    obtain ⟨X, hX, hXj⟩ := hN.onto j (Nat.zero_le _) (by omega)
    exact ⟨X, inSubtrees_lt_length hroots hX, hXj⟩
  · intro A B hA hB
    exact hN.interval A B (hin A hA) (hin B hB)

/-- C2: after `BuildDominatorTree` on a graph as the pass receives it, with
distinct block ids, with `numDominated = 0` and no immediately dominated block
recorded yet, and with the block list in reverse postorder, so that every
block other than the start block and the OSR entry has an earlier predecessor,
`domIndex` is a bijection from the blocks onto `[0, numBlocks)`, and `B` is in
the dominator subtree of `A` exactly when
`domIndex(A) ≤ domIndex(B) ≤ domIndex(A) + numDominated(A)`. -/
theorem BuildDominatorTree_domIndex_preorder (fuel : Nat) (g g' : MIRGraph)
    (hids : (g.blocks.map MBasicBlock.id).Nodup)
    (hpred : hasEarlierPredecessor g = true)
    (hzero : numDominatedZero g = true) (hempty : childrenEmpty g = true)
    (hrun : BuildDominatorTree fuel g = some g') :
    (∀ A, A < g'.numBlocks → domIndexOf g' A < g'.numBlocks) ∧
      (∀ A B, A < g'.numBlocks → B < g'.numBlocks →
        domIndexOf g' A = domIndexOf g' B → A = B) ∧
      (∀ j, j < g'.numBlocks → ∃ A, A < g'.numBlocks ∧ domIndexOf g' A = j) ∧
      ∀ A B, A < g'.numBlocks → B < g'.numBlocks →
        (IdomChain g' B A ↔
          domIndexOf g' A ≤ domIndexOf g' B ∧
            domIndexOf g' B ≤ domIndexOf g' A + numDominatedOf g' A) := by
  obtain ⟨g1, g2, h1, h2, h3⟩ := BuildDominatorTree_stages fuel g g' hrun
  obtain ⟨_, hann, hall, hlt⟩ := ComputeImmediateDominators_tree fuel g g1 hids hpred h1
  have hinv := linkChildren_inv g1 hlt g1.blocks.length g1 g2
    (linkInv_init g1 (numDominatedZero_spec g g1 hzero hann)) h2
  have hT : DomTree g2 :=
    domTree_of_linkInv g1 g2 hall hlt (childrenEmpty_spec g g1 hempty hann) hinv
  have hN := assignDomIndex_numbered fuel g2 g' hT h3
  have hlen : g'.blocks.length = g2.blocks.length := linksEq_length hN.links
  obtain ⟨ha, hb, hc, hd⟩ := numbered_all g2 g' hT hN
  unfold MIRGraph.numBlocks
  rw [hlen]
  refine ⟨ha, hb, hc, ?_⟩
  intro A B hA hB
  rw [coreEq_idomChain (linksEq_coreEq hN.links), linksEq_numDominatedOf hN.links]
  exact hd A B hA hB

theorem BuildDominatorTree_domIndex_preorder_witness :
    (loopGraph.blocks.map MBasicBlock.id).Nodup ∧ hasEarlierPredecessor loopGraph = true ∧
      numDominatedZero loopGraph = true ∧ childrenEmpty loopGraph = true ∧
      BuildDominatorTree 4 loopGraph = some loopGraphTree ∧
      ((∀ A, A < loopGraphTree.numBlocks → domIndexOf loopGraphTree A < loopGraphTree.numBlocks) ∧
      (∀ A B, A < loopGraphTree.numBlocks → B < loopGraphTree.numBlocks →
        domIndexOf loopGraphTree A = domIndexOf loopGraphTree B → A = B) ∧
      (∀ j, j < loopGraphTree.numBlocks →
        ∃ A, A < loopGraphTree.numBlocks ∧ domIndexOf loopGraphTree A = j) ∧
      ∀ A B, A < loopGraphTree.numBlocks → B < loopGraphTree.numBlocks →
        (IdomChain loopGraphTree B A ↔
          domIndexOf loopGraphTree A ≤ domIndexOf loopGraphTree B ∧
            domIndexOf loopGraphTree B ≤
              domIndexOf loopGraphTree A + numDominatedOf loopGraphTree A)) :=
  ⟨by decide, by decide, by decide, by decide, by decide,
    BuildDominatorTree_domIndex_preorder 4 loopGraph loopGraphTree (by decide) (by decide)
      (by decide) (by decide) (by decide)⟩

/-! ## TryEliminateBoundsCheck -/

theorem boundsCheckRange_setBoundsCheckRange (g : MIRGraph) (check : Nat) (lo hi : Int)
    (h : (g.definition check).isSome = true) :
    boundsCheckRange (setBoundsCheckRange g check lo hi) check = some (lo, hi) := by
  unfold boundsCheckRange setBoundsCheckRange MIRGraph.definition at *
  simp only [List.getElem?_modify]
  cases hd : g.defs[check]? with
  | none => simp [hd] at h
  | some d => simp

theorem SafeAdd_eq {a b c : Int} (h : SafeAdd a b = some c) : c = a + b := by
  unfold SafeAdd at h
  split_ifs at h
  exact (Option.some.inj h).symm

theorem SafeSub_eq {a b c : Int} (h : SafeSub a b = some c) : c = a - b := by
  unfold SafeSub at h
  split_ifs at h
  exact (Option.some.inj h).symm

/-- C5: when `TryEliminateBoundsCheck` finds the dominated check `B`
redundant and no `int32` operation overflows (it returns `true` with
`eliminated` set), the new range `[newMin, newMax]` of the dominating check `A`
satisfies `cA + newMin = min (cA + minA) (cB + minB)` and `cA + newMax = max
(cA + maxA) (cB + maxB)`, where `cA` and `cB` are the constants of the two
index sums, which have the same term; so every offset from the term that
either check tested lies in the new range; and for `cB = cA + 3` with both
ranges `[0, 0]` the new range is `[0, 3]`. -/
theorem TryEliminateBoundsCheck_widens (g g' : MIRGraph) (A B : Nat)
    (h : TryEliminateBoundsCheck g A B = some (true, true, g')) :
    ∃ indexA indexB sumA sumB minA maxA minB maxB newMin newMax,
      boundsCheckIndex g A = some indexA ∧ boundsCheckIndex g B = some indexB ∧
      boundsCheckLength g A = boundsCheckLength g B ∧
      ExtractLinearSum g.sumFuel g indexA = some sumA ∧
      ExtractLinearSum g.sumFuel g indexB = some sumB ∧ sumA.term = sumB.term ∧
      boundsCheckRange g A = some (minA, maxA) ∧ boundsCheckRange g B = some (minB, maxB) ∧
      boundsCheckRange g' A = some (newMin, newMax) ∧
      sumA.constant + newMin = min (sumA.constant + minA) (sumB.constant + minB) ∧
      sumA.constant + newMax = max (sumA.constant + maxA) (sumB.constant + maxB) ∧
      (∀ k, minA ≤ k → k ≤ maxA → newMin ≤ k ∧ k ≤ newMax) ∧
      (∀ k, minB ≤ k → k ≤ maxB →
        sumA.constant + newMin ≤ sumB.constant + k ∧
          sumB.constant + k ≤ sumA.constant + newMax) ∧
      (sumB.constant = sumA.constant + 3 → minA = 0 → maxA = 0 → minB = 0 → maxB = 0 →
        newMin = 0 ∧ newMax = 3) := by
  unfold TryEliminateBoundsCheck at h
  cases hlA : boundsCheckLength g A with
  | none => simp [hlA] at h
  | some lengthA =>
  cases hlB : boundsCheckLength g B with
  | none => simp [hlA, hlB] at h
  | some lengthB =>
  cases hiA : boundsCheckIndex g A with
  | none => simp [hlA, hlB, hiA] at h
  | some indexA =>
  cases hiB : boundsCheckIndex g B with
  | none => simp [hlA, hlB, hiA, hiB] at h
  | some indexB =>
  cases hrA : boundsCheckRange g A with
  | none => simp [hlA, hlB, hiA, hiB, hrA] at h
  | some rA =>
  cases hrB : boundsCheckRange g B with
  | none => simp [hlA, hlB, hiA, hiB, hrA, hrB] at h
  | some rB =>
  obtain ⟨minA, maxA⟩ := rA
  obtain ⟨minB, maxB⟩ := rB
  simp only [hlA, hlB, hiA, hiB, hrA, hrB] at h
  by_cases hlen : lengthA ≠ lengthB
  · rw [if_pos hlen] at h; simp at h
  · rw [if_neg hlen] at h
    cases hsA : ExtractLinearSum g.sumFuel g indexA with
    | none => simp [hsA] at h
    | some sumA =>
    cases hsB : ExtractLinearSum g.sumFuel g indexB with
    | none => simp [hsA, hsB] at h
    | some sumB =>
    simp only [hsA, hsB] at h
    by_cases hterm : sumA.term ≠ sumB.term
    · rw [if_pos hterm] at h; simp at h
    · rw [if_neg hterm] at h
      cases h1 : SafeAdd sumA.constant minA with
      | none => simp [h1] at h
      | some minimumA =>
      cases h2 : SafeAdd sumA.constant maxA with
      | none => simp [h1, h2] at h
      | some maximumA =>
      cases h3 : SafeAdd sumB.constant minB with
      | none => simp [h1, h2, h3] at h
      | some minimumB =>
      cases h4 : SafeAdd sumB.constant maxB with
      | none => simp [h1, h2, h3, h4] at h
      | some maximumB =>
      simp only [h1, h2, h3, h4] at h
      cases h5 : SafeSub (min minimumA minimumB) sumA.constant with
      | none => simp [h5] at h
      | some newMin =>
      cases h6 : SafeSub (max maximumA maximumB) sumA.constant with
      | none => simp [h5, h6] at h
      | some newMax =>
      simp only [h5, h6, Option.some.injEq, Prod.mk.injEq, true_and] at h
      subst h
      have e1 := SafeAdd_eq h1
      have e2 := SafeAdd_eq h2
      have e3 := SafeAdd_eq h3
      have e4 := SafeAdd_eq h4
      have e5 := SafeSub_eq h5
      have e6 := SafeSub_eq h6
      subst e1 e2 e3 e4
      have hA : (g.definition A).isSome = true := by
        unfold boundsCheckRange at hrA
        cases hd : g.definition A with
        | none => simp [hd] at hrA
        | some d => rfl
      have hmin : sumA.constant + newMin =
          min (sumA.constant + minA) (sumB.constant + minB) := by omega
      have hmax : sumA.constant + newMax =
          max (sumA.constant + maxA) (sumB.constant + maxB) := by omega
      refine ⟨indexA, indexB, sumA, sumB, minA, maxA, minB, maxB, newMin, newMax, rfl, rfl,
        ?_, hsA, hsB, not_not.mp hterm, rfl, rfl,
        boundsCheckRange_setBoundsCheckRange g A newMin newMax hA, hmin, hmax, ?_, ?_, ?_⟩
      · rw [not_not.mp hlen]
      · intro k hk1 hk2
        have := min_le_left (sumA.constant + minA) (sumB.constant + minB)
        have := le_max_left (sumA.constant + maxA) (sumB.constant + maxB)
        omega
      · intro k hk1 hk2
        have := min_le_right (sumA.constant + minA) (sumB.constant + minB)
        have := le_max_right (sumA.constant + maxA) (sumB.constant + maxB)
        omega
      · intro hc ha1 ha2 hb1 hb2
        subst ha1 ha2 hb1 hb2
        rw [hc] at hmin hmax
        simp only [add_zero] at hmin hmax
        rw [min_eq_left (by omega)] at hmin
        rw [max_eq_right (by omega)] at hmax
        omega

theorem TryEliminateBoundsCheck_widens_witness :
    TryEliminateBoundsCheck twoChecksGraph 4 5 = some (true, true, twoChecksWidened) ∧
    ∃ indexA indexB sumA sumB minA maxA minB maxB newMin newMax,
      boundsCheckIndex twoChecksGraph 4 = some indexA ∧
      boundsCheckIndex twoChecksGraph 5 = some indexB ∧
      boundsCheckLength twoChecksGraph 4 = boundsCheckLength twoChecksGraph 5 ∧
      ExtractLinearSum twoChecksGraph.sumFuel twoChecksGraph indexA = some sumA ∧
      ExtractLinearSum twoChecksGraph.sumFuel twoChecksGraph indexB = some sumB ∧
      sumA.term = sumB.term ∧
      boundsCheckRange twoChecksGraph 4 = some (minA, maxA) ∧
      boundsCheckRange twoChecksGraph 5 = some (minB, maxB) ∧
      boundsCheckRange twoChecksWidened 4 = some (newMin, newMax) ∧
      sumA.constant + newMin = min (sumA.constant + minA) (sumB.constant + minB) ∧
      sumA.constant + newMax = max (sumA.constant + maxA) (sumB.constant + maxB) ∧
      (∀ k, minA ≤ k → k ≤ maxA → newMin ≤ k ∧ k ≤ newMax) ∧
      (∀ k, minB ≤ k → k ≤ maxB →
        sumA.constant + newMin ≤ sumB.constant + k ∧
          sumB.constant + k ≤ sumA.constant + newMax) ∧
      (sumB.constant = sumA.constant + 3 → minA = 0 → maxA = 0 → minB = 0 → maxB = 0 →
        newMin = 0 ∧ newMax = 3) :=
  ⟨by decide, TryEliminateBoundsCheck_widens twoChecksGraph twoChecksWidened 4 5 (by decide)⟩

/-! ## The traversal order of the dominator tree is a pre-order -/

theorem popOrder_snoc (T : MIRGraph) (fuel : Nat) (ws : List Nat) (A : Nat) :
    popOrder T (fuel + 1) (ws ++ [A]) =
      match T.block A with
      | none => none
      | some blk =>
        match popOrder T fuel (ws ++ blk.immediatelyDominated) with
        | none => none
        | some rest => some (A :: rest) := by
  cases h : ws ++ [A] with
  | nil => simp at h
  | cons w rest =>
    simp only [popOrder]
    have h1 : (w :: rest).getLast (List.cons_ne_nil w rest) = A := by
      simp only [← h]
      simp
    have h2 : (w :: rest).dropLast = ws := by
      rw [← h]
      simp
    rw [h1, h2]

theorem pops_nil (T : MIRGraph) : Pops T [] := by
  refine ⟨[], ⟨?_, by simp [subtreeSizes], ?_, ?_⟩, ?_⟩
  · intro X
    simp [InSubtrees]
  · intro p X h; simp at h
  · intro p q X Y h; simp at h
  · intro fuel ws
    simp only [subtreeSizes, List.map_nil, List.sum_nil, add_zero, List.append_nil,
      List.nil_append]
    cases popOrder T fuel ws <;> rfl

theorem getElem?_append_cases {α : Type} (L1 L2 : List α) (p : Nat) (x : α)
    (h : (L1 ++ L2)[p]? = some x) :
    (p < L1.length ∧ L1[p]? = some x) ∨ (L1.length ≤ p ∧ L2[p - L1.length]? = some x) := by
  rcases Nat.lt_or_ge p L1.length with hlt | hge
  · left
    rw [List.getElem?_append_left hlt] at h
    exact ⟨hlt, h⟩
  · right
    rw [List.getElem?_append_right hge] at h
    exact ⟨hge, h⟩

theorem pops_append (T : MIRGraph) (cs : List Nat) (c : Nat)
    (hcs : Pops T cs) (hc : Pops T [c])
    (hdisj : ∀ X, InSubtrees T cs X → ¬ IdomChain T X c) : Pops T (cs ++ [c]) := by
  obtain ⟨L1, hO1, hf1⟩ := hc
  obtain ⟨L2, hO2, hf2⟩ := hcs
  have hlen1 := hO1.length
  rw [subtreeSizes_singleton] at hlen1 hf1
  have hin1 : ∀ (p X : Nat), L1[p]? = some X → IdomChain T X c := by
    intro p X h
    exact (inSubtrees_singleton T c X).mp ((hO1.mem X).mp (List.getElem?_mem h))
  have hin2 : ∀ (p X : Nat), L2[p]? = some X → InSubtrees T cs X := by
    intro p X h
    exact (hO2.mem X).mp (List.getElem?_mem h)
  refine ⟨L1 ++ L2, ⟨?_, ?_, ?_, ?_⟩, ?_⟩
  · intro X
    rw [List.mem_append, hO1.mem, hO2.mem, inSubtrees_append, inSubtrees_singleton]
    exact Or.comm
  · rw [List.length_append, hlen1, hO2.length, subtreeSizes_append]
    omega
  · intro p X h
    rw [List.length_append]
    rcases getElem?_append_cases L1 L2 p X h with ⟨_, h1⟩ | ⟨hge, h2⟩
    · have := hO1.range p X h1
      omega
    · have := hO2.range _ X h2
      omega
  · intro p q X Y hp hq
    rcases getElem?_append_cases L1 L2 p X hp with ⟨hp1, hpX⟩ | ⟨hp2, hpX⟩
    · rcases getElem?_append_cases L1 L2 q Y hq with ⟨hq1, hqY⟩ | ⟨hq2, hqY⟩
      · exact hO1.interval p q X Y hpX hqY
      · have hr := hO1.range p X hpX
        constructor
        · intro hYX
          exact absurd (idomChain_trans hYX (hin1 p X hpX)) (hdisj Y (hin2 _ Y hqY))
        · intro h; omega
    · rcases getElem?_append_cases L1 L2 q Y hq with ⟨hq1, hqY⟩ | ⟨hq2, hqY⟩
      · constructor
        · intro hYX
          obtain ⟨d, hd, hXd⟩ := hin2 _ X hpX
          exact absurd (hin1 q Y hqY) (hdisj Y ⟨d, hd, idomChain_trans hYX hXd⟩)
        · intro h; omega
      · rw [hO2.interval _ _ X Y hpX hqY]
        omega
  · intro fuel ws
    rw [subtreeSizes_append]
    have e1 : fuel + (subtreeSizes T cs + (numDominatedOf T c + 1)) =
        (fuel + subtreeSizes T cs) + (numDominatedOf T c + 1) := by omega
    rw [e1, ← List.append_assoc, hf1, hf2]
    cases popOrder T fuel ws with
    | none => rfl
    | some rest => simp

theorem pops_list (T : MIRGraph) :
    ∀ cs : List Nat, (∀ c ∈ cs, Pops T [c]) →
      cs.Pairwise (fun c c' => ∀ X, IdomChain T X c → ¬ IdomChain T X c') → Pops T cs := by
  intro cs
  induction cs using List.reverseRecOn with
  | nil => intro _ _; exact pops_nil T
  | append_singleton cs c ih =>
    intro hall hpw
    rw [List.pairwise_append] at hpw
    obtain ⟨hpw1, _, hcross⟩ := hpw
    refine pops_append T cs c (ih (fun d hd => hall d (List.mem_append_left _ hd)) hpw1)
      (hall c (by simp)) ?_
    rintro X ⟨d, hd, hXd⟩
    exact hcross d hd c (by simp) X hXd

theorem pops_block (T : MIRGraph) (hT : DomTree T) (A : Nat) (hA : A < T.blocks.length)
    (hch : Pops T (childrenOf T A)) : Pops T [A] := by
  obtain ⟨L, hO, hf⟩ := hch
  have hsize : subtreeSizes T (childrenOf T A) = numDominatedOf T A := (hT.size A hA).symm
  have hlen := hO.length
  rw [hsize] at hf hlen
  have hnotin : ¬ InSubtrees T (childrenOf T A) A := by
    rintro ⟨c, hc, hAc⟩
    have h1 := domTree_chain_le hT hAc
    have h2 := (domTree_child_lt hT hc).1
    omega
  refine ⟨A :: L, ⟨?_, ?_, ?_, ?_⟩, ?_⟩
  · intro X
    rw [List.mem_cons, hO.mem, inSubtrees_singleton, domTree_sub_iff hT]
  · rw [List.length_cons, hlen, subtreeSizes_singleton]
  · intro p X h
    rw [List.length_cons]
    cases p with
    | zero =>
      simp only [List.getElem?_cons_zero, Option.some.injEq] at h
      subst h
      omega
    | succ p =>
      rw [List.getElem?_cons_succ] at h
      have := hO.range p X h
      omega
  · intro p q X Y hp hq
    have hYin : IdomChain T Y A := by
      have : Y ∈ A :: L := List.getElem?_mem hq
      rw [List.mem_cons, hO.mem] at this
      exact (domTree_sub_iff hT A Y).mpr this
    have hqlt : q < (A :: L).length := by
      by_contra hge
      rw [List.getElem?_eq_none (not_lt.mp hge)] at hq
      cases hq
    rw [List.length_cons, hlen] at hqlt
    cases p with
    | zero =>
      simp only [List.getElem?_cons_zero, Option.some.injEq] at hp
      subst hp
      constructor
      · intro _; omega
      · intro _; exact hYin
    | succ p =>
      rw [List.getElem?_cons_succ] at hp
      have hXin : InSubtrees T (childrenOf T A) X := (hO.mem X).mp (List.getElem?_mem hp)
      cases q with
      | zero =>
        simp only [List.getElem?_cons_zero, Option.some.injEq] at hq
        subst hq
        constructor
        · intro hYX
          obtain ⟨c, hc, hXc⟩ := hXin
          exact absurd ⟨c, hc, idomChain_trans hYX hXc⟩ hnotin
        · intro h; omega
      | succ q =>
        rw [List.getElem?_cons_succ] at hq
        rw [hO.interval p q X Y hp hq]
        omega
  · intro fuel ws
    rw [subtreeSizes_singleton]
    have e1 : fuel + (numDominatedOf T A + 1) = (fuel + numDominatedOf T A) + 1 := by omega
    rw [e1, popOrder_snoc]
    have hchild : childrenOf T A = childrenOf T A := rfl
    unfold childrenOf at hchild hf
    cases hb : T.block A with
    | none =>
      simp [MIRGraph.block, List.getElem?_eq_getElem hA] at hb
    | some blk =>
      simp only [hb] at hf ⊢
      rw [hf]
      cases popOrder T fuel ws with
      | none => rfl
      | some rest => simp

theorem pops_all (T : MIRGraph) (hT : DomTree T) :
    ∀ (m A : Nat), T.blocks.length - A ≤ m → A < T.blocks.length → Pops T [A] := by
  intro m
  induction m with
  | zero => intro A h1 h2; omega
  | succ m ih =>
    intro A _ hA
    refine pops_block T hT A hA (pops_list T _ ?_ ?_)
    · intro c hc
      have := domTree_child_lt hT hc
      exact ih c (by omega) this.2
    · have hnd := hT.children_nodup A
      refine List.Pairwise.imp_of_mem ?_ hnd
      intro c c' hc hc' hne X h1 h2
      exact hne (domTree_children_disjoint hT hc hc' h1 h2)

/-- The worklist loops, started on the self-dominating blocks of a graph with
dominator tree, pop all blocks in a pre-order of the tree. -/
theorem popOrder_preOrdered (T : MIRGraph) (hT : DomTree T) :
    ∃ L, PreOrdered T (selfDominating T) L ∧ L.length = T.blocks.length ∧
      (∀ X, X < T.blocks.length → X ∈ L) ∧
      ∀ fuel, popOrder T (fuel + L.length) (selfDominating T) = some L := by
  have hroots : ∀ r ∈ selfDominating T, r < T.blocks.length := by
    intro r hr
    exact idomOf_lt_length ((mem_selfDominating T r).mp hr)
  have hv : Pops T (selfDominating T) := by
    refine pops_list T _ ?_ ?_
    · intro r hr
      exact pops_all T hT _ r (le_refl _) (hroots r hr)
    · have hnd : (selfDominating T).Nodup := by
        unfold selfDominating
        exact List.Nodup.filter _ (List.nodup_range _)
      refine List.Pairwise.imp_of_mem ?_ hnd
      intro r r' hr hr' hne X h1 h2
      exact hne (domTree_roots_disjoint ((mem_selfDominating T r).mp hr)
        ((mem_selfDominating T r').mp hr') h1 h2)
  obtain ⟨L, hO, hf⟩ := hv
  have hmem : ∀ X, X < T.blocks.length → X ∈ L :=
    fun X hX => (hO.mem X).mpr (domTree_reaches_root hT X hX)
  have hnodup : L.Nodup := by
    rw [List.nodup_iff_getElem?_ne_getElem?]
    intro p q hpq hq heq
    have hp : p < L.length := lt_trans hpq hq
    have h1 : L[p]? = some L[p] := List.getElem?_eq_getElem hp
    have h2 : L[q]? = some L[p] := by rw [← heq]; exact h1
    have := (hO.interval q p L[p] L[p] h2 h1).mp (idomChain_refl T _)
    omega
  have hlen : L.length = T.blocks.length := by
    have hsub : L.toFinset = Finset.range T.blocks.length := by
      ext X
      rw [List.mem_toFinset, Finset.mem_range]
      constructor
      · intro hX
        exact inSubtrees_lt_length hroots ((hO.mem X).mp hX)
      · exact hmem X
    have := List.toFinset_card_of_nodup hnodup
    rw [hsub, Finset.card_range] at this
    exact this.symm
  refine ⟨L, hO, hlen, hmem, ?_⟩
  intro fuel
  have := hf fuel []
  rw [List.nil_append, ← hO.length] at this
  rw [this]
  cases fuel <;> simp [popOrder]

/-! ## What EliminateRedundantBoundsChecks leaves alone -/

theorem domTreeOK_spec (g : MIRGraph) (h : domTreeOK g = true) : DomTree g := by
  unfold domTreeOK at h
  rw [List.all_eq_true] at h
  have hX : ∀ X, X < g.blocks.length →
      (∃ d, idomOf g X = some d ∧ (d = X ∨ d < X)) ∧ (childrenOf g X).Nodup ∧
      (∀ c ∈ childrenOf g X, idomOf g c = some X ∧ c ≠ X) ∧
      (∀ c, c < g.blocks.length → idomOf g c = some X → c ≠ X → c ∈ childrenOf g X) ∧
      numDominatedOf g X = ((childrenOf g X).map (fun c => numDominatedOf g c + 1)).sum := by
    intro X hXn
    have := h X (List.mem_range.mpr hXn)
    simp only [Bool.and_eq_true, decide_eq_true_eq, List.all_eq_true, List.mem_range] at this
    obtain ⟨⟨⟨⟨h1, h2⟩, h3⟩, h4⟩, h5⟩ := this
    refine ⟨?_, h2, h3, fun c hc h6 h7 => h4 c hc ⟨h6, h7⟩, h5⟩
    cases hi : idomOf g X with
    | none => simp [hi] at h1
    | some d =>
      simp only [hi, decide_eq_true_eq] at h1
      exact ⟨d, rfl, h1⟩
  refine ⟨?_, ?_, ?_, ?_, ?_⟩
  · intro b hb
    obtain ⟨⟨d, hd, _⟩, _⟩ := hX b hb
    exact ⟨d, hd⟩
  · intro b d hbd hne
    obtain ⟨⟨d', hd', hcase⟩, _⟩ := hX b (idomOf_lt_length hbd)
    rw [hbd] at hd'
    cases hd'
    rcases hcase with h | h
    · exact absurd h hne
    · exact h
  · intro X
    rcases Nat.lt_or_ge X g.blocks.length with hlt | hge
    · exact (hX X hlt).2.1
    · rw [childrenOf_of_ge g X hge]; exact List.nodup_nil
  · intro X c
    rcases Nat.lt_or_ge X g.blocks.length with hlt | hge
    · constructor
      · exact (hX X hlt).2.2.1 c
      · rintro ⟨h1, h2⟩
        exact (hX X hlt).2.2.2.1 c (idomOf_lt_length h1) h1 h2
    · rw [childrenOf_of_ge g X hge]
      simp only [List.not_mem_nil, false_iff, not_and, not_not]
      intro hc
      obtain ⟨⟨d', hd', hcase⟩, _⟩ := hX c (idomOf_lt_length hc)
      rw [hc] at hd'
      cases hd'
      have := idomOf_lt_length hc
      rcases hcase with h | h
      · exact h.symm
      · omega
  · intro X hXn
    exact (hX X hXn).2.2.2.2

theorem boundsFrame_refl (T : MIRGraph) : BoundsFrame T T :=
  ⟨fun _ => rfl, fun _ _ h => h, fun _ => rfl⟩

theorem boundsFrame_trans {T g g' : MIRGraph} (h1 : BoundsFrame T g)
    (h2 : ∀ i, (g'.block i).map MBasicBlock.annotated = (g.block i).map MBasicBlock.annotated)
    (h3 : ∀ i d, d ∈ definitionsOf g' i → d ∈ definitionsOf g i)
    (h4 : ∀ d, (g'.definition d).map MDefinition.stable =
      (g.definition d).map MDefinition.stable) : BoundsFrame T g' :=
  ⟨fun i => (h2 i).trans (h1.blocks i), fun i d h => h1.lists i d (h3 i d h),
    fun d => (h4 d).trans (h1.defs d)⟩

theorem definition_replaceAllUsesWith (g : MIRGraph) (d r x : Nat) :
    (replaceAllUsesWith g d r).definition x =
      (g.definition x).map fun y =>
        if g.inGraph x then
          { y with operands := y.operands.map fun o => if o = d then r else o }
        else y := by
  simp only [replaceAllUsesWith, MIRGraph.definition, List.getElem?_map, List.getElem?_enum]
  cases g.defs[x]? <;> rfl

theorem definition_setBoundsCheckRange (g : MIRGraph) (c x : Nat) (lo hi : Int) :
    (setBoundsCheckRange g c lo hi).definition x =
      (g.definition x).map fun y =>
        if c = x then { y with op := Opcode.BoundsCheck lo hi } else y := by
  simp [setBoundsCheckRange, MIRGraph.definition, List.getElem?_modify]

theorem block_discardDef (g : MIRGraph) (b d i : Nat) :
    (discardDef g b d).block i =
      (g.block i).map fun blk =>
        if b = i then
          { blk with phis := blk.phis.erase d, instructions := blk.instructions.erase d }
        else blk := by
  simp [discardDef, MIRGraph.block, List.getElem?_modify]

theorem boundsFrame_replaceAllUsesWith {T g : MIRGraph} (h : BoundsFrame T g) (d r : Nat) :
    BoundsFrame T (replaceAllUsesWith g d r) := by
  refine boundsFrame_trans h (fun _ => rfl) (fun _ _ hh => hh) ?_
  intro x
  rw [definition_replaceAllUsesWith]
  cases g.definition x with
  | none => rfl
  | some y => cases g.inGraph x <;> simp [MDefinition.stable, MDefinition.isBoundsCheck]

theorem boundsFrame_setBoundsCheckRange {T g : MIRGraph} (h : BoundsFrame T g) (c : Nat)
    (lo hi : Int) (hc : ∀ y, g.definition c = some y → y.isBoundsCheck = true) :
    BoundsFrame T (setBoundsCheckRange g c lo hi) := by
  refine boundsFrame_trans h (fun _ => rfl) (fun _ _ hh => hh) ?_
  intro x
  rw [definition_setBoundsCheckRange]
  cases hx : g.definition x with
  | none => rfl
  | some y =>
    by_cases hcx : c = x
    · subst hcx
      have := hc y hx
      simp [MDefinition.stable, MDefinition.isBoundsCheck] at this ⊢
      cases hop : y.op <;> simp [hop] at this ⊢
    · simp [hcx]

theorem mem_definitionsOf_discardDef (g : MIRGraph) (b d i x : Nat) :
    x ∈ definitionsOf (discardDef g b d) i → x ∈ definitionsOf g i := by
  unfold definitionsOf
  rw [block_discardDef]
  cases g.block i with
  | none => simp
  | some blk =>
    by_cases hb : b = i
    · simp only [hb, Option.map_some', if_true, List.mem_append]
      rintro (h | h)
      · exact Or.inl (List.mem_of_mem_erase h)
      · exact Or.inr (List.mem_of_mem_erase h)
    · simp [hb]

theorem mem_definitionsOf_discardDef_of_ne (g : MIRGraph) (b d i x : Nat) (hne : x ≠ d) :
    x ∈ definitionsOf g i → x ∈ definitionsOf (discardDef g b d) i := by
  unfold definitionsOf
  rw [block_discardDef]
  cases g.block i with
  | none => simp
  | some blk =>
    by_cases hb : b = i
    · simp only [hb, Option.map_some', if_true, List.mem_append]
      rintro (h | h)
      · exact Or.inl ((List.mem_erase_of_ne hne).mpr h)
      · exact Or.inr ((List.mem_erase_of_ne hne).mpr h)
    · simp [hb]

theorem boundsFrame_discardDef {T g : MIRGraph} (h : BoundsFrame T g) (b d : Nat) :
    BoundsFrame T (discardDef g b d) := by
  refine boundsFrame_trans h ?_ (fun i x => mem_definitionsOf_discardDef g b d i x)
    (fun _ => rfl)
  intro i
  rw [block_discardDef]
  cases g.block i with
  | none => rfl
  | some blk =>
    by_cases hb : b = i <;>
      simp [hb, MBasicBlock.annotated, MBasicBlock.links, MBasicBlock.core, MBasicBlock.shape]

theorem TryEliminateBoundsCheck_cases (g g2 : MIRGraph) (A B : Nat) (ok el : Bool)
    (h : TryEliminateBoundsCheck g A B = some (ok, el, g2)) :
    ∃ lengthA lengthB indexA indexB,
      boundsCheckLength g A = some lengthA ∧ boundsCheckLength g B = some lengthB ∧
      boundsCheckIndex g A = some indexA ∧ boundsCheckIndex g B = some indexB ∧
      ((lengthA ≠ lengthB ∧ ok = true ∧ el = false ∧ g2 = g) ∨
        (lengthA = lengthB ∧ ∃ sumA sumB,
          ExtractLinearSum g.sumFuel g indexA = some sumA ∧
          ExtractLinearSum g.sumFuel g indexB = some sumB ∧
          ((sumA.term ≠ sumB.term ∧ ok = true ∧ el = false ∧ g2 = g) ∨
            (sumA.term = sumB.term ∧ el = true ∧
              ((ok = false ∧ g2 = g) ∨
                (ok = true ∧ ∃ lo hi, g2 = setBoundsCheckRange g A lo hi)))))) := by
  unfold TryEliminateBoundsCheck at h
  cases hlA : boundsCheckLength g A with
  | none => simp [hlA] at h
  | some lengthA =>
  cases hlB : boundsCheckLength g B with
  | none => simp [hlA, hlB] at h
  | some lengthB =>
  cases hiA : boundsCheckIndex g A with
  | none => simp [hlA, hlB, hiA] at h
  | some indexA =>
  cases hiB : boundsCheckIndex g B with
  | none => simp [hlA, hlB, hiA, hiB] at h
  | some indexB =>
  cases hrA : boundsCheckRange g A with
  | none => simp [hlA, hlB, hiA, hiB, hrA] at h
  | some rA =>
  cases hrB : boundsCheckRange g B with
  | none => simp [hlA, hlB, hiA, hiB, hrA, hrB] at h
  | some rB =>
  obtain ⟨minA, maxA⟩ := rA
  obtain ⟨minB, maxB⟩ := rB
  simp only [hlA, hlB, hiA, hiB, hrA, hrB] at h
  refine ⟨lengthA, lengthB, indexA, indexB, rfl, rfl, rfl, rfl, ?_⟩
  by_cases hlen : lengthA ≠ lengthB
  · rw [if_pos hlen] at h
    simp only [Option.some.injEq, Prod.mk.injEq] at h
    exact Or.inl ⟨hlen, h.1.symm, h.2.1.symm, h.2.2.symm⟩
  · rw [if_neg hlen] at h
    right
    refine ⟨not_not.mp hlen, ?_⟩
    cases hsA : ExtractLinearSum g.sumFuel g indexA with
    | none => simp [hsA] at h
    | some sumA =>
    cases hsB : ExtractLinearSum g.sumFuel g indexB with
    | none => simp [hsA, hsB] at h
    | some sumB =>
    simp only [hsA, hsB] at h
    refine ⟨sumA, sumB, rfl, rfl, ?_⟩
    by_cases hterm : sumA.term ≠ sumB.term
    · rw [if_pos hterm] at h
      simp only [Option.some.injEq, Prod.mk.injEq] at h
      exact Or.inl ⟨hterm, h.1.symm, h.2.1.symm, h.2.2.symm⟩
    · rw [if_neg hterm] at h
      right
      refine ⟨not_not.mp hterm, ?_⟩
      cases h1 : SafeAdd sumA.constant minA <;> cases h2 : SafeAdd sumA.constant maxA <;>
        cases h3 : SafeAdd sumB.constant minB <;> cases h4 : SafeAdd sumB.constant maxB <;>
        simp only [h1, h2, h3, h4, Option.some.injEq, Prod.mk.injEq] at h
      all_goals first
        | exact ⟨h.2.1.symm, Or.inl ⟨h.1.symm, h.2.2.symm⟩⟩
        | skip
      rename_i minimumA maximumA minimumB maximumB
      cases h5 : SafeSub (min minimumA minimumB) sumA.constant <;>
        cases h6 : SafeSub (max maximumA maximumB) sumA.constant <;>
        simp only [h5, h6, Option.some.injEq, Prod.mk.injEq] at h
      all_goals first
        | exact ⟨h.2.1.symm, Or.inl ⟨h.1.symm, h.2.2.symm⟩⟩
        | exact ⟨h.2.1.symm, Or.inr ⟨h.1.symm, _, _, h.2.2.symm⟩⟩

theorem boundsCheckIndex_isBoundsCheck {g : MIRGraph} {c i : Nat}
    (h : boundsCheckIndex g c = some i) :
    ∃ y, g.definition c = some y ∧ y.isBoundsCheck = true ∧ y.operands[0]? = some i := by
  unfold boundsCheckIndex at h
  cases hd : g.definition c with
  | none => simp [hd] at h
  | some y =>
    simp only [hd] at h
    by_cases hb : y.isBoundsCheck = true
    · rw [if_pos hb] at h; exact ⟨y, rfl, hb, h⟩
    · rw [if_neg hb] at h; cases h

theorem TryEliminateBoundsCheck_frame {T g g2 : MIRGraph} (A B : Nat) (ok el : Bool)
    (hf : BoundsFrame T g) (h : TryEliminateBoundsCheck g A B = some (ok, el, g2)) :
    BoundsFrame T g2 := by
  obtain ⟨_, _, iA, _, _, _, hiA, _, hcase⟩ := TryEliminateBoundsCheck_cases g g2 A B ok el h
  obtain ⟨y, hy, hyb, _⟩ := boundsCheckIndex_isBoundsCheck hiA
  have hset : ∀ lo hi, BoundsFrame T (setBoundsCheckRange g A lo hi) := by
    intro lo hi
    refine boundsFrame_setBoundsCheckRange hf A lo hi ?_
    intro y' hy'
    rw [hy] at hy'
    cases hy'
    exact hyb
  rcases hcase with ⟨_, _, _, rfl⟩ | ⟨_, _, _, _, _, hc⟩
  · exact hf
  · rcases hc with ⟨_, _, _, rfl⟩ | ⟨_, _, ⟨_, rfl⟩ | ⟨_, lo, hi, rfl⟩⟩
    · exact hf
    · exact hf
    · exact hset lo hi

theorem lookup_mem {checks : BoundsCheckMap} {hash : Nat} {info : BoundsCheckInfo}
    (h : checks.lookup hash = some info) : (hash, info) ∈ checks := by
  unfold BoundsCheckMap.lookup at h
  cases hf : List.find? (fun e => e.1 == hash) checks with
  | none => simp [hf] at h
  | some e =>
    simp only [hf, Option.some.injEq] at h
    have h1 := List.find?_some hf
    have h2 := List.mem_of_find?_eq_some hf
    simp only [beq_iff_eq] at h1
    obtain ⟨k, i⟩ := e
    simp only at h h1
    subst h h1
    exact h2

theorem mem_put {checks : BoundsCheckMap} {hash : Nat} {info : BoundsCheckInfo}
    {e : Nat × BoundsCheckInfo} (h : e ∈ checks.put hash info) :
    e = (hash, info) ∨ e ∈ checks := by
  unfold BoundsCheckMap.put at h
  rcases List.mem_cons.mp h with h | h
  · exact Or.inl h
  · exact Or.inr (List.mem_filter.mp h).1

theorem FindDominatingBoundsCheck_cases (addr : Nat → Nat) (g : MIRGraph)
    (checks checks' : BoundsCheckMap) (check index dom : Nat)
    (h : FindDominatingBoundsCheck addr g checks check index = some (dom, checks')) :
    ∃ hash d, BoundsCheckHashIgnoreOffset addr g check = some hash ∧
      g.definition check = some d ∧
      ((∃ info, checks.lookup hash = some info ∧ index ≤ info.validUntil ∧
          dom = info.check ∧ checks' = checks) ∨
        (∃ blk, g.block d.block = some blk ∧ dom = check ∧
          checks' = checks.put hash ⟨check, (index + blk.numDominated) % 2 ^ 32⟩)) := by
  unfold FindDominatingBoundsCheck at h
  cases hh : BoundsCheckHashIgnoreOffset addr g check with
  | none => simp [hh] at h
  | some hash =>
    cases hd : g.definition check with
    | none => simp [hh, hd] at h
    | some d =>
      simp only [hh, hd] at h
      refine ⟨hash, d, rfl, rfl, ?_⟩
      have hmiss : (match g.block d.block with
          | none => none
          | some blk =>
            some (check, checks.put hash ⟨check, (index + blk.numDominated) % 2 ^ 32⟩)) =
            some (dom, checks') →
          ∃ blk, g.block d.block = some blk ∧ dom = check ∧
            checks' = checks.put hash ⟨check, (index + blk.numDominated) % 2 ^ 32⟩ := by
        intro hm
        cases hb : g.block d.block with
        | none => simp [hb] at hm
        | some blk =>
          simp only [hb, Option.some.injEq, Prod.mk.injEq] at hm
          exact ⟨blk, rfl, hm.1.symm, hm.2.symm⟩
      cases hl : checks.lookup hash with
      | none =>
        simp only [hl] at h
        exact Or.inr (hmiss h)
      | some info =>
        simp only [hl] at h
        by_cases hv : index > info.validUntil
        · simp only [hv, if_true] at h
          exact Or.inr (hmiss h)
        · simp only [hv, if_false, Option.some.injEq, Prod.mk.injEq] at h
          exact Or.inl ⟨info, rfl, not_lt.mp hv, h.1.symm, h.2.symm⟩

theorem visitDefinition_cases (addr : Nat → Nat) (index : Nat) (s s' : BoundsCheckState)
    (d : Nat) (ok : Bool) (h : visitDefinition addr index s d = some (ok, s')) :
    ∃ def_, s.graph.definition d = some def_ ∧
      ((def_.isBoundsCheck = false ∧ ok = true ∧ s' = s) ∨
        (def_.isBoundsCheck = true ∧ ∃ idx, boundsCheckIndex s.graph d = some idx ∧
          ((def_.movable = false ∧ ok = true ∧
              s' = { s with graph := replaceAllUsesWith s.graph d idx }) ∨
            (def_.movable = true ∧ ∃ dominating checks,
              FindDominatingBoundsCheck addr (replaceAllUsesWith s.graph d idx) s.checks d
                index = some (dominating, checks) ∧
              ((dominating = d ∧ ok = true ∧
                  s' = { s with graph := replaceAllUsesWith s.graph d idx, checks := checks,
                                visited := d :: s.visited }) ∨
                (dominating ≠ d ∧ ∃ ok' el g2,
                  TryEliminateBoundsCheck (replaceAllUsesWith s.graph d idx) dominating d =
                    some (ok', el, g2) ∧
                  ((ok' = false ∧ ok = false ∧
                      s' = { s with graph := g2, checks := checks,
                                    visited := d :: s.visited }) ∨
                    (ok' = true ∧ el = true ∧ ok = true ∧
                      s' = { s with graph := discardDef g2 def_.block d, checks := checks,
                                    visited := d :: s.visited,
                                    eliminations :=
                                      ⟨dominating, d, index, replaceAllUsesWith s.graph d idx,
                                        s.visited⟩ :: s.eliminations }) ∨
                    (ok' = true ∧ el = false ∧ ok = true ∧
                      s' = { s with graph := g2, checks := checks,
                                    visited := d :: s.visited })))))))) := by
  unfold visitDefinition at h
  cases hd : s.graph.definition d with
  | none => simp [hd] at h
  | some def_ =>
    simp only [hd] at h
    refine ⟨def_, rfl, ?_⟩
    cases hbc : def_.isBoundsCheck with
    | false =>
      simp only [hbc, Bool.not_false, if_true, Option.some.injEq, Prod.mk.injEq] at h
      exact Or.inl ⟨rfl, h.1.symm, h.2.symm⟩
    | true =>
      simp only [hbc, Bool.not_true, Bool.false_eq_true, if_false] at h
      right
      refine ⟨rfl, ?_⟩
      cases hi : boundsCheckIndex s.graph d with
      | none => simp [hi] at h
      | some idx =>
        simp only [hi] at h
        refine ⟨idx, rfl, ?_⟩
        cases hm : def_.movable with
        | false =>
          simp only [hm, Bool.not_false, if_true, Option.some.injEq, Prod.mk.injEq] at h
          exact Or.inl ⟨rfl, h.1.symm, h.2.symm⟩
        | true =>
          simp only [hm, Bool.not_true, Bool.false_eq_true, if_false] at h
          right
          refine ⟨rfl, ?_⟩
          cases hF : FindDominatingBoundsCheck addr (replaceAllUsesWith s.graph d idx)
              s.checks d index with
          | none => simp [hF] at h
          | some r =>
            obtain ⟨dominating, checks⟩ := r
            simp only [hF] at h
            refine ⟨dominating, checks, rfl, ?_⟩
            by_cases hdd : dominating = d
            · simp only [hdd, if_true, Option.some.injEq, Prod.mk.injEq] at h
              exact Or.inl ⟨hdd, h.1.symm, h.2.symm⟩
            · simp only [hdd, if_false] at h
              right
              refine ⟨hdd, ?_⟩
              cases hT : TryEliminateBoundsCheck (replaceAllUsesWith s.graph d idx)
                  dominating d with
              | none => simp [hT] at h
              | some r =>
                obtain ⟨ok', el, g2⟩ := r
                refine ⟨ok', el, g2, rfl, ?_⟩
                cases ok' <;> cases el <;>
                  simp only [hT, Option.some.injEq, Prod.mk.injEq] at h
                · exact Or.inl ⟨rfl, h.1.symm, h.2.symm⟩
                · exact Or.inl ⟨rfl, h.1.symm, h.2.symm⟩
                · exact Or.inr (Or.inr ⟨rfl, rfl, h.1.symm, h.2.symm⟩)
                · exact Or.inr (Or.inl ⟨rfl, rfl, h.1.symm, h.2.symm⟩)

theorem boundsFrame_coreEq {T g : MIRGraph} (h : BoundsFrame T g) : CoreEq T g := by
  intro i
  have := h.blocks i
  cases h1 : g.block i <;> cases h2 : T.block i <;>
    simp [h1, h2, MBasicBlock.annotated, MBasicBlock.links] at this ⊢
  exact this.1.1

theorem boundsFrame_linksEq {T g : MIRGraph} (h : BoundsFrame T g) : LinksEq T g := by
  intro i
  have := h.blocks i
  cases h1 : g.block i <;> cases h2 : T.block i <;>
    simp [h1, h2, MBasicBlock.annotated] at this ⊢
  exact this.1

theorem block_replaceAllUsesWith (g : MIRGraph) (d r i : Nat) :
    (replaceAllUsesWith g d r).block i = g.block i := rfl

theorem block_setBoundsCheckRange (g : MIRGraph) (c i : Nat) (lo hi : Int) :
    (setBoundsCheckRange g c lo hi).block i = g.block i := rfl

theorem definitionsOf_replaceAllUsesWith (g : MIRGraph) (d r i : Nat) :
    definitionsOf (replaceAllUsesWith g d r) i = definitionsOf g i := rfl

theorem TryEliminateBoundsCheck_definitionsOf {g g2 : MIRGraph} (A B : Nat) (ok el : Bool)
    (h : TryEliminateBoundsCheck g A B = some (ok, el, g2)) (i : Nat) :
    definitionsOf g2 i = definitionsOf g i := by
  obtain ⟨_, _, _, _, _, _, _, _, hcase⟩ := TryEliminateBoundsCheck_cases g g2 A B ok el h
  rcases hcase with ⟨_, _, _, rfl⟩ | ⟨_, _, _, _, _, hc⟩
  · rfl
  · rcases hc with ⟨_, _, _, rfl⟩ | ⟨_, _, ⟨_, rfl⟩ | ⟨_, lo, hi, rfl⟩⟩ <;> rfl

theorem visitDefinition_frame (addr : Nat → Nat) (T : MIRGraph) (index : Nat)
    (s s' : BoundsCheckState) (d : Nat) (ok : Bool) (hf : BoundsFrame T s.graph)
    (h : visitDefinition addr index s d = some (ok, s')) : BoundsFrame T s'.graph := by
  obtain ⟨def_, _, hcase⟩ := visitDefinition_cases addr index s s' d ok h
  rcases hcase with ⟨_, _, rfl⟩ | ⟨_, idx, _, hcase⟩
  · exact hf
  · have hf1 := boundsFrame_replaceAllUsesWith hf d idx
    rcases hcase with ⟨_, _, rfl⟩ | ⟨_, dominating, checks, _, hcase⟩
    · exact hf1
    · rcases hcase with ⟨_, _, rfl⟩ | ⟨_, ok', el, g2, hT, hcase⟩
      · exact hf1
      · have hf2 := TryEliminateBoundsCheck_frame dominating d ok' el hf1 hT
        rcases hcase with ⟨_, _, rfl⟩ | ⟨_, _, _, rfl⟩ | ⟨_, _, _, rfl⟩
        · exact hf2
        · exact boundsFrame_discardDef hf2 _ _
        · exact hf2

theorem blocksConsistent_spec (g : MIRGraph) (h : blocksConsistent g = true) :
    ∀ i d, d ∈ definitionsOf g i → ∃ y, g.definition d = some y ∧ y.block = i := by
  intro i d hd
  unfold definitionsOf at hd
  cases hb : g.block i with
  | none => simp [hb] at hd
  | some blk =>
    simp only [hb] at hd
    unfold blocksConsistent at h
    rw [List.all_eq_true] at h
    have hmem : (i, blk) ∈ g.blocks.enum := by
      rw [List.mem_enum_iff_getElem?]
      exact hb
    have h2 := h _ hmem
    simp only [List.all_eq_true] at h2
    have h3 := h2 d hd
    cases hy : g.definition d with
    | none => simp [hy] at h3
    | some y =>
      simp only [hy, decide_eq_true_eq] at h3
      exact ⟨y, rfl, h3⟩

theorem boundsFrame_definition {T g : MIRGraph} (h : BoundsFrame T g) {d : Nat}
    {y : MDefinition} (hy : g.definition d = some y) :
    ∃ yT, T.definition d = some yT ∧ yT.isBoundsCheck = y.isBoundsCheck ∧
      yT.movable = y.movable ∧ yT.block = y.block := by
  have := h.defs d
  rw [hy] at this
  cases hT : T.definition d with
  | none => simp [hT] at this
  | some yT =>
    simp only [hT, Option.map_some', Option.some.injEq, MDefinition.stable,
      Prod.mk.injEq] at this
    exact ⟨yT, rfl, this.1.symm, this.2.1.symm, this.2.2.symm⟩

theorem boundsFrame_definition_inv {T g : MIRGraph} (h : BoundsFrame T g) {d : Nat}
    {yT : MDefinition} (hy : T.definition d = some yT) :
    ∃ y, g.definition d = some y ∧ y.isBoundsCheck = yT.isBoundsCheck ∧
      y.movable = yT.movable ∧ y.block = yT.block := by
  have := h.defs d
  rw [hy] at this
  cases hg : g.definition d with
  | none => simp [hg] at this
  | some y =>
    simp only [hg, Option.map_some', Option.some.injEq, MDefinition.stable,
      Prod.mk.injEq] at this
    exact ⟨y, rfl, this.1, this.2.1, this.2.2⟩

theorem tableInv_visited {T : MIRGraph} {L : List Nat} {q : Nat} {s : BoundsCheckState}
    (h : TableInv T L q s) (g : MIRGraph) (d : Nat) (el : List Elimination) :
    TableInv T L q { s with graph := g, visited := d :: s.visited, eliminations := el } := by
  intro key info hmem
  obtain ⟨h1, h2⟩ := h key info hmem
  exact ⟨List.mem_cons_of_mem _ h1, h2⟩

theorem visitDefinition_inv (addr : Nat → Nat) (T : MIRGraph) (L : List Nat) (q b : Nat)
    (s s' : BoundsCheckState) (d : Nat) (ok : Bool)
    (hint : ∀ (p q X Y : Nat), L[p]? = some X → L[q]? = some Y →
      (IdomChain T Y X ↔ p ≤ q ∧ q ≤ p + numDominatedOf T X))
    (hcons : ∀ i d, d ∈ definitionsOf T i → ∃ y, T.definition d = some y ∧ y.block = i)
    (hq : L[q]? = some b) (hd : d ∈ definitionsOf T b)
    (hinv : BoundsInv T L q s)
    (h : visitDefinition addr q s d = some (ok, s')) : BoundsInv T L q s' := by
  have hframe' := visitDefinition_frame addr T q s s' d ok hinv.frame h
  obtain ⟨def_, hdef, hcase⟩ := visitDefinition_cases addr q s s' d ok h
  obtain ⟨yT, hyT, hyTblock⟩ := hcons b d hd
  obtain ⟨yT', hyT', hbc, hmov, hblock⟩ := boundsFrame_definition hinv.frame hdef
  rw [hyT] at hyT'
  cases hyT'
  rcases hcase with ⟨_, _, rfl⟩ | ⟨hisbc, idx, hidx, hcase⟩
  · exact hinv
  · have hf1 := boundsFrame_replaceAllUsesWith hinv.frame d idx
    rcases hcase with ⟨_, _, rfl⟩ | ⟨hismov, dominating, checks, hF, hcase⟩
    · exact ⟨hframe', hinv.table, hinv.good, hinv.discarded⟩
    · obtain ⟨hash, d1, _, hd1, hFc⟩ := FindDominatingBoundsCheck_cases addr _ _ _ _ _ _ hF
      have hd1' : d1.block = b := by
        obtain ⟨yT', hyT', _, _, hb'⟩ := boundsFrame_definition hf1 hd1
        rw [hyT] at hyT'
        cases hyT'
        rw [← hb', hyTblock]
      -- the table after the lookup
      have htable : TableInv T L q
          { s with graph := s.graph, checks := checks, visited := d :: s.visited } := by
        rcases hFc with ⟨info, _, _, _, rfl⟩ | ⟨blk, hblk, _, rfl⟩
        · exact tableInv_visited hinv.table s.graph d s.eliminations
        · intro key info hmem
          rcases mem_put hmem with heq | hold
          · simp only [Prod.mk.injEq] at heq
            obtain ⟨_, rfl⟩ := heq
            refine ⟨List.mem_cons_self _ _, yT, q, hyT, ?_, ?_, le_refl _, ?_, ?_⟩
            · rw [hbc]; exact hisbc
            · rw [hmov]; exact hismov
            · rw [hyTblock]; exact hq
            · have hnd : blk.numDominated = numDominatedOf T yT.block := by
                rw [hyTblock, ← linksEq_numDominatedOf (boundsFrame_linksEq hf1) b]
                rw [hd1'] at hblk
                simp [numDominatedOf, hblk]
              simp only
              rw [← hnd]
              exact Nat.mod_le _ _
          · obtain ⟨h1, h2⟩ := hinv.table key info hold
            exact ⟨List.mem_cons_of_mem _ h1, h2⟩
      rcases hcase with ⟨_, _, rfl⟩ | ⟨hne, ok', el, g2, hT, hcase⟩
      · exact ⟨hframe', htable, hinv.good, hinv.discarded⟩
      · -- the dominating check came out of the table
        have hhit : ∃ info, (hash, info) ∈ s.checks ∧ q ≤ info.validUntil ∧
            dominating = info.check := by
          rcases hFc with ⟨info, hl, hv, hdom, _⟩ | ⟨_, _, hdom, _⟩
          · exact ⟨info, lookup_mem hl, hv, hdom⟩
          · exact absurd hdom hne
        obtain ⟨info, hinfo, hvalid, rfl⟩ := hhit
        obtain ⟨hvis, dT, p, hdT, hdTbc, hdTmov, hpq, hLp, hvu⟩ := hinv.table hash info hinfo
        have hdefs2 : ∀ i, definitionsOf g2 i = definitionsOf s.graph i := fun i =>
          TryEliminateBoundsCheck_definitionsOf info.check d ok' el hT i
        obtain ⟨lA, lB, iA, iB, hlA, hlB, hiA, hiB, hTc⟩ :=
          TryEliminateBoundsCheck_cases _ g2 info.check d ok' el hT
        rcases hcase with ⟨_, _, rfl⟩ | ⟨_, hel, _, rfl⟩ | ⟨_, _, _, rfl⟩
        · exact ⟨hframe', htable, hinv.good,
            fun C i hC hnot => hinv.discarded C i hC (by rw [← hdefs2 i]; exact hnot)⟩
        · refine ⟨hframe', htable, ?_, ?_⟩
          · intro e he
            rcases List.mem_cons.mp he with rfl | he
            · obtain ⟨dA, hdA, hdAbc, hdAmov, hdAblock⟩ := boundsFrame_definition_inv hf1 hdT
              obtain ⟨dB, hdB, _, _, hdBblock⟩ := boundsFrame_definition_inv hf1 hyT
              have hsame : lA = lB ∧ ∃ sumA sumB,
                  ExtractLinearSum (replaceAllUsesWith s.graph d idx).sumFuel
                    (replaceAllUsesWith s.graph d idx) iA = some sumA ∧
                  ExtractLinearSum (replaceAllUsesWith s.graph d idx).sumFuel
                    (replaceAllUsesWith s.graph d idx) iB = some sumB ∧
                  sumA.term = sumB.term := by
                rcases hTc with ⟨_, _, hf, _⟩ | ⟨hl, sumA, sumB, hsA, hsB, hc⟩
                · rw [hel] at hf; cases hf
                · rcases hc with ⟨_, _, hf, _⟩ | ⟨ht, _⟩
                  · rw [hel] at hf; cases hf
                  · exact ⟨hl, sumA, sumB, hsA, hsB, ht⟩
              obtain ⟨hl, sumA, sumB, hsA, hsB, ht⟩ := hsame
              refine ⟨hvis, hne, ⟨dA, hdA, ?_, ?_⟩, ⟨lA, hlA, hl ▸ hlB⟩,
                ⟨iA, iB, sumA, sumB, hiA, hiB, hsA, hsB, ht⟩, ⟨dA, dB, hdA, hdB, ?_⟩⟩
              · rw [hdAbc]; exact hdTbc
              · rw [hdAmov]; exact hdTmov
              · rw [coreEq_idomChain (boundsFrame_coreEq hf1), hdAblock, hdBblock, hyTblock]
                exact (hint p q dT.block b hLp hq).mpr ⟨hpq, le_trans hvalid hvu⟩
            · exact hinv.good e he
          · intro C i hC hnot
            by_cases hCd : C = d
            · exact ⟨_, List.mem_cons_self _ _, hCd.symm⟩
            · have hnot2 : C ∉ definitionsOf s.graph i := by
                intro hin
                rw [← hdefs2 i] at hin
                exact hnot (mem_definitionsOf_discardDef_of_ne g2 _ d i C hCd hin)
              obtain ⟨e, he, hed⟩ := hinv.discarded C i hC hnot2
              exact ⟨e, List.mem_cons_of_mem _ he, hed⟩
        · exact ⟨hframe', htable, hinv.good,
            fun C i hC hnot => hinv.discarded C i hC (by rw [← hdefs2 i]; exact hnot)⟩

theorem visitDefinitions_frame (addr : Nat → Nat) (T : MIRGraph) (index : Nat) :
    ∀ (ds : List Nat) (s s' : BoundsCheckState) (ok : Bool), BoundsFrame T s.graph →
      visitDefinitions addr index ds s = some (ok, s') → BoundsFrame T s'.graph := by
  intro ds
  induction ds with
  | nil =>
    intro s s' ok hf h
    simp only [visitDefinitions, Option.some.injEq, Prod.mk.injEq] at h
    rw [← h.2]; exact hf
  | cons d ds ih =>
    intro s s' ok hf h
    unfold visitDefinitions at h
    cases hv : visitDefinition addr index s d with
    | none => simp [hv] at h
    | some r =>
      obtain ⟨ok1, s1⟩ := r
      have hf1 := visitDefinition_frame addr T index s s1 d ok1 hf hv
      cases ok1 with
      | false =>
        simp only [hv, Option.some.injEq, Prod.mk.injEq] at h
        rw [← h.2]; exact hf1
      | true =>
        simp only [hv] at h
        exact ih s1 s' ok hf1 h

theorem visitBlock_frame (addr : Nat → Nat) (T : MIRGraph) (index : Nat)
    (s s' : BoundsCheckState) (b : Nat) (ok : Bool) (hf : BoundsFrame T s.graph)
    (h : visitBlock addr index s b = some (ok, s')) : BoundsFrame T s'.graph := by
  unfold visitBlock at h
  cases hb : s.graph.block b with
  | none => simp [hb] at h
  | some blk =>
    simp only [hb] at h
    exact visitDefinitions_frame addr T index _ s s' ok hf h

theorem boundsCheckLoop_nil (addr : Nat → Nat) (fuel : Nat) (s : BoundsCheckState) (i : Nat) :
    boundsCheckLoop addr fuel s [] i = some (true, s) := by
  cases fuel <;> simp [boundsCheckLoop]

theorem boundsCheckLoop_eq_visitBlocks (addr : Nat → Nat) (T : MIRGraph) :
    ∀ (fuel : Nat) (s : BoundsCheckState) (ws : List Nat) (i : Nat) (L : List Nat),
      popOrder T fuel ws = some L → BoundsFrame T s.graph →
      boundsCheckLoop addr fuel s ws i = visitBlocks addr i L s := by
  intro fuel
  induction fuel with
  | zero =>
    intro s ws i L hp _
    cases ws with
    | nil =>
      simp only [popOrder, Option.some.injEq] at hp
      subst hp
      simp [boundsCheckLoop, visitBlocks]
    | cons w ws => simp [popOrder] at hp
  | succ n ih =>
    intro s ws i L hp hf
    cases ws with
    | nil =>
      simp only [popOrder, Option.some.injEq] at hp
      subst hp
      simp [boundsCheckLoop, visitBlocks]
    | cons w ws =>
      simp only [popOrder] at hp
      simp only [boundsCheckLoop]
      cases hbT : T.block ((w :: ws).getLast (List.cons_ne_nil w ws)) with
      | none => simp [hbT] at hp
      | some blkT =>
        simp only [hbT] at hp
        cases hrest : popOrder T n ((w :: ws).dropLast ++ blkT.immediatelyDominated) with
        | none => simp [hrest] at hp
        | some rest =>
          simp only [hrest, Option.some.injEq] at hp
          subst hp
          have hl := boundsFrame_linksEq hf ((w :: ws).getLast (List.cons_ne_nil w ws))
          cases hb : s.graph.block ((w :: ws).getLast (List.cons_ne_nil w ws)) with
          | none => simp [hb, hbT] at hl
          | some blk =>
            simp only [hb, hbT, Option.map_some', Option.some.injEq, MBasicBlock.links,
              Prod.mk.injEq] at hl
            simp only [visitBlocks]
            cases hv : visitBlock addr i s ((w :: ws).getLast (List.cons_ne_nil w ws)) with
            | none => rfl
            | some r =>
              obtain ⟨ok1, s1⟩ := r
              cases ok1 with
              | false => rfl
              | true =>
                simp only
                rw [hl.2.2]
                exact ih s1 _ (i + 1) rest hrest (visitBlock_frame addr T i s s1 _ true hf hv)

theorem boundsCheckLoop_mono (addr : Nat → Nat) :
    ∀ (fuel : Nat) (s : BoundsCheckState) (ws : List Nat) (i k : Nat)
      (r : Bool × BoundsCheckState),
      boundsCheckLoop addr fuel s ws i = some r →
      boundsCheckLoop addr (fuel + k) s ws i = some r := by
  intro fuel
  induction fuel with
  | zero =>
    intro s ws i k r h
    cases ws with
    | nil => rw [boundsCheckLoop_nil] at h ⊢; exact h
    | cons w ws => simp [boundsCheckLoop] at h
  | succ n ih =>
    intro s ws i k r h
    cases ws with
    | nil => rw [boundsCheckLoop_nil] at h ⊢; exact h
    | cons w ws =>
      have hk : n + 1 + k = (n + k) + 1 := by omega
      rw [hk]
      simp only [boundsCheckLoop] at h ⊢
      cases hb : s.graph.block ((w :: ws).getLast (List.cons_ne_nil w ws)) with
      | none => simp [hb] at h
      | some blk =>
        simp only [hb] at h ⊢
        cases hv : visitBlock addr i s ((w :: ws).getLast (List.cons_ne_nil w ws)) with
        | none => simp [hv] at h
        | some r1 =>
          obtain ⟨ok1, s1⟩ := r1
          cases ok1 with
          | false => simpa [hv] using h
          | true =>
            simp only [hv] at h ⊢
            exact ih s1 _ _ k r h

/-- The pass visits the blocks in a pre-order of the dominator tree, the
traversal counter being the position of the block. -/
theorem runBoundsChecks_visitBlocks (addr : Nat → Nat) (fuel : Nat) (g : MIRGraph)
    (r : Bool × BoundsCheckState) (hT : DomTree g)
    (h : runBoundsChecks addr fuel g = some r) :
    ∃ L, PreOrdered g (selfDominating g) L ∧ L.length = g.blocks.length ∧
      (∀ X, X < g.blocks.length → X ∈ L) ∧
      visitBlocks addr 0 L { graph := g, checks := [] } = some r := by
  obtain ⟨L, hO, hlen, hmem, hpop⟩ := popOrder_preOrdered g hT
  refine ⟨L, hO, hlen, hmem, ?_⟩
  unfold runBoundsChecks at h
  have h1 := boundsCheckLoop_mono addr fuel _ _ 0 L.length r h
  rw [boundsCheckLoop_eq_visitBlocks addr g (fuel + L.length) _ _ 0 L (hpop fuel)
    (boundsFrame_refl g)] at h1
  exact h1

theorem visitDefinitions_inv (addr : Nat → Nat) (T : MIRGraph) (L : List Nat) (q b : Nat)
    (hint : ∀ (p q X Y : Nat), L[p]? = some X → L[q]? = some Y →
      (IdomChain T Y X ↔ p ≤ q ∧ q ≤ p + numDominatedOf T X))
    (hcons : ∀ i d, d ∈ definitionsOf T i → ∃ y, T.definition d = some y ∧ y.block = i)
    (hq : L[q]? = some b) :
    ∀ (ds : List Nat) (s s' : BoundsCheckState) (ok : Bool),
      (∀ d ∈ ds, d ∈ definitionsOf T b) → BoundsInv T L q s →
      visitDefinitions addr q ds s = some (ok, s') → BoundsInv T L q s' := by
  intro ds
  induction ds with
  | nil =>
    intro s s' ok _ hinv h
    simp only [visitDefinitions, Option.some.injEq, Prod.mk.injEq] at h
    rw [← h.2]; exact hinv
  | cons d ds ih =>
    intro s s' ok hds hinv h
    unfold visitDefinitions at h
    cases hv : visitDefinition addr q s d with
    | none => simp [hv] at h
    | some r =>
      obtain ⟨ok1, s1⟩ := r
      have h1 := visitDefinition_inv addr T L q b s s1 d ok1 hint hcons hq
        (hds d (List.mem_cons_self _ _)) hinv hv
      cases ok1 with
      | false =>
        simp only [hv, Option.some.injEq, Prod.mk.injEq] at h
        rw [← h.2]; exact h1
      | true =>
        simp only [hv] at h
        exact ih s1 s' ok (fun x hx => hds x (List.mem_cons_of_mem _ hx)) h1 h

theorem boundsInv_succ {T : MIRGraph} {L : List Nat} {q : Nat} {s : BoundsCheckState}
    (h : BoundsInv T L q s) : BoundsInv T L (q + 1) s := by
  refine ⟨h.frame, ?_, h.good, h.discarded⟩
  intro key info hmem
  obtain ⟨h1, d, p, h2, h3, h4, h5, h6⟩ := h.table key info hmem
  exact ⟨h1, d, p, h2, h3, h4, Nat.le_succ_of_le h5, h6⟩

theorem visitBlocks_inv (addr : Nat → Nat) (T : MIRGraph) (L : List Nat)
    (hint : ∀ (p q X Y : Nat), L[p]? = some X → L[q]? = some Y →
      (IdomChain T Y X ↔ p ≤ q ∧ q ≤ p + numDominatedOf T X))
    (hcons : ∀ i d, d ∈ definitionsOf T i → ∃ y, T.definition d = some y ∧ y.block = i) :
    ∀ (bs : List Nat) (q : Nat) (s s' : BoundsCheckState) (ok : Bool),
      L.drop q = bs → BoundsInv T L q s →
      visitBlocks addr q bs s = some (ok, s') → ∃ q', BoundsInv T L q' s' := by
  intro bs
  induction bs with
  | nil =>
    intro q s s' ok _ hinv h
    simp only [visitBlocks, Option.some.injEq, Prod.mk.injEq] at h
    rw [← h.2]; exact ⟨q, hinv⟩
  | cons b bs ih =>
    intro q s s' ok hdrop hinv h
    have hq : L[q]? = some b := by
      have := congrArg (fun l => l[0]?) hdrop
      simpa [List.getElem?_drop] using this
    have hdrop' : L.drop (q + 1) = bs := by
      have := congrArg List.tail hdrop
      simpa [List.tail_drop] using this
    unfold visitBlocks at h
    cases hv : visitBlock addr q s b with
    | none => simp [hv] at h
    | some r =>
      obtain ⟨ok1, s1⟩ := r
      have h1 : BoundsInv T L q s1 := by
        unfold visitBlock at hv
        cases hb : s.graph.block b with
        | none => simp [hb] at hv
        | some blk =>
          simp only [hb] at hv
          refine visitDefinitions_inv addr T L q b hint hcons hq _ s s1 ok1 ?_ hinv hv
          intro d hd
          refine hinv.frame.lists b d ?_
          simp [definitionsOf, hb]
          simpa using hd
      cases ok1 with
      | false =>
        simp only [hv, Option.some.injEq, Prod.mk.injEq] at h
        rw [← h.2]; exact ⟨q, h1⟩
      | true =>
        simp only [hv] at h
        exact ih (q + 1) s1 s' ok hdrop' (boundsInv_succ h1) h

theorem mem_definitionsOf_of_inGraph (g : MIRGraph) (d : Nat) :
    g.inGraph d = true ↔ ∃ i, d ∈ definitionsOf g i := by
  unfold MIRGraph.inGraph
  rw [List.any_eq_true]
  constructor
  · rintro ⟨blk, hblk, hd⟩
    obtain ⟨i, hi, hget⟩ := List.getElem_of_mem hblk
    refine ⟨i, ?_⟩
    unfold definitionsOf MIRGraph.block
    rw [List.getElem?_eq_getElem hi, hget]
    simpa [List.mem_append] using hd
  · rintro ⟨i, hd⟩
    unfold definitionsOf at hd
    cases hb : g.block i with
    | none => simp [hb] at hd
    | some blk =>
      simp only [hb] at hd
      exact ⟨blk, List.getElem?_mem hb, by simpa [List.mem_append] using hd⟩

/-- C4: `EliminateRedundantBoundsChecks`, run on a graph with a consistent
dominator tree, discards a bounds check `C` only if, at that moment, an
earlier-visited movable bounds check `D` exists with the identical length
operand, an index with the identical linear-sum term, and a block that is the
block of `C` or dominates it.  Every definition that leaves the graph has such
a record, so checks that merely collide in the hash cause no discard. -/
theorem EliminateRedundantBoundsChecks_discards_dominated (addr : Nat → Nat) (fuel : Nat)
    (g : MIRGraph) (ok : Bool) (s' : BoundsCheckState)
    (htree : domTreeOK g = true) (hcons : blocksConsistent g = true)
    (hrun : runBoundsChecks addr fuel g = some (ok, s')) :
    EliminateRedundantBoundsChecks addr fuel g = some (ok, s'.graph) ∧
      (∀ C, g.inGraph C = true → s'.graph.inGraph C = false →
        ∃ e ∈ s'.eliminations, e.dominated = C) ∧
      ∀ e ∈ s'.eliminations, GoodElimination e := by
  have hT := domTreeOK_spec g htree
  obtain ⟨L, hO, _, _, hvisit⟩ := runBoundsChecks_visitBlocks addr fuel g (ok, s') hT hrun
  have hinit : BoundsInv g L 0 { graph := g, checks := [] } := by
    refine ⟨boundsFrame_refl g, ?_, ?_, ?_⟩
    · intro key info hmem; simp at hmem
    · intro e he; simp at he
    · intro C i hC hnot; exact absurd hC hnot
  obtain ⟨q', hinv⟩ := visitBlocks_inv addr g L hO.interval (blocksConsistent_spec g hcons) L 0
    _ s' ok (by simp) hinit hvisit
  refine ⟨by simp [EliminateRedundantBoundsChecks, hrun], ?_, hinv.good⟩
  intro C hC hnot
  obtain ⟨i, hi⟩ := (mem_definitionsOf_of_inGraph g C).mp hC
  refine hinv.discarded C i hi ?_
  intro hin
  have := (mem_definitionsOf_of_inGraph s'.graph C).mpr ⟨i, hin⟩
  rw [hnot] at this
  cases this

theorem EliminateRedundantBoundsChecks_discards_dominated_witness :
    domTreeOK twoChecksGraph = true ∧ blocksConsistent twoChecksGraph = true ∧
      runBoundsChecks id 2 twoChecksGraph = some (true, twoChecksFinal) ∧
      (EliminateRedundantBoundsChecks id 2 twoChecksGraph = some (true, twoChecksFinal.graph) ∧
        (∀ C, twoChecksGraph.inGraph C = true → twoChecksFinal.graph.inGraph C = false →
          ∃ e ∈ twoChecksFinal.eliminations, e.dominated = C) ∧
        ∀ e ∈ twoChecksFinal.eliminations, GoodElimination e) :=
  ⟨by decide, by decide, by decide,
    EliminateRedundantBoundsChecks_discards_dominated id 2 twoChecksGraph true twoChecksFinal
      (by decide) (by decide) (by decide)⟩

/-! ## Every use of a bounds check is replaced -/

theorem inGraph_replaceAllUsesWith (g : MIRGraph) (d r i : Nat) :
    (replaceAllUsesWith g d r).inGraph i = g.inGraph i := rfl

theorem inGraph_setBoundsCheckRange (g : MIRGraph) (c i : Nat) (lo hi : Int) :
    (setBoundsCheckRange g c lo hi).inGraph i = g.inGraph i := rfl

theorem not_mem_replace (ops : List Nat) (d r X : Nat) (hX : X ∉ ops) (hr : r ≠ X) :
    X ∉ ops.map (fun o => if o = d then r else o) := by
  intro hmem
  simp only [List.mem_map] at hmem
  obtain ⟨o, ho0, ho⟩ := hmem
  by_cases hod : o = d
  · rw [if_pos hod] at ho; exact hr ho
  · rw [if_neg hod] at ho
    subst ho
    exact hX ho0

theorem not_mem_replace_self (ops : List Nat) (d r : Nat) (hr : r ≠ d) :
    d ∉ ops.map (fun o => if o = d then r else o) := by
  intro hmem
  simp only [List.mem_map] at hmem
  obtain ⟨o, _, ho⟩ := hmem
  by_cases hod : o = d
  · rw [if_pos hod] at ho; exact hr ho
  · rw [if_neg hod] at ho; exact hod ho

theorem noOperand_replaceAllUsesWith_self (g : MIRGraph) (d r : Nat) (h : r ≠ d) :
    NoOperand (replaceAllUsesWith g d r) d := by
  constructor
  · intro i y hy hin
    rw [definition_replaceAllUsesWith] at hy
    rw [inGraph_replaceAllUsesWith] at hin
    cases hg : g.definition i with
    | none => simp [hg] at hy
    | some y0 =>
      simp only [hg, Option.map_some', hin, if_true, Option.some.injEq] at hy
      subst hy
      exact not_mem_replace_self _ d r h
  · intro rp hrp
    simp only [replaceAllUsesWith, List.mem_map] at hrp
    obtain ⟨rp0, _, rfl⟩ := hrp
    exact not_mem_replace_self _ d r h

theorem noOperand_replaceAllUsesWith (g : MIRGraph) (d r X : Nat) (hX : NoOperand g X)
    (hr : r ≠ X) : NoOperand (replaceAllUsesWith g d r) X := by
  constructor
  · intro i y hy hin
    rw [definition_replaceAllUsesWith] at hy
    rw [inGraph_replaceAllUsesWith] at hin
    cases hg : g.definition i with
    | none => simp [hg] at hy
    | some y0 =>
      simp only [hg, Option.map_some', hin, if_true, Option.some.injEq] at hy
      subst hy
      exact not_mem_replace _ d r X (hX.1 i y0 hg hin) hr
  · intro rp hrp
    simp only [replaceAllUsesWith, List.mem_map] at hrp
    obtain ⟨rp0, hrp0, rfl⟩ := hrp
    exact not_mem_replace _ d r X (hX.2 rp0 hrp0) hr

theorem noOperand_setBoundsCheckRange (g : MIRGraph) (c X : Nat) (lo hi : Int)
    (hX : NoOperand g X) : NoOperand (setBoundsCheckRange g c lo hi) X := by
  constructor
  · intro i y h1 hin
    rw [definition_setBoundsCheckRange] at h1
    rw [inGraph_setBoundsCheckRange] at hin
    cases hg : g.definition i with
    | none => simp [hg] at h1
    | some y0 =>
      simp only [hg, Option.map_some', Option.some.injEq] at h1
      by_cases hci : c = i
      · rw [if_pos hci] at h1; subst h1; exact hX.1 i y0 hg hin
      · rw [if_neg hci] at h1; subst h1; exact hX.1 i y0 hg hin
  · exact hX.2

theorem indexRanked_replaceAllUsesWith (rank : Nat → Nat) (g : MIRGraph) (d r : Nat)
    (h : IndexRanked rank g) (hr : rank r < rank d) :
    IndexRanked rank (replaceAllUsesWith g d r) := by
  intro X y o hX hbc ho
  rw [definition_replaceAllUsesWith] at hX
  cases hg : g.definition X with
  | none => simp [hg] at hX
  | some y0 =>
    simp only [hg, Option.map_some', Option.some.injEq] at hX
    by_cases hin : g.inGraph X = true
    · rw [if_pos hin] at hX
      subst hX
      simp only [List.getElem?_map] at ho
      cases ho0 : y0.operands[0]? with
      | none => simp [ho0] at ho
      | some o0 =>
        simp only [ho0, Option.map_some', Option.some.injEq] at ho
        have h0 := h X y0 o0 hg hbc ho0
        by_cases hod : o0 = d
        · rw [if_pos hod] at ho; subst ho; subst hod; exact lt_trans hr h0
        · rw [if_neg hod] at ho; subst ho; exact h0
    · rw [if_neg hin] at hX
      subst hX
      exact h X y0 o hg hbc ho

theorem indexRanked_setBoundsCheckRange (rank : Nat → Nat) (g : MIRGraph) (c : Nat)
    (lo hi : Int) (h : IndexRanked rank g)
    (hc : ∀ y, g.definition c = some y → y.isBoundsCheck = true) :
    IndexRanked rank (setBoundsCheckRange g c lo hi) := by
  intro X y o hX hbc ho
  rw [definition_setBoundsCheckRange] at hX
  cases hg : g.definition X with
  | none => simp [hg] at hX
  | some y0 =>
    simp only [hg, Option.map_some', Option.some.injEq] at hX
    by_cases hcX : c = X
    · rw [if_pos hcX] at hX
      subst hX
      subst hcX
      exact h c y0 o hg (hc y0 hg) ho
    · rw [if_neg hcX] at hX
      subst hX
      exact h X y0 o hg hbc ho

theorem TryEliminateBoundsCheck_uses (rank : Nat → Nat) {g g2 : MIRGraph} (A B : Nat)
    (ok el : Bool) (h : TryEliminateBoundsCheck g A B = some (ok, el, g2))
    (hr : IndexRanked rank g) :
    IndexRanked rank g2 ∧ ∀ X, NoOperand g X → NoOperand g2 X := by
  obtain ⟨_, _, iA, _, _, _, hiA, _, hcase⟩ := TryEliminateBoundsCheck_cases g g2 A B ok el h
  obtain ⟨y, hy, hyb, _⟩ := boundsCheckIndex_isBoundsCheck hiA
  have hset : ∀ lo hi, IndexRanked rank (setBoundsCheckRange g A lo hi) ∧
      ∀ X, NoOperand g X → NoOperand (setBoundsCheckRange g A lo hi) X := by
    intro lo hi
    refine ⟨indexRanked_setBoundsCheckRange rank g A lo hi hr ?_,
      fun X hX => noOperand_setBoundsCheckRange g A X lo hi hX⟩
    intro y' hy'
    rw [hy] at hy'
    cases hy'
    exact hyb
  rcases hcase with ⟨_, _, _, rfl⟩ | ⟨_, _, _, _, _, hc⟩
  · exact ⟨hr, fun _ hX => hX⟩
  · rcases hc with ⟨_, _, _, rfl⟩ | ⟨_, _, ⟨_, rfl⟩ | ⟨_, lo, hi, rfl⟩⟩
    · exact ⟨hr, fun _ hX => hX⟩
    · exact ⟨hr, fun _ hX => hX⟩
    · exact hset lo hi

theorem inGraph_discardDef (g : MIRGraph) (b d i : Nat)
    (h : (discardDef g b d).inGraph i = true) : g.inGraph i = true := by
  obtain ⟨j, hj⟩ := (mem_definitionsOf_of_inGraph _ i).mp h
  exact (mem_definitionsOf_of_inGraph g i).mpr ⟨j, mem_definitionsOf_discardDef g b d j i hj⟩

theorem inGraph_discardDef_of_ne (g : MIRGraph) (b d i : Nat) (hne : i ≠ d)
    (h : g.inGraph i = true) : (discardDef g b d).inGraph i = true := by
  obtain ⟨j, hj⟩ := (mem_definitionsOf_of_inGraph _ i).mp h
  exact (mem_definitionsOf_of_inGraph _ i).mpr
    ⟨j, mem_definitionsOf_discardDef_of_ne g b d j i hne hj⟩

theorem nodup_definitionsOf_discardDef (g : MIRGraph) (b d i : Nat)
    (h : (definitionsOf g i).Nodup) : (definitionsOf (discardDef g b d) i).Nodup := by
  unfold definitionsOf at h ⊢
  rw [block_discardDef]
  cases hb : g.block i with
  | none => exact List.nodup_nil
  | some blk =>
    simp only [hb] at h
    simp only [Option.map_some']
    by_cases hbi : b = i
    · rw [if_pos hbi]
      exact List.Nodup.sublist
        ((List.erase_sublist d blk.phis).append (List.erase_sublist d blk.instructions)) h
    · rw [if_neg hbi]
      exact h

theorem usesInv_step (rank : Nat → Nat) (T g G : MIRGraph) (d : Nat) (ds bs : List Nat)
    (hinv : UsesInv rank T g (d :: ds) bs) (hframe : BoundsFrame T G)
    (hranked : IndexRanked rank G)
    (honce : ∀ b, (definitionsOf G b).Nodup)
    (hno : ∀ X, NoOperand g X → NoOperand G X)
    (hd : ∀ yT, T.definition d = some yT → yT.isBoundsCheck = true → NoOperand G d)
    (hlists : ∀ b X, X ≠ d → X ∈ definitionsOf g b → X ∈ definitionsOf G b) :
    UsesInv rank T G ds bs := by
  have hnd := List.nodup_cons.mp hinv.pending.1
  refine ⟨hframe, hranked, honce, ⟨hnd.2, ?_⟩, ?_⟩
  · intro X hX
    have hXd : X ≠ d := fun hh => hnd.1 (hh ▸ hX)
    obtain ⟨j, hj⟩ := (mem_definitionsOf_of_inGraph g X).mp
      (hinv.pending.2 X (List.mem_cons_of_mem _ hX))
    exact (mem_definitionsOf_of_inGraph G X).mpr ⟨j, hlists j X hXd hj⟩
  · intro X yT hX hbc hin
    by_cases hXd : X = d
    · subst hXd
      exact Or.inr (hd yT hX hbc)
    · rcases hinv.replaced X yT hX hbc hin with (h | ⟨b, hb, h⟩) | h
      · rcases List.mem_cons.mp h with h | h
        · exact absurd h hXd
        · exact Or.inl (Or.inl h)
      · exact Or.inl (Or.inr ⟨b, hb, hlists b X hXd h⟩)
      · exact Or.inr (hno X h)

theorem noOperand_discardDef (g : MIRGraph) (b d X : Nat) (h : NoOperand g X) :
    NoOperand (discardDef g b d) X :=
  ⟨fun i y hy hin => h.1 i y hy (inGraph_discardDef g b d i hin), h.2⟩

theorem indexRanked_discardDef (rank : Nat → Nat) (g : MIRGraph) (b d : Nat)
    (h : IndexRanked rank g) : IndexRanked rank (discardDef g b d) := h

theorem visitDefinition_uses (addr : Nat → Nat) (rank : Nat → Nat) (T : MIRGraph)
    (index : Nat) (s s' : BoundsCheckState) (d : Nat) (ds bs : List Nat)
    (hinv : UsesInv rank T s.graph (d :: ds) bs)
    (h : visitDefinition addr index s d = some (true, s')) :
    UsesInv rank T s'.graph ds bs := by
  have hframe' := visitDefinition_frame addr T index s s' d true hinv.frame h
  have hdin : s.graph.inGraph d = true := hinv.pending.2 d (List.mem_cons_self _ _)
  obtain ⟨def_, hdef, hcase⟩ := visitDefinition_cases addr index s s' d true h
  rcases hcase with ⟨hnbc, _, hs⟩ | ⟨hisbc, idx, hidx, hcase⟩
  · rw [hs]
    rw [hs] at hframe'
    refine usesInv_step rank T s.graph s.graph d ds bs hinv hframe' hinv.ranked hinv.once
      (fun _ hX => hX) ?_ (fun _ _ _ hX => hX)
    intro yT hyT hbc
    obtain ⟨yT', hyT', hbc', _, _⟩ := boundsFrame_definition hinv.frame hdef
    rw [hyT] at hyT'
    cases hyT'
    rw [hbc', hnbc] at hbc
    cases hbc
  · obtain ⟨y, hy, _, hy0⟩ := boundsCheckIndex_isBoundsCheck hidx
    have hrank : rank idx < rank d := hinv.ranked d y idx hy (by
      rw [hdef] at hy; cases hy; exact hisbc) hy0
    have hne : idx ≠ d := fun hh => by rw [hh] at hrank; exact lt_irrefl _ hrank
    have hidxmem : ∀ X, NoOperand s.graph X → idx ≠ X := by
      intro X hX hh
      subst hh
      exact hX.1 d y hy hdin (List.getElem?_mem hy0)
    have hr1 := indexRanked_replaceAllUsesWith rank s.graph d idx hinv.ranked hrank
    have hno1 : ∀ X, NoOperand s.graph X → NoOperand (replaceAllUsesWith s.graph d idx) X :=
      fun X hX => noOperand_replaceAllUsesWith s.graph d idx X hX (hidxmem X hX)
    have hd1 : NoOperand (replaceAllUsesWith s.graph d idx) d :=
      noOperand_replaceAllUsesWith_self s.graph d idx hne
    have honce1 : ∀ b, (definitionsOf (replaceAllUsesWith s.graph d idx) b).Nodup :=
      hinv.once
    have hg1 : UsesInv rank T (replaceAllUsesWith s.graph d idx) ds bs :=
      usesInv_step rank T s.graph _ d ds bs hinv
        (boundsFrame_replaceAllUsesWith hinv.frame d idx) hr1 honce1 hno1 (fun _ _ _ => hd1)
        (fun _ _ _ hX => hX)
    rcases hcase with ⟨_, _, rfl⟩ | ⟨_, dominating, checks, _, hcase⟩
    · exact hg1
    · rcases hcase with ⟨_, _, rfl⟩ | ⟨_, ok', el, g2, hT, hcase⟩
      · exact hg1
      · obtain ⟨hr2, hno2⟩ := TryEliminateBoundsCheck_uses rank dominating d ok' el hT hr1
        have hdefs2 : ∀ i, definitionsOf g2 i = definitionsOf s.graph i := fun i =>
          TryEliminateBoundsCheck_definitionsOf dominating d ok' el hT i
        have honce2 : ∀ b, (definitionsOf g2 b).Nodup := fun b => by
          rw [hdefs2 b]; exact hinv.once b
        rcases hcase with ⟨_, hf, _⟩ | ⟨_, _, _, rfl⟩ | ⟨_, _, _, rfl⟩
        · cases hf
        · refine usesInv_step rank T s.graph _ d ds bs hinv hframe'
            (indexRanked_discardDef rank g2 _ d hr2)
            (fun b => nodup_definitionsOf_discardDef g2 _ d b (honce2 b))
            (fun X hX => noOperand_discardDef g2 _ d X (hno2 X (hno1 X hX)))
            (fun _ _ _ => noOperand_discardDef g2 _ d d (hno2 d hd1)) ?_
          intro b X hXd hX
          rw [← hdefs2 b] at hX
          exact mem_definitionsOf_discardDef_of_ne g2 _ d b X hXd hX
        · refine usesInv_step rank T s.graph _ d ds bs hinv hframe' hr2 honce2
            (fun X hX => hno2 X (hno1 X hX)) (fun _ _ _ => hno2 d hd1) ?_
          intro b X _ hX
          rw [hdefs2 b]
          exact hX

theorem visitDefinitions_uses (addr : Nat → Nat) (rank : Nat → Nat) (T : MIRGraph)
    (index : Nat) (bs : List Nat) :
    ∀ (ds : List Nat) (s s' : BoundsCheckState), UsesInv rank T s.graph ds bs →
      visitDefinitions addr index ds s = some (true, s') → UsesInv rank T s'.graph [] bs := by
  intro ds
  induction ds with
  | nil =>
    intro s s' hinv h
    simp only [visitDefinitions, Option.some.injEq, Prod.mk.injEq, true_and] at h
    rw [← h]; exact hinv
  | cons d ds ih =>
    intro s s' hinv h
    unfold visitDefinitions at h
    cases hv : visitDefinition addr index s d with
    | none => simp [hv] at h
    | some r =>
      obtain ⟨ok1, s1⟩ := r
      cases ok1 with
      | false => simp [hv] at h
      | true =>
        simp only [hv] at h
        exact ih s1 s' (visitDefinition_uses addr rank T index s s1 d ds bs hinv hv) h

theorem visitBlocks_uses (addr : Nat → Nat) (rank : Nat → Nat) (T : MIRGraph) :
    ∀ (bs : List Nat) (index : Nat) (s s' : BoundsCheckState),
      UsesInv rank T s.graph [] bs →
      visitBlocks addr index bs s = some (true, s') → UsesInv rank T s'.graph [] [] := by
  intro bs
  induction bs with
  | nil =>
    intro index s s' hinv h
    simp only [visitBlocks, Option.some.injEq, Prod.mk.injEq, true_and] at h
    rw [← h]; exact hinv
  | cons b bs ih =>
    intro index s s' hinv h
    unfold visitBlocks at h
    cases hv : visitBlock addr index s b with
    | none => simp [hv] at h
    | some r =>
      obtain ⟨ok1, s1⟩ := r
      cases ok1 with
      | false => simp [hv] at h
      | true =>
        simp only [hv] at h
        refine ih (index + 1) s1 s' ?_ h
        unfold visitBlock at hv
        cases hb : s.graph.block b with
        | none => simp [hb] at hv
        | some blk =>
          simp only [hb] at hv
          refine visitDefinitions_uses addr rank T index bs _ s s1 ?_ hv
          have hdefs : definitionsOf s.graph b = blk.phis ++ blk.instructions := by
            simp [definitionsOf, hb]
          refine ⟨hinv.frame, hinv.ranked, hinv.once, ⟨hdefs ▸ hinv.once b, ?_⟩, ?_⟩
          · intro X hX
            exact (mem_definitionsOf_of_inGraph s.graph X).mpr ⟨b, hdefs ▸ hX⟩
          intro X yT hX hbc hin
          rcases hinv.replaced X yT hX hbc hin with (h1 | ⟨b', hb', h1⟩) | h1
          · simp at h1
          · rcases List.mem_cons.mp hb' with rfl | hb'
            · left; left
              simpa [definitionsOf, hb] using h1
            · exact Or.inl (Or.inr ⟨b', hb', h1⟩)
          · exact Or.inr h1

theorem indexesEarlier_spec (g : MIRGraph) (h : indexesEarlier g = true) :
    IndexRanked id g := by
  intro X y o hy hbc ho
  unfold indexesEarlier at h
  rw [List.all_eq_true] at h
  have hmem : (X, y) ∈ g.defs.enum := by
    rw [List.mem_enum_iff_getElem?]
    exact hy
  have h2 := h _ hmem
  simp only [hbc, ho, Bool.not_true, Bool.false_or, decide_eq_true_eq] at h2
  exact h2

theorem runBoundsChecks_uses (addr : Nat → Nat) (fuel : Nat) (g : MIRGraph)
    (rank : Nat → Nat) (s' : BoundsCheckState) (hT : DomTree g) (hrank : IndexRanked rank g)
    (honce : ∀ blk ∈ g.blocks, (blk.phis ++ blk.instructions).Nodup)
    (hrun : runBoundsChecks addr fuel g = some (true, s')) :
    UsesInv rank g s'.graph [] [] := by
  obtain ⟨L, _, _, hmem, hvisit⟩ := runBoundsChecks_visitBlocks addr fuel g (true, s') hT hrun
  refine visitBlocks_uses addr rank g L 0 { graph := g, checks := [] } s' ?_ hvisit
  have honce' : ∀ b, (definitionsOf g b).Nodup := by
    intro b
    unfold definitionsOf
    cases hb : g.block b with
    | none => exact List.nodup_nil
    | some blk => exact honce blk (List.getElem?_mem hb)
  refine ⟨boundsFrame_refl g, hrank, honce', ⟨List.nodup_nil, fun _ hX => by cases hX⟩, ?_⟩
  intro X yT _ _ hin
  obtain ⟨i, hi⟩ := (mem_definitionsOf_of_inGraph g X).mp hin
  refine Or.inl (Or.inr ⟨i, hmem i ?_, hi⟩)
  by_contra hlt
  unfold definitionsOf MIRGraph.block at hi
  rw [List.getElem?_eq_none (not_lt.mp hlt)] at hi
  simp at hi

/-- C6: after `EliminateRedundantBoundsChecks` returns true on a graph with a
consistent dominator tree, in which every block lists a definition once and
the index operand of every bounds check is defined before the check, no
definition in the graph and no resume point has a bounds check as an operand.
This holds for the checks that the graph had before the pass, movable or not,
discarded or kept, and so for the checks that it has afterwards. -/
theorem EliminateRedundantBoundsChecks_replaces_uses (addr : Nat → Nat) (fuel : Nat)
    (g g' : MIRGraph) (rank : Nat → Nat)
    (htree : domTreeOK g = true) (hrank : IndexRanked rank g)
    (honce : ∀ blk ∈ g.blocks, (blk.phis ++ blk.instructions).Nodup)
    (hrun : EliminateRedundantBoundsChecks addr fuel g = some (true, g')) :
    (∀ X c, g.definition X = some c → c.isBoundsCheck = true → g.inGraph X = true →
      NoOperand g' X) ∧
    ∀ X c, g'.definition X = some c → c.isBoundsCheck = true → g'.inGraph X = true →
      NoOperand g' X := by
  unfold EliminateRedundantBoundsChecks at hrun
  cases hr : runBoundsChecks addr fuel g with
  | none => simp [hr] at hrun
  | some r =>
    obtain ⟨ok, s'⟩ := r
    simp only [hr, Option.map_some', Option.some.injEq, Prod.mk.injEq] at hrun
    obtain ⟨hok, hg'⟩ := hrun
    subst hok hg'
    have hinv := runBoundsChecks_uses addr fuel g rank s' (domTreeOK_spec g htree) hrank
      honce hr
    have hall : ∀ X c, g.definition X = some c → c.isBoundsCheck = true →
        g.inGraph X = true → NoOperand s'.graph X := by
      intro X c hX hbc hin
      rcases hinv.replaced X c hX hbc hin with (h | ⟨b, hb, _⟩) | h
      · cases h
      · cases hb
      · exact h
    refine ⟨hall, ?_⟩
    intro X c hX hbc hin
    obtain ⟨yT, hyT, hbcT, _, _⟩ := boundsFrame_definition hinv.frame hX
    obtain ⟨i, hi⟩ := (mem_definitionsOf_of_inGraph s'.graph X).mp hin
    exact hall X yT hyT (hbcT.trans hbc)
      ((mem_definitionsOf_of_inGraph g X).mpr ⟨i, hinv.frame.lists i X hi⟩)

theorem EliminateRedundantBoundsChecks_replaces_uses_witness :
    domTreeOK twoChecksGraph = true ∧ indexesEarlier twoChecksGraph = true ∧
      EliminateRedundantBoundsChecks id 2 twoChecksGraph = some (true, twoChecksFinal.graph) ∧
      twoChecksGraph.inGraph 5 = true ∧ twoChecksFinal.graph.inGraph 5 = false ∧
      ((∀ X c, twoChecksGraph.definition X = some c → c.isBoundsCheck = true →
          twoChecksGraph.inGraph X = true → NoOperand twoChecksFinal.graph X) ∧
        ∀ X c, twoChecksFinal.graph.definition X = some c → c.isBoundsCheck = true →
          twoChecksFinal.graph.inGraph X = true → NoOperand twoChecksFinal.graph X) :=
  ⟨by decide, by decide, by decide, by decide, by decide,
    EliminateRedundantBoundsChecks_replaces_uses id 2 twoChecksGraph twoChecksFinal.graph id
      (by decide) (indexesEarlier_spec twoChecksGraph (by decide)) (by decide) (by decide)⟩

/-! ## The same bounds check twice -/

theorem visitDefinition_skip (addr : Nat → Nat) (T : MIRGraph) (index : Nat)
    (s : BoundsCheckState) (d : Nat) (hframe : BoundsFrame T s.graph)
    (hd : ∃ y, T.definition d = some y ∧ y.isBoundsCheck = false) :
    visitDefinition addr index s d = some (true, s) := by
  obtain ⟨yT, hyT, hbc⟩ := hd
  obtain ⟨y, hy, hbc', _, _⟩ := boundsFrame_definition_inv hframe hyT
  unfold visitDefinition
  simp [hy, hbc', hbc]

theorem visitDefinitions_skip (addr : Nat → Nat) (T : MIRGraph) (index : Nat)
    (s : BoundsCheckState) (hframe : BoundsFrame T s.graph) :
    ∀ (ds rest : List Nat),
      (∀ d ∈ ds, ∃ y, T.definition d = some y ∧ y.isBoundsCheck = false) →
      visitDefinitions addr index (ds ++ rest) s = visitDefinitions addr index rest s := by
  intro ds
  induction ds with
  | nil => intro rest _; rfl
  | cons d ds ih =>
    intro rest h
    rw [List.cons_append, visitDefinitions,
      visitDefinition_skip addr T index s d hframe (h d (List.mem_cons_self _ _))]
    exact ih rest (fun x hx => h x (List.mem_cons_of_mem _ hx))

theorem visitDefinitions_skip_all (addr : Nat → Nat) (T : MIRGraph) (index : Nat)
    (s : BoundsCheckState) (hframe : BoundsFrame T s.graph) (ds : List Nat)
    (h : ∀ d ∈ ds, ∃ y, T.definition d = some y ∧ y.isBoundsCheck = false) :
    visitDefinitions addr index ds s = some (true, s) := by
  have := visitDefinitions_skip addr T index s hframe ds [] h
  rw [List.append_nil] at this
  rw [this]
  rfl

theorem visitDefinitions_step (addr : Nat → Nat) (index : Nat) (s s' : BoundsCheckState)
    (d : Nat) (rest : List Nat) (h : visitDefinition addr index s d = some (true, s')) :
    visitDefinitions addr index (d :: rest) s = visitDefinitions addr index rest s' := by
  rw [visitDefinitions, h]

theorem visitBlock_eq (addr : Nat → Nat) (T : MIRGraph) (index : Nat) (s : BoundsCheckState)
    (b : Nat) (hframe : BoundsFrame T s.graph) (hb : b < T.blocks.length) :
    visitBlock addr index s b = visitDefinitions addr index (definitionsOf s.graph b) s := by
  have h1 := hframe.blocks b
  unfold visitBlock definitionsOf
  cases hg : s.graph.block b with
  | some blk => rfl
  | none =>
    rw [hg] at h1
    unfold MIRGraph.block at h1
    rw [List.getElem?_eq_getElem hb] at h1
    simp at h1

theorem visitBlocks_skip (addr : Nat → Nat) (T : MIRGraph) (s : BoundsCheckState)
    (hframe : BoundsFrame T s.graph) :
    ∀ (bs rest : List Nat) (index : Nat),
      (∀ b ∈ bs, b < T.blocks.length ∧
        ∀ d ∈ definitionsOf T b, ∃ y, T.definition d = some y ∧ y.isBoundsCheck = false) →
      visitBlocks addr index (bs ++ rest) s = visitBlocks addr (index + bs.length) rest s := by
  intro bs
  induction bs with
  | nil => intro rest index _; rfl
  | cons b bs ih =>
    intro rest index h
    obtain ⟨hb, hds⟩ := h b (List.mem_cons_self _ _)
    rw [List.cons_append, visitBlocks, visitBlock_eq addr T index s b hframe hb,
      visitDefinitions_skip_all addr T index s hframe _
        (fun d hd => hds d (hframe.lists b d hd))]
    simp only
    rw [ih rest (index + 1) (fun x hx => h x (List.mem_cons_of_mem _ hx)), List.length_cons]
    congr 1
    omega

theorem visitBlocks_skip_all (addr : Nat → Nat) (T : MIRGraph) (s : BoundsCheckState)
    (hframe : BoundsFrame T s.graph) (bs : List Nat) (index : Nat)
    (h : ∀ b ∈ bs, b < T.blocks.length ∧
      ∀ d ∈ definitionsOf T b, ∃ y, T.definition d = some y ∧ y.isBoundsCheck = false) :
    visitBlocks addr index bs s = some (true, s) := by
  have := visitBlocks_skip addr T s hframe bs [] index h
  rw [List.append_nil] at this
  rw [this]
  rfl

theorem visitBlocks_step (addr : Nat → Nat) (T : MIRGraph) (index : Nat)
    (s s' : BoundsCheckState) (b : Nat) (rest : List Nat) (hframe : BoundsFrame T s.graph)
    (hb : b < T.blocks.length)
    (h : visitDefinitions addr index (definitionsOf s.graph b) s = some (true, s')) :
    visitBlocks addr index (b :: rest) s = visitBlocks addr (index + 1) rest s' := by
  rw [visitBlocks, visitBlock_eq addr T index s b hframe hb, h]

theorem map_replace_of_not_mem (ops : List Nat) (d r : Nat) (h : d ∉ ops) :
    ops.map (fun o => if o = d then r else o) = ops := by
  induction ops with
  | nil => rfl
  | cons o ops ih =>
    rw [List.mem_cons, not_or] at h
    rw [List.map_cons, ih h.2, if_neg (fun hh => h.1 hh.symm)]

theorem definition_replaceAllUsesWith_sum (g : MIRGraph) (d r : Nat)
    (h : ∀ y ∈ g.defs, y.op = Opcode.Add ∨ y.op = Opcode.Sub → d ∉ y.operands) (x : Nat) :
    (g.definition x = none ∧ (replaceAllUsesWith g d r).definition x = none) ∨
    ∃ y y', g.definition x = some y ∧ (replaceAllUsesWith g d r).definition x = some y' ∧
      y'.type = y.type ∧ y'.op = y.op ∧
      (y.op = Opcode.Add ∨ y.op = Opcode.Sub → y'.operands = y.operands) := by
  rw [definition_replaceAllUsesWith]
  cases hx : g.definition x with
  | none => exact Or.inl ⟨rfl, rfl⟩
  | some y =>
    right
    by_cases hin : g.inGraph x = true
    · refine ⟨y, { y with operands := y.operands.map fun o => if o = d then r else o }, rfl,
        by simp only [Option.map_some', if_pos hin], rfl, rfl, ?_⟩
      intro hop
      exact map_replace_of_not_mem _ d r (h y (List.getElem?_mem hx) hop)
    · exact ⟨y, y, rfl, by simp only [Option.map_some', if_neg hin], rfl, rfl, fun _ => rfl⟩

theorem ExtractLinearSum_replaceAllUsesWith (g : MIRGraph) (d r : Nat)
    (h : ∀ y ∈ g.defs, y.op = Opcode.Add ∨ y.op = Opcode.Sub → d ∉ y.operands) :
    ∀ fuel x, ExtractLinearSum fuel (replaceAllUsesWith g d r) x = ExtractLinearSum fuel g x := by
  intro fuel
  induction fuel with
  | zero => intro x; rfl
  | succ fuel ih =>
    intro x
    have hty : ∀ z, ((replaceAllUsesWith g d r).definition z).map MDefinition.type =
        (g.definition z).map MDefinition.type := by
      intro z
      rcases definition_replaceAllUsesWith_sum g d r h z with ⟨h1, h2⟩ | ⟨y, y', h1, h2, h3, _⟩
      · rw [h1, h2]
      · rw [h1, h2]; simp [h3]
    rcases definition_replaceAllUsesWith_sum g d r h x with ⟨h1, h2⟩ | ⟨y, y', h1, h2, h3, h4, h5⟩
    · simp only [ExtractLinearSum, h1, h2]
    · simp only [ExtractLinearSum, h1, h2, h3, h4, ih]
      cases hop : y.op with
      | Add =>
        rw [h5 (Or.inl hop)]
        cases y.operands with
        | nil => rfl
        | cons lhs t =>
          cases t with
          | nil => rfl
          | cons rhs t =>
            have hl := hty lhs
            have hr := hty rhs
            cases hl1 : g.definition lhs <;> cases hr1 : g.definition rhs <;>
              cases hl2 : (replaceAllUsesWith g d r).definition lhs <;>
              cases hr2 : (replaceAllUsesWith g d r).definition rhs <;>
              simp [hl1, hr1, hl2, hr2] at hl hr ⊢
            simp [hl, hr]
      | Sub =>
        rw [h5 (Or.inr hop)]
        cases y.operands with
        | nil => rfl
        | cons lhs t =>
          cases t with
          | nil => rfl
          | cons rhs t =>
            have hl := hty lhs
            have hr := hty rhs
            cases hl1 : g.definition lhs <;> cases hr1 : g.definition rhs <;>
              cases hl2 : (replaceAllUsesWith g d r).definition lhs <;>
              cases hr2 : (replaceAllUsesWith g d r).definition rhs <;>
              simp [hl1, hr1, hl2, hr2] at hl hr ⊢
            simp [hl, hr]
      | Constant v => cases v <;> rfl
      | _ => rfl

theorem sums_replaceAllUsesWith (g : MIRGraph) (d r X : Nat)
    (hd : ∀ y ∈ g.defs, y.op = Opcode.Add ∨ y.op = Opcode.Sub → d ∉ y.operands)
    (h : ∀ y ∈ g.defs, y.op = Opcode.Add ∨ y.op = Opcode.Sub → X ∉ y.operands) :
    ∀ y ∈ (replaceAllUsesWith g d r).defs,
      y.op = Opcode.Add ∨ y.op = Opcode.Sub → X ∉ y.operands := by
  intro y' hy' hop
  obtain ⟨x, hx, hget⟩ := List.getElem_of_mem hy'
  have hdef : (replaceAllUsesWith g d r).definition x = some y' := by
    unfold MIRGraph.definition
    rw [List.getElem?_eq_getElem hx, hget]
  rcases definition_replaceAllUsesWith_sum g d r hd x with ⟨_, h2⟩ | ⟨y, y2, h1, h2, _, h4, h5⟩
  · rw [h2] at hdef; cases hdef
  · rw [h2] at hdef
    cases hdef
    rw [h4] at hop
    rw [h5 hop]
    exact h y (List.getElem?_mem h1) hop

theorem isCheck_replaceAllUsesWith {g : MIRGraph} {X : Nat} {lo hi : Int}
    {index length block : Nat} (h : IsCheck g X lo hi index length block) (d : Nat)
    (hd : length ≠ d) : IsCheck (replaceAllUsesWith g d index) X lo hi index length block := by
  obtain ⟨y, hy, hop, hmov, h0, h1, hb⟩ := h
  by_cases hin : g.inGraph X = true
  · refine ⟨{ y with operands := y.operands.map fun o => if o = d then index else o },
      by rw [definition_replaceAllUsesWith, hy]; simp only [Option.map_some', if_pos hin],
      hop, hmov, ?_, ?_, hb⟩
    · simp only [List.getElem?_map, h0, Option.map_some', ite_self]
    · simp only [List.getElem?_map, h1, Option.map_some', if_neg hd]
  · exact ⟨y, by rw [definition_replaceAllUsesWith, hy]; simp only [Option.map_some', if_neg hin],
      hop, hmov, h0, h1, hb⟩

theorem isCheck_accessors {g : MIRGraph} {X : Nat} {lo hi : Int} {index length block : Nat}
    (h : IsCheck g X lo hi index length block) :
    boundsCheckIndex g X = some index ∧ boundsCheckLength g X = some length ∧
      boundsCheckRange g X = some (lo, hi) := by
  obtain ⟨y, hy, hop, _, h0, h1, _⟩ := h
  simp [boundsCheckIndex, boundsCheckLength, boundsCheckRange, hy, hop, h0, h1,
    MDefinition.isBoundsCheck]

theorem sumFuel_replaceAllUsesWith (g : MIRGraph) (d r : Nat) :
    (replaceAllUsesWith g d r).sumFuel = g.sumFuel := by
  simp [MIRGraph.sumFuel, replaceAllUsesWith]

theorem hash_of_isCheck (addr : Nat → Nat) {g : MIRGraph} {X : Nat} {lo hi : Int}
    {index length block : Nat} {sum : LinearSum} (h : IsCheck g X lo hi index length block)
    (hs : ExtractLinearSum g.sumFuel g index = some sum) :
    BoundsCheckHashIgnoreOffset addr g X = some (checkHash addr sum length) := by
  obtain ⟨hi1, hl1, _⟩ := isCheck_accessors h
  unfold BoundsCheckHashIgnoreOffset checkHash
  rw [hi1, hl1]
  simp only [hs]

theorem visitDefinition_first (addr : Nat → Nat) (s : BoundsCheckState) (A : Nat)
    (lo hi : Int) (index length block : Nat) (sum : LinearSum) (p : Nat) (blk : MBasicBlock)
    (hA : IsCheck s.graph A lo hi index length block) (hlen : length ≠ A)
    (hsum : ExtractLinearSum (replaceAllUsesWith s.graph A index).sumFuel
      (replaceAllUsesWith s.graph A index) index = some sum)
    (hempty : s.checks = []) (hblk : s.graph.block block = some blk) :
    visitDefinition addr p s A = some (true,
      { s with
        graph := replaceAllUsesWith s.graph A index
        checks := [(checkHash addr sum length, ⟨A, (p + blk.numDominated) % 2 ^ 32⟩)]
        visited := A :: s.visited }) := by
  have hA1 := isCheck_replaceAllUsesWith hA A hlen
  have hhash := hash_of_isCheck addr hA1 hsum
  obtain ⟨hidx, _, _⟩ := isCheck_accessors hA
  obtain ⟨y, hy, hop, hmov, _, _, hb⟩ := hA
  obtain ⟨y1, hy1, _, _, _, _, hb1⟩ := hA1
  have hbc : y.isBoundsCheck = true := by simp [MDefinition.isBoundsCheck, hop]
  unfold visitDefinition
  simp only [hy, hbc, hidx, hmov, Bool.not_true, Bool.false_eq_true, if_false]
  unfold FindDominatingBoundsCheck
  simp only [hhash, hy1, hempty, hb1, block_replaceAllUsesWith, hblk, BoundsCheckMap.lookup,
    List.find?_nil, BoundsCheckMap.put, List.filter_nil, if_true]

theorem visitDefinition_second (addr : Nat → Nat) (s : BoundsCheckState) (A B : Nat)
    (minA maxA minB maxB : Int) (index length blockA blockB : Nat) (sum : LinearSum)
    (p v : Nat)
    (hA : IsCheck s.graph A minA maxA index length blockA)
    (hB : IsCheck s.graph B minB maxB index length blockB)
    (hAB : A ≠ B) (hlen : length ≠ B)
    (hsum : ExtractLinearSum (replaceAllUsesWith s.graph B index).sumFuel
      (replaceAllUsesWith s.graph B index) index = some sum)
    (hchecks : s.checks = [(checkHash addr sum length, ⟨A, v⟩)]) (hp : p ≤ v)
    (hcovers : minA ≤ minB ∧ minB ≤ maxB ∧ maxB ≤ maxA)
    (hfits : INT32_MIN ≤ minA ∧ maxA ≤ INT32_MAX ∧ INT32_MIN ≤ sum.constant + minA ∧
      sum.constant + maxA ≤ INT32_MAX) :
    visitDefinition addr p s B = some (true,
      { s with
        graph := discardDef
          (setBoundsCheckRange (replaceAllUsesWith s.graph B index) A minA maxA) blockB B
        visited := B :: s.visited
        eliminations :=
          ⟨A, B, p, replaceAllUsesWith s.graph B index, s.visited⟩ :: s.eliminations }) := by
  have hA2 := isCheck_replaceAllUsesWith hA B hlen
  have hB2 := isCheck_replaceAllUsesWith hB B hlen
  have hhash := hash_of_isCheck addr hB2 hsum
  obtain ⟨hidx, _, _⟩ := isCheck_accessors hB
  obtain ⟨hiA, hlA, hrA⟩ := isCheck_accessors hA2
  obtain ⟨hiB, hlB, hrB⟩ := isCheck_accessors hB2
  obtain ⟨y, hy, hop, hmov, _, _, hb⟩ := hB
  obtain ⟨y2, hy2, _, _, _, _, hb2⟩ := hB2
  have hbc : y.isBoundsCheck = true := by simp [MDefinition.isBoundsCheck, hop]
  obtain ⟨h1, h2, h3⟩ := hcovers
  obtain ⟨h4, h5, h6, h7⟩ := hfits
  unfold INT32_MIN at h4 h6
  unfold INT32_MAX at h5 h7
  have hadd1 : SafeAdd sum.constant minA = some (sum.constant + minA) := by
    unfold SafeAdd INT32_MIN INT32_MAX; rw [if_pos]; constructor <;> omega
  have hadd2 : SafeAdd sum.constant maxA = some (sum.constant + maxA) := by
    unfold SafeAdd INT32_MIN INT32_MAX; rw [if_pos]; constructor <;> omega
  have hadd3 : SafeAdd sum.constant minB = some (sum.constant + minB) := by
    unfold SafeAdd INT32_MIN INT32_MAX; rw [if_pos]; constructor <;> omega
  have hadd4 : SafeAdd sum.constant maxB = some (sum.constant + maxB) := by
    unfold SafeAdd INT32_MIN INT32_MAX; rw [if_pos]; constructor <;> omega
  have hmin : min (sum.constant + minA) (sum.constant + minB) = sum.constant + minA :=
    min_eq_left (by omega)
  have hmax : max (sum.constant + maxA) (sum.constant + maxB) = sum.constant + maxA :=
    max_eq_left (by omega)
  have hsub1 : SafeSub (sum.constant + minA) sum.constant = some minA := by
    unfold SafeSub INT32_MIN INT32_MAX; rw [if_pos]
    · congr 1; omega
    · constructor <;> omega
  have hsub2 : SafeSub (sum.constant + maxA) sum.constant = some maxA := by
    unfold SafeSub INT32_MIN INT32_MAX; rw [if_pos]
    · congr 1; omega
    · constructor <;> omega
  have hfind : FindDominatingBoundsCheck addr (replaceAllUsesWith s.graph B index) s.checks B p =
      some (A, s.checks) := by
    unfold FindDominatingBoundsCheck
    simp only [hhash, hy2, hchecks, BoundsCheckMap.lookup, List.find?_cons, beq_self_eq_true,
      gt_iff_lt, if_neg (not_lt.mpr hp)]
  have htry : TryEliminateBoundsCheck (replaceAllUsesWith s.graph B index) A B =
      some (true, true,
        setBoundsCheckRange (replaceAllUsesWith s.graph B index) A minA maxA) := by
    unfold TryEliminateBoundsCheck
    simp only [hiA, hlA, hrA, hiB, hlB, hrB, hsum, ne_eq, not_true_eq_false, if_false,
      hadd1, hadd2, hadd3, hadd4, hmin, hmax, hsub1, hsub2]
  unfold visitDefinition
  simp only [hy, hbc, hidx, hmov, Bool.not_true, Bool.false_eq_true, if_false, hfind,
    if_neg hAB, htry, hb]

theorem preOrdered_nodup {T : MIRGraph} {cs L : List Nat} (hO : PreOrdered T cs L) :
    L.Nodup := by
  rw [List.nodup_iff_getElem?_ne_getElem?]
  intro i j hij hj heq
  have hjx : L[j]? = some L[j] := List.getElem?_eq_getElem hj
  have hix : L[i]? = some L[j] := heq.trans hjx
  have h1 := (hO.interval j i _ _ hjx hix).mp (idomChain_refl T _)
  omega

theorem split_of_getElem? {α : Type} (l : List α) (i : Nat) (x : α) (h : l[i]? = some x) :
    ∃ l1 l2, l = l1 ++ x :: l2 ∧ l1.length = i := by
  obtain ⟨hi, hx⟩ := List.getElem?_eq_some.mp h
  refine ⟨l.take i, l.drop (i + 1), ?_, ?_⟩
  · rw [← hx, ← List.drop_eq_getElem_cons hi, List.take_append_drop]
  · rw [List.length_take]
    omega

theorem repeatedCheck_nonCheck {g : MIRGraph} {A B index length blockA blockB : Nat}
    {sum : LinearSum} {minA maxA minB maxB : Int}
    (h : RepeatedCheck g A B index length blockA blockB sum minA maxA minB maxB) :
    ∀ i d, d ∈ definitionsOf g i → d ≠ A → d ≠ B →
      ∃ y, g.definition d = some y ∧ y.isBoundsCheck = false := by
  intro i d hd hA hB
  obtain ⟨y, hy, _⟩ := blocksConsistent_spec g h.consistent i d hd
  refine ⟨y, hy, ?_⟩
  unfold definitionsOf at hd
  cases hb : g.block i with
  | none => simp [hb] at hd
  | some blk =>
    simp only [hb] at hd
    rcases h.others blk (List.getElem?_mem hb) d hd with h1 | h1 | h1
    · exact absurd h1 hA
    · exact absurd h1 hB
    · simpa [hy] using h1

theorem repeatedCheck_blocks {g : MIRGraph} {A B index length blockA blockB : Nat}
    {sum : LinearSum} {minA maxA minB maxB : Int}
    (h : RepeatedCheck g A B index length blockA blockB sum minA maxA minB maxB) :
    (∀ i, A ∈ definitionsOf g i → i = blockA) ∧ (∀ i, B ∈ definitionsOf g i → i = blockB) := by
  obtain ⟨yA, hyA, _, _, _, _, hbA⟩ := h.first
  obtain ⟨yB, hyB, _, _, _, _, hbB⟩ := h.second
  constructor
  · intro i hi
    obtain ⟨y, hy, hb⟩ := blocksConsistent_spec g h.consistent i A hi
    rw [hyA] at hy
    cases hy
    exact hb.symm.trans hbA
  · intro i hi
    obtain ⟨y, hy, hb⟩ := blocksConsistent_spec g h.consistent i B hi
    rw [hyB] at hy
    cases hy
    exact hb.symm.trans hbB

theorem repeatedCheck_nodup {g : MIRGraph} {A B index length blockA blockB : Nat}
    {sum : LinearSum} {minA maxA minB maxB : Int}
    (h : RepeatedCheck g A B index length blockA blockB sum minA maxA minB maxB) (i : Nat) :
    (definitionsOf g i).Nodup := by
  unfold definitionsOf
  cases hb : g.block i with
  | none => exact List.nodup_nil
  | some blk => exact h.once blk (List.getElem?_mem hb)

theorem repeatedCheck_sums {g : MIRGraph} {A B index length blockA blockB : Nat}
    {sum : LinearSum} {minA maxA minB maxB : Int}
    (h : RepeatedCheck g A B index length blockA blockB sum minA maxA minB maxB) :
    ExtractLinearSum (replaceAllUsesWith g A index).sumFuel (replaceAllUsesWith g A index)
        index = some sum ∧
      ExtractLinearSum
        (replaceAllUsesWith (replaceAllUsesWith g A index) B index).sumFuel
        (replaceAllUsesWith (replaceAllUsesWith g A index) B index) index = some sum := by
  have hA := fun y hy hop => (h.sums y hy hop).1
  have hB := fun y hy hop => (h.sums y hy hop).2
  have h1 : ExtractLinearSum (replaceAllUsesWith g A index).sumFuel
      (replaceAllUsesWith g A index) index = some sum := by
    rw [sumFuel_replaceAllUsesWith, ExtractLinearSum_replaceAllUsesWith g A index hA]
    exact h.linear
  refine ⟨h1, ?_⟩
  rw [sumFuel_replaceAllUsesWith,
    ExtractLinearSum_replaceAllUsesWith _ B index (sums_replaceAllUsesWith g A index B hA hB)]
  exact h1

theorem repeatedCheck_first {g : MIRGraph} {A B index length blockA blockB : Nat}
    {sum : LinearSum} {minA maxA minB maxB : Int}
    (h : RepeatedCheck g A B index length blockA blockB sum minA maxA minB maxB)
    (addr : Nat → Nat) (p : Nat) (hp : p + numDominatedOf g blockA < 2 ^ 32)
    (hb : (g.block blockA).isSome = true) :
    visitDefinition addr p { graph := g, checks := [] } A =
      some (true, afterFirst addr g A index length sum (p + numDominatedOf g blockA)) := by
  cases hblk : g.block blockA with
  | none => simp [hblk] at hb
  | some blk =>
    have hnd : numDominatedOf g blockA = blk.numDominated := by simp [numDominatedOf, hblk]
    rw [hnd] at hp ⊢
    have := visitDefinition_first addr { graph := g, checks := [] } A minA maxA index length
      blockA sum p blk h.first h.lengthOther.1 (repeatedCheck_sums h).1 rfl hblk
    rw [Nat.mod_eq_of_lt hp] at this
    exact this

theorem repeatedCheck_second {g : MIRGraph} {A B index length blockA blockB : Nat}
    {sum : LinearSum} {minA maxA minB maxB : Int}
    (h : RepeatedCheck g A B index length blockA blockB sum minA maxA minB maxB)
    (addr : Nat → Nat) (p v : Nat) (hp : p ≤ v) :
    visitDefinition addr p (afterFirst addr g A index length sum v) B =
      some (true, afterSecond addr g A B index length blockB sum minA maxA v p) :=
  visitDefinition_second addr (afterFirst addr g A index length sum v) A B minA maxA minB maxB
    index length blockA blockB sum p v
    (isCheck_replaceAllUsesWith h.first A h.lengthOther.1)
    (isCheck_replaceAllUsesWith h.second A h.lengthOther.1)
    h.distinct h.lengthOther.2 (repeatedCheck_sums h).2 rfl hp h.covers h.noOverflow

theorem repeatedCheck_frames {g : MIRGraph} {A B index length blockA blockB : Nat}
    {sum : LinearSum} {minA maxA minB maxB : Int}
    (h : RepeatedCheck g A B index length blockA blockB sum minA maxA minB maxB) :
    BoundsFrame g (replaceAllUsesWith g A index) ∧
      BoundsFrame g (afterSecondGraph g A B index blockB minA maxA) := by
  have h1 := boundsFrame_replaceAllUsesWith (boundsFrame_refl g) A index
  refine ⟨h1, ?_⟩
  unfold afterSecondGraph
  refine boundsFrame_discardDef (boundsFrame_setBoundsCheckRange
    (boundsFrame_replaceAllUsesWith h1 B index) A minA maxA ?_) blockB B
  intro y hy
  obtain ⟨yA, hyA, hop, _⟩ := isCheck_replaceAllUsesWith
    (isCheck_replaceAllUsesWith h.first A h.lengthOther.1) B h.lengthOther.2
  rw [hyA] at hy
  cases hy
  simp [MDefinition.isBoundsCheck, hop]

theorem repeatedCheck_result {g : MIRGraph} {A B index length blockA blockB : Nat}
    {sum : LinearSum} {minA maxA minB maxB : Int}
    (h : RepeatedCheck g A B index length blockA blockB sum minA maxA minB maxB) :
    (afterSecondGraph g A B index blockB minA maxA).inGraph B = false ∧
      (afterSecondGraph g A B index blockB minA maxA).inGraph A = true ∧
      boundsCheckRange (afterSecondGraph g A B index blockB minA maxA) A =
        some (minA, maxA) := by
  obtain ⟨hblockA, hblockB⟩ := repeatedCheck_blocks h
  have hAin : A ∈ definitionsOf g blockA := by
    rcases h.order with ⟨_, ds1, ds2, ds3, hl⟩ | ⟨_, _, hA, _⟩
    · rw [hl]; simp
    · exact hA
  refine ⟨?_, ?_, ?_⟩
  · rw [Bool.eq_false_iff]
    intro hin
    obtain ⟨i, hi⟩ := (mem_definitionsOf_of_inGraph _ B).mp hin
    have hi0 : B ∈ definitionsOf g i := mem_definitionsOf_discardDef _ blockB B i B hi
    have hib := hblockB i hi0
    subst hib
    have hnd := repeatedCheck_nodup h i
    unfold afterSecondGraph definitionsOf at hi
    rw [block_discardDef] at hi
    unfold definitionsOf at hnd
    simp only [block_setBoundsCheckRange, block_replaceAllUsesWith] at hi
    cases hb : g.block i with
    | none => simp [hb] at hi
    | some blk =>
      simp only [hb, Option.map_some', if_true, List.mem_append] at hi hnd
      rw [List.nodup_append] at hnd
      rcases hi with hi | hi
      · exact List.Nodup.not_mem_erase hnd.1 hi
      · exact List.Nodup.not_mem_erase hnd.2.1 hi
  · rw [mem_definitionsOf_of_inGraph]
    exact ⟨blockA, mem_definitionsOf_discardDef_of_ne _ blockB B blockA A h.distinct hAin⟩
  · obtain ⟨yA, hyA, _⟩ := isCheck_replaceAllUsesWith
      (isCheck_replaceAllUsesWith h.first A h.lengthOther.1) B h.lengthOther.2
    exact boundsCheckRange_setBoundsCheckRange _ A minA maxA (by rw [hyA]; rfl)

theorem repeatedCheck_visitBlocks {g : MIRGraph} {A B index length blockA blockB : Nat}
    {sum : LinearSum} {minA maxA minB maxB : Int}
    (h : RepeatedCheck g A B index length blockA blockB sum minA maxA minB maxB)
    (addr : Nat → Nat) (L : List Nat) (hO : PreOrdered g (selfDominating g) L)
    (hlen : L.length = g.blocks.length) (hmem : ∀ X, X < g.blocks.length → X ∈ L) :
    ∃ s', visitBlocks addr 0 L { graph := g, checks := [] } = some (true, s') ∧
      s'.graph = afterSecondGraph g A B index blockB minA maxA := by
  have hnon := repeatedCheck_nonCheck h
  obtain ⟨hblockA, hblockB⟩ := repeatedCheck_blocks h
  obtain ⟨hframe1, hframe2⟩ := repeatedCheck_frames h
  have hLlt : ∀ b ∈ L, b < g.blocks.length := fun b hb =>
    inSubtrees_lt_length
      (fun r hr => idomOf_lt_length ((mem_selfDominating g r).mp hr)) ((hO.mem b).mp hb)
  have hnd := preOrdered_nodup hO
  have hsmall := h.small
  have hlt_of_mem : ∀ i d, d ∈ definitionsOf g i → i < g.blocks.length := by
    intro i d hd
    by_contra hlt
    unfold definitionsOf MIRGraph.block at hd
    rw [List.getElem?_eq_none (not_lt.mp hlt)] at hd
    simp at hd
  have hskip : ∀ bs : List Nat, (∀ b ∈ bs, b ∈ L) → blockA ∉ bs → blockB ∉ bs →
      ∀ b ∈ bs, b < g.blocks.length ∧
        ∀ d ∈ definitionsOf g b, ∃ y, g.definition d = some y ∧ y.isBoundsCheck = false := by
    intro bs hbs hA hB b hb
    refine ⟨hLlt b (hbs b hb), fun d hd => hnon b d hd ?_ ?_⟩
    · rintro rfl
      exact hA (hblockA b hd ▸ hb)
    · rintro rfl
      exact hB (hblockB b hd ▸ hb)
  rcases h.order with ⟨hbb, ds1, ds2, ds3, hl⟩ | ⟨hne, hchain, hAin, hBin⟩
  · -- both checks in one block
    have hAin : A ∈ definitionsOf g blockA := by rw [hl]; simp
    have hbA := hlt_of_mem blockA A hAin
    obtain ⟨pA, hpA⟩ := List.mem_iff_getElem?.mp (hmem blockA hbA)
    obtain ⟨L1, L2, hL, hL1⟩ := split_of_getElem? L pA blockA hpA
    have hrange := hO.range pA blockA hpA
    rw [hlen] at hrange
    have hndl := repeatedCheck_nodup h blockA
    rw [hl] at hndl
    have hds : ∀ d, d ∈ ds1 ∨ d ∈ ds2 ∨ d ∈ ds3 →
        ∃ y, g.definition d = some y ∧ y.isBoundsCheck = false := by
      intro d hd
      have hdin : d ∈ definitionsOf g blockA := by
        rw [hl]
        simp only [List.mem_append, List.mem_cons]
        tauto
      refine hnon blockA d hdin ?_ ?_
      · rintro rfl
        simp only [List.append_assoc, List.cons_append] at hndl
        have := List.nodup_middle.mp hndl
        rw [List.nodup_cons] at this
        apply this.1
        simp only [List.mem_append, List.mem_cons]
        tauto
      · rintro rfl
        have := List.nodup_middle.mp hndl
        rw [List.nodup_cons] at this
        apply this.1
        simp only [List.mem_append, List.mem_cons]
        tauto
    rw [hL] at hnd
    have hnd2 := List.nodup_middle.mp hnd
    rw [List.nodup_cons, List.mem_append, not_or] at hnd2
    have hL1mem : ∀ b ∈ L1, b ∈ L := fun b hb => by rw [hL]; simp [hb]
    have hL2mem : ∀ b ∈ L2, b ∈ L := fun b hb => by rw [hL]; simp [hb]
    refine ⟨afterSecond addr g A B index length blockB sum minA maxA
      (pA + numDominatedOf g blockA) pA, ?_, rfl⟩
    rw [hL, visitBlocks_skip addr g _ (boundsFrame_refl g) L1 _ 0
      (hskip L1 hL1mem hnd2.1.1 (hbb ▸ hnd2.1.1)), Nat.zero_add, hL1]
    have hblock : visitDefinitions addr pA (definitionsOf g blockA)
        { graph := g, checks := [] } = some (true,
          afterSecond addr g A B index length blockB sum minA maxA
            (pA + numDominatedOf g blockA) pA) := by
      rw [hl, List.append_assoc, visitDefinitions_skip addr g pA _ (boundsFrame_refl g) ds1 _
        (fun d hd => hds d (Or.inl hd)), List.cons_append,
        visitDefinitions_step addr pA _ _ A _
          (repeatedCheck_first h addr pA (by omega)
            (by rw [MIRGraph.block, List.getElem?_eq_getElem hbA]; rfl)),
        visitDefinitions_skip addr g pA _ hframe1 ds2 _ (fun d hd => hds d (Or.inr (Or.inl hd))),
        visitDefinitions_step addr pA _ _ B _
          (repeatedCheck_second h addr pA _ (Nat.le_add_right _ _))]
      exact visitDefinitions_skip_all addr g pA _ hframe2 ds3
        (fun d hd => hds d (Or.inr (Or.inr hd)))
    rw [visitBlocks_step addr g pA _ _ blockA L2 (boundsFrame_refl g) hbA hblock]
    exact visitBlocks_skip_all addr g _ hframe2 L2 _
      (hskip L2 hL2mem hnd2.1.2 (hbb ▸ hnd2.1.2))
  · -- the check `A` in a block that dominates the block of `B`
    have hbA := hlt_of_mem blockA A hAin
    have hbB := hlt_of_mem blockB B hBin
    obtain ⟨pA, hpA⟩ := List.mem_iff_getElem?.mp (hmem blockA hbA)
    obtain ⟨pB, hpB⟩ := List.mem_iff_getElem?.mp (hmem blockB hbB)
    have hint := (hO.interval pA pB blockA blockB hpA hpB).mp hchain
    have hrange := hO.range pA blockA hpA
    rw [hlen] at hrange
    have hpne : pA ≠ pB := by
      rintro rfl
      rw [hpA] at hpB
      exact hne (Option.some.inj hpB)
    obtain ⟨L1, R, hL, hL1⟩ := split_of_getElem? L pA blockA hpA
    have hpB2 : R[pB - pA - 1]? = some blockB := by
      rw [hL, List.getElem?_append_right (by omega), hL1] at hpB
      have h1 : pB - pA = (pB - pA - 1) + 1 := by omega
      rw [h1, List.getElem?_cons_succ] at hpB
      exact hpB
    obtain ⟨L2, L3, hR, hL2⟩ := split_of_getElem? R (pB - pA - 1) blockB hpB2
    obtain ⟨ds1, ds2, hlA⟩ := List.append_of_mem hAin
    obtain ⟨ds3, ds4, hlB⟩ := List.append_of_mem hBin
    have hndA := repeatedCheck_nodup h blockA
    have hndB := repeatedCheck_nodup h blockB
    rw [hlA] at hndA
    rw [hlB] at hndB
    have hndA2 := List.nodup_middle.mp hndA
    have hndB2 := List.nodup_middle.mp hndB
    rw [List.nodup_cons, List.mem_append, not_or] at hndA2 hndB2
    have hdsA : ∀ d, d ∈ ds1 ∨ d ∈ ds2 →
        ∃ y, g.definition d = some y ∧ y.isBoundsCheck = false := by
      intro d hd
      have hdin : d ∈ definitionsOf g blockA := by
        rw [hlA]
        simp only [List.mem_append, List.mem_cons]
        tauto
      refine hnon blockA d hdin ?_ ?_
      · rintro rfl
        tauto
      · rintro rfl
        exact hne (hblockB blockA hdin).symm.symm
    have hdsB : ∀ d, d ∈ ds3 ∨ d ∈ ds4 →
        ∃ y, g.definition d = some y ∧ y.isBoundsCheck = false := by
      intro d hd
      have hdin : d ∈ definitionsOf g blockB := by
        rw [hlB]
        simp only [List.mem_append, List.mem_cons]
        tauto
      refine hnon blockB d hdin ?_ ?_
      · rintro rfl
        exact hne (hblockA blockB hdin).symm
      · rintro rfl
        tauto
    rw [hL, hR] at hnd
    have hnd1 := List.nodup_middle.mp hnd
    rw [List.nodup_cons, List.mem_append, not_or] at hnd1
    have hnd3 : (L1 ++ (blockA :: L2) ++ blockB :: L3).Nodup := by
      simpa [List.append_assoc] using hnd
    have hnd4 := List.nodup_middle.mp hnd3
    rw [List.nodup_cons, List.mem_append, not_or, List.mem_append, not_or] at hnd4
    have hL1mem : ∀ b ∈ L1, b ∈ L := fun b hb => by rw [hL]; simp [hb]
    have hL2mem : ∀ b ∈ L2, b ∈ L := fun b hb => by rw [hL, hR]; simp [hb]
    have hL3mem : ∀ b ∈ L3, b ∈ L := fun b hb => by rw [hL, hR]; simp [hb]
    have hA2 : blockA ∉ L2 := fun hh => hnd1.1.2 (by simp [hh])
    have hA3 : blockA ∉ L3 := fun hh => hnd1.1.2 (by simp [hh])
    refine ⟨afterSecond addr g A B index length blockB sum minA maxA
      (pA + numDominatedOf g blockA) pB, ?_, rfl⟩
    rw [hL, hR, visitBlocks_skip addr g _ (boundsFrame_refl g) L1 _ 0
      (hskip L1 hL1mem hnd1.1.1 hnd4.1.1.1), Nat.zero_add, hL1]
    have hblockA : visitDefinitions addr pA (definitionsOf g blockA)
        { graph := g, checks := [] } = some (true,
          afterFirst addr g A index length sum (pA + numDominatedOf g blockA)) := by
      rw [hlA, visitDefinitions_skip addr g pA _ (boundsFrame_refl g) ds1 _
        (fun d hd => hdsA d (Or.inl hd)),
        visitDefinitions_step addr pA _ _ A _
          (repeatedCheck_first h addr pA (by omega)
            (by rw [MIRGraph.block, List.getElem?_eq_getElem hbA]; rfl))]
      exact visitDefinitions_skip_all addr g pA _ hframe1 ds2 (fun d hd => hdsA d (Or.inr hd))
    rw [visitBlocks_step addr g pA _ _ blockA _ (boundsFrame_refl g) hbA hblockA,
      visitBlocks_skip addr g _ hframe1 L2 _ (pA + 1) (hskip L2 hL2mem hA2 (fun hh => hnd4.1.1.2 (List.mem_cons_of_mem _ hh)))]
    have hpos : pA + 1 + L2.length = pB := by omega
    rw [hpos]
    have hblockB : visitDefinitions addr pB
        (definitionsOf (afterFirst addr g A index length sum
          (pA + numDominatedOf g blockA)).graph blockB)
        (afterFirst addr g A index length sum (pA + numDominatedOf g blockA)) = some (true,
          afterSecond addr g A B index length blockB sum minA maxA
            (pA + numDominatedOf g blockA) pB) := by
      have hsame : definitionsOf (afterFirst addr g A index length sum
          (pA + numDominatedOf g blockA)).graph blockB = definitionsOf g blockB := rfl
      rw [hsame, hlB, visitDefinitions_skip addr g pB _ hframe1 ds3 _
        (fun d hd => hdsB d (Or.inl hd)),
        visitDefinitions_step addr pB _ _ B _ (repeatedCheck_second h addr pB _ hint.2)]
      exact visitDefinitions_skip_all addr g pB _ hframe2 ds4 (fun d hd => hdsB d (Or.inr hd))
    rw [visitBlocks_step addr g pB _ _ blockB L3 hframe1 hbB hblockB]
    exact visitBlocks_skip_all addr g _ hframe2 L3 _ (hskip L3 hL3mem hA3 hnd4.1.2)

/-- C7 as amended: on a graph with a consistent dominator tree and fewer than
`2^32` blocks whose only bounds checks are the movable checks `A` and `B`, of
the same length definition and the same index definition, where `A` precedes
`B` in one block or the block of `A` dominates the block of `B`, the range of
`A` covers the range of `B` and shifting it by the constant of the index does
not overflow, `EliminateRedundantBoundsChecks` returns true whenever the fuel
is at least the number of blocks, discards `B`, keeps `A` in the graph and
leaves the range of `A` unchanged. -/
theorem EliminateRedundantBoundsChecks_discards_repeated (addr : Nat → Nat) (g : MIRGraph)
    (A B index length blockA blockB : Nat) (sum : LinearSum) (minA maxA minB maxB : Int)
    (h : RepeatedCheck g A B index length blockA blockB sum minA maxA minB maxB) :
    (∀ k, EliminateRedundantBoundsChecks addr (k + g.blocks.length) g =
      some (true, afterSecondGraph g A B index blockB minA maxA)) ∧
    (afterSecondGraph g A B index blockB minA maxA).inGraph B = false ∧
    (afterSecondGraph g A B index blockB minA maxA).inGraph A = true ∧
    boundsCheckRange (afterSecondGraph g A B index blockB minA maxA) A = some (minA, maxA) := by
  refine ⟨?_, repeatedCheck_result h⟩
  intro k
  obtain ⟨L, hO, hlen, hmem, hpop⟩ := popOrder_preOrdered g (domTreeOK_spec g h.tree)
  obtain ⟨s', hs', hg'⟩ := repeatedCheck_visitBlocks h addr L hO hlen hmem
  unfold EliminateRedundantBoundsChecks runBoundsChecks
  rw [← hlen, boundsCheckLoop_eq_visitBlocks addr g (k + L.length) _ _ 0 L (hpop k)
    (boundsFrame_refl g), hs']
  simp [hg']

theorem EliminateRedundantBoundsChecks_discards_repeated_witness :
    RepeatedCheck repeatedCheckGraph 2 3 0 1 0 1 ⟨some 0, 0⟩ 0 0 0 0 ∧
    EliminateRedundantBoundsChecks id 2 repeatedCheckGraph =
      some (true, afterSecondGraph repeatedCheckGraph 2 3 0 1 0 0) ∧
    ((∀ k, EliminateRedundantBoundsChecks id (k + repeatedCheckGraph.blocks.length)
        repeatedCheckGraph = some (true, afterSecondGraph repeatedCheckGraph 2 3 0 1 0 0)) ∧
      (afterSecondGraph repeatedCheckGraph 2 3 0 1 0 0).inGraph 3 = false ∧
      (afterSecondGraph repeatedCheckGraph 2 3 0 1 0 0).inGraph 2 = true ∧
      boundsCheckRange (afterSecondGraph repeatedCheckGraph 2 3 0 1 0 0) 2 = some (0, 0)) :=
  have h : RepeatedCheck repeatedCheckGraph 2 3 0 1 0 1 ⟨some 0, 0⟩ 0 0 0 0 :=
    { tree := by decide
      consistent := by decide
      once := by decide
      small := by decide
      distinct := by decide
      first := ⟨_, rfl, rfl, rfl, rfl, rfl, rfl⟩
      second := ⟨_, rfl, rfl, rfl, rfl, rfl, rfl⟩
      order := Or.inr ⟨by decide, idomChain_step (by decide), by decide, by decide⟩
      lengthOther := by decide
      others := by decide
      sums := by decide
      linear := by decide
      covers := by decide
      noOverflow := by decide }
  ⟨h, by decide,
    EliminateRedundantBoundsChecks_discards_repeated id repeatedCheckGraph 2 3 0 1 0 1
      ⟨some 0, 0⟩ 0 0 0 0 h⟩

/-- C7 as stated fails: in `collidingChecksGraph` the movable checks 3 and 4
have the same index and the same length and stand in one block, 3 before 4,
but check 2, visited before them, holds the slot of their hash number in the
map, whatever the addresses are.  `EliminateRedundantBoundsChecks` returns true
and both checks are still in the graph. -/
theorem EliminateRedundantBoundsChecks_hash_collision_counterexample :
    IsCheck collidingChecksGraph 3 0 0 0 1 0 ∧ IsCheck collidingChecksGraph 4 0 0 0 1 0 ∧
    Precedes collidingChecksGraph 3 4 0 0 ∧
    ∀ (addr : Nat → Nat) (k : Nat), ∃ g',
      EliminateRedundantBoundsChecks addr (k + 1) collidingChecksGraph = some (true, g') ∧
      g'.inGraph 3 = true ∧ g'.inGraph 4 = true := by
  refine ⟨⟨_, rfl, rfl, rfl, rfl, rfl, rfl⟩, ⟨_, rfl, rfl, rfl, rfl, rfl, rfl⟩,
    Or.inl ⟨rfl, [0, 1, 2], [], [5], rfl⟩, ?_⟩
  intro addr k
  refine ⟨replaceAllUsesWith (replaceAllUsesWith
    (replaceAllUsesWith collidingChecksGraph 2 1) 3 0) 4 0, ?_, by decide, by decide⟩
  have hx : addr 0 ^^^ addr 1 = addr 1 ^^^ addr 0 := Nat.xor_comm _ _
  simp [EliminateRedundantBoundsChecks, runBoundsChecks, boundsCheckLoop, boundsCheckLoop_nil,
    selfDominating,
    collidingChecksGraph, freshBlock, mkDefinition, visitBlock, visitDefinitions,
    visitDefinition, MIRGraph.block, MIRGraph.definition, MDefinition.isBoundsCheck,
    boundsCheckIndex, boundsCheckLength, boundsCheckRange, replaceAllUsesWith,
    FindDominatingBoundsCheck, BoundsCheckHashIgnoreOffset, ExtractLinearSum,
    MIRGraph.sumFuel, BoundsCheckMap.lookup, BoundsCheckMap.put, TryEliminateBoundsCheck, hx,
    idomOf, List.range, List.range.loop, MIRGraph.inGraph, List.enum, List.enumFrom]

/-! ## EliminatePhis: the flags -/

theorem definition_modifyDefinition (g : MIRGraph) (d x : Nat) (f : MDefinition → MDefinition) :
    (modifyDefinition g d f).definition x =
      (g.definition x).map fun y => if d = x then f y else y := by
  simp [modifyDefinition, MIRGraph.definition, List.getElem?_modify]

theorem flagFrame_refl (T : MIRGraph) : FlagFrame T T :=
  ⟨rfl, rfl, fun _ => rfl⟩

theorem flagFrame_modify {T g : MIRGraph} (h : FlagFrame T g) (d : Nat)
    (f : MDefinition → MDefinition) (hf : ∀ y, (f y).unflagged = y.unflagged) :
    FlagFrame T (modifyDefinition g d f) := by
  refine ⟨h.blocks, h.resumePoints, ?_⟩
  intro x
  rw [definition_modifyDefinition, ← h.defs x]
  cases g.definition x with
  | none => rfl
  | some y =>
    simp only [Option.map_some', Option.some.injEq]
    split_ifs
    · exact hf y
    · rfl

theorem flagFrame_setUnused {T g : MIRGraph} (h : FlagFrame T g) (d : Nat) :
    FlagFrame T (setUnused g d) :=
  flagFrame_modify h d _ (fun _ => rfl)

theorem flagFrame_setNotUnused {T g : MIRGraph} (h : FlagFrame T g) (d : Nat) :
    FlagFrame T (setNotUnused g d) :=
  flagFrame_modify h d _ (fun _ => rfl)

theorem flagFrame_setInWorklist {T g : MIRGraph} (h : FlagFrame T g) (d : Nat) :
    FlagFrame T (setInWorklist g d) :=
  flagFrame_modify h d _ (fun _ => rfl)

theorem flagFrame_setNotInWorklist {T g : MIRGraph} (h : FlagFrame T g) (d : Nat) :
    FlagFrame T (setNotInWorklist g d) :=
  flagFrame_modify h d _ (fun _ => rfl)

theorem flagFrame_definition {T g : MIRGraph} (h : FlagFrame T g) {x : Nat} {y : MDefinition}
    (hy : g.definition x = some y) :
    ∃ yT, T.definition x = some yT ∧ y.unflagged = yT.unflagged := by
  have := h.defs x
  rw [hy] at this
  cases hT : T.definition x with
  | none => simp [hT] at this
  | some yT =>
    simp only [hT, Option.map_some', Option.some.injEq] at this
    exact ⟨yT, rfl, this⟩

theorem flagFrame_definition_inv {T g : MIRGraph} (h : FlagFrame T g) {x : Nat}
    {yT : MDefinition} (hy : T.definition x = some yT) :
    ∃ y, g.definition x = some y ∧ y.unflagged = yT.unflagged := by
  have := h.defs x
  rw [hy] at this
  cases hg : g.definition x with
  | none => simp [hg] at this
  | some y =>
    simp only [hg, Option.map_some', Option.some.injEq] at this
    exact ⟨y, rfl, this⟩

theorem unflagged_fields {y z : MDefinition} (h : y.unflagged = z.unflagged) :
    y.op = z.op ∧ y.operands = z.operands ∧ y.hasBytecodeUses = z.hasBytecodeUses ∧
      y.slot = z.slot ∧ y.isPhi = z.isPhi := by
  have h1 : y.unflagged.op = z.unflagged.op := by rw [h]
  have h2 : y.unflagged.operands = z.unflagged.operands := by rw [h]
  have h3 : y.unflagged.hasBytecodeUses = z.unflagged.hasBytecodeUses := by rw [h]
  have h4 : y.unflagged.slot = z.unflagged.slot := by rw [h]
  refine ⟨h1, h2, h3, h4, ?_⟩
  unfold MDefinition.isPhi
  have h1' : y.op = z.op := h1
  rw [h1']

theorem flagFrame_inGraph {T g : MIRGraph} (h : FlagFrame T g) (x : Nat) :
    g.inGraph x = T.inGraph x := by
  unfold MIRGraph.inGraph
  rw [h.blocks]

theorem flagFrame_allPhis {T g : MIRGraph} (h : FlagFrame T g) : allPhis g = allPhis T := by
  unfold allPhis
  rw [h.blocks]

theorem hasNonPhiUse_iff (g : MIRGraph) (p : Nat) :
    hasNonPhiUse g p = true ↔
      ∃ i y, g.definition i = some y ∧ g.inGraph i = true ∧ y.isPhi = false ∧
        p ∈ y.operands := by
  unfold hasNonPhiUse
  rw [List.any_eq_true]
  constructor
  · rintro ⟨⟨i, y⟩, hmem, h⟩
    rw [List.mem_enum_iff_getElem?] at hmem
    simp only [Bool.and_eq_true, Bool.not_eq_true', decide_eq_true_eq] at h
    exact ⟨i, y, hmem, h.1.1, h.1.2, h.2⟩
  · rintro ⟨i, y, hy, h1, h2, h3⟩
    refine ⟨(i, y), ?_, ?_⟩
    · rw [List.mem_enum_iff_getElem?]
      exact hy
    · simp only [Bool.and_eq_true, Bool.not_eq_true', decide_eq_true_eq]
      exact ⟨⟨h1, h2⟩, h3⟩

theorem flagFrame_hasNonPhiUse {T g : MIRGraph} (h : FlagFrame T g) (p : Nat) :
    hasNonPhiUse g p = hasNonPhiUse T p := by
  rw [Bool.eq_iff_iff, hasNonPhiUse_iff, hasNonPhiUse_iff]
  constructor
  · rintro ⟨i, y, hy, h1, h2, h3⟩
    obtain ⟨yT, hyT, hu⟩ := flagFrame_definition h hy
    obtain ⟨_, hops, _, _, hphi⟩ := unflagged_fields hu
    exact ⟨i, yT, hyT, (flagFrame_inGraph h i) ▸ h1, hphi ▸ h2, hops ▸ h3⟩
  · rintro ⟨i, yT, hyT, h1, h2, h3⟩
    obtain ⟨y, hy, hu⟩ := flagFrame_definition_inv h hyT
    obtain ⟨_, hops, _, _, hphi⟩ := unflagged_fields hu
    exact ⟨i, y, hy, (flagFrame_inGraph h i).symm ▸ h1, hphi.symm ▸ h2, hops.symm ▸ h3⟩

theorem flagFrame_IsPhiObservable {T g : MIRGraph} (h : FlagFrame T g) (p : Nat) :
    IsPhiObservable g p = IsPhiObservable T p := by
  unfold IsPhiObservable
  rw [flagFrame_hasNonPhiUse h p]
  cases hg : g.definition p with
  | none =>
    cases hT : T.definition p with
    | none => rfl
    | some yT =>
      obtain ⟨y, hy, _⟩ := flagFrame_definition_inv h hT
      rw [hg] at hy
      cases hy
  | some y =>
    obtain ⟨yT, hyT, hu⟩ := flagFrame_definition h hg
    obtain ⟨_, _, hb, hs, _⟩ := unflagged_fields hu
    simp only [hyT, hb, hs]

/-! ## EliminatePhis without redundant Phis: the first loop -/

theorem phisCoherent_spec (g : MIRGraph) (h : phisCoherent g = true) :
    (∀ p ∈ allPhis g, ∃ y, g.definition p = some y ∧ y.isPhi = true) ∧
      (allPhis g).Nodup ∧
      ∀ i y, g.definition i = some y → y.isPhi = true →
        i ∈ allPhis g ∧ y.inWorklist = false ∧ ∀ o ∈ y.operands, o < g.defs.length := by
  unfold phisCoherent at h
  simp only [Bool.and_eq_true, List.all_eq_true, decide_eq_true_eq] at h
  obtain ⟨⟨h1, h2⟩, h3⟩ := h
  refine ⟨?_, h2, ?_⟩
  · intro p hp
    have := h1 p hp
    cases hy : g.definition p with
    | none => simp [hy] at this
    | some y => exact ⟨y, rfl, by simpa [hy] using this⟩
  · intro i y hy hphi
    have := h3 (i, y) ((List.mem_enum_iff_getElem? ).mpr hy)
    simp only [hphi, Bool.not_true, Bool.false_or, Bool.and_eq_true, decide_eq_true_eq,
      Bool.not_eq_true', List.all_eq_true] at this
    exact ⟨this.1.1, this.1.2, this.2⟩

theorem noPhiRedundant_spec (g : MIRGraph) (h : noPhiRedundant g = true) :
    ∀ i y, g.definition i = some y → y.isPhi = true → hasOtherOperand y i = true := by
  intro i y hy hphi
  unfold noPhiRedundant at h
  rw [List.all_eq_true] at h
  have := h (i, y) ((List.mem_enum_iff_getElem? ).mpr hy)
  simpa [hphi] using this

theorem IsPhiRedundant_of_other (g : MIRGraph) (p : Nat) (y : MDefinition)
    (hy : g.definition p = some y) (h : hasOtherOperand y p = true) :
    IsPhiRedundant g p = some (none, g) := by
  unfold IsPhiRedundant
  unfold hasOtherOperand at h
  rw [hy]
  cases hops : y.operands with
  | nil => simp [hops] at h
  | cons first rest =>
    simp only [hops] at h
    simp only [hops, h, if_true]

theorem hasOtherOperand_congr {y z : MDefinition} (h : y.unflagged = z.unflagged) (p : Nat) :
    hasOtherOperand y p = hasOtherOperand z p := by
  unfold hasOtherOperand
  rw [(unflagged_fields h).2.1]

theorem isUnused_modify (g : MIRGraph) (d p : Nat) (f : MDefinition → MDefinition) :
    isUnused (modifyDefinition g d f) p =
      match g.definition p with
      | some y => if d = p then (f y).unused else y.unused
      | none => false := by
  unfold isUnused
  rw [definition_modifyDefinition]
  cases g.definition p with
  | none => rfl
  | some y =>
    simp only [Option.map_some']
    split_ifs <;> rfl

theorem isInWorklist_modify (g : MIRGraph) (d p : Nat) (f : MDefinition → MDefinition) :
    isInWorklist (modifyDefinition g d f) p =
      match g.definition p with
      | some y => if d = p then (f y).inWorklist else y.inWorklist
      | none => false := by
  unfold isInWorklist
  rw [definition_modifyDefinition]
  cases g.definition p with
  | none => rfl
  | some y =>
    simp only [Option.map_some']
    split_ifs <;> rfl

theorem definition_modify_of_ne (g : MIRGraph) (d p : Nat) (f : MDefinition → MDefinition)
    (h : d ≠ p) : (modifyDefinition g d f).definition p = g.definition p := by
  rw [definition_modifyDefinition]
  cases g.definition p with
  | none => rfl
  | some y => simp [h]

theorem seedPhi_spec (T : MIRGraph) (hnr : noPhiRedundant T = true) (s : PhiState)
    (V : List Nat) (b p : Nat) (yT : MDefinition) (hp : T.definition p = some yT)
    (hphi : yT.isPhi = true) (hwl : yT.inWorklist = false) (hV : p ∉ V)
    (hinv : Seeded T s V) :
    ∃ s', seedPhi s b p = .ok s' ∧ Seeded T s' (V ++ [p]) := by
  have hf1 := flagFrame_setUnused hinv.frame p
  obtain ⟨y1, hy1, hu1⟩ := flagFrame_definition_inv hf1 hp
  have hother : hasOtherOperand y1 p = true := by
    rw [hasOtherOperand_congr hu1 p]
    exact noPhiRedundant_spec T hnr p yT hp hphi
  have hred := IsPhiRedundant_of_other _ p y1 hy1 hother
  have hobs := flagFrame_IsPhiObservable hf1 p
  have hdefp : s.graph.definition p = some yT := (hinv.pending p hV).trans hp
  have hun1 : isUnused (setUnused s.graph p) p = true := by
    unfold setUnused
    rw [isUnused_modify, hdefp]
    simp
  have hobsSome : ∃ o, IsPhiObservable T p = some o := by
    unfold IsPhiObservable
    rw [hp]
    exact ⟨_, rfl⟩
  obtain ⟨o, ho⟩ := hobsSome
  unfold seedPhi
  simp only [hred, hobs, ho]
  have hothers : ∀ q ∈ V, q ≠ p := fun q hq hqp => hV (hqp ▸ hq)
  cases o with
  | true =>
    refine ⟨_, rfl, ⟨flagFrame_setInWorklist hf1 p, ?_, ?_, ?_, hinv.replaced⟩⟩
    · intro q hq
      rcases List.mem_append.mp hq with hq | hq
      · have hne := hothers q hq
        obtain ⟨h1, h2⟩ := hinv.visited q hq
        unfold setInWorklist setUnused isUnused isInWorklist at *
        rw [definition_modify_of_ne _ _ _ _ (Ne.symm hne),
          definition_modify_of_ne _ _ _ _ (Ne.symm hne)]
        exact ⟨h1, h2⟩
      · rw [List.mem_singleton] at hq
        subst hq
        constructor
        · unfold setInWorklist
          rw [isUnused_modify]
          unfold isUnused at hun1
          cases hd : (setUnused s.graph q).definition q with
          | none => simp [hd] at hun1
          | some y => simpa [hd] using hun1
        · unfold setInWorklist
          rw [isInWorklist_modify, hy1]
          simp [observable, ho]
    · intro q hq
      rw [List.mem_append, not_or, List.mem_singleton] at hq
      unfold setInWorklist setUnused
      rw [definition_modify_of_ne _ _ _ _ (Ne.symm hq.2),
        definition_modify_of_ne _ _ _ _ (Ne.symm hq.2)]
      exact hinv.pending q hq.1
    · simp only [List.filter_append, hinv.worklist, List.filter_cons, List.filter_nil]
      simp [observable, ho]
  | false =>
    refine ⟨_, rfl, ⟨hf1, ?_, ?_, ?_, hinv.replaced⟩⟩
    · intro q hq
      rcases List.mem_append.mp hq with hq | hq
      · have hne := hothers q hq
        obtain ⟨h1, h2⟩ := hinv.visited q hq
        unfold setUnused isUnused isInWorklist at *
        rw [definition_modify_of_ne _ _ _ _ (Ne.symm hne)]
        exact ⟨h1, h2⟩
      · rw [List.mem_singleton] at hq
        subst hq
        refine ⟨hun1, ?_⟩
        unfold setUnused
        rw [isInWorklist_modify, hdefp]
        simp [observable, ho, hwl]
    · intro q hq
      rw [List.mem_append, not_or, List.mem_singleton] at hq
      unfold setUnused
      rw [definition_modify_of_ne _ _ _ _ (Ne.symm hq.2)]
      exact hinv.pending q hq.1
    · simp only [List.filter_append, hinv.worklist, List.filter_cons, List.filter_nil]
      simp [observable, ho]

theorem mem_allPhis (g : MIRGraph) (p : Nat) :
    p ∈ allPhis g ↔ ∃ b blk, g.block b = some blk ∧ p ∈ blk.phis := by
  unfold allPhis
  simp only [List.mem_flatten, List.mem_map]
  constructor
  · rintro ⟨l, ⟨blk, hblk, rfl⟩, hp⟩
    obtain ⟨b, hb, hget⟩ := List.getElem_of_mem hblk
    exact ⟨b, blk, by rw [MIRGraph.block, List.getElem?_eq_getElem hb, hget], hp⟩
  · rintro ⟨b, blk, hb, hp⟩
    exact ⟨blk.phis, ⟨blk, List.getElem?_mem hb, rfl⟩, hp⟩

theorem seedPhis_spec (T : MIRGraph) (hnr : noPhiRedundant T = true)
    (hcoh : phisCoherent T = true) (b : Nat) :
    ∀ (ps : List Nat) (s : PhiState) (V : List Nat), Seeded T s V → (V ++ ps).Nodup →
      (∀ p ∈ ps, p ∈ allPhis T) →
      ∃ s', seedPhis b ps s = .ok s' ∧ Seeded T s' (V ++ ps) := by
  obtain ⟨hlisted, _, hphis⟩ := phisCoherent_spec T hcoh
  intro ps
  induction ps with
  | nil =>
    intro s V hinv _ _
    exact ⟨s, rfl, by rw [List.append_nil]; exact hinv⟩
  | cons p ps ih =>
    intro s V hinv hnd hall
    obtain ⟨yT, hyT, hphi⟩ := hlisted p (hall p (List.mem_cons_self _ _))
    have hpV : p ∉ V := by
      intro hp
      have := List.nodup_middle.mp hnd
      rw [List.nodup_cons] at this
      exact this.1 (List.mem_append_left _ hp)
    obtain ⟨s1, hs1, hinv1⟩ := seedPhi_spec T hnr s V b p yT hyT hphi
      (hphis p yT hyT hphi).2.1 hpV hinv
    have hnd1 : ((V ++ [p]) ++ ps).Nodup := by
      rw [List.append_assoc]
      exact hnd
    obtain ⟨s2, hs2, hinv2⟩ := ih s1 (V ++ [p]) hinv1 hnd1
      (fun q hq => hall q (List.mem_cons_of_mem _ hq))
    refine ⟨s2, ?_, ?_⟩
    · rw [seedPhis, hs1]
      exact hs2
    · rw [List.append_assoc] at hinv2
      exact hinv2

theorem block_of_flagFrame {T g : MIRGraph} (h : FlagFrame T g) (b : Nat) :
    g.block b = T.block b := by
  unfold MIRGraph.block
  rw [h.blocks]

theorem phisIn_cons (g : MIRGraph) (b : Nat) (bs : List Nat) (blk : MBasicBlock)
    (hb : g.block b = some blk) : phisIn g (b :: bs) = blk.phis ++ phisIn g bs := by
  simp [phisIn, hb]

theorem seedBlocks_spec (T : MIRGraph) (hnr : noPhiRedundant T = true)
    (hcoh : phisCoherent T = true) :
    ∀ (bs : List Nat) (s : PhiState) (V : List Nat), Seeded T s V →
      (V ++ phisIn T bs).Nodup → (∀ b ∈ bs, b < T.blocks.length) →
      ∃ s', seedBlocks bs s = .ok s' ∧ Seeded T s' (V ++ phisIn T bs) := by
  intro bs
  induction bs with
  | nil =>
    intro s V hinv _ _
    exact ⟨s, rfl, by simpa [phisIn] using hinv⟩
  | cons b bs ih =>
    intro s V hinv hnd hall
    have hb := hall b (List.mem_cons_self _ _)
    have hblk : T.block b = some T.blocks[b] := by
      rw [MIRGraph.block, List.getElem?_eq_getElem hb]
    rw [phisIn_cons T b bs _ hblk] at hnd ⊢
    rw [← List.append_assoc] at hnd
    obtain ⟨s1, hs1, hinv1⟩ := seedPhis_spec T hnr hcoh b T.blocks[b].phis s V hinv
      (List.Nodup.of_append_left hnd)
      (fun p hp => (mem_allPhis T p).mpr ⟨b, _, hblk, hp⟩)
    obtain ⟨s2, hs2, hinv2⟩ := ih s1 _ hinv1 hnd
      (fun c hc => hall c (List.mem_cons_of_mem _ hc))
    refine ⟨s2, ?_, ?_⟩
    · rw [seedBlocks, block_of_flagFrame hinv.frame b, hblk]
      simp only [hs1]
      exact hs2
    · rw [← List.append_assoc]
      exact hinv2

theorem allPhis_eq_phisIn (g : MIRGraph) :
    allPhis g = phisIn g (List.range g.blocks.length) := by
  unfold allPhis phisIn
  congr 1
  apply List.ext_getElem
  · simp
  · intro i h1 h2
    simp only [List.getElem_map, List.getElem_range]
    rw [List.length_map] at h1
    simp [MIRGraph.block, List.getElem?_eq_getElem h1]

theorem phisIn_postorder_perm (g : MIRGraph) : (phisIn g g.postorder).Perm (allPhis g) := by
  rw [allPhis_eq_phisIn]
  unfold phisIn MIRGraph.postorder
  exact List.Perm.flatten (List.Perm.map _ (List.reverse_perm _))

/-! ## EliminatePhis without redundant Phis: the worklist loop -/

theorem unusedCount_modify (g : MIRGraph) (d : Nat) (f : MDefinition → MDefinition)
    (y : MDefinition) (hy : g.definition d = some y) :
    unusedCount (modifyDefinition g d f) + (if y.unused then 1 else 0) =
      unusedCount g + (if (f y).unused then 1 else 0) := by
  unfold MIRGraph.definition at hy
  obtain ⟨hd, hget⟩ := List.getElem?_eq_some.mp hy
  obtain ⟨l1, a, l2, hl, hlen, hmod⟩ := List.exists_of_modify f hd
  have ha : a = y := by
    have : g.defs[d]? = some a := by
      rw [hl, List.getElem?_append_right (by omega), hlen, Nat.sub_self]
      simp
    rw [hy] at this
    exact (Option.some.inj this).symm
  subst ha
  unfold unusedCount modifyDefinition
  simp only [hmod]
  rw [hl, List.countP_append, List.countP_append, List.countP_cons, List.countP_cons]
  omega

theorem livePhi_step {T : MIRGraph} {p o : Nat} (hp : LivePhi T p) (ho : PhiOperand T p o) :
    LivePhi T o := by
  obtain ⟨q, hq, hobs, hpath⟩ := hp
  exact ⟨q, hq, hobs, hpath.tail ho⟩

theorem marking_current {T g : MIRGraph} {wl : List Nat} {X : Nat}
    (h : Marking T g wl X []) (X' : Nat) (todo : List Nat) : Marking T g wl X' todo := by
  refine ⟨h.frame, h.nodup, h.flagged, h.queued, ?_, h.observed⟩
  intro p hp hu
  obtain ⟨h1, h2⟩ := h.used p hp hu
  refine ⟨h1, fun o ho => ?_⟩
  rcases h2 o ho with ⟨_, h3⟩ | h3
  · cases h3
  · exact Or.inr h3

theorem enqueueOperands_spec (T : MIRGraph) (hcoh : phisCoherent T = true) (X : Nat)
    (yX : MDefinition) (hX : T.definition X = some yX) (hXphi : yX.isPhi = true)
    (hlive : LivePhi T X) :
    ∀ (ops : List Nat) (g : MIRGraph) (wl : List Nat), Marking T g wl X ops →
      (∀ o ∈ ops, o ∈ yX.operands) →
      ∃ g' wl', enqueueOperands ops g wl = .ok (g', wl') ∧ Marking T g' wl' X [] ∧
        unusedCount g' = unusedCount g := by
  obtain ⟨_, _, hphis⟩ := phisCoherent_spec T hcoh
  intro ops
  induction ops with
  | nil =>
    intro g wl hinv _
    exact ⟨g, wl, rfl, hinv, rfl⟩
  | cons o ops ih =>
    intro g wl hinv hops
    have hoX := hops o (List.mem_cons_self _ _)
    have holt := (hphis X yX hX hXphi).2.2 o hoX
    have hoT : T.definition o = some T.defs[o] := by
      rw [MIRGraph.definition, List.getElem?_eq_getElem holt]
    obtain ⟨d, hd, hdu⟩ := flagFrame_definition_inv hinv.frame hoT
    have hdphi : d.isPhi = T.defs[o].isPhi := (unflagged_fields hdu).2.2.2.2
    have hrest : ∀ o' ∈ ops, o' ∈ yX.operands := fun o' ho' =>
      hops o' (List.mem_cons_of_mem _ ho')
    unfold enqueueOperands
    rw [hd]
    by_cases hskip : (!d.isPhi || !d.unused || d.inWorklist) = true
    · simp only [hskip, if_true]
      refine ih g wl ?_ hrest
      refine ⟨hinv.frame, hinv.nodup, hinv.flagged, hinv.queued, ?_, hinv.observed⟩
      intro p hp hu
      obtain ⟨h1, h2⟩ := hinv.used p hp hu
      refine ⟨h1, fun o' ho' => ?_⟩
      rcases h2 o' ho' with ⟨hpX, h3⟩ | h3
      · rcases List.mem_cons.mp h3 with h3 | h3
        · subst h3
          obtain ⟨_, z, _, _, _, hz, hzphi⟩ := ho'
          rw [hoT] at hz
          cases hz
          rw [← hdphi] at hzphi
          simp only [hzphi, Bool.not_true, Bool.false_or, Bool.or_eq_true,
            Bool.not_eq_true'] at hskip
          rcases hskip with hskip | hskip
          · right; left
            simp [isUnused, hd, hskip]
          · right; right
            exact (hinv.flagged o' (hphis o' _ hoT (hdphi ▸ hzphi)).1).mp
              (by simp [isInWorklist, hd, hskip])
        · exact Or.inl ⟨hpX, h3⟩
      · exact Or.inr h3
    · simp only [hskip, Bool.false_eq_true, if_false]
      simp only [Bool.or_eq_true, Bool.not_eq_true', not_or, Bool.not_eq_false] at hskip
      obtain ⟨⟨hphi, hun⟩, hnwl⟩ := hskip
      have hTphi : T.defs[o].isPhi = true := hdphi ▸ hphi
      have holisted : o ∈ allPhis T := (hphis o _ hoT hTphi).1
      have hnotin : o ∉ wl := fun hh => by
        have := (hinv.flagged o holisted).mpr hh
        simp [isInWorklist, hd] at this
        rw [this] at hnwl
        exact hnwl rfl
      have hedge : PhiOperand T X o := ⟨yX, _, hX, hXphi, hoX, hoT, hTphi⟩
      have hpush : Marking T (setInWorklist g o) (wl ++ [o]) X ops := by
        refine ⟨flagFrame_setInWorklist hinv.frame o, ?_, ?_, ?_, ?_, ?_⟩
        · rw [List.nodup_append]
          refine ⟨hinv.nodup, List.nodup_singleton o, ?_⟩
          intro a ha hb
          rw [List.mem_singleton] at hb
          exact hnotin (hb ▸ ha)
        · intro p hp
          unfold setInWorklist
          rw [isInWorklist_modify, List.mem_append, List.mem_singleton]
          by_cases hpo : o = p
          · subst hpo
            simp [hd]
          · have := hinv.flagged p hp
            unfold isInWorklist at this
            cases hdp : g.definition p with
            | none => simp [hdp] at this ⊢; exact ⟨this, fun hh => hpo hh.symm⟩
            | some yp =>
              simp only [hdp, if_neg hpo] at this ⊢
              rw [this]
              constructor
              · exact Or.inl
              · rintro (hh | hh)
                · exact hh
                · exact absurd hh.symm hpo
        · intro p hp
          rcases List.mem_append.mp hp with hp | hp
          · obtain ⟨h1, h2, h3⟩ := hinv.queued p hp
            refine ⟨h1, ?_, h3⟩
            unfold setInWorklist
            rw [isUnused_modify]
            unfold isUnused at h2
            cases hdp : g.definition p with
            | none => simp [hdp] at h2
            | some yp =>
              simp only [hdp] at h2 ⊢
              split_ifs <;> exact h2
          · rw [List.mem_singleton] at hp
            subst hp
            refine ⟨holisted, ?_, livePhi_step hlive hedge⟩
            unfold setInWorklist
            rw [isUnused_modify, hd]
            simp [hun]
        · intro p hp hu
          have hu' : isUnused g p = false := by
            unfold setInWorklist at hu
            rw [isUnused_modify] at hu
            unfold isUnused
            cases hdp : g.definition p with
            | none => rfl
            | some yp =>
              simp only [hdp] at hu ⊢
              split_ifs at hu <;> exact hu
          obtain ⟨h1, h2⟩ := hinv.used p hp hu'
          refine ⟨h1, fun o' ho' => ?_⟩
          have hun' : ∀ q, isUnused g q = false → isUnused (setInWorklist g o) q = false := by
            intro q hq
            unfold setInWorklist
            rw [isUnused_modify]
            unfold isUnused at hq
            cases hdq : g.definition q with
            | none => rfl
            | some yq =>
              simp only [hdq] at hq ⊢
              split_ifs <;> exact hq
          rcases h2 o' ho' with ⟨hpX, h3⟩ | h3 | h3
          · rcases List.mem_cons.mp h3 with h3 | h3
            · right; right
              rw [h3]
              exact List.mem_append_right _ (List.mem_singleton_self _)
            · exact Or.inl ⟨hpX, h3⟩
          · exact Or.inr (Or.inl (hun' o' h3))
          · exact Or.inr (Or.inr (List.mem_append_left _ h3))
        · intro p hp hobs
          rcases hinv.observed p hp hobs with h3 | h3
          · left
            unfold setInWorklist
            rw [isUnused_modify]
            unfold isUnused at h3
            cases hdp : g.definition p with
            | none => rfl
            | some yp =>
              simp only [hdp] at h3 ⊢
              split_ifs <;> exact h3
          · exact Or.inr (List.mem_append_left _ h3)
      obtain ⟨g', wl', hrun, hinv', hcount⟩ := ih (setInWorklist g o) (wl ++ [o]) hpush hrest
      refine ⟨g', wl', hrun, hinv', hcount.trans ?_⟩
      have := unusedCount_modify g o (fun x => { x with inWorklist := true }) d hd
      simp only at this
      unfold setInWorklist
      omega

theorem isUnused_of_ne (g : MIRGraph) (d q : Nat) (f : MDefinition → MDefinition)
    (h : d ≠ q) : isUnused (modifyDefinition g d f) q = isUnused g q := by
  unfold isUnused
  rw [definition_modify_of_ne g d q f h]

theorem isInWorklist_of_ne (g : MIRGraph) (d q : Nat) (f : MDefinition → MDefinition)
    (h : d ≠ q) : isInWorklist (modifyDefinition g d f) q = isInWorklist g q := by
  unfold isInWorklist
  rw [definition_modify_of_ne g d q f h]

theorem markPhi_spec (T : MIRGraph) (hnr : noPhiRedundant T = true)
    (hcoh : phisCoherent T = true) (s : PhiState) (X X0 : Nat) (ws : List Nat)
    (hinv : Marking T s.graph (ws ++ [X]) X0 []) :
    ∃ s', markPhi s X ws = .ok s' ∧ Marking T s'.graph s'.worklist X [] ∧
      unusedCount s'.graph + 1 = unusedCount s.graph ∧ s'.replaced = s.replaced := by
  obtain ⟨hlisted, _, hphis⟩ := phisCoherent_spec T hcoh
  have hXwl : X ∈ ws ++ [X] := List.mem_append_right _ (List.mem_singleton_self _)
  obtain ⟨hXlisted, hXun, hXlive⟩ := hinv.queued X hXwl
  obtain ⟨yT, hyT, hTphi⟩ := hlisted X hXlisted
  obtain ⟨p, hp, hpu⟩ := flagFrame_definition_inv hinv.frame hyT
  have hpun : p.unused = true := by simpa [isUnused, hp] using hXun
  have hnd := List.nodup_middle.mp (by simpa using hinv.nodup : (ws ++ X :: []).Nodup)
  rw [List.append_nil, List.nodup_cons] at hnd
  have hXws : X ∉ ws := hnd.1
  -- the graph after `setNotInWorklist` and `setNotUnused`
  have hf1 := flagFrame_setNotInWorklist hinv.frame X
  obtain ⟨y1, hy1, hu1⟩ := flagFrame_definition_inv hf1 hyT
  have hred : IsPhiRedundant (setNotInWorklist s.graph X) X =
      some (none, setNotInWorklist s.graph X) :=
    IsPhiRedundant_of_other _ X y1 hy1
      ((hasOtherOperand_congr hu1 X).trans (noPhiRedundant_spec T hnr X yT hyT hTphi))
  have hf4 := flagFrame_setNotUnused hf1 X
  obtain ⟨p4, hp4, hu4⟩ := flagFrame_definition_inv hf4 hyT
  have hops4 : p4.operands = yT.operands := (unflagged_fields hu4).2.1
  have hun4 : ∀ q, q ≠ X →
      isUnused (setNotUnused (setNotInWorklist s.graph X) X) q = isUnused s.graph q := by
    intro q hq
    unfold setNotUnused setNotInWorklist
    rw [isUnused_of_ne _ _ _ _ (Ne.symm hq), isUnused_of_ne _ _ _ _ (Ne.symm hq)]
  have hwl4 : ∀ q, q ≠ X →
      isInWorklist (setNotUnused (setNotInWorklist s.graph X) X) q =
        isInWorklist s.graph q := by
    intro q hq
    unfold setNotUnused setNotInWorklist
    rw [isInWorklist_of_ne _ _ _ _ (Ne.symm hq), isInWorklist_of_ne _ _ _ _ (Ne.symm hq)]
  have hunX : isUnused (setNotUnused (setNotInWorklist s.graph X) X) X = false := by
    unfold setNotUnused
    rw [isUnused_modify, hy1]
    simp
  have hwlX : isInWorklist (setNotUnused (setNotInWorklist s.graph X) X) X = false := by
    unfold setNotUnused setNotInWorklist
    rw [isInWorklist_modify, definition_modifyDefinition, hp]
    simp
  have hmark : Marking T (setNotUnused (setNotInWorklist s.graph X) X) ws X p4.operands := by
    refine ⟨hf4, hnd.2, ?_, ?_, ?_, ?_⟩
    · intro q hq
      by_cases hqX : q = X
      · subst hqX
        rw [hwlX]
        exact ⟨fun hh => Bool.noConfusion hh, fun hh => absurd hh hXws⟩
      · rw [hwl4 q hqX, hinv.flagged q hq, List.mem_append, List.mem_singleton]
        exact ⟨fun hh => hh.resolve_right hqX, Or.inl⟩
    · intro q hq
      have hqX : q ≠ X := fun hh => hXws (hh ▸ hq)
      obtain ⟨h1, h2, h3⟩ := hinv.queued q (List.mem_append_left _ hq)
      exact ⟨h1, by rw [hun4 q hqX]; exact h2, h3⟩
    · intro q hq hu
      by_cases hqX : q = X
      · subst hqX
        refine ⟨hXlive, fun o ho => Or.inl ⟨rfl, ?_⟩⟩
        obtain ⟨y, _, hy, _, hmem, _, _⟩ := ho
        rw [hyT] at hy
        cases hy
        rw [hops4]
        exact hmem
      · rw [hun4 q hqX] at hu
        obtain ⟨h1, h2⟩ := hinv.used q hq hu
        refine ⟨h1, fun o ho => ?_⟩
        rcases h2 o ho with ⟨_, h3⟩ | h3 | h3
        · cases h3
        · by_cases hoX : o = X
          · subst hoX
            exact Or.inr (Or.inl hunX)
          · exact Or.inr (Or.inl (by rw [hun4 o hoX]; exact h3))
        · rcases List.mem_append.mp h3 with h3 | h3
          · exact Or.inr (Or.inr h3)
          · rw [List.mem_singleton] at h3
            subst h3
            exact Or.inr (Or.inl hunX)
    · intro q hq hobs
      by_cases hqX : q = X
      · subst hqX
        exact Or.inl hunX
      · rcases hinv.observed q hq hobs with h3 | h3
        · exact Or.inl (by rw [hun4 q hqX]; exact h3)
        · rcases List.mem_append.mp h3 with h3 | h3
          · exact Or.inr h3
          · rw [List.mem_singleton] at h3
            exact absurd h3 hqX
  obtain ⟨g5, wl5, hrun, hinv5, hcount5⟩ := enqueueOperands_spec T hcoh X yT hyT hTphi hXlive
    p4.operands _ ws hmark (fun o ho => hops4 ▸ ho)
  refine ⟨{ graph := g5, worklist := wl5, replaced := s.replaced }, ?_, hinv5, ?_, rfl⟩
  · unfold markPhi
    simp only [hp, hpun, Bool.not_true, Bool.false_eq_true, if_false, hred, hp4, hrun,
      Option.isSome_none]
  · rw [hcount5]
    have h1 := unusedCount_modify s.graph X (fun x => { x with inWorklist := false }) p hp
    have h2 := unusedCount_modify (setNotInWorklist s.graph X) X
      (fun x => { x with unused := false }) y1 hy1
    have hy1un : y1.unused = true := by
      unfold setNotInWorklist at hy1
      rw [definition_modifyDefinition, hp] at hy1
      simp only [Option.map_some', if_true, Option.some.injEq] at hy1
      rw [← hy1]
      exact hpun
    simp only [hpun, hy1un, if_true] at h1 h2
    unfold setNotUnused
    unfold setNotInWorklist at h2 ⊢
    simp only [Bool.false_eq_true, if_false] at h2
    omega

theorem markPhis_spec (T : MIRGraph) (hnr : noPhiRedundant T = true)
    (hcoh : phisCoherent T = true) :
    ∀ (fuel : Nat) (s : PhiState) (X0 : Nat), Marking T s.graph s.worklist X0 [] →
      unusedCount s.graph < fuel →
      ∃ s' X, markPhis fuel s = .ok s' ∧ Marking T s'.graph [] X [] ∧
        s'.worklist = [] ∧ s'.replaced = s.replaced := by
  intro fuel
  induction fuel with
  | zero => intro s X0 _ h; omega
  | succ fuel ih =>
    intro s X0 hinv hfuel
    unfold markPhis
    cases hwl : s.worklist with
    | nil =>
      refine ⟨s, X0, rfl, ?_, hwl, rfl⟩
      rw [hwl] at hinv
      exact hinv
    | cons w ws =>
      simp only
      have hsplit := List.dropLast_append_getLast (List.cons_ne_nil w ws)
      rw [hwl, ← hsplit] at hinv
      obtain ⟨s1, hs1, hinv1, hcount, hrep⟩ := markPhi_spec T hnr hcoh s _ X0 _ hinv
      rw [hs1]
      simp only
      obtain ⟨s', X, hs', hinv', hwl', hrep'⟩ := ih s1 _ hinv1 (by omega)
      exact ⟨s', X, hs', hinv', hwl', hrep'.trans hrep⟩

/-! ## EliminatePhis: the sweep -/

theorem block_discardPhi (g : MIRGraph) (b p i : Nat) :
    (discardPhi g b p).block i =
      (g.block i).map fun blk =>
        if b = i then { blk with phis := blk.phis.erase p } else blk := by
  simp [discardPhi, MIRGraph.block, List.getElem?_modify]

theorem sweepPhis_spec (b : Nat) :
    ∀ (ps pre : List Nat) (g : MIRGraph) (blk : MBasicBlock), g.block b = some blk →
      blk.phis = pre ++ ps → (pre ++ ps).Nodup → (∀ p ∈ ps, (g.definition p).isSome = true) →
      ∃ g', sweepPhis b ps g = .ok g' ∧ g'.defs = g.defs ∧
        g'.resumePoints = g.resumePoints ∧ (∀ i, i ≠ b → g'.block i = g.block i) ∧
        g'.block b =
          some { blk with phis := pre ++ ps.filter fun p => !isUnused g p } := by
  intro ps
  induction ps with
  | nil =>
    intro pre g blk hb hl _ _
    refine ⟨g, rfl, rfl, rfl, fun _ _ => rfl, ?_⟩
    rw [hb, List.filter_nil, ← hl]
  | cons p ps ih =>
    intro pre g blk hb hl hnd hdefs
    have hp := hdefs p (List.mem_cons_self _ _)
    cases hy : g.definition p with
    | none => simp [hy] at hp
    | some y =>
      have hppre : p ∉ pre := by
        have := List.nodup_middle.mp hnd
        rw [List.nodup_cons] at this
        exact fun hh => this.1 (List.mem_append_left _ hh)
      unfold sweepPhis sweepPhi
      simp only [hy]
      by_cases hun : y.unused = true
      · simp only [hun, if_true]
        have hb1 : (discardPhi g b p).block b = some { blk with phis := pre ++ ps } := by
          rw [block_discardPhi, hb]
          simp only [Option.map_some', if_true, hl]
          rw [List.erase_append_right _ hppre, List.erase_cons_head]
        have hnd1 : (pre ++ ps).Nodup := by
          have := List.nodup_middle.mp hnd
          rw [List.nodup_cons] at this
          exact this.2
        obtain ⟨g', hrun, hdefs', hrp', hother, hblk⟩ := ih pre (discardPhi g b p) _ hb1 rfl hnd1
          (fun q hq => hdefs q (List.mem_cons_of_mem _ hq))
        refine ⟨g', hrun, hdefs', hrp', ?_, ?_⟩
        · intro i hi
          rw [hother i hi, block_discardPhi]
          cases g.block i with
          | none => rfl
          | some _ => simp [Ne.symm hi]
        · rw [hblk]
          have hpu : isUnused g p = true := by simp [isUnused, hy, hun]
          simp only [List.filter_cons, hpu, Bool.not_true, Bool.false_eq_true, if_false]
          rfl
      · simp only [hun, Bool.false_eq_true, if_false]
        have hl1 : blk.phis = (pre ++ [p]) ++ ps := by
          rw [hl, List.append_assoc]
          rfl
        have hnd1 : ((pre ++ [p]) ++ ps).Nodup := by
          rw [List.append_assoc]
          exact hnd
        obtain ⟨g', hrun, hdefs', hrp', hother, hblk⟩ := ih (pre ++ [p]) g blk hb hl1 hnd1
          (fun q hq => hdefs q (List.mem_cons_of_mem _ hq))
        refine ⟨g', hrun, hdefs', hrp', hother, ?_⟩
        rw [hblk]
        have hpu : isUnused g p = false := by
          simp only [isUnused, hy]
          simpa using hun
        simp only [List.filter_cons, hpu, Bool.not_false, if_true, List.append_assoc,
          List.singleton_append]

theorem isUnused_congr {g g' : MIRGraph} (h : g'.defs = g.defs) (p : Nat) :
    isUnused g' p = isUnused g p := by
  unfold isUnused MIRGraph.definition
  rw [h]

theorem sweepBlocks_spec :
    ∀ (bs : List Nat) (g : MIRGraph), bs.Nodup → (∀ b ∈ bs, b < g.blocks.length) →
      (∀ b blk, g.block b = some blk → blk.phis.Nodup ∧
        ∀ p ∈ blk.phis, (g.definition p).isSome = true) →
      ∃ g', sweepBlocks bs g = .ok g' ∧ g'.defs = g.defs ∧
        g'.resumePoints = g.resumePoints ∧
        ∀ i, g'.block i =
          if i ∈ bs then
            (g.block i).map fun blk =>
              { blk with phis := blk.phis.filter fun p => !isUnused g p }
          else g.block i := by
  intro bs
  induction bs with
  | nil =>
    intro g _ _ _
    exact ⟨g, rfl, rfl, rfl, fun i => by simp⟩
  | cons b bs ih =>
    intro g hnd hall hphis
    rw [List.nodup_cons] at hnd
    have hb := hall b (List.mem_cons_self _ _)
    have hblk : g.block b = some g.blocks[b] := by
      rw [MIRGraph.block, List.getElem?_eq_getElem hb]
    obtain ⟨hndb, hdefb⟩ := hphis b _ hblk
    obtain ⟨g1, hrun1, hdefs1, hrp1, hother1, hblk1⟩ :=
      sweepPhis_spec b g.blocks[b].phis [] g _ hblk rfl hndb hdefb
    have hlen1 : ∀ c, c < g.blocks.length → c < g1.blocks.length := by
      intro c hc
      by_contra hlt
      have hnone : g1.block c = none := by
        rw [MIRGraph.block, List.getElem?_eq_none (not_lt.mp hlt)]
      by_cases hcb : c = b
      · rw [hcb, hblk1] at hnone
        cases hnone
      · rw [hother1 c hcb, MIRGraph.block, List.getElem?_eq_getElem hc] at hnone
        cases hnone
    have hphis1 : ∀ c blk, g1.block c = some blk → blk.phis.Nodup ∧
        ∀ p ∈ blk.phis, (g1.definition p).isSome = true := by
      intro c blk hc
      have hdef : ∀ p, g1.definition p = g.definition p := fun p => by
        rw [MIRGraph.definition, hdefs1]
        rfl
      by_cases hcb : c = b
      · rw [hcb, hblk1] at hc
        cases hc
        simp only [List.nil_append]
        exact ⟨hndb.filter _, fun p hp => by
          rw [hdef]; exact hdefb p (List.mem_filter.mp hp).1⟩
      · rw [hother1 c hcb] at hc
        obtain ⟨h1, h2⟩ := hphis c blk hc
        exact ⟨h1, fun p hp => by rw [hdef]; exact h2 p hp⟩
    obtain ⟨g', hrun, hdefs', hrp', hblocks⟩ := ih g1 hnd.2
      (fun c hc => hlen1 c (hall c (List.mem_cons_of_mem _ hc))) hphis1
    refine ⟨g', ?_, hdefs'.trans hdefs1, hrp'.trans hrp1, ?_⟩
    · rw [sweepBlocks, hblk]
      simp only [hrun1]
      exact hrun
    · intro i
      rw [hblocks i]
      have hfilter : (fun p => !isUnused g1 p) = fun p => !isUnused g p := by
        funext p
        rw [isUnused_congr hdefs1]
      by_cases hib : i = b
      · subst hib
        simp only [hnd.1, if_false, List.mem_cons, true_or, if_true, hblk1, hblk,
          Option.map_some', List.nil_append]
      · simp only [List.mem_cons, hib, false_or]
        rw [hother1 i hib, hfilter]

/-! ## EliminatePhis without redundant Phis: the result -/

theorem flagFrame_length {T g : MIRGraph} (h : FlagFrame T g) :
    g.defs.length = T.defs.length := by
  have key : ∀ x, x < g.defs.length ↔ x < T.defs.length := by
    intro x
    have := h.defs x
    unfold MIRGraph.definition at this
    constructor
    · intro hx
      by_contra hlt
      rw [List.getElem?_eq_getElem hx, List.getElem?_eq_none (not_lt.mp hlt)] at this
      cases this
    · intro hx
      by_contra hlt
      rw [List.getElem?_eq_getElem hx, List.getElem?_eq_none (not_lt.mp hlt)] at this
      cases this
  apply Nat.le_antisymm
  · by_contra hlt
    exact absurd ((key T.defs.length).mp (not_le.mp hlt)) (lt_irrefl _)
  · by_contra hlt
    exact absurd ((key g.defs.length).mpr (not_le.mp hlt)) (lt_irrefl _)

theorem marking_of_seeded (T : MIRGraph) (hcoh : phisCoherent T = true) (s : PhiState)
    (V : List Nat) (hV : V.Perm (allPhis T)) (h : Seeded T s V) :
    Marking T s.graph s.worklist 0 [] := by
  obtain ⟨_, hnd, _⟩ := phisCoherent_spec T hcoh
  have hVnd : V.Nodup := hV.nodup_iff.mpr hnd
  have hmemwl : ∀ p, p ∈ s.worklist ↔ p ∈ V ∧ observable T p = true := by
    intro p
    rw [h.worklist, List.mem_filter]
  refine ⟨h.frame, ?_, ?_, ?_, ?_, ?_⟩
  · rw [h.worklist]
    exact hVnd.filter _
  · intro p hp
    have hpV := hV.mem_iff.mpr hp
    rw [(h.visited p hpV).2, hmemwl]
    exact ⟨fun hh => ⟨hpV, hh⟩, fun hh => hh.2⟩
  · intro p hp
    obtain ⟨hpV, hobs⟩ := (hmemwl p).mp hp
    have hlisted := hV.mem_iff.mp hpV
    refine ⟨hlisted, (h.visited p hpV).1, p, hlisted, ?_, Relation.ReflTransGen.refl⟩
    simpa [observable] using hobs
  · intro p hp hu
    rw [(h.visited p (hV.mem_iff.mpr hp)).1] at hu
    cases hu
  · intro p hp hobs
    right
    rw [hmemwl]
    exact ⟨hV.mem_iff.mpr hp, by simp [observable, hobs]⟩

theorem marking_used_iff_live (T : MIRGraph) (hcoh : phisCoherent T = true) (g : MIRGraph)
    (X : Nat) (h : Marking T g [] X []) (p : Nat) (hp : p ∈ allPhis T) :
    isUnused g p = false ↔ LivePhi T p := by
  obtain ⟨_, _, hphis⟩ := phisCoherent_spec T hcoh
  constructor
  · intro hu
    exact (h.used p hp hu).1
  · rintro ⟨q, hq, hobs, hpath⟩
    have hq0 : isUnused g q = false := by
      rcases h.observed q hq hobs with h1 | h1
      · exact h1
      · cases h1
    clear hp
    induction hpath with
    | refl => exact hq0
    | @tail a b _ hab ih =>
      have hab' := hab
      obtain ⟨y, _, hy, hyphi, _, _, _⟩ := hab'
      have ha : a ∈ allPhis T := (hphis a y hy hyphi).1
      rcases (h.used a ha ih).2 b hab with ⟨_, h1⟩ | h1 | h1
      · cases h1
      · exact h1
      · cases h1

/-- C10: on a graph without redundant Phi, whose Phi lists agree with the
definition table and whose Phis are not flagged `inWorklist`, `EliminatePhis`
returns whenever the fuel exceeds the number of definitions; the Phis that it
keeps are exactly the Phis that are observable or are reached from an
observable Phi by following Phi operands, and it changes nothing but the flags
`unused` and `inWorklist`, so no operand of any definition. -/
theorem EliminatePhis_keeps_live (T : MIRGraph) (fuel : Nat)
    (hcoh : phisCoherent T = true) (hnr : noPhiRedundant T = true)
    (hfuel : T.defs.length < fuel) :
    ∃ g', EliminatePhis fuel T = .ok g' ∧
      (∀ p, p ∈ allPhis g' ↔ p ∈ allPhis T ∧ LivePhi T p) ∧
      (∀ x, (g'.definition x).map MDefinition.unflagged =
        (T.definition x).map MDefinition.unflagged) ∧
      g'.resumePoints = T.resumePoints := by
  obtain ⟨hlisted, hnd, hphis⟩ := phisCoherent_spec T hcoh
  have hperm := phisIn_postorder_perm T
  have hpolt : ∀ b ∈ T.postorder, b < T.blocks.length := by
    intro b hb
    simpa [MIRGraph.postorder] using hb
  have hinit : Seeded T { graph := T, worklist := [] } [] :=
    ⟨flagFrame_refl T, (fun p hp => by cases hp), (fun _ _ => rfl), rfl, rfl⟩
  obtain ⟨s1, hs1, hseed⟩ := seedBlocks_spec T hnr hcoh T.postorder _ [] hinit
    (by rw [List.nil_append]; exact hperm.nodup_iff.mpr hnd) hpolt
  rw [List.nil_append] at hseed
  have hmark1 := marking_of_seeded T hcoh s1 _ hperm hseed
  have hcount : unusedCount s1.graph < fuel := by
    have h1 : unusedCount s1.graph ≤ s1.graph.defs.length := List.countP_le_length _
    rw [flagFrame_length hseed.frame] at h1
    omega
  obtain ⟨s2, X, hs2, hmark2, _, _⟩ := markPhis_spec T hnr hcoh fuel s1 0 hmark1 hcount
  have hblocks2 : s2.graph.blocks = T.blocks := hmark2.frame.blocks
  have hpo2 : s2.graph.postorder = T.postorder := by
    unfold MIRGraph.postorder
    rw [hblocks2]
  have hphis2 : ∀ b blk, s2.graph.block b = some blk → blk.phis.Nodup ∧
      ∀ p ∈ blk.phis, (s2.graph.definition p).isSome = true := by
    intro b blk hb
    rw [block_of_flagFrame hmark2.frame] at hb
    have hsub : ∀ p ∈ blk.phis, p ∈ allPhis T := fun p hp =>
      (mem_allPhis T p).mpr ⟨b, blk, hb, hp⟩
    constructor
    · have hsl : List.Sublist blk.phis (allPhis T) := by
        unfold allPhis
        exact List.sublist_flatten_of_mem (List.mem_map.mpr ⟨blk, List.getElem?_mem hb, rfl⟩)
      exact hnd.sublist hsl
    · intro p hp
      obtain ⟨yT, hyT, _⟩ := hlisted p (hsub p hp)
      obtain ⟨y, hy, _⟩ := flagFrame_definition_inv hmark2.frame hyT
      rw [hy]
      rfl
  obtain ⟨g', hsweep, hdefs', hrp', hblocks'⟩ := sweepBlocks_spec s2.graph.postorder s2.graph
    (by rw [hpo2]; exact List.nodup_reverse.mpr (List.nodup_range _))
    (by rw [hpo2, hblocks2]; exact hpolt) hphis2
  refine ⟨g', ?_, ?_, ?_, ?_⟩
  · unfold EliminatePhis markLivePhis
    simp only [hs1, hs2]
    exact hsweep
  · intro p
    rw [mem_allPhis, mem_allPhis]
    constructor
    · rintro ⟨b, blk', hb, hp⟩
      rw [hblocks' b] at hb
      have hbT : ∃ blk, T.block b = some blk ∧ p ∈ blk.phis ∧ isUnused s2.graph p = false := by
        by_cases hbin : b ∈ s2.graph.postorder
        · rw [if_pos hbin, block_of_flagFrame hmark2.frame] at hb
          cases hT : T.block b with
          | none => simp [hT] at hb
          | some blk =>
            simp only [hT, Option.map_some', Option.some.injEq] at hb
            subst hb
            simp only [List.mem_filter, Bool.not_eq_true'] at hp
            exact ⟨blk, rfl, hp.1, hp.2⟩
        · exfalso
          rw [if_neg hbin] at hb
          rw [hpo2] at hbin
          apply hbin
          have : b < T.blocks.length := by
            by_contra hlt
            rw [block_of_flagFrame hmark2.frame, MIRGraph.block,
              List.getElem?_eq_none (not_lt.mp hlt)] at hb
            cases hb
          simpa [MIRGraph.postorder] using this
      obtain ⟨blk, hT, hpm, hu⟩ := hbT
      have hpl : p ∈ allPhis T := (mem_allPhis T p).mpr ⟨b, blk, hT, hpm⟩
      exact ⟨⟨b, blk, hT, hpm⟩, (marking_used_iff_live T hcoh _ X hmark2 p hpl).mp hu⟩
    · rintro ⟨⟨b, blk, hT, hpm⟩, hlive⟩
      have hpl : p ∈ allPhis T := (mem_allPhis T p).mpr ⟨b, blk, hT, hpm⟩
      have hu := (marking_used_iff_live T hcoh _ X hmark2 p hpl).mpr hlive
      have hbin : b ∈ s2.graph.postorder := by
        rw [hpo2]
        have : b < T.blocks.length := by
          by_contra hlt
          rw [MIRGraph.block, List.getElem?_eq_none (not_lt.mp hlt)] at hT
          cases hT
        simpa [MIRGraph.postorder] using this
      refine ⟨b, { blk with phis := blk.phis.filter fun p => !isUnused s2.graph p }, ?_, ?_⟩
      · rw [hblocks' b, if_pos hbin, block_of_flagFrame hmark2.frame, hT]
        rfl
      · simp only [List.mem_filter, Bool.not_eq_true']
        exact ⟨hpm, hu⟩
  · intro x
    rw [← hmark2.frame.defs x, MIRGraph.definition, hdefs']
    rfl
  · rw [hrp', hmark2.frame.resumePoints]

theorem EliminatePhis_keeps_live_witness :
    phisCoherent livePhisGraph = true ∧ noPhiRedundant livePhisGraph = true ∧
      (EliminatePhis 7 livePhisGraph).map (fun g => allPhis g) = .ok [2, 3] ∧
      ∃ g', EliminatePhis 7 livePhisGraph = .ok g' ∧
        (∀ p, p ∈ allPhis g' ↔ p ∈ allPhis livePhisGraph ∧ LivePhi livePhisGraph p) ∧
        (∀ x, (g'.definition x).map MDefinition.unflagged =
          (livePhisGraph.definition x).map MDefinition.unflagged) ∧
        g'.resumePoints = livePhisGraph.resumePoints :=
  ⟨by decide, by decide, by decide,
    EliminatePhis_keeps_live livePhisGraph 7 (by decide) (by decide) (by decide)⟩

/-! ## EliminatePhis: what a step can do -/

theorem sameShape_refl (g : MIRGraph) : SameShape g g :=
  ⟨rfl, rfl, fun _ => rfl⟩

theorem sameShape_trans {a b c : MIRGraph} (h1 : SameShape a b) (h2 : SameShape b c) :
    SameShape a c :=
  ⟨h2.blocks.trans h1.blocks, h2.resumePoints.trans h1.resumePoints,
    fun x => (h2.defs x).trans (h1.defs x)⟩

theorem sameShape_modify (g : MIRGraph) (d : Nat) (f : MDefinition → MDefinition)
    (hf : ∀ y, (f y).shape = y.shape) : SameShape g (modifyDefinition g d f) := by
  refine ⟨rfl, rfl, ?_⟩
  intro x
  rw [definition_modifyDefinition]
  cases g.definition x with
  | none => rfl
  | some y =>
    simp only [Option.map_some', Option.some.injEq]
    split_ifs
    · exact hf y
    · rfl

theorem sameShape_setUnused (g : MIRGraph) (d : Nat) : SameShape g (setUnused g d) :=
  sameShape_modify g d _ (fun _ => rfl)

theorem sameShape_setNotUnused (g : MIRGraph) (d : Nat) : SameShape g (setNotUnused g d) :=
  sameShape_modify g d _ (fun _ => rfl)

theorem sameShape_setInWorklist (g : MIRGraph) (d : Nat) : SameShape g (setInWorklist g d) :=
  sameShape_modify g d _ (fun _ => rfl)

theorem sameShape_setNotInWorklist (g : MIRGraph) (d : Nat) :
    SameShape g (setNotInWorklist g d) :=
  sameShape_modify g d _ (fun _ => rfl)

theorem sameShape_setHasBytecodeUses (g : MIRGraph) (d : Nat) :
    SameShape g (setHasBytecodeUses g d) :=
  sameShape_modify g d _ (fun _ => rfl)

theorem sameShape_definition {g g' : MIRGraph} (h : SameShape g g') {x : Nat}
    {y : MDefinition} (hy : g.definition x = some y) :
    ∃ y', g'.definition x = some y' ∧ y'.op = y.op ∧ y'.operands = y.operands := by
  have := h.defs x
  rw [hy] at this
  cases hg : g'.definition x with
  | none => simp [hg] at this
  | some y' =>
    simp only [hg, Option.map_some', Option.some.injEq, MDefinition.shape,
      Prod.mk.injEq] at this
    exact ⟨y', rfl, this.1, this.2⟩

theorem sameShape_definition_inv {g g' : MIRGraph} (h : SameShape g g') {x : Nat}
    {y' : MDefinition} (hy : g'.definition x = some y') :
    ∃ y, g.definition x = some y ∧ y'.op = y.op ∧ y'.operands = y.operands := by
  have := h.defs x
  rw [hy] at this
  cases hg : g.definition x with
  | none => simp [hg] at this
  | some y =>
    simp only [hg, Option.map_some', Option.some.injEq, MDefinition.shape,
      Prod.mk.injEq] at this
    exact ⟨y, rfl, this.1, this.2⟩

theorem IsPhiRedundant_cases (g g2 : MIRGraph) (X : Nat) (r : Option Nat)
    (h : IsPhiRedundant g X = some (r, g2)) :
    SameShape g g2 ∧ ∃ y first rest, g.definition X = some y ∧ y.operands = first :: rest ∧
      ((r = none ∧ ∃ o ∈ rest, o ≠ first ∧ o ≠ X) ∨
        (r = some first ∧ ∀ o ∈ rest, o = first ∨ o = X)) := by
  unfold IsPhiRedundant at h
  cases hy : g.definition X with
  | none => simp [hy] at h
  | some y =>
    simp only [hy] at h
    cases hops : y.operands with
    | nil => simp [hops] at h
    | cons first rest =>
      simp only [hops] at h
      by_cases hany : (rest.any fun o => decide (o ≠ first ∧ o ≠ X)) = true
      · simp only [hany, if_true, Option.some.injEq, Prod.mk.injEq] at h
        obtain ⟨hr, hg⟩ := h
        subst hr hg
        refine ⟨sameShape_refl g, y, first, rest, rfl, hops, Or.inl ⟨rfl, ?_⟩⟩
        rw [List.any_eq_true] at hany
        obtain ⟨o, ho, hcond⟩ := hany
        exact ⟨o, ho, by simpa using hcond⟩
      · simp only [hany, Bool.false_eq_true, if_false] at h
        have hall : ∀ o ∈ rest, o = first ∨ o = X := by
          intro o ho
          by_contra hcon
          apply hany
          rw [List.any_eq_true]
          refine ⟨o, ho, ?_⟩
          rw [not_or] at hcon
          simpa using hcon
        by_cases hb : y.hasBytecodeUses = true
        · simp only [hb, if_true] at h
          cases hf : g.definition first with
          | none => simp [hf] at h
          | some f =>
            simp only [hf, Option.some.injEq, Prod.mk.injEq] at h
            obtain ⟨hr, hg⟩ := h
            subst hr hg
            refine ⟨?_, y, first, rest, rfl, hops, Or.inr ⟨rfl, hall⟩⟩
            split_ifs
            · exact sameShape_setHasBytecodeUses g first
            · exact sameShape_refl g
        · simp only [hb, Bool.false_eq_true, if_false, Option.some.injEq,
            Prod.mk.injEq] at h
          obtain ⟨hr, hg⟩ := h
          subst hr hg
          exact ⟨sameShape_refl g, y, first, rest, rfl, hops, Or.inr ⟨rfl, hall⟩⟩

theorem seedPhi_cases (s s' : PhiState) (b X : Nat) (h : seedPhi s b X = .ok s') :
    ∃ r g2, IsPhiRedundant (setUnused s.graph X) X = some (r, g2) ∧
      ((∃ first, r = some first ∧
          s' = { s with graph := discardPhi (replaceAllUsesWith g2 X first) b X }) ∨
        (r = none ∧ SameShape g2 s'.graph ∧
          (s'.worklist = s.worklist ∨ s'.worklist = s.worklist ++ [X]))) := by
  unfold seedPhi at h
  cases hred : IsPhiRedundant (setUnused s.graph X) X with
  | none => simp [hred] at h
  | some res =>
    obtain ⟨r, g2⟩ := res
    refine ⟨r, g2, rfl, ?_⟩
    cases r with
    | some first =>
      simp only [hred, Run.ok.injEq] at h
      exact Or.inl ⟨first, rfl, h.symm⟩
    | none =>
      simp only [hred] at h
      right
      cases hobs : IsPhiObservable g2 X with
      | none => simp [hobs] at h
      | some o =>
        cases o with
        | true =>
          simp only [hobs, Run.ok.injEq] at h
          subst h
          exact ⟨rfl, sameShape_setInWorklist g2 X, Or.inr rfl⟩
        | false =>
          simp only [hobs, Run.ok.injEq] at h
          subst h
          exact ⟨rfl, sameShape_refl g2, Or.inl rfl⟩

theorem enqueueOperands_cases :
    ∀ (ops : List Nat) (g g' : MIRGraph) (wl wl' : List Nat),
      enqueueOperands ops g wl = .ok (g', wl') →
      SameShape g g' ∧
        ∀ x ∈ wl', x ∈ wl ∨ ∃ y, g.definition x = some y ∧ y.isPhi = true := by
  intro ops
  induction ops with
  | nil =>
    intro g g' wl wl' h
    simp only [enqueueOperands, Run.ok.injEq, Prod.mk.injEq] at h
    obtain ⟨hg, hw⟩ := h
    subst hg hw
    exact ⟨sameShape_refl g, fun x hx => Or.inl hx⟩
  | cons o ops ih =>
    intro g g' wl wl' h
    unfold enqueueOperands at h
    cases hd : g.definition o with
    | none => simp [hd] at h
    | some d =>
      simp only [hd] at h
      by_cases hskip : (!d.isPhi || !d.unused || d.inWorklist) = true
      · simp only [hskip, if_true] at h
        exact ih g g' wl wl' h
      · simp only [hskip, Bool.false_eq_true, if_false] at h
        obtain ⟨h1, h2⟩ := ih _ g' _ wl' h
        have hss := sameShape_setInWorklist g o
        refine ⟨sameShape_trans hss h1, ?_⟩
        intro x hx
        rcases h2 x hx with h3 | ⟨y, hy, hyphi⟩
        · rcases List.mem_append.mp h3 with h3 | h3
          · exact Or.inl h3
          · rw [List.mem_singleton] at h3
            subst h3
            right
            simp only [Bool.or_eq_true, Bool.not_eq_true', not_or, Bool.not_eq_false] at hskip
            exact ⟨d, hd, hskip.1.1⟩
        · right
          obtain ⟨y0, hy0, hop, _⟩ := sameShape_definition_inv hss hy
          refine ⟨y0, hy0, ?_⟩
          unfold MDefinition.isPhi at hyphi ⊢
          rw [← hop]
          exact hyphi

theorem markPhi_cases (s s' : PhiState) (X : Nat) (ws : List Nat)
    (h : markPhi s X ws = .ok s') :
    ∃ r g2 g4, IsPhiRedundant (setNotInWorklist s.graph X) X = some (r, g2) ∧
      ((∃ first, r = some first ∧ SameShape (replaceAllUsesWith g2 X first) g4) ∨
        (r = none ∧ SameShape g2 g4)) ∧
      SameShape g4 s'.graph ∧
      ∀ x ∈ s'.worklist, x ∈ ws ∨ ∃ y, g4.definition x = some y ∧ y.isPhi = true := by
  unfold markPhi at h
  cases hp : s.graph.definition X with
  | none => simp [hp] at h
  | some p =>
    simp only [hp] at h
    by_cases hun : p.unused = true
    · simp only [hun, Bool.not_true, Bool.false_eq_true, if_false] at h
      cases hred : IsPhiRedundant (setNotInWorklist s.graph X) X with
      | none => simp [hred] at h
      | some res =>
        obtain ⟨r, g2⟩ := res
        simp only [hred] at h
        have key : ∀ g4, ((∃ first, r = some first ∧
              SameShape (replaceAllUsesWith g2 X first) g4) ∨ (r = none ∧ SameShape g2 g4)) →
            (match g4.definition X with
              | none => Run.fail Failure.nullPointer
              | some p4 =>
                match enqueueOperands p4.operands g4 ws with
                | .fail e => .fail e
                | .ok (g5, worklist5) =>
                  .ok ({ graph := g5, worklist := worklist5,
                         replaced := if r.isSome then X :: s.replaced else s.replaced } :
                       PhiState)) =
              .ok s' →
            ∃ r' g2' g4', some (r, g2) = some (r', g2') ∧
              ((∃ first, r' = some first ∧ SameShape (replaceAllUsesWith g2' X first) g4') ∨
                (r' = none ∧ SameShape g2' g4')) ∧
              SameShape g4' s'.graph ∧
              ∀ x ∈ s'.worklist, x ∈ ws ∨ ∃ y, g4'.definition x = some y ∧ y.isPhi = true := by
          intro g4 hg4 hrun
          cases hp4 : g4.definition X with
          | none => simp [hp4] at hrun
          | some p4 =>
            simp only [hp4] at hrun
            cases henq : enqueueOperands p4.operands g4 ws with
            | fail e => simp [henq] at hrun
            | ok res5 =>
              obtain ⟨g5, wl5⟩ := res5
              simp only [henq, Run.ok.injEq] at hrun
              obtain ⟨h1, h2⟩ := enqueueOperands_cases _ _ _ _ _ henq
              subst hrun
              exact ⟨r, g2, g4, rfl, hg4, h1, h2⟩
        cases r with
        | none =>
          simp only at h
          exact key _ (Or.inr ⟨rfl, sameShape_setNotUnused g2 X⟩) h
        | some first =>
          simp only at h
          cases hrd : (replaceAllUsesWith g2 X first).definition first with
          | none => simp [hrd] at h
          | some rd =>
            simp only [hrd] at h
            refine key _ (Or.inl ⟨first, rfl, ?_⟩) h
            split_ifs
            · exact sameShape_setUnused _ first
            · exact sameShape_refl _
    · simp [hun] at h

theorem sweepPhi_cases (g g' : MIRGraph) (b X : Nat) (h : sweepPhi g b X = .ok g') :
    g' = g ∨ g' = discardPhi g b X := by
  unfold sweepPhi at h
  cases hp : g.definition X with
  | none => simp [hp] at h
  | some p =>
    simp only [hp, Run.ok.injEq] at h
    split_ifs at h
    · exact Or.inr h.symm
    · exact Or.inl h.symm

/-! ## EliminatePhis: a redundant Phi -/

theorem inGraph_iff (g : MIRGraph) (x : Nat) :
    g.inGraph x = true ↔
      ∃ b blk, g.block b = some blk ∧ (x ∈ blk.phis ∨ x ∈ blk.instructions) := by
  unfold MIRGraph.inGraph
  rw [List.any_eq_true]
  constructor
  · rintro ⟨blk, hblk, h⟩
    obtain ⟨b, hb, hget⟩ := List.getElem_of_mem hblk
    refine ⟨b, blk, by rw [MIRGraph.block, List.getElem?_eq_getElem hb, hget], ?_⟩
    simpa using h
  · rintro ⟨b, blk, hb, h⟩
    exact ⟨blk, List.getElem?_mem hb, by simpa using h⟩

theorem inGraph_discardPhi (g : MIRGraph) (b X x : Nat)
    (h : (discardPhi g b X).inGraph x = true) : g.inGraph x = true := by
  rw [inGraph_iff] at h ⊢
  obtain ⟨b', blk', hb', hx⟩ := h
  rw [block_discardPhi] at hb'
  cases hg : g.block b' with
  | none => simp [hg] at hb'
  | some blk =>
    simp only [hg, Option.map_some', Option.some.injEq] at hb'
    refine ⟨b', blk, hg, ?_⟩
    by_cases hbb : b = b'
    · rw [if_pos hbb] at hb'
      subst hb'
      rcases hx with hx | hx
      · exact Or.inl (List.mem_of_mem_erase hx)
      · exact Or.inr hx
    · rw [if_neg hbb] at hb'
      subst hb'
      exact hx

theorem allPhis_discardPhi_sublist (g : MIRGraph) (b X : Nat) :
    (allPhis (discardPhi g b X)).Sublist (allPhis g) := by
  unfold allPhis discardPhi
  simp only
  by_cases hb : b < g.blocks.length
  · obtain ⟨l1, a, l2, hl, _, hmod⟩ :=
      List.exists_of_modify (fun blk : MBasicBlock => { blk with phis := blk.phis.erase X }) hb
    rw [hmod, hl]
    simp only [List.map_append, List.map_cons, List.flatten_append, List.flatten_cons]
    exact (List.Sublist.refl _).append
      ((List.erase_sublist X a.phis).append (List.Sublist.refl _))
  · have : List.modify (fun blk : MBasicBlock => { blk with phis := blk.phis.erase X }) b
        g.blocks = g.blocks := by
      apply List.ext_getElem?
      intro i
      rw [List.getElem?_modify]
      by_cases hi : b = i
      · subst hi
        rw [List.getElem?_eq_none (not_lt.mp hb)]
        rfl
      · simp [hi]
    rw [this]

theorem allPhis_unique (g : MIRGraph) (hnd : (allPhis g).Nodup) (b1 b2 p : Nat)
    (blk1 blk2 : MBasicBlock) (h1 : g.block b1 = some blk1) (h2 : g.block b2 = some blk2)
    (hp1 : p ∈ blk1.phis) (hp2 : p ∈ blk2.phis) : b1 = b2 := by
  unfold allPhis at hnd
  rw [List.nodup_flatten] at hnd
  by_contra hne
  have hpw := hnd.2
  rw [List.pairwise_iff_getElem] at hpw
  unfold MIRGraph.block at h1 h2
  obtain ⟨hb1, hg1⟩ := List.getElem?_eq_some.mp h1
  obtain ⟨hb2, hg2⟩ := List.getElem?_eq_some.mp h2
  rcases Nat.lt_or_gt_of_ne hne with hlt | hlt
  · have := hpw b1 b2 (by simpa using hb1) (by simpa using hb2) hlt
    simp only [List.getElem_map, hg1, hg2] at this
    exact this hp1 hp2
  · have := hpw b2 b1 (by simpa using hb2) (by simpa using hb1) hlt
    simp only [List.getElem_map, hg1, hg2] at this
    exact this hp2 hp1

theorem phis_nodup_of_allPhis (g : MIRGraph) (hnd : (allPhis g).Nodup) (b : Nat)
    (blk : MBasicBlock) (h : g.block b = some blk) : blk.phis.Nodup := by
  unfold allPhis at hnd
  rw [List.nodup_flatten] at hnd
  exact hnd.1 _ (List.mem_map.mpr ⟨blk, List.getElem?_mem h, rfl⟩)

theorem usesAt_sameShape {g g' : MIRGraph} (h : SameShape g g') (x k : Nat) :
    usesAt g' x k = usesAt g x k := by
  unfold usesAt
  cases hg : g.definition x with
  | none =>
    cases hg' : g'.definition x with
    | none => rfl
    | some y' =>
      obtain ⟨y, hy, _⟩ := sameShape_definition_inv h hg'
      rw [hg] at hy
      cases hy
  | some y =>
    obtain ⟨y', hy', _, hops⟩ := sameShape_definition h hg
    rw [hy']
    simp only [hops]

theorem resumeAt_sameShape {g g' : MIRGraph} (h : SameShape g g') (i k : Nat) :
    resumeAt g' i k = resumeAt g i k := by
  unfold resumeAt
  rw [h.resumePoints]

theorem usesAt_replaceAllUsesWith (g : MIRGraph) (X r x k : Nat) :
    usesAt (replaceAllUsesWith g X r) x k =
      if g.inGraph x then (usesAt g x k).map (fun o => if o = X then r else o)
      else usesAt g x k := by
  unfold usesAt
  rw [definition_replaceAllUsesWith]
  cases g.definition x with
  | none => simp
  | some y =>
    simp only [Option.map_some']
    split_ifs
    · simp only [List.getElem?_map]
    · rfl

theorem resumeAt_replaceAllUsesWith (g : MIRGraph) (X r i k : Nat) :
    resumeAt (replaceAllUsesWith g X r) i k =
      (resumeAt g i k).map (fun o => if o = X then r else o) := by
  unfold resumeAt replaceAllUsesWith
  simp only [List.getElem?_map]
  cases g.resumePoints[i]? with
  | none => rfl
  | some rp => simp only [Option.map_some', List.getElem?_map]

/-! ## TypeAnalyzer: what specializePhis leaves alone -/

theorem mem_allPhis_of_block {g : MIRGraph} {b : Nat} {blk : MBasicBlock}
    (hb : g.block b = some blk) {phi : Nat} (hphi : phi ∈ blk.phis) : phi ∈ allPhis g := by
  simp only [allPhis, List.mem_flatten, List.mem_map]
  exact ⟨blk.phis, ⟨blk, List.getElem?_mem (by simpa [MIRGraph.block] using hb), rfl⟩, hphi⟩

theorem map_phis_modify (f : MBasicBlock → MBasicBlock) (hf : ∀ b, (f b).phis = b.phis)
    (k : Nat) (l : List MBasicBlock) :
    (List.modify f k l).map MBasicBlock.phis = l.map MBasicBlock.phis := by
  apply List.ext_getElem?
  intro n
  simp only [List.getElem?_map, List.getElem?_modify]
  cases l[n]? with
  | none => rfl
  | some b =>
    simp only [Option.map_some', Option.some.injEq, Functor.map, Option.map]
    split_ifs
    · exact hf b
    · rfl

theorem insertBeforeLast_frame {g g' : MIRGraph} {b ins : Nat}
    (h : insertBeforeLast g b ins = some g') :
    g'.defs = g.defs ∧ g'.blocks.map MBasicBlock.phis = g.blocks.map MBasicBlock.phis := by
  unfold insertBeforeLast at h
  cases hb : g.block b with
  | none => simp [hb] at h
  | some blk =>
    simp only [hb] at h
    split_ifs at h
    cases h
    refine ⟨rfl, ?_⟩
    apply map_phis_modify
    intro _
    rfl

theorem policyFrame_noPolicy : PolicyFrame noPolicy := by
  refine ⟨?_, ?_, ?_⟩
  · intro g ins g' h
    cases h
    rfl
  · intro g ins g' h x y hy
    cases h
    exact ⟨y, hy, rfl, rfl, fun _ => rfl⟩
  · intro g ins g' h hu
    cases h
    exact hu

theorem instructionsOf_discardDef (g : MIRGraph) (c x b : Nat) :
    instructionsOf (discardDef g c x) b =
      if c = b then (instructionsOf g b).erase x else instructionsOf g b := by
  unfold instructionsOf
  rw [block_discardDef]
  cases g.block b with
  | none => simp
  | some blk =>
    simp only [Option.map_some']
    split_ifs <;> rfl

theorem inGraph_discardDef_eq (g : MIRGraph) (b d i : Nat) (hne : i ≠ d) :
    (discardDef g b d).inGraph i = g.inGraph i := by
  cases h : g.inGraph i with
  | true => exact inGraph_discardDef_of_ne g b d i hne h
  | false =>
    cases h2 : (discardDef g b d).inGraph i with
    | false => rfl
    | true =>
      rw [inGraph_discardDef g b d i h2] at h
      exact absurd h (by decide)

theorem hasUses_iff (g : MIRGraph) (d : Nat) :
    hasUses g d = true ↔
      (∃ i y, g.definition i = some y ∧ g.inGraph i = true ∧ d ∈ y.operands) ∨
        ∃ rp ∈ g.resumePoints, d ∈ rp := by
  simp only [hasUses, Bool.or_eq_true, List.any_eq_true, Bool.and_eq_true, decide_eq_true_eq,
    Prod.exists, List.mem_iff_getElem?, List.getElem?_enum]
  constructor
  · rintro (⟨i, y, ⟨n, hn⟩, hin, hd⟩ | h)
    · left
      cases hg : g.defs[n]? with
      | none => simp [hg] at hn
      | some z =>
        simp only [hg, Option.map_some', Option.some.injEq, Prod.mk.injEq] at hn
        obtain ⟨rfl, rfl⟩ := hn
        exact ⟨n, z, hg, hin, hd⟩
    · exact Or.inr h
  · rintro (⟨i, y, hy, hin, hd⟩ | h)
    · left
      refine ⟨i, y, ⟨i, ?_⟩, hin, hd⟩
      simp only [MIRGraph.definition] at hy
      simp [hy]
    · exact Or.inr h

theorem hasUses_discardDef (g : MIRGraph) (b x i : Nat)
    (h : ∀ y, g.definition x = some y → i ∉ y.operands) :
    hasUses (discardDef g b x) i = hasUses g i := by
  rw [Bool.eq_iff_iff, hasUses_iff, hasUses_iff]
  have hdef : ∀ k, (discardDef g b x).definition k = g.definition k := fun _ => rfl
  have hrp : (discardDef g b x).resumePoints = g.resumePoints := rfl
  rw [hrp]
  constructor
  · rintro (⟨k, y, hy, hin, hd⟩ | h')
    · exact Or.inl ⟨k, y, hy, inGraph_discardDef g b x k hin, hd⟩
    · exact Or.inr h'
  · rintro (⟨k, y, hy, hin, hd⟩ | h')
    · left
      have hne : k ≠ x := by
        rintro rfl
        exact h y hy hd
      exact ⟨k, y, hy, by rw [inGraph_discardDef_eq g b x k hne]; exact hin, hd⟩
    · exact Or.inr h'

theorem live_discardDef {g : MIRGraph} {b x i : Nat}
    (h : ∀ y, g.definition x = some y → i ∉ y.operands) (hl : Live g i) :
    Live (discardDef g b x) i := by
  obtain ⟨d, hd, hlive⟩ := hl
  refine ⟨d, hd, ?_⟩
  rw [hasUses_discardDef g b x i h]
  exact hlive

theorem eliminateDead_cases (g g' : MIRGraph) (b x : Nat) (h : eliminateDead g b x = some g') :
    (g' = g ∧ Live g x) ∨ (g' = discardDef g b x ∧ ¬ Live g x) := by
  unfold eliminateDead at h
  cases hd : g.definition x with
  | none => simp [hd] at h
  | some d =>
    simp only [hd] at h
    split_ifs at h with hc
    · right
      cases h
      refine ⟨rfl, ?_⟩
      rintro ⟨d', hd', hl⟩
      rw [hd] at hd'
      cases hd'
      simp only [Bool.and_eq_true, Bool.not_eq_true'] at hc
      obtain ⟨⟨⟨h1, h2⟩, h3⟩, h4⟩ := hc
      rcases hl with hl | hl | hl | hl
      · rw [h1] at hl; exact absurd hl (by decide)
      · rw [h3] at hl; exact absurd hl (by decide)
      · rw [h4] at hl; exact absurd hl (by decide)
      · rw [h2] at hl; exact absurd hl (by decide)
    · left
      cases h
      refine ⟨rfl, d, hd, ?_⟩
      simp only [Bool.and_eq_true, Bool.not_eq_true', not_and, Bool.not_eq_false] at hc
      by_cases h1 : d.effectful = true
      · exact Or.inl h1
      · by_cases h2 : hasUses g x = true
        · exact Or.inr (Or.inr (Or.inr h2))
        · by_cases h3 : d.guard = true
          · exact Or.inr (Or.inl h3)
          · exact Or.inr (Or.inr (Or.inl (hc ⟨⟨by simpa using h1, by simpa using h2⟩,
              by simpa using h3⟩)))

theorem eliminateDead_total (g : MIRGraph) (b x : Nat) (hx : x < g.defs.length) :
    ∃ g', eliminateDead g b x = some g' := by
  unfold eliminateDead
  have : g.definition x = some (g.defs[x]) := by
    simp [MIRGraph.definition, List.getElem?_eq_getElem hx]
  rw [this]
  simp only
  split_ifs
  · exact ⟨_, rfl⟩
  · exact ⟨_, rfl⟩

theorem eliminateDead_live (g : MIRGraph) (b x : Nat) (h : Live g x) :
    eliminateDead g b x = some g := by
  obtain ⟨g', hg'⟩ : ∃ g', eliminateDead g b x = some g' := by
    obtain ⟨d, hd, _⟩ := h
    exact eliminateDead_total g b x (List.getElem?_eq_some.mp hd).1
  rcases eliminateDead_cases g g' b x hg' with ⟨rfl, _⟩ | ⟨_, hn⟩
  · exact hg'
  · exact absurd h hn

/-! ## EliminateDeadCode: the loops -/

theorem instructionsOf_nil_of_le {g : MIRGraph} {b : Nat} (h : g.blocks.length ≤ b) :
    instructionsOf g b = [] := by
  unfold instructionsOf MIRGraph.block
  rw [List.getElem?_eq_none_iff.mpr h]

theorem usesLater_spec {g : MIRGraph} (h : usesLater g = true) {b k x b' k' j : Nat}
    {y : MDefinition} (hx : (instructionsOf g b)[k]? = some x)
    (hj : (instructionsOf g b')[k']? = some j) (hy : g.definition j = some y)
    (hmem : x ∈ y.operands) : b < b' ∨ (b' = b ∧ k < k') := by
  have hb : b < g.blocks.length := by
    by_contra hn
    rw [instructionsOf_nil_of_le (Nat.le_of_not_lt hn)] at hx
    simp at hx
  have hb' : b' < g.blocks.length := by
    by_contra hn
    rw [instructionsOf_nil_of_le (Nat.le_of_not_lt hn)] at hj
    simp at hj
  simp only [usesLater, List.all_eq_true, List.mem_range, Prod.forall] at h
  have h1 := h b hb k x (by
    rw [List.mem_iff_getElem?]
    exact ⟨k, by simp [List.getElem?_enum, hx]⟩) b' hb' k' j (by
    rw [List.mem_iff_getElem?]
    exact ⟨k', by simp [List.getElem?_enum, hj]⟩)
  simp only [hy, hmem, decide_True, Bool.not_true, Bool.false_or, Bool.or_eq_true,
    decide_eq_true_eq, Bool.and_eq_true] at h1
  exact h1

theorem instructionsCoherent_spec {g : MIRGraph} (h : instructionsCoherent g = true) (b : Nat) :
    (instructionsOf g b).Nodup ∧ ∀ i ∈ instructionsOf g b, i < g.defs.length := by
  unfold instructionsOf
  cases hb : g.block b with
  | none => exact ⟨List.nodup_nil, fun i hi => absurd hi (List.not_mem_nil i)⟩
  | some blk =>
    simp only [instructionsCoherent, List.all_eq_true, Bool.and_eq_true, decide_eq_true_eq] at h
    exact h blk (List.getElem?_mem hb)

theorem getElem?_mid (l post : List Nat) (x : Nat) :
    (l.reverse ++ x :: post)[l.length]? = some x := by
  rw [List.getElem?_append_right (by simp)]
  simp

theorem getElem?_post (l post : List Nat) (x i : Nat) (hi : i ∈ post) :
    ∃ k, l.length < k ∧ (l.reverse ++ x :: post)[k]? = some i := by
  obtain ⟨n, hn⟩ := List.getElem?_of_mem hi
  refine ⟨l.length + 1 + n, by omega, ?_⟩
  rw [List.getElem?_append_right (by simp; omega)]
  have : l.length + 1 + n - l.reverse.length = n + 1 := by simp; omega
  rw [this]
  simpa using hn

theorem eliminateDeadInstructions_inv (T : MIRGraph) (hco : instructionsCoherent T = true)
    (hlater : usesLater T = true) (b : Nat) :
    ∀ (todo kept : List Nat) (g : MIRGraph), DeadInner T g b todo kept →
      ∃ g' kept', eliminateDeadInstructions b todo g = some g' ∧ DeadInner T g' b [] kept'
  | [], kept, g, h => ⟨g, kept, rfl, h⟩
  | x :: rest, kept, g, h => by
    obtain ⟨post, hT, hkept⟩ := h.original
    simp only [List.reverse_cons, List.append_assoc, List.singleton_append] at hT
    have hcur := h.current
    simp only [List.reverse_cons, List.append_assoc, List.singleton_append] at hcur
    obtain ⟨hnd, hdefined⟩ := instructionsCoherent_spec hco b
    have hxT : (instructionsOf T b)[rest.length]? = some x := by
      rw [hT]
      exact getElem?_mid rest post x
    have hxlt : x < g.defs.length := by
      rw [h.defs]
      exact hdefined x (List.getElem?_mem hxT)
    obtain ⟨g1, hg1⟩ := eliminateDead_total g b x hxlt
    simp only [eliminateDeadInstructions, hg1]
    have hdefeq : ∀ n, g.definition n = T.definition n := by
      intro n
      simp only [MIRGraph.definition, h.defs]
    rcases eliminateDead_cases g g1 b x hg1 with ⟨rfl, hlive⟩ | ⟨rfl, _⟩
    · refine eliminateDeadInstructions_inv T hco hlater b rest (x :: kept) g1
        ⟨h.defs, h.resumePoints, h.length, h.before, h.after, hcur, x :: post, hT, ?_⟩
      intro i hi
      rcases List.mem_cons.mp hi with rfl | hi
      · exact ⟨List.mem_cons_self _ _, hlive⟩
      · exact ⟨List.mem_cons_of_mem _ (hkept i hi).1, (hkept i hi).2⟩
    · have hnotin : x ∉ rest.reverse := by
        rw [hT] at hnd
        intro hmem
        exact (List.disjoint_of_nodup_append hnd) hmem (List.mem_cons_self _ _)
      refine eliminateDeadInstructions_inv T hco hlater b rest kept (discardDef g b x)
        ⟨h.defs, h.resumePoints, ?_, ?_, ?_, ?_, x :: post, hT, ?_⟩
      · rw [← h.length]
        simp [discardDef]
      · intro c hc
        rw [instructionsOf_discardDef, if_neg (by omega)]
        exact h.before c hc
      · intro c hc i hi
        rw [instructionsOf_discardDef, if_neg (by omega)] at hi
        obtain ⟨hiT, hil⟩ := h.after c hc i hi
        refine ⟨hiT, live_discardDef ?_ hil⟩
        intro y hy hmem
        obtain ⟨k, hk⟩ := List.getElem?_of_mem hiT
        rw [hdefeq] at hy
        rcases usesLater_spec hlater hk hxT hy hmem with hlt | ⟨heq, _⟩
        · omega
        · omega
      · rw [instructionsOf_discardDef, if_pos rfl, hcur,
          List.erase_append_right _ hnotin, List.erase_cons_head]
      · intro i hi
        obtain ⟨hip, hil⟩ := hkept i hi
        refine ⟨List.mem_cons_of_mem _ hip, live_discardDef ?_ hil⟩
        intro y hy hmem
        obtain ⟨k, hk, hik⟩ := getElem?_post rest post x i hip
        rw [← hT] at hik
        rw [hdefeq] at hy
        rcases usesLater_spec hlater hik hxT hy hmem with hlt | ⟨_, hlt⟩
        · omega
        · omega

theorem eliminateDeadBlocks_inv (T : MIRGraph) (hco : instructionsCoherent T = true)
    (hlater : usesLater T = true) :
    ∀ (k : Nat) (g : MIRGraph), k ≤ T.blocks.length → DeadOuter T g k →
      ∃ g', eliminateDeadBlocks (List.range k).reverse g = some g' ∧ DeadOuter T g' 0
  | 0, g, _, h => ⟨g, rfl, h⟩
  | k + 1, g, hk, h => by
    rw [List.range_succ, List.reverse_append, List.reverse_singleton, List.singleton_append]
    have hlt : k < g.blocks.length := by rw [h.length]; omega
    have hblk : g.block k = some (g.blocks[k]) := by
      simp [MIRGraph.block, List.getElem?_eq_getElem hlt]
    simp only [eliminateDeadBlocks, hblk]
    have hins : instructionsOf g k = (g.blocks[k]).instructions := by
      simp [instructionsOf, hblk]
    have hinner : DeadInner T g k (g.blocks[k]).instructions.reverse [] := by
      refine ⟨h.defs, h.resumePoints, h.length, fun c hc => h.before c (by omega),
        fun c hc => h.after c (by omega), by simp [hins], [], ?_, ?_⟩
      · rw [← h.before k (by omega), hins]
        simp
      · intro i hi
        exact absurd hi (List.not_mem_nil i)
    obtain ⟨g1, kept, hg1, hinv⟩ := eliminateDeadInstructions_inv T hco hlater k _ [] g hinner
    simp only [hg1]
    refine eliminateDeadBlocks_inv T hco hlater k g1 (by omega)
      ⟨hinv.defs, hinv.resumePoints, hinv.length, hinv.before, ?_⟩
    intro c hc i hi
    rcases Nat.eq_or_lt_of_le hc with rfl | hlt'
    · obtain ⟨post, hT, hkept⟩ := hinv.original
      have := hinv.current
      simp only [List.reverse_nil, List.nil_append] at this hT
      rw [this] at hi
      rw [hT]
      exact hkept i hi
    · exact hinv.after c hlt' i hi

theorem eliminateDeadInstructions_live (b : Nat) :
    ∀ (l : List Nat) (g : MIRGraph), (∀ x ∈ l, Live g x) →
      eliminateDeadInstructions b l g = some g
  | [], _, _ => rfl
  | x :: rest, g, h => by
    simp only [eliminateDeadInstructions, eliminateDead_live g b x (h x (List.mem_cons_self _ _))]
    exact eliminateDeadInstructions_live b rest g (fun y hy => h y (List.mem_cons_of_mem _ hy))

theorem eliminateDeadBlocks_live (g : MIRGraph) (hl : ∀ b, ∀ i ∈ instructionsOf g b, Live g i) :
    ∀ (bs : List Nat), (∀ b ∈ bs, b < g.blocks.length) → eliminateDeadBlocks bs g = some g
  | [], _ => rfl
  | b :: bs, h => by
    have hlt := h b (List.mem_cons_self _ _)
    have hblk : g.block b = some (g.blocks[b]) := by
      simp [MIRGraph.block, List.getElem?_eq_getElem hlt]
    have hins : instructionsOf g b = (g.blocks[b]).instructions := by
      simp [instructionsOf, hblk]
    simp only [eliminateDeadBlocks, hblk]
    rw [eliminateDeadInstructions_live b _ g (by
      intro x hx
      exact hl b x (by rw [hins]; exact List.mem_reverse.mp hx))]
    exact eliminateDeadBlocks_live g hl bs (fun c hc => h c (List.mem_cons_of_mem _ hc))

/-! ## EliminateDeadCode: one run is enough -/

/-- C11: `EliminateDeadCode` is idempotent.  On a graph in which each
instruction is visited by the pass after all instructions that use it (a use
is later in the same block or in a later block of the list, which is a block
earlier in postorder), the pass returns a graph on which a second run returns
the same graph, so that it discards nothing, and in which every remaining
instruction is effectful, a guard, a control instruction, or has at least one
use. -/
theorem EliminateDeadCode_idempotent (g : MIRGraph) (hco : instructionsCoherent g = true)
    (hlater : usesLater g = true) :
    ∃ g1, EliminateDeadCode g = .ok g1 ∧ EliminateDeadCode g1 = .ok g1 ∧
      ∀ b, ∀ i ∈ instructionsOf g1 b, ∃ d, g1.definition i = some d ∧
        (d.effectful = true ∨ d.guard = true ∨ d.controlInstruction = true ∨
          hasUses g1 i = true) := by
  have h0 : DeadOuter g g g.blocks.length :=
    ⟨rfl, rfl, rfl, fun _ _ => rfl, fun b hb i hi => by
      rw [instructionsOf_nil_of_le hb] at hi
      exact absurd hi (List.not_mem_nil i)⟩
  obtain ⟨g1, hg1, hinv⟩ := eliminateDeadBlocks_inv g hco hlater g.blocks.length g
    (Nat.le_refl _) h0
  have hlive : ∀ b, ∀ i ∈ instructionsOf g1 b, Live g1 i :=
    fun b i hi => (hinv.after b (Nat.zero_le b) i hi).2
  refine ⟨g1, ?_, ?_, hlive⟩
  · simp only [EliminateDeadCode, MIRGraph.postorder, hg1]
  · simp only [EliminateDeadCode, MIRGraph.postorder]
    rw [eliminateDeadBlocks_live g1 hlive _ (fun b hb => by
      simpa using hb)]

theorem EliminateDeadCode_idempotent_witness :
    instructionsCoherent deadCodeGraph = true ∧ usesLater deadCodeGraph = true ∧
    ∃ g1, EliminateDeadCode deadCodeGraph = .ok g1 ∧ EliminateDeadCode g1 = .ok g1 ∧
      ∀ b, ∀ i ∈ instructionsOf g1 b, ∃ d, g1.definition i = some d ∧
        (d.effectful = true ∨ d.guard = true ∨ d.controlInstruction = true ∨
          hasUses g1 i = true) :=
  ⟨by decide, by decide, EliminateDeadCode_idempotent deadCodeGraph (by decide) (by decide)⟩

theorem EliminateDeadCode_deadCodeGraph :
    (EliminateDeadCode deadCodeGraph).map (fun g => g.blocks.map MBasicBlock.instructions) =
      .ok [[1, 3, 4], [6]] := by
  decide

/-! ## Lists: set and replace -/

namespace CFG

theorem replace_cons_self (l : List Nat) (a b : Nat) : (a :: l).replace a b = b :: l := by
  simp [List.replace_cons]

theorem replace_cons_ne (l : List Nat) (a b c : Nat) (h : c ≠ a) :
    (c :: l).replace a b = c :: l.replace a b := by
  have hbeq : (a == c) = false := by simpa using Ne.symm h
  simp [List.replace_cons, hbeq]

theorem count_set_add (l : List Nat) (i t y x : Nat) (h : l[i]? = some t) :
    (l.set i y).count x + (if t = x then 1 else 0) = l.count x + (if y = x then 1 else 0) := by
  induction l generalizing i with
  | nil => simp at h
  | cons a l ih =>
    cases i with
    | zero =>
      simp only [List.getElem?_cons_zero, Option.some.injEq] at h
      subst h
      simp only [List.set_cons_zero, List.count_cons, beq_iff_eq]
      omega
    | succ i =>
      simp only [List.getElem?_cons_succ] at h
      have := ih i h
      simp only [List.set_cons_succ, List.count_cons]
      omega

theorem count_replace_add (l : List Nat) (a b x : Nat) (h : a ∈ l) :
    (l.replace a b).count x + (if a = x then 1 else 0) = l.count x + (if b = x then 1 else 0) := by
  induction l with
  | nil => simp at h
  | cons c l ih =>
    by_cases hc : c = a
    · subst hc
      rw [replace_cons_self]
      simp only [List.count_cons, beq_iff_eq]
      omega
    · have hmem : a ∈ l := by
        rcases List.mem_cons.mp h with h1 | h1
        · exact absurd h1.symm hc
        · exact h1
      have := ih hmem
      rw [replace_cons_ne l a b c hc]
      simp only [List.count_cons]
      omega

theorem length_replace (l : List Nat) (a b : Nat) : (l.replace a b).length = l.length := by
  induction l with
  | nil => rfl
  | cons c l ih =>
    by_cases hc : c = a
    · subst hc
      rw [replace_cons_self]
      rfl
    · rw [replace_cons_ne l a b c hc]
      simp [ih]

theorem getElem?_replace_of_ne (l : List Nat) (a b j x : Nat) (h : l[j]? = some x)
    (hx : x ≠ a) : (l.replace a b)[j]? = some x := by
  induction l generalizing j with
  | nil => simp at h
  | cons c l ih =>
    cases j with
    | zero =>
      simp only [List.getElem?_cons_zero, Option.some.injEq] at h
      subst h
      rw [replace_cons_ne l a b c hx]
      simp
    | succ j =>
      simp only [List.getElem?_cons_succ] at h
      by_cases hc : c = a
      · subst hc
        rw [replace_cons_self]
        simpa using h
      · rw [replace_cons_ne l a b c hc]
        simpa using ih j h

theorem getElem?_replace_first (l : List Nat) (a b : Nat) (h : a ∈ l) :
    ∃ j : Nat, l[j]? = some a ∧ (l.replace a b)[j]? = some b := by
  induction l with
  | nil => simp at h
  | cons c l ih =>
    by_cases hc : c = a
    · subst hc
      have h1 : (c :: l)[0]? = some c := by simp
      have h2 : ((c :: l).replace c b)[0]? = some b := by
        rw [replace_cons_self]
        simp
      exact ⟨0, h1, h2⟩
    · have hmem : a ∈ l := by
        rcases List.mem_cons.mp h with h1 | h1
        · exact absurd h1.symm hc
        · exact h1
      obtain ⟨j, h1, h2⟩ := ih hmem
      have h3 : (c :: l)[j + 1]? = some a := by simpa using h1
      have h4 : ((c :: l).replace a b)[j + 1]? = some b := by
        rw [replace_cons_ne l a b c hc]
        simpa using h2
      exact ⟨j + 1, h3, h4⟩

end CFG

namespace CFG

theorem block_modifyBlock (g : MIRGraph) (b x : Nat) (f : MBasicBlock → MBasicBlock) :
    (modifyBlock g b f).block x = (g.block x).map fun y => if b = x then f y else y := by
  simp [modifyBlock, MIRGraph.block, List.getElem?_modify]

theorem definition_modify_cfg (g : MIRGraph) (d x : Nat) (f : MDefinition → MDefinition) :
    (modifyDefinition g d f).definition x =
      (g.definition x).map fun y => if d = x then f y else y := by
  simp [modifyDefinition, MIRGraph.definition, List.getElem?_modify]

theorem splitEdge_effect (g : MIRGraph) (A i T last : Nat) (t : MBasicBlock) (ss : List Nat)
    (hinv : EdgeInv g) (hA : A < g.table.length) (hlast : lastIns g A = some last)
    (hss : succs g A = ss) (hT : g.block T = some t) (hmem : A ∈ t.predecessors) :
    ∃ g', splitEdge g A i T = .ok g' ∧ SplitEffect g g' A i T := by
  have hTlt : T < g.table.length := (List.getElem?_eq_some.mp hT).1
  obtain ⟨l', hl', hlastlt⟩ := hinv.last A hA
  rw [hlast] at hl'
  cases hl'
  -- the graph before `replacePredecessor`
  let g2 : MIRGraph := modifyDefinition
    { g with
      table := g.table ++ [newSplitEdge g A g.defs.length]
      defs := g.defs ++ [newGoto T]
      numBlockIds := g.numBlockIds + 1 }
    last fun d => { d with successors := d.successors.set i g.table.length }
  have hg2T : g2.block T = some t := by
    show (g.table ++ _)[T]? = some t
    rw [List.getElem?_append_left hTlt]
    exact hT
  let g' : MIRGraph := modifyBlock g2 T fun x =>
    { x with predecessors := x.predecessors.replace A g.table.length }
  have hrun : splitEdge g A i T = .ok g' := by
    simp only [splitEdge, hlast, replacePredecessor]
    show (match g2.block T with
      | none => Run.fail Failure.nullPointer
      | some blk => if A ∈ blk.predecessors then Run.ok g' else Run.fail Failure.assertion) = _
    rw [hg2T]
    simp only [hmem, if_true]
  have hblock : ∀ b, g'.block b =
      ((g.table ++ [newSplitEdge g A g.defs.length])[b]?).map fun y =>
        if T = b then { y with predecessors := y.predecessors.replace A g.table.length }
        else y := by
    intro b
    exact block_modifyBlock g2 T b _
  have hblockOld : ∀ b blk, g.block b = some blk → g'.block b =
      some (if T = b then { blk with predecessors := blk.predecessors.replace A g.table.length }
        else blk) := by
    intro b blk hb
    rw [hblock, List.getElem?_append_left (List.getElem?_eq_some.mp hb).1]
    simp only [MIRGraph.block] at hb
    rw [hb]
    rfl
  have hblockNew : g'.block g.table.length = some (newSplitEdge g A g.defs.length) := by
    rw [hblock, List.getElem?_append_right (Nat.le_refl _)]
    simp only [Nat.sub_self, List.getElem?_cons_zero, Option.map_some']
    rw [if_neg (by omega)]
  have hblockNone : ∀ b, g.table.length < b → g'.block b = none := by
    intro b hb
    rw [hblock, List.getElem?_eq_none_iff.mpr (by simp; omega)]
    rfl
  have hdef : ∀ d, g'.definition d =
      ((g.defs ++ [newGoto T])[d]?).map fun y =>
        if last = d then { y with successors := y.successors.set i g.table.length } else y := by
    intro d
    exact definition_modify_cfg _ last d _
  have hdefOld : ∀ d y, g.definition d = some y → g'.definition d =
      some (if last = d then { y with successors := y.successors.set i g.table.length }
        else y) := by
    intro d y hd
    rw [hdef, List.getElem?_append_left (List.getElem?_eq_some.mp hd).1]
    simp only [MIRGraph.definition] at hd
    rw [hd]
    rfl
  have hdefNew : g'.definition g.defs.length = some (newGoto T) := by
    rw [hdef, List.getElem?_append_right (Nat.le_refl _)]
    simp only [Nat.sub_self, List.getElem?_cons_zero, Option.map_some']
    rw [if_neg (by omega)]
  have hlastOld : ∀ b, b < g.table.length → lastIns g' b = lastIns g b := by
    intro b hb
    have hblk : g.block b = some (g.table[b]) := by
      simp [MIRGraph.block, List.getElem?_eq_getElem hb]
    simp only [lastIns, hblockOld b _ hblk, hblk]
    split_ifs <;> rfl
  have hlastNew : lastIns g' g.table.length = some g.defs.length := by
    simp only [lastIns, hblockNew]
    rfl
  refine ⟨g', hrun, ?_, ?_, ?_, ?_, hlastOld, hlastNew, hdefNew, ?_, ?_⟩
  · show (List.modify _ T (g.table ++ [_])).length = _
    simp
  · show (List.modify _ last (g.defs ++ [_])).length = _
    simp
  · intro b
    rcases Nat.lt_trichotomy b g.table.length with hb | hb | hb
    · obtain ⟨blk, hblk⟩ : ∃ blk, g.block b = some blk :=
        ⟨g.table[b], by simp [MIRGraph.block, List.getElem?_eq_getElem hb]⟩
      have hne : ¬ b = g.table.length := by omega
      by_cases hTb : T = b
      · subst hTb
        rw [hT] at hblk
        cases hblk
        simp only [predecessorsOf, hblockOld T _ hT, hT, if_true]
      · have hbT : ¬ b = T := Ne.symm hTb
        simp only [predecessorsOf, hblockOld b _ hblk, hblk, hTb, hbT, hne, if_false]
    · subst hb
      have hne : ¬ g.table.length = T := by omega
      simp only [predecessorsOf, hblockNew, hne, if_false, if_true, newSplitEdge]
    · have hn1 : ¬ b = T := by omega
      have hn2 : ¬ b = g.table.length := by omega
      have : g.block b = none := List.getElem?_eq_none_iff.mpr (by omega)
      simp only [predecessorsOf, hblockNone b hb, this, hn1, hn2, if_false]
  · intro b
    rcases Nat.lt_trichotomy b g.table.length with hb | hb | hb
    · obtain ⟨lb, hlb, hlblt⟩ := hinv.last b hb
      obtain ⟨y, hy⟩ : ∃ y, g.definition lb = some y :=
        ⟨g.defs[lb], by simp [MIRGraph.definition, List.getElem?_eq_getElem hlblt]⟩
      have hne : ¬ b = g.table.length := by omega
      by_cases hbA : b = A
      · subst hbA
        rw [hlast] at hlb
        cases hlb
        simp only [succs, successorsOf, hlastOld b hb, hlast, hdefOld last _ hy, hy,
          Option.map_some', Option.getD_some, if_true]
      · have hne2 : last ≠ lb := by
          intro h
          subst h
          exact hbA (hinv.lastInj b A last hb hA hlb hlast)
        simp only [succs, successorsOf, hlastOld b hb, hlb, hdefOld lb _ hy, hy,
          Option.map_some', Option.getD_some, hbA, hne, hne2, if_false]
    · subst hb
      have hne : ¬ g.table.length = A := by omega
      simp only [succs, successorsOf, hlastNew, hdefNew, Option.map_some', Option.getD_some,
        hne, if_false, if_true, newGoto]
    · have h1 : lastIns g' b = none := by simp only [lastIns, hblockNone b hb]
      have h2 : lastIns g b = none := by
        have : g.block b = none := List.getElem?_eq_none_iff.mpr (by omega)
        simp only [lastIns, this]
      have hn1 : ¬ b = A := by omega
      have hn2 : ¬ b = g.table.length := by omega
      simp only [succs, successorsOf, h1, h2, hn1, hn2, if_false]
  · intro b blk hb
    refine ⟨_, hblockOld b blk hb, ?_, ?_, ?_⟩ <;> split_ifs <;> rfl
  · intro d y hd
    refine ⟨_, hdefOld d y hd, ?_, ?_, ?_⟩
    · split_ifs <;> rfl
    · split_ifs <;> rfl
    · intro hne
      rw [hlast] at hne
      rw [if_neg (fun h => hne (by rw [h]))]

end CFG

namespace CFG

theorem numPredecessors_eq (g : MIRGraph) (b : Nat) :
    numPredecessors g b = (predecessorsOf g b).length := by
  unfold numPredecessors predecessorsOf
  cases g.block b <;> rfl

theorem mem_replace_cases (l : List Nat) (a b x : Nat) (h : x ∈ l.replace a b) :
    x ∈ l ∨ x = b := by
  induction l with
  | nil => simp at h
  | cons c l ih =>
    by_cases hc : c = a
    · subst hc
      rw [replace_cons_self] at h
      rcases List.mem_cons.mp h with h1 | h1
      · exact Or.inr h1
      · exact Or.inl (List.mem_cons_of_mem _ h1)
    · rw [replace_cons_ne l a b c hc] at h
      rcases List.mem_cons.mp h with h1 | h1
      · exact Or.inl (h1 ▸ List.mem_cons_self _ _)
      · rcases ih h1 with h2 | h2
        · exact Or.inl (List.mem_cons_of_mem _ h2)
        · exact Or.inr h2

theorem getElem?_replace_cases (l : List Nat) (a b j e : Nat)
    (h : (l.replace a b)[j]? = some e) : l[j]? = some e ∨ (e = b ∧ l[j]? = some a) := by
  induction l generalizing j with
  | nil => simp at h
  | cons c l ih =>
    by_cases hc : c = a
    · subst hc
      rw [replace_cons_self] at h
      cases j with
      | zero =>
        simp only [List.getElem?_cons_zero, Option.some.injEq] at h
        exact Or.inr ⟨h.symm, by simp⟩
      | succ j =>
        simp only [List.getElem?_cons_succ] at h
        exact Or.inl (by simpa using h)
    · rw [replace_cons_ne l a b c hc] at h
      cases j with
      | zero =>
        simp only [List.getElem?_cons_zero, Option.some.injEq] at h
        exact Or.inl (by simpa using h)
      | succ j =>
        simp only [List.getElem?_cons_succ] at h
        rcases ih j h with h1 | ⟨h1, h2⟩
        · exact Or.inl (by simpa using h1)
        · exact Or.inr ⟨h1, by simpa using h2⟩

theorem splitEffect_edgeInv {g g' : MIRGraph} {A i T : Nat} (h : SplitEffect g g' A i T)
    (hinv : EdgeInv g) (hA : A < g.table.length) (hT : T < g.table.length)
    (hi : (succs g A)[i]? = some T) (hmem : A ∈ predecessorsOf g T) : EdgeInv g' := by
  have hnA : A ≠ g.table.length := by omega
  have hnT : T ≠ g.table.length := by omega
  constructor
  · intro b hb
    rw [h.tableLength] at hb
    rcases Nat.lt_or_ge b g.table.length with hlt | hge
    · obtain ⟨l, hl, hllt⟩ := hinv.last b hlt
      exact ⟨l, by rw [h.lastOld b hlt]; exact hl, by rw [h.defsLength]; omega⟩
    · have : b = g.table.length := by omega
      subst this
      exact ⟨_, h.lastNew, by rw [h.defsLength]; omega⟩
  · intro a b l ha hb hla hlb
    rw [h.tableLength] at ha hb
    rcases Nat.lt_or_ge a g.table.length with hlta | hgea
    · rcases Nat.lt_or_ge b g.table.length with hltb | hgeb
      · rw [h.lastOld a hlta] at hla
        rw [h.lastOld b hltb] at hlb
        exact hinv.lastInj a b l hlta hltb hla hlb
      · have : b = g.table.length := by omega
        subst this
        rw [h.lastNew] at hlb
        cases hlb
        rw [h.lastOld a hlta] at hla
        obtain ⟨l', hl', hlt'⟩ := hinv.last a hlta
        rw [hla] at hl'
        cases hl'
        omega
    · have hae : a = g.table.length := by omega
      subst hae
      rcases Nat.lt_or_ge b g.table.length with hltb | hgeb
      · rw [h.lastNew] at hla
        cases hla
        rw [h.lastOld b hltb] at hlb
        obtain ⟨l', hl', hlt'⟩ := hinv.last b hltb
        rw [hlb] at hl'
        cases hl'
        omega
      · omega
  · intro b p hp
    rw [h.preds b] at hp
    rw [h.tableLength]
    split_ifs at hp with h1 h2
    · rcases mem_replace_cases _ _ _ _ hp with h3 | h3
      · exact Nat.lt_succ_of_lt (hinv.predsValid T p h3)
      · omega
    · simp only [List.mem_singleton] at hp
      omega
    · exact Nat.lt_succ_of_lt (hinv.predsValid b p hp)
  · intro b s hs
    rw [h.succs b] at hs
    rw [h.tableLength]
    split_ifs at hs with h1 h2
    · rcases List.mem_or_eq_of_mem_set hs with h3 | h3
      · exact Nat.lt_succ_of_lt (hinv.succsValid A s h3)
      · omega
    · simp only [List.mem_singleton] at hs
      omega
    · exact Nat.lt_succ_of_lt (hinv.succsValid b s hs)
  · intro a b
    rw [h.preds b, h.succs a]
    have hdual := hinv.dual
    have hnotP : ∀ c, (predecessorsOf g c).count g.table.length = 0 := by
      intro c
      rw [List.count_eq_zero]
      intro hm
      exact absurd (hinv.predsValid c _ hm) (Nat.lt_irrefl _)
    have hnotS : ∀ c, (succs g c).count g.table.length = 0 := by
      intro c
      rw [List.count_eq_zero]
      intro hm
      exact absurd (hinv.succsValid c _ hm) (Nat.lt_irrefl _)
    have hset := fun x => count_set_add (succs g A) i T g.table.length x hi
    have hrep := fun x => count_replace_add (predecessorsOf g T) A g.table.length x hmem
    by_cases hbT : b = T
    · subst hbT
      rw [if_pos rfl]
      by_cases haA : a = A
      · subst haA
        rw [if_pos rfl]
        have h1 := hset b
        have h2 := hrep a
        have h3 := hdual a b
        simp only [if_true, if_neg (Ne.symm hnT), if_neg (Ne.symm hnA)] at h1 h2
        omega
      · rw [if_neg haA]
        by_cases han : a = g.table.length
        · subst han
          rw [if_pos rfl]
          have h2 := hrep g.table.length
          have h3 := hnotP b
          simp only [if_true, if_neg hnA, List.count_singleton_self] at h2 ⊢
          omega
        · rw [if_neg han]
          have h2 := hrep a
          have h3 := hdual a b
          simp only [if_neg (Ne.symm haA), if_neg (Ne.symm han)] at h2
          omega
    · rw [if_neg hbT]
      by_cases hbn : b = g.table.length
      · subst hbn
        rw [if_pos rfl]
        by_cases haA : a = A
        · subst haA
          rw [if_pos rfl]
          have h1 := hset g.table.length
          have h3 := hnotS a
          simp only [if_true, if_neg hnT, List.count_singleton_self] at h1 ⊢
          omega
        · rw [if_neg haA]
          by_cases han : a = g.table.length
          · subst han
            rw [if_pos rfl]
            simp [List.count_singleton, hnA, hnT]
          · rw [if_neg han]
            have h3 := hnotS a
            rw [h3]
            simp [List.count_singleton, Ne.symm haA]
      · rw [if_neg hbn]
        by_cases haA : a = A
        · subst haA
          rw [if_pos rfl]
          have h1 := hset b
          have h3 := hdual a b
          simp only [if_neg (Ne.symm hbT), if_neg (Ne.symm hbn)] at h1
          omega
        · rw [if_neg haA]
          by_cases han : a = g.table.length
          · subst han
            rw [if_pos rfl]
            have h3 := hnotP b
            rw [h3]
            simp [List.count_singleton, Ne.symm hbT]
          · rw [if_neg han]
            exact hdual a b

end CFG

namespace CFG

theorem splitEffect_numPredecessors {g g' : MIRGraph} {A i T : Nat}
    (h : SplitEffect g g' A i T) (b : Nat) :
    numPredecessors g' b = if b = g.table.length then
      (if b = T then numPredecessors g T else 1) else numPredecessors g b := by
  rw [numPredecessors_eq, numPredecessors_eq, h.preds b]
  by_cases hbT : b = T
  · subst hbT
    simp only [if_true, length_replace, numPredecessors_eq]
    split_ifs <;> rfl
  · simp only [hbT, if_false]
    split_ifs
    · rfl
    · exact (numPredecessors_eq g b).symm

theorem succs_of_last {g : MIRGraph} {s l : Nat} {y : MDefinition} (hl : lastIns g s = some l)
    (hy : g.definition l = some y) : succs g s = y.successors := by
  simp only [succs, successorsOf, hl, hy, Option.map_some', Option.getD_some]

theorem splitTrack_refl (T : MIRGraph) : SplitTrack T T :=
  ⟨Nat.le_refl _, Nat.le_refl _, fun _ blk0 h => ⟨blk0, h, rfl, rfl, rfl, rfl⟩,
    fun _ y0 h => ⟨y0, h, rfl, rfl⟩, fun _ _ _ _ h _ => h,
    fun _ h1 h2 => absurd h2 (Nat.not_lt.mpr h1)⟩

theorem splitTrack_old_of_succs {T g : MIRGraph} (ht : SplitTrack T g) {A : Nat}
    (hA : A < g.table.length) (h2 : 2 ≤ (succs g A).length) : A < T.table.length := by
  by_contra hn
  obtain ⟨src, tgt, j, l, _, hl, hy, _⟩ := ht.newBlocks A (Nat.le_of_not_lt hn) hA
  rw [succs_of_last hl hy] at h2
  simp [newGoto] at h2

theorem splitTrack_old_of_preds {T g : MIRGraph} (ht : SplitTrack T g) {B : Nat}
    (hB : B < g.table.length) (h2 : 2 ≤ numPredecessors g B) : B < T.table.length := by
  by_contra hn
  obtain ⟨src, tgt, j, l, hp, _⟩ := ht.newBlocks B (Nat.le_of_not_lt hn) hB
  rw [numPredecessors_eq, hp] at h2
  simp at h2

theorem splitEffect_track {T g g' : MIRGraph} {A i T' : Nat} (h : SplitEffect g g' A i T')
    (hinv : EdgeInv g) (ht : SplitTrack T g) (hA : A < T.table.length)
    (hT : T' < T.table.length) (hmem : A ∈ predecessorsOf g T') : SplitTrack T g' := by
  have hAg : A < g.table.length := Nat.lt_of_lt_of_le hA ht.tableGrow
  have hTg : T' < g.table.length := Nat.lt_of_lt_of_le hT ht.tableGrow
  refine ⟨by rw [h.tableLength]; exact Nat.le_succ_of_le ht.tableGrow,
    by rw [h.defsLength]; exact Nat.le_succ_of_le ht.defsGrow, ?_, ?_, ?_, ?_⟩
  · intro b blk0 hb
    obtain ⟨blk, hblk, h1, h2, h3, h4⟩ := ht.oldBlocks b blk0 hb
    obtain ⟨blk', hblk', h5, h6, h7⟩ := h.blocksOld b blk hblk
    refine ⟨blk', hblk', h5.trans h1, h6.trans h2, h7.trans h3, ?_⟩
    have hlt : b < g.table.length := (List.getElem?_eq_some.mp hblk).1
    have hp := splitEffect_numPredecessors h b
    rw [if_neg (by omega)] at hp
    simp only [numPredecessors, hblk', hblk] at hp
    rw [hp, h4]
  · intro d y0 hd
    obtain ⟨y, hy, h1, h2⟩ := ht.oldDefs d y0 hd
    obtain ⟨y', hy', h3, h4, _⟩ := h.defsOld d y hy
    exact ⟨y', hy', h3.trans h1, h4.trans h2⟩
  · intro b j e hb hj he
    rw [h.preds b] at hj
    have hbn : b ≠ g.table.length := by have := ht.tableGrow; omega
    by_cases hbT : b = T'
    · subst hbT
      rw [if_pos rfl] at hj
      rcases getElem?_replace_cases _ _ _ _ _ hj with h1 | ⟨h1, _⟩
      · exact ht.oldPreds b j e hb h1 he
      · have := ht.tableGrow
        omega
    · rw [if_neg hbT, if_neg hbn] at hj
      exact ht.oldPreds b j e hb hj he
  · intro s hs1 hs2
    rw [h.tableLength] at hs2
    rcases Nat.lt_or_ge s g.table.length with hlt | hge
    · obtain ⟨src, tgt, j, l, hp, hl, hy, hsrc, htgt, hj0, hj⟩ := ht.newBlocks s hs1 hlt
      have hsA : s ≠ A := by omega
      have hsT : s ≠ T' := by omega
      refine ⟨src, tgt, j, l, ?_, ?_, ?_, hsrc, htgt, hj0, ?_⟩
      · rw [h.preds s, if_neg hsT, if_neg (by omega)]
        exact hp
      · rw [h.lastOld s hlt]
        exact hl
      · obtain ⟨y', hy', _, _, hkeep⟩ := h.defsOld l _ hy
        rw [hy', hkeep]
        intro hAl
        exact hsA (hinv.lastInj s A l hlt hAg hl hAl)
      · rw [h.preds tgt]
        by_cases htT : tgt = T'
        · subst htT
          rw [if_pos rfl]
          exact getElem?_replace_of_ne _ _ _ _ _ hj hsA
        · rw [if_neg htT, if_neg (by have := ht.tableGrow; omega)]
          exact hj
    · have hse : s = g.table.length := by omega
      subst hse
      obtain ⟨j, hj1, hj2⟩ := getElem?_replace_first (predecessorsOf g T') A g.table.length hmem
      refine ⟨A, T', j, g.defs.length, ?_, h.lastNew, h.gotoNew, hA, hT,
        ht.oldPreds T' j A hT hj1 hA, ?_⟩
      · rw [h.preds, if_neg (by omega), if_pos rfl]
      · rw [h.preds, if_pos rfl]
        exact hj2

end CFG

namespace CFG

theorem successorsOf_of_edgeInv {g : MIRGraph} (hinv : EdgeInv g) {A : Nat}
    (hA : A < g.table.length) :
    ∃ l y, lastIns g A = some l ∧ g.definition l = some y ∧
      successorsOf g A = some y.successors ∧ succs g A = y.successors := by
  obtain ⟨l, hl, hlt⟩ := hinv.last A hA
  have hy : g.definition l = some (g.defs[l]) := by
    simp [MIRGraph.definition, List.getElem?_eq_getElem hlt]
  exact ⟨l, _, hl, hy, by simp [successorsOf, hl, hy], succs_of_last hl hy⟩

theorem mem_preds_of_slot {g : MIRGraph} (hinv : EdgeInv g) {A i T : Nat}
    (hi : (succs g A)[i]? = some T) : A ∈ predecessorsOf g T := by
  have h1 : 0 < (succs g A).count T := List.count_pos_iff.mpr (List.getElem?_mem hi)
  rw [← hinv.dual A T] at h1
  exact List.count_pos_iff.mp h1

theorem range'_reverse_succ (a n : Nat) :
    (List.range' a (n + 1)).reverse = (a + n) :: (List.range' a n).reverse := by
  rw [List.range'_concat]
  simp

theorem splitSuccessors_inv (T g0 : MIRGraph) (A : Nat) (hA : A < g0.table.length)
    (hAT : A < T.table.length) (hv0 : ∀ s ∈ succs g0 A, s < g0.table.length) :
    ∀ (m k : Nat) (g : MIRGraph) (news : List Nat),
      SlotInv g0 g A k news → SplitTrack T g → k + m = (succs g0 A).length →
      ∃ g' news', splitSuccessors A (List.range' k m) g news = .ok (g', news') ∧
        SlotInv g0 g' A (k + m) news' ∧ SplitTrack T g'
  | 0, k, g, news, hs, ht, _ => ⟨g, news, rfl, hs, ht⟩
  | m + 1, k, g, news, hs, ht, hkm => by
    have hAg : A < g.table.length := Nat.lt_of_lt_of_le hA hs.tableGrow
    obtain ⟨l, y, hl, hy, hso, hsuccs⟩ := successorsOf_of_edgeInv hs.edge hAg
    have hklt : k < (succs g A).length := by rw [hs.succsLength]; omega
    obtain ⟨T', hT'⟩ : ∃ T', (succs g A)[k]? = some T' :=
      ⟨_, List.getElem?_eq_getElem hklt⟩
    have hT'0 : (succs g0 A)[k]? = some T' := by rw [← hs.slotsTodo k (Nat.le_refl k)]; exact hT'
    have hT'lt0 : T' < g0.table.length := hv0 T' (List.getElem?_mem hT'0)
    have hT'lt : T' < g.table.length := Nat.lt_of_lt_of_le hT'lt0 hs.tableGrow
    obtain ⟨t, ht'⟩ : ∃ t, g.block T' = some t :=
      ⟨g.table[T'], by simp [MIRGraph.block, List.getElem?_eq_getElem hT'lt]⟩
    have hnum : numPredecessors g T' = t.predecessors.length := by
      simp only [numPredecessors, ht']
    have hdrop : (succs g0 A).drop k = T' :: (succs g0 A).drop (k + 1) := by
      obtain ⟨hk0, hget⟩ := List.getElem?_eq_some.mp hT'0
      rw [← hget]
      exact List.drop_eq_getElem_cons hk0
    have hrun : splitSuccessors A (List.range' k (m + 1)) g news =
        if t.predecessors.length < 2 then splitSuccessors A (List.range' (k + 1) m) g news
        else
          match splitEdge g A k T' with
          | .fail e => .fail e
          | .ok g' => splitSuccessors A (List.range' (k + 1) m) g' (g.table.length :: news) := by
      rw [hsuccs] at hT'
      simp only [List.range', splitSuccessors, hso, hT', ht']
    rw [hrun]
    have hkm' : k + 1 + m = (succs g0 A).length := by omega
    have hgoal : k + (m + 1) = k + 1 + m := by omega
    rw [hgoal]
    by_cases hsmall : t.predecessors.length < 2
    · rw [if_pos hsmall]
      refine splitSuccessors_inv T g0 A hA hAT hv0 m (k + 1) g news ?_ ht hkm'
      refine ⟨hs.edge, hs.tableGrow, hs.fresh, hs.predsOld, hs.newsOne, hs.succsOld,
        hs.succsLength, ?_, fun j hj => hs.slotsTodo j (by omega), ?_⟩
      · intro j t' hj hjt
        rcases Nat.lt_or_ge j k with hlt | hge
        · exact hs.slotsDone j t' hlt hjt
        · have : j = k := by omega
          subst this
          rw [hT'] at hjt
          cases hjt
          omega
      · rw [← hs.count, hdrop]
        have : decide (2 ≤ numPredecessors g0 T') = false := by
          rw [← hs.predsOld T' hT'lt0, hnum]
          simpa using hsmall
        simp only [List.filter_cons, this, Bool.false_eq_true, if_false]
    · rw [if_neg hsmall]
      have hmem : A ∈ predecessorsOf g T' := mem_preds_of_slot hs.edge hT'
      have hmem' : A ∈ t.predecessors := by
        simpa only [predecessorsOf, ht'] using hmem
      obtain ⟨g', hg', heff⟩ := splitEdge_effect g A k T' l t _ hs.edge hAg hl rfl ht' hmem'
      rw [hg']
      have hedge' := splitEffect_edgeInv heff hs.edge hAg hT'lt hT' hmem
      have hT'T : T' < T.table.length :=
        splitTrack_old_of_preds ht hT'lt (by rw [hnum]; omega)
      have htrack' := splitEffect_track heff hs.edge ht hAT hT'T hmem
      have hnp := fun b => splitEffect_numPredecessors heff b
      refine splitSuccessors_inv T g0 A hA hAT hv0 m (k + 1) g' (g.table.length :: news) ?_
        htrack' hkm'
      refine ⟨hedge', by rw [heff.tableLength]; exact Nat.le_succ_of_le hs.tableGrow, ?_, ?_,
        ?_, ?_, ?_, ?_, ?_, ?_⟩
      · rw [heff.tableLength, hs.fresh]
        have : g.table.length + 1 - g0.table.length = (g.table.length - g0.table.length) + 1 := by
          have := hs.tableGrow
          omega
        rw [this, range'_reverse_succ]
        have : g0.table.length + (g.table.length - g0.table.length) = g.table.length := by
          have := hs.tableGrow
          omega
        rw [this]
      · intro b hb
        rw [hnp b, if_neg (by have := hs.tableGrow; omega)]
        exact hs.predsOld b hb
      · intro s hs1 hs2
        rw [heff.tableLength] at hs2
        rcases Nat.lt_or_ge s g.table.length with hlt | hge
        · obtain ⟨h1, h2⟩ := hs.newsOne s hs1 hlt
          refine ⟨?_, ?_⟩
          · rw [hnp s, if_neg (by omega)]
            exact h1
          · rw [heff.succs s, if_neg (by omega), if_neg (by omega)]
            exact h2
        · have : s = g.table.length := by omega
          subst this
          refine ⟨?_, ?_⟩
          · rw [hnp, if_pos rfl, if_neg (by omega)]
          · rw [heff.succs, if_neg (by omega), if_pos rfl]
            rfl
      · intro b hb hbA
        rw [heff.succs b, if_neg hbA, if_neg (by have := hs.tableGrow; omega)]
        exact hs.succsOld b hb hbA
      · rw [heff.succs A, if_pos rfl, List.length_set]
        exact hs.succsLength
      · intro j t' hj hjt
        rw [heff.succs A, if_pos rfl, List.getElem?_set] at hjt
        by_cases hkj : k = j
        · subst hkj
          rw [if_pos rfl, if_pos hklt] at hjt
          cases hjt
          rw [hnp, if_pos rfl, if_neg (by omega)]
          omega
        · rw [if_neg hkj] at hjt
          have h1 := hs.slotsDone j t' (by omega) hjt
          have h2 : t' < g.table.length := hs.edge.succsValid A t' (List.getElem?_mem hjt)
          rw [hnp, if_neg (by omega)]
          exact h1
      · intro j hj
        rw [heff.succs A, if_pos rfl, List.getElem?_set, if_neg (by omega)]
        exact hs.slotsTodo j (by omega)
      · rw [← hs.count, hdrop]
        have : decide (2 ≤ numPredecessors g0 T') = true := by
          rw [← hs.predsOld T' hT'lt0, hnum]
          simpa using hsmall
        simp only [List.filter_cons, this, if_true, List.length_cons]
        omega

end CFG

namespace CFG

theorem criticalSlots_eq_zero_iff (g : MIRGraph) (a : Nat) :
    criticalSlots g a = 0 ↔
      ∀ b ∈ succs g a, ¬ (2 ≤ (succs g a).length ∧ 2 ≤ numPredecessors g b) := by
  unfold criticalSlots
  split_ifs with h
  · simp only [true_iff]
    intro b _ hh
    omega
  · rw [List.length_eq_zero, List.filter_eq_nil_iff]
    simp only [decide_eq_true_eq]
    constructor
    · intro hall b hb hh
      exact hall b hb hh.2
    · intro hall b hb hh
      exact hall b hb ⟨by omega, hh⟩

theorem criticalSlots_congr {g g' : MIRGraph} {b : Nat} (hs : succs g' b = succs g b)
    (hp : ∀ t ∈ succs g b, numPredecessors g' t = numPredecessors g t) :
    criticalSlots g' b = criticalSlots g b := by
  unfold criticalSlots
  rw [hs]
  congr 2
  apply List.filter_congr
  intro t ht
  rw [hp t ht]

theorem splitBlock_inv (T g : MIRGraph) (A : Nat) (hinv : EdgeInv g) (ht : SplitTrack T g)
    (hA : A < g.table.length) :
    ∃ g' news, splitBlock g A = .ok (g', news) ∧ EdgeInv g' ∧ SplitTrack T g' ∧
      g.table.length ≤ g'.table.length ∧
      news = (List.range' g.table.length (g'.table.length - g.table.length)).reverse ∧
      news.length = criticalSlots g A ∧ criticalSlots g' A = 0 ∧
      (∀ b, b < g.table.length → b ≠ A → criticalSlots g' b = criticalSlots g b) ∧
      ∀ s, g.table.length ≤ s → s < g'.table.length → criticalSlots g' s = 0 := by
  obtain ⟨l, y, hl, hy, hso, hsuccs⟩ := successorsOf_of_edgeInv hinv hA
  unfold splitBlock
  rw [hso]
  simp only
  by_cases hsmall : y.successors.length < 2
  · rw [if_pos hsmall]
    refine ⟨g, [], rfl, hinv, ht, Nat.le_refl _, by simp, ?_, ?_, fun _ _ _ => rfl, ?_⟩
    · simp [criticalSlots, hsuccs, hsmall]
    · simp [criticalSlots, hsuccs, hsmall]
    · intro s h1 h2
      omega
  · rw [if_neg hsmall]
    have hAT : A < T.table.length :=
      splitTrack_old_of_succs ht hA (by rw [hsuccs]; omega)
    have hs0 : SlotInv g g A 0 [] :=
      ⟨hinv, Nat.le_refl _, by simp, fun _ _ => rfl,
        fun s h1 h2 => absurd h2 (Nat.not_lt.mpr h1), fun _ _ _ => rfl, rfl,
        fun j t hj _ => absurd hj (Nat.not_lt_zero j), fun _ _ => rfl, by simp⟩
    obtain ⟨g', news, hrun, hs, ht'⟩ := splitSuccessors_inv T g A hA hAT
      (fun s hs => hinv.succsValid A s hs) y.successors.length 0 g [] hs0 ht
      (by rw [hsuccs]; omega)
    rw [List.range_eq_range', hrun]
    have hcount := hs.count
    rw [Nat.zero_add, ← hsuccs, List.drop_length] at hcount
    simp only [List.filter_nil, List.length_nil, Nat.add_zero] at hcount
    refine ⟨g', news, rfl, hs.edge, ht', hs.tableGrow, hs.fresh, ?_, ?_, ?_, ?_⟩
    · rw [hcount]
      simp [criticalSlots, hsuccs, hsmall]
    · rw [criticalSlots_eq_zero_iff]
      intro b hb hh
      obtain ⟨j, hj⟩ := List.getElem?_of_mem hb
      have hjlt : j < (succs g' A).length := (List.getElem?_eq_some.mp hj).1
      have := hs.slotsDone j b (by rw [Nat.zero_add, ← hsuccs, ← hs.succsLength]; exact hjlt) hj
      omega
    · intro b hb hbA
      apply criticalSlots_congr (hs.succsOld b hb hbA)
      intro t htm
      exact hs.predsOld t (hinv.succsValid b t htm)
    · intro s h1 h2
      have := (hs.newsOne s h1 h2).2
      simp [criticalSlots, this]

end CFG

namespace CFG

theorem edgeInv_of_coherent {g : MIRGraph} (h : edgesCoherent g = true) : EdgeInv g := by
  simp only [edgesCoherent, Bool.and_eq_true, decide_eq_true_eq, List.all_eq_true,
    List.mem_range] at h
  obtain ⟨⟨⟨⟨_, _⟩, h3⟩, h4⟩, h5⟩ := h
  have hout : ∀ b, g.table.length ≤ b → g.block b = none := fun b hb =>
    List.getElem?_eq_none_iff.mpr hb
  constructor
  · intro b hb
    have := (h3 b hb).1.1
    cases hl : lastIns g b with
    | none => simp [hl] at this
    | some l =>
      simp only [hl, decide_eq_true_eq] at this
      exact ⟨l, rfl, this⟩
  · intro a b l ha hb hla hlb
    have hinj := List.nodup_iff_injective_getElem.mp h4
    have ha' : a < ((List.range g.table.length).map (lastIns g)).length := by simpa using ha
    have hb' : b < ((List.range g.table.length).map (lastIns g)).length := by simpa using hb
    have := @hinj ⟨a, ha'⟩ ⟨b, hb'⟩ (by simp [hla, hlb])
    simpa using this
  · intro b p hp
    rcases Nat.lt_or_ge b g.table.length with hb | hb
    · exact (h3 b hb).1.2 p hp
    · simp [predecessorsOf, hout b hb] at hp
  · intro b s hs
    rcases Nat.lt_or_ge b g.table.length with hb | hb
    · exact (h3 b hb).2 s hs
    · simp [succs, successorsOf, lastIns, hout b hb] at hs
  · intro a b
    rcases Nat.lt_or_ge a g.table.length with ha | ha
    · rcases Nat.lt_or_ge b g.table.length with hb | hb
      · exact h5 a ha b hb
      · have h1 : predecessorsOf g b = [] := by simp [predecessorsOf, hout b hb]
        rw [h1, List.count_nil, eq_comm, List.count_eq_zero]
        intro hm
        have := (h3 a ha).2 b hm
        omega
    · have h1 : succs g a = [] := by simp [succs, successorsOf, lastIns, hout a ha]
      rw [h1, List.count_nil, List.count_eq_zero]
      intro hm
      rcases Nat.lt_or_ge b g.table.length with hb | hb
      · have := (h3 b hb).1.2 a hm
        omega
      · simp [predecessorsOf, hout b hb] at hm

theorem splitBlocks_inv (T : MIRGraph) (total : Nat) :
    ∀ (fuel : Nat) (done todo : List Nat) (g : MIRGraph),
      SplitState g done todo total → SplitTrack T g →
      todo.length + (todo.map (criticalSlots g)).sum ≤ fuel →
      ∃ g', splitBlocks fuel done todo g = .ok g' ∧ SplitTrack T g' ∧
        SplitState g' g'.blocks [] total
  | fuel, done, [], g, hs, ht, _ => by
    refine ⟨{ g with blocks := done }, by cases fuel <;> rfl, ?_, ?_⟩
    · exact ⟨ht.tableGrow, ht.defsGrow, ht.oldBlocks, ht.oldDefs, ht.oldPreds, ht.newBlocks⟩
    · exact ⟨⟨hs.edge.last, hs.edge.lastInj, hs.edge.predsValid, hs.edge.succsValid,
        hs.edge.dual⟩, hs.nodup, hs.valid, hs.settled, hs.count⟩
  | 0, done, A :: rest, g, _, _, hfuel => by
    simp at hfuel
  | fuel + 1, done, A :: rest, g, hs, ht, hfuel => by
    have hA : A < g.table.length := hs.valid A (by simp)
    obtain ⟨g', news, hrun, hedge', ht', hgrow, hnews, hlen, hA0, hothers, hnew0⟩ :=
      splitBlock_inv T g A hs.edge ht hA
    simp only [splitBlocks, hrun]
    have hnewsmem : ∀ s ∈ news, g.table.length ≤ s ∧ s < g'.table.length := by
      intro s hsm
      rw [hnews, List.mem_reverse, List.mem_range'_1] at hsm
      omega
    have hnodup := hs.nodup
    rw [List.nodup_append] at hnodup
    obtain ⟨hnd1, hnd2, hdisj⟩ := hnodup
    have hAnot : A ∉ rest := (List.nodup_cons.mp hnd2).1
    have hrestnd : rest.Nodup := (List.nodup_cons.mp hnd2).2
    have hrest : ∀ b ∈ rest, criticalSlots g' b = criticalSlots g b := by
      intro b hb
      exact hothers b (hs.valid b (by simp [hb])) (fun h => hAnot (h ▸ hb))
    have hsum : ((news ++ rest).map (criticalSlots g')).sum =
        (rest.map (criticalSlots g)).sum := by
      rw [List.map_append, List.sum_append, List.map_congr_left hrest]
      have : (news.map (criticalSlots g')).sum = 0 := by
        apply List.sum_eq_zero
        intro x hx
        obtain ⟨s, hsm, rfl⟩ := List.mem_map.mp hx
        exact hnew0 s (hnewsmem s hsm).1 (hnewsmem s hsm).2
      rw [this, Nat.zero_add]
    have hstate : SplitState g' (done ++ [A]) (news ++ rest) total := by
      refine ⟨hedge', ?_, ?_, ?_, ?_⟩
      · rw [List.append_assoc, List.nodup_append]
        refine ⟨hnd1, ?_, ?_⟩
        · rw [List.singleton_append, List.nodup_cons]
          refine ⟨?_, ?_⟩
          · intro hmem
            rcases List.mem_append.mp hmem with h1 | h1
            · have := (hnewsmem A h1).1
              omega
            · exact hAnot h1
          · rw [List.nodup_append]
            refine ⟨?_, hrestnd, ?_⟩
            · rw [hnews, List.nodup_reverse]
              exact List.nodup_range' _ _
            · intro x hx1 hx2
              have := (hnewsmem x hx1).1
              have := hs.valid x (by simp [hx2])
              omega
        · intro x hx1 hx2
          simp only [List.singleton_append, List.mem_cons, List.mem_append] at hx2
          rcases hx2 with h1 | h1 | h1
          · exact hdisj hx1 (h1 ▸ List.mem_cons_self _ _)
          · have := (hnewsmem x h1).1
            have := hs.valid x (by simp [hx1])
            omega
          · exact hdisj hx1 (List.mem_cons_of_mem _ h1)
      · intro b hb
        simp only [List.append_assoc, List.singleton_append, List.mem_append, List.mem_cons] at hb
        rcases hb with h1 | h1 | h1 | h1
        · exact Nat.lt_of_lt_of_le (hs.valid b (by simp [h1])) hgrow
        · subst h1
          exact Nat.lt_of_lt_of_le hA hgrow
        · exact (hnewsmem b h1).2
        · exact Nat.lt_of_lt_of_le (hs.valid b (by simp [h1])) hgrow
      · intro a ha
        rcases List.mem_append.mp ha with h1 | h1
        · have hne : a ≠ A := fun h => hdisj h1 (h ▸ List.mem_cons_self _ _)
          rw [hothers a (hs.valid a (by simp [h1])) hne]
          exact hs.settled a h1
        · simp only [List.mem_singleton] at h1
          subst h1
          exact hA0
      · rw [hsum, ← hs.count]
        simp only [List.length_append, List.length_cons, List.length_nil, List.map_cons,
          List.sum_cons, hlen]
        omega
    refine splitBlocks_inv T total fuel (done ++ [A]) (news ++ rest) g' hstate ht' ?_
    rw [hsum]
    simp only [List.length_append, List.length_cons, List.map_cons, List.sum_cons, hlen] at hfuel ⊢
    omega

theorem SplitCriticalEdges_total (fuel : Nat) (g : MIRGraph) (hco : edgesCoherent g = true)
    (hfuel : g.blocks.length + criticalEdges g ≤ fuel) :
    ∃ g', SplitCriticalEdges fuel g = .ok g' ∧ SplitTrack g g' ∧
      SplitState g' g'.blocks [] (g.blocks.length + criticalEdges g) := by
  have hinv := edgeInv_of_coherent hco
  simp only [edgesCoherent, Bool.and_eq_true, decide_eq_true_eq, List.all_eq_true] at hco
  refine splitBlocks_inv g _ fuel [] g.blocks g ?_ (splitTrack_refl g) hfuel
  exact ⟨hinv, by simpa using hco.1.1.1.1, by simpa using hco.1.1.1.2,
    fun a ha => absurd ha (List.not_mem_nil a), by simp [criticalEdges]⟩

end CFG

namespace CFG

theorem splitBlocks_sublist :
    ∀ (fuel : Nat) (done todo : List Nat) (g g' : MIRGraph),
      splitBlocks fuel done todo g = .ok g' → (done ++ todo).Sublist g'.blocks
  | fuel, done, [], g, g', h => by
    have : g' = { g with blocks := done } := by
      cases fuel <;> simp only [splitBlocks, Run.ok.injEq] at h <;> exact h.symm
    subst this
    simp
  | 0, done, A :: rest, g, g', h => by
    simp [splitBlocks] at h
  | fuel + 1, done, A :: rest, g, g', h => by
    simp only [splitBlocks] at h
    cases hb : splitBlock g A with
    | fail e => simp [hb] at h
    | ok r =>
      obtain ⟨g1, news⟩ := r
      simp only [hb] at h
      refine List.Sublist.trans ?_ (splitBlocks_sublist fuel _ _ g1 g' h)
      rw [List.append_assoc]
      apply List.Sublist.append_left
      rw [List.singleton_append]
      exact List.Sublist.cons₂ _ (List.sublist_append_right _ _)

/-- C14: `SplitCriticalEdges`, on a coherent graph and with fuel for as many
iterations as the graph has blocks and critical edges, returns a graph in
which no edge is left from a block of the graph with at least two successors
to a block with at least two predecessors, and whose block list has the blocks
it had and as many blocks more as the graph had critical edges before the
pass, counted per successor slot. -/
theorem SplitCriticalEdges_no_critical_edge (fuel : Nat) (g : MIRGraph)
    (hco : edgesCoherent g = true) (hfuel : g.blocks.length + criticalEdges g ≤ fuel) :
    ∃ g', SplitCriticalEdges fuel g = .ok g' ∧
      (∀ a ∈ g'.blocks, ∀ b ∈ succs g' a,
        ¬ (2 ≤ (succs g' a).length ∧ 2 ≤ numPredecessors g' b)) ∧
      g.blocks.Sublist g'.blocks ∧
      g'.blocks.length = g.blocks.length + criticalEdges g := by
  obtain ⟨g', hrun, _, hstate⟩ := SplitCriticalEdges_total fuel g hco hfuel
  refine ⟨g', hrun, ?_, ?_, ?_⟩
  · intro a ha
    exact (criticalSlots_eq_zero_iff g' a).mp (hstate.settled a ha)
  · simpa using splitBlocks_sublist fuel [] g.blocks g g' hrun
  · have := hstate.count
    simpa using this

theorem SplitCriticalEdges_no_critical_edge_witness :
    edgesCoherent criticalGraph = true ∧
    criticalGraph.blocks.length + criticalEdges criticalGraph ≤ 4 ∧
    ∃ g', SplitCriticalEdges 4 criticalGraph = .ok g' ∧
      (∀ a ∈ g'.blocks, ∀ b ∈ succs g' a,
        ¬ (2 ≤ (succs g' a).length ∧ 2 ≤ numPredecessors g' b)) ∧
      criticalGraph.blocks.Sublist g'.blocks ∧
      g'.blocks.length = criticalGraph.blocks.length + criticalEdges criticalGraph :=
  ⟨by decide, by decide,
    SplitCriticalEdges_no_critical_edge 4 criticalGraph (by decide) (by decide)⟩

/-- C15: `SplitCriticalEdges` preserves the coherence of the graph.  On a
graph whose predecessor and successor lists are mutual duals, it returns a
graph whose lists are mutual duals; each block that it has allocated has
exactly one predecessor `src`, ends in a `Goto` to a block `tgt`, and is in
the predecessor list of `tgt` at a position at which `src` was before the
pass; and every block that the graph had has the Phis and as many predecessors
as before, every definition the opcode and the operands. -/
theorem SplitCriticalEdges_preserves_coherence (fuel : Nat) (g : MIRGraph)
    (hco : edgesCoherent g = true) (hfuel : g.blocks.length + criticalEdges g ≤ fuel) :
    ∃ g', SplitCriticalEdges fuel g = .ok g' ∧
      (∀ a b, (predecessorsOf g' b).count a = (succs g' a).count b) ∧
      (∀ s, g.table.length ≤ s → s < g'.table.length →
        ∃ (src tgt j l : Nat), predecessorsOf g' s = [src] ∧ lastIns g' s = some l ∧
          g'.definition l = some (newGoto tgt) ∧ succs g' s = [tgt] ∧
          (predecessorsOf g tgt)[j]? = some src ∧ (predecessorsOf g' tgt)[j]? = some s) ∧
      (∀ b blk0, g.block b = some blk0 →
        ∃ blk, g'.block b = some blk ∧ blk.phis = blk0.phis ∧
          blk.predecessors.length = blk0.predecessors.length) ∧
      ∀ d y0, g.definition d = some y0 →
        ∃ y, g'.definition d = some y ∧ y.op = y0.op ∧ y.operands = y0.operands := by
  obtain ⟨g', hrun, htrack, hstate⟩ := SplitCriticalEdges_total fuel g hco hfuel
  refine ⟨g', hrun, hstate.edge.dual, ?_, ?_, htrack.oldDefs⟩
  · intro s h1 h2
    obtain ⟨src, tgt, j, l, hp, hl, hy, _, _, hj0, hj⟩ := htrack.newBlocks s h1 h2
    exact ⟨src, tgt, j, l, hp, hl, hy, succs_of_last hl hy, hj0, hj⟩
  · intro b blk0 hb
    obtain ⟨blk, hblk, h1, _, _, h4⟩ := htrack.oldBlocks b blk0 hb
    exact ⟨blk, hblk, h1, h4⟩

theorem SplitCriticalEdges_preserves_coherence_witness :
    edgesCoherent criticalGraph = true ∧
    criticalGraph.blocks.length + criticalEdges criticalGraph ≤ 4 ∧
    ∃ g', SplitCriticalEdges 4 criticalGraph = .ok g' ∧
      (∀ a b, (predecessorsOf g' b).count a = (succs g' a).count b) ∧
      (∀ s, criticalGraph.table.length ≤ s → s < g'.table.length →
        ∃ (src tgt j l : Nat), predecessorsOf g' s = [src] ∧ lastIns g' s = some l ∧
          g'.definition l = some (newGoto tgt) ∧ succs g' s = [tgt] ∧
          (predecessorsOf criticalGraph tgt)[j]? = some src ∧
          (predecessorsOf g' tgt)[j]? = some s) ∧
      (∀ b blk0, criticalGraph.block b = some blk0 →
        ∃ blk, g'.block b = some blk ∧ blk.phis = blk0.phis ∧
          blk.predecessors.length = blk0.predecessors.length) ∧
      ∀ d y0, criticalGraph.definition d = some y0 →
        ∃ y, g'.definition d = some y ∧ y.op = y0.op ∧ y.operands = y0.operands :=
  ⟨by decide, by decide,
    SplitCriticalEdges_preserves_coherence 4 criticalGraph (by decide) (by decide)⟩

end CFG

/-! ## ExtractLinearSum: the cases -/

/-- C25: `ExtractLinearSum(ins)` returns `(null, v)` when `ins` is an `Int32`
constant `v`, and `(ins, 0)` when `ins` is not of type `Int32`.  For an `Int32`
`Add` or `Sub` whose two operands are `Int32` and have the sums `lsum` and
`rsum`, exactly one of which has a term, it returns that term with
`lsum.constant + rsum.constant` for `Add` and, for `Sub` with the term on the
left, with `lsum.constant - rsum.constant`, provided the `int32` arithmetic
does not overflow.  It returns `(ins, 0)` when both sides have terms, for a
constant minus a term, on overflow, when an operand is not `Int32`, and for
any other opcode. -/
theorem ExtractLinearSum_cases (fuel : Nat) (g : MIRGraph) (ins : Nat) (d : MDefinition)
    (hd : g.definition ins = some d) :
    (d.type ≠ MIRType.Int32 → ExtractLinearSum (fuel + 1) g ins = some ⟨some ins, 0⟩) ∧
    (∀ v, d.type = MIRType.Int32 → d.op = Opcode.Constant (ConstantValue.Int32 v) →
      ExtractLinearSum (fuel + 1) g ins = some ⟨none, v⟩) ∧
    (d.type = MIRType.Int32 → (∀ v, d.op ≠ Opcode.Constant v) → d.op ≠ Opcode.Add →
      d.op ≠ Opcode.Sub → ExtractLinearSum (fuel + 1) g ins = some ⟨some ins, 0⟩) ∧
    ∀ lhs rhs rest ld rd, d.type = MIRType.Int32 → d.op = Opcode.Add ∨ d.op = Opcode.Sub →
      d.operands = lhs :: rhs :: rest → g.definition lhs = some ld →
      g.definition rhs = some rd →
      (¬ (ld.type = MIRType.Int32 ∧ rd.type = MIRType.Int32) →
        ExtractLinearSum (fuel + 1) g ins = some ⟨some ins, 0⟩) ∧
      ∀ lsum rsum, ld.type = MIRType.Int32 → rd.type = MIRType.Int32 →
        ExtractLinearSum fuel g lhs = some lsum → ExtractLinearSum fuel g rhs = some rsum →
        (lsum.term.isSome = true → rsum.term.isSome = true →
          ExtractLinearSum (fuel + 1) g ins = some ⟨some ins, 0⟩) ∧
        (d.op = Opcode.Add → lsum.term.isSome ≠ rsum.term.isSome →
          ExtractLinearSum (fuel + 1) g ins =
            if INT32_MIN ≤ lsum.constant + rsum.constant ∧
                lsum.constant + rsum.constant ≤ INT32_MAX then
              some ⟨if lsum.term.isSome then lsum.term else rsum.term,
                lsum.constant + rsum.constant⟩
            else some ⟨some ins, 0⟩) ∧
        (d.op = Opcode.Sub → lsum.term.isSome = true → rsum.term = none →
          ExtractLinearSum (fuel + 1) g ins =
            if INT32_MIN ≤ lsum.constant - rsum.constant ∧
                lsum.constant - rsum.constant ≤ INT32_MAX then
              some ⟨lsum.term, lsum.constant - rsum.constant⟩
            else some ⟨some ins, 0⟩) ∧
        (d.op = Opcode.Sub → lsum.term = none →
          ExtractLinearSum (fuel + 1) g ins = some ⟨some ins, 0⟩) := by
  refine ⟨?_, ?_, ?_, ?_⟩
  · intro ht
    simp [ExtractLinearSum, hd, ht]
  · intro v ht hop
    simp [ExtractLinearSum, hd, ht, hop]
  · intro ht h1 h2 h3
    simp only [ExtractLinearSum, hd, ht, ne_eq, not_true_eq_false, if_false]
    cases hop : d.op with
    | Constant v => exact absurd hop (h1 v)
    | Add => exact absurd hop h2
    | Sub => exact absurd hop h3
    | _ => rfl
  · intro lhs rhs rest ld rd ht hop hops hl hr
    refine ⟨?_, ?_⟩
    · intro hn
      rcases hop with hop | hop <;>
        simp [ExtractLinearSum, hd, ht, hop, hops, hl, hr, hn]
    · intro lsum rsum hlt hrt hls hrs
      refine ⟨?_, ?_, ?_, ?_⟩
      · intro h1 h2
        rcases hop with hop | hop <;>
          simp [ExtractLinearSum, hd, ht, hop, hops, hl, hr, hlt, hrt, hls, hrs, h1, h2]
      · intro hadd hne
        have hnot : ¬ (lsum.term.isSome = true ∧ rsum.term.isSome = true) := by
          rintro ⟨h1, h2⟩
          exact hne (h1.trans h2.symm)
        simp only [ExtractLinearSum, hd, ht, hadd, hops, hl, hr, hlt, hrt, hls, hrs, hnot,
          ne_eq, not_true_eq_false, if_false, and_self, if_true, SafeAdd]
        split_ifs <;> rfl
      · intro hsub h1 h2
        simp only [ExtractLinearSum, hd, ht, hsub, hops, hl, hr, hlt, hrt, hls, hrs, h1, h2,
          ne_eq, not_true_eq_false, if_false, and_self, if_true, SafeSub, Option.isSome_none,
          Bool.false_eq_true, and_false]
        split_ifs <;> rfl
      · intro hsub h1
        simp [ExtractLinearSum, hd, ht, hsub, hops, hl, hr, hlt, hrt, hls, hrs, h1]

theorem ExtractLinearSum_cases_witness :
    twoChecksGraph.definition 3 =
      some (mkDefinition Opcode.Add MIRType.Int32 [0, 2] 0 false) ∧
    ExtractLinearSum 2 twoChecksGraph 3 = some ⟨some 0, 3⟩ :=
  ⟨rfl, by
    have h := (ExtractLinearSum_cases 1 twoChecksGraph 3 _ rfl).2.2.2 0 2 []
      (mkDefinition Opcode.Other MIRType.Int32 [] 0 false)
      (mkDefinition (Opcode.Constant (ConstantValue.Int32 3)) MIRType.Int32 [] 0 false)
      rfl (Or.inl rfl) rfl rfl rfl
    have h2 := (h.2 ⟨some 0, 0⟩ ⟨none, 3⟩ rfl rfl (by decide) (by decide)).2.1 rfl (by decide)
    rw [h2]
    decide⟩

/-! ## ExtractLinearSum is sound -/

theorem denotes_spec {value : Nat → Int} {g : MIRGraph} (h : denotes value g = true) {x : Nat}
    {d : MDefinition} (hd : g.definition x = some d) :
    (∀ v, d.op = Opcode.Constant (ConstantValue.Int32 v) → value x = v) ∧
    (∀ lhs rhs rest, d.op = Opcode.Add → d.operands = lhs :: rhs :: rest →
      value x = value lhs + value rhs) ∧
    (∀ lhs rhs rest, d.op = Opcode.Sub → d.operands = lhs :: rhs :: rest →
      value x = value lhs - value rhs) := by
  simp only [denotes, List.all_eq_true, Prod.forall] at h
  have hx := h x d (by
    rw [List.mem_iff_getElem?]
    exact ⟨x, by simpa [List.getElem?_enum, MIRGraph.definition] using hd⟩)
  refine ⟨?_, ?_, ?_⟩
  · intro v hop
    simpa [hop] using hx
  · intro lhs rhs rest hop hops
    simpa [hop, hops] using hx
  · intro lhs rhs rest hop hops
    simpa [hop, hops] using hx

theorem ExtractLinearSum_sound_aux (value : Nat → Int) (g : MIRGraph)
    (hval : denotes value g = true) :
    ∀ (fuel ins : Nat) (sum : LinearSum), ExtractLinearSum fuel g ins = some sum →
      value ins = termValue value sum.term + sum.constant ∧
      ∀ t, sum.term = some t → ∃ fuel', ExtractLinearSum fuel' g t = some ⟨some t, 0⟩
  | 0, ins, sum, h => by simp [ExtractLinearSum] at h
  | fuel + 1, ins, sum, h => by
    have hself : ∀ {s : LinearSum}, ExtractLinearSum (fuel + 1) g ins = some s →
        s = ⟨some ins, 0⟩ →
        value ins = termValue value s.term + s.constant ∧
        ∀ t, s.term = some t → ∃ fuel', ExtractLinearSum fuel' g t = some ⟨some t, 0⟩ := by
      intro s hs heq
      subst heq
      refine ⟨by simp [termValue], ?_⟩
      intro t ht
      simp only [Option.some.injEq] at ht
      subst ht
      exact ⟨fuel + 1, hs⟩
    have h0 := h
    unfold ExtractLinearSum at h
    cases hd : g.definition ins with
    | none => simp [hd] at h
    | some d =>
      simp only [hd] at h
      obtain ⟨hconst, hadd, hsub⟩ := denotes_spec hval hd
      split_ifs at h with hty
      · exact hself h0 (Option.some.inj h).symm
      · cases hop : d.op with
        | Constant v =>
          cases v with
          | Int32 i =>
            simp only [hop, Option.some.injEq] at h
            subst h
            exact ⟨by simp [termValue, hconst i hop], fun t ht => by cases ht⟩
          | _ => simp [hop] at h
        | Add =>
          simp only [hop] at h
          cases hops : d.operands with
          | nil => simp [hops] at h
          | cons lhs tl =>
            cases tl with
            | nil => simp [hops] at h
            | cons rhs rest =>
              simp only [hops] at h
              cases hl : g.definition lhs with
              | none => simp [hl] at h
              | some ld =>
                cases hr : g.definition rhs with
                | none => simp [hl, hr] at h
                | some rd =>
                  simp only [hl, hr] at h
                  split_ifs at h with hint
                  · cases hls : ExtractLinearSum fuel g lhs with
                    | none => simp [hls] at h
                    | some lsum =>
                      cases hrs : ExtractLinearSum fuel g rhs with
                      | none => simp [hls, hrs] at h
                      | some rsum =>
                        simp only [hls, hrs] at h
                        obtain ⟨hlv, hlt⟩ := ExtractLinearSum_sound_aux value g hval fuel lhs
                          lsum hls
                        obtain ⟨hrv, hrt⟩ := ExtractLinearSum_sound_aux value g hval fuel rhs
                          rsum hrs
                        by_cases hboth : lsum.term.isSome = true ∧ rsum.term.isSome = true
                        · rw [if_pos hboth] at h
                          exact hself h0 (Option.some.inj h).symm
                        · rw [if_neg hboth] at h
                          cases hsafe : SafeAdd lsum.constant rsum.constant with
                          | none =>
                            simp only [hsafe] at h
                            exact hself h0 (Option.some.inj h).symm
                          | some c =>
                            simp only [hsafe, Option.some.injEq] at h
                            subst h
                            have hc : c = lsum.constant + rsum.constant := by
                              unfold SafeAdd at hsafe
                              split_ifs at hsafe
                              exact (Option.some.inj hsafe).symm
                            have hv := hadd lhs rhs rest hop hops
                            cases hlterm : lsum.term with
                            | some t =>
                              have hrnone : rsum.term = none := by
                                cases hrterm : rsum.term with
                                | none => rfl
                                | some t' =>
                                  exact absurd ⟨by simp [hlterm], by simp [hrterm]⟩ hboth
                              refine ⟨?_, ?_⟩
                              · simp only [Option.isSome_some, if_true]
                                rw [hv, hlv, hrv, hlterm, hrnone, hc]
                                simp only [termValue]
                                omega
                              · intro t' ht'
                                simp only [Option.isSome_some, if_true] at ht'
                                exact hlt t' (by rw [hlterm]; exact ht')
                            | none =>
                              refine ⟨?_, ?_⟩
                              · simp only [Option.isSome_none, Bool.false_eq_true, if_false]
                                rw [hv, hlv, hrv, hlterm, hc]
                                simp only [termValue]
                                omega
                              · intro t' ht'
                                simp only [Option.isSome_none, Bool.false_eq_true,
                                  if_false] at ht'
                                exact hrt t' ht'
                  · exact hself h0 (Option.some.inj h).symm
        | Sub =>
          simp only [hop] at h
          cases hops : d.operands with
          | nil => simp [hops] at h
          | cons lhs tl =>
            cases tl with
            | nil => simp [hops] at h
            | cons rhs rest =>
              simp only [hops] at h
              cases hl : g.definition lhs with
              | none => simp [hl] at h
              | some ld =>
                cases hr : g.definition rhs with
                | none => simp [hl, hr] at h
                | some rd =>
                  simp only [hl, hr] at h
                  split_ifs at h with hint
                  · cases hls : ExtractLinearSum fuel g lhs with
                    | none => simp [hls] at h
                    | some lsum =>
                      cases hrs : ExtractLinearSum fuel g rhs with
                      | none => simp [hls, hrs] at h
                      | some rsum =>
                        simp only [hls, hrs] at h
                        obtain ⟨hlv, hlt⟩ := ExtractLinearSum_sound_aux value g hval fuel lhs
                          lsum hls
                        obtain ⟨hrv, hrt⟩ := ExtractLinearSum_sound_aux value g hval fuel rhs
                          rsum hrs
                        by_cases hboth : lsum.term.isSome = true ∧ rsum.term.isSome = true
                        · rw [if_pos hboth] at h
                          exact hself h0 (Option.some.inj h).symm
                        · rw [if_neg hboth] at h
                          by_cases hleft : lsum.term.isSome = true
                          · rw [if_pos hleft] at h
                            cases hsafe : SafeSub lsum.constant rsum.constant with
                            | none =>
                              simp only [hsafe] at h
                              exact hself h0 (Option.some.inj h).symm
                            | some c =>
                              simp only [hsafe, Option.some.injEq] at h
                              subst h
                              have hc : c = lsum.constant - rsum.constant := by
                                unfold SafeSub at hsafe
                                split_ifs at hsafe
                                exact (Option.some.inj hsafe).symm
                              have hv := hsub lhs rhs rest hop hops
                              have hrnone : rsum.term = none := by
                                cases hrterm : rsum.term with
                                | none => rfl
                                | some t' => exact absurd ⟨hleft, by simp [hrterm]⟩ hboth
                              refine ⟨?_, hlt⟩
                              rw [hv, hlv, hrv, hrnone, hc]
                              simp only [termValue]
                              omega
                          · rw [if_neg hleft] at h
                            exact hself h0 (Option.some.inj h).symm
                  · exact hself h0 (Option.some.inj h).symm
        | _ =>
          simp only [hop] at h
          exact hself h0 (Option.some.inj h).symm

/-- C26: `ExtractLinearSum` is semantically sound.  Under a valuation of the
definitions for which an `Add` denotes the exact integer sum and a `Sub` the
exact integer difference of its operands and a constant its value, if
`ExtractLinearSum(ins)` is `(term, c)` then the value of `ins` is the value of
`term` plus `c`, the value of `NULL` being 0; and if `term` is not `NULL` then
`ExtractLinearSum(term)` is `(term, 0)`. -/
theorem ExtractLinearSum_sound (value : Nat → Int) (g : MIRGraph) (fuel ins : Nat)
    (sum : LinearSum) (hval : denotes value g = true)
    (h : ExtractLinearSum fuel g ins = some sum) :
    value ins = termValue value sum.term + sum.constant ∧
    ∀ t, sum.term = some t → ∃ fuel', ExtractLinearSum fuel' g t = some ⟨some t, 0⟩ :=
  ExtractLinearSum_sound_aux value g hval fuel ins sum h

theorem ExtractLinearSum_sound_witness :
    denotes (fun x => [5, 10, 3, 8, 5, 8, 0].getD x 0) twoChecksGraph = true ∧
    ExtractLinearSum 2 twoChecksGraph 3 = some ⟨some 0, 3⟩ ∧
    (([5, 10, 3, 8, 5, 8, 0] : List Int).getD 3 0 =
        termValue (fun x => [5, 10, 3, 8, 5, 8, 0].getD x 0) (some 0) + 3 ∧
      ∀ t, some 0 = some t →
        ∃ fuel', ExtractLinearSum fuel' twoChecksGraph t = some ⟨some t, 0⟩) :=
  ⟨by decide, by decide,
    ExtractLinearSum_sound (fun x => [5, 10, 3, 8, 5, 8, 0].getD x 0) twoChecksGraph 2 3
      ⟨some 0, 3⟩ (by decide) (by decide)⟩

/-! ## GuessPhiType: the guess is the join of the resolved types -/

theorem guessLoop_eq (g : MIRGraph) :
    ∀ (ops : List Nat) (type : MIRType), (∀ o ∈ ops, (g.definition o).isSome = true) →
      guessLoop g ops type = some (guessTypes (resolvedTypes g ops) type)
  | [], type, _ => rfl
  | o :: rest, type, h => by
    have ho := h o (List.mem_cons_self _ _)
    have hrest : ∀ x ∈ rest, (g.definition x).isSome = true :=
      fun x hx => h x (List.mem_cons_of_mem _ hx)
    cases hd : g.definition o with
    | none => simp [hd] at ho
    | some d =>
      simp only [guessLoop, hd, resolvedTypes, List.filterMap_cons]
      by_cases hu : isUnresolved d = true
      · have hu' : (d.isPhi && (!d.triedToSpecialize || decide (d.type = MIRType.None))) = true := hu
        simp only [hu, hu', if_true]
        exact guessLoop_eq g rest type hrest
      · have hu' : ¬ (d.isPhi && (!d.triedToSpecialize || decide (d.type = MIRType.None))) = true := hu
        simp only [hu, hu', Bool.false_eq_true, if_false, guessTypes]
        split_ifs
        · exact guessLoop_eq g rest d.type hrest
        · exact guessLoop_eq g rest MIRType.Double hrest
        · rfl
        · exact guessLoop_eq g rest type hrest

theorem guessTypes_typed :
    ∀ (ts : List MIRType) (type : MIRType), type ≠ MIRType.None →
      (∀ t ∈ ts, t ≠ MIRType.None) →
      guessTypes ts type =
        if ∀ t ∈ ts, t = type then type
        else if IsNumberType type = true ∧ ∀ t ∈ ts, IsNumberType t = true then MIRType.Double
        else MIRType.Value
  | [], type, _, _ => by simp [guessTypes]
  | t :: rest, type, hty, hts => by
    have ht : t ≠ MIRType.None := hts t (List.mem_cons_self _ _)
    have hrest : ∀ x ∈ rest, x ≠ MIRType.None := fun x hx => hts x (List.mem_cons_of_mem _ hx)
    simp only [guessTypes, if_neg hty]
    by_cases heq : type = t
    · subst heq
      simp only [ne_eq, not_true_eq_false, if_false]
      rw [guessTypes_typed rest type hty hrest]
      simp only [List.mem_cons, forall_eq_or_imp, true_and]
      by_cases hall : ∀ t ∈ rest, t = type
      · rw [if_pos hall, if_pos hall]
      · rw [if_neg hall, if_neg hall]
        by_cases hn : IsNumberType type = true
        · simp only [hn, true_and]
        · rw [if_neg (fun h => hn h.1), if_neg (fun h => hn h.1)]
    · have hne : ¬ (∀ x ∈ t :: rest, x = type) := by
        intro hall
        exact heq (hall t (List.mem_cons_self _ _)).symm
      simp only [ne_eq, heq, not_false_eq_true, if_true, hne, if_false]
      by_cases hnum : (IsNumberType type && IsNumberType t) = true
      · rw [if_pos hnum, guessTypes_typed rest MIRType.Double (by decide) hrest]
        simp only [Bool.and_eq_true] at hnum
        simp only [List.mem_cons, forall_eq_or_imp, hnum.1, hnum.2, true_and]
        by_cases hall : ∀ x ∈ rest, x = MIRType.Double
        · have : ∀ x ∈ rest, IsNumberType x = true := by
            intro x hx
            rw [hall x hx]
            rfl
          rw [if_pos hall, if_pos this]
        · have : IsNumberType MIRType.Double = true := rfl
          rw [if_neg hall, this]
          by_cases hr : ∀ x ∈ rest, IsNumberType x = true
          · rw [if_pos ⟨rfl, hr⟩, if_pos hr]
          · rw [if_neg (fun h => hr h.2), if_neg hr]
      · rw [if_neg hnum]
        simp only [Bool.and_eq_true, not_and] at hnum
        have : ¬ (IsNumberType type = true ∧ ∀ x ∈ t :: rest, IsNumberType x = true) := by
          rintro ⟨h1, h2⟩
          exact hnum h1 (h2 t (List.mem_cons_self _ _))
        simp only [this, if_false]

theorem guessTypes_join (ts : List MIRType) (hts : ∀ t ∈ ts, t ≠ MIRType.None) :
    guessTypes ts MIRType.None = joinTypes ts := by
  cases ts with
  | nil => rfl
  | cons t rest =>
    have ht : t ≠ MIRType.None := hts t (List.mem_cons_self _ _)
    have hrest : ∀ x ∈ rest, x ≠ MIRType.None := fun x hx => hts x (List.mem_cons_of_mem _ hx)
    simp only [guessTypes, if_true, joinTypes]
    rw [guessTypes_typed rest t ht hrest]
    simp only [List.all_cons, decide_True, Bool.true_and, List.all_eq_true, decide_eq_true_eq,
      Bool.and_eq_true]

theorem operandsTyped_spec {g : MIRGraph} {ops : List Nat} (h : operandsTyped g ops = true) :
    (∀ o ∈ ops, (g.definition o).isSome = true) ∧
      ∀ t ∈ resolvedTypes g ops, t ≠ MIRType.None := by
  simp only [operandsTyped, List.all_eq_true] at h
  refine ⟨?_, ?_⟩
  · intro o ho
    have := h o ho
    cases hd : g.definition o with
    | none => simp [hd] at this
    | some d => rfl
  · intro t ht
    simp only [resolvedTypes, List.mem_filterMap] at ht
    obtain ⟨o, ho, hot⟩ := ht
    have := h o ho
    cases hd : g.definition o with
    | none => simp [hd] at hot
    | some d =>
      simp only [hd] at hot this
      by_cases hu : isUnresolved d = true
      · simp [hu] at hot
      · simp only [hu, Bool.false_eq_true, if_false, Option.some.injEq] at hot
        subst hot
        simpa [hu] using this

theorem GuessPhiType_join (g : MIRGraph) (phi : Nat) (p : MDefinition)
    (hp : g.definition phi = some p) (hops : operandsTyped g p.operands = true) :
    GuessPhiType g phi = some (joinTypes (resolvedTypes g p.operands)) := by
  obtain ⟨h1, h2⟩ := operandsTyped_spec hops
  simp only [GuessPhiType, hp]
  rw [guessLoop_eq g p.operands MIRType.None h1, guessTypes_join _ h2]

/-! ## GuessPhiType: the claims -/

theorem joinTypes_same {ts : List MIRType} {T : MIRType} (hne : ts ≠ [])
    (h : ∀ t ∈ ts, t = T) : joinTypes ts = T := by
  cases ts with
  | nil => exact absurd rfl hne
  | cons t rest =>
    have ht : t = T := h t (List.mem_cons_self _ _)
    subst ht
    have : (t :: rest).all (fun x => decide (x = t)) = true := by
      simp only [List.all_eq_true, decide_eq_true_eq]
      exact h
    simp only [joinTypes, this, if_true]

theorem joinTypes_differ {ts : List MIRType} (h : ¬ ∀ a ∈ ts, ∀ b ∈ ts, a = b) :
    joinTypes ts =
      if ∀ t ∈ ts, IsNumberType t = true then MIRType.Double else MIRType.Value := by
  cases ts with
  | nil => exact absurd (fun a ha => absurd ha (List.not_mem_nil a)) h
  | cons t rest =>
    have h1 : ¬ (t :: rest).all (fun x => decide (x = t)) = true := by
      simp only [List.all_eq_true, decide_eq_true_eq]
      intro hall
      exact h (fun a ha b hb => (hall a ha).trans (hall b hb).symm)
    simp only [joinTypes, h1, Bool.false_eq_true, if_false, List.all_eq_true]

theorem joinTypes_perm {ts ts' : List MIRType} (h : ts.Perm ts') :
    joinTypes ts = joinTypes ts' := by
  by_cases hsame : ∀ a ∈ ts, ∀ b ∈ ts, a = b
  · cases ts with
    | nil => rw [List.Perm.nil_eq h]
    | cons t rest =>
      have hne' : ts' ≠ [] := by
        intro h0
        rw [h0] at h
        exact List.cons_ne_nil _ _ (List.Perm.eq_nil h)
      rw [joinTypes_same (List.cons_ne_nil _ _) (fun x hx => hsame x hx t (List.mem_cons_self _ _)),
        joinTypes_same hne' (fun x hx =>
          hsame x (h.mem_iff.mpr hx) t (List.mem_cons_self _ _))]
  · have hsame' : ¬ ∀ a ∈ ts', ∀ b ∈ ts', a = b :=
      fun hh => hsame (fun a ha b hb => hh a (h.mem_iff.mp ha) b (h.mem_iff.mp hb))
    rw [joinTypes_differ hsame, joinTypes_differ hsame']
    by_cases hn : ∀ t ∈ ts, IsNumberType t = true
    · rw [if_pos hn, if_pos (fun t ht => hn t (h.mem_iff.mpr ht))]
    · rw [if_neg hn, if_neg (fun hh => hn (fun t ht => hh t (h.mem_iff.mp ht)))]

/-- C27: `GuessPhiType`, considering only the operands that are not Phis or
are Phis already tried and typed other than `None`, returns their common type
if all of them have the same type, `Double` if they are all `Int32` or `Double`
and not all identical, and `Value` on any other disagreement.  The operands are
definitions of the table, and none that is considered has the type `None`. -/
theorem GuessPhiType_common_type (g : MIRGraph) (phi : Nat) (p : MDefinition)
    (hp : g.definition phi = some p) (hops : operandsTyped g p.operands = true) :
    (∀ T, resolvedTypes g p.operands ≠ [] → (∀ t ∈ resolvedTypes g p.operands, t = T) →
      GuessPhiType g phi = some T) ∧
    ((∀ t ∈ resolvedTypes g p.operands, IsNumberType t = true) →
      (¬ ∀ a ∈ resolvedTypes g p.operands, ∀ b ∈ resolvedTypes g p.operands, a = b) →
      GuessPhiType g phi = some MIRType.Double) ∧
    ((¬ ∀ t ∈ resolvedTypes g p.operands, IsNumberType t = true) →
      (¬ ∀ a ∈ resolvedTypes g p.operands, ∀ b ∈ resolvedTypes g p.operands, a = b) →
      GuessPhiType g phi = some MIRType.Value) := by
  rw [GuessPhiType_join g phi p hp hops]
  refine ⟨?_, ?_, ?_⟩
  · intro T hne hall
    rw [joinTypes_same hne hall]
  · intro hn hd
    rw [joinTypes_differ hd, if_pos hn]
  · intro hn hd
    rw [joinTypes_differ hd, if_neg hn]

theorem GuessPhiType_common_type_witness :
    livePhisGraph.definition 3 = some (mkPhi [0, 1] 1 false 0) ∧
    operandsTyped livePhisGraph (mkPhi [0, 1] 1 false 0).operands = true ∧
    GuessPhiType livePhisGraph 3 = some MIRType.Int32 :=
  ⟨rfl, by decide,
    (GuessPhiType_common_type livePhisGraph 3 _ rfl (by decide)).1 MIRType.Int32 (by decide)
      (by decide)⟩

theorem GuessPhiType_defers_counterexample :
    livePhisGraph.definition 2 = some (mkPhi [0, 3] 1 false 0) ∧
    (livePhisGraph.definition 3).map isUnresolved = some true ∧
    GuessPhiType livePhisGraph 2 = some MIRType.Int32 := by
  decide

/-- C28, amended: if every operand of a Phi is an unresolved Phi (a Phi not
yet tried, or tried and still typed `None`), `GuessPhiType` defers by returning
`None` for that Phi; in general it skips the unresolved operands and guesses
from the types of the others. -/
theorem GuessPhiType_skips_unresolved (g : MIRGraph) (phi : Nat) (p : MDefinition)
    (hp : g.definition phi = some p) (hdef : ∀ o ∈ p.operands, (g.definition o).isSome = true) :
    GuessPhiType g phi = some (guessTypes (resolvedTypes g p.operands) MIRType.None) ∧
    ((∀ o ∈ p.operands, ∀ d, g.definition o = some d → isUnresolved d = true) →
      GuessPhiType g phi = some MIRType.None) := by
  have h1 : GuessPhiType g phi = some (guessTypes (resolvedTypes g p.operands) MIRType.None) := by
    simp only [GuessPhiType, hp]
    exact guessLoop_eq g p.operands MIRType.None hdef
  refine ⟨h1, ?_⟩
  intro hall
  rw [h1]
  have : resolvedTypes g p.operands = [] := by
    simp only [resolvedTypes, List.filterMap_eq_nil_iff]
    intro o ho
    cases hd : g.definition o with
    | none => rfl
    | some d => simp [hall o ho d hd]
  rw [this]
  rfl

theorem GuessPhiType_skips_unresolved_witness :
    phiChainGraph.definition 2 = some (mkPhi [1, 1] 1 false 0) ∧
    (∀ o ∈ (mkPhi [1, 1] 1 false 0).operands, (phiChainGraph.definition o).isSome = true) ∧
    GuessPhiType phiChainGraph 2 = some MIRType.None :=
  ⟨rfl, by decide,
    (GuessPhiType_skips_unresolved phiChainGraph 2 _ rfl (by decide)).2 (by decide)⟩

theorem resolvedTypes_modify (g : MIRGraph) (phi : Nat) (f : MDefinition → MDefinition)
    (hf : ∀ y, (f y).shape.1 = y.shape.1 ∧ (f y).type = y.type ∧
      (f y).triedToSpecialize = y.triedToSpecialize) (ops : List Nat) :
    resolvedTypes (modifyDefinition g phi f) ops = resolvedTypes g ops ∧
      operandsTyped (modifyDefinition g phi f) ops = operandsTyped g ops := by
  have key : ∀ o, (match (modifyDefinition g phi f).definition o with
      | some d => if isUnresolved d then none else some d.type
      | none => none) = (match g.definition o with
      | some d => if isUnresolved d then none else some d.type
      | none => none) ∧
      (match (modifyDefinition g phi f).definition o with
      | some d => isUnresolved d || decide (d.type ≠ MIRType.None)
      | none => false) = (match g.definition o with
      | some d => isUnresolved d || decide (d.type ≠ MIRType.None)
      | none => false) := by
    intro o
    rw [definition_modifyDefinition]
    cases g.definition o with
    | none => exact ⟨rfl, rfl⟩
    | some d =>
      simp only [Option.map_some']
      by_cases hpo : phi = o
      · obtain ⟨h1, h2, h3⟩ := hf d
        have hphi : (f d).isPhi = d.isPhi := by
          simp only [MDefinition.shape] at h1
          simp only [MDefinition.isPhi, h1]
        have hu : isUnresolved (f d) = isUnresolved d := by
          simp only [isUnresolved, hphi, h2, h3]
        simp only [hpo, if_true, hu, h2, and_self]
      · simp only [hpo, if_false, and_self]
  refine ⟨?_, ?_⟩
  · simp only [resolvedTypes]
    congr 1
    funext o
    exact (key o).1
  · simp only [operandsTyped]
    congr 1
    funext o
    exact (key o).2

/-- C29: `GuessPhiType` does not depend on the order of the operands.  For
every Phi and every permutation `ops` of its operand list, the type returned
for the Phi with the operands `ops` is the type returned for the Phi, and it is
the join of the types of the resolved operands in the order `None < T < Value`
with `Int32 < Double < Value`.  The operands are definitions of the table, and
none that is resolved has the type `None`. -/
theorem GuessPhiType_order_independent (g : MIRGraph) (phi : Nat) (p : MDefinition)
    (ops : List Nat) (hp : g.definition phi = some p) (hperm : ops.Perm p.operands)
    (hops : operandsTyped g p.operands = true) :
    GuessPhiType (modifyDefinition g phi fun x => { x with operands := ops }) phi =
      GuessPhiType g phi ∧
    GuessPhiType g phi = some (joinTypes (resolvedTypes g p.operands)) := by
  have hj := GuessPhiType_join g phi p hp hops
  refine ⟨?_, hj⟩
  have hmod := resolvedTypes_modify g phi (fun x => { x with operands := ops })
    (fun _ => ⟨rfl, rfl, rfl⟩)
  have hp' : (modifyDefinition g phi fun x => { x with operands := ops }).definition phi =
      some { p with operands := ops } := by
    rw [definition_modifyDefinition, hp]
    simp
  have hops' : operandsTyped g ops = true := by
    simp only [operandsTyped, List.all_eq_true] at hops ⊢
    intro o ho
    exact hops o (hperm.mem_iff.mp ho)
  rw [GuessPhiType_join _ phi _ hp' (by rw [(hmod ops).2]; exact hops'), hj, (hmod ops).1]
  congr 1
  apply joinTypes_perm
  exact hperm.filterMap _

theorem GuessPhiType_order_independent_witness :
    livePhisGraph.definition 2 = some (mkPhi [0, 3] 1 false 0) ∧
    [3, 0].Perm (mkPhi [0, 3] 1 false 0).operands ∧
    operandsTyped livePhisGraph (mkPhi [0, 3] 1 false 0).operands = true ∧
    GuessPhiType (modifyDefinition livePhisGraph 2 fun x => { x with operands := [3, 0] }) 2 =
      GuessPhiType livePhisGraph 2 ∧
    GuessPhiType livePhisGraph 2 =
      some (joinTypes (resolvedTypes livePhisGraph (mkPhi [0, 3] 1 false 0).operands)) :=
  ⟨rfl, List.Perm.swap 0 3 [], by decide,
    GuessPhiType_order_independent livePhisGraph 2 _ [3, 0] rfl (List.Perm.swap 0 3 [])
      (by decide)⟩

/-! ## specializePhis terminates -/

theorem typeLe_refl (a : MIRType) : typeLe a a = true := by
  cases a <;> rfl

theorem typeLe_trans {a b c : MIRType} (h1 : typeLe a b = true) (h2 : typeLe b c = true) :
    typeLe a c = true := by
  cases a <;> cases b <;> first | rfl | (cases c <;> first | rfl | exact h1 | exact h2)

theorem typeRank_lt {a b : MIRType} (h : typeLe a b = true) (hne : a ≠ b) :
    typeRank a < typeRank b := by
  cases a <;> cases b <;> first | exact absurd rfl hne | exact absurd h (by decide) | decide

theorem typeRank_le (a : MIRType) : typeRank a ≤ 3 := by
  cases a <;> decide

theorem typeLe_value {b : MIRType} (h : typeLe MIRType.Value b = true) : b = MIRType.Value := by
  cases b <;> first | rfl | exact absurd h (by decide)

theorem sum_map_modify (f : MDefinition → Nat) (h : MDefinition → MDefinition) :
    ∀ (l : List MDefinition) (i : Nat) (a : MDefinition), l[i]? = some a →
      ((List.modify h i l).map f).sum + f a = (l.map f).sum + f (h a)
  | [], i, a, hi => by simp at hi
  | x :: l, 0, a, hi => by
    simp only [List.getElem?_cons_zero, Option.some.injEq] at hi
    subst hi
    simp only [List.modify, List.modifyTailIdx, List.modifyHead, List.map_cons, List.sum_cons]
    omega
  | x :: l, i + 1, a, hi => by
    simp only [List.getElem?_cons_succ] at hi
    have := sum_map_modify f h l i a hi
    simp only [List.modify_succ_cons, List.map_cons, List.sum_cons]
    omega

theorem slack_modify_flags (g : MIRGraph) (x : Nat) (h : MDefinition → MDefinition)
    (hh : ∀ d, (h d).type = d.type) : slack (modifyDefinition g x h) = slack g := by
  simp only [slack, modifyDefinition]
  cases hx : g.defs[x]? with
  | none =>
    have : List.modify h x g.defs = g.defs := by
      apply List.ext_getElem?
      intro n
      rw [List.getElem?_modify]
      by_cases hn : x = n
      · subst hn
        simp [hx]
      · simp [hn]
    rw [this]
  | some a =>
    have := sum_map_modify (fun d => 3 - typeRank d.type) h g.defs x a hx
    simp only [hh] at this
    omega

theorem typeStep_refl (s : TypeState) : TypeStep s s :=
  ⟨rfl, fun _ d hd => ⟨d, hd, typeLe_refl _⟩, Nat.le_refl _⟩

theorem typeStep_trans {a b c : TypeState} (h1 : TypeStep a b) (h2 : TypeStep b c) :
    TypeStep a c := by
  refine ⟨h2.length.trans h1.length, ?_, Nat.le_trans h2.measure h1.measure⟩
  intro x d hd
  obtain ⟨d1, hd1, hle1⟩ := h1.up x d hd
  obtain ⟨d2, hd2, hle2⟩ := h2.up x d1 hd1
  exact ⟨d2, hd2, typeLe_trans hle1 hle2⟩

theorem addPhiToWorklist_step (s s' : TypeState) (phi : Nat) (hw : WorkInv s)
    (h : addPhiToWorklist s phi = some s') :
    WorkInv s' ∧ s'.graph.defs.length = s.graph.defs.length ∧
      (∀ x d, s.graph.definition x = some d →
        ∃ d', s'.graph.definition x = some d' ∧ d'.type = d.type) ∧
      s'.phiWorklist.length ≤ s.phiWorklist.length + 1 ∧ slack s'.graph = slack s.graph := by
  unfold addPhiToWorklist at h
  cases hp : s.graph.definition phi with
  | none => simp [hp] at h
  | some p =>
    simp only [hp] at h
    split_ifs at h with hin
    · cases h
      exact ⟨hw, rfl, fun x d hd => ⟨d, hd, rfl⟩, Nat.le_succ _, rfl⟩
    · cases h
      have hnot : phi ∉ s.phiWorklist := by
        intro hmem
        obtain ⟨d, hd, hflag⟩ := hw.flagged phi hmem
        rw [hp] at hd
        cases hd
        exact hin hflag
      refine ⟨⟨?_, ?_⟩, by simp [setInWorklist, modifyDefinition], ?_, by simp, ?_⟩
      · exact List.Nodup.append hw.nodup (List.nodup_singleton _) (by
          intro x hx1 hx2
          rw [List.mem_singleton] at hx2
          exact hnot (hx2 ▸ hx1))
      · intro x hx
        simp only [setInWorklist, definition_modifyDefinition]
        rcases List.mem_append.mp hx with h1 | h1
        · obtain ⟨d, hd, hflag⟩ := hw.flagged x h1
          refine ⟨_, by rw [hd]; rfl, ?_⟩
          split_ifs
          · rfl
          · exact hflag
        · rw [List.mem_singleton] at h1
          subst h1
          exact ⟨_, by rw [hp]; rfl, by simp⟩
      · intro x d hd
        simp only [setInWorklist, definition_modifyDefinition, hd, Option.map_some']
        exact ⟨_, rfl, by split_ifs <;> rfl⟩
      · exact slack_modify_flags _ _ _ (fun _ => rfl)

theorem respecialize_step (s s' : TypeState) (phi : Nat) (type : MIRType) (p : MDefinition)
    (hw : WorkInv s) (hp : s.graph.definition phi = some p)
    (hle : typeLe p.type type = true) (h : respecialize s phi type = some s') :
    WorkInv s' ∧ TypeStep s s' := by
  unfold respecialize at h
  simp only [hp] at h
  split_ifs at h with heq
  · cases h
    exact ⟨hw, typeStep_refl s⟩
  · have hrank := typeRank_lt hle heq
    have hw1 : WorkInv { s with graph := specialize s.graph phi type } := by
      refine ⟨hw.nodup, ?_⟩
      intro x hx
      obtain ⟨d, hd, hflag⟩ := hw.flagged x hx
      simp only [specialize, definition_modifyDefinition, hd, Option.map_some']
      exact ⟨_, rfl, by split_ifs <;> exact hflag⟩
    obtain ⟨hw', hlen, htypes, hwl, hslack⟩ := addPhiToWorklist_step _ s' phi hw1 h
    have hsl : slack (specialize s.graph phi type) + (3 - typeRank p.type) =
        slack s.graph + (3 - typeRank type) := by
      simp only [MIRGraph.definition] at hp
      exact sum_map_modify (fun d => 3 - typeRank d.type) _ s.graph.defs phi p hp
    refine ⟨hw', ?_, ?_, ?_⟩
    · rw [hlen]
      simp [specialize, modifyDefinition]
    · intro x d hd
      have hd1 : (specialize s.graph phi type).definition x =
          some (if phi = x then { d with type := type, triedToSpecialize := true } else d) := by
        simp only [specialize, definition_modifyDefinition, hd, Option.map_some']
      obtain ⟨d', hd', hty⟩ := htypes x _ hd1
      refine ⟨d', hd', ?_⟩
      rw [hty]
      split_ifs with hpx
      · subst hpx
        rw [hp] at hd
        cases hd
        exact hle
      · exact typeLe_refl _
    · have h3 := typeRank_le type
      have h4 := typeRank_le p.type
      simp only at hwl hslack
      omega

theorem propagateToUse_step (s s' : TypeState) (phi use : Nat) (hw : WorkInv s)
    (h : propagateToUse s phi use = some s') : WorkInv s' ∧ TypeStep s s' := by
  unfold propagateToUse at h
  cases hp : s.graph.definition phi with
  | none => simp [hp] at h
  | some p =>
    cases hu : s.graph.definition use with
    | none => simp [hp, hu] at h
    | some u =>
      simp only [hp, hu] at h
      split_ifs at h with h1 h2 h3 h4 h5
      · cases h; exact ⟨hw, typeStep_refl s⟩
      · cases h; exact ⟨hw, typeStep_refl s⟩
      · exact respecialize_step s s' use p.type u hw hu (by rw [h3]; cases p.type <;> rfl) h
      · refine respecialize_step s s' use MIRType.Double u hw hu ?_ h
        simp only [Bool.and_eq_true, IsNumberType, Bool.or_eq_true, decide_eq_true_eq] at h5
        rcases h5.1 with h6 | h6 <;> rw [h6] <;> rfl
      · exact respecialize_step s s' use MIRType.Value u hw hu (by cases u.type <;> rfl) h
      · cases h; exact ⟨hw, typeStep_refl s⟩

theorem propagateToUses_step (phi : Nat) :
    ∀ (uses : List Nat) (s s' : TypeState), WorkInv s → propagateToUses phi uses s = some s' →
      WorkInv s' ∧ TypeStep s s'
  | [], s, s', hw, h => by
    simp only [propagateToUses, Option.some.injEq] at h
    subst h
    exact ⟨hw, typeStep_refl s⟩
  | use :: rest, s, s', hw, h => by
    simp only [propagateToUses] at h
    cases h1 : propagateToUse s phi use with
    | none => simp [h1] at h
    | some s1 =>
      simp only [h1] at h
      obtain ⟨hw1, hs1⟩ := propagateToUse_step s s1 phi use hw h1
      obtain ⟨hw2, hs2⟩ := propagateToUses_step phi rest s1 s' hw1 h
      exact ⟨hw2, typeStep_trans hs1 hs2⟩

theorem propagateSpecialization_step (s s' : TypeState) (phi : Nat) (hw : WorkInv s)
    (h : propagateSpecialization s phi = .ok s') : WorkInv s' ∧ TypeStep s s' := by
  unfold propagateSpecialization at h
  cases hp : s.graph.definition phi with
  | none => simp [hp] at h
  | some p =>
    simp only [hp] at h
    split_ifs at h
    cases h1 : propagateToUses phi (usesOf s.graph phi) s with
    | none => simp [h1] at h
    | some s1 =>
      simp only [h1, Run.ok.injEq] at h
      subst h
      exact propagateToUses_step phi _ s s1 hw h1

/-! ## specializePhis terminates: the loops -/

theorem slack_le (g : MIRGraph) : slack g ≤ 3 * g.defs.length := by
  unfold slack
  induction g.defs with
  | nil => simp
  | cons d l ih =>
    simp only [List.map_cons, List.sum_cons, List.length_cons]
    omega

theorem workInv_length (s : TypeState) (hw : WorkInv s) :
    s.phiWorklist.length ≤ s.graph.defs.length := by
  have hsub : s.phiWorklist ⊆ List.range s.graph.defs.length := by
    intro x hx
    obtain ⟨d, hd, _⟩ := hw.flagged x hx
    simp only [MIRGraph.definition] at hd
    rw [List.mem_range]
    by_contra hlt
    rw [List.getElem?_eq_none (by omega)] at hd
    cases hd
  have := (List.subperm_of_subset hw.nodup hsub).length_le
  simpa using this

theorem workInv_specialize (s : TypeState) (phi : Nat) (type : MIRType) (hw : WorkInv s) :
    WorkInv { s with graph := specialize s.graph phi type } := by
  refine ⟨hw.nodup, ?_⟩
  intro x hx
  obtain ⟨d, hd, hflag⟩ := hw.flagged x hx
  simp only [specialize, definition_modifyDefinition, hd, Option.map_some']
  exact ⟨_, rfl, by split_ifs <;> exact hflag⟩

theorem specializePhi_inv (s s' : TypeState) (phi : Nat) (hw : WorkInv s)
    (h : specializePhi s phi = .ok s') :
    WorkInv s' ∧ s'.graph.defs.length = s.graph.defs.length := by
  unfold specializePhi at h
  cases hg : GuessPhiType s.graph phi with
  | none => simp [hg] at h
  | some type =>
    simp only [hg] at h
    have hw1 := workInv_specialize s phi type hw
    have hlen : (specialize s.graph phi type).defs.length = s.graph.defs.length := by
      simp [specialize, modifyDefinition]
    split_ifs at h
    · simp only [Run.ok.injEq] at h
      subst h
      exact ⟨hw1, hlen⟩
    · obtain ⟨hw2, hs2⟩ := propagateSpecialization_step _ s' phi hw1 h
      exact ⟨hw2, hs2.length.trans hlen⟩

theorem specializeBlockPhis_inv :
    ∀ (phis : List Nat) (s s' : TypeState), WorkInv s → specializeBlockPhis phis s = .ok s' →
      WorkInv s' ∧ s'.graph.defs.length = s.graph.defs.length
  | [], s, s', hw, h => by
    simp only [specializeBlockPhis, Run.ok.injEq] at h
    subst h
    exact ⟨hw, rfl⟩
  | phi :: rest, s, s', hw, h => by
    simp only [specializeBlockPhis] at h
    cases h1 : specializePhi s phi with
    | fail e => simp [h1] at h
    | ok s1 =>
      simp only [h1] at h
      obtain ⟨hw1, hl1⟩ := specializePhi_inv s s1 phi hw h1
      obtain ⟨hw2, hl2⟩ := specializeBlockPhis_inv rest s1 s' hw1 h
      exact ⟨hw2, hl2.trans hl1⟩

theorem specializeBlocks_inv :
    ∀ (bs : List Nat) (s s' : TypeState), WorkInv s → specializeBlocks bs s = .ok s' →
      WorkInv s' ∧ s'.graph.defs.length = s.graph.defs.length
  | [], s, s', hw, h => by
    simp only [specializeBlocks, Run.ok.injEq] at h
    subst h
    exact ⟨hw, rfl⟩
  | b :: bs, s, s', hw, h => by
    simp only [specializeBlocks] at h
    cases hb : s.graph.block b with
    | none => simp [hb] at h
    | some blk =>
      simp only [hb] at h
      cases h1 : specializeBlockPhis blk.phis s with
      | fail e => simp [h1] at h
      | ok s1 =>
        simp only [h1] at h
        obtain ⟨hw1, hl1⟩ := specializeBlockPhis_inv blk.phis s s1 hw h1
        obtain ⟨hw2, hl2⟩ := specializeBlocks_inv bs s1 s' hw1 h
        exact ⟨hw2, hl2.trans hl1⟩

theorem workInv_pop (s : TypeState) (w : Nat) (ws : List Nat) (hw : WorkInv s)
    (hs : s.phiWorklist = w :: ws) :
    WorkInv { graph := setNotInWorklist s.graph ((w :: ws).getLast (List.cons_ne_nil w ws)),
              phiWorklist := (w :: ws).dropLast } ∧
      TypeStep s { graph := setNotInWorklist s.graph ((w :: ws).getLast (List.cons_ne_nil w ws)),
                   phiWorklist := (w :: ws).dropLast } ∧
      (w :: ws).dropLast.length + 1 = s.phiWorklist.length := by
  have hsplit := List.dropLast_append_getLast (List.cons_ne_nil w ws)
  have hnd : ((w :: ws).dropLast ++ [(w :: ws).getLast (List.cons_ne_nil w ws)]).Nodup := by
    rw [hsplit, ← hs]
    exact hw.nodup
  have hlen : (w :: ws).dropLast.length + 1 = s.phiWorklist.length := by
    rw [hs]
    simp
  have hslack : slack (setNotInWorklist s.graph ((w :: ws).getLast (List.cons_ne_nil w ws))) =
      slack s.graph := slack_modify_flags _ _ _ (fun _ => rfl)
  refine ⟨⟨(List.nodup_append.mp hnd).1, ?_⟩, ⟨?_, ?_, ?_⟩, hlen⟩
  · intro x hx
    have hne : (w :: ws).getLast (List.cons_ne_nil w ws) ≠ x := by
      intro heq
      exact (List.nodup_append.mp hnd).2.2 hx (by rw [heq]; exact List.mem_singleton_self x)
    have hmem : x ∈ s.phiWorklist := by
      rw [hs, ← hsplit]
      exact List.mem_append_left _ hx
    obtain ⟨d, hd, hflag⟩ := hw.flagged x hmem
    simp only [setNotInWorklist, definition_modifyDefinition, hd, Option.map_some', if_neg hne]
    exact ⟨d, rfl, hflag⟩
  · simp [setNotInWorklist, modifyDefinition]
  · intro x d hd
    simp only [setNotInWorklist, definition_modifyDefinition, hd, Option.map_some']
    refine ⟨_, rfl, ?_⟩
    split_ifs
    · exact typeLe_refl _
    · exact typeLe_refl _
  · simp only [hslack]
    omega

theorem propagateWorklist_up :
    ∀ (fuel : Nat) (s s' : TypeState), WorkInv s → propagateWorklist fuel s = .ok s' →
      TypeStep s s' ∧ s'.phiWorklist = []
  | fuel, s, s', hw, h => by
    unfold propagateWorklist at h
    cases hs : s.phiWorklist with
    | nil =>
      simp only [hs, Run.ok.injEq] at h
      subst h
      exact ⟨typeStep_refl s, hs⟩
    | cons w ws =>
      cases fuel with
      | zero => simp [hs] at h
      | succ fuel =>
        simp only [hs] at h
        obtain ⟨hw0, hs0, _⟩ := workInv_pop s w ws hw hs
        cases h1 : propagateSpecialization
            { graph := setNotInWorklist s.graph ((w :: ws).getLast (List.cons_ne_nil w ws)),
              phiWorklist := (w :: ws).dropLast }
            ((w :: ws).getLast (List.cons_ne_nil w ws)) with
        | fail e => simp [h1] at h
        | ok s1 =>
          simp only [h1] at h
          obtain ⟨hw1, hs1⟩ := propagateSpecialization_step _ s1 _ hw0 h1
          obtain ⟨hs2, hnil⟩ := propagateWorklist_up fuel s1 s' hw1 h
          exact ⟨typeStep_trans hs0 (typeStep_trans hs1 hs2), hnil⟩

theorem propagateWorklist_fuel :
    ∀ (fuel : Nat) (s : TypeState), WorkInv s →
      s.phiWorklist.length + slack s.graph ≤ fuel →
      propagateWorklist fuel s ≠ .fail .outOfFuel
  | fuel, s, hw, hfuel => by
    unfold propagateWorklist
    cases hs : s.phiWorklist with
    | nil => simp
    | cons w ws =>
      obtain ⟨hw0, hs0, hlen⟩ := workInv_pop s w ws hw hs
      cases fuel with
      | zero =>
        rw [hs] at hfuel
        simp at hfuel
      | succ fuel =>
        simp only
        cases h1 : propagateSpecialization
            { graph := setNotInWorklist s.graph ((w :: ws).getLast (List.cons_ne_nil w ws)),
              phiWorklist := (w :: ws).dropLast }
            ((w :: ws).getLast (List.cons_ne_nil w ws)) with
        | fail e =>
          simp only [ne_eq, Run.fail.injEq]
          intro he
          subst he
          unfold propagateSpecialization at h1
          revert h1
          split
          · simp
          · split_ifs
            · simp
            · split <;> simp
        | ok s1 =>
          simp only
          obtain ⟨hw1, hs1⟩ := propagateSpecialization_step _ s1 _ hw0 h1
          apply propagateWorklist_fuel fuel s1 hw1
          have hm := hs1.measure
          have hslack : slack (setNotInWorklist s.graph
              ((w :: ws).getLast (List.cons_ne_nil w ws))) = slack s.graph :=
            slack_modify_flags _ _ _ (fun _ => rfl)
          simp only [hslack] at hm
          omega

/-! ## specializePhis terminates: the claim -/

/-- C30: `specializePhis` terminates on every graph: with fuel for four
iterations per definition the worklist loop does not run out of fuel.  In the
worklist loop, reached after the first specialization of the Phis, the type of
a definition only moves upward in the order `None < T < Value` with
`Int32 < Double < Value`, and a definition typed `Value` keeps that type;
`respecialize` with the type the Phi already has changes nothing, and a use
visited by `propagateSpecialization` lengthens the worklist by no more than the
types have gone up, each type having at most three steps to `Value`. -/
theorem specializePhis_terminates (g : MIRGraph) (fuel : Nat)
    (hfuel : 4 * g.defs.length ≤ fuel) :
    specializePhis fuel g ≠ .fail .outOfFuel ∧
    (∀ s, specializeBlocks g.postorder { graph := g, phiWorklist := [] } = .ok s →
      ∀ f s', propagateWorklist f s = .ok s' →
        s'.phiWorklist = [] ∧
        ∀ x d, s.graph.definition x = some d →
          ∃ d', s'.graph.definition x = some d' ∧ typeLe d.type d'.type = true ∧
            (d.type = MIRType.Value → d'.type = MIRType.Value)) ∧
    (∀ s phi p, s.graph.definition phi = some p → respecialize s phi p.type = some s) ∧
    (∀ s s' phi use, WorkInv s → propagateToUse s phi use = some s' →
      WorkInv s' ∧
      s'.phiWorklist.length + slack s'.graph ≤ s.phiWorklist.length + slack s.graph) ∧
    (∀ h : MIRGraph, slack h ≤ 3 * h.defs.length) := by
  have hw0 : WorkInv { graph := g, phiWorklist := [] } :=
    ⟨List.nodup_nil, fun x hx => absurd hx (List.not_mem_nil x)⟩
  refine ⟨?_, ?_, ?_, ?_, slack_le⟩
  · unfold specializePhis
    cases h1 : specializeBlocks g.postorder { graph := g, phiWorklist := [] } with
    | fail e =>
      simp only [ne_eq, Run.fail.injEq]
      intro he
      subst he
      have hno : ∀ (s : TypeState) (phi : Nat),
          propagateSpecialization s phi ≠ .fail .outOfFuel := by
        intro s phi
        unfold propagateSpecialization
        split
        · simp
        · split_ifs
          · simp
          · split <;> simp
      have hphi : ∀ (s : TypeState) (phi : Nat), specializePhi s phi ≠ .fail .outOfFuel := by
        intro s phi
        unfold specializePhi
        split
        · simp
        · split_ifs
          · simp
          · exact hno _ _
      have hphis : ∀ (phis : List Nat) (s : TypeState),
          specializeBlockPhis phis s ≠ .fail .outOfFuel := by
        intro phis
        induction phis with
        | nil => intro s; simp [specializeBlockPhis]
        | cons phi rest ih =>
          intro s
          simp only [specializeBlockPhis]
          cases h2 : specializePhi s phi with
          | fail e =>
            simp only [ne_eq, Run.fail.injEq]
            intro he
            subst he
            exact hphi s phi h2
          | ok s1 => exact ih s1
      have hblocks : ∀ (bs : List Nat) (s : TypeState),
          specializeBlocks bs s ≠ .fail .outOfFuel := by
        intro bs
        induction bs with
        | nil => intro s; simp [specializeBlocks]
        | cons b bs ih =>
          intro s
          simp only [specializeBlocks]
          cases hb : s.graph.block b with
          | none => simp
          | some blk =>
            simp only
            cases h2 : specializeBlockPhis blk.phis s with
            | fail e =>
              simp only [ne_eq, Run.fail.injEq]
              intro he
              subst he
              exact hphis _ s h2
            | ok s1 => exact ih s1
      exact hblocks _ _ h1
    | ok s =>
      simp only
      obtain ⟨hw, hlen⟩ := specializeBlocks_inv _ _ s hw0 h1
      have hfu : propagateWorklist fuel s ≠ .fail .outOfFuel := by
        apply propagateWorklist_fuel fuel s hw
        have h2 := workInv_length s hw
        have h3 := slack_le s.graph
        simp only at hlen
        omega
      cases h2 : propagateWorklist fuel s with
      | fail e =>
        simp only [ne_eq, Run.fail.injEq]
        intro he
        subst he
        exact hfu h2
      | ok s' => simp
  · intro s h1 f s' h2
    obtain ⟨hw, _⟩ := specializeBlocks_inv _ _ s hw0 h1
    obtain ⟨hstep, hnil⟩ := propagateWorklist_up f s s' hw h2
    refine ⟨hnil, ?_⟩
    intro x d hd
    obtain ⟨d', hd', hle⟩ := hstep.up x d hd
    refine ⟨d', hd', hle, ?_⟩
    intro hv
    rw [hv] at hle
    exact typeLe_value hle
  · intro s phi p hp
    simp [respecialize, hp]
  · intro s s' phi use hw h
    obtain ⟨hw', hstep⟩ := propagateToUse_step s s' phi use hw h
    exact ⟨hw', hstep.measure⟩

/-- The bound of C30 on the loop `selfSecondGraph`: its three definitions give
the fuel twelve, with which `specializePhis` returns. -/
theorem specializePhis_terminates_witness :
    4 * selfSecondGraph.defs.length ≤ 12 ∧
    specializePhis 12 selfSecondGraph ≠ .fail .outOfFuel :=
  ⟨by decide, (specializePhis_terminates selfSecondGraph 12 (by decide)).1⟩

namespace Builder

/-! ## The graph builder: tables -/

theorem definition_modify_bld (g : MIRGraph) (d x : Nat) (f : MDefinition → MDefinition) :
    (modifyDefinition g d f).definition x =
      (g.definition x).map fun y => if d = x then f y else y := by
  simp only [modifyDefinition, MIRGraph.definition, List.getElem?_modify]
  cases g.defs[x]? <;> simp [Functor.map]

theorem block_modify_bld (g : MIRGraph) (b x : Nat) (f : MBasicBlock → MBasicBlock) :
    (modifyBlock g b f).block x = (g.block x).map fun y => if b = x then f y else y := by
  simp only [modifyBlock, MIRGraph.block, List.getElem?_modify]
  cases g.table[x]? <;> simp [Functor.map]

theorem definition_modifyBlock_bld (g : MIRGraph) (b x : Nat) (f : MBasicBlock → MBasicBlock) :
    (modifyBlock g b f).definition x = g.definition x := rfl

theorem block_modifyDefinition_bld (g : MIRGraph) (d x : Nat) (f : MDefinition → MDefinition) :
    (modifyDefinition g d f).block x = g.block x := rfl

theorem definition_new_old (g : MIRGraph) (d : MDefinition) (x : Nat) (y : MDefinition)
    (h : g.definition x = some y) : (newDefinition g d).2.definition x = some y := by
  simp only [newDefinition, MIRGraph.definition] at h ⊢
  rw [List.getElem?_append_left]
  · exact h
  · by_contra hlt
    rw [List.getElem?_eq_none (by omega)] at h
    cases h

theorem definition_new_self (g : MIRGraph) (d : MDefinition) :
    (newDefinition g d).2.definition (newDefinition g d).1 = some d := by
  simp [newDefinition, MIRGraph.definition]

theorem block_new_bld (g : MIRGraph) (d : MDefinition) (x : Nat) :
    (newDefinition g d).2.block x = g.block x := rfl

/-! ## pushTypeBarrier without a usable type -/

/-- C24: `pushTypeBarrier(ins, actual, observed)` returns `true` and leaves
the builder as it is, with no instruction added and the stack of the current
block unchanged, when `actual` is absent, when `observed` is absent and the
known type tag of `actual` is `UNKNOWN`, and when `observed` is present and is
the unknown type set. -/
theorem pushTypeBarrier_no_usable_type (b : IonBuilder) (ins : Nat) :
    (∀ observed, pushTypeBarrier b ins none observed = .ok (true, b)) ∧
    (∀ actual : TypeSet, actual.knownTypeTag = JSValueType.UNKNOWN →
      pushTypeBarrier b ins (some actual) none = .ok (true, b)) ∧
    (∀ actual observed : TypeSet, observed.unknown = true →
      pushTypeBarrier b ins (some actual) (some observed) = .ok (true, b)) := by
  refine ⟨fun _ => rfl, ?_, ?_⟩
  · intro actual h
    simp [pushTypeBarrier, barrierReplacement, h]
  · intro actual observed h
    simp [pushTypeBarrier, h]

end Builder

namespace Builder

/-! ## The return value of an inlined call -/

theorem modify_append_last {α : Type} (f : α → α) (a : α) :
    ∀ l : List α, List.modify f l.length (l ++ [a]) = l ++ [f a]
  | [] => rfl
  | x :: l => by
    simp only [List.length_cons, List.cons_append, List.modify_succ_cons,
      modify_append_last f a l]

theorem filterReturn_value (g : MIRGraph) (constructing : Bool) (thisDefn exitBlock rval : Nat)
    (r : MDefinition) (hr : g.definition rval = some r) :
    ∃ g1, filterReturn g constructing thisDefn exitBlock rval =
        .ok (if constructing then
              if r.type = MIRType.Value then g.defs.length
              else if r.type = MIRType.Object then rval else thisDefn
            else rval, g1) ∧
      (∀ x, g1.block x = (g.block x).map fun y =>
        if constructing = true ∧ r.type = MIRType.Value ∧ exitBlock = x then
          { y with instructions := y.instructions ++ [g.defs.length] }
        else y) ∧
      (constructing = true → r.type = MIRType.Value →
        g1.defs = g.defs ++ [{ newReturnFromCtor rval thisDefn with block := some exitBlock }]) ∧
      (¬ (constructing = true ∧ r.type = MIRType.Value) → g1 = g) := by
  unfold filterReturn
  cases constructing with
  | false =>
    refine ⟨g, by simp, ?_, by simp, by simp⟩
    intro x
    cases g.block x <;> simp
  | true =>
    simp only [hr, if_true]
    by_cases hv : r.type = MIRType.Value
    · simp only [hv, if_true]
      refine ⟨_, rfl, ?_, ?_, by simp⟩
      · intro x
        simp only [add, block_modifyDefinition_bld, block_modify_bld, block_new_bld]
        cases g.block x with
        | none => rfl
        | some y =>
          simp only [Option.map_some', newDefinition, true_and]
      · intro _ _
        simp only [add, modifyDefinition, modifyBlock, newDefinition]
        exact modify_append_last _ _ _
    · simp only [hv, if_false]
      by_cases ho : r.type = MIRType.Object
      · refine ⟨g, by simp [ho], ?_, by intro _ h; exact h.elim, by simp⟩
        intro x
        cases g.block x <;> simp [hv]
      · refine ⟨g, by simp [ho], ?_, by intro _ h; exact h.elim, by simp⟩
        intro x
        cases g.block x <;> simp [hv]

/-- C19: for a return of the callee whose `MReturn` has the operand `rval` of
type `t`, the loop of `jsop_call_inline` succeeds and appends to
`retvalDefns`, the inputs of the Phi of the bottom block: for a constructing
call a new `MReturnFromCtor(rval, thisDefn)` if `t` is `Value`, `rval` itself
if `t` is `Object`, and `thisDefn` for every other type; for a call that is
not constructing `rval`.  The exit block becomes a predecessor of `bottom`. -/
theorem jsop_call_inline_return_value (constructing : Bool) (thisDefn bottom : Nat)
    (g : MIRGraph) (retvalDefns : List Nat) (exitBlock last rval : Nat) (x : MBasicBlock)
    (ret r : MDefinition)
    (hx : g.block exitBlock = some x) (hlast : x.lastIns = some last)
    (hret : g.definition last = some ret) (hop : ret.operands[0]? = some rval)
    (hr : g.definition rval = some r) :
    ∃ g', linkExit constructing thisDefn bottom g retvalDefns exitBlock =
        .ok (g', retvalDefns ++
          [if constructing then
            if r.type = MIRType.Value then g.defs.length
            else if r.type = MIRType.Object then rval else thisDefn
          else rval]) ∧
      (constructing = true → r.type = MIRType.Value →
        (g'.definition g.defs.length).map (fun d => (d.op, d.operands)) =
          some (Opcode.ReturnFromCtor, [rval, thisDefn])) ∧
      (∀ y, g.block bottom = some y → bottom ≠ exitBlock →
        (g'.block bottom).map (fun z => z.predecessors) =
          some (y.predecessors ++ [exitBlock])) := by
  have hr1 : (discardLastIns g exitBlock).definition rval = some r := hr
  obtain ⟨g1, h1, hblocks, hdefs, hsame⟩ :=
    filterReturn_value (discardLastIns g exitBlock) constructing thisDefn exitBlock rval r hr1
  refine ⟨addPredecessorWithoutPhis
    (endWith (newDefinition g1 (newGoto bottom)).2 exitBlock (newDefinition g1 (newGoto bottom)).1)
    bottom exitBlock, ?_, ?_, ?_⟩
  · simp only [linkExit, hx, hlast, hret, hop, h1]
    rfl
  · intro hc hv
    have hd := hdefs hc hv
    simp only [addPredecessorWithoutPhis, endWith, add, definition_modifyBlock_bld,
      definition_modify_bld]
    have hlen : (discardLastIns g exitBlock).defs.length = g.defs.length := rfl
    have hg1 : g1.definition g.defs.length =
        some { newReturnFromCtor rval thisDefn with block := some exitBlock } := by
      simp only [MIRGraph.definition, hd]
      rw [← hlen]
      simp
    rw [definition_new_old g1 _ _ _ hg1]
    simp only [Option.map_some']
    split_ifs <;> rfl
  · intro y hy hne
    have hb1 : g1.block bottom = some y := by
      rw [hblocks bottom]
      simp only [discardLastIns, block_modify_bld, hy, Option.map_some']
      have hne2 : ¬ exitBlock = bottom := fun h => hne h.symm
      simp [hne2]
    simp only [addPredecessorWithoutPhis, endWith, add, block_modify_bld,
      block_modifyDefinition_bld, block_new_bld, hb1, Option.map_some']
    have hne2 : ¬ exitBlock = bottom := fun h => hne h.symm
    simp [hne2]

end Builder

namespace Builder

/-! ## Inlining decisions -/

theorem onCallerChain_iff (inlineScript : Nat) (chain : List Nat) :
    onCallerChain inlineScript chain = true ↔ inlineScript ∈ chain := by
  induction chain with
  | nil => simp [onCallerChain]
  | cons script rest ih =>
    simp only [onCallerChain, List.mem_cons]
    by_cases h : script = inlineScript
    · simp [h]
    · have h2 : ¬ inlineScript = script := fun e => h e.symm
      simp [h, h2, ih]

/-- C18: `canInlineTarget` returns `false` whenever the script of the target
is the script of a builder on the chain of caller builders, and
`makeInliningDecision` returns `false` whenever `inliningDepth` is at least
`maxInlineDepth`.  Hence the builder that inlines a function into itself,
whose chain of callers starts with a builder of that script, refuses the
function; a builder without callers does not refuse it for being recursive:
there `canInlineTarget` returns what the other tests give. -/
theorem canInlineTarget_refuses_caller_chain (w : World) (b : IonBuilder) (target : JSFunction)
    (script : JSScript) (hs : w.scripts[b.script]? = some script)
    (ht : target.interpreted = true → ∃ s, w.scripts[target.script]? = some s) :
    (target.script ∈ b.callerBuilder → canInlineTarget w b target = .ok false) ∧
    (∀ targets, w.options.maxInlineDepth ≤ b.inliningDepth →
      makeInliningDecision w b targets = .ok false) ∧
    (target.script = b.script →
      canInlineTarget w (inlineBuilder b target) target = .ok false) ∧
    (b.callerBuilder = [] → ∀ s, w.scripts[target.script]? = some s →
      canInlineTarget w b target =
        .ok (target.interpreted && decide (target.parent = script.global) &&
          s.canIonCompile && w.canEnterInlinedFunction target)) := by
  have key : ∀ (b1 : IonBuilder), w.scripts[b1.script]? = some script →
      target.script ∈ b1.callerBuilder → canInlineTarget w b1 target = .ok false := by
    intro b1 hs1 hmem
    unfold canInlineTarget
    by_cases hi : target.interpreted = true
    · obtain ⟨s, hts⟩ := ht hi
      have hc := (onCallerChain_iff target.script b1.callerBuilder).mpr hmem
      simp only [hi, hs1, hts, hc]
      simp
    · simp [hi]
  refine ⟨key b hs, ?_, ?_, ?_⟩
  · intro targets hdepth
    simp [makeInliningDecision, hdepth]
  · intro heq
    apply key
    · show w.scripts[target.script]? = some script
      rw [heq]
      exact hs
    · show target.script ∈ b.script :: b.callerBuilder
      rw [heq]
      exact List.mem_cons_self _ _
  · intro hnil s hts
    unfold canInlineTarget
    simp only [hs, hts, hnil, onCallerChain]
    cases target.interpreted <;> cases s.canIonCompile <;>
      cases w.canEnterInlinedFunction target <;>
      by_cases hp : target.parent = script.global <;> simp [hp]

end Builder

namespace Builder

/-! ## The graph builder: stacks and extensions -/

theorem extends_refl (g : MIRGraph) : Extends g g :=
  fun _ y h => ⟨y, h, rfl, rfl, rfl, id⟩

theorem extends_trans {a b c : MIRGraph} (h1 : Extends a b) (h2 : Extends b c) : Extends a c := by
  intro d y hy
  obtain ⟨y1, hy1, ho1, hp1, ht1, hb1⟩ := h1 d y hy
  obtain ⟨y2, hy2, ho2, hp2, ht2, hb2⟩ := h2 d y1 hy1
  exact ⟨y2, hy2, ho2.trans ho1, hp2.trans hp1, ht2.trans ht1, fun h => hb2 (hb1 h)⟩

theorem extends_modifyBlock (g : MIRGraph) (b : Nat) (f : MBasicBlock → MBasicBlock) :
    Extends g (modifyBlock g b f) :=
  fun _ y h => ⟨y, h, rfl, rfl, rfl, id⟩

theorem extends_new (g : MIRGraph) (d : MDefinition) : Extends g (newDefinition g d).2 :=
  fun x y h => ⟨y, definition_new_old g d x y h, rfl, rfl, rfl, id⟩

theorem extends_setBlock (g : MIRGraph) (ins blk : Nat) :
    Extends g (modifyDefinition g ins fun d => { d with block := some blk }) := by
  intro d y hy
  rw [definition_modify_bld, hy]
  by_cases h : ins = d
  · exact ⟨{ y with block := some blk }, by simp [h], rfl, rfl, rfl, by simp⟩
  · exact ⟨y, by simp [h], rfl, rfl, rfl, id⟩

theorem extends_add (g : MIRGraph) (b ins : Nat) : Extends g (add g b ins) :=
  extends_trans (extends_modifyBlock g b _) (extends_setBlock _ ins b)

theorem extends_push (g : MIRGraph) (b d : Nat) : Extends g (push g b d) :=
  extends_modifyBlock g b _

theorem shape_extends {g g' : MIRGraph} (h : Extends g g') (d : Nat) (s : Opcode × List Nat)
    (hs : shape g d = some s) : shape g' d = some s := by
  unfold shape at hs ⊢
  cases hd : g.definition d with
  | none => simp [hd] at hs
  | some y =>
    obtain ⟨y', hy', ho, hp, _, _⟩ := h d y hd
    rw [hd] at hs
    simp only [Option.map_some', Option.some.injEq] at hs
    rw [hy', Option.map_some', ho, hp, hs]

theorem stack_modifyBlock (g : MIRGraph) (b x : Nat) (f : MBasicBlock → MBasicBlock)
    (hf : ∀ y, (f y).slots = y.slots) : stack (modifyBlock g b f) x = stack g x := by
  simp only [stack, block_modify_bld]
  cases g.block x with
  | none => rfl
  | some y =>
    simp only [Option.map_some']
    split_ifs
    · rw [hf]
    · rfl

theorem stack_add (g : MIRGraph) (b ins x : Nat) : stack (add g b ins) x = stack g x :=
  stack_modifyBlock g b x _ fun _ => rfl

theorem stack_push (g : MIRGraph) (b d : Nat) (l : List Nat) (h : stack g b = some l) :
    stack (push g b d) b = some (l ++ [d]) := by
  simp only [stack, push, block_modify_bld] at h ⊢
  cases hb : g.block b with
  | none => simp [hb] at h
  | some y =>
    rw [hb] at h
    simp only [Option.map_some', Option.some.injEq] at h
    simp [h]

theorem peek_top (g : MIRGraph) (b d : Nat) (l : List Nat) (h : stack g b = some (l ++ [d])) :
    peek g b 1 = some d := by
  simp only [stack] at h
  cases hb : g.block b with
  | none => simp [hb] at h
  | some y =>
    rw [hb] at h
    simp only [Option.map_some', Option.some.injEq] at h
    simp [peek, hb, h]

theorem pop_top (g : MIRGraph) (b d : Nat) (l : List Nat) (h : stack g b = some (l ++ [d])) :
    ∃ g', pop g b = some (d, g') ∧ g'.defs = g.defs ∧ stack g' b = some l ∧
      Extends g g' := by
  refine ⟨modifyBlock g b fun x => { x with slots := x.slots.dropLast }, ?_, rfl, ?_,
    extends_modifyBlock g b _⟩
  · simp [pop, peek_top g b d l h]
  · simp only [stack, block_modify_bld] at h ⊢
    cases hb : g.block b with
    | none => simp [hb] at h
    | some y =>
      rw [hb] at h
      simp only [Option.map_some', Option.some.injEq] at h
      simp [h]

end Builder

namespace Builder

/-! ## makeCallBarrier: the argument loops -/

theorem shape_new_self (g : MIRGraph) (d : MDefinition) :
    shape (newDefinition g d).2 g.defs.length = some (d.op, d.operands) := by
  have := definition_new_self g d
  simp only [shape]
  rw [show g.defs.length = (newDefinition g d).1 from rfl, this]
  rfl

theorem shape_add_new (g : MIRGraph) (cur : Nat) (d : MDefinition) :
    shape (add (newDefinition g d).2 cur g.defs.length) g.defs.length =
      some (d.op, d.operands) :=
  shape_extends (extends_add _ cur _) _ _ (shape_new_self g d)

theorem padMissing_spec (cur argc : Nat) :
    ∀ (n : Nat) (g : MIRGraph) (call : MCall),
      Extends g (padMissing cur argc n g call).1 ∧
      (∀ x, stack (padMissing cur argc n g call).1 x = stack g x) ∧
      (padMissing cur argc n g call).1.defs.length = g.defs.length + 2 * n ∧
      (padMissing cur argc n g call).2.args.length = call.args.length ∧
      (padMissing cur argc n g call).2.prepareCall = call.prepareCall ∧
      (padMissing cur argc n g call).2.function = call.function ∧
      (∀ pos, (pos ≤ argc ∨ argc + n < pos) →
        (padMissing cur argc n g call).2.args[pos]? = call.args[pos]?) ∧
      (∀ pos, argc < pos → pos ≤ argc + n → pos < call.args.length →
        ∃ p u, (padMissing cur argc n g call).2.args[pos]? = some (some p) ∧
          shape (padMissing cur argc n g call).1 p = some (Opcode.PassArg, [u]) ∧
          shape (padMissing cur argc n g call).1 u = some (Opcode.Constant Value.Undefined, []))
  | 0, g, call => by
    refine ⟨extends_refl g, fun _ => rfl, rfl, rfl, rfl, rfl, fun _ _ => rfl, ?_⟩
    intro pos h1 h2
    omega
  | n + 1, g, call => by
    let g1 := add (newDefinition g (newConstant Value.Undefined)).2 cur g.defs.length
    let g2 := add (newDefinition g1 (newPassArg g.defs.length MIRType.Undefined)).2 cur
      g1.defs.length
    have key : padMissing cur argc (n + 1) g call =
        padMissing cur argc n g2 (call.addArg (argc + n + 1) g1.defs.length) := rfl
    rw [key]
    have he1 : Extends g g1 := extends_trans (extends_new g _) (extends_add _ _ _)
    have he2 : Extends g1 g2 := extends_trans (extends_new g1 _) (extends_add _ _ _)
    have hl1 : g1.defs.length = g.defs.length + 1 := by
      simp [g1, add, modifyDefinition, modifyBlock, newDefinition]
    have hl2 : g2.defs.length = g1.defs.length + 1 := by
      simp [g2, add, modifyDefinition, modifyBlock, newDefinition]
    have hs1 : ∀ x, stack g1 x = stack g x := fun x => stack_add _ _ _ x
    have hs2 : ∀ x, stack g2 x = stack g1 x := fun x => stack_add _ _ _ x
    have hshu : shape g1 g.defs.length = some (Opcode.Constant Value.Undefined, []) :=
      shape_add_new g cur (newConstant Value.Undefined)
    have hshp : shape g2 g1.defs.length = some (Opcode.PassArg, [g.defs.length]) :=
      shape_add_new g1 cur (newPassArg g.defs.length MIRType.Undefined)
    obtain ⟨ie, is_, il, ia, ipc, ifn, iun, ipad⟩ :=
      padMissing_spec cur argc n g2 (call.addArg (argc + n + 1) g1.defs.length)
    refine ⟨extends_trans he1 (extends_trans he2 ie), ?_, ?_, ?_, ipc, ifn, ?_, ?_⟩
    · intro x
      rw [is_, hs2, hs1]
    · rw [il, hl2, hl1]
      omega
    · rw [ia]
      simp [MCall.addArg]
    · intro pos hpos
      rw [iun pos (by omega)]
      simp only [MCall.addArg]
      rw [List.getElem?_set_ne]
      omega
    · intro pos h1 h2 h3
      by_cases hlast : pos = argc + n + 1
      · subst hlast
        refine ⟨g1.defs.length, g.defs.length, ?_, shape_extends ie _ _ hshp,
          shape_extends (extends_trans he2 ie) _ _ hshu⟩
        rw [iun _ (Or.inr (by omega))]
        simp only [MCall.addArg]
        simp [List.getElem?_set, h3]
      · exact ipad pos h1 (by omega) (by simp [MCall.addArg]; exact h3)

theorem popArgs_spec (cur : Nat) :
    ∀ (i : Nat) (g : MIRGraph) (call : MCall) (base as : List Nat),
      stack g cur = some (base ++ as) → as.length = i →
      ∃ g' call', popArgs cur i g call = some (g', call') ∧ g'.defs = g.defs ∧
        Extends g g' ∧ stack g' cur = some base ∧
        call'.args.length = call.args.length ∧ call'.prepareCall = call.prepareCall ∧
        call'.function = call.function ∧
        (∀ pos, (pos = 0 ∨ i < pos) → call'.args[pos]? = call.args[pos]?) ∧
        (∀ j, j < i → j + 1 < call.args.length → call'.args[j + 1]? = some (as[j]?))
  | 0, g, call, base, as, hstack, hlen => by
    have has : as = [] := List.length_eq_zero.mp hlen
    subst has
    refine ⟨g, call, rfl, rfl, extends_refl g, by simpa using hstack, rfl, rfl, rfl,
      fun _ _ => rfl, ?_⟩
    intro j hj
    omega
  | i + 1, g, call, base, as, hstack, hlen => by
    have hne : as ≠ [] := by
      intro h
      rw [h] at hlen
      simp at hlen
    obtain ⟨d, hd⟩ : ∃ d, as = as.dropLast ++ [d] :=
      ⟨as.getLast hne, (List.dropLast_append_getLast hne).symm⟩
    have hlen' : as.dropLast.length = i := by
      rw [List.length_dropLast, hlen]
      rfl
    have hstack' : stack g cur = some ((base ++ as.dropLast) ++ [d]) := by
      rw [List.append_assoc, ← hd]
      exact hstack
    obtain ⟨g1, hpop, hdefs1, hst1, he1⟩ := pop_top g cur d _ hstack'
    obtain ⟨g', call', hrec, hdefs, he, hst, hal, hpc, hfn, hun, hset⟩ :=
      popArgs_spec cur i g1 (call.addArg (i + 1) d) base as.dropLast hst1 hlen'
    refine ⟨g', call', ?_, hdefs.trans hdefs1, extends_trans he1 he, hst, ?_, hpc, hfn, ?_, ?_⟩
    · simp only [popArgs, hpop]
      exact hrec
    · rw [hal]
      simp [MCall.addArg]
    · intro pos hpos
      rw [hun pos (by omega)]
      simp only [MCall.addArg]
      rw [List.getElem?_set_ne]
      omega
    · intro j hj hj2
      by_cases hji : j = i
      · subst hji
        rw [hun _ (Or.inr (by omega))]
        simp only [MCall.addArg]
        have : as[j]? = some d := by
          rw [hd, List.getElem?_append_right (by omega)]
          simp [hlen']
        simp [List.getElem?_set, hj2, this]
      · have := hset j (by omega) (by simp [MCall.addArg]; exact hj2)
        rw [this]
        congr 1
        rw [List.getElem?_dropLast]
        split_ifs with h
        · rfl
        · omega

end Builder

namespace Builder

/-! ## makeCallBarrier: the call -/

theorem insertBefore_spec (g : MIRGraph) (at_ ins : Nat) (a : MDefinition)
    (ha : g.definition at_ = some a) (hblock : a.block ≠ none) :
    ∃ g', insertBefore g at_ ins = some g' ∧ Extends g g' ∧ (∀ x, stack g' x = stack g x) ∧
      g'.defs.length = g.defs.length := by
  cases hb : a.block with
  | none => exact absurd hb hblock
  | some blk =>
    refine ⟨modifyDefinition
        (modifyBlock g blk fun x =>
          { x with instructions :=
              (x.instructions.takeWhile fun y => y ≠ at_) ++ ins ::
                x.instructions.dropWhile fun y => y ≠ at_ })
        ins fun d => { d with block := some blk }, by simp only [insertBefore, ha, hb], ?_, ?_, ?_⟩
    · exact extends_trans (extends_modifyBlock g blk _) (extends_setBlock _ ins blk)
    · intro x
      exact stack_modifyBlock g blk x _ fun _ => rfl
    · simp [modifyDefinition, modifyBlock]

theorem discard_spec (g : MIRGraph) (ins : Nat) (a : MDefinition)
    (ha : g.definition ins = some a) (hblock : a.block ≠ none) :
    ∃ g', discard g ins = some g' ∧ Extends g g' ∧ (∀ x, stack g' x = stack g x) := by
  cases hb : a.block with
  | none => exact absurd hb hblock
  | some blk =>
    refine ⟨modifyBlock g blk fun x => { x with instructions := x.instructions.erase ins },
      by simp only [discard, ha, hb], extends_modifyBlock g blk _, ?_⟩
    intro x
    exact stack_modifyBlock g blk x _ fun _ => rfl

theorem createThis_spec (g : MIRGraph) (cur callee : Nat) (target : JSFunction)
    (hok : target.native = true → target.nativeConstructor = true) :
    ∃ create g', createThis g cur target callee = some (create, g') ∧ Extends g g' ∧
      (∀ x, stack g' x = stack g x) ∧
      (target.native = false →
        shape g' create = some (Opcode.CreateThis, [callee, g.defs.length])) := by
  unfold createThis
  by_cases hn : target.native = true
  · simp only [hn, hok hn, if_true, Bool.not_true, Bool.false_eq_true, if_false]
    refine ⟨_, _, rfl, extends_trans (extends_new g _) (extends_add _ _ _), ?_, ?_⟩
    · intro x
      rw [stack_add]
      rfl
    · intro h
      cases h
  · simp only [hn, if_false]
    refine ⟨_, _, rfl, ?_, ?_, ?_⟩
    · exact extends_trans (extends_new g _) (extends_trans (extends_add _ _ _)
        (extends_trans (extends_new _ _) (extends_add _ _ _)))
    · intro x
      rw [stack_add]
      show stack (add _ cur _) x = stack g x
      rw [stack_add]
      rfl
    · intro _
      exact shape_add_new _ cur _

theorem padArgv_spec (cur : Nat) :
    ∀ (missing : Nat) (g : MIRGraph) (argv : List Nat),
      ∃ pads, (padArgv cur missing g argv).2 = argv ++ pads ∧ pads.length = missing ∧
        Extends g (padArgv cur missing g argv).1 ∧
        ∀ u ∈ pads, shape (padArgv cur missing g argv).1 u =
          some (Opcode.Constant Value.Undefined, [])
  | 0, g, argv => ⟨[], by simp [padArgv], rfl, extends_refl g, fun _ h => absurd h (List.not_mem_nil _)⟩
  | missing + 1, g, argv => by
    let g1 := add (newDefinition g (newConstant Value.Undefined)).2 cur g.defs.length
    have key : padArgv cur (missing + 1) g argv = padArgv cur missing g1 (argv ++ [g.defs.length]) :=
      rfl
    rw [key]
    obtain ⟨pads, h1, h2, h3, h4⟩ := padArgv_spec cur missing g1 (argv ++ [g.defs.length])
    have he1 : Extends g g1 := extends_trans (extends_new g _) (extends_add _ _ _)
    refine ⟨g.defs.length :: pads, by rw [h1]; simp, by simp [h2], extends_trans he1 h3, ?_⟩
    intro u hu
    rcases List.mem_cons.mp hu with h | h
    · rw [h]
      exact shape_extends h3 _ _ (shape_add_new g cur _)
    · exact h4 u h

end Builder

namespace Builder

theorem newThisArg_spec (g : MIRGraph) (cur fn thisArg : Nat) (base : List Nat)
    (target : Option JSFunction) (constructing : Bool) (a : MDefinition)
    (hstack : stack g cur = some (base ++ [fn]))
    (ha : g.definition thisArg = some a) (hblock : a.block ≠ none)
    (hctor : ∀ t, constructing = true → target = some t → t.native = true →
      t.nativeConstructor = true) :
    ∃ thisArg1 g', newThisArg g cur target constructing thisArg = .ok (some (thisArg1, g')) ∧
      Extends g g' ∧ stack g' cur = some (base ++ [fn]) ∧
      ((constructing = false ∨ target = none) → thisArg1 = thisArg) ∧
      (∀ t, constructing = true → target = some t → t.native = false →
        ∃ create proto, shape g' thisArg1 = some (Opcode.PassArg, [create]) ∧
          shape g' create = some (Opcode.CreateThis, [fn, proto])) := by
  cases constructing with
  | false =>
    refine ⟨thisArg, g, ?_, extends_refl g, hstack, fun _ => rfl, ?_⟩
    · cases target <;> rfl
    · intro t h
      cases h
  | true =>
    cases target with
    | none =>
      refine ⟨thisArg, g, rfl, extends_refl g, hstack, fun _ => rfl, ?_⟩
      intro t _ h
      cases h
    | some t =>
      obtain ⟨create, g1, hc, he1, hs1, hshape⟩ :=
        createThis_spec g cur fn t (hctor t rfl rfl)
      obtain ⟨a1, ha1, _, _, _, hb1⟩ :=
        extends_trans he1 (extends_new g1 (newPassArg create MIRType.Object)) thisArg a ha
      obtain ⟨g2, hd, he2, hs2⟩ := discard_spec _ thisArg a1 ha1 (hb1 hblock)
      refine ⟨g1.defs.length, add g2 cur g1.defs.length, ?_, ?_, ?_, ?_, ?_⟩
      · simp only [newThisArg, peek_top g cur fn base hstack, hc]
        rw [show (newDefinition g1 (newPassArg create MIRType.Object)).1 = g1.defs.length from rfl]
        simp only [hd]
      · exact extends_trans he1 (extends_trans (extends_new g1 _)
          (extends_trans he2 (extends_add _ _ _)))
      · rw [stack_add, hs2]
        show stack g1 cur = _
        rw [hs1, hstack]
      · intro h
        rcases h with h | h <;> cases h
      · intro t' _ ht hn
        cases ht
        refine ⟨create, g.defs.length, ?_, ?_⟩
        · exact shape_extends (extends_trans he2 (extends_add _ _ _)) _ _
            (shape_new_self g1 (newPassArg create MIRType.Object))
        · exact shape_extends (extends_trans (extends_new g1 _)
            (extends_trans he2 (extends_add _ _ _))) _ _ (hshape hn)

end Builder

namespace Builder

/-- C20: `makeCallBarrier` on a stack that ends with the callee, `this` and
`argc` actual arguments builds a call whose argument positions are: `this` in
position 0 (for a constructing call with a known target the `MPassArg` of the
new object of `createThis`), the actual arguments in bytecode order in the
positions 1 to `argc`, and an `MPassArg` of an `undefined` constant in every
further position.  There are `max(nargs, argc) + 1` positions for a scripted
target and `argc + 1`, so no padding, for a native or unknown target.
Likewise `buildInline` appends `nargs - numActualArgs` `undefined` constants
to `argv`. -/
theorem makeCallBarrier_pads_arguments (b : IonBuilder) (cur fn this : Nat)
    (base as : List Nat) (thisDef : MDefinition) (target : Option JSFunction)
    (targetId : Option Nat) (constructing : Bool)
    (hcur : b.current = some cur)
    (hstack : stack b.graph cur = some (base ++ fn :: this :: as))
    (hthis : b.graph.definition this = some thisDef) (hblock : thisDef.block ≠ none)
    (hctor : ∀ t, constructing = true → target = some t → t.native = true →
      t.nativeConstructor = true) :
    (∃ call b' c,
      makeCallIns b target targetId as.length constructing = .ok (some (call, b')) ∧
      shape b'.graph call = some (Opcode.Call c, []) ∧
      stack b'.graph cur = some (base ++ [call]) ∧
      c.function = some fn ∧
      (∀ t, target = some t → t.native = false →
        c.args.length = max t.nargs as.length + 1) ∧
      ((target = none ∨ ∃ t, target = some t ∧ t.native = true) →
        c.args.length = as.length + 1) ∧
      ((constructing = false ∨ target = none) → c.args[0]? = some (some this)) ∧
      (∀ t, constructing = true → target = some t → t.native = false →
        ∃ p create proto, c.args[0]? = some (some p) ∧
          shape b'.graph p = some (Opcode.PassArg, [create]) ∧
          shape b'.graph create = some (Opcode.CreateThis, [fn, proto])) ∧
      (∀ j, j < as.length → c.args[j + 1]? = some (as[j]?)) ∧
      (∀ pos, as.length < pos → pos < c.args.length →
        ∃ p u, c.args[pos]? = some (some p) ∧
          shape b'.graph p = some (Opcode.PassArg, [u]) ∧
          shape b'.graph u = some (Opcode.Constant Value.Undefined, [])) ∧
      (∀ types barrier,
        makeCallBarrier b target targetId as.length constructing types barrier =
          pushTypeBarrier b' call types barrier)) ∧
    (∀ rest inl pred nargs argv, ∃ b2 pads,
      buildInline rest inl (some pred) nargs argv = rest b2 (argv ++ pads) ∧
      pads.length = nargs - (argv.length - 1) ∧
      ∀ u ∈ pads, shape b2.graph u = some (Opcode.Constant Value.Undefined, [])) := by
  constructor
  · have hT : as.length ≤ targetArgs target as.length := by
      unfold targetArgs
      cases target with
      | none => exact Nat.le_refl _
      | some t =>
        simp only
        split_ifs
        · exact Nat.le_max_right _ _
        · exact Nat.le_refl _
    generalize hTdef : targetArgs target as.length = T at hT
    have hcall0 : (MCall.New targetId (T + 1) as.length constructing).args.length = T + 1 := by
      simp [MCall.New]
    obtain ⟨pe, ps, _, pa, ppc, pfn, pun, ppad⟩ :=
      padMissing_spec cur as.length (T - as.length) b.graph
        (MCall.New targetId (T + 1) as.length constructing)
    generalize hpadded : padMissing cur as.length (T - as.length) b.graph
      (MCall.New targetId (T + 1) as.length constructing) = padded at pe ps pa ppc pfn pun ppad
    have hst0 : stack padded.1 cur = some ((base ++ [fn, this]) ++ as) := by
      rw [ps, hstack]
      simp
    obtain ⟨g1, call1, hpopArgs, hd1, he1, hs1, ha1, hpc1, hfn1, hun1, hset1⟩ :=
      popArgs_spec cur as.length padded.1 padded.2 (base ++ [fn, this]) as hst0 rfl
    have hs1' : stack (newDefinition g1 { op := .PrepareCall, type := .None }).2 cur =
        some ((base ++ [fn]) ++ [this]) := by
      show stack g1 cur = _
      rw [hs1]
      simp
    have hpeek := peek_top _ cur this _ hs1'
    have heStart : Extends b.graph (newDefinition g1 { op := .PrepareCall, type := .None }).2 :=
      extends_trans pe (extends_trans he1 (extends_new g1 _))
    obtain ⟨t1, ht1, _, _, _, htb1⟩ := heStart this thisDef hthis
    obtain ⟨g2, hins, he2, hs2, _⟩ := insertBefore_spec _ this g1.defs.length t1 ht1 (htb1 hblock)
    have hs2' : stack g2 cur = some ((base ++ [fn]) ++ [this]) := by
      rw [hs2, hs1']
    obtain ⟨g3, hpop3, _, hs3, he3⟩ := pop_top g2 cur this _ hs2'
    have heG3 : Extends b.graph g3 := extends_trans heStart (extends_trans he2 he3)
    obtain ⟨t3, ht3, _, _, _, htb3⟩ := heG3 this thisDef hthis
    obtain ⟨thisArg1, g6, hmade, he6, hs6, hsame, hnew⟩ :=
      newThisArg_spec g3 cur fn this base target constructing t3 hs3 ht3 (htb3 hblock) hctor
    obtain ⟨g7, hpop7, _, hs7, he7⟩ := pop_top g6 cur fn base hs6
    have hfinal : makeCallIns b target targetId as.length constructing =
        .ok (some (g7.defs.length,
          { b with graph := push (add (newDefinition g7
              { op := .Call { ({ call1 with prepareCall := some g1.defs.length } : MCall).addArg 0
                  thisArg1 with function := some fn },
                type := .Value, effectful := true }).2 cur g7.defs.length) cur g7.defs.length })) := by
      unfold makeCallIns
      simp only [hcur, hTdef, hpadded, hpopArgs, hpeek]
      rw [show (newDefinition g1 { op := .PrepareCall, type := .None }).1 = g1.defs.length from rfl]
      simp only [hins, hpop3, hmade, hpop7]
      rfl
    have heFinal : ∀ d, Extends g6 (push (add (newDefinition g7 d).2 cur g7.defs.length) cur
        g7.defs.length) := fun d =>
      extends_trans he7 (extends_trans (extends_new g7 d)
        (extends_trans (extends_add _ _ _) (extends_push _ _ _)))
    have hePad : ∀ d, Extends padded.1 (push (add (newDefinition g7 d).2 cur g7.defs.length) cur
        g7.defs.length) := fun d =>
      extends_trans he1 (extends_trans (extends_new g1 _) (extends_trans he2
        (extends_trans he3 (extends_trans he6 (heFinal d)))))
    have hlen : call1.args.length = T + 1 := by
      rw [ha1, pa, hcall0]
    refine ⟨g7.defs.length, _,
      { ({ call1 with prepareCall := some g1.defs.length } : MCall).addArg 0 thisArg1 with
        function := some fn }, hfinal, ?_, ?_, rfl, ?_, ?_, ?_, ?_, ?_, ?_, ?_⟩
    · exact shape_extends (extends_push _ _ _) _ _ (shape_add_new g7 cur _)
    · apply stack_push
      rw [stack_add]
      exact hs7
    · intro t ht hn
      simp only [MCall.addArg, List.length_set, hlen]
      rw [← hTdef, ht]
      simp [targetArgs, hn]
    · intro h
      simp only [MCall.addArg, List.length_set, hlen]
      rw [← hTdef]
      rcases h with h | ⟨t, ht, hn⟩
      · rw [h]
        rfl
      · rw [ht]
        simp [targetArgs, hn]
    · intro h
      simp only [MCall.addArg]
      rw [hsame h]
      simp [List.getElem?_set, hlen]
    · intro t hc ht hn
      obtain ⟨create, proto, hp1, hp2⟩ := hnew t hc ht hn
      refine ⟨thisArg1, create, proto, ?_, shape_extends (heFinal _) _ _ hp1,
        shape_extends (heFinal _) _ _ hp2⟩
      simp [MCall.addArg, List.getElem?_set, hlen]
    · intro j hj
      simp only [MCall.addArg]
      rw [List.getElem?_set_ne (by omega)]
      exact hset1 j hj (by rw [pa, hcall0]; omega)
    · intro pos h1 h2
      simp only [MCall.addArg, List.length_set, hlen] at h2
      obtain ⟨p, u, hp, hsp, hsu⟩ := ppad pos h1 (by omega) (by rw [hcall0]; exact h2)
      refine ⟨p, u, ?_, shape_extends (hePad _) _ _ hsp, shape_extends (hePad _) _ _ hsu⟩
      simp only [MCall.addArg]
      rw [List.getElem?_set_ne (by omega), hun1 pos (Or.inr h1)]
      exact hp
    · intro types barrier
      simp only [makeCallBarrier, hfinal]
  · intro rest inl pred nargs argv
    unfold buildInline
    simp only [newBlockAt]
    by_cases hlt : argv.length - 1 < nargs
    · simp only [hlt, if_true]
      obtain ⟨pads, h1, h2, _, h4⟩ := padArgv_spec inl.graph.table.length
        (nargs - (argv.length - 1))
        (addPredecessorWithoutPhis
          (endWith (newDefinition
            { inl.graph with
              table := inl.graph.table ++ [{ pc := inl.pc, loopDepth := inl.loopDepth }],
              blocks := inl.graph.blocks ++ [inl.graph.table.length] }
            (newGoto inl.graph.table.length)).2 pred
            (newDefinition
              { inl.graph with
                table := inl.graph.table ++ [{ pc := inl.pc, loopDepth := inl.loopDepth }],
                blocks := inl.graph.blocks ++ [inl.graph.table.length] }
              (newGoto inl.graph.table.length)).1)
          inl.graph.table.length pred) argv
      exact ⟨_, pads, by rw [h1], h2, h4⟩
    · simp only [hlt, if_false]
      refine ⟨_, [], by rw [List.append_nil], by simp; omega, ?_⟩
      intro u hu
      exact absurd hu (List.not_mem_nil u)

end Builder

namespace Builder

/-- The three cases of C24 on `barrierBuilder`. -/
theorem pushTypeBarrier_no_usable_type_witness :
    pushTypeBarrier barrierBuilder 0 none none = .ok (true, barrierBuilder) ∧
    pushTypeBarrier barrierBuilder 0 (some unknownTag) none = .ok (true, barrierBuilder) ∧
    pushTypeBarrier barrierBuilder 0 (some unknownTag) (some unknownSet) =
      .ok (true, barrierBuilder) :=
  ⟨(pushTypeBarrier_no_usable_type barrierBuilder 0).1 none,
   (pushTypeBarrier_no_usable_type barrierBuilder 0).2.1 unknownTag rfl,
   (pushTypeBarrier_no_usable_type barrierBuilder 0).2.2 unknownTag unknownSet rfl⟩

/-- The return of a `Value` from the inlined constructor of `ctorReturnGraph`:
the new `MReturnFromCtor` 3 is what the bottom block merges. -/
theorem jsop_call_inline_return_value_witness :
    ctorReturnGraph.block 1 =
      some { pc := 0, predecessors := [0], instructions := [1, 2], lastIns := some 2 } ∧
    ∃ g', linkExit true 0 2 ctorReturnGraph [] 1 = .ok (g', [3]) ∧
      (g'.definition 3).map (fun d => (d.op, d.operands)) =
        some (Opcode.ReturnFromCtor, [1, 0]) := by
  refine ⟨rfl, ?_⟩
  obtain ⟨g', h1, h2, _⟩ := jsop_call_inline_return_value true 0 2 ctorReturnGraph [] 1 2 1
    { pc := 0, predecessors := [0], instructions := [1, 2], lastIns := some 2 }
    { op := .Return, type := .None, operands := [1], block := some 1 }
    { op := .Other, type := .Value, block := some 1 } rfl rfl rfl rfl rfl
  exact ⟨g', h1, h2 rfl rfl⟩

/-- The recursive function of `recursiveWorld`: the builder that inlines it
into itself refuses to inline it again. -/
theorem canInlineTarget_refuses_caller_chain_witness :
    recursiveWorld.scripts[callBuilder.script]? =
      some { global := 0, canIonCompile := true, length := 10, useCount := 20000 } ∧
    canInlineTarget recursiveWorld callBuilder recursiveFunction = .ok true ∧
    canInlineTarget recursiveWorld (inlineBuilder callBuilder recursiveFunction)
      recursiveFunction = .ok false :=
  ⟨rfl, by decide,
   (canInlineTarget_refuses_caller_chain recursiveWorld callBuilder recursiveFunction
      { global := 0, canIonCompile := true, length := 10, useCount := 20000 } rfl
      (fun _ => ⟨_, rfl⟩)).2.2.1 rfl⟩

/-- The call of `callBuilder` to a function with three formals and one actual
argument has four argument positions. -/
theorem makeCallBarrier_pads_arguments_witness :
    callBuilder.current = some 0 ∧
    stack callBuilder.graph 0 = some ([] ++ 0 :: 2 :: [4]) ∧
    ∃ call b' c, makeCallIns callBuilder (some recursiveFunction) (some 0) 1 false =
        .ok (some (call, b')) ∧
      shape b'.graph call = some (Opcode.Call c, []) ∧ c.args.length = 4 := by
  refine ⟨rfl, rfl, ?_⟩
  obtain ⟨call, b', c, h1, h2, _, _, h5, _⟩ :=
    (makeCallBarrier_pads_arguments callBuilder 0 0 2 [] [4]
      { op := .PassArg, type := .Value, operands := [1], block := some 0 }
      (some recursiveFunction) (some 0) false rfl rfl rfl (by simp)
      (by intro t h; cases h)).1
  exact ⟨call, b', c, h1, h2, h5 recursiveFunction rfl rfl⟩

end Builder

namespace Builder

/-! ## Failure of the traversal -/

theorem inspectOpcode_default (h : Handlers) (code : Script) (b : IonBuilder) (bc : Bytecode)
    (hdec : h.decompose bc.op = false) (hsw : inSwitch bc.op = false) :
    inspectOpcode h code b bc = .ok (false, b) := by
  unfold inspectOpcode
  rw [hdec]
  cases hop : bc.op <;> rw [hop] at hsw <;> first | exact absurd hsw (by decide) | rfl

/-- C17: for an opcode that is not flagged `JOF_DECOMPOSE` and is not a case
of its `switch`, `inspectOpcode` returns `false`.  When `snoopControlFlow`
reports an error or `inspectOpcode` returns `false` in an iteration of
`traverseBytecode`, `traverseBytecode` returns `false`; an iteration that
continues hands its state to the next one, so that this holds for every
iteration; and when `traverseBytecode` returns `false`, so does `build`, which
returns `true` only if the traversal did. -/
theorem traverseBytecode_fails (h : Handlers) (code : Script) :
    (∀ b bc, h.decompose bc.op = false → inSwitch bc.op = false →
      inspectOpcode h code b bc = .ok (false, b)) ∧
    (∀ fuel b bc b1, (b.cfgStack.getLast?.map fun state => state.stopAt) ≠ some b.pc →
      code.at b.pc = some bc →
      snoopControlFlow h code (fuel + 1) b bc = .ok (.Error, b1) →
      traverseBytecode h code (fuel + 1) b = .ok (false, b1)) ∧
    (∀ fuel b bc b1 b2, (b.cfgStack.getLast?.map fun state => state.stopAt) ≠ some b.pc →
      code.at b.pc = some bc →
      snoopControlFlow h code (fuel + 1) b bc = .ok (.None, b1) →
      inspectOpcode h code b1 bc = .ok (false, b2) →
      traverseBytecode h code (fuel + 1) b = .ok (false, b2)) ∧
    (∀ fuel b b1, traverseStep h code (fuel + 1) b = .ok (.inr b1) →
      traverseBytecode h code (fuel + 1) b = traverseBytecode h code fuel b1) ∧
    (∀ fuel b b1 b2, h.prologue b = .ok (true, b1) →
      traverseBytecode h code fuel b1 = .ok (false, b2) →
      build h code fuel b = .ok (false, b2)) ∧
    (∀ fuel b r, build h code fuel b = .ok (true, r) →
      ∃ b1 b2, h.prologue b = .ok (true, b1) ∧
        traverseBytecode h code fuel b1 = .ok (true, b2)) := by
  refine ⟨inspectOpcode_default h code, ?_, ?_, ?_, ?_, ?_⟩
  · intro fuel b bc b1 hstop hat hsnoop
    simp only [traverseBytecode, traverseStep, if_neg hstop, hat, hsnoop]
  · intro fuel b bc b1 b2 hstop hat hsnoop hins
    simp only [traverseBytecode, traverseStep, if_neg hstop, hat, hsnoop, hins]
  · intro fuel b b1 hstep
    simp only [traverseBytecode, hstep]
  · intro fuel b b1 b2 hpro htr
    simp only [build, hpro, htr]
  · intro fuel b r hb
    unfold build at hb
    cases hpro : h.prologue b with
    | fail e => simp [hpro] at hb
    | ok p =>
      obtain ⟨ok1, b1⟩ := p
      cases ok1 with
      | false => simp [hpro] at hb
      | true =>
        simp only [hpro] at hb
        cases htr : traverseBytecode h code fuel b1 with
        | fail e => simp [htr] at hb
        | ok q =>
          obtain ⟨ok2, b2⟩ := q
          cases ok2 with
          | false => simp [htr] at hb
          | true => exact ⟨b1, b2, rfl, htr⟩

/-- The unsupported opcode of `unsupportedScript` makes `inspectOpcode`,
`traverseBytecode` and `build` return `false`. -/
theorem traverseBytecode_fails_witness :
    (∀ b, inspectOpcode noHandlers unsupportedScript b { op := .Unsupported 229 } =
      .ok (false, b)) ∧
    ∃ b, build noHandlers unsupportedScript 5 entryBuilder = .ok (false, b) :=
  ⟨fun b => (traverseBytecode_fails noHandlers unsupportedScript).1 b
      { op := .Unsupported 229 } rfl rfl,
   ⟨_, rfl⟩⟩

end Builder

namespace Builder

/-! ## Joining predecessors -/

theorem addPredecessorSlots_same (b numPreds : Nat) :
    ∀ (l : List Nat) (i : Nat) (defs : List MDefinition),
      addPredecessorSlots b numPreds i l l defs = (l, [], defs)
  | [], i, defs => by simp [addPredecessorSlots]
  | m :: l, i, defs => by
    simp only [addPredecessorSlots, if_true, addPredecessorSlots_same b numPreds l (i + 1) defs]

theorem addPredecessorSlots_append (b numPreds : Nat) :
    ∀ (pre mine other : List Nat) (i : Nat) (defs : List MDefinition),
      addPredecessorSlots b numPreds i (pre ++ mine) (pre ++ other) defs =
        (pre ++ (addPredecessorSlots b numPreds (i + pre.length) mine other defs).1,
         (addPredecessorSlots b numPreds (i + pre.length) mine other defs).2.1,
         (addPredecessorSlots b numPreds (i + pre.length) mine other defs).2.2)
  | [], mine, other, i, defs => by simp
  | m :: pre, mine, other, i, defs => by
    have ih := addPredecessorSlots_append b numPreds pre mine other (i + 1) defs
    rw [show i + 1 + pre.length = i + (pre.length + 1) by omega] at ih
    show addPredecessorSlots b numPreds i (m :: (pre ++ mine)) (m :: (pre ++ other)) defs = _
    simp only [addPredecessorSlots, if_true, ih, List.length_cons, List.cons_append]

theorem addPredecessorSlots_one (b numPreds i c1 c2 : Nat) (pre post : List Nat)
    (defs : List MDefinition) (d : MDefinition) (hne : c1 ≠ c2) (hd : defs[c1]? = some d)
    (hphi : d.isPhi = false) :
    addPredecessorSlots b numPreds i (pre ++ c1 :: post) (pre ++ c2 :: post) defs =
      (pre ++ defs.length :: post, [defs.length],
       defs ++ [{ newPhi (i + pre.length) (List.replicate numPreds c1 ++ [c2]) with
                    block := some b }]) := by
  rw [addPredecessorSlots_append]
  simp only [addPredecessorSlots, if_neg hne, hd, hphi, Bool.false_eq_true, false_and, if_false,
    addPredecessorSlots_same]

end Builder

namespace Builder

/-! ## Gotos and new predecessors -/

theorem block_endWithGoto (g : MIRGraph) (blk target x : Nat) :
    (endWithGoto g blk target).block x =
      (g.block x).map fun y =>
        if blk = x then
          { y with instructions := y.instructions ++ [g.defs.length],
                   lastIns := some g.defs.length }
        else y := by
  simp only [endWithGoto, endWith, add, block_modify_bld, block_modifyDefinition_bld,
    block_new_bld]
  cases g.block x with
  | none => rfl
  | some y =>
    simp only [Option.map_some']
    by_cases h : blk = x
    · simp [h, newDefinition]
    · simp [h]

theorem extends_endWithGoto (g : MIRGraph) (blk target : Nat) :
    Extends g (endWithGoto g blk target) :=
  extends_trans (extends_new g _)
    (extends_trans (extends_add _ _ _) (extends_modifyBlock _ _ _))

theorem table_endWithGoto (g : MIRGraph) (blk target : Nat) :
    (endWithGoto g blk target).table.length = g.table.length := by
  simp [endWithGoto, endWith, add, modifyBlock, modifyDefinition, newDefinition]

theorem defs_endWithGoto (g : MIRGraph) (blk target : Nat) :
    (endWithGoto g blk target).defs.length = g.defs.length + 1 := by
  simp [endWithGoto, endWith, add, modifyBlock, modifyDefinition, newDefinition]

theorem addPredecessor_spec (g : MIRGraph) (b pred : Nat) (x p : MBasicBlock)
    (hx : g.block b = some x) (hp : g.block pred = some p) :
    addPredecessor g b pred =
      some (modifyBlock
        { g with defs := (addPredecessorSlots b x.predecessors.length 0 x.slots p.slots g.defs).2.2 }
        b fun y =>
          { y with
            slots := (addPredecessorSlots b x.predecessors.length 0 x.slots p.slots g.defs).1,
            phis := y.phis ++
              (addPredecessorSlots b x.predecessors.length 0 x.slots p.slots g.defs).2.1,
            predecessors := y.predecessors ++ [pred] }) := by
  simp only [addPredecessor, hx, hp]

theorem addPredecessor_preds (g : MIRGraph) (b pred : Nat) (x p : MBasicBlock)
    (hx : g.block b = some x) (hp : g.block pred = some p) :
    ∃ g', addPredecessor g b pred = some g' ∧ g'.table.length = g.table.length ∧
      predecessorsOf g' b = some (x.predecessors ++ [pred]) ∧
      (∀ y, y ≠ b → g'.block y = g.block y) := by
  refine ⟨_, addPredecessor_spec g b pred x p hx hp, ?_, ?_, ?_⟩
  · simp [modifyBlock]
  · simp only [predecessorsOf, block_modify_bld]
    have : MIRGraph.block { g with defs :=
        (addPredecessorSlots b x.predecessors.length 0 x.slots p.slots g.defs).2.2 } b =
        some x := hx
    rw [this]
    simp
  · intro y hy
    simp only [block_modify_bld]
    have : MIRGraph.block { g with defs :=
        (addPredecessorSlots b x.predecessors.length 0 x.slots p.slots g.defs).2.2 } y =
        g.block y := rfl
    rw [this]
    cases g.block y with
    | none => rfl
    | some z =>
      have hne : ¬ b = y := fun h => hy h.symm
      simp [hne]

end Builder

namespace Builder

/-! ## The join of an if-else -/

/-- C22: at the end of the false branch of an if-else whose two branches fell
through, with stacks that differ in the one slot of `x`, which holds the
constant 1 at the end of the true branch and the constant 2 at the end of the
false branch, `processIfElseFalseEnd` creates one block, the join: its
predecessors are the end of the true branch and the end of the false branch,
in that order, and it has exactly one Phi, of arity 2, whose operands are the
two constants. -/
theorem processIfElseFalseEnd_joins_diamond (b : IonBuilder) (state : CFGState)
    (ifTrue cur c1 c2 : Nat) (t f : MBasicBlock) (pre post : List Nat) (d1 d2 : MDefinition)
    (hcur : b.current = some cur) (hstate : state.ifTrue = some ifTrue)
    (ht : b.graph.block ifTrue = some t) (hf : b.graph.block cur = some f)
    (hne : ifTrue ≠ cur)
    (hst : t.slots = pre ++ c1 :: post) (hsf : f.slots = pre ++ c2 :: post)
    (hd1 : b.graph.definition c1 = some d1) (hd2 : b.graph.definition c2 = some d2)
    (hc1 : d1.op = Opcode.Constant (Value.Int32 1))
    (hc2 : d2.op = Opcode.Constant (Value.Int32 2)) :
    ∃ b' phi, processIfElseFalseEnd b state = .ok (.Joined, b') ∧
      b'.current = some b.graph.table.length ∧
      b'.graph.table.length = b.graph.table.length + 1 ∧
      predecessorsOf b'.graph b.graph.table.length = some [ifTrue, cur] ∧
      (b'.graph.block b.graph.table.length).map (fun x => x.phis) = some [phi] ∧
      shape b'.graph phi = some (Opcode.Phi, [c1, c2]) ∧
      stack b'.graph b.graph.table.length = some (pre ++ phi :: post) := by
  have htlt : ifTrue < b.graph.table.length := (List.getElem?_eq_some.mp ht).1
  have hflt : cur < b.graph.table.length := (List.getElem?_eq_some.mp hf).1
  have hc12 : c1 ≠ c2 := by
    intro h
    rw [h, hd2] at hd1
    cases hd1
    rw [hc1] at hc2
    cases hc2
  -- the new block
  let joinBlock : MBasicBlock :=
    { pc := state.falseEnd, predecessors := [ifTrue], slots := t.slots, loopDepth := b.loopDepth }
  let g0 : MIRGraph :=
    { b.graph with table := b.graph.table ++ [joinBlock],
                   blocks := b.graph.blocks ++ [b.graph.table.length] }
  have hnew : newBlockAt b.graph (some ifTrue) state.falseEnd b.loopDepth =
      some (b.graph.table.length, g0) := by
    simp only [newBlockAt, ht]
  have hg0join : g0.block b.graph.table.length = some joinBlock := by
    simp [g0, MIRGraph.block]
  have hg0cur : g0.block cur = some f := by
    simp only [g0, MIRGraph.block]
    rw [List.getElem?_append_left hflt]
    exact hf
  let g1 := endWithGoto g0 ifTrue b.graph.table.length
  let g2 := endWithGoto g1 cur b.graph.table.length
  have hj1 : g1.block b.graph.table.length = some joinBlock := by
    simp only [g1, block_endWithGoto, hg0join, Option.map_some']
    rw [if_neg (by omega)]
  have hj2 : g2.block b.graph.table.length = some joinBlock := by
    simp only [g2, block_endWithGoto, hj1, Option.map_some']
    rw [if_neg (by omega)]
  have hc2' : ∃ f', g2.block cur = some f' ∧ f'.slots = f.slots := by
    simp only [g2, g1, block_endWithGoto, hg0cur, Option.map_some', if_neg hne, if_true]
    exact ⟨_, rfl, rfl⟩
  obtain ⟨f', hf', hf'slots⟩ := hc2'
  have he : Extends b.graph g2 :=
    extends_trans (fun d y h => ⟨y, h, rfl, rfl, rfl, id⟩ : Extends b.graph g0)
      (extends_trans (extends_endWithGoto _ _ _) (extends_endWithGoto _ _ _))
  obtain ⟨y1, hy1, ho1, _, _, _⟩ := he c1 d1 hd1
  have hphi1 : y1.isPhi = false := by
    simp [MDefinition.isPhi, ho1, hc1]
  have hslots := addPredecessorSlots_one b.graph.table.length 1 0 c1 c2 pre post g2.defs y1
    hc12 hy1 hphi1
  have hadd := addPredecessor_spec g2 b.graph.table.length cur joinBlock f' hj2 hf'
  have hjs : joinBlock.slots = pre ++ c1 :: post := hst
  have hjp : joinBlock.predecessors.length = 1 := rfl
  rw [hjs, hf'slots, hsf, hjp, hslots] at hadd
  simp only at hadd
  obtain ⟨gJ, hgJ, hgJdef⟩ : ∃ gJ, addPredecessor g2 b.graph.table.length cur = some gJ ∧
      gJ = modifyBlock
        { g2 with defs := g2.defs ++
            [{ newPhi (0 + pre.length) (List.replicate 1 c1 ++ [c2]) with
                block := some b.graph.table.length }] }
        b.graph.table.length fun y =>
          { y with slots := pre ++ g2.defs.length :: post, phis := y.phis ++ [g2.defs.length],
                   predecessors := y.predecessors ++ [cur] } := ⟨_, hadd, rfl⟩
  have hblockJ : gJ.block b.graph.table.length =
      some { joinBlock with slots := pre ++ g2.defs.length :: post, phis := [g2.defs.length],
                            predecessors := [ifTrue, cur] } := by
    rw [hgJdef, block_modify_bld]
    rw [show MIRGraph.block { g2 with defs := g2.defs ++
        [{ newPhi (0 + pre.length) (List.replicate 1 c1 ++ [c2]) with
            block := some b.graph.table.length }] } b.graph.table.length = some joinBlock from hj2]
    simp [joinBlock]
  have hlenJ : gJ.table.length = b.graph.table.length + 1 := by
    rw [hgJdef]
    simp [modifyBlock, g2, g1, table_endWithGoto, g0]
  have hshapeJ : shape gJ g2.defs.length = some (Opcode.Phi, [c1, c2]) := by
    rw [hgJdef]
    simp [shape, MIRGraph.definition, modifyBlock, newPhi]
  simp only [g2, g1] at hgJ
  refine ⟨{ setBack b { state with ifFalse := b.current } with
      graph := gJ, current := some b.graph.table.length, pc := state.falseEnd },
    g2.defs.length, ?_, rfl, hlenJ, ?_, ?_, hshapeJ, ?_⟩
  · simp only [processIfElseFalseEnd, hstate, Option.isSome_some, if_true, newBlock, setBack,
      hnew, hcur, hgJ, hblockJ]
  · simp only [predecessorsOf, hblockJ, Option.map_some']
  · simp only [hblockJ, Option.map_some']
  · simp only [stack, hblockJ, Option.map_some']

end Builder

namespace Builder

/-- The diamond of `diamondScript`: at the end of the false branch the
hypotheses of C22 hold, the join 3 gets the predecessors 1 and 2 and the one
Phi 9 of the constants 5 and 6, and the whole traversal returns `true` with
that join block. -/
theorem processIfElseFalseEnd_joins_diamond_witness :
    diamondFalseEnd.current = some 2 ∧
    diamondFalseEnd.cfgStack =
      [{ state := .IF_ELSE_FALSE, stopAt := 24, falseEnd := 24, ifFalse := some 2,
         ifTrue := some 1 }] ∧
    (∃ b' phi,
      processIfElseFalseEnd diamondFalseEnd
        { state := .IF_ELSE_FALSE, stopAt := 24, falseEnd := 24, ifFalse := some 2,
          ifTrue := some 1 } = .ok (.Joined, b') ∧
      predecessorsOf b'.graph 3 = some [1, 2] ∧
      (b'.graph.block 3).map (fun x => x.phis) = some [phi] ∧
      shape b'.graph phi = some (Opcode.Phi, [5, 6])) ∧
    (traverseBytecode noHandlers diamondScript 30 entryBuilder).map
      (fun r => (r.1, r.2.graph.table.length, predecessorsOf r.2.graph 3,
        (r.2.graph.block 3).map (fun x => x.phis), shape r.2.graph 9)) =
      .ok (true, 4, some [1, 2], some [9], some (Opcode.Phi, [5, 6])) := by
  refine ⟨rfl, rfl, ?_, rfl⟩
  obtain ⟨b', phi, h1, _, _, h4, h5, h6, _⟩ :=
    processIfElseFalseEnd_joins_diamond diamondFalseEnd
      { state := .IF_ELSE_FALSE, stopAt := 24, falseEnd := 24, ifFalse := some 2,
        ifTrue := some 1 }
      1 2 5 6
      { pc := 8, predecessors := [0], slots := [0, 1, 2, 5], instructions := [5] }
      { pc := 18, predecessors := [0], slots := [0, 1, 2, 6], instructions := [6] }
      [0, 1, 2] []
      { op := .Constant (.Int32 1), type := .Int32, block := some 1 }
      { op := .Constant (.Int32 2), type := .Int32, block := some 2 }
      rfl rfl rfl rfl (by decide) rfl rfl rfl rfl rfl rfl
  exact ⟨b', phi, h1, h4, h5, h6⟩

end Builder

namespace Builder

/-! ## The catch block of the breaks of a loop -/

theorem block_of_lt (g : MIRGraph) (x : Nat) (h : x < g.table.length) :
    ∃ y, g.block x = some y :=
  ⟨g.table[x], List.getElem?_eq_getElem h⟩

theorem lt_of_block (g : MIRGraph) (x : Nat) (y : MBasicBlock) (h : g.block x = some y) :
    x < g.table.length :=
  (List.getElem?_eq_some.mp h).1

theorem predecessorsOf_endWithGoto (g : MIRGraph) (blk target x : Nat) :
    predecessorsOf (endWithGoto g blk target) x = predecessorsOf g x := by
  simp only [predecessorsOf, block_endWithGoto]
  cases g.block x with
  | none => rfl
  | some y =>
    simp only [Option.map_some']
    split_ifs <;> rfl

theorem setBackedge_table (g : MIRGraph) (header pred : Nat) (hh : header < g.table.length)
    (hp : pred < g.table.length) :
    ∃ g', setBackedge g header pred = some g' ∧ g'.table.length = g.table.length := by
  obtain ⟨h, hh'⟩ := block_of_lt g header hh
  obtain ⟨p, hp'⟩ := block_of_lt g pred hp
  simp only [setBackedge, hh', hp']
  exact ⟨_, rfl, by simp [modifyBlock]⟩

theorem inheritPhis_table (g : MIRGraph) (blk header : Nat) (hh : header < g.table.length) :
    ∃ g', inheritPhis g blk header = some g' ∧ g'.table.length = g.table.length := by
  obtain ⟨h, hh'⟩ := block_of_lt g header hh
  simp only [inheritPhis, hh']
  exact ⟨_, rfl, by simp [modifyBlock]⟩

theorem inheritPhisEdges_table (header : Nat) :
    ∀ (edges : List Nat) (g : MIRGraph), header < g.table.length →
      ∃ g', inheritPhisEdges header edges g = some g' ∧ g'.table.length = g.table.length
  | [], g, _ => ⟨g, rfl, rfl⟩
  | edge :: rest, g, hh => by
    obtain ⟨g1, h1, hl1⟩ := inheritPhis_table g edge header hh
    obtain ⟨g2, h2, hl2⟩ := inheritPhisEdges_table header rest g1 (by omega)
    exact ⟨g2, by simp only [inheritPhisEdges, h1, h2], by omega⟩

theorem createBreakCatchBlock_two (b : IonBuilder) (e1 e2 pc : Nat)
    (h1 : e1 < b.graph.table.length) (h2 : e2 < b.graph.table.length) :
    ∃ b', createBreakCatchBlock b [e2, e1] pc = some (b.graph.table.length, b') ∧
      b'.graph.table.length = b.graph.table.length + 1 ∧
      predecessorsOf b'.graph b.graph.table.length = some [e2, e1] ∧
      b'.loopDepth = b.loopDepth := by
  obtain ⟨x2, hx2⟩ := block_of_lt b.graph e2 h2
  let catchBlock : MBasicBlock :=
    { pc := pc, predecessors := [e2], slots := x2.slots, loopDepth := b.loopDepth }
  let g0 : MIRGraph :=
    { b.graph with table := b.graph.table ++ [catchBlock],
                   blocks := b.graph.blocks ++ [b.graph.table.length] }
  have hnew : newBlock b (some e2) pc = some (b.graph.table.length, { b with graph := g0 }) := by
    simp only [newBlock, newBlockAt, hx2]
  have hg0 : g0.block b.graph.table.length = some catchBlock := by
    simp [g0, MIRGraph.block]
  have hl0 : g0.table.length = b.graph.table.length + 1 := by
    simp [g0]
  let g2 := endWithGoto (endWithGoto g0 e2 b.graph.table.length) e1 b.graph.table.length
  have hl2 : g2.table.length = b.graph.table.length + 1 := by
    simp only [g2, table_endWithGoto, hl0]
  have hp2 : predecessorsOf g2 b.graph.table.length = some [e2] := by
    rw [show g2 = endWithGoto (endWithGoto g0 e2 b.graph.table.length) e1 b.graph.table.length
      from rfl, predecessorsOf_endWithGoto, predecessorsOf_endWithGoto]
    simp [predecessorsOf, hg0, catchBlock]
  obtain ⟨c, hc⟩ := block_of_lt g2 b.graph.table.length (by omega)
  obtain ⟨x1, hx1⟩ := block_of_lt g2 e1 (by omega)
  have hcp : c.predecessors = [e2] := by
    simp only [predecessorsOf, hc, Option.map_some', Option.some.injEq] at hp2
    exact hp2
  obtain ⟨g3, hadd, hl3, hp3, _⟩ := addPredecessor_preds g2 b.graph.table.length e1 c x1 hc hx1
  refine ⟨{ b with graph := g3 }, ?_, by simp only [hl3, hl2], ?_, rfl⟩
  · simp only [createBreakCatchBlock, hnew, List.foldl]
    simp only [g2] at hadd
    simp only [hadd]
  · rw [hp3, hcp]
    rfl

end Builder

namespace Builder

/-- C23, amended: for a loop with two breaks, in the blocks `e1` and `e2`,
`createBreakCatchBlock` creates one catch block whose predecessors are exactly
the two blocks of the breaks, and `finishLoop` returns with this block as the
current block after it has added the successor block of the loop, if the loop
has one, as a further predecessor: the catch block of a loop with a successor,
as every `while` loop has, ends with three predecessors. -/
theorem finishLoop_catch_block_predecessors (b : IonBuilder) (state : CFGState)
    (cur entry e1 e2 : Nat) (successor : Option Nat)
    (hcur : b.current = some cur) (hentry : state.entry = some entry)
    (hbreaks : state.breaks = [e2, e1])
    (hc : cur < b.graph.table.length) (he : entry < b.graph.table.length)
    (h1 : e1 < b.graph.table.length) (h2 : e2 < b.graph.table.length)
    (hs : ∀ s, successor = some s → s < b.graph.table.length) :
    (∃ b1, createBreakCatchBlock b [e2, e1] state.exitpc = some (b.graph.table.length, b1) ∧
      predecessorsOf b1.graph b.graph.table.length = some [e2, e1]) ∧
    ∃ b', finishLoop b state successor = .ok (.Joined, b') ∧
      b'.current = some b.graph.table.length ∧
      b'.graph.table.length = b.graph.table.length + 1 ∧
      predecessorsOf b'.graph b.graph.table.length = some ([e2, e1] ++ successor.toList) := by
  constructor
  · obtain ⟨b1, hb1, _, hp1, _⟩ := createBreakCatchBlock_two b e1 e2 state.exitpc h1 h2
    exact ⟨b1, hb1, hp1⟩
  · obtain ⟨g1, hg1, hl1⟩ := setBackedge_table b.graph entry cur he hc
    have hmoved : ∃ g2,
        (match successor with
          | some s => inheritPhis (moveBlockToEnd g1 s) s entry
          | none => some g1) = some g2 ∧ g2.table.length = b.graph.table.length := by
      cases successor with
      | none => exact ⟨g1, rfl, hl1⟩
      | some s =>
        obtain ⟨g2, hg2, hl2⟩ := inheritPhis_table (moveBlockToEnd g1 s) s entry
          (by simp only [moveBlockToEnd]; omega)
        exact ⟨g2, hg2, by rw [hl2]; simp only [moveBlockToEnd]; exact hl1⟩
    obtain ⟨g2, hg2, hl2⟩ := hmoved
    obtain ⟨g3, hg3, hl3⟩ := inheritPhisEdges_table entry [e2, e1] g2 (by omega)
    obtain ⟨b1, hb1, hbl1, hp1, _⟩ :=
      createBreakCatchBlock_two { b with loopDepth := b.loopDepth - 1, graph := g3 } e1 e2
        state.exitpc (by show e1 < g3.table.length; omega) (by show e2 < g3.table.length; omega)
    have hlen3 : g3.table.length = b.graph.table.length := by omega
    simp only [hlen3, hcur] at hb1 hbl1 hp1
    have hne : state.breaks ≠ [] := by
      rw [hbreaks]
      simp
    cases successor with
    | none =>
      obtain ⟨blk, hblk⟩ := block_of_lt b1.graph b.graph.table.length (by omega)
      refine ⟨{ b1 with current := some b.graph.table.length, pc := blk.pc }, ?_, rfl, hbl1, ?_⟩
      · simp only [finishLoop, hcur, hentry, hg1, hne, ne_eq, not_false_eq_true, if_true]
        simp only at hg2
        cases hg2
        rw [hbreaks]
        simp only [hg3, hb1, hblk]
      · simpa using hp1
    | some s =>
      have hslt := hs s rfl
      have hpre : predecessorsOf (endWithGoto b1.graph s b.graph.table.length)
          b.graph.table.length = some [e2, e1] := by
        rw [predecessorsOf_endWithGoto]
        exact hp1
      obtain ⟨c, hcb⟩ := block_of_lt (endWithGoto b1.graph s b.graph.table.length)
        b.graph.table.length (by rw [table_endWithGoto]; omega)
      obtain ⟨x, hx⟩ := block_of_lt (endWithGoto b1.graph s b.graph.table.length) s
        (by rw [table_endWithGoto]; omega)
      have hcp : c.predecessors = [e2, e1] := by
        simp only [predecessorsOf, hcb, Option.map_some', Option.some.injEq] at hpre
        exact hpre
      obtain ⟨g4, hadd, hl4, hp4, _⟩ := addPredecessor_preds _ b.graph.table.length s c x hcb hx
      obtain ⟨blk, hblk⟩ := block_of_lt g4 b.graph.table.length
        (by rw [hl4, table_endWithGoto]; omega)
      refine ⟨{ b1 with graph := g4, current := some b.graph.table.length, pc := blk.pc },
        ?_, rfl, ?_, ?_⟩
      · simp only [finishLoop, hcur, hentry, hg1, hne, ne_eq, not_false_eq_true, if_true]
        simp only at hg2
        rw [hg2]
        rw [hbreaks]
        simp only [hg3, hb1, hadd, hblk]
      · show g4.table.length = _
        rw [hl4, table_endWithGoto, hbl1]
      · show predecessorsOf g4 _ = _
        rw [hp4, hcp]
        rfl

/-- The `while` loop with two breaks of `whileScript`: the catch block 8 of
the breaks, at the exit address 39, has three predecessors, the blocks 6 and 4
of the breaks and the successor block 3 of the loop. -/
theorem finishLoop_catch_block_counterexample :
    (traverseBytecode noHandlers whileScript 40 entryBuilder).map
      (fun r => (r.1, (r.2.graph.block 8).map (fun x => (x.pc, x.predecessors)),
        (predecessorsOf r.2.graph 8).map List.length,
        r.2.graph.table.map (fun x => x.pc))) =
      .ok (true, some (39, [6, 4, 3]), some 3, [0, 0, 6, 39, 14, 19, 27, 30, 39]) :=
  rfl

end Builder

namespace Builder

/-- The loop of `whileScript` at the end of its body: the breaks are in the
blocks 4 and 6, the successor of the loop is the block 3, and `finishLoop`
continues in the catch block 8 with the predecessors 6, 4 and 3. -/
theorem finishLoop_catch_block_predecessors_witness :
    whileBodyEnd.current = some 7 ∧
    whileBodyEnd.cfgStack =
      [{ state := .WHILE_LOOP_BODY, stopAt := 30, entry := some 1, bodyStart := 6,
         bodyEnd := 30, exitpc := 39, successor := some 3, breaks := [6, 4] }] ∧
    whileBodyEnd.graph.table.length = 8 ∧
    ∃ b', finishLoop whileBodyEnd
        { state := .WHILE_LOOP_BODY, stopAt := 30, entry := some 1, bodyStart := 6,
          bodyEnd := 30, exitpc := 39, successor := some 3, breaks := [6, 4] } (some 3) =
        .ok (.Joined, b') ∧
      b'.current = some 8 ∧ predecessorsOf b'.graph 8 = some [6, 4, 3] := by
  refine ⟨rfl, rfl, rfl, ?_⟩
  obtain ⟨b', h1, h2, _, h4⟩ :=
    (finishLoop_catch_block_predecessors whileBodyEnd
      { state := .WHILE_LOOP_BODY, stopAt := 30, entry := some 1, bodyStart := 6,
        bodyEnd := 30, exitpc := 39, successor := some 3, breaks := [6, 4] }
      7 1 4 6 (some 3) rfl rfl rfl (by decide) (by decide) (by decide) (by decide)
      (by intro s h; cases h; decide)).2
  exact ⟨b', h1, h2, h4⟩

end Builder

/-! ## Overflow in TryEliminateBoundsCheck -/

theorem TryEliminateBoundsCheck_false_unchanged (g g' : MIRGraph) (A B : Nat) (eliminated : Bool)
    (h : TryEliminateBoundsCheck g A B = some (false, eliminated, g')) : g' = g := by
  unfold TryEliminateBoundsCheck at h
  split at h
  · split_ifs at h
    · simp at h
    · split at h
      · split_ifs at h
        · simp at h
        · split at h
          · split at h
            · simp at h
            · simp only [Option.some.injEq, Prod.mk.injEq] at h
              exact h.2.2.symm
          · simp only [Option.some.injEq, Prod.mk.injEq] at h
            exact h.2.2.symm
      · simp at h
  · simp at h

theorem visitDefinition_false (addr : Nat → Nat) (index : Nat) (s s' : BoundsCheckState)
    (d : Nat) (h : visitDefinition addr index s d = some (false, s')) :
    ∃ idx, boundsCheckIndex s.graph d = some idx ∧
      s'.graph = replaceAllUsesWith s.graph d idx ∧ s'.eliminations = s.eliminations := by
  unfold visitDefinition at h
  cases hd : s.graph.definition d with
  | none => simp [hd] at h
  | some def_ =>
    simp only [hd] at h
    by_cases h1 : (!def_.isBoundsCheck) = true
    · rw [if_pos h1] at h
      simp at h
    · rw [if_neg h1] at h
      cases hi : boundsCheckIndex s.graph d with
      | none => simp [hi] at h
      | some idx =>
        simp only [hi] at h
        by_cases h2 : (!def_.movable) = true
        · rw [if_pos h2] at h
          simp at h
        · rw [if_neg h2] at h
          cases hf : FindDominatingBoundsCheck addr (replaceAllUsesWith s.graph d idx) s.checks d
              index with
          | none => simp [hf] at h
          | some r =>
            obtain ⟨dominating, checks⟩ := r
            simp only [hf] at h
            by_cases h3 : dominating = d
            · rw [if_pos h3] at h
              simp at h
            · rw [if_neg h3] at h
              cases ht : TryEliminateBoundsCheck (replaceAllUsesWith s.graph d idx) dominating d with
              | none => simp [ht] at h
              | some r =>
                obtain ⟨ok, eliminated, g2⟩ := r
                cases ok with
                | true => cases eliminated <;> simp [ht] at h
                | false =>
                  have hg2 := TryEliminateBoundsCheck_false_unchanged _ _ _ _ _ ht
                  simp only [ht, Option.some.injEq, Prod.mk.injEq, true_and] at h
                  subst h
                  exact ⟨idx, rfl, hg2, rfl⟩

/-- C38: if an addition or subtraction of `TryEliminateBoundsCheck` overflows,
that is if the four `SafeAdd`s and two `SafeSub`s do not all succeed, it
returns `false` and leaves the graph, and so the range of the dominating
check, as it is.  A step of `EliminateRedundantBoundsChecks` that returns
`false` leaves the graph as it was after the uses of the visited check were
replaced, with every block list unchanged, so that the dominated check is not
discarded, and the loops of the pass return `false` at once. -/
theorem TryEliminateBoundsCheck_overflow (g : MIRGraph) (A B length indexA indexB : Nat)
    (sumA sumB : LinearSum) (minA maxA minB maxB : Int)
    (hlA : boundsCheckLength g A = some length) (hlB : boundsCheckLength g B = some length)
    (hiA : boundsCheckIndex g A = some indexA) (hiB : boundsCheckIndex g B = some indexB)
    (hsA : ExtractLinearSum g.sumFuel g indexA = some sumA)
    (hsB : ExtractLinearSum g.sumFuel g indexB = some sumB)
    (hterm : sumA.term = sumB.term)
    (hrA : boundsCheckRange g A = some (minA, maxA))
    (hrB : boundsCheckRange g B = some (minB, maxB))
    (hover : ¬ ∃ a b c d e f, SafeAdd sumA.constant minA = some a ∧
      SafeAdd sumA.constant maxA = some b ∧ SafeAdd sumB.constant minB = some c ∧
      SafeAdd sumB.constant maxB = some d ∧ SafeSub (min a c) sumA.constant = some e ∧
      SafeSub (max b d) sumA.constant = some f) :
    TryEliminateBoundsCheck g A B = some (false, true, g) ∧
    (∀ addr index s s' d, visitDefinition addr index s d = some (false, s') →
      (∃ idx, boundsCheckIndex s.graph d = some idx ∧
        s'.graph = replaceAllUsesWith s.graph d idx) ∧
      s'.graph.blocks = s.graph.blocks ∧ s'.eliminations = s.eliminations) ∧
    (∀ addr index s s' d ds, visitDefinition addr index s d = some (false, s') →
      visitDefinitions addr index (d :: ds) s = some (false, s')) ∧
    (∀ addr fuel s s' w ws index blk,
      s.graph.block ((w :: ws).getLast (List.cons_ne_nil w ws)) = some blk →
      visitBlock addr index s ((w :: ws).getLast (List.cons_ne_nil w ws)) = some (false, s') →
      boundsCheckLoop addr (fuel + 1) s (w :: ws) index = some (false, s')) := by
  refine ⟨?_, ?_, ?_, ?_⟩
  · unfold TryEliminateBoundsCheck
    simp only [hlA, hlB, hiA, hiB, hsA, hsB, hrA, hrB, ne_eq, not_true_eq_false, if_false, hterm]
    cases h1 : SafeAdd sumA.constant minA with
    | none => rfl
    | some a =>
      cases h2 : SafeAdd sumA.constant maxA with
      | none => rfl
      | some b =>
        cases h3 : SafeAdd sumB.constant minB with
        | none => rfl
        | some c =>
          cases h4 : SafeAdd sumB.constant maxB with
          | none => rfl
          | some d =>
            simp only
            cases h5 : SafeSub (min a c) sumA.constant with
            | none => rfl
            | some e =>
              cases h6 : SafeSub (max b d) sumA.constant with
              | none => rfl
              | some f => exact absurd ⟨a, b, c, d, e, f, h1, h2, h3, h4, h5, h6⟩ hover
  · intro addr index s s' d h
    obtain ⟨idx, hi, hg, he⟩ := visitDefinition_false addr index s s' d h
    exact ⟨⟨idx, hi, hg⟩, by rw [hg]; rfl, he⟩
  · intro addr index s s' d ds h
    simp only [visitDefinitions, h]
  · intro addr fuel s s' w ws index blk hb hv
    simp only [boundsCheckLoop, hb, hv]

/-- The overflow of `overflowChecksGraph`: `TryEliminateBoundsCheck` returns
`false` with the graph unchanged, and the pass returns `false` with both
checks still in the block. -/
theorem TryEliminateBoundsCheck_overflow_witness :
    SafeAdd 2147483647 1 = none ∧
    TryEliminateBoundsCheck overflowChecksGraph 4 5 = some (false, true, overflowChecksGraph) ∧
    (EliminateRedundantBoundsChecks id 2 overflowChecksGraph).map
      (fun r => (r.1, r.2.blocks.map fun b => b.instructions)) =
      some (false, [[0, 1, 2, 3, 4, 5, 6]]) :=
  ⟨by decide,
   (TryEliminateBoundsCheck_overflow overflowChecksGraph 4 5 1 3 3 ⟨some 0, 2147483647⟩
      ⟨some 0, 2147483647⟩ 0 1 0 1 (by decide) (by decide) (by decide) (by decide) (by decide)
      (by decide) rfl (by decide) (by decide)
      (by
        rintro ⟨a, b, c, d, e, f, _, h2, _⟩
        have hnone : SafeAdd 2147483647 1 = none := by decide
        rw [show SafeAdd (LinearSum.mk (some 0) 2147483647).constant 1 = SafeAdd 2147483647 1
          from rfl, hnone] at h2
        cases h2)).1,
   by decide⟩

/-! ## EliminateDeadCode: dead chains -/

theorem shrinks_refl (g : MIRGraph) : Shrinks g g :=
  ⟨rfl, rfl, rfl, fun _ => List.Sublist.refl _, fun _ => List.Sublist.refl _⟩

theorem shrinks_trans {a b c : MIRGraph} (h1 : Shrinks a b) (h2 : Shrinks b c) : Shrinks a c :=
  ⟨h2.defs.trans h1.defs, h2.resumePoints.trans h1.resumePoints, h2.length.trans h1.length,
    fun x => (h2.phis x).trans (h1.phis x), fun x => (h2.sub x).trans (h1.sub x)⟩

theorem phisOf_discardDef (g : MIRGraph) (c x b : Nat) :
    phisOf (discardDef g c x) b =
      if c = b then (phisOf g b).erase x else phisOf g b := by
  unfold phisOf
  rw [block_discardDef]
  cases g.block b with
  | none => simp
  | some blk =>
    simp only [Option.map_some']
    split_ifs <;> rfl

theorem shrinks_discardDef (g : MIRGraph) (b x : Nat) : Shrinks g (discardDef g b x) := by
  refine ⟨rfl, rfl, by simp [discardDef], ?_, ?_⟩
  · intro c
    rw [phisOf_discardDef]
    split_ifs
    · exact List.erase_sublist _ _
    · exact List.Sublist.refl _
  · intro c
    rw [instructionsOf_discardDef]
    split_ifs
    · exact List.erase_sublist _ _
    · exact List.Sublist.refl _

theorem mem_definitionsOf_iff (g : MIRGraph) (b i : Nat) :
    i ∈ definitionsOf g b ↔ i ∈ phisOf g b ∨ i ∈ instructionsOf g b := by
  unfold definitionsOf phisOf instructionsOf
  cases g.block b with
  | none => simp
  | some blk => simp

theorem shrinks_inGraph {T g : MIRGraph} (h : Shrinks T g) (i : Nat)
    (hi : g.inGraph i = true) : T.inGraph i = true := by
  obtain ⟨b, hb⟩ := (mem_definitionsOf_of_inGraph g i).mp hi
  refine (mem_definitionsOf_of_inGraph T i).mpr ⟨b, ?_⟩
  rw [mem_definitionsOf_iff] at hb ⊢
  rcases hb with hb | hb
  · exact Or.inl ((h.phis b).subset hb)
  · exact Or.inr ((h.sub b).subset hb)

theorem shrinks_hasUses {T g : MIRGraph} (h : Shrinks T g) (i : Nat)
    (hi : hasUses g i = true) : hasUses T i = true := by
  rw [hasUses_iff] at hi ⊢
  rcases hi with ⟨k, y, hy, hin, hd⟩ | ⟨rp, hrp, hd⟩
  · refine Or.inl ⟨k, y, ?_, shrinks_inGraph h k hin, hd⟩
    simp only [MIRGraph.definition] at hy ⊢
    rw [← h.defs]
    exact hy
  · exact Or.inr ⟨rp, h.resumePoints ▸ hrp, hd⟩

theorem shrinks_eliminateDead {g g' : MIRGraph} {b x : Nat}
    (h : eliminateDead g b x = some g') : Shrinks g g' := by
  rcases eliminateDead_cases g g' b x h with ⟨rfl, _⟩ | ⟨rfl, _⟩
  · exact shrinks_refl _
  · exact shrinks_discardDef _ _ _

theorem shrinks_eliminateDeadInstructions (b : Nat) (todo : List Nat) (g g' : MIRGraph)
    (h : eliminateDeadInstructions b todo g = some g') : Shrinks g g' := by
  induction todo generalizing g with
  | nil =>
    simp only [eliminateDeadInstructions, Option.some.injEq] at h
    subst h
    exact shrinks_refl _
  | cons x rest ih =>
    simp only [eliminateDeadInstructions] at h
    cases h1 : eliminateDead g b x with
    | none => simp [h1] at h
    | some g1 =>
      rw [h1] at h
      exact shrinks_trans (shrinks_eliminateDead h1) (ih g1 h)

theorem shrinks_eliminateDeadBlocks (bs : List Nat) (g g' : MIRGraph)
    (h : eliminateDeadBlocks bs g = some g') : Shrinks g g' := by
  induction bs generalizing g with
  | nil =>
    simp only [eliminateDeadBlocks, Option.some.injEq] at h
    subst h
    exact shrinks_refl _
  | cons b rest ih =>
    simp only [eliminateDeadBlocks] at h
    cases hb : g.block b with
    | none => simp [hb] at h
    | some blk =>
      simp only [hb] at h
      cases h1 : eliminateDeadInstructions b blk.instructions.reverse g with
      | none => simp [h1] at h
      | some g1 =>
        rw [h1] at h
        exact shrinks_trans (shrinks_eliminateDeadInstructions _ _ _ _ h1) (ih g1 h)

theorem eliminateDeadInstructions_append (b : Nat) (l1 l2 : List Nat) (g : MIRGraph) :
    eliminateDeadInstructions b (l1 ++ l2) g =
      (eliminateDeadInstructions b l1 g).bind (eliminateDeadInstructions b l2) := by
  induction l1 generalizing g with
  | nil => rfl
  | cons x rest ih =>
    simp only [List.cons_append, eliminateDeadInstructions]
    cases eliminateDead g b x with
    | none => rfl
    | some g1 => exact ih g1

theorem eliminateDeadBlocks_append (l1 l2 : List Nat) (g : MIRGraph) :
    eliminateDeadBlocks (l1 ++ l2) g =
      (eliminateDeadBlocks l1 g).bind (eliminateDeadBlocks l2) := by
  induction l1 generalizing g with
  | nil => rfl
  | cons x rest ih =>
    simp only [List.cons_append, eliminateDeadBlocks]
    cases g.block x with
    | none => rfl
    | some blk =>
      simp only
      cases eliminateDeadInstructions x blk.instructions.reverse g with
      | none => rfl
      | some g1 => exact ih g1

/-- An instruction that the test of `EliminateDeadCode` discards in every
graph that the pass can come to is gone after the loop over the instructions
of its block visited it. -/
theorem eliminateDeadInstructions_visit (b x : Nat) (todo : List Nat) (g g' : MIRGraph)
    (h : eliminateDeadInstructions b todo g = some g') (hx : x ∈ todo)
    (hnd : (instructionsOf g b).Nodup)
    (hdead : ∀ g'', Shrinks g g'' → ¬ Live g'' x) : x ∉ instructionsOf g' b := by
  induction todo generalizing g with
  | nil => simp at hx
  | cons y rest ih =>
    simp only [eliminateDeadInstructions] at h
    cases h1 : eliminateDead g b y with
    | none => simp [h1] at h
    | some g1 =>
      rw [h1] at h
      have hs1 := shrinks_eliminateDead h1
      have hs2 := shrinks_eliminateDeadInstructions _ _ _ _ h
      by_cases hxy : x = y
      · subst hxy
        rcases eliminateDead_cases g g1 b x h1 with ⟨_, hl⟩ | ⟨rfl, _⟩
        · exact absurd hl (hdead g (shrinks_refl g))
        · intro hmem
          have := (hs2.sub b).subset hmem
          rw [instructionsOf_discardDef, if_pos rfl] at this
          exact (List.Nodup.mem_erase_iff hnd).mp this |>.1 rfl
      · have hx' : x ∈ rest := by
          rcases List.mem_cons.mp hx with hx | hx
          · exact absurd hx hxy
          · exact hx
        exact ih g1 h hx' ((hs1.sub b).nodup hnd) fun g'' hg'' => hdead g'' (shrinks_trans hs1 hg'')

theorem eliminateDeadBlocks_visit (bx x : Nat) (bs : List Nat) (g g' : MIRGraph)
    (h : eliminateDeadBlocks bs g = some g') (hb : bx ∈ bs)
    (hnd : (instructionsOf g bx).Nodup)
    (hdead : ∀ g'', Shrinks g g'' → ¬ Live g'' x) : x ∉ instructionsOf g' bx := by
  induction bs generalizing g with
  | nil => simp at hb
  | cons b rest ih =>
    simp only [eliminateDeadBlocks] at h
    cases hblk : g.block b with
    | none => simp [hblk] at h
    | some blk =>
      simp only [hblk] at h
      cases h1 : eliminateDeadInstructions b blk.instructions.reverse g with
      | none => simp [h1] at h
      | some g1 =>
        rw [h1] at h
        have hs1 := shrinks_eliminateDeadInstructions _ _ _ _ h1
        have hs2 := shrinks_eliminateDeadBlocks _ _ _ h
        by_cases hmem : x ∈ instructionsOf g1 bx
        · by_cases hbb : bx = b
          · subst hbb
            have hxin : x ∈ blk.instructions.reverse := by
              have := (hs1.sub bx).subset hmem
              simpa [instructionsOf, hblk] using this
            exact absurd hmem (eliminateDeadInstructions_visit bx x _ g g1 h1 hxin hnd hdead)
          · have hb' : bx ∈ rest := by
              rcases List.mem_cons.mp hb with hb | hb
              · exact absurd hb hbb
              · exact hb
            exact ih g1 h hb' ((hs1.sub bx).nodup hnd) fun g'' hg'' =>
              hdead g'' (shrinks_trans hs1 hg'')
        · exact fun hmem2 => hmem ((hs2.sub bx).subset hmem2)

theorem eliminateDeadInstructions_total (b : Nat) (todo : List Nat) (g : MIRGraph)
    (h : ∀ x ∈ todo, x < g.defs.length) : ∃ g', eliminateDeadInstructions b todo g = some g' := by
  induction todo generalizing g with
  | nil => exact ⟨g, rfl⟩
  | cons x rest ih =>
    obtain ⟨g1, h1⟩ := eliminateDead_total g b x (h x (List.mem_cons_self _ _))
    simp only [eliminateDeadInstructions, h1]
    refine ih g1 fun y hy => ?_
    rw [(shrinks_eliminateDead h1).defs]
    exact h y (List.mem_cons_of_mem _ hy)

theorem eliminateDeadBlocks_total (bs : List Nat) (g : MIRGraph)
    (hb : ∀ b ∈ bs, b < g.blocks.length)
    (h : ∀ b, ∀ x ∈ instructionsOf g b, x < g.defs.length) :
    ∃ g', eliminateDeadBlocks bs g = some g' := by
  induction bs generalizing g with
  | nil => exact ⟨g, rfl⟩
  | cons b rest ih =>
    have hlt := hb b (List.mem_cons_self _ _)
    have hblk : g.block b = some (g.blocks[b]) := by
      simp [MIRGraph.block, List.getElem?_eq_getElem hlt]
    obtain ⟨g1, h1⟩ := eliminateDeadInstructions_total b (g.blocks[b]).instructions.reverse g
      (fun x hx => h b x (by simpa [instructionsOf, hblk] using hx))
    have hs := shrinks_eliminateDeadInstructions _ _ _ _ h1
    simp only [eliminateDeadBlocks, hblk, h1]
    refine ih g1 (fun c hc => ?_) (fun c x hx => ?_)
    · rw [hs.length]
      exact hb c (List.mem_cons_of_mem _ hc)
    · rw [hs.defs]
      exact h c x ((hs.sub c).subset hx)

theorem postorder_split (n b : Nat) (hb : b < n) :
    (List.range n).reverse =
      ((List.range (n - (b + 1))).map fun i => b + 1 + i).reverse ++
        b :: (List.range b).reverse := by
  have hn : n = b + 1 + (n - (b + 1)) := by omega
  conv_lhs => rw [hn, List.range_add, List.reverse_append, List.range_succ]
  simp

/-- The instruction `B` is not kept once the pass discarded instructions of the
graph `g` in which `B` has no uses. -/
theorem dead_of_no_uses {g : MIRGraph} {B : Nat} {dB : MDefinition}
    (hdB : g.definition B = some dB)
    (hfB : dB.effectful = false ∧ dB.guard = false ∧ dB.controlInstruction = false)
    (huseB : hasUses g B = false) (g'' : MIRGraph) (hs : Shrinks g g'') : ¬ Live g'' B := by
  rintro ⟨d, hd, hl⟩
  have : d = dB := by
    simp only [MIRGraph.definition] at hd hdB
    rw [hs.defs, hdB] at hd
    exact (Option.some.inj hd).symm
  subst this
  rcases hl with hl | hl | hl | hl
  · rw [hfB.1] at hl; exact absurd hl (by decide)
  · rw [hfB.2.1] at hl; exact absurd hl (by decide)
  · rw [hfB.2.2] at hl; exact absurd hl (by decide)
  · rw [shrinks_hasUses hs B hl] at huseB; exact absurd huseB (by decide)

/-- The instruction `A`, whose only use is `B`, is not kept once `B` is gone. -/
theorem dead_of_user_gone {g gm : MIRGraph} {A B bB : Nat} {dA : MDefinition}
    (hdA : g.definition A = some dA)
    (hfA : dA.effectful = false ∧ dA.guard = false ∧ dA.controlInstruction = false)
    (huseA : ∀ i y, g.definition i = some y → g.inGraph i = true → A ∈ y.operands → i = B)
    (hrpA : ∀ rp ∈ g.resumePoints, A ∉ rp)
    (hBphi : ∀ b, B ∉ phisOf g b) (hBonly : ∀ b, B ∈ instructionsOf g b → b = bB)
    (hgm : Shrinks g gm) (hgone : B ∉ instructionsOf gm bB)
    (g'' : MIRGraph) (hs : Shrinks gm g'') : ¬ Live g'' A := by
  have hs' := shrinks_trans hgm hs
  rintro ⟨d, hd, hl⟩
  have : d = dA := by
    simp only [MIRGraph.definition] at hd hdA
    rw [hs'.defs, hdA] at hd
    exact (Option.some.inj hd).symm
  subst this
  rcases hl with hl | hl | hl | hl
  · rw [hfA.1] at hl; exact absurd hl (by decide)
  · rw [hfA.2.1] at hl; exact absurd hl (by decide)
  · rw [hfA.2.2] at hl; exact absurd hl (by decide)
  · rcases (hasUses_iff g'' A).mp hl with ⟨i, y, hy, hin, hmem⟩ | ⟨rp, hrp, hmem⟩
    · have hy' : g.definition i = some y := by
        simp only [MIRGraph.definition] at hy ⊢
        rw [← hs'.defs]
        exact hy
      have hi : i = B := huseA i y hy' (shrinks_inGraph hs' i hin) hmem
      subst hi
      obtain ⟨b, hb⟩ := (mem_definitionsOf_of_inGraph g'' i).mp hin
      rw [mem_definitionsOf_iff] at hb
      rcases hb with hb | hb
      · exact hBphi b ((hs'.phis b).subset hb)
      · have hbb : b = bB := hBonly b ((hs'.sub b).subset hb)
        subst hbb
        exact hgone ((hs.sub b).subset hb)
    · exact hrpA rp (hs'.resumePoints ▸ hrp) hmem

theorem mem_of_getElem?_take {l : List Nat} {k x : Nat} (h : l[k]? = some x) :
    x ∈ l.take (k + 1) := by
  rw [List.mem_iff_getElem?]
  refine ⟨k, ?_⟩
  rw [List.getElem?_take_of_lt (Nat.lt_succ_self k)]
  exact h

theorem mem_of_getElem?_drop {l : List Nat} {k k' x : Nat} (h : l[k']? = some x) (hk : k < k') :
    x ∈ l.drop (k + 1) := by
  rw [List.mem_iff_getElem?]
  refine ⟨k' - (k + 1), ?_⟩
  rw [List.getElem?_drop]
  have : k + 1 + (k' - (k + 1)) = k' := by omega
  rw [this]
  exact h

theorem phisOf_nil_of_le {g : MIRGraph} {b : Nat} (h : g.blocks.length ≤ b) :
    phisOf g b = [] := by
  simp [phisOf, MIRGraph.block, List.getElem?_eq_none h]

theorem instructionOf_spec {g : MIRGraph} {d block : Nat} (h : instructionOf g d block = true) :
    (∀ b, d ∉ phisOf g b) ∧ ∀ b, d ∈ instructionsOf g b → b = block := by
  simp only [instructionOf, List.all_eq_true, List.mem_range, Bool.and_eq_true,
    Bool.not_eq_true', decide_eq_false_iff_not, Bool.or_eq_true, beq_iff_eq] at h
  constructor
  · intro b hb
    by_cases hlt : b < g.blocks.length
    · exact (h b hlt).1 hb
    · rw [phisOf_nil_of_le (Nat.le_of_not_lt hlt)] at hb
      exact absurd hb (List.not_mem_nil d)
  · intro b hb
    by_cases hlt : b < g.blocks.length
    · rcases (h b hlt).2 with h2 | h2
      · exact absurd hb h2
      · exact h2
    · rw [instructionsOf_nil_of_le (Nat.le_of_not_lt hlt)] at hb
      exact absurd hb (List.not_mem_nil d)

theorem onlyUse_spec {g : MIRGraph} {a b : Nat} (h : onlyUse g a b = true) :
    (∀ i y, g.definition i = some y → g.inGraph i = true → a ∈ y.operands → i = b) ∧
      ∀ rp ∈ g.resumePoints, a ∉ rp := by
  simp only [onlyUse, Bool.and_eq_true, List.all_eq_true, Bool.not_eq_true',
    decide_eq_false_iff_not, Bool.or_eq_true, beq_iff_eq, Prod.forall] at h
  refine ⟨fun i y hy hin hmem => ?_, h.2⟩
  have hmemE : (i, y) ∈ g.defs.enum := by
    rw [List.mem_iff_getElem?]
    refine ⟨i, ?_⟩
    simp only [MIRGraph.definition] at hy
    simp [List.getElem?_enum, hy]
  rcases h.1 i y hmemE with h1 | h1
  · simp [hin, hmem] at h1
  · exact h1

/-- C32: dead chains collapse in one `EliminateDeadCode` pass.  If `B` is the
only use of the instruction `A` (no other definition of the graph and no
resume point has `A` as operand), `B` has no uses, neither of them is
effectful, a guard or a control instruction, and the pass visits `B` before
`A` (`B` is later in the same block, or the block of `B` is later in the block
list, which is earlier in postorder), then one run of the pass returns a graph
that has neither `B` nor `A` in its blocks.  The graph is coherent and `B` is
an instruction of one block. -/
theorem EliminateDeadCode_dead_chain (g : MIRGraph) (A B bA bB kA kB : Nat)
    (dA dB : MDefinition) (hco : instructionsCoherent g = true)
    (hA : (instructionsOf g bA)[kA]? = some A) (hB : (instructionsOf g bB)[kB]? = some B)
    (hBin : instructionOf g B bB = true)
    (hdA : g.definition A = some dA) (hdB : g.definition B = some dB)
    (hfA : dA.effectful = false ∧ dA.guard = false ∧ dA.controlInstruction = false)
    (hfB : dB.effectful = false ∧ dB.guard = false ∧ dB.controlInstruction = false)
    (honly : onlyUse g A B = true) (huseB : hasUses g B = false)
    (horder : bA < bB ∨ (bA = bB ∧ kA < kB)) :
    ∃ g', EliminateDeadCode g = .ok g' ∧
      A ∉ instructionsOf g' bA ∧ B ∉ instructionsOf g' bB := by
  obtain ⟨hBphi, hBonly⟩ := instructionOf_spec hBin
  obtain ⟨huseA, hrpA⟩ := onlyUse_spec honly
  have hnd : ∀ b, (instructionsOf g b).Nodup := fun b => (instructionsCoherent_spec hco b).1
  have hlt : ∀ b, ∀ x ∈ instructionsOf g b, x < g.defs.length :=
    fun b => (instructionsCoherent_spec hco b).2
  have hbA : bA < g.blocks.length := by
    by_contra hc
    rw [instructionsOf_nil_of_le (Nat.le_of_not_lt hc)] at hA
    simp at hA
  have hbB : bB < g.blocks.length := by
    by_contra hc
    rw [instructionsOf_nil_of_le (Nat.le_of_not_lt hc)] at hB
    simp at hB
  obtain ⟨g', hg'⟩ := eliminateDeadBlocks_total g.postorder g
    (fun b hb => by simpa [MIRGraph.postorder] using hb) hlt
  have hdeadB := dead_of_no_uses hdB hfB huseB
  refine ⟨g', by simp only [EliminateDeadCode, hg'], ?_,
    eliminateDeadBlocks_visit bB B _ g g' hg' (by simpa [MIRGraph.postorder] using hbB)
      (hnd bB) hdeadB⟩
  simp only [MIRGraph.postorder] at hg'
  rw [postorder_split _ bA hbA, eliminateDeadBlocks_append] at hg'
  cases h1 : eliminateDeadBlocks
      ((List.range (g.blocks.length - (bA + 1))).map fun i => bA + 1 + i).reverse g with
  | none => simp [h1] at hg'
  | some gm =>
    rw [h1] at hg'
    simp only [Option.some_bind] at hg'
    have hs1 := shrinks_eliminateDeadBlocks _ _ _ h1
    rcases horder with hlt' | ⟨heq, hk⟩
    · have hgone : B ∉ instructionsOf gm bB := by
        refine eliminateDeadBlocks_visit bB B _ g gm h1 ?_ (hnd bB) hdeadB
        simp only [List.mem_reverse, List.mem_map, List.mem_range]
        exact ⟨bB - (bA + 1), by omega, by omega⟩
      exact eliminateDeadBlocks_visit bA A _ gm g' hg' (List.mem_cons_self _ _)
        ((hs1.sub bA).nodup (hnd bA))
        (dead_of_user_gone hdA hfA huseA hrpA hBphi hBonly hs1 hgone)
    · subst heq
      simp only [eliminateDeadBlocks] at hg'
      cases hblk : gm.block bA with
      | none => simp [hblk] at hg'
      | some blk =>
        simp only [hblk] at hg'
        have hL : instructionsOf gm bA = blk.instructions := by simp [instructionsOf, hblk]
        have hsub := hs1.sub bA
        rw [hL, ← List.take_append_drop (kA + 1) (instructionsOf g bA)] at hsub
        obtain ⟨l1, l2, hl, hl1, hl2⟩ := List.sublist_append_iff.mp hsub
        have hndsplit := hnd bA
        rw [← List.take_append_drop (kA + 1) (instructionsOf g bA)] at hndsplit
        have hdisj := (List.nodup_append.mp hndsplit).2.2
        have hAin := mem_of_getElem?_take hA
        have hBin := mem_of_getElem?_drop hB hk
        rw [hl, List.reverse_append, eliminateDeadInstructions_append] at hg'
        cases h2 : eliminateDeadInstructions bA l2.reverse gm with
        | none => simp [h2] at hg'
        | some ga =>
          rw [h2] at hg'
          simp only [Option.some_bind] at hg'
          cases h3 : eliminateDeadInstructions bA l1.reverse ga with
          | none => simp [h3] at hg'
          | some gb =>
            rw [h3] at hg'
            have hs2 := shrinks_eliminateDeadInstructions _ _ _ _ h2
            have hs3 := shrinks_eliminateDeadInstructions _ _ _ _ h3
            have hs4 := shrinks_eliminateDeadBlocks _ _ _ hg'
            have hndm : (instructionsOf gm bA).Nodup := (hs1.sub bA).nodup (hnd bA)
            have hgone : B ∉ instructionsOf ga bA := by
              by_cases hBl : B ∈ l2
              · exact eliminateDeadInstructions_visit bA B _ gm ga h2
                  (List.mem_reverse.mpr hBl) hndm
                  (fun g'' hg'' => hdeadB g'' (shrinks_trans hs1 hg''))
              · intro hmem
                have hm := (hs2.sub bA).subset hmem
                rw [hL, hl, List.mem_append] at hm
                rcases hm with hm | hm
                · exact hdisj (hl1.subset hm) hBin
                · exact hBl hm
            have hgoneA : A ∉ instructionsOf gb bA := by
              by_cases hAl : A ∈ l1
              · exact eliminateDeadInstructions_visit bA A _ ga gb h3
                  (List.mem_reverse.mpr hAl) ((hs2.sub bA).nodup hndm)
                  (dead_of_user_gone hdA hfA huseA hrpA hBphi hBonly
                    (shrinks_trans hs1 hs2) hgone)
              · intro hmem
                have hm := ((shrinks_trans hs2 hs3).sub bA).subset hmem
                rw [hL, hl, List.mem_append] at hm
                rcases hm with hm | hm
                · exact hAl hm
                · exact hdisj hAin (hl2.subset hm)
            exact fun hmem => hgoneA ((hs4.sub bA).subset hmem)

theorem EliminateDeadCode_dead_chain_witness :
    ∃ g', EliminateDeadCode deadChainGraph = .ok g' ∧
      0 ∉ instructionsOf g' 0 ∧ 2 ∉ instructionsOf g' 1 :=
  EliminateDeadCode_dead_chain deadChainGraph 0 2 0 1 0 0
    (mkDefinition (Opcode.Constant (ConstantValue.Int32 7)) MIRType.Int32 [] 0 false)
    (mkDefinition Opcode.Other MIRType.Int32 [0] 1 false)
    (by decide) (by decide) (by decide) (by decide) (by decide) (by decide) (by decide)
    (by decide) (by decide) (by decide) (by decide)

/-! ## TypeAnalyzer: the Phis that insertConversions removes -/

theorem phisOf_eq_of_map {g g' : MIRGraph}
    (h : g'.blocks.map MBasicBlock.phis = g.blocks.map MBasicBlock.phis) (b : Nat) :
    phisOf g' b = phisOf g b := by
  have h1 := congrArg (fun l => l[b]?) h
  simp only [List.getElem?_map] at h1
  unfold phisOf MIRGraph.block
  cases h2 : g'.blocks[b]? with
  | none =>
    cases h3 : g.blocks[b]? with
    | none => rfl
    | some blk => simp [h2, h3] at h1
  | some blk' =>
    cases h3 : g.blocks[b]? with
    | none => simp [h2, h3] at h1
    | some blk =>
      simp only [h2, h3, Option.map_some', Option.some.injEq] at h1
      exact h1

theorem phisOf_discardPhi (g : MIRGraph) (c x b : Nat) :
    phisOf (discardPhi g c x) b = if c = b then (phisOf g b).erase x else phisOf g b := by
  simp only [phisOf, discardPhi, MIRGraph.block, List.getElem?_modify]
  cases g.blocks[b]? with
  | none => simp
  | some blk =>
    simp only [Option.map_some', Functor.map, Option.map]
    split_ifs <;> rfl

theorem instructionsOf_discardPhi (g : MIRGraph) (c x b : Nat) :
    instructionsOf (discardPhi g c x) b = instructionsOf g b := by
  simp only [instructionsOf, discardPhi, MIRGraph.block, List.getElem?_modify]
  cases g.blocks[b]? with
  | none => simp
  | some blk =>
    simp only [Option.map_some', Functor.map, Option.map]
    split_ifs <;> rfl

theorem inGraph_iff_mem (g : MIRGraph) (x : Nat) :
    g.inGraph x = true ↔ ∃ b, x ∈ phisOf g b ∨ x ∈ instructionsOf g b := by
  rw [mem_definitionsOf_of_inGraph]
  exact exists_congr fun b => mem_definitionsOf_iff g b x

/-- The visit of `insertConversions` to a Phi of type `Undefined` or `Null`:
the new constant is the first instruction of the block of the Phi, every
operand slot of a definition of the graph and of a resume point that held the
Phi holds the constant, and the Phi is off the Phi list of `b`. -/
theorem convertPhi_redundant (g : MIRGraph) (b phi : Nat) (p : MDefinition) (blk : MBasicBlock)
    (hp : g.definition phi = some p) (hnull : p.type.atMostNull = true)
    (hblk : g.block p.block = some blk) (hne : blk.instructions ≠ []) :
    ∃ g1, convertPhi g b phi = .ok g1 ∧
      g1.definition g.defs.length = some (redundantConstant p) ∧
      instructionsOf g1 p.block = g.defs.length :: instructionsOf g p.block ∧
      (∀ c, phisOf g1 c = if b = c then (phisOf g c).erase phi else phisOf g c) ∧
      (∀ x y, g.definition x = some y → g1.definition x = some
        (if g.inGraph x then
          { y with operands := y.operands.map fun o => if o = phi then g.defs.length else o }
        else y)) ∧
      g1.resumePoints =
        g.resumePoints.map fun rp => rp.map fun o => if o = phi then g.defs.length else o := by
  obtain ⟨g2, hins, hdefs, hblocks, hrps⟩ : ∃ g2,
      insertAtBegin (addDefinition g (redundantConstant p)).2 p.block g.defs.length = some g2 ∧
      g2.defs = g.defs ++ [redundantConstant p] ∧
      g2.blocks = List.modify
        (fun b => { b with instructions := g.defs.length :: b.instructions }) p.block g.blocks ∧
      g2.resumePoints = g.resumePoints := by
    have hb2 : (addDefinition g (redundantConstant p)).2.block p.block = some blk := hblk
    simp only [insertAtBegin, hb2, hne, if_false]
    exact ⟨_, rfl, rfl, rfl, rfl⟩
  have hconst : (redundantConstant p).operands = [] := by
    unfold redundantConstant
    split_ifs <;> rfl
  have hphis : ∀ c, phisOf g2 c = phisOf g c := by
    intro c
    apply phisOf_eq_of_map
    rw [hblocks]
    apply map_phis_modify
    intro _
    rfl
  have hinstr : ∀ c, instructionsOf g2 c =
      if p.block = c then g.defs.length :: instructionsOf g c else instructionsOf g c := by
    intro c
    simp only [instructionsOf, MIRGraph.block, hblocks, List.getElem?_modify]
    cases hc : g.blocks[c]? with
    | none =>
      simp only [Option.map_none', Functor.map, Option.map]
      split_ifs with h1
      · subst h1
        simp only [MIRGraph.block] at hblk
        rw [hblk] at hc
        cases hc
      · rfl
    | some blk0 =>
      simp only [Option.map_some', Functor.map, Option.map]
      split_ifs <;> rfl
  have hrun : convertPhi g b phi =
      .ok (discardPhi (replaceAllUsesWith g2 phi g.defs.length) b phi) := by
    have h1 : (addDefinition g (redundantConstant p)).1 = g.defs.length := rfl
    simp only [convertPhi, hp, hnull, if_true, replaceRedundantPhi, h1, hins]
  refine ⟨_, hrun, ?_, ?_, ?_, ?_, ?_⟩
  · show (replaceAllUsesWith g2 phi g.defs.length).definition g.defs.length = _
    rw [definition_replaceAllUsesWith]
    have : g2.definition g.defs.length = some (redundantConstant p) := by
      simp [MIRGraph.definition, hdefs]
    rw [this]
    simp only [Option.map_some', Option.some.injEq]
    split_ifs
    · cases hc : redundantConstant p
      simp only [hc] at hconst
      simp [hconst]
    · rfl
  · rw [instructionsOf_discardPhi]
    show instructionsOf g2 p.block = _
    rw [hinstr, if_pos rfl]
  · intro c
    rw [phisOf_discardPhi]
    show (if b = c then (phisOf g2 c).erase phi else phisOf g2 c) = _
    rw [hphis]
  · intro x y hy
    have hx : x < g.defs.length := (List.getElem?_eq_some.mp hy).1
    show (replaceAllUsesWith g2 phi g.defs.length).definition x = _
    rw [definition_replaceAllUsesWith]
    have hd : g2.definition x = some y := by
      simp only [MIRGraph.definition] at hy
      simp [MIRGraph.definition, hdefs, List.getElem?_append_left hx, hy]
    rw [hd]
    have hin : g2.inGraph x = g.inGraph x := by
      rw [Bool.eq_iff_iff, inGraph_iff_mem, inGraph_iff_mem]
      apply exists_congr
      intro c
      rw [hphis, hinstr]
      apply or_congr Iff.rfl
      split_ifs
      · simp only [List.mem_cons]
        constructor
        · rintro (h | h)
          · omega
          · exact h
        · exact Or.inr
      · rfl
    rw [hin]
    rfl
  · show (replaceAllUsesWith g2 phi g.defs.length).resumePoints = _
    simp only [replaceAllUsesWith, hrps]

theorem keepsPhis_refl (g : MIRGraph) : KeepsPhis g g :=
  ⟨rfl, fun _ y hy => ⟨y, hy, rfl, rfl⟩⟩

theorem keepsPhis_trans {a b c : MIRGraph} (h1 : KeepsPhis a b) (h2 : KeepsPhis b c) :
    KeepsPhis a c := by
  refine ⟨h2.phis.trans h1.phis, ?_⟩
  intro x y hy
  obtain ⟨y1, hy1, ht1, ho1⟩ := h1.defs x y hy
  obtain ⟨y2, hy2, ht2, ho2⟩ := h2.defs x y1 hy1
  exact ⟨y2, hy2, ht2.trans ht1, ho2.trans ho1⟩

theorem keepsPhis_replaceOperand {g g2 : MIRGraph} (h : KeepsPhis g g2) (phi i o : Nat) :
    KeepsPhis g (replaceOperand g2 phi i o) := by
  refine ⟨h.phis, ?_⟩
  intro x y hy
  obtain ⟨y', hy', ht, ho⟩ := h.defs x y hy
  simp only [replaceOperand, definition_modifyDefinition, hy', Option.map_some']
  split_ifs
  · exact ⟨_, rfl, ht, ho⟩
  · exact ⟨_, rfl, ht, ho⟩

theorem keepsPhis_insertBeforeLast {g g2 : MIRGraph} {c : MDefinition} {b : Nat}
    (h : insertBeforeLast (addDefinition g c).2 b (addDefinition g c).1 = some g2) :
    KeepsPhis g g2 := by
  obtain ⟨hdefs, hphis⟩ := insertBeforeLast_frame h
  refine ⟨hphis, ?_⟩
  intro x y hy
  have hx : x < g.defs.length := (List.getElem?_eq_some.mp hy).1
  refine ⟨y, ?_, rfl, rfl⟩
  simp only [MIRGraph.definition] at hy ⊢
  rw [hdefs]
  simp only [addDefinition, List.getElem?_append_left hx, hy]

theorem adjustPhiInput_keeps (phiType : MIRType) (g g' : MIRGraph) (phi i : Nat)
    (h : adjustPhiInput phiType g phi i = .ok g') : KeepsPhis g g' := by
  unfold adjustPhiInput at h
  cases hp : g.definition phi with
  | none => simp [hp] at h
  | some p =>
    simp only [hp] at h
    cases hi : p.operands[i]? with
    | none => simp [hi] at h
    | some in_ =>
      simp only [hi] at h
      cases hd : g.definition in_ with
      | none => simp [hd] at h
      | some d =>
        simp only [hd] at h
        split_ifs at h
        · cases hins : insertBeforeLast
              (addDefinition g (conversion Opcode.ToDouble MIRType.Double in_ d.block)).2
              d.block (addDefinition g (conversion Opcode.ToDouble MIRType.Double in_ d.block)).1 with
          | none => simp [hins] at h
          | some g2 =>
            simp only [hins, Run.ok.injEq] at h
            subst h
            exact keepsPhis_replaceOperand (keepsPhis_insertBeforeLast hins) _ _ _
        · cases h
          exact keepsPhis_refl _
        · cases h
          exact keepsPhis_refl _
        · cases h0 : d.operands[0]? with
          | none => simp [h0] at h
          | some input =>
            simp only [h0, Run.ok.injEq] at h
            subst h
            exact keepsPhis_replaceOperand (keepsPhis_refl _) _ _ _
        · cases hins : insertBeforeLast
              (addDefinition g (conversion Opcode.Box MIRType.Value in_ d.block)).2
              d.block (addDefinition g (conversion Opcode.Box MIRType.Value in_ d.block)).1 with
          | none => simp [hins] at h
          | some g2 =>
            simp only [hins, Run.ok.injEq] at h
            subst h
            exact keepsPhis_replaceOperand (keepsPhis_insertBeforeLast hins) _ _ _

theorem adjustPhiInputsLoop_keeps (phiType : MIRType) (phi : Nat) (is : List Nat)
    (g g' : MIRGraph) (h : adjustPhiInputsLoop phiType phi is g = .ok g') : KeepsPhis g g' := by
  induction is generalizing g with
  | nil =>
    simp only [adjustPhiInputsLoop, Run.ok.injEq] at h
    subst h
    exact keepsPhis_refl _
  | cons i rest ih =>
    simp only [adjustPhiInputsLoop] at h
    cases h1 : adjustPhiInput phiType g phi i with
    | fail e => simp [h1] at h
    | ok g1 =>
      simp only [h1] at h
      exact keepsPhis_trans (adjustPhiInput_keeps _ _ _ _ _ h1) (ih g1 h)

theorem adjustPhiInputs_keeps (g g' : MIRGraph) (phi : Nat)
    (h : adjustPhiInputs g phi = .ok g') : KeepsPhis g g' := by
  unfold adjustPhiInputs at h
  cases hp : g.definition phi with
  | none => simp [hp] at h
  | some p =>
    simp only [hp] at h
    split_ifs at h
    · exact adjustPhiInputsLoop_keeps _ _ _ _ _ h
    · cases h
      exact keepsPhis_refl _

theorem adjustInstructions_keeps {policy : MIRGraph → Nat → Option MIRGraph}
    (hpolicy : PolicyFrame policy) (inss : List Nat) (g g' : MIRGraph)
    (h : adjustInstructions policy inss g = some g') : KeepsPhis g g' := by
  induction inss generalizing g with
  | nil =>
    simp only [adjustInstructions, Option.some.injEq] at h
    subst h
    exact keepsPhis_refl _
  | cons i rest ih =>
    simp only [adjustInstructions] at h
    cases h1 : policy g i with
    | none => simp [h1] at h
    | some g1 =>
      simp only [h1] at h
      refine keepsPhis_trans ⟨hpolicy.phis g i g1 h1, ?_⟩ (ih g1 h)
      intro x y hy
      obtain ⟨y', hy', ht, ho, _⟩ := hpolicy.defs g i g1 h1 x y hy
      exact ⟨y', hy', ht, ho⟩

theorem redundantPhi_keeps {g g' : MIRGraph}
    (h : ∀ x y, g.definition x = some y →
      ∃ y', g'.definition x = some y' ∧ y'.type = y.type ∧ y'.op = y.op)
    {x : Nat} (hx : ∃ y, g.definition x = some y) : redundantPhi g' x = redundantPhi g x := by
  obtain ⟨y, hy⟩ := hx
  obtain ⟨y', hy', ht, _⟩ := h x y hy
  simp only [redundantPhi, hy, hy', ht]
theorem convertPhi_phis (g g' : MIRGraph) (b phi : Nat) (h : convertPhi g b phi = .ok g') :
    (∀ c, phisOf g' c =
      if b = c ∧ redundantPhi g phi = true then (phisOf g c).erase phi else phisOf g c) ∧
    ∀ x y, g.definition x = some y →
      ∃ y', g'.definition x = some y' ∧ y'.type = y.type ∧ y'.op = y.op := by
  cases hp : g.definition phi with
  | none => simp [convertPhi, hp] at h
  | some p =>
    by_cases hnull : p.type.atMostNull = true
    · have hred : redundantPhi g phi = true := by simp [redundantPhi, hp, hnull]
      cases hblk : g.block p.block with
      | none =>
        have hb2 : (addDefinition g (redundantConstant p)).2.block p.block = none := hblk
        simp [convertPhi, hp, hnull, replaceRedundantPhi, insertAtBegin, hb2] at h
      | some blk =>
        by_cases hne : blk.instructions = []
        · have hb2 : (addDefinition g (redundantConstant p)).2.block p.block = some blk := hblk
          simp [convertPhi, hp, hnull, replaceRedundantPhi, insertAtBegin, hb2, hne] at h
        · obtain ⟨g1, hrun, _, _, hphis, hdefs, _⟩ :=
            convertPhi_redundant g b phi p blk hp hnull hblk hne
          rw [hrun] at h
          cases h
          refine ⟨fun c => ?_, fun x y hy => ?_⟩
          · rw [hphis c]
            simp only [hred, and_true]
          · rw [hdefs x y hy]
            split_ifs
            · exact ⟨_, rfl, rfl, rfl⟩
            · exact ⟨_, rfl, rfl, rfl⟩
    · have hred : redundantPhi g phi = false := by simpa [redundantPhi, hp] using hnull
      simp only [convertPhi, hp, hnull] at h
      have hk := adjustPhiInputs_keeps g g' phi h
      refine ⟨fun c => ?_, hk.defs⟩
      rw [phisOf_eq_of_map hk.phis]
      simp [hred]

theorem phisOk_of_sub {g g' : MIRGraph} (hok : PhisOk g)
    (hsub : ∀ c, (phisOf g' c).Sublist (phisOf g c))
    (hdefs : ∀ x y, g.definition x = some y →
      ∃ y', g'.definition x = some y' ∧ y'.type = y.type ∧ y'.op = y.op) : PhisOk g' := by
  intro c
  refine ⟨(hsub c).nodup (hok c).1, fun x hx => ?_⟩
  obtain ⟨y, hy⟩ := (hok c).2 x ((hsub c).subset hx)
  obtain ⟨y', hy', _⟩ := hdefs x y hy
  exact ⟨y', hy'⟩

theorem convertPhis_phis (b : Nat) (l : List Nat) (g g' : MIRGraph) (hok : PhisOk g)
    (hl : ∀ x ∈ l, ∃ y, g.definition x = some y)
    (h : convertPhis b l g = .ok g') :
    (∀ c, phisOf g' c =
      if b = c then (phisOf g c).filter fun x => !(decide (x ∈ l) && redundantPhi g x)
      else phisOf g c) ∧
    ∀ x y, g.definition x = some y →
      ∃ y', g'.definition x = some y' ∧ y'.type = y.type ∧ y'.op = y.op := by
  induction l generalizing g with
  | nil =>
    simp only [convertPhis, Run.ok.injEq] at h
    subst h
    refine ⟨fun c => ?_, fun _ y hy => ⟨y, hy, rfl, rfl⟩⟩
    simp
  | cons x rest ih =>
    simp only [convertPhis] at h
    cases h1 : convertPhi g b x with
    | fail e => simp [h1] at h
    | ok g1 =>
      simp only [h1] at h
      obtain ⟨hphis1, hdefs1⟩ := convertPhi_phis g g1 b x h1
      have hsub1 : ∀ c, (phisOf g1 c).Sublist (phisOf g c) := by
        intro c
        rw [hphis1 c]
        split_ifs
        · exact List.erase_sublist _ _
        · exact List.Sublist.refl _
      have hok1 := phisOk_of_sub hok hsub1 hdefs1
      have hl1 : ∀ z ∈ rest, ∃ y, g1.definition z = some y := by
        intro z hz
        obtain ⟨y, hy⟩ := hl z (List.mem_cons_of_mem _ hz)
        obtain ⟨y', hy', _⟩ := hdefs1 z y hy
        exact ⟨y', hy'⟩
      obtain ⟨hphis2, hdefs2⟩ := ih g1 hok1 hl1 h
      refine ⟨fun c => ?_, fun z y hy => ?_⟩
      · rw [hphis2 c]
        by_cases hbc : b = c
        · simp only [hbc, if_true]
          subst hbc
          rw [hphis1 b]
          simp only [true_and]
          by_cases hred : redundantPhi g x = true
          · rw [if_pos hred, List.Nodup.erase_eq_filter (hok b).1, List.filter_filter]
            apply List.filter_congr
            intro z hz
            by_cases hzr : z ∈ rest
            · rw [redundantPhi_keeps hdefs1 (hl z (List.mem_cons_of_mem _ hzr))]
              by_cases hzx : z = x
              · subst hzx
                simp [hred]
              · simp [hzr, hzx]
            · by_cases hzx : z = x
              · subst hzx
                simp [hred]
              · simp [hzr, hzx]
          · rw [if_neg hred]
            apply List.filter_congr
            intro z hz
            by_cases hzr : z ∈ rest
            · rw [redundantPhi_keeps hdefs1 (hl z (List.mem_cons_of_mem _ hzr))]
              simp [hzr]
            · by_cases hzx : z = x
              · subst hzx
                simp [hred, hzr]
              · simp [hzr, hzx]
        · simp only [hbc, if_false]
          rw [hphis1 c]
          simp [hbc]
      · obtain ⟨y1, hy1, ht1, ho1⟩ := hdefs1 z y hy
        obtain ⟨y2, hy2, ht2, ho2⟩ := hdefs2 z y1 hy1
        exact ⟨y2, hy2, ht2.trans ht1, ho2.trans ho1⟩

theorem phisOf_of_block {g : MIRGraph} {b : Nat} {blk : MBasicBlock}
    (h : g.block b = some blk) : phisOf g b = blk.phis := by
  simp [phisOf, h]

theorem insertConversions_phis {policy : MIRGraph → Nat → Option MIRGraph}
    (hpolicy : PolicyFrame policy) (bs : List Nat) (g g' : MIRGraph) (hok : PhisOk g)
    (h : insertConversions policy bs g = .ok (true, g')) :
    ∀ c, phisOf g' c =
      if c ∈ bs then (phisOf g c).filter fun x => !redundantPhi g x else phisOf g c := by
  induction bs generalizing g with
  | nil =>
    simp only [insertConversions, Run.ok.injEq, Prod.mk.injEq, true_and] at h
    subst h
    intro c
    simp
  | cons b rest ih =>
    simp only [insertConversions] at h
    cases hb : g.block b with
    | none => simp [hb] at h
    | some blk =>
      simp only [hb] at h
      cases h1 : convertPhis b blk.phis g with
      | fail e => simp [h1] at h
      | ok g1 =>
        simp only [h1] at h
        cases hb1 : g1.block b with
        | none => simp [hb1] at h
        | some blk1 =>
          simp only [hb1] at h
          cases h2 : adjustInstructions policy blk1.instructions g1 with
          | none => simp [h2] at h
          | some g2 =>
            simp only [h2] at h
            have hL := phisOf_of_block hb
            obtain ⟨hphis1, hdefs1⟩ := convertPhis_phis b blk.phis g g1 hok
              (fun x hx => (hok b).2 x (hL ▸ hx)) h1
            have hk2 := adjustInstructions_keeps hpolicy _ g1 g2 h2
            have hphis2 : ∀ c, phisOf g2 c =
                if b = c then (phisOf g c).filter fun x => !redundantPhi g x
                else phisOf g c := by
              intro c
              rw [phisOf_eq_of_map hk2.phis, hphis1 c]
              split_ifs with hbc
              · subst hbc
                apply List.filter_congr
                intro x hx
                rw [hL] at hx
                simp [hx]
              · rfl
            have hdefs2 : ∀ x y, g.definition x = some y →
                ∃ y', g2.definition x = some y' ∧ y'.type = y.type ∧ y'.op = y.op := by
              intro x y hy
              obtain ⟨y1, hy1, ht1, ho1⟩ := hdefs1 x y hy
              obtain ⟨y2, hy2, ht2, ho2⟩ := hk2.defs x y1 hy1
              exact ⟨y2, hy2, ht2.trans ht1, ho2.trans ho1⟩
            have hsub2 : ∀ c, (phisOf g2 c).Sublist (phisOf g c) := by
              intro c
              rw [hphis2 c]
              split_ifs
              · exact List.filter_sublist _
              · exact List.Sublist.refl _
            have hok2 := phisOk_of_sub hok hsub2 hdefs2
            intro c
            rw [ih g2 hok2 h c]
            have hcongr : (phisOf g2 c).filter (fun x => !redundantPhi g2 x) =
                (phisOf g2 c).filter fun x => !redundantPhi g x := by
              apply List.filter_congr
              intro x hx
              rw [redundantPhi_keeps hdefs2 ((hok c).2 x ((hsub2 c).subset hx))]
            rw [hcongr, hphis2 c]
            by_cases hcb : b = c
            · subst hcb
              simp only [List.mem_cons, true_or, if_true, List.filter_filter, Bool.and_self]
              split_ifs <;> rfl
            · have hcb' : ¬ c = b := fun hh => hcb hh.symm
              simp only [hcb, if_false, List.mem_cons, hcb', false_or]

theorem phisOk_of_bool {g : MIRGraph} (hnd : phisNodup g = true) (hphis : phisArePhis g = true) :
    PhisOk g := by
  intro c
  unfold phisOf
  cases hb : g.block c with
  | none => simp
  | some blk =>
    have hmem : blk ∈ g.blocks := List.getElem?_mem hb
    simp only [phisNodup, List.all_eq_true, decide_eq_true_eq] at hnd
    refine ⟨hnd blk hmem, fun x hx => ?_⟩
    simp only [phisArePhis, List.all_eq_true] at hphis
    have := hphis x (mem_allPhis_of_block hb hx)
    cases hd : g.definition x with
    | none => simp [hd] at this
    | some y => exact ⟨y, rfl⟩

/-- C31: `insertConversions` removes every Phi whose type is `Undefined` or
`Null` and keeps the Phis of every other type: when the pass returns `true`,
the Phi list of every block is the list it was without the Phis of these two
types.  The visit to such a Phi (`convertPhi`, the body of the loop over the
Phis) returns, makes one new constant, the undefined constant if the type is
`Undefined` and the null constant if it is `Null`, puts it before the first
instruction of the block of the Phi, writes it into every operand slot of a
definition of the graph and of a resume point that held the Phi, and takes
the Phi off the Phi list. -/
theorem insertConversions_redundant_phis (policy : MIRGraph → Nat → Option MIRGraph)
    (hpolicy : PolicyFrame policy) (bs : List Nat) (g g' : MIRGraph)
    (hnd : phisNodup g = true) (hphis : phisArePhis g = true)
    (h : insertConversions policy bs g = .ok (true, g')) :
    (∀ b ∈ bs, phisOf g' b = (phisOf g b).filter fun phi => !redundantPhi g phi) ∧
    ∀ (g0 : MIRGraph) (b phi : Nat) (p : MDefinition) (blk : MBasicBlock),
      g0.definition phi = some p → p.type.atMostNull = true → p.block = b →
      g0.block b = some blk → blk.instructions ≠ [] →
      ∃ g1 c, convertPhi g0 b phi = .ok g1 ∧ g1.definition g0.defs.length = some c ∧
        c.op = Opcode.Constant
          (if p.type = MIRType.Undefined then ConstantValue.Undefined else ConstantValue.Null) ∧
        c.operands = [] ∧
        instructionsOf g1 b = g0.defs.length :: instructionsOf g0 b ∧
        phisOf g1 b = (phisOf g0 b).erase phi ∧
        (∀ x y, g0.definition x = some y → g1.definition x = some
          (if g0.inGraph x then
            { y with operands := y.operands.map fun o => if o = phi then g0.defs.length else o }
          else y)) ∧
        g1.resumePoints =
          g0.resumePoints.map fun rp => rp.map fun o => if o = phi then g0.defs.length else o := by
  refine ⟨fun b hb => ?_, ?_⟩
  · rw [insertConversions_phis hpolicy bs g g' (phisOk_of_bool hnd hphis) h b, if_pos hb]
  · intro g0 b phi p blk hp hnull hpb hblk hne
    subst hpb
    obtain ⟨g1, hrun, hc, hins, hph, hdefs, hrp⟩ :=
      convertPhi_redundant g0 p.block phi p blk hp hnull hblk hne
    refine ⟨g1, redundantConstant p, hrun, hc, ?_, ?_, hins, ?_, hdefs, hrp⟩
    · unfold redundantConstant
      split_ifs <;> rfl
    · unfold redundantConstant
      split_ifs <;> rfl
    · rw [hph, if_pos rfl]

theorem insertConversions_redundant_phis_witness :
    phisNodup nullPhisGraph = true ∧ phisArePhis nullPhisGraph = true ∧
    insertConversions noPolicy [0, 1] nullPhisGraph = .ok (true, nullPhisGraphConverted) ∧
    ∀ b ∈ [0, 1], phisOf nullPhisGraphConverted b =
      (phisOf nullPhisGraph b).filter fun phi => !redundantPhi nullPhisGraph phi :=
  ⟨by decide, by decide, by decide,
    (insertConversions_redundant_phis noPolicy policyFrame_noPolicy [0, 1] nullPhisGraph
      nullPhisGraphConverted (by decide) (by decide) (by decide)).1⟩

/-! ## The traversal counter of EliminateRedundantBoundsChecks -/

theorem linksEq_block_children {T g : MIRGraph} (h : LinksEq T g) (b : Nat) :
    (g.block b).map MBasicBlock.immediatelyDominated =
      (T.block b).map MBasicBlock.immediatelyDominated := by
  have := h b
  cases h1 : g.block b <;> cases h2 : T.block b <;>
    simp [h1, h2, MBasicBlock.links] at this ⊢
  exact this.2.2

theorem popOrder_linksEq {T g : MIRGraph} (h : LinksEq T g) :
    ∀ (fuel : Nat) (ws : List Nat), popOrder g fuel ws = popOrder T fuel ws := by
  intro fuel
  induction fuel with
  | zero =>
    intro ws
    cases ws <;> rfl
  | succ n ih =>
    intro ws
    cases ws with
    | nil => rfl
    | cons w ws =>
      simp only [popOrder]
      have hc := linksEq_block_children h ((w :: ws).getLast (List.cons_ne_nil w ws))
      cases h1 : g.block ((w :: ws).getLast (List.cons_ne_nil w ws)) with
      | none =>
        cases h2 : T.block ((w :: ws).getLast (List.cons_ne_nil w ws)) with
        | none => rfl
        | some blk => simp [h1, h2] at hc
      | some blk' =>
        cases h2 : T.block ((w :: ws).getLast (List.cons_ne_nil w ws)) with
        | none => simp [h1, h2] at hc
        | some blk =>
          simp only [h1, h2, Option.map_some', Option.some.injEq] at hc
          simp only [hc, ih]

theorem selfDominating_linksEq {T g : MIRGraph} (h : LinksEq T g) :
    selfDominating g = selfDominating T := by
  unfold selfDominating
  rw [linksEq_length h]
  apply List.filter_congr
  intro b _
  have := h b
  cases h1 : g.block b <;> cases h2 : T.block b <;>
    simp [h1, h2, MBasicBlock.links, MBasicBlock.core] at this ⊢
  rw [this.1.2]

/-- The numbering loop gives the block that it pops at position `p` the index
`i + p`. -/
theorem assignDomIndex_positions (T : MIRGraph) :
    ∀ (fuel : Nat) (g g' : MIRGraph) (ws : List Nat) (i : Nat) (L : List Nat),
      LinksEq T g → popOrder T fuel ws = some L → L.Nodup →
      assignDomIndex fuel g ws i = some g' →
      (∀ X, X ∉ L → domIndexOf g' X = domIndexOf g X) ∧
        ∀ p X, L[p]? = some X → domIndexOf g' X = i + p := by
  intro fuel
  induction fuel with
  | zero =>
    intro g g' ws i L _ hp _ h
    cases ws with
    | nil =>
      simp only [popOrder, Option.some.injEq] at hp
      simp only [assignDomIndex, Option.some.injEq] at h
      subst hp h
      exact ⟨fun _ _ => rfl, fun p X hpX => by simp at hpX⟩
    | cons w ws => simp [popOrder] at hp
  | succ n ih =>
    intro g g' ws i L hl hp hnd h
    cases ws with
    | nil =>
      simp only [popOrder, Option.some.injEq] at hp
      simp only [assignDomIndex, Option.some.injEq] at h
      subst hp h
      exact ⟨fun _ _ => rfl, fun p X hpX => by simp at hpX⟩
    | cons w ws =>
      simp only [popOrder] at hp
      simp only [assignDomIndex] at h
      have hc := linksEq_block_children hl ((w :: ws).getLast (List.cons_ne_nil w ws))
      cases hbT : T.block ((w :: ws).getLast (List.cons_ne_nil w ws)) with
      | none => simp [hbT] at hp
      | some blkT =>
        simp only [hbT] at hp
        cases hrest : popOrder T n ((w :: ws).dropLast ++ blkT.immediatelyDominated) with
        | none => simp [hrest] at hp
        | some rest =>
          simp only [hrest, Option.some.injEq] at hp
          subst hp
          cases hb : g.block ((w :: ws).getLast (List.cons_ne_nil w ws)) with
          | none => simp [hb] at h
          | some blk =>
            simp only [hb] at h
            simp only [hb, hbT, Option.map_some', Option.some.injEq] at hc
            rw [hc] at h
            have hlt : (w :: ws).getLast (List.cons_ne_nil w ws) < g.blocks.length :=
              (List.getElem?_eq_some.mp hb).1
            obtain ⟨hout, hpos⟩ := ih _ g' _ (i + 1) rest
              (linksEq_trans hl (linksEq_setDomIndex g _ i)) hrest (List.nodup_cons.mp hnd).2 h
            constructor
            · intro X hX
              rw [List.mem_cons, not_or] at hX
              rw [hout X hX.2, domIndexOf_setDomIndex]
              have : ¬ ((w :: ws).getLast (List.cons_ne_nil w ws) = X ∧
                  X < g.blocks.length) := fun hh => hX.1 hh.1.symm
              rw [if_neg this]
            · intro p X hpX
              cases p with
              | zero =>
                simp only [List.getElem?_cons_zero, Option.some.injEq] at hpX
                subst hpX
                rw [hout _ (List.nodup_cons.mp hnd).1, domIndexOf_setDomIndex,
                  if_pos ⟨rfl, hlt⟩]
                rfl
              | succ p =>
                simp only [List.getElem?_cons_succ] at hpX
                rw [hpos p X hpX]
                omega

/-- C34: `EliminateRedundantBoundsChecks` visits every block exactly once, and
the traversal counter that it passes to `FindDominatingBoundsCheck` for a
block is the `domIndex` that `BuildDominatorTree` gave the block.  On the graph
`g` that `BuildDominatorTree` returns there is a list `L` of all blocks, each
once, such that the block at position `p` has `domIndex` `p`, and the pass,
given fuel for `numBlocks` blocks, is the visit of the blocks of `L` one after
the other with the counter starting at 0 and going up by one after each
block; so the counter of the block at position `p` is `p`, and it is
`numBlocks` after the last block. -/
theorem EliminateRedundantBoundsChecks_counter_is_domIndex (addr : Nat → Nat)
    (fuel0 : Nat) (g0 g : MIRGraph)
    (hids : (g0.blocks.map MBasicBlock.id).Nodup)
    (hpred : hasEarlierPredecessor g0 = true)
    (hzero : numDominatedZero g0 = true) (hempty : childrenEmpty g0 = true)
    (hbuild : BuildDominatorTree fuel0 g0 = some g) :
    ∃ L : List Nat, L.Nodup ∧ L.length = g.numBlocks ∧ (∀ b, b < g.numBlocks → b ∈ L) ∧
      (∀ p b, L[p]? = some b → domIndexOf g b = p) ∧
      ∀ fuel, EliminateRedundantBoundsChecks addr (fuel + g.numBlocks) g =
        (visitBlocks addr 0 L { graph := g, checks := [] }).map fun r => (r.1, r.2.graph) := by
  obtain ⟨g1, g2, h1, h2, h3⟩ := BuildDominatorTree_stages fuel0 g0 g hbuild
  obtain ⟨_, hann, hall, hlt⟩ := ComputeImmediateDominators_tree fuel0 g0 g1 hids hpred h1
  have hinv := linkChildren_inv g1 hlt g1.blocks.length g1 g2
    (linkInv_init g1 (numDominatedZero_spec g0 g1 hzero hann)) h2
  have hT : DomTree g2 :=
    domTree_of_linkInv g1 g2 hall hlt (childrenEmpty_spec g0 g1 hempty hann) hinv
  have hN := assignDomIndex_numbered fuel0 g2 g hT h3
  have hlen : g.blocks.length = g2.blocks.length := linksEq_length hN.links
  obtain ⟨L, hO, hL, hmem, hpop⟩ := popOrder_preOrdered g2 hT
  have hnodup : L.Nodup := by
    rw [List.nodup_iff_getElem?_ne_getElem?]
    intro p q hpq hq heq
    have hp : p < L.length := lt_trans hpq hq
    have e1 : L[p]? = some L[p] := List.getElem?_eq_getElem hp
    have e2 : L[q]? = some L[p] := by rw [← heq]; exact e1
    have := (hO.interval q p L[p] L[p] e2 e1).mp (idomChain_refl g2 _)
    omega
  unfold MIRGraph.numBlocks
  refine ⟨L, hnodup, by rw [hL, hlen], fun b hb => hmem b (hlen ▸ hb), ?_, ?_⟩
  · intro p b hpb
    have h3' := assignDomIndex_mono fuel0 g2 g (selfDominating g2) 0 L.length h3
    have := (assignDomIndex_positions g2 (fuel0 + L.length) g2 g (selfDominating g2) 0 L
      (linksEq_refl g2) (hpop fuel0) hnodup h3').2 p b hpb
    omega
  · intro fuel
    have hp : popOrder g (fuel + g.blocks.length) (selfDominating g) = some L := by
      rw [popOrder_linksEq hN.links, selfDominating_linksEq hN.links, hlen, ← hL]
      exact hpop fuel
    unfold EliminateRedundantBoundsChecks runBoundsChecks
    rw [boundsCheckLoop_eq_visitBlocks addr g (fuel + g.blocks.length) _ _ 0 L hp
      (boundsFrame_refl g)]

theorem EliminateRedundantBoundsChecks_counter_is_domIndex_witness :
    ∃ L : List Nat, L.Nodup ∧ L.length = loopGraphTree.numBlocks ∧
      (∀ b, b < loopGraphTree.numBlocks → b ∈ L) ∧
      (∀ p b, L[p]? = some b → domIndexOf loopGraphTree b = p) ∧
      ∀ fuel, EliminateRedundantBoundsChecks (fun x => x) (fuel + loopGraphTree.numBlocks)
          loopGraphTree =
        (visitBlocks (fun x => x) 0 L { graph := loopGraphTree, checks := [] }).map
          fun r => (r.1, r.2.graph) :=
  EliminateRedundantBoundsChecks_counter_is_domIndex (fun x => x) 4 loopGraph loopGraphTree
    (by decide) (by decide) (by decide) (by decide) (by decide)

/-! ## CoalesceBlocks: termination -/

namespace CFG

theorem coalesceFrame_refl (g : MIRGraph) : CoalesceFrame g g :=
  ⟨rfl, fun _ => rfl, fun _ => List.Sublist.refl _, fun _ => rfl⟩

theorem coalesceFrame_trans {a b c : MIRGraph} (h1 : CoalesceFrame a b)
    (h2 : CoalesceFrame b c) : CoalesceFrame a c :=
  ⟨h2.table.trans h1.table, fun x => (h2.preds x).trans (h1.preds x),
    fun x => (h2.phis x).trans (h1.phis x), fun x => (h2.defs x).trans (h1.defs x)⟩

theorem predecessorsOf_modifyBlock (g : MIRGraph) (b x : Nat) (f : MBasicBlock → MBasicBlock) :
    predecessorsOf (modifyBlock g b f) x =
      match g.block x with
      | some blk => if b = x then (f blk).predecessors else blk.predecessors
      | none => [] := by
  unfold predecessorsOf
  rw [block_modifyBlock]
  cases g.block x with
  | none => rfl
  | some blk =>
    simp only [Option.map_some']
    split_ifs <;> rfl

theorem phisOf_modifyBlock (g : MIRGraph) (b x : Nat) (f : MBasicBlock → MBasicBlock) :
    phisOf (modifyBlock g b f) x =
      match g.block x with
      | some blk => if b = x then (f blk).phis else blk.phis
      | none => [] := by
  unfold phisOf
  rw [block_modifyBlock]
  cases g.block x with
  | none => rfl
  | some blk =>
    simp only [Option.map_some']
    split_ifs <;> rfl

theorem instructionsOf_modifyBlock (g : MIRGraph) (b x : Nat) (f : MBasicBlock → MBasicBlock) :
    instructionsOf (modifyBlock g b f) x =
      match g.block x with
      | some blk => if b = x then (f blk).instructions else blk.instructions
      | none => [] := by
  unfold instructionsOf
  rw [block_modifyBlock]
  cases g.block x with
  | none => rfl
  | some blk =>
    simp only [Option.map_some']
    split_ifs <;> rfl

/-- A write to a block that keeps the number of its predecessors and adds no
Phi is within the frame. -/
theorem coalesceFrame_modifyBlock (g : MIRGraph) (b : Nat) (f : MBasicBlock → MBasicBlock)
    (hp : ∀ blk, (f blk).predecessors.length = blk.predecessors.length)
    (hphi : ∀ blk, (f blk).phis.Sublist blk.phis) : CoalesceFrame g (modifyBlock g b f) := by
  refine ⟨by simp [modifyBlock], fun x => ?_, fun x => ?_, fun _ => rfl⟩
  · rw [predecessorsOf_modifyBlock]
    unfold predecessorsOf
    cases g.block x with
    | none => rfl
    | some blk =>
      simp only
      split_ifs
      · exact hp blk
      · rfl
  · rw [phisOf_modifyBlock]
    unfold phisOf
    cases g.block x with
    | none => exact List.Sublist.refl _
    | some blk =>
      simp only
      split_ifs
      · exact hphi blk
      · exact List.Sublist.refl _

theorem definition_replaceAllUsesWith_cfg (g : MIRGraph) (d r x : Nat) :
    (replaceAllUsesWith g d r).definition x =
      (g.definition x).map fun y =>
        if g.inGraph x then
          { y with operands := y.operands.map fun o => if o = d then r else o }
        else y := by
  simp only [replaceAllUsesWith, MIRGraph.definition, List.getElem?_map, List.getElem?_enum]
  cases g.defs[x]? <;> rfl

theorem coalesceFrame_replaceAllUsesWith (g : MIRGraph) (d r : Nat) :
    CoalesceFrame g (replaceAllUsesWith g d r) := by
  refine ⟨rfl, fun _ => rfl, fun _ => List.Sublist.refl _, fun x => ?_⟩
  rw [definition_replaceAllUsesWith_cfg]
  cases g.definition x with
  | none => rfl
  | some y =>
    simp only [Option.map_some', Option.some.injEq]
    split_ifs
    · simp
    · rfl

theorem coalesceFrame_discardPhi (g : MIRGraph) (b phi : Nat) :
    CoalesceFrame g (discardPhi g b phi) :=
  coalesceFrame_modifyBlock g b _ (fun _ => rfl) (fun _ => List.erase_sublist _ _)

end CFG

namespace CFG

theorem unaryPhis_spec {g : MIRGraph} (h : unaryPhis g = true) (b : Nat)
    (hb : (predecessorsOf g b).length = 1) :
    ∀ phi ∈ phisOf g b, ∃ p, g.definition phi = some p ∧ p.operands.length = 1 := by
  intro phi hphi
  unfold phisOf at hphi
  unfold predecessorsOf at hb
  cases hblk : g.block b with
  | none => simp [hblk] at hphi
  | some blk =>
    rw [hblk] at hphi hb
    simp only [unaryPhis, List.all_eq_true, Bool.or_eq_true, decide_eq_true_eq] at h
    rcases h blk (List.getElem?_mem hblk) with h1 | h1
    · exact absurd hb h1
    · have := h1 phi hphi
      cases hd : g.definition phi with
      | none => simp [hd] at this
      | some p =>
        simp only [hd, decide_eq_true_eq] at this
        exact ⟨p, rfl, this⟩

/-- The loop over the Phis on a block all of whose Phis have one operand:
with fuel for each Phi it does not run out of fuel, and what it returns is
within the frame. -/
theorem replacePhis_frame (block : Nat) :
    ∀ (fuel : Nat) (g : MIRGraph),
      (∀ phi ∈ phisOf g block, ∃ p, g.definition phi = some p ∧ p.operands.length = 1) →
      (phisOf g block).length ≤ fuel →
      replacePhis fuel g block ≠ .fail .outOfFuel ∧
        ∀ g', replacePhis fuel g block = .ok g' → CoalesceFrame g g' := by
  intro fuel
  induction fuel with
  | zero =>
    intro g _ hlen
    unfold replacePhis
    cases hb : g.block block with
    | none => simp
    | some blk =>
      have hnil : blk.phis = [] := by
        simpa [phisOf, hb] using hlen
      simp only [hnil]
      refine ⟨by simp, fun g' h => ?_⟩
      cases h
      exact coalesceFrame_refl g
  | succ n ih =>
    intro g hun hlen
    unfold replacePhis
    cases hb : g.block block with
    | none => simp
    | some blk =>
      cases hphis : blk.phis with
      | nil =>
        simp only [hphis]
        refine ⟨by simp, fun g' h => ?_⟩
        simp only [Run.ok.injEq] at h
        subst h
        exact coalesceFrame_refl g
      | cons phi rest =>
        have hL : phisOf g block = phi :: rest := by simp [phisOf, hb, hphis]
        obtain ⟨p, hp, hone⟩ := hun phi (by rw [hL]; exact List.mem_cons_self _ _)
        simp only [hphis, hp, hone, if_true]
        cases hop : p.operands[0]? with
        | none => simp
        | some operand =>
          simp only
          have hf1 : CoalesceFrame g (discardPhi (replaceAllUsesWith g phi operand) block phi) :=
            coalesceFrame_trans (coalesceFrame_replaceAllUsesWith g phi operand)
              (coalesceFrame_discardPhi _ block phi)
          have hL1 : phisOf (discardPhi (replaceAllUsesWith g phi operand) block phi) block =
              rest := by
            have hb' : (replaceAllUsesWith g phi operand).block block = some blk := hb
            simp only [discardPhi, phisOf_modifyBlock, hb', if_true, hphis]
            simp
          have hun1 : ∀ q ∈ phisOf (discardPhi (replaceAllUsesWith g phi operand) block phi)
              block, ∃ y, (discardPhi (replaceAllUsesWith g phi operand) block phi).definition q =
                some y ∧ y.operands.length = 1 := by
            intro q hq
            rw [hL1] at hq
            obtain ⟨y, hy, hy1⟩ := hun q (by rw [hL]; exact List.mem_cons_of_mem _ hq)
            have := hf1.defs q
            rw [hy] at this
            cases hd : (discardPhi (replaceAllUsesWith g phi operand) block phi).definition q with
            | none => simp [hd] at this
            | some y' =>
              simp only [hd, Option.map_some', Option.some.injEq] at this
              exact ⟨y', rfl, this.trans hy1⟩
          have hlen1 : (phisOf (discardPhi (replaceAllUsesWith g phi operand) block phi)
              block).length ≤ n := by
            rw [hL1]
            rw [hL] at hlen
            simpa using hlen
          obtain ⟨hne, hfr⟩ := ih _ hun1 hlen1
          exact ⟨hne, fun g' h => coalesceFrame_trans hf1 (hfr g' h)⟩

/-- The loop over the Phis does not advance on a Phi that has not exactly one
operand: it runs until the fuel is used up, whatever the fuel. -/
theorem replacePhis_stuck (g : MIRGraph) (block phi : Nat) (rest : List Nat) (p : MDefinition)
    (hphis : phisOf g block = phi :: rest) (hp : g.definition phi = some p)
    (hne : p.operands.length ≠ 1) :
    ∀ fuel, replacePhis fuel g block = .fail .outOfFuel := by
  intro fuel
  induction fuel with
  | zero =>
    unfold replacePhis
    cases hb : g.block block with
    | none => simp [phisOf, hb] at hphis
    | some blk =>
      have : blk.phis = phi :: rest := by simpa [phisOf, hb] using hphis
      simp only [this]
  | succ n ih =>
    unfold replacePhis
    cases hb : g.block block with
    | none => simp [phisOf, hb] at hphis
    | some blk =>
      have : blk.phis = phi :: rest := by simpa [phisOf, hb] using hphis
      simp only [this, hp, hne, if_false]
      exact ih

theorem replacePredecessor_frame {g g' : MIRGraph} {s old new : Nat}
    (h : replacePredecessor g s old new = .ok g') : CoalesceFrame g g' := by
  unfold replacePredecessor at h
  cases hb : g.block s with
  | none => simp [hb] at h
  | some blk =>
    simp only [hb] at h
    split_ifs at h
    cases h
    exact coalesceFrame_modifyBlock g s _ (fun _ => length_replace _ _ _)
      (fun _ => List.Sublist.refl _)

theorem replacePredecessors_frame (block pred : Nat) (ss : List Nat) (g g' : MIRGraph)
    (h : replacePredecessors block pred ss g = .ok g') : CoalesceFrame g g' := by
  induction ss generalizing g with
  | nil =>
    simp only [replacePredecessors, Run.ok.injEq] at h
    subst h
    exact coalesceFrame_refl g
  | cons s rest ih =>
    simp only [replacePredecessors] at h
    cases h1 : replacePredecessor g s block pred with
    | fail e => simp [h1] at h
    | ok g1 =>
      rw [h1] at h
      exact coalesceFrame_trans (replacePredecessor_frame h1) (ih g1 h)

theorem coalesceFrame_blocks (g : MIRGraph) (bs : List Nat) :
    CoalesceFrame g { g with blocks := bs } :=
  ⟨rfl, fun _ => rfl, fun _ => List.Sublist.refl _, fun _ => rfl⟩

theorem mergeBlock_frame {g g' : MIRGraph} {block pred : Nat}
    (h : mergeBlock g block pred = .ok g') : CoalesceFrame g g' := by
  unfold mergeBlock at h
  cases hb : g.block block with
  | none => simp [hb] at h
  | some blk =>
    cases hp : g.block pred with
    | none => simp [hb, hp] at h
    | some p =>
      simp only [hb, hp] at h
      split_ifs at h
      cases hs : successorsOf g block with
      | none => simp [hs] at h
      | some succs =>
        simp only [hs] at h
        cases h1 : replacePredecessors block pred succs g with
        | fail e => simp [h1] at h
        | ok g1 =>
          simp only [h1, Run.ok.injEq] at h
          subst h
          have hA := coalesceFrame_modifyBlock g1 pred
            (fun x => { x with instructions := x.instructions.dropLast ++ blk.instructions })
            (fun _ => rfl) (fun _ => List.Sublist.refl _)
          have hB := coalesceFrame_modifyBlock
            (modifyBlock g1 pred fun x =>
              { x with instructions := x.instructions.dropLast ++ blk.instructions })
            block (fun x => { x with instructions := [] }) (fun _ => rfl)
            (fun _ => List.Sublist.refl _)
          exact coalesceFrame_trans (replacePredecessors_frame _ _ _ _ _ h1)
            (coalesceFrame_trans hA (coalesceFrame_trans hB (coalesceFrame_blocks _ _)))

end CFG

namespace CFG

theorem unaryPhis_frame {g g' : MIRGraph} (hf : CoalesceFrame g g') (h : UnaryPhis g) :
    UnaryPhis g' := by
  intro b hb phi hphi
  obtain ⟨p, hp, hone⟩ := h b ((hf.preds b).symm.trans hb) phi ((hf.phis b).subset hphi)
  have := hf.defs phi
  rw [hp] at this
  cases hd : g'.definition phi with
  | none => simp [hd] at this
  | some p' =>
    simp only [hd, Option.map_some', Option.some.injEq] at this
    exact ⟨p', rfl, this.trans hone⟩

theorem phisOf_length_frame {g g' : MIRGraph} (hf : CoalesceFrame g g') {n : Nat}
    (h : ∀ b, (phisOf g b).length ≤ n) : ∀ b, (phisOf g' b).length ≤ n :=
  fun b => le_trans (hf.phis b).length_le (h b)

theorem replacePredecessors_no_fuel (block pred : Nat) (ss : List Nat) (g : MIRGraph)
    (h : replacePredecessors block pred ss g = .fail .outOfFuel) : False := by
  induction ss generalizing g with
  | nil => simp [replacePredecessors] at h
  | cons s rest ih =>
    simp only [replacePredecessors] at h
    cases h1 : replacePredecessor g s block pred with
    | fail e =>
      rw [h1] at h
      simp only [Run.fail.injEq] at h
      subst h
      unfold replacePredecessor at h1
      cases hb : g.block s with
      | none => simp [hb] at h1
      | some blk =>
        simp only [hb] at h1
        split_ifs at h1
        cases h1
    | ok g1 =>
      rw [h1] at h
      exact ih g1 h

theorem coalesceBlock_frame (fuel : Nat) (g : MIRGraph) (block : Nat) (hun : UnaryPhis g)
    (hfuel : ∀ b, (phisOf g b).length ≤ fuel) :
    coalesceBlock fuel g block ≠ .fail .outOfFuel ∧
      ∀ g', coalesceBlock fuel g block = .ok g' → CoalesceFrame g g' := by
  unfold coalesceBlock
  cases hb : g.block block with
  | none => simp
  | some blk =>
    simp only
    have hid : (Run.ok g : Run MIRGraph) ≠ .fail .outOfFuel ∧
        ∀ g', (Run.ok g : Run MIRGraph) = .ok g' → CoalesceFrame g g' :=
      ⟨by simp, fun g' h => by cases h; exact coalesceFrame_refl g⟩
    cases hpreds : blk.predecessors with
    | nil => exact hid
    | cons pred rest =>
      cases rest with
      | cons _ _ => exact hid
      | nil =>
        simp only
        cases hl : lastIns g pred with
        | none => simp
        | some predLastIns =>
          simp only
          cases hd : g.definition predLastIns with
          | none => simp
          | some last =>
            simp only
            split_ifs
            · exact hid
            · cases hc : canCoalesce g blk.instructions with
              | none => simp
              | some c =>
                cases c with
                | false => exact hid
                | true =>
                  simp only
                  have hone : (predecessorsOf g block).length = 1 := by
                    simp [predecessorsOf, hb, hpreds]
                  obtain ⟨hne, hfr⟩ := replacePhis_frame block fuel g (hun block hone)
                    (hfuel block)
                  cases h1 : replacePhis fuel g block with
                  | fail e =>
                    simp only [ne_eq, Run.fail.injEq, reduceCtorEq, false_implies, implies_true,
                      and_true]
                    intro he
                    subst he
                    exact hne h1
                  | ok g1 =>
                    simp only
                    constructor
                    · unfold mergeBlock
                      cases g1.block block with
                      | none => simp
                      | some blk1 =>
                        cases g1.block pred with
                        | none => simp
                        | some p1 =>
                          simp only
                          split_ifs
                          · simp
                          · cases successorsOf g1 block with
                            | none => simp
                            | some ss =>
                              simp only
                              cases h2 : replacePredecessors block pred ss g1 with
                              | ok g2 => simp
                              | fail e =>
                                simp only [ne_eq, Run.fail.injEq]
                                intro he
                                subst he
                                exact replacePredecessors_no_fuel _ _ _ _ h2
                    · intro g' h
                      exact coalesceFrame_trans (hfr g1 h1) (mergeBlock_frame h)

end CFG

namespace CFG

theorem coalesceBlocks_terminates (fuel : Nat) (bs : List Nat) (g : MIRGraph)
    (hun : UnaryPhis g) (hfuel : ∀ b, (phisOf g b).length ≤ fuel) :
    coalesceBlocks fuel bs g ≠ .fail .outOfFuel := by
  induction bs generalizing g with
  | nil => simp [coalesceBlocks]
  | cons b rest ih =>
    simp only [coalesceBlocks]
    obtain ⟨hne, hfr⟩ := coalesceBlock_frame fuel g b hun hfuel
    cases h1 : coalesceBlock fuel g b with
    | fail e =>
      simp only [ne_eq, Run.fail.injEq]
      intro he
      subst he
      exact hne h1
    | ok g1 =>
      simp only
      exact ih g1 (unaryPhis_frame (hfr g1 h1) hun) (phisOf_length_frame (hfr g1 h1) hfuel)

theorem unaryPhis_of_bool {g : MIRGraph} (h : unaryPhis g = true) : UnaryPhis g :=
  fun b hb => unaryPhis_spec h b hb

theorem phisAtMost_spec {g : MIRGraph} {n : Nat} (h : phisAtMost g n = true) :
    ∀ b, (phisOf g b).length ≤ n := by
  intro b
  unfold phisOf
  cases hb : g.block b with
  | none => simp
  | some blk =>
    simp only [phisAtMost, List.all_eq_true, decide_eq_true_eq] at h
    exact h blk (List.getElem?_mem hb)

/-- C36: `CoalesceBlocks` terminates on every graph that satisfies the Phi
arity invariant (every Phi of a block with one predecessor has exactly one
operand): with fuel for the Phis of a block, no loop of the pass runs out of
fuel.  The loop over the Phis advances only by discarding a Phi with one
operand: on such a Phi it goes on with the graph without the Phi, and on a
first Phi with another number of operands it comes to the same Phi again and
uses up any fuel. -/
theorem CoalesceBlocks_terminates (fuel : Nat) (g : MIRGraph)
    (hun : unaryPhis g = true) (hfuel : phisAtMost g fuel = true) :
    CoalesceBlocks fuel g ≠ .fail .outOfFuel ∧
    (∀ (g0 : MIRGraph) (block phi operand : Nat) (rest : List Nat) (p : MDefinition) (n : Nat),
      phisOf g0 block = phi :: rest → g0.definition phi = some p → p.operands = [operand] →
      replacePhis (n + 1) g0 block =
        replacePhis n (discardPhi (replaceAllUsesWith g0 phi operand) block phi) block) ∧
    ∀ (g0 : MIRGraph) (block phi : Nat) (rest : List Nat) (p : MDefinition),
      phisOf g0 block = phi :: rest → g0.definition phi = some p → p.operands.length ≠ 1 →
      ∀ n, replacePhis n g0 block = .fail .outOfFuel := by
  refine ⟨coalesceBlocks_terminates fuel g.blocks g (unaryPhis_of_bool hun)
    (phisAtMost_spec hfuel), ?_, fun g0 block phi rest p => replacePhis_stuck g0 block phi rest p⟩
  intro g0 block phi operand rest p n hphis hp hops
  conv_lhs => unfold replacePhis
  cases hb : g0.block block with
  | none => simp [phisOf, hb] at hphis
  | some blk =>
    have : blk.phis = phi :: rest := by simpa [phisOf, hb] using hphis
    simp only [this, hp, hops, List.length_singleton, if_true, List.getElem?_cons_zero]

theorem CoalesceBlocks_terminates_witness :
    unaryPhis chainGraph = true ∧ phisAtMost chainGraph 1 = true ∧
    CoalesceBlocks 1 chainGraph = .ok chainGraphCoalesced ∧
    CoalesceBlocks 1 chainGraph ≠ .fail .outOfFuel ∧
    ∀ n, replacePhis n chainGraphBinaryPhi 1 = .fail .outOfFuel :=
  ⟨by decide, by decide, by decide,
    (CoalesceBlocks_terminates 1 chainGraph (by decide) (by decide)).1,
    (CoalesceBlocks_terminates 1 chainGraph (by decide) (by decide)).2.2
      chainGraphBinaryPhi 1 2 [] { op := Opcode.Phi, operands := [0, 0] } (by decide) (by decide)
      (by decide)⟩

end CFG

/-! ## CoalesceBlocks: the merge -/

namespace CFG

/-- The first `k` entries `a` of the list become `b`. -/
theorem iterate_replace_cons_ne (l : List Nat) (a b c k : Nat) (h : c ≠ a) :
    (fun x : List Nat => x.replace a b)^[k] (c :: l) =
      c :: (fun x : List Nat => x.replace a b)^[k] l := by
  induction k generalizing l with
  | zero => rfl
  | succ k ih =>
    rw [Function.iterate_succ_apply, Function.iterate_succ_apply, replace_cons_ne l a b c h, ih]

theorem iterate_replace_count (l : List Nat) (a b : Nat) (h : b ≠ a) :
    (fun x : List Nat => x.replace a b)^[l.count a] l = l.map fun x => if x = a then b else x := by
  induction l with
  | nil => simp
  | cons c l ih =>
    by_cases hc : c = a
    · subst hc
      simp only [List.count_cons_self, Function.iterate_succ_apply, replace_cons_self,
        List.map_cons, if_true]
      rw [iterate_replace_cons_ne l c b b _ h, ih]
    · have hcount : (c :: l).count a = l.count a := by
        simp [List.count_cons, hc]
      rw [hcount, iterate_replace_cons_ne l a b c _ hc, ih]
      simp [hc]

end CFG

namespace CFG

theorem onlyPreds_refl (g : MIRGraph) : OnlyPreds g g :=
  ⟨rfl, rfl, rfl, rfl, fun _ => rfl, fun _ => rfl⟩

theorem onlyPreds_trans {a b c : MIRGraph} (h1 : OnlyPreds a b) (h2 : OnlyPreds b c) :
    OnlyPreds a c :=
  ⟨h2.blocks.trans h1.blocks, h2.defs.trans h1.defs, h2.resumePoints.trans h1.resumePoints,
    h2.table.trans h1.table, fun x => (h2.phis x).trans (h1.phis x),
    fun x => (h2.instructions x).trans (h1.instructions x)⟩

theorem onlyPreds_modifyBlock (g : MIRGraph) (b : Nat) (f : List Nat → List Nat) :
    OnlyPreds g (modifyBlock g b fun x => { x with predecessors := f x.predecessors }) := by
  refine ⟨rfl, rfl, rfl, by simp [modifyBlock], fun x => ?_, fun x => ?_⟩
  · rw [phisOf_modifyBlock]
    unfold phisOf
    cases g.block x with
    | none => rfl
    | some blk => simp only; split_ifs <;> rfl
  · rw [instructionsOf_modifyBlock]
    unfold instructionsOf
    cases g.block x with
    | none => rfl
    | some blk => simp only; split_ifs <;> rfl

theorem replacePredecessors_spec (B P : Nat) :
    ∀ (ss : List Nat) (g : MIRGraph),
      (∀ S, ss.count S ≤ (predecessorsOf g S).count B) → (ss ≠ [] → P ≠ B) →
      ∃ g', replacePredecessors B P ss g = .ok g' ∧ OnlyPreds g g' ∧
        ∀ S, predecessorsOf g' S =
          (fun x : List Nat => x.replace B P)^[ss.count S] (predecessorsOf g S) := by
  intro ss
  induction ss with
  | nil =>
    intro g _ _
    exact ⟨g, rfl, onlyPreds_refl g, fun S => by simp⟩
  | cons s rest ih =>
    intro g hcount hne
    have hPB : P ≠ B := hne (List.cons_ne_nil _ _)
    have hs := hcount s
    simp only [List.count_cons_self] at hs
    have hmem : B ∈ predecessorsOf g s := List.count_pos_iff.mp (by omega)
    cases hb : g.block s with
    | none => simp [predecessorsOf, hb] at hmem
    | some blk =>
      have hmem' : B ∈ blk.predecessors := by simpa [predecessorsOf, hb] using hmem
      have h1 : replacePredecessor g s B P =
          .ok (modifyBlock g s fun x => { x with predecessors := x.predecessors.replace B P }) := by
        simp [replacePredecessor, hb, hmem']
      have hpreds : ∀ S, predecessorsOf
          (modifyBlock g s fun x => { x with predecessors := x.predecessors.replace B P }) S =
          if s = S then (predecessorsOf g S).replace B P else predecessorsOf g S := by
        intro S
        rw [predecessorsOf_modifyBlock]
        unfold predecessorsOf
        cases g.block S with
        | none => simp
        | some blkS => simp only
      obtain ⟨g', hrun, hfr, hres⟩ := ih
        (modifyBlock g s fun x => { x with predecessors := x.predecessors.replace B P })
        (by
          intro S
          rw [hpreds S]
          have hS := hcount S
          by_cases hsS : s = S
          · subst hsS
            rw [if_pos rfl]
            have := count_replace_add (predecessorsOf g s) B P B hmem
            simp only [if_true, hPB, if_false] at this
            omega
          · rw [if_neg hsS]
            have hc : (s :: rest).count S = rest.count S := by
              simp [List.count_cons, hsS]
            omega)
        (fun _ => hPB)
      refine ⟨g', ?_, onlyPreds_trans (onlyPreds_modifyBlock g s fun l => l.replace B P) hfr, ?_⟩
      · simp only [replacePredecessors, h1, hrun]
      · intro S
        rw [hres S, hpreds S]
        by_cases hsS : s = S
        · subst hsS
          simp only [if_true, List.count_cons_self, Function.iterate_succ_apply]
        · have : (s :: rest).count S = rest.count S := by
            simp [List.count_cons, hsS]
          rw [if_neg hsS, this]

end CFG

namespace CFG

theorem onlyUses_refl (g : MIRGraph) (block : Nat) : OnlyUses g g block :=
  ⟨rfl, rfl, fun _ => rfl, fun _ => rfl, fun _ _ => rfl, fun _ => rfl⟩

theorem onlyUses_trans {a b c : MIRGraph} {block : Nat} (h1 : OnlyUses a b block)
    (h2 : OnlyUses b c block) : OnlyUses a c block :=
  ⟨h2.blocks.trans h1.blocks, h2.table.trans h1.table, fun x => (h2.preds x).trans (h1.preds x),
    fun x => (h2.instructions x).trans (h1.instructions x),
    fun x hx => (h2.phis x hx).trans (h1.phis x hx), fun x => (h2.defs x).trans (h1.defs x)⟩

theorem onlyUses_replacePhi (g : MIRGraph) (block phi : Nat) :
    OnlyUses g (replacePhi block g phi) block := by
  unfold replacePhi
  cases hp : g.definition phi with
  | none => exact onlyUses_refl g block
  | some p =>
    cases hop : p.operands[0]? with
    | none =>
      simp only [hop]
      exact onlyUses_refl g block
    | some operand =>
      simp only [hop]
      refine ⟨rfl, by simp [discardPhi, modifyBlock, replaceAllUsesWith], fun b => ?_, fun b => ?_,
        fun b hb => ?_, fun d => ?_⟩
      · show predecessorsOf (modifyBlock _ _ _) b = _
        rw [predecessorsOf_modifyBlock]
        have : (replaceAllUsesWith g phi operand).block b = g.block b := rfl
        rw [this]
        unfold predecessorsOf
        cases g.block b with
        | none => rfl
        | some blk => simp only; split_ifs <;> rfl
      · show instructionsOf (modifyBlock _ _ _) b = _
        rw [instructionsOf_modifyBlock]
        have : (replaceAllUsesWith g phi operand).block b = g.block b := rfl
        rw [this]
        unfold instructionsOf
        cases g.block b with
        | none => rfl
        | some blk => simp only; split_ifs <;> rfl
      · show phisOf (modifyBlock _ _ _) b = _
        rw [phisOf_modifyBlock]
        have : (replaceAllUsesWith g phi operand).block b = g.block b := rfl
        rw [this]
        unfold phisOf
        cases g.block b with
        | none => rfl
        | some blk =>
          simp only
          rw [if_neg (fun h => hb h.symm)]
      · show ((replaceAllUsesWith g phi operand).definition d).map _ = _
        rw [definition_replaceAllUsesWith_cfg]
        cases g.definition d with
        | none => rfl
        | some y =>
          simp only [Option.map_some', Option.some.injEq]
          split_ifs <;> rfl

theorem onlyUses_foldl (block : Nat) (l : List Nat) (g : MIRGraph) :
    OnlyUses g (l.foldl (replacePhi block) g) block := by
  induction l generalizing g with
  | nil => exact onlyUses_refl g block
  | cons phi rest ih =>
    exact onlyUses_trans (onlyUses_replacePhi g block phi) (ih _)

/-- The loop over the Phis of a block all of whose Phis have one operand
replaces them one after the other. -/
theorem replacePhis_spec (block : Nat) :
    ∀ (fuel : Nat) (g : MIRGraph), (∃ blk, g.block block = some blk) →
      (∀ phi ∈ phisOf g block, ∃ p, g.definition phi = some p ∧ p.operands.length = 1) →
      (phisOf g block).length ≤ fuel →
      replacePhis fuel g block = .ok ((phisOf g block).foldl (replacePhi block) g) ∧
        phisOf ((phisOf g block).foldl (replacePhi block) g) block = [] := by
  intro fuel
  induction fuel with
  | zero =>
    intro g hex _ hlen
    obtain ⟨blk, hb⟩ := hex
    unfold replacePhis
    have hnil : blk.phis = [] := by
      simpa [phisOf, hb] using hlen
    simp [phisOf, hb, hnil]
  | succ n ih =>
    intro g hex hun hlen
    obtain ⟨blk, hb⟩ := hex
    unfold replacePhis
    cases hphis : blk.phis with
    | nil => simp [phisOf, hb, hphis]
    | cons phi rest =>
      have hL : phisOf g block = phi :: rest := by simp [phisOf, hb, hphis]
      obtain ⟨p, hp, hone⟩ := hun phi (by rw [hL]; exact List.mem_cons_self _ _)
      have hop : p.operands[0]? = some (p.operands[0]) :=
        List.getElem?_eq_getElem (by omega)
      have hstep : replacePhi block g phi =
          discardPhi (replaceAllUsesWith g phi (p.operands[0])) block phi := by
        simp only [replacePhi, hp, hop]
      have hf1 : CoalesceFrame g
          (discardPhi (replaceAllUsesWith g phi (p.operands[0])) block phi) :=
        coalesceFrame_trans (coalesceFrame_replaceAllUsesWith g phi _)
          (coalesceFrame_discardPhi _ block phi)
      have hb' : (replaceAllUsesWith g phi (p.operands[0])).block block = some blk := hb
      have hL1 : phisOf (discardPhi (replaceAllUsesWith g phi (p.operands[0])) block phi) block =
          rest := by
        simp only [discardPhi, phisOf_modifyBlock, hb', if_true, hphis]
        simp
      have hex1 : ∃ blk1, (discardPhi (replaceAllUsesWith g phi (p.operands[0])) block
          phi).block block = some blk1 := by
        simp only [discardPhi, block_modifyBlock, hb', Option.map_some']
        exact ⟨_, rfl⟩
      have hun1 : ∀ q ∈ phisOf (discardPhi (replaceAllUsesWith g phi (p.operands[0])) block phi)
          block, ∃ y, (discardPhi (replaceAllUsesWith g phi (p.operands[0])) block
            phi).definition q = some y ∧ y.operands.length = 1 := by
        intro q hq
        rw [hL1] at hq
        obtain ⟨y, hy, hy1⟩ := hun q (by rw [hL]; exact List.mem_cons_of_mem _ hq)
        have := hf1.defs q
        rw [hy] at this
        cases hd : (discardPhi (replaceAllUsesWith g phi (p.operands[0])) block
            phi).definition q with
        | none => simp [hd] at this
        | some y' =>
          simp only [hd, Option.map_some', Option.some.injEq] at this
          exact ⟨y', rfl, this.trans hy1⟩
      have hlen1 : (phisOf (discardPhi (replaceAllUsesWith g phi (p.operands[0])) block phi)
          block).length ≤ n := by
        rw [hL1]
        rw [hL] at hlen
        simpa using hlen
      have := ih _ hex1 hun1 hlen1
      rw [hL1] at this
      rw [hL, List.foldl_cons, hstep]
      simp only [hb, hphis, hp, hone, if_true, hop]
      exact this

end CFG

namespace CFG

theorem canCoalesce_eq (g : MIRGraph) (l : List Nat)
    (h : ∀ i ∈ l, ∃ d, g.definition i = some d) :
    canCoalesce g l = some (l.all fun i =>
      match g.definition i with
      | some d => !d.unmovable
      | none => false) := by
  induction l with
  | nil => rfl
  | cons i rest ih =>
    obtain ⟨d, hd⟩ := h i (List.mem_cons_self _ _)
    simp only [canCoalesce, hd, List.all_cons]
    cases hu : d.unmovable with
    | true => simp
    | false =>
      simp only [Bool.false_eq_true, if_false, Bool.not_false, Bool.true_and]
      exact ih fun j hj => h j (List.mem_cons_of_mem _ hj)

theorem lastIns_eq (g : MIRGraph) (b : Nat) : lastIns g b = (instructionsOf g b).getLast? := by
  unfold lastIns instructionsOf
  cases g.block b <;> rfl

theorem successorsOf_onlyUses {g g' : MIRGraph} {block : Nat} (h : OnlyUses g g' block)
    (b : Nat) : successorsOf g' b = successorsOf g b := by
  have hl : lastIns g' b = lastIns g b := by
    rw [lastIns_eq, lastIns_eq, h.instructions b]
  unfold successorsOf
  rw [hl]
  cases lastIns g b with
  | none => rfl
  | some l =>
    simp only
    have := h.defs l
    cases h1 : g'.definition l <;> cases h2 : g.definition l <;> simp [h1, h2] at this ⊢
    exact this.2

theorem block_of_instructionsOf {g : MIRGraph} {b : Nat} (h : instructionsOf g b ≠ []) :
    ∃ blk, g.block b = some blk ∧ blk.instructions = instructionsOf g b := by
  unfold instructionsOf at h ⊢
  cases hb : g.block b with
  | none => simp [hb] at h
  | some blk => exact ⟨blk, rfl, rfl⟩

theorem instructionsOf_ne_nil {g : MIRGraph} {b l : Nat} (h : lastIns g b = some l) :
    instructionsOf g b ≠ [] := by
  unfold lastIns at h
  unfold instructionsOf
  cases hb : g.block b with
  | none => simp [hb] at h
  | some blk =>
    simp only [hb] at h ⊢
    intro hnil
    simp [hnil] at h

end CFG

namespace CFG

theorem mergeable_spec {g : MIRGraph} {B P : Nat} (h : mergeable g B P = true) :
    predecessorsOf g B = [P] ∧
    (∃ l d, lastIns g P = some l ∧ g.definition l = some d ∧ d.successors.length = 1 ∧
      d.op = Opcode.Goto) ∧
    (∀ i ∈ instructionsOf g B, ∃ d, g.definition i = some d) ∧
    ((instructionsOf g B).all fun i =>
      match g.definition i with
      | some d => !d.unmovable
      | none => false) = true := by
  simp only [mergeable, Bool.and_eq_true, decide_eq_true_eq] at h
  obtain ⟨⟨h1, h2⟩, h3⟩ := h
  refine ⟨h1, ?_, ?_, h3⟩
  · cases hl : lastIns g P with
    | none => simp [hl] at h2
    | some l =>
      cases hd : g.definition l with
      | none => simp [hl, hd] at h2
      | some d =>
        simp only [hl, hd, Bool.and_eq_true, decide_eq_true_eq] at h2
        exact ⟨l, d, hl ▸ rfl, hd, h2.1, h2.2⟩
  · intro i hi
    rw [List.all_eq_true] at h3
    have := h3 i hi
    cases hd : g.definition i with
    | none => simp [hd] at this
    | some d => exact ⟨d, rfl⟩

theorem predecessorsOf_blocks (g : MIRGraph) (bs : List Nat) (S : Nat) :
    predecessorsOf { g with blocks := bs } S = predecessorsOf g S := rfl

theorem phisOf_blocks (g : MIRGraph) (bs : List Nat) (S : Nat) :
    phisOf { g with blocks := bs } S = phisOf g S := rfl

theorem instructionsOf_blocks (g : MIRGraph) (bs : List Nat) (S : Nat) :
    instructionsOf { g with blocks := bs } S = instructionsOf g S := rfl

theorem predecessorsOf_modifyBlock_same (g : MIRGraph) (b : Nat) (f : MBasicBlock → MBasicBlock)
    (hf : ∀ x, (f x).predecessors = x.predecessors) (S : Nat) :
    predecessorsOf (modifyBlock g b f) S = predecessorsOf g S := by
  rw [predecessorsOf_modifyBlock]
  unfold predecessorsOf
  cases g.block S with
  | none => rfl
  | some blk =>
    simp only
    split_ifs
    · exact hf blk
    · rfl

theorem phisOf_modifyBlock_same (g : MIRGraph) (b : Nat) (f : MBasicBlock → MBasicBlock)
    (hf : ∀ x, (f x).phis = x.phis) (S : Nat) :
    phisOf (modifyBlock g b f) S = phisOf g S := by
  rw [phisOf_modifyBlock]
  unfold phisOf
  cases g.block S with
  | none => rfl
  | some blk =>
    simp only
    split_ifs
    · exact hf blk
    · rfl

theorem instructionsOf_modifyBlock_ne (g : MIRGraph) (b : Nat) (f : MBasicBlock → MBasicBlock)
    (c : Nat) (h : b ≠ c) : instructionsOf (modifyBlock g b f) c = instructionsOf g c := by
  rw [instructionsOf_modifyBlock]
  unfold instructionsOf
  cases g.block c with
  | none => rfl
  | some blk => simp only [h, if_false]

theorem instructionsOf_modifyBlock_self (g : MIRGraph) (b : Nat) (f : MBasicBlock → MBasicBlock)
    (blk : MBasicBlock) (hb : g.block b = some blk) :
    instructionsOf (modifyBlock g b f) b = (f blk).instructions := by
  rw [instructionsOf_modifyBlock, hb]
  simp

/-- The merge of the block `B` into its predecessor `P`. -/
theorem coalesceBlock_merge (fuel : Nat) (g : MIRGraph) (B P : Nat) (hinv : EdgeInv g)
    (hB : B < g.table.length) (hm : mergeable g B P = true) (hPB : P ≠ B)
    (hun : ∀ phi ∈ phisOf g B, ∃ p, g.definition phi = some p ∧ p.operands.length = 1)
    (hfuel : (phisOf g B).length ≤ fuel) :
    ∃ g', coalesceBlock fuel g B = .ok g' ∧ g'.blocks = g.blocks.erase B ∧
      instructionsOf g' P = (instructionsOf g P).dropLast ++ instructionsOf g B ∧
      (∀ S, predecessorsOf g' S = (predecessorsOf g S).map fun x => if x = B then P else x) ∧
      phisOf g' B = [] ∧
      g'.defs = ((phisOf g B).foldl (replacePhi B) g).defs ∧
      g'.resumePoints = ((phisOf g B).foldl (replacePhi B) g).resumePoints ∧
      ∀ c, c ≠ B → (c ≠ P → instructionsOf g' c = instructionsOf g c) ∧
        phisOf g' c = phisOf g c := by
  obtain ⟨hpreds, ⟨l, d, hl, hd, hd1, hd2⟩, hdefs, hall⟩ := mergeable_spec hm
  obtain ⟨lB, yB, hlB, hyB, hsB, hsuccs⟩ := successorsOf_of_edgeInv hinv hB
  have hBins := instructionsOf_ne_nil hlB
  have hPins := instructionsOf_ne_nil hl
  obtain ⟨blk, hblk, hblkI⟩ := block_of_instructionsOf hBins
  obtain ⟨p, hp, hpI⟩ := block_of_instructionsOf hPins
  have hblkP : blk.predecessors = [P] := by simpa [predecessorsOf, hblk] using hpreds
  obtain ⟨hrun1, hnil⟩ := replacePhis_spec B fuel g ⟨blk, hblk⟩ hun hfuel
  have hu := onlyUses_foldl B (phisOf g B) g
  generalize (phisOf g B).foldl (replacePhi B) g = g1 at hrun1 hnil hu
  have hB1 := hu.instructions B
  have hP1 := hu.instructions P
  obtain ⟨blk1, hblk1, hblk1I⟩ := block_of_instructionsOf (g := g1) (b := B) (by rw [hB1]; exact hBins)
  obtain ⟨p1, hp1, hp1I⟩ := block_of_instructionsOf (g := g1) (b := P) (by rw [hP1]; exact hPins)
  have hs1 : successorsOf g1 B = some yB.successors := by
    rw [successorsOf_onlyUses hu, hsB]
  obtain ⟨g2, hrun2, hfr2, hpreds2⟩ := replacePredecessors_spec B P yB.successors g1
    (by
      intro S
      rw [hu.preds S, hinv.dual B S, hsuccs])
    (fun _ => hPB)
  obtain ⟨f1, hf1⟩ : ∃ f1 : MBasicBlock → MBasicBlock, f1 = fun x =>
      { x with instructions := x.instructions.dropLast ++ blk1.instructions } := ⟨_, rfl⟩
  obtain ⟨f2, hf2⟩ : ∃ f2 : MBasicBlock → MBasicBlock, f2 = fun x =>
      { x with instructions := [] } := ⟨_, rfl⟩
  have hf1p : ∀ x, (f1 x).predecessors = x.predecessors := fun x => by rw [hf1]
  have hf2p : ∀ x, (f2 x).predecessors = x.predecessors := fun x => by rw [hf2]
  have hf1phi : ∀ x, (f1 x).phis = x.phis := fun x => by rw [hf1]
  have hf2phi : ∀ x, (f2 x).phis = x.phis := fun x => by rw [hf2]
  have hmerge : mergeBlock g1 B P = .ok
      { (modifyBlock (modifyBlock g2 P f1) B f2) with
        blocks := (modifyBlock (modifyBlock g2 P f1) B f2).blocks.erase B } := by
    unfold mergeBlock
    have e1 : ¬ (blk1.instructions = [] ∨ p1.instructions = [] ∨ B = P) := by
      rw [hblk1I, hp1I, hB1, hP1]
      rintro (h | h | h)
      · exact hBins h
      · exact hPins h
      · exact hPB h.symm
    simp only [hblk1, hp1, e1, if_false, hs1, hrun2, hf1, hf2]
  have hcan : canCoalesce g blk.instructions = some true := by
    rw [hblkI, canCoalesce_eq g _ hdefs]
    exact congrArg some hall
  have hcond : ¬ (d.successors.length ≠ 1 ∨ d.op ≠ Opcode.Goto) := by
    rintro (h | h)
    · exact h hd1
    · exact h hd2
  refine ⟨{ (modifyBlock (modifyBlock g2 P f1) B f2) with
    blocks := (modifyBlock (modifyBlock g2 P f1) B f2).blocks.erase B },
    ?_, ?_, ?_, ?_, ?_, ?_, ?_, ?_⟩
  · simp only [coalesceBlock, hblk, hblkP, hl, hd, hcond, if_false, hcan, hrun1]
    exact hmerge
  · simp only [modifyBlock]
    rw [hfr2.blocks, hu.blocks]
  · have hp2 : instructionsOf g2 P = instructionsOf g P := (hfr2.instructions P).trans hP1
    obtain ⟨p2, hp2b, hp2I⟩ := block_of_instructionsOf (g := g2) (b := P)
      (by rw [hp2]; exact hPins)
    rw [instructionsOf_blocks, instructionsOf_modifyBlock_ne _ B f2 P (Ne.symm hPB),
      instructionsOf_modifyBlock_self g2 P f1 p2 hp2b, hf1]
    simp only
    rw [hp2I, hp2, hblk1I, hB1]
  · intro S
    rw [predecessorsOf_blocks, predecessorsOf_modifyBlock_same _ B f2 hf2p,
      predecessorsOf_modifyBlock_same g2 P f1 hf1p, hpreds2 S, hu.preds S, ← hsuccs,
      ← hinv.dual B S]
    exact iterate_replace_count _ B P hPB
  · rw [phisOf_blocks, phisOf_modifyBlock_same _ B f2 hf2phi,
      phisOf_modifyBlock_same g2 P f1 hf1phi]
    exact (hfr2.phis B).trans hnil
  · simp only [modifyBlock]
    exact hfr2.defs
  · simp only [modifyBlock]
    exact hfr2.resumePoints
  · intro c hc
    constructor
    · intro hcP
      rw [instructionsOf_blocks, instructionsOf_modifyBlock_ne _ B f2 c (Ne.symm hc),
        instructionsOf_modifyBlock_ne g2 P f1 c (Ne.symm hcP)]
      exact (hfr2.instructions c).trans (hu.instructions c)
    · rw [phisOf_blocks, phisOf_modifyBlock_same _ B f2 hf2phi,
        phisOf_modifyBlock_same g2 P f1 hf1phi]
      exact (hfr2.phis c).trans (hu.phis c hc)

end CFG

namespace CFG

/-- A block that fails the test of `CoalesceBlocks` is left alone. -/
theorem coalesceBlock_skip (fuel : Nat) (g : MIRGraph) (B : Nat) (hinv : EdgeInv g)
    (hB : B < g.table.length)
    (hins : ∀ i ∈ instructionsOf g B, (g.definition i).isSome = true)
    (hno : ∀ P, mergeable g B P = false) : coalesceBlock fuel g B = .ok g := by
  have hblk : g.block B = some (g.table[B]) := by
    simp [MIRGraph.block, List.getElem?_eq_getElem hB]
  unfold coalesceBlock
  rw [hblk]
  simp only
  cases hpreds : (g.table[B]).predecessors with
  | nil => rfl
  | cons P rest =>
    cases rest with
    | cons _ _ => rfl
    | nil =>
      simp only
      have hpo : predecessorsOf g B = [P] := by simp [predecessorsOf, hblk, hpreds]
      have hP : P < g.table.length := hinv.predsValid B P (by rw [hpo]; exact List.mem_singleton_self P)
      obtain ⟨l, y, hl, hy, _, _⟩ := successorsOf_of_edgeInv hinv hP
      simp only [hl, hy]
      split_ifs with hc
      · rfl
      · have hdefs : ∀ i ∈ (g.table[B]).instructions, ∃ d, g.definition i = some d := by
          intro i hi
          have := hins i (by simpa [instructionsOf, hblk] using hi)
          exact Option.isSome_iff_exists.mp this
        rw [canCoalesce_eq g _ hdefs]
        have hm := hno P
        simp only [mergeable, hpo, decide_True, Bool.true_and, hl, hy, instructionsOf, hblk,
          Bool.and_eq_false_iff, decide_eq_false_iff_not] at hm
        simp only [not_or, not_not] at hc
        rcases hm with (hm | hm) | hm
        · exact absurd hc.1 hm
        · exact absurd hc.2 hm
        · rw [hm]

/-- C16: `CoalesceBlocks` merges the block `B` into the block `P` exactly
when, at the time `B` is visited, `P` is the only predecessor of `B`, `P` has
exactly one successor and ends in a `Goto`, and no instruction of `B` is a
`GetPropertyCache`, `GetElementCache` or `CallGetElement`.  A block that fails
the test is left in the graph, which does not change.  After the merge the
instructions of `P` are its former instructions without the `Goto`, followed
by those of `B` in their order; every Phi of `B`, which has one operand, has
been replaced by its operand and `B` has no Phi left; `B` is off the block
list; and in every predecessor list `P` stands where `B` stood.  The graph is
coherent, `B` is not its own predecessor, and the fuel is that for the Phis of
`B`. -/
theorem coalesceBlock_merges_exactly (fuel : Nat) (g : MIRGraph) (B : Nat)
    (hco : edgesCoherent g = true) (hB : B < g.table.length)
    (hins : ∀ i ∈ instructionsOf g B, (g.definition i).isSome = true)
    (hself : B ∉ predecessorsOf g B) (hun : unaryPhis g = true)
    (hfuel : (phisOf g B).length ≤ fuel) :
    ((∀ P, mergeable g B P = false) → coalesceBlock fuel g B = .ok g) ∧
    ∀ P, mergeable g B P = true →
      ∃ g', coalesceBlock fuel g B = .ok g' ∧ g'.blocks = g.blocks.erase B ∧
        instructionsOf g' P = (instructionsOf g P).dropLast ++ instructionsOf g B ∧
        (∀ S, predecessorsOf g' S = (predecessorsOf g S).map fun x => if x = B then P else x) ∧
        phisOf g' B = [] ∧
        g'.defs = ((phisOf g B).foldl (replacePhi B) g).defs ∧
        g'.resumePoints = ((phisOf g B).foldl (replacePhi B) g).resumePoints ∧
        ∀ c, c ≠ B → (c ≠ P → instructionsOf g' c = instructionsOf g c) ∧
          phisOf g' c = phisOf g c := by
  have hinv := edgeInv_of_coherent hco
  refine ⟨coalesceBlock_skip fuel g B hinv hB hins, fun P hm => ?_⟩
  have hpreds := (mergeable_spec hm).1
  have hPB : P ≠ B := by
    rintro rfl
    exact hself (by rw [hpreds]; exact List.mem_singleton_self _)
  exact coalesceBlock_merge fuel g B P hinv hB hm hPB
    (unaryPhis_spec hun B (by rw [hpreds]; rfl)) hfuel

theorem coalesceBlock_merges_exactly_witness :
    mergeable chainGraph 1 0 = true ∧
    ∃ g', coalesceBlock 1 chainGraph 1 = .ok g' ∧ g'.blocks = [0, 2] ∧
      instructionsOf g' 0 = [0, 3, 4] ∧
      (∀ S, predecessorsOf g' S =
        (predecessorsOf chainGraph S).map fun x => if x = 1 then 0 else x) ∧
      phisOf g' 1 = [] ∧
      g'.defs = ((phisOf chainGraph 1).foldl (replacePhi 1) chainGraph).defs ∧
      g'.resumePoints = ((phisOf chainGraph 1).foldl (replacePhi 1) chainGraph).resumePoints ∧
      ∀ c, c ≠ 1 → (c ≠ 0 → instructionsOf g' c = instructionsOf chainGraph c) ∧
        phisOf g' c = phisOf chainGraph c :=
  ⟨by decide,
    (coalesceBlock_merges_exactly 1 chainGraph 1 (by decide) (by decide) (by decide) (by decide)
      (by decide) (by decide)).2 0 (by decide)⟩

end CFG

/-! ## DCEConditionals -/

namespace CFG

theorem sameCode_refl (g : MIRGraph) : SameCode g g :=
  ⟨rfl, fun _ => rfl, fun _ => rfl⟩

theorem sameCode_trans {a b c : MIRGraph} (h1 : SameCode a b) (h2 : SameCode b c) :
    SameCode a c :=
  ⟨h2.blocks.trans h1.blocks, fun x => (h2.instructions x).trans (h1.instructions x),
    fun x => (h2.defs x).trans (h1.defs x)⟩

theorem sameCode_modifyBlock (g : MIRGraph) (b : Nat) (f : MBasicBlock → MBasicBlock)
    (hf : ∀ x, (f x).instructions = x.instructions) : SameCode g (modifyBlock g b f) := by
  refine ⟨rfl, fun c => ?_, fun _ => rfl⟩
  rw [instructionsOf_modifyBlock]
  unfold instructionsOf
  cases g.block c with
  | none => rfl
  | some blk =>
    simp only
    split_ifs
    · exact hf blk
    · rfl

theorem sameCode_replaceAllUsesWith (g : MIRGraph) (d r : Nat) :
    SameCode g (replaceAllUsesWith g d r) := by
  refine ⟨rfl, fun _ => rfl, fun x => ?_⟩
  rw [definition_replaceAllUsesWith_cfg]
  cases g.definition x with
  | none => rfl
  | some y =>
    simp only [Option.map_some', Option.some.injEq]
    split_ifs <;> rfl

theorem sameCode_modifyDefinition (g : MIRGraph) (d : Nat) (f : MDefinition → MDefinition)
    (hf : ∀ y, (f y).op = y.op ∧ (f y).successors = y.successors) :
    SameCode g (modifyDefinition g d f) := by
  refine ⟨rfl, fun _ => rfl, fun x => ?_⟩
  rw [definition_modify_cfg]
  cases g.definition x with
  | none => rfl
  | some y =>
    simp only [Option.map_some', Option.some.injEq]
    split_ifs
    · rw [(hf y).1, (hf y).2]
    · rfl

theorem fixPhis_sameCode (delBlock index : Nat) (phis : List Nat) (g g' : MIRGraph)
    (h : fixPhis delBlock index phis g = .ok g') : SameCode g g' := by
  induction phis generalizing g with
  | nil =>
    simp only [fixPhis, Run.ok.injEq] at h
    subst h
    exact sameCode_refl g
  | cons phi rest ih =>
    simp only [fixPhis] at h
    cases hp : g.definition phi with
    | none => simp [hp] at h
    | some p =>
      simp only [hp] at h
      by_cases h2 : p.operands.length = 2
      · rw [if_pos h2] at h
        cases ho : p.operands[if index = 0 then 1 else 0]? with
        | none => simp [ho] at h
        | some operand =>
          simp only [ho] at h
          exact sameCode_trans
            (sameCode_trans (sameCode_replaceAllUsesWith g phi operand)
              (sameCode_modifyBlock _ delBlock (fun b => { b with phis := b.phis.erase phi })
                (fun _ => rfl)))
            (ih _ h)
      · rw [if_neg h2] at h
        by_cases h3 : index < p.operands.length
        · rw [if_pos h3] at h
          exact sameCode_trans
            (sameCode_modifyDefinition g phi
              (fun x => { x with operands := x.operands.eraseIdx index }) (fun _ => ⟨rfl, rfl⟩))
            (ih _ h)
        · rw [if_neg h3] at h
          cases h

theorem removePredecessorOf_sameCode {mark : Bool} {g g' : MIRGraph} {del del' : List Bool}
    {block pred : Nat} (h : removePredecessorOf mark g del block pred = .ok (g', del')) :
    SameCode g g' := by
  unfold removePredecessorOf at h
  cases hb : g.block block with
  | none => simp [hb] at h
  | some blk =>
    simp only [hb] at h
    have hm := sameCode_modifyBlock g block
      (fun x => { x with predecessors := x.predecessors.erase pred }) (fun _ => rfl)
    split_ifs at h
    · cases hs : setMarked del blk.id true with
      | none => simp [hs] at h
      | some d2 =>
        simp only [hs, Run.ok.injEq, Prod.mk.injEq] at h
        rw [← h.1]
        exact hm
    · simp only [Run.ok.injEq, Prod.mk.injEq] at h
      rw [← h.1]
      exact hm
    · simp only [Run.ok.injEq, Prod.mk.injEq] at h
      rw [← h.1]
      exact sameCode_refl g

theorem markBranch_sameCode (blockId : Nat) (dels : List Nat) :
    ∀ (g g' : MIRGraph) (del del' : List Bool) (first : Bool) (last : Nat),
      markBranch blockId dels g del first last = .ok (g', del') → SameCode g g' := by
  induction dels with
  | nil =>
    intro g g' del del' first last h
    simp only [markBranch, Run.ok.injEq, Prod.mk.injEq] at h
    rw [← h.1]
    exact sameCode_refl g
  | cons delBlock rest ih =>
    intro g g' del del' first last h
    simp only [markBranch] at h
    cases hb : g.block delBlock with
    | none => simp [hb] at h
    | some dblk =>
      simp only [hb] at h
      cases hs : scanPredecessors g dblk.id dblk.predecessors (del, false, false) with
      | none => simp [hs] at h
      | some r =>
        obtain ⟨del1, branchOver, atLeastOneDel⟩ := r
        simp only [hs] at h
        by_cases hj : (branchOver && atLeastOneDel) = true
        · rw [if_pos hj] at h
          cases hl : successorsOf g last with
          | none => simp [hl] at h
          | some lastSuccs =>
            simp only [hl] at h
            by_cases h0 : lastSuccs.length = 0
            · rw [if_pos h0] at h
              simp only [Run.ok.injEq, Prod.mk.injEq] at h
              rw [← h.1]
              exact sameCode_refl g
            · rw [if_neg h0] at h
              cases ht : (if first = true then some delBlock else lastSuccs[0]?) with
              | none => simp [ht] at h
              | some target =>
                simp only [ht] at h
                cases htb : g.block target with
                | none => simp [htb] at h
                | some tblk =>
                  simp only [htb] at h
                  cases hf : fixPhis target (predecessorIndex tblk.predecessors last)
                      tblk.phis g with
                  | fail e => simp [hf] at h
                  | ok g1 =>
                    simp only [hf] at h
                    have h1 := fixPhis_sameCode _ _ _ _ _ hf
                    by_cases hfirst : first = true
                    · rw [if_pos hfirst] at h
                      cases hm : setMarked del1 blockId false with
                      | none => simp [hm] at h
                      | some d2 =>
                        simp only [hm, Run.ok.injEq, Prod.mk.injEq] at h
                        rw [← h.1]
                        exact h1
                    · rw [if_neg hfirst] at h
                      exact sameCode_trans h1 (removePredecessorOf_sameCode h)
        · rw [if_neg hj] at h
          cases hm : (if first = true then setMarked del1 blockId false else some del1) with
          | none => simp [hm] at h
          | some d2 =>
            simp only [hm] at h
            by_cases ha : atLeastOneDel = true
            · rw [if_pos ha] at h
              cases hm3 : setMarked d2 dblk.id true with
              | none => simp [hm3] at h
              | some d3 =>
                simp only [hm3] at h
                exact ih _ _ _ _ _ _ h
            · rw [if_neg ha] at h
              exact ih _ _ _ _ _ _ h

end CFG

namespace CFG

theorem instructionsOf_replaceLastIns (g : MIRGraph) (block keep : Nat) (blk : MBasicBlock)
    (hb : g.block block = some blk) :
    instructionsOf (replaceLastIns g block keep) block =
      (instructionsOf g block).dropLast ++ [g.defs.length] := by
  unfold replaceLastIns
  have hb' : MIRGraph.block { g with defs := g.defs ++ [newGoto keep] } block = some blk := hb
  rw [instructionsOf_modifyBlock_self _ _ _ blk hb']
  simp [instructionsOf, hb]

theorem definition_replaceLastIns (g : MIRGraph) (block keep : Nat) :
    (replaceLastIns g block keep).definition g.defs.length = some (newGoto keep) := by
  simp [replaceLastIns, modifyBlock, MIRGraph.definition]

/-- The visit of the first loop of `DCEConditionals` to a block that ends in
a `Test` of the Boolean constant `c`: the last instruction of the block is a
new `Goto` to the successor for `c`. -/
theorem foldConditional_folds (g g' : MIRGraph) (del del' : List Bool) (block last oper t f : Nat)
    (c : Bool) (blk : MBasicBlock) (lastDef operDef : MDefinition)
    (hb : g.block block = some blk) (hm : isMarked del blk.id = some false)
    (hl : lastIns g block = some last) (hd : g.definition last = some lastDef)
    (hop : lastDef.op = Opcode.Test) (hops : lastDef.operands = [oper])
    (hod : g.definition oper = some operDef)
    (hc : operDef.op = Opcode.Constant (ConstantValue.Boolean c))
    (hs : lastDef.successors = [t, f])
    (hloop : ∀ dbs, g.block (if c then f else t) = some dbs →
      dbs.loopHeader = false ∧ dbs.loopBackedge = false)
    (h : foldConditional g del block = .ok (g', del')) :
    instructionsOf g' block = (instructionsOf g block).dropLast ++ [g.defs.length] ∧
      lastIns g' block = some g.defs.length ∧
      ∃ y, g'.definition g.defs.length = some y ∧ y.op = Opcode.Goto ∧
        y.successors = [if c then t else f] := by
  have hdead : lastDef.successors[if c then 1 else 0]? = some (if c then f else t) := by
    rw [hs]
    cases c <;> rfl
  have hkeep : lastDef.successors[if c then 0 else 1]? = some (if c then t else f) := by
    rw [hs]
    cases c <;> rfl
  have hne : ¬ lastDef.op ≠ Opcode.Test := fun hh => hh hop
  have hlen : ¬ lastDef.operands.length ≠ 1 := by
    rw [hops]
    simp
  have ho0 : lastDef.operands[0]? = some oper := by
    rw [hops]
    rfl
  unfold foldConditional at h
  simp only [hb, hm, hl, hd, hne, if_false, hlen, ho0, hod, hc, hdead, hkeep] at h
  cases hdb : g.block (if c then f else t) with
  | none => simp [hdb] at h
  | some dbs =>
    cases hss : successorsOf g (if c then f else t) with
    | none => simp [hdb, hss] at h
    | some dbsSuccs =>
      simp only [hdb, hss] at h
      obtain ⟨hlh, hlb⟩ := hloop dbs hdb
      have hrare : ¬ ((decide (dbsSuccs.length ≤ 2) && (dbs.loopHeader || dbs.loopBackedge)) =
          true) := by
        rw [hlh, hlb]
        simp
      rw [if_neg hrare] at h
      cases hm1 : setMarked del dbs.id true with
      | none => simp [hm1] at h
      | some del1 =>
        simp only [hm1] at h
        by_cases hin : (if c then f else t) ∉ g.blocks
        · rw [if_pos hin] at h
          cases h
        · rw [if_neg hin] at h
          cases hm2 : setMarked del1 blk.id true with
          | none => simp [hm2] at h
          | some del2 =>
            simp only [hm2] at h
            cases hmb : markBranch blk.id
                (g.blocks.dropWhile fun b => b != (if c then f else t))
                (replaceLastIns g block (if c then t else f)) del2 true block with
            | fail e => simp [hmb] at h
            | ok r =>
              obtain ⟨g2, del3⟩ := r
              simp only [hmb] at h
              have hsc := sameCode_trans (markBranch_sameCode _ _ _ _ _ _ _ _ hmb)
                (removePredecessorOf_sameCode h)
              have hi : instructionsOf g' block =
                  (instructionsOf g block).dropLast ++ [g.defs.length] := by
                rw [hsc.instructions block, instructionsOf_replaceLastIns g block _ blk hb]
              refine ⟨hi, by rw [lastIns_eq, hi]; simp, ?_⟩
              have := hsc.defs g.defs.length
              rw [definition_replaceLastIns] at this
              cases hy : g'.definition g.defs.length with
              | none => simp [hy] at this
              | some y =>
                simp only [hy, Option.map_some', Option.some.injEq, Prod.mk.injEq] at this
                exact ⟨y, rfl, this.1, this.2⟩

/-- The visit leaves a `Test` alone whose operand is not a Boolean
constant. -/
theorem foldConditional_keeps (g : MIRGraph) (del : List Bool) (block last oper : Nat)
    (blk : MBasicBlock) (lastDef operDef : MDefinition)
    (hb : g.block block = some blk) (hm : isMarked del blk.id = some false)
    (hl : lastIns g block = some last) (hd : g.definition last = some lastDef)
    (hops : lastDef.operands = [oper]) (hod : g.definition oper = some operDef)
    (hc : ∀ c, operDef.op ≠ Opcode.Constant (ConstantValue.Boolean c)) :
    foldConditional g del block = .ok (g, del) := by
  unfold foldConditional
  simp only [hb, hm, hl, hd]
  by_cases hop : lastDef.op ≠ Opcode.Test
  · rw [if_pos hop]
  · rw [if_neg hop]
    have hlen : ¬ lastDef.operands.length ≠ 1 := by
      rw [hops]
      simp
    have ho0 : lastDef.operands[0]? = some oper := by
      rw [hops]
      rfl
    simp only [hlen, if_false, ho0, hod]

end CFG

namespace CFG

theorem isMarked_replicate (n id : Nat) (h : id < n) :
    isMarked (List.replicate n false) id = some false := by
  simp [isMarked, List.getElem?_replicate, h]

theorem conditionalsCoherent_spec {g : MIRGraph} (h : conditionalsCoherent g = true) (b : Nat)
    (hb : b ∈ g.blocks) :
    ∃ blk last d, g.block b = some blk ∧ blk.id < g.numBlockIds ∧ lastIns g b = some last ∧
      g.definition last = some d ∧
      (d.op = Opcode.Test → ∃ oper od, d.operands = [oper] ∧ g.definition oper = some od) := by
  simp only [conditionalsCoherent, List.all_eq_true] at h
  have := h b hb
  cases hblk : g.block b with
  | none => simp [hblk] at this
  | some blk =>
    cases hl : lastIns g b with
    | none => simp [hblk, hl] at this
    | some last =>
      cases hd : g.definition last with
      | none => simp [hblk, hl, hd] at this
      | some d =>
        simp only [hblk, hl, hd, Bool.and_eq_true, decide_eq_true_eq, Bool.or_eq_true] at this
        refine ⟨blk, last, d, rfl, this.1, rfl, hd, fun hop => ?_⟩
        rcases this.2 with h1 | ⟨h1, h2⟩
        · exact absurd hop h1
        · cases hops : d.operands with
          | nil => simp [hops] at h1
          | cons oper rest =>
            cases rest with
            | cons _ _ => simp [hops] at h1
            | nil =>
              simp only [hops, List.getElem?_cons_zero] at h2
              cases hod : g.definition oper with
              | none => simp [hod] at h2
              | some od => exact ⟨oper, od, rfl, hod⟩

theorem foldConditionals_id (g : MIRGraph) (hco : conditionalsCoherent g = true)
    (hno : ∀ b ∈ g.blocks, testsBoolean g b = false) :
    ∀ bs, (∀ b ∈ bs, b ∈ g.blocks) →
      foldConditionals bs g (List.replicate g.numBlockIds false) =
        .ok (g, List.replicate g.numBlockIds false) := by
  intro bs
  induction bs with
  | nil => intro _; rfl
  | cons b rest ih =>
    intro hsub
    have hb := hsub b (List.mem_cons_self _ _)
    obtain ⟨blk, last, d, hblk, hid, hl, hd, htest⟩ := conditionalsCoherent_spec hco b hb
    have hm := isMarked_replicate g.numBlockIds blk.id hid
    have hstep : foldConditional g (List.replicate g.numBlockIds false) b =
        .ok (g, List.replicate g.numBlockIds false) := by
      by_cases hop : d.op = Opcode.Test
      · obtain ⟨oper, od, hops, hod⟩ := htest hop
        refine foldConditional_keeps g _ b last oper blk d od hblk hm hl hd hops hod ?_
        intro c hc
        have := hno b hb
        simp [testsBoolean, hl, hd, hop, hops, hod, hc] at this
      · unfold foldConditional
        simp only [hblk, hm, hl, hd]
        rw [if_pos hop]
    simp only [foldConditionals, hstep]
    exact ih fun x hx => hsub x (List.mem_cons_of_mem _ hx)

theorem removeMarkedBlocks_id (g : MIRGraph) (hco : conditionalsCoherent g = true) :
    ∀ bs, (∀ b ∈ bs, b ∈ g.blocks) →
      removeMarkedBlocks (List.replicate g.numBlockIds false) bs g = .ok g := by
  intro bs
  induction bs with
  | nil => intro _; rfl
  | cons b rest ih =>
    intro hsub
    have hb := hsub b (List.mem_cons_self _ _)
    obtain ⟨blk, last, d, hblk, hid, _, _, _⟩ := conditionalsCoherent_spec hco b hb
    have hm := isMarked_replicate g.numBlockIds blk.id hid
    have hstep : removeMarked g (List.replicate g.numBlockIds false) b = .ok g := by
      simp only [removeMarked, hblk, hm]
    simp only [removeMarkedBlocks, hstep]
    exact ih fun x hx => hsub x (List.mem_cons_of_mem _ hx)

/-- C13: for a block that ends in a two-way `Test` whose operand is the
Boolean constant `c` and whose dead successor is neither a loop header nor a
backedge, the visit of `DCEConditionals` replaces the `Test` by a new `Goto`
to the true successor if `c` is true and to the false successor if `c` is
false; a `Test` whose operand is not a Boolean constant is left as it is; and
a graph without a `Test` of a Boolean constant is returned unchanged.  The
block is one that the pass has not marked for deletion. -/
theorem DCEConditionals_folds_boolean_tests (g : MIRGraph) :
    (∀ (g' : MIRGraph) (del del' : List Bool) (block last oper t f : Nat) (c : Bool)
      (blk : MBasicBlock) (lastDef operDef : MDefinition),
      g.block block = some blk → isMarked del blk.id = some false →
      lastIns g block = some last → g.definition last = some lastDef →
      lastDef.op = Opcode.Test → lastDef.operands = [oper] →
      g.definition oper = some operDef →
      operDef.op = Opcode.Constant (ConstantValue.Boolean c) →
      lastDef.successors = [t, f] →
      (∀ dbs, g.block (if c then f else t) = some dbs →
        dbs.loopHeader = false ∧ dbs.loopBackedge = false) →
      foldConditional g del block = .ok (g', del') →
      instructionsOf g' block = (instructionsOf g block).dropLast ++ [g.defs.length] ∧
        lastIns g' block = some g.defs.length ∧
        ∃ y, g'.definition g.defs.length = some y ∧ y.op = Opcode.Goto ∧
          y.successors = [if c then t else f]) ∧
    (∀ (del : List Bool) (block last oper : Nat) (blk : MBasicBlock)
      (lastDef operDef : MDefinition),
      g.block block = some blk → isMarked del blk.id = some false →
      lastIns g block = some last → g.definition last = some lastDef →
      lastDef.operands = [oper] → g.definition oper = some operDef →
      (∀ c, operDef.op ≠ Opcode.Constant (ConstantValue.Boolean c)) →
      foldConditional g del block = .ok (g, del)) ∧
    (conditionalsCoherent g = true → (∀ b ∈ g.blocks, testsBoolean g b = false) →
      DCEConditionals g = .ok g) := by
  refine ⟨?_, ?_, ?_⟩
  · intro g' del del' block last oper t f c blk lastDef operDef hb hm hl hd hop hops hod hc hs
      hloop h
    exact foldConditional_folds g g' del del' block last oper t f c blk lastDef operDef hb hm hl
      hd hop hops hod hc hs hloop h
  · intro del block last oper blk lastDef operDef hb hm hl hd hops hod hc
    exact foldConditional_keeps g del block last oper blk lastDef operDef hb hm hl hd hops hod hc
  · intro hco hno
    unfold DCEConditionals
    rw [foldConditionals_id g hco hno g.blocks (fun _ h => h)]
    exact removeMarkedBlocks_id g hco g.blocks (fun _ h => h)

theorem DCEConditionals_folds_boolean_tests_witness :
    foldConditional labelledBreakGraph (List.replicate 7 false) 0 = .ok labelledBreakFolded ∧
    (instructionsOf labelledBreakFolded.1 0 =
        (instructionsOf labelledBreakGraph 0).dropLast ++ [labelledBreakGraph.defs.length] ∧
      lastIns labelledBreakFolded.1 0 = some labelledBreakGraph.defs.length ∧
      ∃ y, labelledBreakFolded.1.definition labelledBreakGraph.defs.length = some y ∧
        y.op = Opcode.Goto ∧ y.successors = [if true then 1 else 2]) ∧
    foldConditional labelledBreakGraph (List.replicate 7 false) 2 =
      .ok (labelledBreakGraph, List.replicate 7 false) ∧
    conditionalsCoherent chainGraph = true ∧ DCEConditionals chainGraph = .ok chainGraph :=
  ⟨by decide,
    (DCEConditionals_folds_boolean_tests labelledBreakGraph).1 labelledBreakFolded.1
      (List.replicate 7 false) labelledBreakFolded.2 0 2 0 1 2 true
      { id := 0, predecessors := [], instructions := [0, 1, 2] }
      { op := Opcode.Test, operands := [0], successors := [1, 2] }
      { op := Opcode.Constant (ConstantValue.Boolean true) }
      (by decide) (by decide) (by decide) (by decide) (by decide) (by decide) (by decide)
      (by decide) (by decide) (by decide) (by decide),
    (DCEConditionals_folds_boolean_tests labelledBreakGraph).2.1 (List.replicate 7 false) 2 5 1
      { id := 2, predecessors := [0], instructions := [5] }
      { op := Opcode.Test, operands := [1], successors := [3, 4] }
      { op := Opcode.Other }
      (by decide) (by decide) (by decide) (by decide) (by decide) (by decide) (by decide),
    by decide,
    (DCEConditionals_folds_boolean_tests chainGraph).2.2 (by decide) (by decide)⟩

end CFG

namespace CFG

/-- C12: `DCEConditionals` does not keep the Phi arity invariant on
`labelledBreakGraph`, a coherent graph in which every Phi has one operand per
predecessor of its block.  The dead branch reaches the live blocks 5 and 6;
the marking loop stops at block 5, where it takes the operand off the Phi
before it removes the predecessor, and the removal loop takes the dead block 3
off the predecessors of block 6 without touching the Phi 12, which is left
with two operands in a block with one predecessor. -/
theorem DCEConditionals_breaks_phi_arity :
    edgesCoherent labelledBreakGraph = true ∧ phiArity labelledBreakGraph = true ∧
    DCEConditionals labelledBreakGraph = .ok labelledBreakResult ∧
    6 ∈ labelledBreakResult.blocks ∧ predecessorsOf labelledBreakResult 6 = [5] ∧
    phisOf labelledBreakResult 6 = [12] ∧
    (labelledBreakResult.definition 12).map MDefinition.operands = some [6, 3] ∧
    phiArity labelledBreakResult = false := by
  decide

end CFG

namespace Builder

theorem popCfgStack_switches (b : IonBuilder) : (popCfgStack b).switches = b.switches := by
  unfold popCfgStack
  cases b.cfgStack.getLast? <;> rfl

set_option maxRecDepth 100000 in
/-- Claim C37 (code defect): `popCfgStack` pops `loops_` with the state of a
loop but never `switches_` with the state of a switch, so the entry of a
finished switch stays behind.  For `switch (x) { case 0: x = 1; break; }` the
entry that `tableSwitch` pushes refers to the state of the switch while the
switch is built, and at the end of `build` it still is in `switches_` and
names position 0 of the stack of control structures, which is empty. -/
theorem popCfgStack_keeps_finished_switch :
    (∀ b : IonBuilder, (popCfgStack b).switches = b.switches) ∧
    tableSwitchEntered.switches = [{ cfgEntry := 0, continuepc := 30 }] ∧
    switchesLive tableSwitchEntered = true ∧
    (build switchHandlers tableSwitchScript 30 entryBuilder).map (fun r => r.1) = .ok true ∧
    tableSwitchBuilt.switches = [{ cfgEntry := 0, continuepc := 30 }] ∧
    tableSwitchBuilt.cfgStack = [] ∧
    switchesLive tableSwitchBuilt = false :=
  ⟨popCfgStack_switches, by decide, by decide, by decide, by decide, by decide, by decide⟩

end Builder

namespace Builder

theorem getD_frame (P E : List Nat) (blk : Nat) (h : blk < P.length) :
    (P ++ E).getD blk 0 = P.getD blk 0 := by
  simp [List.getD_eq_getElem?_getD, List.getElem?_append_left h]

theorem getD_frame_length (P : List Nat) (x : Nat) (E : List Nat) :
    (P ++ x :: E).getD P.length 0 = x := by
  rw [List.getD_eq_getElem?_getD, List.getElem?_append_right (le_refl _)]; simp

theorem map_getD_frame (P E : List Nat) (l : List Nat) (h : ∀ blk ∈ l, blk < P.length) :
    (l.map fun blk => (P ++ E).getD blk 0) = l.map fun blk => P.getD blk 0 :=
  List.map_congr_left fun blk hb => getD_frame P E blk (h blk hb)

theorem lookupInv_shared (n0 defaultpc casepc cmp body : Nat) (done P : List Nat)
    (v : LookupSwitchVars) (h : LookupInv n0 defaultpc done P v)
    (hprev : v.prevpc = some casepc) (hbody : v.prevBody = some body)
    (hlen : done.length < UINT_MAX) :
    LookupInv n0 defaultpc (done ++ [casepc]) (P ++ [casepc])
      (v.next defaultpc casepc P.length cmp body v.bodyBlocks) := by
  have hlast : done.getLast? = some casepc := h.prevpc ▸ hprev
  obtain ⟨body1, cond, cmp1, hb, hgl, hc, hclt, hcm, hpc⟩ := h.prev casepc hlast
  have hbb : body1 = body := by rw [hb] at hbody; exact Option.some.inj hbody
  subst hbb
  have hmemb : body1 ∈ v.bodyBlocks := List.mem_of_getLast?_eq_some hgl
  have hlt : ∀ blk ∈ v.bodyBlocks, blk < P.length := fun blk hm => (h.fresh blk hm).2
  have hfr : ∀ blk ∈ v.bodyBlocks, (P ++ [casepc]).getD blk 0 = P.getD blk 0 :=
    fun blk hm => getD_frame P _ blk (hlt blk hm)
  have hshort := h.short
  have hnf : ¬ (defaultpc ≤ casepc ∧ v.defaultIdx = UINT_MAX) := by
    rintro ⟨hd, hi⟩
    have := h.below body1 (by rw [hi, List.take_of_length_le (by omega)]; exact hmemb)
    omega
  have hcin : casepc ∈ done := List.mem_of_getLast?_eq_some hlast
  refine
    { sorted := ?_, mem := ?_, fresh := ?_, size := ?_, short := ?_, prevpc := ?_, top := ?_,
      prev := ?_, below := ?_, above := ?_, noDefault := ?_, default := ?_, idx := ?_,
      unset := ?_ }
  all_goals (try simp only [LookupSwitchVars.next, hnf, false_and, if_false])
  · rw [map_getD_frame P _ _ hlt]; exact h.sorted
  · intro p; rw [map_getD_frame P _ _ hlt, h.mem p]; simp
    intro hp; rw [hp]; exact hcin
  · intro blk hm; have := h.fresh blk hm; simp; omega
  · have := h.size; simp; omega
  · simp; omega
  · simp
  · intro p hp last hl
    simp at hl; subst hl
    simp at hp
    rcases hp with hp | hp
    · exact h.top p hp _ hlast
    · omega
  · intro last hl
    simp at hl; subst hl
    exact ⟨body1, P.length, cmp, rfl, hgl, rfl, by simp, rfl,
      by rw [hfr body1 hmemb]; exact hpc⟩
  · intro blk hm; rw [hfr blk (List.mem_of_mem_take hm)]; exact h.below blk hm
  · intro blk hm; rw [hfr blk (List.mem_of_mem_drop hm)]; exact h.above blk hm
  · intro hn blk hm; rw [hfr blk hm]; exact h.noDefault hn blk hm
  · intro d hd; have := h.default d hd; exact ⟨this.1, by rw [hfr d this.1]; exact this.2⟩
  · exact h.idx
  · exact h.unset


theorem uint_wrap (n : Nat) (h : n < UINT_MAX) : (n + 1 + UINT_MAX) % (UINT_MAX + 1) = n := by
  simp only [UINT_MAX] at *; omega

theorem lookupInv_fresh (n0 defaultpc casepc cmp : Nat) (done P : List Nat)
    (v : LookupSwitchVars) (h : LookupInv n0 defaultpc done P v)
    (hprev : v.prevpc ≠ some casepc) (hle : ∀ p ∈ done, p ≤ casepc)
    (hlen : done.length < UINT_MAX) :
    LookupInv n0 defaultpc (done ++ [casepc]) (P ++ [casepc, casepc])
      (v.next defaultpc casepc P.length cmp (P.length + 1) (v.bodyBlocks ++ [P.length + 1])) := by
  have hlt : ∀ blk ∈ v.bodyBlocks, blk < P.length := fun blk hm => (h.fresh blk hm).2
  have hfr : ∀ blk ∈ v.bodyBlocks, (P ++ [casepc, casepc]).getD blk 0 = P.getD blk 0 :=
    fun blk hm => getD_frame P _ blk (hlt blk hm)
  have hnew : (P ++ [casepc, casepc]).getD (P.length + 1) 0 = casepc := by
    rw [List.getD_eq_getElem?_getD, List.getElem?_append_right (by omega)]; simp
  have hshort := h.short
  have hsize := h.size
  have hstrict : ∀ p ∈ done, p < casepc := by
    intro p hp
    cases hl : done.getLast? with
    | none => rw [List.getLast?_eq_none_iff] at hl; subst hl; simp at hp
    | some last =>
      have h1 := h.top p hp last hl
      have h2 := hle last (List.mem_of_getLast?_eq_some hl)
      have h3 : last ≠ casepc := by
        intro he; apply hprev; rw [h.prevpc, hl, he]
      omega
  have hold : ∀ blk ∈ v.bodyBlocks, P.getD blk 0 < casepc := by
    intro blk hm
    exact hstrict _ ((h.mem _).1 (List.mem_map_of_mem _ hm))
  have hmap : ((v.bodyBlocks ++ [P.length + 1]).map fun blk => (P ++ [casepc, casepc]).getD blk 0)
      = (v.bodyBlocks.map fun blk => P.getD blk 0) ++ [casepc] := by
    rw [List.map_append, map_getD_frame P _ _ hlt, List.map_singleton, hnew]
  have hwrap := uint_wrap v.bodyBlocks.length (by omega)
  have htakeall : v.defaultIdx = UINT_MAX → v.bodyBlocks.take v.defaultIdx = v.bodyBlocks := by
    intro hi; rw [hi, List.take_of_length_le (by omega)]
  refine
    { sorted := ?_, mem := ?_, fresh := ?_, size := ?_, short := ?_, prevpc := ?_, top := ?_,
      prev := ?_, below := ?_, above := ?_, noDefault := ?_, default := ?_, idx := ?_,
      unset := ?_ }
  all_goals (try simp only [LookupSwitchVars.next])
  · rw [hmap, List.pairwise_append]
    refine ⟨h.sorted, by simp, ?_⟩
    intro a ha b hb
    simp at hb; subst hb
    exact hstrict a ((h.mem a).1 ha)
  · intro p; rw [hmap, List.mem_append, h.mem p]; simp
  · intro blk hm
    simp at hm
    rcases hm with hm | hm
    · have := h.fresh blk hm; simp; omega
    · subst hm; simp; omega
  · simp; omega
  · simp; omega
  · simp
  · intro p hp last hl
    simp at hl; subst hl
    simp at hp
    rcases hp with hp | hp
    · exact hle p hp
    · omega
  · intro last hl
    simp at hl; subst hl
    exact ⟨P.length + 1, P.length, cmp, rfl, by simp, rfl, by simp, rfl, hnew⟩
  · intro blk hm
    by_cases hf : defaultpc ≤ casepc ∧ v.defaultIdx = UINT_MAX
    · rw [if_pos hf] at hm
      simp only [List.length_append, List.length_singleton] at hm
      rw [hwrap, List.take_left] at hm
      rw [hfr blk hm]
      exact h.below blk (by rw [htakeall hf.2]; exact hm)
    · rw [if_neg hf] at hm
      rcases h.idx with hi | hi
      · have hm2 := List.mem_of_mem_take hm
        simp at hm2
        rcases hm2 with hm2 | hm2
        · rw [hfr blk hm2]; exact h.below blk (by rw [htakeall hi]; exact hm2)
        · subst hm2; rw [hnew]
          by_contra hc; exact hf ⟨by omega, hi⟩
      · rw [List.take_append_of_le_length (by omega)] at hm
        rw [hfr blk (List.mem_of_mem_take hm)]
        exact h.below blk hm
  · intro blk hm
    by_cases hf : defaultpc ≤ casepc ∧ v.defaultIdx = UINT_MAX
    · rw [if_pos hf] at hm
      simp only [List.length_append, List.length_singleton] at hm
      rw [hwrap, List.drop_left] at hm
      simp at hm; subst hm; rw [hnew]; exact hf.1
    · rw [if_neg hf] at hm
      rcases h.idx with hi | hi
      · rw [hi, List.drop_of_length_le (by simp; omega)] at hm
        simp at hm
      · rw [List.drop_append_of_le_length (by omega)] at hm
        simp at hm
        have hne : v.bodyBlocks.drop v.defaultIdx ≠ [] := by
          simp; omega
        obtain ⟨w, hw⟩ := List.exists_mem_of_ne_nil _ hne
        have h1 := h.above w hw
        have h2 := hold w (List.mem_of_mem_drop hw)
        rcases hm with hm | hm
        · rw [hfr blk (List.mem_of_mem_drop hm)]; exact h.above blk hm
        · subst hm; rw [hnew]; omega
  · intro hn blk hm
    simp at hm
    by_cases hf : defaultpc ≤ casepc ∧ v.defaultIdx = UINT_MAX
    · by_cases he : defaultpc = casepc
      · rw [if_pos ⟨hf, he⟩] at hn; cases hn
      · rcases hm with hm | hm
        · rw [hfr blk hm]
          have := h.below blk (by rw [htakeall hf.2]; exact hm)
          omega
        · subst hm; rw [hnew]; exact fun hc => he hc.symm
    · rw [if_neg (fun hc => hf hc.1)] at hn
      rcases hm with hm | hm
      · rw [hfr blk hm]; exact h.noDefault hn blk hm
      · subst hm; rw [hnew]
        rcases h.idx with hi | hi
        · intro hc; exact hf ⟨by omega, hi⟩
        · have hne : v.bodyBlocks.drop v.defaultIdx ≠ [] := by
            simp; omega
          obtain ⟨w, hw⟩ := List.exists_mem_of_ne_nil _ hne
          have h1 := h.above w hw
          have h2 := hold w (List.mem_of_mem_drop hw)
          omega
  · intro d hd
    by_cases hf : (defaultpc ≤ casepc ∧ v.defaultIdx = UINT_MAX) ∧ defaultpc = casepc
    · rw [if_pos hf] at hd
      cases hd
      exact ⟨by simp, by rw [hnew]; exact hf.2.symm⟩
    · rw [if_neg hf] at hd
      have := h.default d hd
      exact ⟨by simp [this.1], by rw [hfr d this.1]; exact this.2⟩
  · by_cases hf : defaultpc ≤ casepc ∧ v.defaultIdx = UINT_MAX
    · rw [if_pos hf]
      simp only [List.length_append, List.length_singleton]
      rw [hwrap]; right; omega
    · rw [if_neg hf]
      rcases h.idx with hi | hi
      · left; exact hi
      · right; simp; omega
  · intro hi
    by_cases hf : defaultpc ≤ casepc ∧ v.defaultIdx = UINT_MAX
    · rw [if_pos hf] at hi
      simp only [List.length_append, List.length_singleton] at hi
      rw [hwrap] at hi; omega
    · rw [if_neg hf] at hi
      rw [if_neg (fun hc => hf hc.1)]
      exact h.unset hi


theorem map_modify_same {α β : Type} (f : α → β) (m : α → α) (h : ∀ x, f (m x) = f x) :
    ∀ (l : List α) (n : Nat), (l.modify m n).map f = l.map f
  | [], n => by cases n <;> simp
  | a :: l, 0 => by simp [h]
  | a :: l, n + 1 => by simp [map_modify_same f m h l n]

theorem pcs_length (g : MIRGraph) : (pcs g).length = g.table.length := by
  simp [pcs]

theorem pcOf_eq_getD (g : MIRGraph) (blk : Nat) : pcOf g blk = (pcs g).getD blk 0 := by
  simp only [pcOf, pcs, MIRGraph.block, List.getD_eq_getElem?_getD, List.getElem?_map]
  cases g.table[blk]? <;> rfl

theorem pcs_modifyBlock (g : MIRGraph) (b : Nat) (f : MBasicBlock → MBasicBlock)
    (h : ∀ x, (f x).pc = x.pc) : pcs (modifyBlock g b f) = pcs g :=
  map_modify_same _ f h g.table b

theorem pcs_modifyDefinition (g : MIRGraph) (d : Nat) (f : MDefinition → MDefinition) :
    pcs (modifyDefinition g d f) = pcs g := rfl

theorem pcs_newDefinition (g : MIRGraph) (d : MDefinition) : pcs (newDefinition g d).2 = pcs g :=
  rfl

theorem pcs_add (g : MIRGraph) (b ins : Nat) : pcs (add g b ins) = pcs g := by
  rw [add, pcs_modifyDefinition]
  exact pcs_modifyBlock _ _ _ fun _ => rfl

theorem pcs_endWith (g : MIRGraph) (b ins : Nat) : pcs (endWith g b ins) = pcs g := by
  rw [endWith]
  refine Eq.trans (pcs_modifyBlock _ _ _ ?_) (pcs_add _ _ _)
  intro _; rfl

theorem pcs_endWithGoto (g : MIRGraph) (blk target : Nat) :
    pcs (endWithGoto g blk target) = pcs g := by
  rw [endWithGoto, pcs_endWith, pcs_newDefinition]

theorem pcs_moveBlockToEnd (g : MIRGraph) (b : Nat) : pcs (moveBlockToEnd g b) = pcs g := rfl

theorem addPredecessor_pcs (g : MIRGraph) (b pred : Nat) (hb : b < (pcs g).length)
    (hp : pred < (pcs g).length) :
    ∃ g1, addPredecessor g b pred = some g1 ∧ pcs g1 = pcs g := by
  rw [pcs_length] at hb hp
  obtain ⟨x, hx⟩ := block_of_lt g b hb
  obtain ⟨p, hp⟩ := block_of_lt g pred hp
  refine ⟨_, addPredecessor_spec g b pred x p hx hp, ?_⟩
  refine Eq.trans (pcs_modifyBlock _ _ _ ?_) rfl
  intro _; rfl

theorem newBlockAt_pcs (g : MIRGraph) (p pc loopDepth : Nat) (hp : p < (pcs g).length) :
    ∃ g1, newBlockAt g (some p) pc loopDepth = some ((pcs g).length, g1) ∧
      pcs g1 = pcs g ++ [pc] := by
  rw [pcs_length] at hp
  obtain ⟨x, hx⟩ := block_of_lt g p hp
  refine ⟨{ g with
      table := g.table ++
                 [{ pc := pc, predecessors := [p], slots := x.slots, loopDepth := loopDepth }],
      blocks := g.blocks ++ [g.table.length] }, ?_, ?_⟩
  · simp only [newBlockAt, hx, pcs_length]
  · simp [pcs]

theorem newBlock_pcs (b : IonBuilder) (p pc : Nat) (hp : p < (pcs b.graph).length) :
    ∃ g1, newBlock b (some p) pc = some ((pcs b.graph).length, { b with graph := g1 }) ∧
      pcs g1 = pcs b.graph ++ [pc] := by
  obtain ⟨g1, h1, h2⟩ := newBlockAt_pcs b.graph p pc b.loopDepth hp
  exact ⟨g1, by simp only [newBlock, h1], h2⟩


theorem pcs_caseCondition (g : MIRGraph) (cond ins : Nat) (rval : Value) :
    pcs (caseCondition g cond ins rval).2 = pcs g := by
  simp only [caseCondition, pcs_add, pcs_newDefinition]

theorem endPrevious_first (g : MIRGraph) (cur cond : Nat) (v : LookupSwitchVars) :
    ∃ g1, endPrevious g 0 (some cur) v cond = some g1 ∧ pcs g1 = pcs g :=
  ⟨endWithGoto g cur cond, by simp [endPrevious], pcs_endWithGoto g cur cond⟩

theorem endPrevious_next (g : MIRGraph) (i : Nat) (current : Option Nat) (cond : Nat)
    (v : LookupSwitchVars) (prevCond prevCmpIns prevBody : Nat) (hi : i ≠ 0)
    (h1 : v.prevCond = some prevCond) (h2 : v.prevCmpIns = some prevCmpIns)
    (h3 : v.prevBody = some prevBody) (hc : prevCond < (pcs g).length)
    (hb : prevBody < (pcs g).length) :
    ∃ g1, endPrevious g i current v cond = some g1 ∧ pcs g1 = pcs g := by
  simp only [endPrevious, if_neg hi, h1, h2, h3]
  have hp : pcs (endWith (newDefinition g (newTest prevCmpIns prevBody cond)).2 prevCond
      (newDefinition g (newTest prevCmpIns prevBody cond)).1) = pcs g := by
    rw [pcs_endWith, pcs_newDefinition]
  by_cases hs : v.prevShared = true
  · rw [if_pos hs]
    obtain ⟨g1, hg1, hp1⟩ := addPredecessor_pcs _ prevBody prevCond (by rw [hp]; exact hb)
      (by rw [hp]; exact hc)
    exact ⟨g1, hg1, hp1.trans hp⟩
  · rw [if_neg hs]
    exact ⟨_, rfl, hp⟩

theorem lookupSwitchCase_spec (pc defaultpc ins i n0 : Nat) (b : IonBuilder)
    (v : LookupSwitchVars) (rval : Value) (offset : Int) (done : List Nat) (cur : Nat)
    (h : LookupInv n0 defaultpc done (pcs b.graph) v)
    (hi : i = done.length) (hcur : b.current = some cur) (hlt : cur < n0)
    (hle : ∀ p ∈ done, p ≤ jump pc offset) (hlen : done.length < UINT_MAX) :
    ∃ g v1, lookupSwitchCase pc defaultpc ins i b v rval offset =
        .ok ({ b with graph := g }, v1) ∧
      LookupInv n0 defaultpc (done ++ [jump pc offset]) (pcs g) v1 := by
  have hsize := h.size
  cases hl : done.getLast? with
  | none =>
    have hd : done = [] := List.getLast?_eq_none_iff.1 hl
    subst hd
    have hi0 : i = 0 := hi
    subst hi0
    have hpp : v.prevpc ≠ some (jump pc offset) := by rw [h.prevpc]; simp
    obtain ⟨g1, hnb, hp1⟩ := newBlock_pcs b cur (jump pc offset) (by omega)
    obtain ⟨g2, hnb2, hp2⟩ := newBlockAt_pcs (caseCondition g1 (pcs b.graph).length ins rval).2
      (pcs b.graph).length (jump pc offset) b.loopDepth
      (by rw [pcs_caseCondition, hp1]; simp)
    obtain ⟨g3, he, hp3⟩ := endPrevious_first g2 cur (pcs b.graph).length v
    rw [pcs_caseCondition, hp1] at hnb2
    simp only [List.length_append, List.length_singleton] at hnb2
    refine ⟨g3, (v.next defaultpc (jump pc offset) (pcs b.graph).length
      (caseCondition g1 (pcs b.graph).length ins rval).1 ((pcs b.graph).length + 1)
      (v.bodyBlocks ++ [(pcs b.graph).length + 1])), ?_, ?_⟩
    · simp only [lookupSwitchCase, if_pos, hcur, hnb, if_neg hpp, hnb2, Option.map_some', he]
    · rw [hp3, hp2, pcs_caseCondition, hp1, List.append_assoc]
      exact lookupInv_fresh n0 defaultpc (jump pc offset) _ [] (pcs b.graph) v h hpp hle hlen
  | some last =>
    have hne : i ≠ 0 := by
      intro h0; rw [h0] at hi
      have : done = [] := List.length_eq_zero.1 hi.symm
      rw [this] at hl; simp at hl
    obtain ⟨body, cond, cmp, hb, hgl, hc, hclt, hcm, hpc⟩ := h.prev last hl
    have hbl : body < (pcs b.graph).length := (h.fresh body (List.mem_of_getLast?_eq_some hgl)).2
    obtain ⟨g1, hnb, hp1⟩ := newBlock_pcs b cond (jump pc offset) hclt
    by_cases hpp : v.prevpc = some (jump pc offset)
    · obtain ⟨g3, he, hp3⟩ := endPrevious_next
        (caseCondition g1 (pcs b.graph).length ins rval).2 i b.current (pcs b.graph).length v
        cond cmp body hne hc hcm hb (by rw [pcs_caseCondition, hp1]; simp; omega)
        (by rw [pcs_caseCondition, hp1]; simp; omega)
      refine ⟨g3, (v.next defaultpc (jump pc offset) (pcs b.graph).length
        (caseCondition g1 (pcs b.graph).length ins rval).1 body v.bodyBlocks), ?_, ?_⟩
      · simp only [lookupSwitchCase, if_neg hne, hc, hnb, if_pos hpp, hb, Option.map_some', he]
      · rw [hp3, pcs_caseCondition, hp1]
        exact lookupInv_shared n0 defaultpc (jump pc offset) _ body done (pcs b.graph) v h hpp
          hb hlen
    · obtain ⟨g2, hnb2, hp2⟩ := newBlockAt_pcs
        (caseCondition g1 (pcs b.graph).length ins rval).2
        (pcs b.graph).length (jump pc offset) b.loopDepth
        (by rw [pcs_caseCondition, hp1]; simp)
      obtain ⟨g3, he, hp3⟩ := endPrevious_next g2 i b.current (pcs b.graph).length v
        cond cmp body hne hc hcm hb (by rw [hp2, pcs_caseCondition, hp1]; simp; omega)
        (by rw [hp2, pcs_caseCondition, hp1]; simp; omega)
      rw [pcs_caseCondition, hp1] at hnb2
      simp only [List.length_append, List.length_singleton] at hnb2
      refine ⟨g3, (v.next defaultpc (jump pc offset) (pcs b.graph).length
      (caseCondition g1 (pcs b.graph).length ins rval).1 ((pcs b.graph).length + 1)
      (v.bodyBlocks ++ [(pcs b.graph).length + 1])), ?_, ?_⟩
      · simp only [lookupSwitchCase, if_neg hne, hc, hnb, if_neg hpp, hnb2, Option.map_some', he]
      · rw [hp3, hp2, pcs_caseCondition, hp1, List.append_assoc]
        exact lookupInv_fresh n0 defaultpc (jump pc offset) _ done (pcs b.graph) v h hpp hle hlen


theorem lookupSwitchCases_spec (pc defaultpc ins n0 cur : Nat) :
    ∀ (cases : List (Value × Int)) (i : Nat) (b : IonBuilder) (v : LookupSwitchVars)
      (done : List Nat),
      LookupInv n0 defaultpc done (pcs b.graph) v → i = done.length → b.current = some cur →
      cur < n0 →
      (done ++ cases.map fun c => jump pc c.2).Pairwise (fun x y => x ≤ y) →
      done.length + cases.length ≤ UINT_MAX →
      ∃ g v1, lookupSwitchCases pc defaultpc ins i cases b v = .ok ({ b with graph := g }, v1) ∧
        LookupInv n0 defaultpc (done ++ cases.map fun c => jump pc c.2) (pcs g) v1
  | [], i, b, v, done, h, _, _, _, _, _ => by
    refine ⟨b.graph, v, rfl, ?_⟩
    simpa using h
  | (rval, offset) :: rest, i, b, v, done, h, hi, hcur, hlt, hs, hlen => by
    have hle : ∀ p ∈ done, p ≤ jump pc offset := by
      intro p hp
      exact (List.pairwise_append.1 hs).2.2 p hp _ (by simp)
    simp only [List.length_cons] at hlen
    obtain ⟨g, v1, hrun, hinv⟩ := lookupSwitchCase_spec pc defaultpc ins i n0 b v rval offset
      done cur h hi hcur hlt hle (by omega)
    obtain ⟨g2, v2, hrun2, hinv2⟩ := lookupSwitchCases_spec pc defaultpc ins n0 cur rest (i + 1)
      { b with graph := g } v1 (done ++ [jump pc offset]) hinv (by simp [hi]) hcur hlt
      (by simpa using hs) (by simp; omega)
    refine ⟨g2, v2, ?_, ?_⟩
    · simp only [lookupSwitchCases, hrun, hrun2]
    · simpa using hinv2

theorem endLastCondition_pcs (g : MIRGraph) (v : LookupSwitchVars)
    (defaultBody prevCond prevCmpIns prevBody : Nat) (hd : defaultBody < (pcs g).length)
    (hc : prevCond < (pcs g).length) (hb : prevBody < (pcs g).length) :
    ∃ g1, endLastCondition g v defaultBody prevCond prevCmpIns prevBody = some g1 ∧
      pcs g1 = pcs g := by
  have hended : ∃ g1,
      (if defaultBody = prevBody then some (endWithGoto g prevCond defaultBody)
       else
        if v.defaultShared then
          addPredecessor (endWith (newDefinition g (newTest prevCmpIns prevBody defaultBody)).2
            prevCond (newDefinition g (newTest prevCmpIns prevBody defaultBody)).1)
            defaultBody prevCond
        else some (endWith (newDefinition g (newTest prevCmpIns prevBody defaultBody)).2
            prevCond (newDefinition g (newTest prevCmpIns prevBody defaultBody)).1)) = some g1 ∧
        pcs g1 = pcs g := by
    have hp : pcs (endWith (newDefinition g (newTest prevCmpIns prevBody defaultBody)).2 prevCond
        (newDefinition g (newTest prevCmpIns prevBody defaultBody)).1) = pcs g := by
      rw [pcs_endWith, pcs_newDefinition]
    by_cases he : defaultBody = prevBody
    · rw [if_pos he]; exact ⟨_, rfl, pcs_endWithGoto _ _ _⟩
    · rw [if_neg he]
      by_cases hs : v.defaultShared = true
      · rw [if_pos hs]
        obtain ⟨g1, hg1, hp1⟩ := addPredecessor_pcs _ defaultBody prevCond (by rw [hp]; exact hd)
          (by rw [hp]; exact hc)
        exact ⟨g1, hg1, hp1.trans hp⟩
      · rw [if_neg hs]; exact ⟨_, rfl, hp⟩
  obtain ⟨g1, hg1, hp1⟩ := hended
  simp only [endLastCondition, hg1]
  by_cases hs : v.prevShared = true
  · rw [if_pos hs]
    obtain ⟨g2, hg2, hp2⟩ := addPredecessor_pcs g1 prevBody prevCond (by rw [hp1]; exact hb)
      (by rw [hp1]; exact hc)
    exact ⟨g2, hg2, hp2.trans hp1⟩
  · rw [if_neg hs]; exact ⟨_, rfl, hp1⟩


theorem insert_sorted (l : List Nat) (idx x : Nat) (hs : l.Pairwise fun a b => a < b)
    (hb : ∀ a ∈ l.take idx, a < x) (ha : ∀ a ∈ l.drop idx, x < a) :
    (l.take idx ++ x :: l.drop idx).Pairwise fun a b => a < b := by
  rw [List.pairwise_append]
  refine ⟨hs.sublist (List.take_sublist _ _),
    List.pairwise_cons.2 ⟨ha, hs.sublist (List.drop_sublist _ _)⟩, ?_⟩
  intro a ha1 b hb1
  simp only [List.mem_cons] at hb1
  rcases hb1 with hb1 | hb1
  · rw [hb1]; exact hb a ha1
  · have h2 : (l.take idx ++ l.drop idx).Pairwise fun a b => a < b := by
      rw [List.take_append_drop]; exact hs
    exact (List.pairwise_append.1 h2).2.2 a ha1 b hb1

theorem lookupSwitchDefault_spec (n0 defaultpc : Nat) (b : IonBuilder) (v : LookupSwitchVars)
    (done : List Nat) (hne : done ≠ []) (h : LookupInv n0 defaultpc done (pcs b.graph) v) :
    ∃ g bodies, lookupSwitchDefault defaultpc b v = .ok ({ b with graph := g }, bodies) ∧
      (bodies.map fun blk => (pcs g).getD blk 0).Pairwise (fun x y => x < y) ∧
      (∀ p, p ∈ (bodies.map fun blk => (pcs g).getD blk 0) ↔ p ∈ done ∨ p = defaultpc) ∧
      (pcs g).length = n0 + done.length + bodies.length ∧
      (∀ blk ∈ bodies, n0 ≤ blk ∧ blk < (pcs g).length) ∧ bodies ≠ [] := by
  obtain ⟨last, hl⟩ : ∃ last, done.getLast? = some last := by
    cases hl : done.getLast? with
    | none => exact absurd (List.getLast?_eq_none_iff.1 hl) hne
    | some last => exact ⟨last, rfl⟩
  obtain ⟨body, cond, cmp, hb, hgl, hc, hclt, hcm, hpc⟩ := h.prev last hl
  have hbm : body ∈ v.bodyBlocks := List.mem_of_getLast?_eq_some hgl
  have hbl : body < (pcs b.graph).length := (h.fresh body hbm).2
  have hsize := h.size
  cases hdb : v.defaultBody with
  | some d =>
    obtain ⟨hdm, hdp⟩ := h.default d hdb
    obtain ⟨g1, hg1, hp1⟩ := endLastCondition_pcs b.graph v d cond cmp body (h.fresh d hdm).2
      hclt hbl
    refine ⟨g1, v.bodyBlocks, ?_, ?_, ?_, ?_, ?_, ?_⟩
    · simp only [lookupSwitchDefault, hdb, hc, hcm, hb, hg1]
    · rw [hp1]; exact h.sorted
    · intro p; rw [hp1, h.mem p]
      constructor
      · exact fun hp => Or.inl hp
      · rintro (hp | hp)
        · exact hp
        · rw [hp, ← hdp, ← h.mem]; exact List.mem_map_of_mem _ hdm
    · rw [hp1]; exact hsize
    · rw [hp1]; exact h.fresh
    · exact List.ne_nil_of_mem hbm
  | none =>
    obtain ⟨g1, hnb, hp1⟩ := newBlock_pcs b cond defaultpc hclt
    obtain ⟨g2, hg2, hp2⟩ := endLastCondition_pcs g1 v (pcs b.graph).length cond cmp body
      (by rw [hp1]; simp) (by rw [hp1]; simp; omega) (by rw [hp1]; simp; omega)
    have hbodies : (if v.bodyBlocks.length ≤ v.defaultIdx then
          v.bodyBlocks ++ [(pcs b.graph).length]
        else v.bodyBlocks.take v.defaultIdx ++ [(pcs b.graph).length] ++
          v.bodyBlocks.drop v.defaultIdx) =
        v.bodyBlocks.take v.defaultIdx ++ (pcs b.graph).length ::
          v.bodyBlocks.drop v.defaultIdx := by
      by_cases hle : v.bodyBlocks.length ≤ v.defaultIdx
      · rw [if_pos hle, List.take_of_length_le hle, List.drop_of_length_le hle]
      · rw [if_neg hle]; simp
    have hlt : ∀ blk ∈ v.bodyBlocks, blk < (pcs b.graph).length := fun blk hm => (h.fresh blk hm).2
    have hmap : ((v.bodyBlocks.take v.defaultIdx ++ (pcs b.graph).length ::
          v.bodyBlocks.drop v.defaultIdx).map fun blk => (pcs g2).getD blk 0) =
        (v.bodyBlocks.map fun blk => (pcs b.graph).getD blk 0).take v.defaultIdx ++
          defaultpc ::
          (v.bodyBlocks.map fun blk => (pcs b.graph).getD blk 0).drop v.defaultIdx := by
      rw [hp2, hp1, List.map_append, List.map_cons, getD_frame_length,
        map_getD_frame _ _ _ fun blk hm => hlt blk (List.mem_of_mem_take hm),
        map_getD_frame _ _ _ fun blk hm => hlt blk (List.mem_of_mem_drop hm),
        List.map_take, List.map_drop]
    refine ⟨g2, v.bodyBlocks.take v.defaultIdx ++ (pcs b.graph).length ::
      v.bodyBlocks.drop v.defaultIdx, ?_, ?_, ?_, ?_, ?_, ?_⟩
    · simp only [lookupSwitchDefault, hdb, hc, hcm, hb, hnb, Option.map_some', hg2, hbodies]
    · rw [hmap]
      apply insert_sorted _ _ _ h.sorted
      · intro a ha
        rw [← List.map_take] at ha
        obtain ⟨blk, hm, rfl⟩ := List.mem_map.1 ha
        exact h.below blk hm
      · intro a ha
        rw [← List.map_drop] at ha
        obtain ⟨blk, hm, rfl⟩ := List.mem_map.1 ha
        have h1 := h.above blk hm
        have h2 := h.noDefault hdb blk (List.mem_of_mem_drop hm)
        omega
    · intro p
      rw [hmap, List.mem_append, List.mem_cons, ← h.mem p]
      constructor
      · rintro (hp | hp | hp)
        · exact Or.inl (List.mem_of_mem_take hp)
        · exact Or.inr hp
        · exact Or.inl (List.mem_of_mem_drop hp)
      · rintro (hp | hp)
        · rw [← List.take_append_drop v.defaultIdx
            (v.bodyBlocks.map fun blk => (pcs b.graph).getD blk 0), List.mem_append] at hp
          rcases hp with hp | hp
          · exact Or.inl hp
          · exact Or.inr (Or.inr hp)
        · exact Or.inr (Or.inl hp)
    · rw [hp2, hp1]
      simp only [List.length_append, List.length_cons, List.length_singleton, List.length_nil,
        List.length_take, List.length_drop]
      omega
    · intro blk hm
      rw [hp2, hp1]
      simp only [List.mem_append, List.mem_cons] at hm
      simp only [List.length_append, List.length_singleton]
      rcases hm with hm | hm | hm
      · have := h.fresh blk (List.mem_of_mem_take hm); omega
      · omega
      · have := h.fresh blk (List.mem_of_mem_drop hm); omega
    · simp

end Builder

namespace Builder

theorem lookupInv_init (defaultpc : Nat) (P : List Nat) : LookupInv P.length defaultpc [] P {} where
  sorted := List.Pairwise.nil
  mem := by intro p; simp
  fresh := by intro blk hm; simp at hm
  size := by simp
  short := by simp
  prevpc := rfl
  top := by intro p hp; simp at hp
  prev := by intro last hl; simp at hl
  below := by intro blk hm; simp at hm
  above := by intro blk hm; simp at hm
  noDefault := by intro _ blk hm; simp at hm
  default := by intro d hd; simp at hd
  idx := Or.inl rfl
  unset := fun _ => rfl

/-- Claim C33: for a `LOOKUPSWITCH` with at least one case whose case targets
are non-decreasing, met in a block whose stack holds the input, `lookupSwitch`
returns and pushes the state of a lookup switch whose body blocks are new
blocks with strictly increasing addresses; an address is that of a body block
exactly if it is a case target or the default target, so that cases with the
same target share one body and the default uses the body of a case with its
address; and nothing but one conditional block per case and these body blocks
is created, so that a default body is created only if no case has the address
of the default. -/
theorem lookupSwitch_body_blocks (b : IonBuilder) (bc : Bytecode) (cur offset ins : Nat)
    (l : List Nat) (hcur : b.current = some cur) (hnote : bc.note = some (.SWITCH offset))
    (hstack : stack b.graph cur = some (l ++ [ins]))
    (hcases : bc.lookup ≠ []) (hn : bc.lookup.length ≤ 65535)
    (hsorted : (bc.lookup.map fun c => jump b.pc c.2).Pairwise (fun x y => x ≤ y)) :
    ∃ b1 state, lookupSwitch b bc = .ok (.Jumped, b1) ∧
      b1.cfgStack = b.cfgStack ++ [state] ∧ state.state = .LOOKUP_SWITCH ∧
      (state.bodies.map (pcOf b1.graph)).Pairwise (fun x y => x < y) ∧
      (∀ p, p ∈ state.bodies.map (pcOf b1.graph) ↔
        p ∈ (bc.lookup.map fun c => jump b.pc c.2) ∨ p = jump b.pc bc.jumpOffset) ∧
      (∀ blk ∈ state.bodies, b.graph.table.length ≤ blk ∧ blk < b1.graph.table.length) ∧
      b1.graph.table.length = b.graph.table.length + bc.lookup.length + state.bodies.length := by
  obtain ⟨graph, current, pc, cfgStack, loops, loopDepth, script, callerBuilder, inliningDepth,
    nargs, nlocals, switches⟩ := b
  dsimp only at hcur hstack hsorted ⊢
  subst hcur
  have hpop : pop graph cur =
      some (ins, modifyBlock graph cur fun x => { x with slots := x.slots.dropLast }) := by
    simp [pop, peek_top graph cur ins l hstack]
  have hp0 : pcs (modifyBlock graph cur fun x => { x with slots := x.slots.dropLast }) =
      pcs graph := pcs_modifyBlock _ _ _ fun _ => rfl
  have hclt : cur < (pcs graph).length := by
    rw [pcs_length]
    cases hb : graph.block cur with
    | none => simp [stack, hb] at hstack
    | some x => exact lt_of_block _ _ _ hb
  obtain ⟨g1, v, hloop, hinv⟩ := lookupSwitchCases_spec pc (jump pc bc.jumpOffset) ins
    (pcs graph).length cur bc.lookup 0
    { graph := modifyBlock graph cur fun x => { x with slots := x.slots.dropLast },
      current := some cur, pc := pc, cfgStack := cfgStack, loops := loops,
      loopDepth := loopDepth, script := script, callerBuilder := callerBuilder,
      inliningDepth := inliningDepth, nargs := nargs, nlocals := nlocals, switches := switches }
    {} [] (by rw [hp0]; exact lookupInv_init _ _) rfl rfl hclt (by simpa using hsorted)
    (by simp [UINT_MAX]; omega)
  obtain ⟨g2, bodies, hdef, hs, hm, hsz, hfr, hne⟩ := lookupSwitchDefault_spec
    (pcs graph).length (jump pc bc.jumpOffset)
    { graph := g1, current := some cur, pc := pc, cfgStack := cfgStack, loops := loops,
      loopDepth := loopDepth, script := script, callerBuilder := callerBuilder,
      inliningDepth := inliningDepth, nargs := nargs, nlocals := nlocals, switches := switches }
    v _ (by simpa using hcases) hinv
  obtain ⟨first, rest, hbodies⟩ : ∃ first rest, bodies = first :: rest := by
    cases bodies with
    | nil => exact absurd rfl hne
    | cons first rest => exact ⟨first, rest, rfl⟩
  have hpc : ∀ blk, pcOf (moveBlockToEnd g2 first) blk = (pcs g2).getD blk 0 := by
    intro blk; rw [pcOf_eq_getD, pcs_moveBlockToEnd]
  have hlen : (moveBlockToEnd g2 first).table.length = (pcs g2).length := by
    rw [← pcs_length, pcs_moveBlockToEnd]
  simp only [List.nil_append, List.length_map] at hm hsz
  rw [pcs_length] at hsz
  obtain ⟨state, hstate⟩ : ∃ state : CFGState, state =
      (if 1 < bodies.length then
        { { CFGState.LookupSwitch (pc + offset) with bodies := bodies } with
          stopAt := pcOf (moveBlockToEnd g2 first) (bodies.getD 1 0) }
       else { CFGState.LookupSwitch (pc + offset) with bodies := bodies }) := ⟨_, rfl⟩
  have hsb : state.bodies = bodies := by
    rw [hstate]; split_ifs <;> rfl
  have hss : state.state = .LOOKUP_SWITCH := by
    rw [hstate]; split_ifs <;> rfl
  dsimp only at hloop hdef
  refine ⟨{ graph := moveBlockToEnd g2 first,
            switches := switches ++ [{ cfgEntry := cfgStack.length, continuepc := pc + offset }],
            cfgStack := cfgStack ++ [state], current := some first,
            pc := pcOf (moveBlockToEnd g2 first) first, loops := loops,
            loopDepth := loopDepth, script := script, callerBuilder := callerBuilder,
            inliningDepth := inliningDepth, nargs := nargs, nlocals := nlocals },
    state, ?_, rfl, hss, ?_, ?_, ?_, ?_⟩
  · simp only [lookupSwitch, hnote, hpop, hloop, hdef, hbodies, List.getElem?_cons_zero]
    rw [hstate, hbodies]
  · rw [hsb]
    have : (bodies.map (pcOf (moveBlockToEnd g2 first))) =
        bodies.map fun blk => (pcs g2).getD blk 0 := List.map_congr_left fun blk _ => hpc blk
    rw [this]; exact hs
  · intro p
    rw [hsb]
    have : (bodies.map (pcOf (moveBlockToEnd g2 first))) =
        bodies.map fun blk => (pcs g2).getD blk 0 := List.map_congr_left fun blk _ => hpc blk
    rw [this]; exact hm p
  · intro blk hb
    rw [hsb] at hb
    have := hfr blk hb
    rw [pcs_length] at this
    exact ⟨this.1, by rw [hlen]; exact this.2⟩
  · rw [hsb, hlen]
    simp only [pcs_length] at hsz ⊢
    exact hsz

theorem lookupSwitch_body_blocks_witness :
    ∃ b1 state, lookupSwitch lookupSwitchBuilder lookupSwitchOp = .ok (.Jumped, b1) ∧
      b1.cfgStack = lookupSwitchBuilder.cfgStack ++ [state] ∧ state.state = .LOOKUP_SWITCH ∧
      (state.bodies.map (pcOf b1.graph)).Pairwise (fun x y => x < y) ∧
      (∀ p, p ∈ state.bodies.map (pcOf b1.graph) ↔
        p ∈ (lookupSwitchOp.lookup.map fun c => jump lookupSwitchBuilder.pc c.2) ∨
          p = jump lookupSwitchBuilder.pc lookupSwitchOp.jumpOffset) ∧
      (∀ blk ∈ state.bodies,
        lookupSwitchBuilder.graph.table.length ≤ blk ∧ blk < b1.graph.table.length) ∧
      b1.graph.table.length =
        lookupSwitchBuilder.graph.table.length + lookupSwitchOp.lookup.length +
          state.bodies.length :=
  lookupSwitch_body_blocks lookupSwitchBuilder lookupSwitchOp 0 47 3 [0, 1, 2, 3] rfl rfl
    (by decide) (by decide) (by decide) (by decide)

end Builder

namespace Builder

/-! ## Inlining: blocks that a step leaves alone -/

theorem untouched_refl (t : List Nat) (g : MIRGraph) : Untouched t g g :=
  ⟨le_refl _, fun _ _ _ => rfl⟩

theorem untouched_mono {t t1 : List Nat} {g g1 : MIRGraph} (h : Untouched t g g1)
    (hs : ∀ x ∈ t, x ∈ t1) : Untouched t1 g g1 :=
  ⟨h.1, fun blk hlt hn => h.2 blk hlt fun hm => hn (hs blk hm)⟩

theorem untouched_trans {t : List Nat} {g g1 g2 : MIRGraph} (h1 : Untouched t g g1)
    (h2 : Untouched t g1 g2) : Untouched t g g2 :=
  ⟨le_trans h1.1 h2.1, fun blk hlt hn =>
    (h2.2 blk (lt_of_lt_of_le hlt h1.1) hn).trans (h1.2 blk hlt hn)⟩

theorem untouched_step {t t1 t2 : List Nat} {g g1 g2 : MIRGraph} (h1 : Untouched t1 g g1)
    (h2 : Untouched t2 g1 g2) (hs1 : ∀ x ∈ t1, x ∈ t) (hs2 : ∀ x ∈ t2, x ∈ t) :
    Untouched t g g2 :=
  untouched_trans (untouched_mono h1 hs1) (untouched_mono h2 hs2)

theorem untouched_modifyBlock (g : MIRGraph) (b : Nat) (f : MBasicBlock → MBasicBlock) :
    Untouched [b] g (modifyBlock g b f) := by
  refine ⟨by simp [modifyBlock], ?_⟩
  intro blk _ hn
  rw [block_modify_bld]
  have : ¬ b = blk := fun h => hn (by simp [h])
  cases g.block blk <;> simp [this]

theorem untouched_table {g g1 : MIRGraph} (h : g1.table = g.table) : Untouched [] g g1 :=
  ⟨by rw [h], fun blk _ _ => by simp only [MIRGraph.block, h]⟩

theorem untouched_newDefinition (g : MIRGraph) (d : MDefinition) :
    Untouched [] g (newDefinition g d).2 :=
  untouched_table rfl

theorem untouched_add (g : MIRGraph) (b ins : Nat) : Untouched [b] g (add g b ins) :=
  untouched_trans (untouched_modifyBlock g b _) (untouched_mono (untouched_table rfl) (by simp))

theorem untouched_endWith (g : MIRGraph) (b ins : Nat) : Untouched [b] g (endWith g b ins) :=
  untouched_trans (untouched_add g b ins) (untouched_modifyBlock _ b _)

theorem untouched_endWithGoto (g : MIRGraph) (blk target : Nat) :
    Untouched [blk] g (endWithGoto g blk target) :=
  untouched_trans (untouched_mono (untouched_newDefinition g _) (by simp))
    (untouched_endWith _ blk _)

theorem untouched_moveBlockToEnd (g : MIRGraph) (b : Nat) : Untouched [] g (moveBlockToEnd g b) :=
  untouched_table rfl

theorem untouched_newBlockAt (g g1 : MIRGraph) (pred : Option Nat) (pc loopDepth blk : Nat)
    (h : newBlockAt g pred pc loopDepth = some (blk, g1)) :
    Untouched [] g g1 ∧ blk = g.table.length ∧ g1.table.length = g.table.length + 1 := by
  unfold newBlockAt at h
  have key : ∀ x : MBasicBlock, Untouched []
      g { g with table := g.table ++ [x], blocks := g.blocks ++ [g.table.length] } := by
    intro x
    refine ⟨by simp, ?_⟩
    intro b hlt _
    simp only [MIRGraph.block]
    rw [List.getElem?_append_left hlt]
  cases pred with
  | none =>
    simp only [Option.some.injEq, Prod.mk.injEq] at h
    obtain ⟨h1, h2⟩ := h
    subst h2
    exact ⟨key _, h1.symm, by simp⟩
  | some p =>
    cases hb : g.block p with
    | none => simp [hb] at h
    | some x =>
      simp only [hb, Option.some.injEq, Prod.mk.injEq] at h
      obtain ⟨h1, h2⟩ := h
      subst h2
      exact ⟨key _, h1.symm, by simp⟩

theorem newBlockAt_block (g : MIRGraph) (p pc loopDepth : Nat) (x : MBasicBlock)
    (hp : g.block p = some x) :
    ∃ g1, newBlockAt g (some p) pc loopDepth = some (g.table.length, g1) ∧
      Untouched [] g g1 ∧ g1.table.length = g.table.length + 1 ∧
      g1.block g.table.length =
        some { pc := pc, predecessors := [p], slots := x.slots, loopDepth := loopDepth } ∧
      g1.defs = g.defs ∧ g1.exits = g.exits := by
  have h : newBlockAt g (some p) pc loopDepth = some (g.table.length,
      { g with
        table := g.table ++
                   [{ pc := pc, predecessors := [p], slots := x.slots, loopDepth := loopDepth }],
        blocks := g.blocks ++ [g.table.length] }) := by
    simp only [newBlockAt, hp]
  obtain ⟨h1, _, h3⟩ := untouched_newBlockAt _ _ _ _ _ _ h
  refine ⟨_, h, h1, h3, ?_, rfl, rfl⟩
  simp [MIRGraph.block]

theorem block_untouched {t : List Nat} {g g1 : MIRGraph} (h : Untouched t g g1) (blk : Nat)
    (x : MBasicBlock) (hb : g.block blk = some x) (hn : blk ∉ t) : g1.block blk = some x := by
  rw [h.2 blk (lt_of_block g blk x hb) hn, hb]

theorem stack_untouched {t : List Nat} {g g1 : MIRGraph} (h : Untouched t g g1) (blk : Nat)
    (l : List Nat) (hb : stack g blk = some l) (hn : blk ∉ t) : stack g1 blk = some l := by
  simp only [stack] at hb ⊢
  cases hx : g.block blk with
  | none => simp [hx] at hb
  | some x => rw [block_untouched h blk x hx hn]; rw [hx] at hb; exact hb

end Builder

namespace Builder

/-! ## Inlining: steps of the graph -/

theorem step_refl (t : List Nat) (g : MIRGraph) : Step t g g :=
  ⟨untouched_refl t g, extends_refl g⟩

theorem step_mono {t t1 : List Nat} {g g1 : MIRGraph} (h : Step t g g1)
    (hs : ∀ x ∈ t, x ∈ t1) : Step t1 g g1 :=
  ⟨untouched_mono h.blocks hs, h.defs⟩

theorem step_trans {t : List Nat} {g g1 g2 : MIRGraph} (h1 : Step t g g1) (h2 : Step t g1 g2) :
    Step t g g2 :=
  ⟨untouched_trans h1.blocks h2.blocks, extends_trans h1.defs h2.defs⟩

theorem step_then {t t1 t2 : List Nat} {g g1 g2 : MIRGraph} (h1 : Step t1 g g1)
    (h2 : Step t2 g1 g2) (hs1 : ∀ x ∈ t1, x ∈ t) (hs2 : ∀ x ∈ t2, x ∈ t) : Step t g g2 :=
  step_trans (step_mono h1 hs1) (step_mono h2 hs2)

theorem step_modifyBlock (g : MIRGraph) (b : Nat) (f : MBasicBlock → MBasicBlock) :
    Step [b] g (modifyBlock g b f) :=
  ⟨untouched_modifyBlock g b f, extends_modifyBlock g b f⟩

theorem step_newDefinition (g : MIRGraph) (d : MDefinition) : Step [] g (newDefinition g d).2 :=
  ⟨untouched_newDefinition g d, extends_new g d⟩

theorem step_add (g : MIRGraph) (b ins : Nat) : Step [b] g (add g b ins) :=
  ⟨untouched_add g b ins, extends_add g b ins⟩

theorem step_endWith (g : MIRGraph) (b ins : Nat) : Step [b] g (endWith g b ins) :=
  step_trans (step_add g b ins) (step_modifyBlock _ b _)

theorem step_endWithGoto (g : MIRGraph) (blk target : Nat) :
    Step [blk] g (endWithGoto g blk target) :=
  ⟨untouched_endWithGoto g blk target, extends_endWithGoto g blk target⟩

theorem step_moveBlockToEnd (g : MIRGraph) (b : Nat) : Step [] g (moveBlockToEnd g b) :=
  ⟨untouched_moveBlockToEnd g b, fun _ y h => ⟨y, h, rfl, rfl, rfl, id⟩⟩

theorem step_exits (g : MIRGraph) (exits : List Nat) : Step [] g { g with exits := exits } :=
  ⟨untouched_table rfl, fun _ y h => ⟨y, h, rfl, rfl, rfl, id⟩⟩

theorem step_newBlockAt (g : MIRGraph) (p pc loopDepth : Nat) (x : MBasicBlock)
    (hp : g.block p = some x) :
    ∃ g1, newBlockAt g (some p) pc loopDepth = some (g.table.length, g1) ∧
      Step [] g g1 ∧ g1.table.length = g.table.length + 1 ∧
      g1.block g.table.length =
        some { pc := pc, predecessors := [p], slots := x.slots, loopDepth := loopDepth } ∧
      g1.defs = g.defs ∧ g1.exits = g.exits := by
  obtain ⟨g1, h1, h2, h3, h4, h5, h6⟩ := newBlockAt_block g p pc loopDepth x hp
  refine ⟨g1, h1, ⟨h2, ?_⟩, h3, h4, h5, h6⟩
  intro d y hy
  exact ⟨y, by simpa only [MIRGraph.definition, h5] using hy, rfl, rfl, rfl, id⟩

theorem block_step {t : List Nat} {g g1 : MIRGraph} (h : Step t g g1) (blk : Nat)
    (x : MBasicBlock) (hb : g.block blk = some x) (hn : blk ∉ t) : g1.block blk = some x :=
  block_untouched h.blocks blk x hb hn

theorem stack_step {t : List Nat} {g g1 : MIRGraph} (h : Step t g g1) (blk : Nat)
    (l : List Nat) (hb : stack g blk = some l) (hn : blk ∉ t) : stack g1 blk = some l :=
  stack_untouched h.blocks blk l hb hn

theorem block_of_stack (g : MIRGraph) (blk : Nat) (l : List Nat) (h : stack g blk = some l) :
    ∃ x, g.block blk = some x ∧ x.slots = l := by
  simp only [stack] at h
  cases hb : g.block blk with
  | none => simp [hb] at h
  | some x => exact ⟨x, rfl, by simpa [hb] using h⟩

theorem stack_of_block (g : MIRGraph) (blk : Nat) (x : MBasicBlock) (h : g.block blk = some x) :
    stack g blk = some x.slots := by
  simp [stack, h]

theorem block_modify_self (g : MIRGraph) (b : Nat) (f : MBasicBlock → MBasicBlock)
    (x : MBasicBlock) (h : g.block b = some x) : (modifyBlock g b f).block b = some (f x) := by
  rw [block_modify_bld, h]; simp

theorem block_add_self (g : MIRGraph) (b ins : Nat) (x : MBasicBlock) (h : g.block b = some x) :
    (add g b ins).block b = some { x with instructions := x.instructions ++ [ins] } := by
  rw [add, block_modifyDefinition_bld, block_modify_self g b _ x h]

theorem block_endWith_self (g : MIRGraph) (b ins : Nat) (x : MBasicBlock)
    (h : g.block b = some x) :
    (endWith g b ins).block b =
      some { x with instructions := x.instructions ++ [ins], lastIns := some ins } := by
  rw [endWith, block_modify_self _ b _ _ (block_add_self g b ins x h)]

theorem block_endWithGoto_self (g : MIRGraph) (blk target : Nat) (x : MBasicBlock)
    (h : g.block blk = some x) :
    (endWithGoto g blk target).block blk =
      some { x with instructions := x.instructions ++ [g.defs.length],
                    lastIns := some g.defs.length } := by
  rw [endWithGoto]
  exact block_endWith_self _ blk _ x h

theorem pop_spec (g : MIRGraph) (b d : Nat) (l : List Nat) (h : stack g b = some (l ++ [d])) :
    ∃ g1, pop g b = some (d, g1) ∧ Step [b] g g1 ∧ stack g1 b = some l ∧
      g1.exits = g.exits ∧ g1.defs = g.defs ∧
      (∀ x, g.block b = some x → g1.block b = some { x with slots := l }) := by
  refine ⟨modifyBlock g b fun x => { x with slots := x.slots.dropLast }, ?_,
    step_modifyBlock g b _, ?_, rfl, rfl, ?_⟩
  · simp [pop, peek_top g b d l h]
  · obtain ⟨x, hx, hs⟩ := block_of_stack g b _ h
    rw [stack_of_block _ b _ (block_modify_self g b _ x hx)]
    simp [hs]
  · intro x hx
    obtain ⟨x1, hx1, hs⟩ := block_of_stack g b _ h
    rw [hx] at hx1; cases hx1
    rw [block_modify_self g b _ x hx]
    simp [hs]

theorem popN_spec (blk : Nat) :
    ∀ (n : Nat) (g : MIRGraph) (base rest : List Nat) (x : MBasicBlock),
      g.block blk = some x → x.slots = base ++ rest → rest.length = n →
      ∃ g1, popN blk n g = some g1 ∧ Step [blk] g g1 ∧ g1.defs = g.defs ∧
        g1.block blk = some { x with slots := base }
  | 0, g, base, rest, x, hx, hs, hn => by
    have : rest = [] := List.length_eq_zero.1 hn
    subst this
    refine ⟨g, rfl, step_refl _ _, rfl, ?_⟩
    rw [hx]; simp at hs; rw [← hs]
  | n + 1, g, base, rest, x, hx, hs, hn => by
    obtain ⟨d, rest1, hr⟩ : ∃ d rest1, rest = rest1 ++ [d] := by
      have hne : rest ≠ [] := by intro h; rw [h] at hn; simp at hn
      exact ⟨rest.getLast hne, rest.dropLast, (List.dropLast_append_getLast hne).symm⟩
    subst hr
    have hst : stack g blk = some ((base ++ rest1) ++ [d]) := by
      rw [stack_of_block g blk x hx, hs, List.append_assoc]
    obtain ⟨g1, hp, hstep, _, _, hdefs, hblk⟩ := pop_spec g blk d _ hst
    obtain ⟨g2, hp2, hstep2, hdefs2, hblk2⟩ := popN_spec blk n g1 base rest1 _ (hblk x hx) rfl
      (by simpa using hn)
    exact ⟨g2, by simp only [popN, hp, hp2], step_trans hstep hstep2, hdefs2.trans hdefs, hblk2⟩

theorem step_push (g : MIRGraph) (b d : Nat) : Step [b] g (push g b d) :=
  step_modifyBlock g b _

theorem stack_push_self (g : MIRGraph) (b d : Nat) (l : List Nat) (h : stack g b = some l) :
    stack (push g b d) b = some (l ++ [d]) :=
  stack_push g b d l h

theorem add_new_spec (g : MIRGraph) (cur : Nat) (l : List Nat) (x : MDefinition)
    (hs : stack g cur = some l) :
    Step [cur] g (add (newDefinition g x).2 cur (newDefinition g x).1) ∧
      stack (add (newDefinition g x).2 cur (newDefinition g x).1) cur = some l :=
  ⟨step_then (step_newDefinition g x) (step_add _ cur _) (by simp) (by simp),
    by rw [stack_add]; exact hs⟩

theorem push_new_spec (g : MIRGraph) (cur : Nat) (l : List Nat) (x : MDefinition)
    (hs : stack g cur = some l) :
    Step [cur] g (push (add (newDefinition g x).2 cur (newDefinition g x).1) cur
        (newDefinition g x).1) ∧
      stack (push (add (newDefinition g x).2 cur (newDefinition g x).1) cur
        (newDefinition g x).1) cur = some (l ++ [(newDefinition g x).1]) :=
  ⟨step_trans (add_new_spec g cur l x hs).1 (step_push _ cur _),
    stack_push_self _ cur _ l (add_new_spec g cur l x hs).2⟩




theorem pushTypeBarrier_total (b : IonBuilder) (ins : Nat) (actual observed : Option TypeSet)
    (cur d : Nat) (l : List Nat) (i : MDefinition) (hcur : b.current = some cur)
    (hs : stack b.graph cur = some (l ++ [d])) (hi : b.graph.definition ins = some i) :
    ∃ g1 r, pushTypeBarrier b ins actual observed = .ok (true, { b with graph := g1 }) ∧
      Step [cur] b.graph g1 ∧ stack g1 cur = some (l ++ [r]) := by
  obtain ⟨graph, current, pc, cfgStack, loops, loopDepth, script, callerBuilder, inliningDepth,
    nargs, nlocals, switches⟩ := b
  dsimp only at hcur hs hi ⊢
  subst hcur
  obtain ⟨g0, hpop, hstep0, hs0, _, hdefs0, _⟩ := pop_spec graph cur d l hs
  have hi0 : g0.definition ins = some i := by
    simp only [MIRGraph.definition, hdefs0]; exact hi
  have leaf : ∀ (G : MIRGraph) (r : Nat), Step [cur] graph G → stack G cur = some (l ++ [r]) →
      ∃ g1 r, (Run.ok (true, (IonBuilder.mk G (some cur) pc cfgStack loops loopDepth script callerBuilder
          inliningDepth nargs nlocals switches)) : Run (Bool × IonBuilder)) =
        .ok (true, (IonBuilder.mk g1 (some cur) pc cfgStack loops loopDepth script callerBuilder
          inliningDepth nargs nlocals switches)) ∧
        Step [cur] graph g1 ∧ stack g1 cur = some (l ++ [r]) :=
    fun G r h1 h2 => ⟨G, r, rfl, h1, h2⟩
  have pushNew : ∀ x : MDefinition,
      Step [cur] graph (push (add (newDefinition g0 x).2 cur (newDefinition g0 x).1) cur
        (newDefinition g0 x).1) ∧
      stack (push (add (newDefinition g0 x).2 cur (newDefinition g0 x).1) cur
        (newDefinition g0 x).1) cur = some (l ++ [(newDefinition g0 x).1]) :=
    fun x => ⟨step_trans hstep0 (push_new_spec g0 cur l x hs0).1, (push_new_spec g0 cur l x hs0).2⟩
  unfold pushTypeBarrier
  cases actual with
  | none => exact leaf graph d (step_refl _ _) hs
  | some actual =>
    cases observed with
    | none =>
      simp only
      cases hr : barrierReplacement graph ins actual.knownTypeTag with
      | fail e =>
        exfalso
        unfold barrierReplacement at hr
        cases ht : actual.knownTypeTag <;> simp only [ht, hi] at hr <;>
          (try cases hr) <;> (split at hr <;> cases hr)
      | ok rep =>
        cases rep with
        | none => exact leaf graph d (step_refl _ _) hs
        | some replace =>
          simp only [hpop]
          exact leaf _ _ (pushNew replace).1 (pushNew replace).2
    | some observed =>
      simp only
      by_cases hu : observed.unknown = true
      · rw [if_pos hu]; exact leaf graph d (step_refl _ _) hs
      · rw [if_neg hu]
        simp only [hpop, hi0]
        have hs1 := add_new_spec g0 cur l (newTypeBarrier ins observed) hs0
        have hc : ∀ v : Value, ∃ g1 r, pushConstant
            (IonBuilder.mk (add (newDefinition g0 (newTypeBarrier ins observed)).2 cur (newDefinition g0 (newTypeBarrier ins observed)).1) (some cur) pc cfgStack loops loopDepth script callerBuilder
          inliningDepth nargs nlocals switches) v =
            .ok (true, (IonBuilder.mk g1 (some cur) pc cfgStack loops loopDepth script callerBuilder
          inliningDepth nargs nlocals switches)) ∧
            Step [cur] graph g1 ∧ stack g1 cur = some (l ++ [r]) := by
          intro v
          simp only [pushConstant]
          exact leaf _ _ (step_trans hstep0 (step_trans hs1.1 (push_new_spec _ cur l _ hs1.2).1))
            (push_new_spec _ cur l _ hs1.2).2
        split_ifs <;> first
          | exact hc _
          | exact leaf _ _
              (step_trans hstep0 (step_trans hs1.1 (push_new_spec _ cur l _ hs1.2).1))
              (push_new_spec _ cur l _ hs1.2).2
          | exact leaf _ _ (step_trans hstep0 (step_trans hs1.1 (step_push _ cur _)))
              (stack_push_self _ cur _ l hs1.2)
          | exact leaf _ _ (pushNew _).1 (pushNew _).2

end Builder

namespace Builder

/-! ## Inlining: the fallback path -/

theorem discard_step (g : MIRGraph) (ins blk : Nat) (y : MDefinition)
    (hd : g.definition ins = some y) (hb : y.block = some blk) :
    ∃ g1, discard g ins = some g1 ∧ Step [blk] g g1 ∧ (∀ x, stack g1 x = stack g x) ∧
      g1.defs = g.defs :=
  ⟨modifyBlock g blk fun x => { x with instructions := x.instructions.erase ins },
    by simp only [discard, hd, hb], step_modifyBlock g blk _,
    fun x => stack_modifyBlock g blk x _ fun _ => rfl, rfl⟩

theorem addFromElsewhere_step (g : MIRGraph) (fb ins blk : Nat) (y : MDefinition)
    (hd : g.definition ins = some y) (hb : y.block = some blk) :
    ∃ g1, addFromElsewhere g fb ins = some g1 ∧ Step [blk, fb] g g1 ∧
      (∀ x, stack g1 x = stack g x) ∧
      (∀ d z, g.definition d = some z →
        ∃ z1, g1.definition d = some z1 ∧ z1.op = z.op ∧ z1.operands = z.operands ∧
          (z1.block = z.block ∨ z1.block = some fb)) := by
  obtain ⟨g1, h1, h2, h3, h4⟩ := discard_step g ins blk y hd hb
  refine ⟨add g1 fb ins, by simp only [addFromElsewhere, h1, Option.map_some'],
    step_then h2 (step_add g1 fb ins) (by simp) (by simp), ?_, ?_⟩
  · intro x; rw [stack_add, h3]
  · intro d z hz
    have hz1 : g1.definition d = some z := by simp only [MIRGraph.definition, h4]; exact hz
    simp only [add, definition_modify_bld, definition_modifyBlock_bld, hz1, Option.map_some']
    by_cases he : ins = d
    · simp [he]
    · simp [he]

theorem addFromElsewhere_either (g : MIRGraph) (fb ins cur : Nat) (y : MDefinition)
    (hd : g.definition ins = some y) (hb : y.block = some cur ∨ y.block = some fb) :
    ∃ g1, addFromElsewhere g fb ins = some g1 ∧ Step [cur, fb] g g1 ∧
      (∀ x, stack g1 x = stack g x) ∧
      (∀ d z, g.definition d = some z →
        ∃ z1, g1.definition d = some z1 ∧ z1.op = z.op ∧ z1.operands = z.operands ∧
          (z1.block = z.block ∨ z1.block = some fb)) := by
  rcases hb with hb | hb
  · obtain ⟨g1, h1, h2, h3, h4⟩ := addFromElsewhere_step g fb ins cur y hd hb
    exact ⟨g1, h1, h2, h3, h4⟩
  · obtain ⟨g1, h1, h2, h3, h4⟩ := addFromElsewhere_step g fb ins fb y hd hb
    exact ⟨g1, h1, step_mono h2 (by simp), h3, h4⟩

theorem stack_modify_other (g : MIRGraph) (b x : Nat) (f : MBasicBlock → MBasicBlock)
    (h : x ≠ b) : stack (modifyBlock g b f) x = stack g x := by
  simp only [stack, block_modify_bld]
  have : ¬ b = x := fun e => h e.symm
  cases g.block x <;> simp [this]

theorem stack_push_other (g : MIRGraph) (b d x : Nat) (h : x ≠ b) :
    stack (push g b d) x = stack g x :=
  stack_modify_other g b x _ h

theorem moveCallee_spec (g : MIRGraph) (fb funcDefn c cur : Nat) (func cache : MDefinition)
    (m : List Nat) (hfd : g.definition funcDefn = some func) (hcd : g.definition c = some cache)
    (hcb : cache.block = some cur ∨ cache.block = some fb)
    (hchain : func.isGetPropertyCache = false →
      (func.block = some cur ∨ func.block = some fb) ∧
      ∃ tb tbd, func.operands[0]? = some tb ∧ g.definition tb = some tbd ∧
        (tbd.block = some cur ∨ tbd.block = some fb))
    (hm : stack g fb = some m) :
    ∃ g1 r, moveCallee g fb funcDefn c = some g1 ∧ Step [cur, fb] g g1 ∧
      (∀ x, x ≠ fb → stack g1 x = stack g x) ∧ stack g1 fb = some (m ++ [r]) := by
  have either : ∀ {z z1 : MDefinition}, (z.block = some cur ∨ z.block = some fb) →
      (z1.block = z.block ∨ z1.block = some fb) → (z1.block = some cur ∨ z1.block = some fb) := by
    intro z z1 h1 h2
    rcases h2 with h2 | h2
    · rw [h2]; exact h1
    · exact Or.inr h2
  obtain ⟨g1, h1, hs1, hst1, hd1⟩ := addFromElsewhere_either g fb c cur cache hcd hcb
  by_cases hg : func.isGetPropertyCache = true
  · refine ⟨push g1 fb c, c, by simp only [moveCallee, hfd, hg, if_true, h1, Option.map_some'],
      step_trans hs1 (step_mono (step_push g1 fb c) (by simp)), ?_, ?_⟩
    · intro x hx
      rw [stack_push_other _ _ _ _ hx, hst1]
    · exact stack_push_self g1 fb c m (by rw [hst1]; exact hm)
  · have hg1 : func.isGetPropertyCache = false := by simpa using hg
    obtain ⟨hfb, tb, tbd, htb, htbd, htbb⟩ := hchain hg1
    obtain ⟨tbd1, htbd1, _, _, hb1⟩ := hd1 tb tbd htbd
    obtain ⟨g2, h2, hs2, hst2, hd2⟩ := addFromElsewhere_either g1 fb tb cur tbd1 htbd1
      (either htbb hb1)
    obtain ⟨func1, hf1, _, _, hfb1⟩ := hd1 funcDefn func hfd
    obtain ⟨func2, hf2, _, _, hfb2⟩ := hd2 funcDefn func1 hf1
    obtain ⟨g3, h3, hs3, hst3, _⟩ := addFromElsewhere_either g2 fb funcDefn cur func2 hf2
      (either (either hfb hfb1) hfb2)
    refine ⟨push g3 fb funcDefn, funcDefn, ?_,
      step_trans hs1 (step_trans hs2 (step_trans hs3 (step_mono (step_push g3 fb _) (by simp)))),
      ?_, ?_⟩
    · simp only [moveCallee, hfd, hg, htb, h1, h2, h3, Option.some_bind, Option.map_some']
      simp
    · intro x hx
      rw [stack_push_other _ _ _ _ hx, hst3, hst2, hst1]
    · exact stack_push_self g3 fb funcDefn m (by rw [hst3, hst2, hst1]; exact hm)

theorem peek_spec (g : MIRGraph) (b depth : Nat) (s : List Nat) (h : stack g b = some s)
    (h0 : 0 < depth) (hd : depth ≤ s.length) :
    ∃ d, peek g b depth = some d ∧ s[s.length - depth]? = some d := by
  obtain ⟨x, hx, hs⟩ := block_of_stack g b s h
  have hlt : s.length - depth < s.length := by omega
  refine ⟨s[s.length - depth], ?_, List.getElem?_eq_getElem hlt⟩
  simp only [peek, hx, hs]
  rw [if_neg (by omega)]
  exact List.getElem?_eq_getElem hlt

theorem pushArgs_spec (cur fb : Nat) (hne : cur ≠ fb) :
    ∀ (n : Nat) (g : MIRGraph) (s : List Nat), stack g cur = some s → n ≤ s.length →
      ∃ g1, pushArgs cur fb n g = some g1 ∧ Step [fb] g g1
  | 0, g, _, _, _ => ⟨g, rfl, step_refl _ _⟩
  | n + 1, g, s, hs, hn => by
    obtain ⟨d, hp, _⟩ := peek_spec g cur (n + 1) s hs (by omega) hn
    obtain ⟨g1, h1, h2⟩ := pushArgs_spec cur fb hne n (push g fb d) s
      (by rw [stack_push_other _ _ _ _ hne]; exact hs) (by omega)
    exact ⟨g1, by simp only [pushArgs, hp, h1], step_trans (step_push g fb d) h2⟩

theorem passArgs_spec (blk : Nat) :
    ∀ (n : Nat) (g : MIRGraph) (call : MCall) (base rest : List Nat),
      stack g blk = some (base ++ rest) → rest.length = n →
      (∀ d ∈ rest, ∃ y, g.definition d = some y) →
      ∃ g1 call1, passArgs blk n g call = some (g1, call1) ∧ Step [blk] g g1 ∧
        stack g1 blk = some base
  | 0, g, call, base, rest, hs, hn, _ => by
    have : rest = [] := List.length_eq_zero.1 hn
    subst this
    exact ⟨g, call, rfl, step_refl _ _, by simpa using hs⟩
  | n + 1, g, call, base, rest, hs, hn, hd => by
    obtain ⟨d, rest1, hr⟩ : ∃ d rest1, rest = rest1 ++ [d] := by
      have hne : rest ≠ [] := by intro h; rw [h] at hn; simp at hn
      exact ⟨rest.getLast hne, rest.dropLast, (List.dropLast_append_getLast hne).symm⟩
    subst hr
    obtain ⟨g1, hp, hstep, hst, _, hdefs, _⟩ := pop_spec g blk d (base ++ rest1)
      (by rw [hs, List.append_assoc])
    obtain ⟨y, hy⟩ := hd d (by simp)
    have hy1 : g1.definition d = some y := by simp only [MIRGraph.definition, hdefs]; exact hy
    have ha := add_new_spec g1 blk (base ++ rest1) (newPassArg d y.type) hst
    obtain ⟨g2, call2, h2, hstep2, hst2⟩ := passArgs_spec blk n
      (add (newDefinition g1 (newPassArg d y.type)).2 blk (newDefinition g1 (newPassArg d y.type)).1)
      (call.addArg n (newDefinition g1 (newPassArg d y.type)).1) base rest1 ha.2
      (by simpa using hn)
      (by
        intro e he
        obtain ⟨z, hz⟩ := hd e (by simp [he])
        obtain ⟨z1, hz1, _⟩ := (step_trans hstep ha.1).defs e z hz
        exact ⟨z1, hz1⟩)
    exact ⟨g2, call2, by simp only [passArgs, hp, hy1, h2],
      step_trans hstep (step_trans ha.1 hstep2), hst2⟩

theorem step_shrink {t t1 : List Nat} {g g1 : MIRGraph} (h : Step t g g1)
    (hs : ∀ x ∈ t, x ∈ t1 ∨ g.table.length ≤ x) : Step t1 g g1 :=
  ⟨⟨h.blocks.1, fun blk hlt hn => h.blocks.2 blk hlt fun hm => by
      rcases hs blk hm with h1 | h1
      · exact hn h1
      · omega⟩, h.defs⟩

theorem newBlockWithResumePoint_spec (g : MIRGraph) (pred pc loopDepth : Nat) (s : List Nat) :
    Step [] g (newBlockWithResumePoint g pred pc loopDepth s).2 ∧
      (newBlockWithResumePoint g pred pc loopDepth s).1 = g.table.length ∧
      (newBlockWithResumePoint g pred pc loopDepth s).2.table.length = g.table.length + 1 ∧
      stack (newBlockWithResumePoint g pred pc loopDepth s).2 g.table.length = some s ∧
      (newBlockWithResumePoint g pred pc loopDepth s).2.defs = g.defs := by
  refine ⟨⟨⟨by simp [newBlockWithResumePoint], ?_⟩, fun d y h => ⟨y, h, rfl, rfl, rfl, id⟩⟩,
    rfl, by simp [newBlockWithResumePoint], by simp [newBlockWithResumePoint, stack, MIRGraph.block],
    rfl⟩
  intro blk hlt _
  simp only [newBlockWithResumePoint, MIRGraph.block]
  rw [List.getElem?_append_left hlt]

theorem rewriteAtDepth_spec (g : MIRGraph) (b depth d : Nat) (s : List Nat)
    (h : stack g b = some s) :
    Step [b] g (rewriteAtDepth g b depth d) ∧
      stack (rewriteAtDepth g b depth d) b = some (s.set (s.length - depth) d) ∧
      (rewriteAtDepth g b depth d).defs = g.defs := by
  obtain ⟨x, hx, hs⟩ := block_of_stack g b s h
  refine ⟨step_modifyBlock g b _, ?_, rfl⟩
  rw [rewriteAtDepth, stack_of_block _ b _ (block_modify_self g b _ x hx)]
  simp [hs]

theorem definition_add_new (g : MIRGraph) (x : MDefinition) (b d : Nat) (y : MDefinition)
    (h : g.definition d = some y) :
    (add (newDefinition g x).2 b (newDefinition g x).1).definition d = some y := by
  have hlt : d < g.defs.length := (List.getElem?_eq_some.mp h).1
  simp only [add, definition_modify_bld, definition_modifyBlock_bld,
    definition_new_old g x d y h, Option.map_some']
  have : ¬ (newDefinition g x).1 = d := by simp only [newDefinition]; omega
  simp [this]

theorem definition_endWithGoto (g : MIRGraph) (blk target d : Nat) (y : MDefinition)
    (h : g.definition d = some y) : (endWithGoto g blk target).definition d = some y := by
  simp only [endWithGoto, endWith, definition_modifyBlock_bld]
  exact definition_add_new g _ blk d y h

theorem definition_of_defs {g g1 : MIRGraph} (h : g1.defs = g.defs) (d : Nat) :
    g1.definition d = g.definition d := by
  simp only [MIRGraph.definition, h]

theorem newBlockWithResumePoint_fst (g : MIRGraph) (pred pc loopDepth : Nat) (s : List Nat) :
    (newBlockWithResumePoint g pred pc loopDepth s).1 = g.table.length := rfl

theorem makeFallbackPath_spec (b : IonBuilder) (cur argc funcDefn c : Nat)
    (types barrier : Option TypeSet) (s : List Nat) (cache func : MDefinition)
    (table : InlinePropertyTable) (targetObject : Nat)
    (hcur : b.current = some cur) (hs : stack b.graph cur = some s)
    (hdepth : argc + 2 ≤ s.length)
    (hcd : b.graph.definition c = some cache) (htable : cache.inlinePropertyTable = some table)
    (hobj : cache.operands[0]? = some targetObject) (hprior : table.priorResumePoint ≠ [])
    (hcb : cache.block = some cur) (hfd : b.graph.definition funcDefn = some func)
    (hchain : func.isGetPropertyCache = false →
      func.block = some cur ∧ ∃ tb tbd, func.operands[0]? = some tb ∧
        b.graph.definition tb = some tbd ∧ tbd.block = some cur)
    (hargs : ∀ d ∈ s.drop (s.length - (argc + 1)), ∃ y, b.graph.definition d = some y) :
    ∃ g1 prep mid fend m r s1,
      makeFallbackPath b cur argc funcDefn c types barrier =
        .ok (some (newPolyInlineDispatch targetObject
              { inlinePropertyTable := some table, fallbackPrepBlock := some prep,
                fallbackMidBlock := some mid, fallbackEndBlock := some fend }),
             { b with graph := g1 }) ∧
      Step [cur] b.graph g1 ∧ stack g1 cur = some s1 ∧ s1.length = s.length ∧
      b.graph.table.length ≤ fend ∧ fend < g1.table.length ∧ stack g1 fend = some (m ++ [r]) := by
  obtain ⟨graph, current, pc, cfgStack, loops, loopDepth, script, callerBuilder, inliningDepth,
    nargs, nlocals, switches⟩ := b
  dsimp only at hcur hs hcd hfd hchain hargs ⊢
  subst hcur
  obtain ⟨top, htop, htops⟩ := block_of_stack graph cur s hs
  have hclt : cur < graph.table.length := lt_of_block graph cur top htop
  -- the callee becomes `undefined`
  obtain ⟨hst1, hsk1⟩ := add_new_spec graph cur s (newConstant .Undefined) hs
  obtain ⟨hst2, hsk2, hdf2⟩ := rewriteAtDepth_spec
    (add (newDefinition graph (newConstant .Undefined)).2 cur
      (newDefinition graph (newConstant .Undefined)).1) cur (argc + 2)
    (newDefinition graph (newConstant .Undefined)).1 s hsk1
  obtain ⟨g1, hg1⟩ : ∃ g1, g1 = rewriteAtDepth
    (add (newDefinition graph (newConstant .Undefined)).2 cur
      (newDefinition graph (newConstant .Undefined)).1) cur (argc + 2)
    (newDefinition graph (newConstant .Undefined)).1 := ⟨_, rfl⟩
  rw [← hg1] at hst2 hsk2 hdf2
  have hstep1 : Step [cur] graph g1 := step_trans hst1 hst2
  have hold1 : ∀ d y, graph.definition d = some y → g1.definition d = some y := by
    intro d y hy
    rw [definition_of_defs hdf2]
    exact definition_add_new graph _ cur d y hy
  obtain ⟨s1, hs1e⟩ : ∃ s1, s1 = s.set (s.length - (argc + 2))
    (newDefinition graph (newConstant .Undefined)).1 := ⟨_, rfl⟩
  rw [← hs1e] at hsk2
  have hs1l : s1.length = s.length := by rw [hs1e]; simp
  -- the block that prepares the fallback
  obtain ⟨x1, hx1, hx1s⟩ := block_of_stack g1 cur s1 hsk2
  obtain ⟨g2, hnb2, hstep2, hlen2, hblk2, hdf2b, _⟩ := step_newBlockAt g1 cur pc loopDepth x1 hx1
  obtain ⟨g3, hpn, hstep3, hdf3, hblk3⟩ := popN_spec g1.table.length (argc + 2) g2
    (s1.take (s1.length - (argc + 2))) (s1.drop (s1.length - (argc + 2))) _ hblk2
    (by simp [hx1s]) (by simp; omega)
  have hlen3 : g2.table.length ≤ g3.table.length := hstep3.blocks.1
  have hlen1 : graph.table.length ≤ g1.table.length := hstep1.blocks.1
  -- the fallback block
  obtain ⟨hstep4, hmid, hlen4, hstk4, hdf4⟩ := newBlockWithResumePoint_spec g3 g1.table.length
    table.pc loopDepth table.priorResumePoint
  obtain ⟨g4, hg4⟩ : ∃ g4, g4 = (newBlockWithResumePoint g3 g1.table.length table.pc loopDepth
    table.priorResumePoint).2 := ⟨_, rfl⟩
  rw [← hg4] at hstep4 hlen4 hstk4 hdf4
  obtain ⟨p1, px, hpr⟩ : ∃ p1 px, table.priorResumePoint = p1 ++ [px] :=
    ⟨_, _, (List.dropLast_append_getLast hprior).symm⟩
  have hne45 : g3.table.length ≠ g1.table.length := by omega
  have hstep5 := step_endWithGoto g4 g1.table.length g3.table.length
  have hstk5 : stack (endWithGoto g4 g1.table.length g3.table.length) g3.table.length =
      some (p1 ++ [px]) := by
    rw [stack_step hstep5 _ _ hstk4 (by simp [hne45]), hpr]
  obtain ⟨g5, hpop5, hstep6, hstk6, _, hdf6, _⟩ := pop_spec _ g3.table.length px p1 hstk5
  have hcur5 : stack g5 cur = some s1 := by
    apply stack_step hstep6 _ _ _ (by simp; omega)
    apply stack_step hstep5 _ _ _ (by simp; omega)
    apply stack_step hstep4 _ _ _ (by simp)
    apply stack_step hstep3 _ _ _ (by simp; omega)
    exact stack_step hstep2 _ _ hsk2 (by simp)
  have hold5 : ∀ d y, graph.definition d = some y → g5.definition d = some y := by
    intro d y hy
    rw [definition_of_defs hdf6]
    apply definition_endWithGoto
    rw [definition_of_defs hdf4, definition_of_defs hdf3, definition_of_defs hdf2b]
    exact hold1 d y hy
  -- the instructions that lead to the callee
  obtain ⟨g6, r6, hmv, hstep7, hstk7, _⟩ := moveCallee_spec g5 g3.table.length funcDefn c cur func
    cache p1 (hold5 _ _ hfd) (hold5 _ _ hcd) (Or.inl hcb)
    (fun hf => by
      obtain ⟨h1, tb, tbd, h2, h3, h4⟩ := hchain hf
      exact ⟨Or.inl h1, tb, tbd, h2, hold5 _ _ h3, Or.inl h4⟩) hstk6
  have hcur6 : stack g6 cur = some s1 := by rw [hstk7 cur (by omega)]; exact hcur5
  obtain ⟨g7, hpa, hstep8⟩ := pushArgs_spec cur g3.table.length (by omega) (argc + 1) g6 s1 hcur6
    (by omega)
  -- the block of the fallback call
  have hlen7 : g3.table.length < g7.table.length := by
    have h4 : g4.table.length ≤ (endWithGoto g4 g1.table.length g3.table.length).table.length :=
      hstep5.blocks.1
    have h5 := hstep6.blocks.1
    have h6 := hstep7.blocks.1
    have h7 := hstep8.blocks.1
    omega
  obtain ⟨hstep9, _, hlen9, hstk9, hdf9⟩ := newBlockWithResumePoint_spec g7 g3.table.length pc
    loopDepth top.slots
  obtain ⟨g8, hg8⟩ : ∃ g8, g8 = (newBlockWithResumePoint g7 g3.table.length pc loopDepth
    top.slots).2 := ⟨_, rfl⟩
  rw [← hg8] at hstep9 hlen9 hstk9 hdf9
  have hstep10 := step_endWithGoto g8 g3.table.length g7.table.length
  have hstk10 : stack (endWithGoto g8 g3.table.length g7.table.length) g7.table.length =
      some s := by
    rw [stack_step hstep10 _ _ hstk9 (by simp; omega), htops]
  obtain ⟨hstep11, hstk11⟩ := add_new_spec _ g7.table.length s
    { op := .PrepareCall, type := .None } hstk10
  obtain ⟨g9, hg9⟩ : ∃ g9, g9 = add (newDefinition
      (endWithGoto g8 g3.table.length g7.table.length) { op := .PrepareCall, type := .None }).2
      g7.table.length (newDefinition (endWithGoto g8 g3.table.length g7.table.length)
        { op := .PrepareCall, type := .None }).1 := ⟨_, rfl⟩
  rw [← hg9] at hstep11 hstk11
  have hext9 : Extends graph g9 :=
    extends_trans hstep1.defs (extends_trans hstep2.defs (extends_trans hstep3.defs
      (extends_trans hstep4.defs (extends_trans hstep5.defs (extends_trans hstep6.defs
        (extends_trans hstep7.defs (extends_trans hstep8.defs (extends_trans hstep9.defs
          (extends_trans hstep10.defs hstep11.defs)))))))))
  obtain ⟨g10, call, hpass, hstep12, hstk12⟩ := passArgs_spec g7.table.length (argc + 1) g9
    (MCall.New none (argc + 1) argc false) (s.take (s.length - (argc + 1)))
    (s.drop (s.length - (argc + 1))) (by rw [List.take_append_drop]; exact hstk11)
    (by simp; omega)
    (by
      intro d hd
      obtain ⟨y, hy⟩ := hargs d hd
      obtain ⟨y1, hy1, _⟩ := hext9 d y hy
      exact ⟨y1, hy1⟩)
  obtain ⟨b2, fn, hb2⟩ : ∃ b2 fn, s.take (s.length - (argc + 1)) = b2 ++ [fn] := by
    have hne : s.take (s.length - (argc + 1)) ≠ [] := by
      intro h
      have := congrArg List.length h
      simp at this
      omega
    exact ⟨_, _, (List.dropLast_append_getLast hne).symm⟩
  rw [hb2] at hstk12
  obtain ⟨g11, hpop11, hstep13, hstk13, _, _, _⟩ := pop_spec g10 g7.table.length fn b2 hstk12
  obtain ⟨callDef, hcallDef⟩ : ∃ callDef : MDefinition, callDef =
      { op := .Call { call with prepareCall := some (newDefinition
          (endWithGoto g8 g3.table.length g7.table.length)
          { op := .PrepareCall, type := .None }).1, function := some fn },
        type := .Value, effectful := true } := ⟨_, rfl⟩
  obtain ⟨hstep14, hstk14⟩ := push_new_spec g11 g7.table.length b2 callDef hstk13
  have hins : (push (add (newDefinition g11 callDef).2 g7.table.length
      (newDefinition g11 callDef).1) g7.table.length (newDefinition g11 callDef).1).definition
      (newDefinition g11 callDef).1 ≠ none := by
    have h1 := definition_new_self g11 callDef
    obtain ⟨y1, hy1, _⟩ := extends_trans (extends_add _ g7.table.length _)
      (extends_push _ g7.table.length _) _ _ h1
    rw [hy1]; simp
  obtain ⟨insDef, hinsDef⟩ := Option.ne_none_iff_exists'.1 hins
  obtain ⟨g12, r, hptb, hstep15, hstk15⟩ := pushTypeBarrier_total
    (IonBuilder.mk (push (add (newDefinition g11 callDef).2 g7.table.length
      (newDefinition g11 callDef).1) g7.table.length (newDefinition g11 callDef).1)
      (some g7.table.length) pc cfgStack loops loopDepth script callerBuilder inliningDepth
      nargs nlocals switches)
    (newDefinition g11 callDef).1 types barrier g7.table.length (newDefinition g11 callDef).1
    b2 insDef rfl hstk14 hinsDef
  dsimp only at hptb hstep15 hstk15
  refine ⟨g12, g1.table.length, g3.table.length, g7.table.length, b2, r, s1, ?_, ?_, ?_, hs1l,
    ?_, ?_, hstk15⟩
  · subst hg1 hg4 hg8 hg9 hcallDef
    simp only [makeFallbackPath, hcd, htop, htable, hobj, hnb2, hpn, newBlockWithResumePoint_fst,
      hpop5, hmv, hpa, Option.some_bind, hpass, hpop11, hptb]
  · have wide : ∀ {t : List Nat} {ga gb : MIRGraph}, Step t ga gb →
        (∀ x ∈ t, x = cur ∨ x = g1.table.length ∨ x = g3.table.length ∨ x = g7.table.length) →
        Step [cur, g1.table.length, g3.table.length, g7.table.length] ga gb := by
      intro t ga gb h ht
      exact step_mono h fun x hx => by simpa using ht x hx
    have hall : Step [cur, g1.table.length, g3.table.length, g7.table.length] graph g12 := by
      refine step_trans (wide hstep1 ?_) (step_trans (wide hstep2 ?_) (step_trans (wide hstep3 ?_)
        (step_trans (wide hstep4 ?_) (step_trans (wide hstep5 ?_) (step_trans (wide hstep6 ?_)
        (step_trans (wide hstep7 ?_) (step_trans (wide hstep8 ?_) (step_trans (wide hstep9 ?_)
        (step_trans (wide hstep10 ?_) (step_trans (wide hstep11 ?_) (step_trans (wide hstep12 ?_)
        (step_trans (wide hstep13 ?_) (step_trans (wide hstep14 ?_) (wide hstep15 ?_))))))))))))))
      all_goals
        intro x hx
        simp only [List.mem_cons, List.mem_singleton, List.not_mem_nil, or_false] at hx <;> omega
    exact step_shrink hall (by
      intro x hx
      simp only [List.mem_cons, List.mem_singleton, List.not_mem_nil, or_false] at hx ⊢
      omega)
  · apply stack_step hstep15 _ _ _ (by simp; omega)
    apply stack_step hstep14 _ _ _ (by simp; omega)
    apply stack_step hstep13 _ _ _ (by simp; omega)
    apply stack_step hstep12 _ _ _ (by simp; omega)
    apply stack_step hstep11 _ _ _ (by simp; omega)
    apply stack_step hstep10 _ _ _ (by simp; omega)
    apply stack_step hstep9 _ _ _ (by simp)
    exact stack_step hstep8 _ _ hcur6 (by simp; omega)
  · omega
  · have := hstep15.blocks.1
    have := hstep14.blocks.1
    have := hstep13.blocks.1
    have := hstep12.blocks.1
    have := hstep11.blocks.1
    have := hstep10.blocks.1
    omega

end Builder

namespace Builder

/-! ## Inlining: one callee -/

theorem popArgv_spec (cur : Nat) :
    ∀ (n : Nat) (g : MIRGraph) (base rest : List Nat),
      stack g cur = some (base ++ rest) → rest.length = n →
      ∃ g1, popArgv cur n g = some (rest, g1) ∧ Step [cur] g g1 ∧ stack g1 cur = some base ∧
        g1.exits = g.exits
  | 0, g, base, rest, hs, hn => by
    have : rest = [] := List.length_eq_zero.1 hn
    subst this
    exact ⟨g, rfl, step_refl _ _, by simpa using hs, rfl⟩
  | n + 1, g, base, rest, hs, hn => by
    obtain ⟨d, rest1, hr⟩ : ∃ d rest1, rest = rest1 ++ [d] := by
      have hne : rest ≠ [] := by intro h; rw [h] at hn; simp at hn
      exact ⟨rest.getLast hne, rest.dropLast, (List.dropLast_append_getLast hne).symm⟩
    subst hr
    obtain ⟨g1, hp, hstep, hst, hex, _, _⟩ := pop_spec g cur d (base ++ rest1)
      (by rw [hs, List.append_assoc])
    obtain ⟨g2, h2, hstep2, hst2, hex2⟩ := popArgv_spec cur n g1 base rest1 hst
      (by simpa using hn)
    exact ⟨g2, by simp only [popArgv, hp, h2], step_trans hstep hstep2, hst2, hex2.trans hex⟩

theorem createThis_step (g : MIRGraph) (cur callee : Nat) (target : JSFunction)
    (hn : target.native = false) :
    ∃ create g1, createThis g cur target callee = some (create, g1) ∧ Step [cur] g g1 ∧
      g1.exits = g.exits := by
  unfold createThis
  simp only [hn, Bool.false_eq_true, if_false]
  exact ⟨_, _, rfl,
    step_trans (step_trans (step_mono (step_newDefinition g _) (by simp)) (step_add _ cur _))
      (step_trans (step_mono (step_newDefinition _ _) (by simp)) (step_add _ cur _)),
    rfl⟩

theorem filterReturn_step (g : MIRGraph) (constructing : Bool) (thisDefn exitBlock rval : Nat)
    (r : MDefinition) (hr : g.definition rval = some r) :
    ∃ rv g1, filterReturn g constructing thisDefn exitBlock rval = .ok (rv, g1) ∧
      Step [exitBlock] g g1 := by
  unfold filterReturn
  cases constructing with
  | false => exact ⟨_, _, rfl, step_refl _ _⟩
  | true =>
    simp only [hr, if_true]
    split_ifs
    · exact ⟨_, _, rfl, step_trans (step_mono (step_newDefinition g _) (by simp))
        (step_add _ exitBlock _)⟩
    · exact ⟨_, _, rfl, step_refl _ _⟩
    · exact ⟨_, _, rfl, step_refl _ _⟩

theorem step_discardLastIns (g : MIRGraph) (b : Nat) : Step [b] g (discardLastIns g b) :=
  step_modifyBlock g b _

theorem step_addPredecessorWithoutPhis (g : MIRGraph) (b pred : Nat) :
    Step [b] g (addPredecessorWithoutPhis g b pred) :=
  step_modifyBlock g b _

theorem linkExit_step (constructing : Bool) (thisDefn bottom : Nat) (g : MIRGraph)
    (retvalDefns : List Nat) (exitBlock last rval : Nat) (x yb : MBasicBlock)
    (ret r : MDefinition) (hx : g.block exitBlock = some x) (hlast : x.lastIns = some last)
    (hret : g.definition last = some ret) (hop : ret.operands[0]? = some rval)
    (hr : g.definition rval = some r) (hb : g.block bottom = some yb)
    (hne : bottom ≠ exitBlock) :
    ∃ g1 rv, linkExit constructing thisDefn bottom g retvalDefns exitBlock =
        .ok (g1, retvalDefns ++ [rv]) ∧
      Step [exitBlock, bottom] g g1 ∧
      g1.block bottom = some { yb with predecessors := yb.predecessors ++ [exitBlock] } := by
  have hr1 : (discardLastIns g exitBlock).definition rval = some r := hr
  obtain ⟨rv, g1, h1, hstep1⟩ :=
    filterReturn_step (discardLastIns g exitBlock) constructing thisDefn exitBlock rval r hr1
  have hstepA : Step [exitBlock, bottom] g
      (endWith (newDefinition g1 (newGoto bottom)).2 exitBlock
        (newDefinition g1 (newGoto bottom)).1) :=
    step_mono (step_trans (step_discardLastIns g exitBlock) (step_trans hstep1
      (step_trans (step_mono (step_newDefinition g1 _) (by simp)) (step_endWith _ exitBlock _))))
      (by simp)
  have hbA : (endWith (newDefinition g1 (newGoto bottom)).2 exitBlock
      (newDefinition g1 (newGoto bottom)).1).block bottom = some yb := by
    have hstepB : Step [exitBlock] g
      (endWith (newDefinition g1 (newGoto bottom)).2 exitBlock
        (newDefinition g1 (newGoto bottom)).1) :=
      step_trans (step_discardLastIns g exitBlock) (step_trans hstep1
        (step_trans (step_mono (step_newDefinition g1 _) (by simp)) (step_endWith _ exitBlock _)))
    exact block_step hstepB bottom yb hb (by simpa using hne)
  refine ⟨_, rv, ?_, step_trans hstepA (step_mono (step_addPredecessorWithoutPhis _ bottom
    exitBlock) (by simp)), ?_⟩
  · simp only [linkExit, hx, hlast, hret, hop, h1]
  · rw [addPredecessorWithoutPhis, block_modify_self _ bottom _ yb hbA]

theorem jsop_call_inline_spec (env : InlineEnv) (henv : OneReturn env) (b : IonBuilder)
    (callee : JSFunction) (argc : Nat) (constructing : Bool) (constFun bottom : Nat)
    (retvalDefns : List Nat) (cur : Nat) (s : List Nat) (yb : MBasicBlock)
    (hcur : b.current = some cur) (hs : stack b.graph cur = some s)
    (hdepth : argc + 2 ≤ s.length) (hnative : callee.native = false)
    (hb : b.graph.block bottom = some yb) (hne : bottom ≠ cur) :
    ∃ g1 x rv, jsop_call_inline env b callee argc constructing constFun bottom retvalDefns =
        .ok (true, { b with graph := g1 }, retvalDefns ++ [rv]) ∧
      Step [cur, bottom] b.graph g1 ∧
      g1.block bottom = some { yb with predecessors := yb.predecessors ++ [x] } := by
  obtain ⟨graph, current, pc, cfgStack, loops, loopDepth, script, callerBuilder, inliningDepth,
    nargs, nlocals, switches⟩ := b
  dsimp only at hcur hs hb ⊢
  subst hcur
  -- the arguments
  obtain ⟨hstepA, hstA, _⟩ := rewriteAtDepth_spec graph cur (argc + 2) constFun s hs
  obtain ⟨sA, hsA⟩ : ∃ sA, sA = s.set (s.length - (argc + 2)) constFun := ⟨_, rfl⟩
  rw [← hsA] at hstA
  have hsAl : sA.length = s.length := by rw [hsA]; simp
  obtain ⟨g1, hpop, hstepB, hstB, hexB⟩ := popArgv_spec cur (argc + 1)
    (rewriteAtDepth graph cur (argc + 2) constFun) (sA.take (sA.length - (argc + 1)))
    (sA.drop (sA.length - (argc + 1))) (by rw [List.take_append_drop]; exact hstA)
    (by simp; omega)
  -- the new object
  have hmade : ∃ thisDefn g2,
      (if constructing = true then createThis { g1 with exits := [] } cur callee constFun
       else (sA.drop (sA.length - (argc + 1)))[0]?.map fun t => (t, { g1 with exits := [] })) =
        some (thisDefn, g2) ∧ Step [cur] g1 g2 ∧ g2.exits = [] := by
    by_cases hc : constructing = true
    · rw [if_pos hc]
      obtain ⟨create, g2, h1, h2, h3⟩ := createThis_step { g1 with exits := [] } cur constFun
        callee hnative
      exact ⟨create, g2, h1, step_trans (step_mono (step_exits g1 []) (by simp)) h2, h3⟩
    · rw [if_neg hc]
      have hlt : 0 < (sA.drop (sA.length - (argc + 1))).length := by simp; omega
      refine ⟨(sA.drop (sA.length - (argc + 1)))[0], { g1 with exits := [] }, ?_,
        step_mono (step_exits g1 []) (by simp), rfl⟩
      rw [List.getElem?_eq_getElem hlt]; rfl
  obtain ⟨thisDefn, g2, hmk, hstepC, hexC⟩ := hmade
  have hstepAC : Step [cur] graph g2 := step_trans hstepA (step_trans hstepB hstepC)
  have hclt : cur < graph.table.length := by
    obtain ⟨x, hx, _⟩ := block_of_stack graph cur s hs
    exact lt_of_block graph cur x hx
  -- the callee
  obtain ⟨g3, x, y, last, ret, rval, r, hbuild, hstepD, hex3, hxge, hxb, hlast, hret, hop, hr⟩ :=
    henv (IonBuilder.mk g2 (some cur) pc cfgStack loops loopDepth script callerBuilder
      inliningDepth nargs nlocals switches) callee thisDefn
      (sA.drop (sA.length - (argc + 1))) cur rfl
      (lt_of_lt_of_le hclt hstepAC.blocks.1) hexC
  dsimp only at hbuild hstepD hxge
  have hblt : bottom < graph.table.length := lt_of_block graph bottom yb hb
  have hb3 : g3.block bottom = some yb :=
    block_step (step_trans hstepAC hstepD) bottom yb hb (by simpa using hne)
  have hxne : bottom ≠ x := by
    have := hstepAC.blocks.1
    omega
  obtain ⟨g4, rv, hlink, hstepE, hb4⟩ := linkExit_step constructing thisDefn bottom g3
    retvalDefns x last rval y yb ret r hxb hlast hret hop hr hb3 hxne
  refine ⟨{ g4 with exits := (rewriteAtDepth graph cur (argc + 2) constFun).exits }, x, rv,
    ?_, ?_, ?_⟩
  · simp only [jsop_call_inline, hpop, hmk, hbuild, hex3, linkExits, hlink, hexB]
  · have hall : Step [cur, bottom, x] graph g4 :=
      step_trans (step_mono (step_trans hstepAC hstepD) (by simp))
        (step_mono hstepE (by
          intro z hz
          simp only [List.mem_cons, List.mem_singleton, List.not_mem_nil, or_false] at hz ⊢
          omega))
    have hsh : Step [cur, bottom] graph g4 := step_shrink hall (by
      intro z hz
      simp only [List.mem_cons, List.mem_singleton, List.not_mem_nil, or_false] at hz ⊢
      have := hstepAC.blocks.1
      omega)
    exact step_trans hsh (step_mono (step_exits g4 _) (by simp))
  · exact hb4

theorem inlineCallees_spec (env : InlineEnv) (henv : OneReturn env) (argc : Nat)
    (constructing : Bool) (bottom : Nat) :
    ∀ (L : List (JSFunction × Nat × Nat)) (b : IonBuilder) (retvalDefns : List Nat)
      (yb : MBasicBlock),
      (∀ e ∈ L, e.1.native = false ∧ e.2.2 ≠ bottom ∧
        ∃ s, stack b.graph e.2.2 = some s ∧ argc + 2 ≤ s.length) →
      (L.map fun e => e.2.2).Nodup →
      b.graph.block bottom = some yb →
      ∃ g1 cur1 xs rs, inlineCallees env argc constructing bottom L b retvalDefns =
          .ok (true, { b with graph := g1, current := cur1 }, retvalDefns ++ rs) ∧
        Step (bottom :: L.map fun e => e.2.2) b.graph g1 ∧
        g1.block bottom = some { yb with predecessors := yb.predecessors ++ xs } ∧
        xs.length = L.length ∧ rs.length = L.length
  | [], b, retvalDefns, yb, _, _, hb => by
    refine ⟨b.graph, b.current, [], [], ?_, step_refl _ _, ?_, rfl, rfl⟩
    · simp [inlineCallees]
    · simpa using hb
  | (target, constFun, block) :: rest, b, retvalDefns, yb, hL, hnd, hb => by
    obtain ⟨hnat, hneb, s, hs, hdepth⟩ := hL (target, constFun, block) (by simp)
    simp only [List.map_cons, List.nodup_cons] at hnd
    have hmv := step_moveBlockToEnd b.graph block
    obtain ⟨g1, x, rv, hrun, hstep, hb1⟩ := jsop_call_inline_spec env henv
      { b with graph := moveBlockToEnd b.graph block, current := some block }
      target argc constructing constFun bottom retvalDefns block s yb rfl
      (stack_step hmv _ _ hs (by simp)) hdepth hnat
      (block_step hmv _ _ hb (by simp)) (fun h => hneb h.symm)
    have hstep1 : Step [block, bottom] b.graph g1 := step_trans (step_mono hmv (by simp)) hstep
    obtain ⟨g2, cur2, xs, rs, hrun2, hstep2, hb2, hxl, hrl⟩ := inlineCallees_spec env henv argc
      constructing bottom rest
      { b with graph := g1, current := some block } (retvalDefns ++ [rv])
      { yb with predecessors := yb.predecessors ++ [x] }
      (by
        intro e he
        obtain ⟨h1, h2, s2, h3, h4⟩ := hL e (by simp [he])
        refine ⟨h1, h2, s2, ?_, h4⟩
        apply stack_step hstep1 _ _ h3
        simp only [List.mem_cons, List.mem_singleton, List.not_mem_nil, or_false, not_or]
        refine ⟨?_, h2⟩
        intro heq
        exact hnd.1 (by rw [← heq]; exact List.mem_map_of_mem _ he))
      hnd.2 hb1
    refine ⟨g2, cur2, x :: xs, rv :: rs, ?_, ?_, ?_, by simp [hxl], by simp [hrl]⟩
    · simp only [inlineCallees, hrun]
      rw [hrun2]
      simp
    · exact step_trans (step_mono hstep1 (by
        intro z hz
        simp only [List.mem_cons, List.mem_singleton, List.not_mem_nil, or_false] at hz
        simp only [List.map_cons, List.mem_cons]
        tauto))
        (step_mono hstep2 (by
          intro z hz
          simp only [List.mem_cons] at hz
          simp only [List.map_cons, List.mem_cons]
          tauto))
    · rw [hb2]; simp

theorem table_add (g : MIRGraph) (b ins : Nat) : (add g b ins).table.length = g.table.length := by
  simp [add, modifyBlock, modifyDefinition]

theorem addCallees_spec (cur pc loopDepth : Nat) (s : List Nat) :
    ∀ (targets : List JSFunction) (g : MIRGraph) (disp : MDefinition) (d0 : MPolyInlineDispatch),
      disp.op = .PolyInlineDispatch d0 → stack g cur = some s →
      ∃ g1 disp1 cs, addCallees cur pc loopDepth targets g disp = some (g1, disp1) ∧
        Step [] g g1 ∧
        disp1.op = .PolyInlineDispatch { d0 with callees := d0.callees ++ cs } ∧
        disp1.operands = disp.operands ∧
        (cs.map fun c => c.2) = List.range' g.table.length targets.length ∧
        g1.table.length = g.table.length + targets.length ∧
        (∀ blk ∈ cs.map fun c => c.2, stack g1 blk = some s)
  | [], g, disp, d0, hd, _ => by
    refine ⟨g, disp, [], rfl, step_refl _ _, ?_, rfl, rfl, rfl, ?_⟩
    · rw [hd]; simp
    · intro blk hb; simp at hb
  | func :: rest, g, disp, d0, hd, hs => by
    obtain ⟨x, hx, hxs⟩ := block_of_stack g cur s hs
    have hx1 : (newDefinition g (newConstant (.Object func.object))).2.block cur = some x := hx
    obtain ⟨g1, hnb, hstep1, hlen1, hblk1, _, _⟩ := step_newBlockAt _ cur pc loopDepth x hx1
    have hlenN : (newDefinition g (newConstant (.Object func.object))).2.table.length =
        g.table.length := rfl
    rw [hlenN] at hnb hlen1 hblk1
    have hstepA : Step [g.table.length] g
        (add g1 g.table.length (newDefinition g (newConstant (.Object func.object))).1) :=
      step_trans (step_mono (step_trans (step_newDefinition g _) hstep1) (by simp))
        (step_add g1 _ _)
    have hstepB : Step [] g
        (add g1 g.table.length (newDefinition g (newConstant (.Object func.object))).1) :=
      step_shrink hstepA (by intro z hz; simp at hz; right; omega)
    have hsE : stack (add g1 g.table.length
        (newDefinition g (newConstant (.Object func.object))).1) g.table.length = some s := by
      rw [stack_add, stack_of_block g1 _ _ hblk1, hxs]
    have hd1 : (disp.addCallee (newDefinition g (newConstant (.Object func.object))).1
        g.table.length).op = .PolyInlineDispatch
          { d0 with callees := d0.callees ++
              [((newDefinition g (newConstant (.Object func.object))).1, g.table.length)] } := by
      simp only [MDefinition.addCallee, hd]
    obtain ⟨g2, disp2, cs, hrun, hstep2, hop2, hops2, hcs, hlen2, hst2⟩ :=
      addCallees_spec cur pc loopDepth s rest _ _ _ hd1
        (stack_step hstepB cur s hs (by simp))
    refine ⟨g2, disp2,
      ((newDefinition g (newConstant (.Object func.object))).1, g.table.length) :: cs, ?_,
      step_trans hstepB hstep2, ?_, ?_, ?_, ?_, ?_⟩
    · simp only [addCallees, hnb, hrun]
    · rw [hop2]; simp
    · rw [hops2]; simp only [MDefinition.addCallee, hd]
    · rw [List.map_cons, hcs, table_add, hlen1]
      simp [List.range'_succ]
    · rw [hlen2, table_add, hlen1]; simp; omega
    · intro blk hb
      simp only [List.map_cons, List.mem_cons] at hb
      rcases hb with hb | hb
      · rw [hb]
        exact stack_step hstep2 _ _ hsE (by simp)
      · exact hst2 blk hb

theorem linkFallback_spec (g : MIRGraph) (dispatch : MPolyInlineDispatch) (bottom : Nat)
    (retvalDefns : List Nat) (table : InlinePropertyTable) (prep mid fend r : Nat)
    (m : List Nat) (yb : MBasicBlock) (ht : dispatch.inlinePropertyTable = some table)
    (hp : dispatch.fallbackPrepBlock = some prep) (hm : dispatch.fallbackMidBlock = some mid)
    (hf : dispatch.fallbackEndBlock = some fend) (hs : stack g fend = some (m ++ [r]))
    (hb : g.block bottom = some yb) (hne : bottom ≠ fend) :
    ∃ g1, linkFallback g dispatch bottom retvalDefns = some (g1, retvalDefns ++ [r]) ∧
      Step [fend, bottom] g g1 ∧
      g1.block bottom = some { yb with predecessors := yb.predecessors ++ [fend] } := by
  have hmv : Step [] g (moveBlockToEnd (moveBlockToEnd (moveBlockToEnd g prep) mid) fend) :=
    step_trans (step_moveBlockToEnd g prep) (step_trans (step_moveBlockToEnd _ mid)
      (step_moveBlockToEnd _ fend))
  obtain ⟨g1, hpop, hstep1, _, _, _, _⟩ := pop_spec _ fend r m (stack_step hmv fend _ hs (by simp))
  have hstepA : Step [fend] g (endWithGoto g1 fend bottom) :=
    step_trans (step_mono hmv (by simp)) (step_trans hstep1 (step_endWithGoto g1 fend bottom))
  have hbA : (endWithGoto g1 fend bottom).block bottom = some yb :=
    block_step hstepA bottom yb hb (by simpa using hne)
  refine ⟨_, ?_, step_trans (step_mono hstepA (by simp))
    (step_mono (step_addPredecessorWithoutPhis _ bottom fend) (by simp)), ?_⟩
  · simp only [linkFallback, ht, hp, hm, hf, hpop]
  · rw [addPredecessorWithoutPhis, block_modify_self _ bottom _ yb hbA]

end Builder

namespace Builder

theorem finishInline_poly (b : IonBuilder) (top bottom argc postCall : Nat)
    (retvalDefns st : List Nat) (yb : MBasicBlock)
    (htop : stack b.graph top = some st) (hdepth : argc + 2 ≤ st.length)
    (hb : b.graph.block bottom = some yb) (hr : 1 < retvalDefns.length) :
    ∃ g1 phi bottom2 y1, finishInline b top bottom argc postCall true retvalDefns =
        .ok (true, { b with graph := g1, current := some bottom2 }) ∧
      Step [bottom] b.graph g1 ∧ g1.block bottom = some y1 ∧
      y1.predecessors = yb.predecessors ∧ y1.phis = yb.phis ++ [phi] ∧
      shape g1 phi = some (.Phi, retvalDefns) := by
  obtain ⟨xt, hxt, hxts⟩ := block_of_stack b.graph top st htop
  -- the stack of the bottom block
  have hinh : inheritSlots (moveBlockToEnd b.graph bottom) bottom top =
      some (modifyBlock (moveBlockToEnd b.graph bottom) bottom fun x => { x with slots := xt.slots }) := by
    have : (moveBlockToEnd b.graph bottom).block top = some xt := hxt
    simp only [inheritSlots, this]
  have hstepA : Step [bottom] b.graph
      (modifyBlock (moveBlockToEnd b.graph bottom) bottom fun x => { x with slots := xt.slots }) :=
    step_trans (step_mono (step_moveBlockToEnd b.graph bottom) (by simp)) (step_modifyBlock _ _ _)
  have hbA : (modifyBlock (moveBlockToEnd b.graph bottom) bottom
      fun x => { x with slots := xt.slots }).block bottom = some { yb with slots := st } := by
    have : (moveBlockToEnd b.graph bottom).block bottom = some yb := hb
    rw [block_modify_self _ bottom _ yb this, hxts]
  obtain ⟨gB, hpn, hstepB, _, hbB⟩ := popN_spec bottom (argc + 1 + 1) _
    (st.take (st.length - (argc + 2))) (st.drop (st.length - (argc + 2))) _ hbA
    (by simp) (by simp; omega)
  obtain ⟨base, hbase⟩ : ∃ base, base = st.take (st.length - (argc + 2)) := ⟨_, rfl⟩
  rw [← hbase] at hbB
  dsimp only at hbB
  -- the Phi
  obtain ⟨gC, hgC⟩ : ∃ gC, gC = addPhi (newDefinition gB (newPhi base.length retvalDefns)).2
    bottom (newDefinition gB (newPhi base.length retvalDefns)).1 := ⟨_, rfl⟩
  have hstepC : Step [bottom] gB gC := by
    rw [hgC, addPhi]
    exact step_trans (step_mono (step_newDefinition gB _) (by simp))
      (step_trans (step_modifyBlock _ bottom _)
        ⟨by exact untouched_mono (untouched_table rfl) (by simp), extends_setBlock _ _ _⟩)
  have hbC : gC.block bottom = some { yb with slots := base, phis := yb.phis ++ [gB.defs.length] } := by
    rw [hgC, addPhi, block_modifyDefinition_bld]
    have : (newDefinition gB (newPhi base.length retvalDefns)).2.block bottom =
        some { yb with slots := base } := hbB
    rw [block_modify_self _ bottom _ _ this]
    rfl
  have hshC : shape gC gB.defs.length = some (.Phi, retvalDefns) := by
    rw [hgC, addPhi]
    have h1 := shape_new_self gB (newPhi base.length retvalDefns)
    exact shape_extends (extends_trans (extends_modifyBlock _ bottom _)
      (extends_setBlock _ _ bottom)) _ _ h1
  -- the second bottom block
  have hbD : (push gC bottom gB.defs.length).block bottom =
      some { yb with slots := base ++ [gB.defs.length], phis := yb.phis ++ [gB.defs.length] } := by
    rw [push, block_modify_self _ bottom _ _ hbC]
  obtain ⟨gE, hnb, hstepE, _, _, _, _⟩ := step_newBlockAt (push gC bottom gB.defs.length) bottom
    postCall b.loopDepth _ hbD
  have hbE := block_step hstepE bottom _ hbD (by simp)
  have hbF := block_endWithGoto_self gE bottom (push gC bottom gB.defs.length).table.length _ hbE
  refine ⟨endWithGoto gE bottom (push gC bottom gB.defs.length).table.length, gB.defs.length,
    (push gC bottom gB.defs.length).table.length, _, ?_, ?_, hbF, rfl, rfl, ?_⟩
  · subst hgC hbase
    have e : ∀ d, (newDefinition gB d).1 = gB.defs.length := fun _ => rfl
    simp only [e] at hnb
    simp only [finishInline, hinh, if_true, hpn, hr, hbB, Option.map_some', e, hnb]
  · exact step_trans hstepA (step_trans hstepB (step_trans hstepC
      (step_trans (step_push gC bottom _) (step_trans (step_mono hstepE (by simp))
        (step_endWithGoto gE bottom _)))))
  · exact shape_extends (extends_trans (extends_push gC bottom _)
      (extends_trans hstepE.defs (extends_endWithGoto gE bottom _))) _ _ hshC

end Builder

namespace Builder

theorem makePolyInlineDispatch_spec (b : IonBuilder) (top argc : Nat) (cache : Option Nat)
    (types barrier : Option TypeSet) (s : List Nat)
    (hcur : b.current = some top) (hs : stack b.graph top = some s)
    (hdepth : argc + 2 ≤ s.length)
    (hfb : ∀ c, cache = some c → FallbackReady b.graph top argc c s) :
    ∃ g1 operand d0 s1, makePolyInlineDispatch b argc cache types barrier =
        .ok (some (newPolyInlineDispatch operand d0), { b with graph := g1 }) ∧
      d0.callees = [] ∧ Step [top] b.graph g1 ∧ stack g1 top = some s1 ∧
      s1.length = s.length ∧
      ((cache = none ∧ d0.inlinePropertyTable = none ∧ d0.fallbackEndBlock = none) ∨
       ∃ table prep mid fend m r, cache ≠ none ∧ d0.inlinePropertyTable = some table ∧
         d0.fallbackPrepBlock = some prep ∧ d0.fallbackMidBlock = some mid ∧
         d0.fallbackEndBlock = some fend ∧ b.graph.table.length ≤ fend ∧
         fend < g1.table.length ∧ stack g1 fend = some (m ++ [r])) := by
  obtain ⟨funcDefn, hpeek, hget⟩ := peek_spec b.graph top (argc + 2) s hs (by omega) hdepth
  cases cache with
  | none =>
    refine ⟨b.graph, funcDefn, {}, s, ?_, rfl, step_refl _ _, hs, rfl, Or.inl ⟨rfl, rfl, rfl⟩⟩
    have e : ({ b with graph := b.graph } : IonBuilder) = b := rfl
    rw [e]
    simp only [makePolyInlineDispatch, hcur, hpeek]
  | some c =>
    obtain ⟨⟨cd, table, targetObject, hcd, htable, hobj, hprior, hcb⟩, hcallee, hargs⟩ :=
      hfb c rfl
    obtain ⟨func, hfd, hchain⟩ := hcallee funcDefn hget
    obtain ⟨g1, prep, mid, fend, m, r, s1, hrun, hstep, hs1, hlen, hlo, hhi, hsf⟩ :=
      makeFallbackPath_spec b top argc funcDefn c types barrier s cd func table targetObject
        hcur hs hdepth hcd htable hobj hprior hcb hfd hchain hargs
    refine ⟨g1, targetObject,
      { inlinePropertyTable := some table, fallbackPrepBlock := some prep,
        fallbackMidBlock := some mid, fallbackEndBlock := some fend }, s1, ?_, rfl, hstep, hs1, hlen,
      Or.inr ⟨table, prep, mid, fend, m, r, by simp, rfl, rfl, rfl, rfl, hlo, hhi, hsf⟩⟩
    simp only [makePolyInlineDispatch, hcur, hpeek, hrun]

theorem inlineDispatch_spec (env : InlineEnv) (henv : OneReturn env) (b : IonBuilder)
    (targets : List JSFunction) (argc : Nat) (constructing : Bool)
    (types barrier : Option TypeSet) (postCall top bottom : Nat) (cache : Option Nat)
    (s : List Nat) (yb : MBasicBlock)
    (hnat : ∀ t ∈ targets, t.native = false)
    (hlen : 1 < targets.length + cache.toList.length)
    (hcur : b.current = some top) (hs : stack b.graph top = some s)
    (hdepth : argc + 2 ≤ s.length)
    (hb : b.graph.block bottom = some yb) (hpred : yb.predecessors = [])
    (hphis : yb.phis = []) (hne : top ≠ bottom)
    (hfb : ∀ c, cache = some c → FallbackReady b.graph top argc c s) :
    ∃ g1 bottom2 xt last d ops y1 phi xs rs,
      inlineDispatch env b targets argc constructing types barrier postCall top bottom
          cache true = .ok (true, { b with graph := g1, current := some bottom2 }) ∧
      g1.block top = some xt ∧ xt.lastIns = some last ∧
      shape g1 last = some (.PolyInlineDispatch d, ops) ∧
      d.callees.length = targets.length ∧ (d.callees.map fun c => c.2).Nodup ∧
      (∀ blk ∈ d.callees.map fun c => c.2, b.graph.table.length ≤ blk) ∧
      d.fallbackEndBlock.isSome = cache.isSome ∧
      g1.block bottom = some y1 ∧ y1.phis = [phi] ∧
      y1.predecessors = xs ++ d.fallbackEndBlock.toList ∧ xs.length = targets.length ∧
      shape g1 phi = some (.Phi, rs) ∧ rs.length = y1.predecessors.length := by
  obtain ⟨graph, current, pc, cfgStack, loops, loopDepth, script, callerBuilder, inliningDepth,
    nargs, nlocals, switches⟩ := b
  dsimp only at hcur hs hb hfb ⊢
  subst hcur
  have hblt : bottom < graph.table.length := lt_of_block graph bottom yb hb
  obtain ⟨xt0, hxt0, _⟩ := block_of_stack graph top s hs
  have htlt : top < graph.table.length := lt_of_block graph top xt0 hxt0
  -- the dispatch
  obtain ⟨gA, operand, d0, s1, hrunA, hd0, hstepA, hsA, hlenA, hfall⟩ :=
    makePolyInlineDispatch_spec
      (IonBuilder.mk graph (some top) pc cfgStack loops loopDepth script callerBuilder
        inliningDepth nargs nlocals switches) top argc cache types barrier s rfl hs hdepth hfb
  dsimp only at hrunA hstepA hfall
  have hgeA : graph.table.length ≤ gA.table.length := hstepA.blocks.1
  have hbA : gA.block bottom = some yb :=
    block_step hstepA bottom yb hb (by simp; exact fun h => hne h.symm)
  -- the entry blocks
  obtain ⟨gB, disp, cs, hrunB, hstepB, hopB, hopsB, hcsB, hlenB, hstB⟩ :=
    addCallees_spec top pc loopDepth s1 targets gA (newPolyInlineDispatch operand d0) d0 rfl hsA
  rw [hd0, List.nil_append] at hopB
  have hcslen : cs.length = targets.length := by
    have := congrArg List.length hcsB
    simpa using this
  have hdisp : disp.dispatch = { d0 with callees := cs } := by
    simp only [MDefinition.dispatch, hopB]
  have hbB : gB.block bottom = some yb := block_step hstepB bottom yb hbA (by simp)
  have hsB : stack gB top = some s1 := stack_step hstepB top s1 hsA (by simp)
  obtain ⟨xtB, hxtB, hxtBs⟩ := block_of_stack gB top s1 hsB
  -- the end of `top`
  obtain ⟨gC, hgC⟩ : ∃ gC, gC = endWith (newDefinition gB disp).2 top (newDefinition gB disp).1 :=
    ⟨_, rfl⟩
  have hstepC : Step [top] gB gC := by
    rw [hgC]
    exact step_trans (step_mono (step_newDefinition gB disp) (by simp)) (step_endWith _ top _)
  have hxtC : gC.block top = some { xtB with instructions := xtB.instructions ++ [gB.defs.length],
                                             lastIns := some gB.defs.length } := by
    rw [hgC]
    exact block_endWith_self _ top _ xtB hxtB
  have hshC : shape gC gB.defs.length = some (disp.op, disp.operands) := by
    rw [hgC]
    exact shape_extends (step_endWith _ top _).defs _ _ (shape_new_self gB disp)
  have hbC : gC.block bottom = some yb :=
    block_step hstepC bottom yb hbB (by simp; exact fun h => hne h.symm)
  -- the callees
  have hsnd : (targets.zip cs).map Prod.snd = cs := List.map_snd_zip _ _ (by omega)
  have hmapL : ((targets.zip cs).map fun e => e.2.2) = cs.map fun c => c.2 := by
    have : ((targets.zip cs).map fun e => e.2.2) =
        ((targets.zip cs).map Prod.snd).map fun c => c.2 := by
      rw [List.map_map]; rfl
    rw [this, hsnd]
  have hrange : ∀ blk ∈ cs.map fun c => c.2, gA.table.length ≤ blk := by
    intro blk hblk
    rw [hcsB, List.mem_range'_1] at hblk
    exact hblk.1
  have hL : ∀ e ∈ targets.zip cs, e.1.native = false ∧ e.2.2 ≠ bottom ∧
      ∃ s, stack gC e.2.2 = some s ∧ argc + 2 ≤ s.length := by
    intro e he
    have hmem : e.2.2 ∈ cs.map fun c => c.2 := by
      rw [← hmapL]
      exact List.mem_map_of_mem (fun e : JSFunction × Nat × Nat => e.2.2) he
    have hge := hrange _ hmem
    refine ⟨hnat e.1 (List.of_mem_zip (a := e.1) (b := e.2) he).1, by omega, s1, ?_, by omega⟩
    exact stack_step hstepC _ s1 (hstB _ hmem) (by simp; omega)
  have hnd : ((targets.zip cs).map fun e => e.2.2).Nodup := by
    rw [hmapL, hcsB]
    exact List.nodup_range' _ _
  obtain ⟨gD, cur1, xs, rs, hrunD, hstepD, hbD, hxs, hrs⟩ :=
    inlineCallees_spec env henv argc constructing bottom (targets.zip cs)
      (IonBuilder.mk gC (some top) pc cfgStack loops loopDepth script callerBuilder
        inliningDepth nargs nlocals switches) [] yb hL hnd hbC
  dsimp only at hrunD hstepD
  rw [hmapL] at hstepD
  have hziplen : (targets.zip cs).length = targets.length := by
    rw [List.length_zip, hcslen, Nat.min_self]
  rw [hziplen] at hxs hrs
  have hntop : top ∉ bottom :: cs.map fun c => c.2 := by
    intro hm
    rcases List.mem_cons.mp hm with h | h
    · exact hne h
    · have := hrange _ h
      omega
  have hxtD := block_step hstepD top _ hxtC hntop
  have hgeB : gA.table.length ≤ gB.table.length := hstepB.blocks.1
  have hgeC : gB.table.length ≤ gC.table.length := hstepC.blocks.1
  -- the fallback path
  have hlink : ∃ gE rs1, linkFallback gD disp.dispatch bottom ([] ++ rs) = some (gE, rs1) ∧
      Extends gD gE ∧ gE.block top = gD.block top ∧
      gE.block bottom =
        some { yb with predecessors := yb.predecessors ++ xs ++ d0.fallbackEndBlock.toList } ∧
      rs1.length = targets.length + cache.toList.length ∧
      d0.fallbackEndBlock.isSome = cache.isSome := by
    rcases hfall with ⟨hc, ht0, hf0⟩ |
      ⟨table, prep, mid, fend, m, r, hc, ht0, hp0, hm0, hf0, hlo, hhi, hsf⟩
    · refine ⟨gD, rs, ?_, extends_refl _, rfl, ?_, ?_, ?_⟩
      · simp only [linkFallback, hdisp, ht0, List.nil_append]
      · rw [hbD, hf0]; simp
      · rw [hc]; simpa using hrs
      · rw [hc, hf0]
    · have hsfB : stack gB fend = some (m ++ [r]) := stack_step hstepB fend _ hsf (by simp)
      have hsfC : stack gC fend = some (m ++ [r]) :=
        stack_step hstepC fend _ hsfB (by simp; omega)
      have hsfD : stack gD fend = some (m ++ [r]) := by
        refine stack_step hstepD fend _ hsfC ?_
        intro hm
        rcases List.mem_cons.mp hm with h | h
        · omega
        · have := hrange _ h
          omega
      obtain ⟨gE, hrunE, hstepE, hbE⟩ := linkFallback_spec gD disp.dispatch bottom ([] ++ rs)
        table prep mid fend r m _ (by rw [hdisp]; exact ht0) (by rw [hdisp]; exact hp0)
        (by rw [hdisp]; exact hm0) (by rw [hdisp]; exact hf0) hsfD hbD (by omega)
      refine ⟨gE, [] ++ rs ++ [r], hrunE, hstepE.defs, ?_, ?_, ?_, ?_⟩
      · cases hD : gD.block top with
        | none => rw [hxtD] at hD; cases hD
        | some z => exact (block_step hstepE top z hD (by simp; omega)).trans rfl
      · rw [hbE, hf0]; simp
      · cases cache with
        | none => exact absurd rfl hc
        | some c => simp [hrs]
      · cases cache with
        | none => exact absurd rfl hc
        | some c => rw [hf0]; rfl
  obtain ⟨gE, rs1, hrunE, hextE, htopE, hbE, hrs1, hisSome⟩ := hlink
  rw [hxtD] at htopE
  -- the bottom block
  have hsE : stack gE top = some s1 := by
    simp only [stack, htopE, Option.map_some']
    exact congrArg some hxtBs
  obtain ⟨g1, phi, bottom2, y1, hrunF, hstepF, hy1, hy1p, hy1phis, hshF⟩ :=
    finishInline_poly
      (IonBuilder.mk gE cur1 pc cfgStack loops loopDepth script callerBuilder
        inliningDepth nargs nlocals switches) top bottom argc postCall rs1 s1 _ hsE (by omega)
      hbE (by omega)
  dsimp only at hrunF hstepF hy1p hy1phis
  refine ⟨g1, bottom2, _, gB.defs.length, { d0 with callees := cs }, disp.operands, y1, phi,
    xs, rs1, ?_, block_step hstepF top _ htopE (by simp; exact hne), rfl, ?_, hcslen, ?_, ?_,
    hisSome, hy1, ?_, ?_, hxs, hshF, ?_⟩
  · rw [hdisp] at hrunE
    simp only [inlineDispatch, hrunA, hrunB, hdisp, ← hgC, hrunD, hrunE]
    exact hrunF
  · have := shape_extends (extends_trans hstepD.defs (extends_trans hextE hstepF.defs)) _ _ hshC
    rw [this, hopB]
  · show (cs.map fun c => c.2).Nodup
    rw [hcsB]
    exact List.nodup_range' _ _
  · intro blk hblk
    have := hrange blk hblk
    omega
  · rw [hy1phis, hphis, List.nil_append]
  · rw [hy1p, hpred, List.nil_append]
  · rw [hy1p, hpred, hrs1]
    have : (d0.fallbackEndBlock.toList).length = cache.toList.length := by
      cases cache <;> cases hf : d0.fallbackEndBlock <;> simp [hf] at hisSome ⊢
    simp [hxs, this]

end Builder

namespace Builder

theorem newBlockAt_none_spec (g : MIRGraph) (pc loopDepth : Nat) :
    ∃ gb, newBlockAt g none pc loopDepth = some (g.table.length, gb) ∧ Step [] g gb ∧
      gb.block g.table.length = some { pc := pc, loopDepth := loopDepth } ∧
      gb.defs = g.defs := by
  refine ⟨_, rfl, ⟨⟨?_, ?_⟩, ?_⟩, ?_, rfl⟩
  · simp
  · intro blk hlt _
    simp only [MIRGraph.block]
    exact List.getElem?_append_left hlt
  · intro d y hy
    exact ⟨y, hy, rfl, rfl, rfl, id⟩
  · simp only [MIRGraph.block]
    rw [List.getElem?_append_right (le_refl _)]
    simp

theorem fallbackReady_of_defs {g g1 : MIRGraph} (h : g1.defs = g.defs) (cur argc c : Nat)
    (s : List Nat) (hf : FallbackReady g cur argc c s) : FallbackReady g1 cur argc c s := by
  obtain ⟨hc, hcallee, hargs⟩ := hf
  refine ⟨?_, ?_, ?_⟩
  · simpa only [definition_of_defs h] using hc
  · simpa only [definition_of_defs h] using hcallee
  · simpa only [definition_of_defs h] using hargs

theorem inlineTargets_spec (env : InlineEnv) (henv : OneReturn env) (b : IonBuilder)
    (targets : List JSFunction) (argc : Nat) (constructing : Bool)
    (types barrier : Option TypeSet) (postCall top : Nat) (cache : Option Nat)
    (s : List Nat)
    (hnat : ∀ t ∈ targets, t.native = false) (hlen : 2 ≤ targets.length)
    (hcur : b.current = some top) (hs : stack b.graph top = some s)
    (hdepth : argc + 2 ≤ s.length)
    (hfb : ∀ c, cache = some c → FallbackReady b.graph top argc c s) :
    ∃ b1 xt last d ops y1 phi xs rs,
      inlineTargets env b targets argc constructing types barrier postCall top cache =
        .ok (true, b1) ∧
      b1.graph.block top = some xt ∧ xt.lastIns = some last ∧
      shape b1.graph last = some (.PolyInlineDispatch d, ops) ∧
      d.callees.length = targets.length ∧ (d.callees.map fun c => c.2).Nodup ∧
      (∀ blk ∈ d.callees.map fun c => c.2, b.graph.table.length < blk) ∧
      d.fallbackEndBlock.isSome = cache.isSome ∧
      b1.graph.block b.graph.table.length = some y1 ∧ y1.phis = [phi] ∧
      y1.predecessors = xs ++ d.fallbackEndBlock.toList ∧ xs.length = targets.length ∧
      shape b1.graph phi = some (.Phi, rs) ∧ rs.length = y1.predecessors.length := by
  obtain ⟨gb, hnb, hstepb, hbb, hdefs⟩ := newBlockAt_none_spec b.graph postCall b.loopDepth
  obtain ⟨xt0, hxt0, _⟩ := block_of_stack b.graph top s hs
  have htlt : top < b.graph.table.length := lt_of_block b.graph top xt0 hxt0
  have hlenb : b.graph.table.length + 1 ≤ gb.table.length := by
    have := lt_of_block gb _ _ hbb
    omega
  obtain ⟨g1, bottom2, xt, last, d, ops, y1, phi, xs, rs, hrun, h1, h2, h3, h4, h5, h6, h7,
      h8, h9, h10, h11, h12, h13⟩ :=
    inlineDispatch_spec env henv { b with graph := gb } targets argc constructing types barrier
      postCall top b.graph.table.length cache s _ hnat (by omega) hcur
      (stack_step hstepb top s hs (by simp)) hdepth hbb rfl rfl (by omega)
      (fun c hc => fallbackReady_of_defs hdefs top argc c s (hfb c hc))
  refine ⟨{ b with graph := g1, current := some bottom2 }, xt, last, d, ops, y1, phi, xs, rs,
    ?_, h1, h2, h3, h4, h5, ?_, h7, h8, h9, h10,
    h11, h12, h13⟩
  · have hpoly : (cache.isSome || decide (1 < targets.length)) = true := by
      simp only [Bool.or_eq_true, decide_eq_true_eq]
      right; omega
    have hnew : newBlock b none postCall = some (b.graph.table.length, { b with graph := gb }) := by
      simp only [newBlock, hnb]
    rw [← hrun]
    cases cache with
    | some c => simp only [inlineTargets, hnew, hpoly]
    | none =>
      match targets, hlen with
      | t1 :: t2 :: rest, _ => simp only [inlineTargets, hnew, hpoly]
  · intro blk hblk
    have := h6 blk hblk
    dsimp only at this
    omega

end Builder

namespace Builder

theorem traverse_stop (g : MIRGraph) (cur loopDepth script : Nat) (callerBuilder : List Nat)
    (inliningDepth : Nat) :
    traverseBytecode noHandlers [(0, { op := .STOP })] 2
        { graph := g, current := some cur, script := script, callerBuilder := callerBuilder,
          inliningDepth := inliningDepth, loopDepth := loopDepth } =
      .ok (true,
        { graph :=
            { endWith
                (newDefinition
                  (add (newDefinition g (newConstant .Undefined)).2 cur
                    (newDefinition g (newConstant .Undefined)).1)
                  { op := .Return, type := .None,
                    operands := [(newDefinition g (newConstant .Undefined)).1] }).2 cur
                (newDefinition
                  (add (newDefinition g (newConstant .Undefined)).2 cur
                    (newDefinition g (newConstant .Undefined)).1)
                  { op := .Return, type := .None,
                    operands := [(newDefinition g (newConstant .Undefined)).1] }).1 with
              exits := g.exits ++ [cur] },
          current := none, script := script, callerBuilder := callerBuilder,
          inliningDepth := inliningDepth, loopDepth := loopDepth }) := by
  rfl

theorem padArgv_step (entry : Nat) :
    ∀ (n : Nat) (g : MIRGraph) (argv : List Nat) (x : MBasicBlock), g.block entry = some x →
      ∃ x1, (padArgv entry n g argv).1.block entry = some x1 ∧
        Step [entry] g (padArgv entry n g argv).1 ∧ (padArgv entry n g argv).1.exits = g.exits
  | 0, g, argv, x, hx => ⟨x, hx, step_refl _ _, rfl⟩
  | n + 1, g, argv, x, hx => by
    have hx1 : (newDefinition g (newConstant .Undefined)).2.block entry = some x := hx
    have hx2 := block_add_self _ entry (newDefinition g (newConstant .Undefined)).1 x hx1
    obtain ⟨x1, h1, h2, h3⟩ := padArgv_step entry n _
      (argv ++ [(newDefinition g (newConstant .Undefined)).1]) _ hx2
    refine ⟨x1, h1, ?_, h3⟩
    exact step_trans (step_trans (step_mono (step_newDefinition g _) (by simp))
      (step_add _ entry _)) h2

theorem stopEnv_oneReturn : OneReturn stopEnv := by
  intro b callee thisDefn argv cur hcur hlt hex
  obtain ⟨gb, hnb, hstepb, hbb, hdefs⟩ := newBlockAt_none_spec b.graph 0 b.loopDepth
  have hexb : gb.exits = [] := by
    have := congrArg (fun r => r.map fun p => p.2.exits) hnb
    simpa [newBlockAt, hex] using this.symm
  obtain ⟨xc, hxc⟩ : ∃ xc, b.graph.block cur = some xc :=
    ⟨_, List.getElem?_eq_getElem hlt⟩
  -- the entry block is linked to the caller
  obtain ⟨g1, hg1⟩ : ∃ g1, g1 = addPredecessorWithoutPhis
      (endWith (newDefinition gb (newGoto b.graph.table.length)).2 cur
        (newDefinition gb (newGoto b.graph.table.length)).1) b.graph.table.length cur := ⟨_, rfl⟩
  have hstep1 : Step [cur, b.graph.table.length] gb g1 := by
    rw [hg1]
    exact step_trans (step_mono (step_trans (step_mono (step_newDefinition gb _) (by simp))
      (step_endWith _ cur _)) (by simp)) (step_mono (step_addPredecessorWithoutPhis _ _ _) (by simp))
  have hb1 : ∃ x1, g1.block b.graph.table.length = some x1 := by
    have h0 : (endWith (newDefinition gb (newGoto b.graph.table.length)).2 cur
        (newDefinition gb (newGoto b.graph.table.length)).1).block b.graph.table.length =
        some { pc := 0, loopDepth := b.loopDepth } :=
      block_step (step_trans (step_mono (step_newDefinition gb _) (by simp))
        (step_endWith _ cur _)) _ _ hbb (by simp; omega)
    rw [hg1, addPredecessorWithoutPhis, block_modify_self _ _ _ _ h0]
    exact ⟨_, rfl⟩
  have hex1 : g1.exits = [] := by rw [hg1]; exact hexb
  obtain ⟨x1, hx1⟩ := hb1
  -- the missing arguments
  obtain ⟨gp, hgp⟩ : ∃ gp, gp = (if argv.length - 1 < callee.nargs then
      padArgv b.graph.table.length (callee.nargs - (argv.length - 1)) g1 argv
      else (g1, argv)).1 := ⟨_, rfl⟩
  have hpad : ∃ xp, gp.block b.graph.table.length = some xp ∧
      Step [b.graph.table.length] g1 gp ∧ gp.exits = [] := by
    rw [hgp]
    split_ifs
    · obtain ⟨xp, h1, h2, h3⟩ := padArgv_step b.graph.table.length
        (callee.nargs - (argv.length - 1)) g1 argv x1 hx1
      exact ⟨xp, h1, h2, h3.trans hex1⟩
    · exact ⟨x1, hx1, step_refl _ _, hex1⟩
  obtain ⟨xp, hxp, hstepp, hexp⟩ := hpad
  -- the return
  obtain ⟨gu, hgu⟩ : ∃ gu, gu = add (newDefinition gp (newConstant .Undefined)).2
      b.graph.table.length (newDefinition gp (newConstant .Undefined)).1 := ⟨_, rfl⟩
  obtain ⟨gr, hgr⟩ : ∃ gr, gr = endWith
      (newDefinition gu { op := .Return, type := .None, operands := [gp.defs.length] }).2
      b.graph.table.length
      (newDefinition gu { op := .Return, type := .None, operands := [gp.defs.length] }).1 :=
    ⟨_, rfl⟩
  have hrun : stopEnv.buildInline b callee thisDefn argv =
      .ok (true, { gr with exits := gp.exits ++ [b.graph.table.length] }) := by
    have hnb1 : newBlockAt (inlineBuilder b callee).graph none (inlineBuilder b callee).pc
        (inlineBuilder b callee).loopDepth = some (b.graph.table.length, gb) := hnb
    simp only [stopEnv, buildInline, hnb1, hcur, ← hg1]
    rw [hgr, hgu, hgp]
    rfl
  have hstepu : Step [b.graph.table.length] gp gu := by
    rw [hgu]
    exact step_trans (step_mono (step_newDefinition gp _) (by simp)) (step_add _ _ _)
  have hstepr : Step [b.graph.table.length] gu gr := by
    rw [hgr]
    exact step_trans (step_mono (step_newDefinition gu _) (by simp)) (step_endWith _ _ _)
  have hxu : gu.block b.graph.table.length =
      some { xp with instructions := xp.instructions ++ [gp.defs.length] } := by
    rw [hgu]
    exact block_add_self _ _ _ xp hxp
  have hxr : gr.block b.graph.table.length =
      some { xp with instructions := xp.instructions ++ [gp.defs.length] ++ [gu.defs.length],
                     lastIns := some gu.defs.length } := by
    rw [hgr]
    exact block_endWith_self _ _ _ _ hxu
  obtain ⟨ret, hret, _, hretops, _, _⟩ := (step_endWith
      (newDefinition gu { op := .Return, type := .None, operands := [gp.defs.length] }).2
      b.graph.table.length
      (newDefinition gu { op := .Return, type := .None, operands := [gp.defs.length] }).1).defs
    gu.defs.length _ (definition_new_self gu _)
  rw [← hgr] at hret
  obtain ⟨r0, hr0, _⟩ := (step_add (newDefinition gp (newConstant .Undefined)).2
      b.graph.table.length (newDefinition gp (newConstant .Undefined)).1).defs
    gp.defs.length _ (definition_new_self gp _)
  rw [← hgu] at hr0
  obtain ⟨r, hr, _⟩ := hstepr.defs gp.defs.length r0 hr0
  refine ⟨_, b.graph.table.length, _, gu.defs.length, ret, gp.defs.length, r, hrun, ?_, ?_,
    le_refl _, hxr, rfl, hret, ?_, hr⟩
  · have hwide : Step [cur, b.graph.table.length] b.graph gr :=
      step_trans (step_mono hstepb (by simp)) (step_trans hstep1
        (step_trans (step_mono hstepp (by simp)) (step_trans (step_mono hstepu (by simp))
          (step_mono hstepr (by simp)))))
    have hshrink : Step [cur] b.graph gr := step_shrink hwide (by
      intro x hx
      simp only [List.mem_cons, List.mem_singleton, List.not_mem_nil, or_false] at hx ⊢
      rcases hx with h | h
      · exact Or.inl h
      · exact Or.inr (by omega))
    exact step_trans hshrink (step_mono (step_exits gr _) (by simp))
  · show gp.exits ++ [b.graph.table.length] = [b.graph.table.length]
    rw [hexp]; rfl
  · rw [hretops]
    rfl

end Builder

namespace Builder

theorem cacheCall_ready : FallbackReady cacheCallUnwrapped 0 0 1 [1, 0] := by
  refine ⟨⟨_, _, _, rfl, rfl, rfl, by decide, rfl⟩, ?_, ?_⟩
  · intro funcDefn h
    cases h
    exact ⟨_, rfl, fun h => absurd h (by decide)⟩
  · intro d hd
    have : d = 0 := by simpa using hd
    subst this
    exact ⟨_, rfl⟩

/-- C21 (amended): for a call whose arguments are passed by `MPassArg`s and
whose at least two (so also three) candidate targets are scripted functions
with one return each, `inlineScriptedCall` returns true; the block of the call
ends in a dispatch that has one entry block, a new block of its own, for each
target, and a fallback path exactly if the check of the callee gave an
inlineable property cache whose table, trimmed to the targets, keeps an
entry; and the bottom block has one Phi, the returned value, whose inputs are
one for each predecessor of the bottom block: one for each inlined return
and one more for the end of the fallback path if there is one, so four inputs
for three targets with a fallback path and three without one. -/
theorem inlineScriptedCall_phi_inputs (env : InlineEnv) (henv : OneReturn env)
    (b : IonBuilder) (targets : List JSFunction) (argc : Nat) (constructing : Bool)
    (types barrier : Option TypeSet) (postCall top : Nat) (cache : Option Nat)
    (g g1 : MIRGraph) (s : List Nat)
    (hnat : ∀ t ∈ targets, t.native = false) (hlen : 2 ≤ targets.length)
    (hcur : b.current = some top)
    (hun : unwrapPassArgs top (argc + 1) b.graph = some g)
    (hck : checkGetPropertyCache g top argc constructing targets = .ok (cache, g1))
    (hs : stack g1 top = some s) (hdepth : argc + 2 ≤ s.length)
    (hfb : ∀ c, cache = some c → FallbackReady g1 top argc c s) :
    ∃ b1 xt last d ops y1 phi xs rs,
      inlineScriptedCall env b targets argc constructing types barrier postCall =
        .ok (true, b1) ∧
      b1.graph.block top = some xt ∧ xt.lastIns = some last ∧
      shape b1.graph last = some (.PolyInlineDispatch d, ops) ∧
      d.callees.length = targets.length ∧ (d.callees.map fun c => c.2).Nodup ∧
      (∀ blk ∈ d.callees.map fun c => c.2, g1.table.length < blk) ∧
      d.fallbackEndBlock.isSome = cache.isSome ∧
      b1.graph.block g1.table.length = some y1 ∧ y1.phis = [phi] ∧
      y1.predecessors = xs ++ d.fallbackEndBlock.toList ∧ xs.length = targets.length ∧
      shape b1.graph phi = some (.Phi, rs) ∧ rs.length = y1.predecessors.length ∧
      rs.length = targets.length + (if cache.isSome then 1 else 0) := by
  obtain ⟨b1, xt, last, d, ops, y1, phi, xs, rs, hrun, h1, h2, h3, h4, h5, h6, h7, h8, h9,
      h10, h11, h12, h13⟩ :=
    inlineTargets_spec env henv { b with graph := g1 } targets argc constructing types barrier
      postCall top cache s hnat hlen hcur hs hdepth hfb
  refine ⟨b1, xt, last, d, ops, y1, phi, xs, rs, ?_, h1, h2, h3, h4, h5, h6, h7, h8, h9,
    h10, h11, h12, h13, ?_⟩
  · rw [inlineScriptedCall]
    rw [hcur] at hrun ⊢
    simp only [hun, hck]
    exact hrun
  · rw [h13, h10, List.length_append, h11]
    cases cache <;> cases hf : d.fallbackEndBlock <;> simp [hf] at h7 ⊢

theorem inlineScriptedCall_phi_inputs_witness :
    ∃ b1 xt last d ops y1 phi xs rs,
      inlineScriptedCall stopEnv cacheCallBuilder threeTargets 0 false none none 10 =
        .ok (true, b1) ∧
      b1.graph.block 0 = some xt ∧ xt.lastIns = some last ∧
      shape b1.graph last = some (.PolyInlineDispatch d, ops) ∧
      d.callees.length = threeTargets.length ∧ (d.callees.map fun c => c.2).Nodup ∧
      (∀ blk ∈ d.callees.map fun c => c.2, cacheCallUnwrapped.table.length < blk) ∧
      d.fallbackEndBlock.isSome = (some 1).isSome ∧
      b1.graph.block cacheCallUnwrapped.table.length = some y1 ∧ y1.phis = [phi] ∧
      y1.predecessors = xs ++ d.fallbackEndBlock.toList ∧ xs.length = threeTargets.length ∧
      shape b1.graph phi = some (.Phi, rs) ∧ rs.length = y1.predecessors.length ∧
      rs.length = threeTargets.length + (if (some 1).isSome then 1 else 0) :=
  inlineScriptedCall_phi_inputs stopEnv stopEnv_oneReturn cacheCallBuilder threeTargets 0 false
    none none 10 0 (some 1) cacheCallUnwrapped cacheCallUnwrapped [1, 0] (by decide) (by decide)
    rfl (by decide) (by decide) rfl (by decide)
    (fun c hc => by cases hc; exact cacheCall_ready)

/-- C21 (counterexample): for the call of `plainCallBuilder` with the three
targets of `threeTargets`, each with one return, `inlineScriptedCall` returns
true, and the dispatch that ends block 0 has three callees and no fallback
path; the bottom block 1 has the three predecessors 5, 6 and 7, and its Phi 19
has the three inputs 8, 12 and 16, not four. -/
theorem inlineScriptedCall_three_inputs :
    (inlineScriptedCall stopEnv plainCallBuilder threeTargets 0 false none none 10).map
        (fun r => (r.1, predecessorsOf r.2.graph 1, (r.2.graph.block 1).map (fun y => y.phis),
          shape r.2.graph 19,
          (shape r.2.graph 6).map fun x =>
            ((MDefinition.dispatch { op := x.1, type := .None }).callees,
             (MDefinition.dispatch { op := x.1, type := .None }).fallbackEndBlock))) =
      .ok (true, some [5, 6, 7], some [19], some (.Phi, [8, 12, 16]),
        some ([(3, 2), (4, 3), (5, 4)], none)) := by
  rfl

end Builder

/-! ## EliminatePhis: no dangling use -/

theorem inBlock_allPhis {g : MIRGraph} {b p : Nat} (h : InBlock g b p) : p ∈ allPhis g := by
  obtain ⟨blk, hb, hp⟩ := h
  exact (mem_allPhis g p).mpr ⟨b, blk, hb, hp⟩

theorem allPhis_inBlock {g : MIRGraph} {p : Nat} (h : p ∈ allPhis g) : ∃ b, InBlock g b p := by
  obtain ⟨b, blk, hb, hp⟩ := (mem_allPhis g p).mp h
  exact ⟨b, blk, hb, hp⟩

theorem inBlock_unique {g : MIRGraph} (hnd : (allPhis g).Nodup) {b1 b2 p : Nat}
    (h1 : InBlock g b1 p) (h2 : InBlock g b2 p) : b1 = b2 := by
  obtain ⟨blk1, hb1, hp1⟩ := h1
  obtain ⟨blk2, hb2, hp2⟩ := h2
  exact allPhis_unique g hnd b1 b2 p blk1 blk2 hb1 hb2 hp1 hp2

theorem phiGraph_of_bool (T : MIRGraph) (hcoh : phisCoherent T = true)
    (hins : noPhiInstruction T = true) (hlat : operandZeroLater T = true) : PhiGraph T := by
  obtain ⟨h1, h2, h3⟩ := phisCoherent_spec T hcoh
  refine ⟨?_, h2, ?_, ?_, ?_, ?_⟩
  · intro p hp
    obtain ⟨y, hy, hphi⟩ := h1 p hp
    simp only [phiAt, hy, hphi]
  · intro p hp
    unfold phiAt at hp
    cases hy : T.definition p with
    | none => simp [hy] at hp
    | some y =>
      simp only [hy] at hp
      exact (h3 p y hy hp).1
  · intro p hp
    obtain ⟨y, hy, hphi⟩ := h1 p hp
    simp only [isInWorklist, hy]
    exact (h3 p y hy hphi).2.1
  · intro blk hblk i hi
    unfold noPhiInstruction at hins
    rw [List.all_eq_true] at hins
    have := hins blk hblk
    rw [List.all_eq_true] at this
    simpa using this i hi
  · intro b p o hin hop hphi
    obtain ⟨blk, hb, hp⟩ := hin
    unfold operandZeroLater at hlat
    rw [List.all_eq_true] at hlat
    have h := hlat (b, blk) ((List.mem_enum_iff_getElem?).mpr hb)
    simp only [List.all_eq_true] at h
    have h := h p hp
    simp only [hop, hphi, Bool.not_true, Bool.false_or, List.any_eq_true,
      decide_eq_true_eq] at h
    obtain ⟨blk1, hmem, ho⟩ := h
    obtain ⟨b1, hb1, hget⟩ := List.getElem_of_mem hmem
    rw [List.length_take] at hb1
    refine ⟨b1, by omega, blk1, ?_, ho⟩
    rw [MIRGraph.block, List.getElem?_eq_getElem (by omega)]
    rw [List.getElem_take] at hget
    exact congrArg some hget

theorem hasNonPhiUse_iff_ops (g : MIRGraph) (p : Nat) :
    hasNonPhiUse g p = true ↔
      ∃ i, g.inGraph i = true ∧ phiAt g i = false ∧ p ∈ opsAt g i := by
  rw [hasNonPhiUse_iff]
  constructor
  · rintro ⟨i, y, hy, h1, h2, h3⟩
    exact ⟨i, h1, by simp only [phiAt, hy, h2], by simp only [opsAt, hy, h3]⟩
  · rintro ⟨i, h1, h2, h3⟩
    cases hy : g.definition i with
    | none => simp [opsAt, hy] at h3
    | some y =>
      simp only [phiAt, hy] at h2
      simp only [opsAt, hy] at h3
      exact ⟨i, y, hy, h1, h2, h3⟩

theorem inGraph_congr {g g1 : MIRGraph} (hb : g1.blocks = g.blocks) (x : Nat) :
    g1.inGraph x = g.inGraph x := by
  unfold MIRGraph.inGraph
  rw [hb]

theorem allPhis_congr {g g1 : MIRGraph} (hb : g1.blocks = g.blocks) :
    allPhis g1 = allPhis g := by
  unfold allPhis
  rw [hb]

theorem inBlock_congr {g g1 : MIRGraph} (hb : g1.blocks = g.blocks) (b p : Nat) :
    InBlock g1 b p ↔ InBlock g b p := by
  unfold InBlock MIRGraph.block
  rw [hb]

theorem hasNonPhiUse_congr {g g1 : MIRGraph} (hb : g1.blocks = g.blocks)
    (hphi : ∀ x, phiAt g1 x = phiAt g x) (hops : ∀ x, opsAt g1 x = opsAt g x) (p : Nat) :
    hasNonPhiUse g1 p = hasNonPhiUse g p := by
  rw [Bool.eq_iff_iff, hasNonPhiUse_iff_ops, hasNonPhiUse_iff_ops]
  simp only [inGraph_congr hb, hphi, hops]

theorem phiCore_congr {T g g1 : MIRGraph} (h : PhiCore T g) (hb : g1.blocks = g.blocks)
    (hphi : ∀ x, phiAt g1 x = phiAt g x) (hops : ∀ x, opsAt g1 x = opsAt g x) :
    PhiCore T g1 := by
  refine ⟨fun x => (hphi x).trans (h.phi x), by rw [hb]; exact h.instrs,
    by rw [allPhis_congr hb]; exact h.sub, ?_, ?_⟩
  · intro x hx o ho hpo
    rw [allPhis_congr hb]
    rw [inGraph_congr hb] at hx
    rw [hops] at ho
    rw [hphi] at hpo
    exact h.closed x hx o ho hpo
  · intro b p o hin hop hpo
    rw [inBlock_congr hb] at hin
    rw [hops] at hop
    rw [hphi] at hpo
    obtain ⟨b1, hlt, hin1⟩ := h.ranked b p o hin hop hpo
    exact ⟨b1, hlt, (inBlock_congr hb b1 o).mpr hin1⟩

theorem phiAt_modify (g : MIRGraph) (d : Nat) (f : MDefinition → MDefinition)
    (hf : ∀ y, (f y).op = y.op) (x : Nat) : phiAt (modifyDefinition g d f) x = phiAt g x := by
  unfold phiAt
  rw [definition_modifyDefinition]
  cases g.definition x with
  | none => rfl
  | some y =>
    simp only [Option.map_some']
    split_ifs
    · simp only [MDefinition.isPhi, hf]
    · rfl

theorem opsAt_modify (g : MIRGraph) (d : Nat) (f : MDefinition → MDefinition)
    (hf : ∀ y, (f y).operands = y.operands) (x : Nat) :
    opsAt (modifyDefinition g d f) x = opsAt g x := by
  unfold opsAt
  rw [definition_modifyDefinition]
  cases g.definition x with
  | none => rfl
  | some y =>
    simp only [Option.map_some']
    split_ifs
    · exact hf y
    · rfl

theorem isUnused_flag (g : MIRGraph) (d : Nat) (f : MDefinition → MDefinition)
    (hf : ∀ y, (f y).unused = y.unused) (x : Nat) :
    isUnused (modifyDefinition g d f) x = isUnused g x := by
  rw [isUnused_modify]
  unfold isUnused
  cases g.definition x with
  | none => rfl
  | some y =>
    simp only
    split_ifs
    · exact hf y
    · rfl

theorem isInWorklist_flag (g : MIRGraph) (d : Nat) (f : MDefinition → MDefinition)
    (hf : ∀ y, (f y).inWorklist = y.inWorklist) (x : Nat) :
    isInWorklist (modifyDefinition g d f) x = isInWorklist g x := by
  rw [isInWorklist_modify]
  unfold isInWorklist
  cases g.definition x with
  | none => rfl
  | some y =>
    simp only
    split_ifs
    · exact hf y
    · rfl

theorem isUnused_set (g : MIRGraph) (d : Nat) (v : Bool) (x : Nat) :
    isUnused (modifyDefinition g d fun y => { y with unused := v }) x =
      if d = x ∧ (g.definition x).isSome then v else isUnused g x := by
  rw [isUnused_modify]
  unfold isUnused
  cases g.definition x with
  | none => simp
  | some y =>
    by_cases h : d = x <;> simp [h]

theorem isInWorklist_set (g : MIRGraph) (d : Nat) (v : Bool) (x : Nat) :
    isInWorklist (modifyDefinition g d fun y => { y with inWorklist := v }) x =
      if d = x ∧ (g.definition x).isSome then v else isInWorklist g x := by
  rw [isInWorklist_modify]
  unfold isInWorklist
  cases g.definition x with
  | none => simp
  | some y =>
    by_cases h : d = x <;> simp [h]

theorem phiAt_replaceAllUsesWith (g : MIRGraph) (d r x : Nat) :
    phiAt (replaceAllUsesWith g d r) x = phiAt g x := by
  unfold phiAt
  rw [definition_replaceAllUsesWith]
  cases g.definition x with
  | none => rfl
  | some y =>
    simp only [Option.map_some']
    split_ifs <;> rfl

theorem isUnused_replaceAllUsesWith (g : MIRGraph) (d r x : Nat) :
    isUnused (replaceAllUsesWith g d r) x = isUnused g x := by
  unfold isUnused
  rw [definition_replaceAllUsesWith]
  cases g.definition x with
  | none => rfl
  | some y =>
    simp only [Option.map_some']
    split_ifs <;> rfl

theorem isInWorklist_replaceAllUsesWith (g : MIRGraph) (d r x : Nat) :
    isInWorklist (replaceAllUsesWith g d r) x = isInWorklist g x := by
  unfold isInWorklist
  rw [definition_replaceAllUsesWith]
  cases g.definition x with
  | none => rfl
  | some y =>
    simp only [Option.map_some']
    split_ifs <;> rfl

theorem opsAt_replaceAllUsesWith (g : MIRGraph) (d r x : Nat) :
    opsAt (replaceAllUsesWith g d r) x =
      if g.inGraph x then (opsAt g x).map fun o => if o = d then r else o else opsAt g x := by
  unfold opsAt
  rw [definition_replaceAllUsesWith]
  cases g.definition x with
  | none => simp
  | some y =>
    simp only [Option.map_some']
    split_ifs <;> rfl
theorem phiCore_nodup {T g : MIRGraph} (hT : PhiGraph T) (h : PhiCore T g) :
    (allPhis g).Nodup :=
  List.Nodup.sublist h.sub hT.nodup

theorem phiCore_listed {T g : MIRGraph} (hT : PhiGraph T) (h : PhiCore T g) (p : Nat)
    (hp : p ∈ allPhis g) : phiAt g p = true := by
  rw [h.phi]
  exact hT.listed p (h.sub.subset hp)

theorem phiCore_not_instr {T g : MIRGraph} (hT : PhiGraph T) (h : PhiCore T g) (x : Nat)
    (hphi : phiAt g x = true) : ∀ blk ∈ g.blocks, x ∉ blk.instructions := by
  intro blk hblk hx
  have hmem : blk.instructions ∈ g.blocks.map MBasicBlock.instructions :=
    List.mem_map_of_mem _ hblk
  rw [h.instrs, List.mem_map] at hmem
  obtain ⟨blkT, hblkT, heq⟩ := hmem
  have := hT.instrs blkT hblkT x (by rw [heq]; exact hx)
  rw [h.phi, this] at hphi
  cases hphi

theorem phiCore_inGraph {T g : MIRGraph} (hT : PhiGraph T) (h : PhiCore T g) (x : Nat)
    (hphi : phiAt g x = true) (hin : g.inGraph x = true) : x ∈ allPhis g := by
  rw [inGraph_iff] at hin
  obtain ⟨b, blk, hb, hx | hx⟩ := hin
  · exact (mem_allPhis g x).mpr ⟨b, blk, hb, hx⟩
  · exact absurd hx (phiCore_not_instr hT h x hphi blk (List.getElem?_mem hb))

theorem inGraph_of_allPhis {g : MIRGraph} {p : Nat} (hp : p ∈ allPhis g) :
    g.inGraph p = true := by
  obtain ⟨b, blk, hb, hx⟩ := (mem_allPhis g p).mp hp
  exact (inGraph_iff g p).mpr ⟨b, blk, hb, Or.inl hx⟩

theorem enqueueOperands_no_assertion :
    ∀ (todo : List Nat) (g : MIRGraph) (W : List Nat),
      enqueueOperands todo g W ≠ .fail .assertion
  | [], g, W => by simp [enqueueOperands]
  | o :: rest, g, W => by
    unfold enqueueOperands
    cases hd : g.definition o with
    | none => simp
    | some d =>
      simp only
      split_ifs
      · exact enqueueOperands_no_assertion rest g W
      · exact enqueueOperands_no_assertion rest _ _

theorem enqueueOperands_inv (T : MIRGraph) :
    ∀ (todo : List Nat) (g : MIRGraph) (W : List Nat) (g1 : MIRGraph) (W1 : List Nat),
      MarkInv T g W todo → enqueueOperands todo g W = .ok (g1, W1) → MarkInv T g1 W1 []
  | [], g, W, g1, W1, h, hrun => by
    simp only [enqueueOperands, Run.ok.injEq, Prod.mk.injEq] at hrun
    obtain ⟨h1, h2⟩ := hrun
    subst h1 h2
    exact h
  | o :: rest, g, W, g1, W1, h, hrun => by
    unfold enqueueOperands at hrun
    cases hd : g.definition o with
    | none => simp [hd] at hrun
    | some d =>
      simp only [hd] at hrun
      have hphio : phiAt g o = d.isPhi := by simp only [phiAt, hd]
      have huno : isUnused g o = d.unused := by simp only [isUnused, hd]
      have hwlo : isInWorklist g o = d.inWorklist := by simp only [isInWorklist, hd]
      by_cases hskip : (!d.isPhi || !d.unused || d.inWorklist) = true
      · rw [if_pos hskip] at hrun
        refine enqueueOperands_inv T rest g W g1 W1 ?_ hrun
        refine ⟨h.core, h.nodup, h.queued, h.flagged, ?_, ?_⟩
        · intro x hx hlive o1 ho1 hp1
          rcases h.live x hx hlive o1 ho1 hp1 with h1 | h1 | h1
          · exact Or.inl h1
          · exact Or.inr (Or.inl h1)
          · rcases List.mem_cons.mp h1 with h2 | h2
            · subst h2
              rw [hphio] at hp1
              simp only [hp1, Bool.not_true, Bool.false_or, Bool.or_eq_true,
                Bool.not_eq_true'] at hskip
              rcases hskip with h3 | h3
              · exact Or.inl (huno.trans h3)
              · right; left
                have hall := h.operands o1 (List.mem_cons_self _ _) (hphio.trans hp1)
                exact (h.flagged o1 hall).mp (hwlo.trans h3)
            · exact Or.inr (Or.inr h2)
        · intro o1 ho1
          exact h.operands o1 (List.mem_cons_of_mem _ ho1)
      · rw [if_neg hskip] at hrun
        simp only [Bool.or_eq_true, Bool.not_eq_true', not_or, Bool.not_eq_false] at hskip
        obtain ⟨⟨hphi, hun⟩, hwl⟩ := hskip
        have hwl : d.inWorklist = false := by simpa using hwl
        have hall : o ∈ allPhis g := h.operands o (List.mem_cons_self _ _) (hphio.trans hphi)
        have hnot : o ∉ W := fun hm => by
          have := (h.flagged o hall).mpr hm
          rw [hwlo, hwl] at this
          cases this
        refine enqueueOperands_inv T rest (setInWorklist g o) (W ++ [o]) g1 W1 ?_ hrun
        have hb : (setInWorklist g o).blocks = g.blocks := rfl
        have hphiAt : ∀ x, phiAt (setInWorklist g o) x = phiAt g x :=
          phiAt_modify g o _ (fun _ => rfl)
        have hopsAt : ∀ x, opsAt (setInWorklist g o) x = opsAt g x :=
          opsAt_modify g o _ (fun _ => rfl)
        have hunAt : ∀ x, isUnused (setInWorklist g o) x = isUnused g x :=
          isUnused_flag g o _ (fun _ => rfl)
        refine ⟨phiCore_congr h.core hb hphiAt hopsAt, ?_, ?_, ?_, ?_, ?_⟩
        · exact List.Nodup.append h.nodup (List.nodup_singleton o) (by
            intro a ha hb
            rw [List.mem_singleton] at hb
            subst hb
            exact hnot ha)
        · intro p hp
          rw [allPhis_congr hb, hunAt]
          rcases List.mem_append.mp hp with h1 | h1
          · exact h.queued p h1
          · rw [List.mem_singleton] at h1
            subst h1
            exact ⟨hall, huno.trans hun⟩
        · intro p hp
          rw [allPhis_congr hb] at hp
          rw [setInWorklist, isInWorklist_set, List.mem_append, List.mem_singleton]
          by_cases hop : o = p
          · subst hop
            simp [hd]
          · have hne : ¬(o = p ∧ (g.definition p).isSome = true) := fun hc => hop hc.1
            rw [if_neg hne, h.flagged p hp]
            constructor
            · exact Or.inl
            · rintro (h1 | h1)
              · exact h1
              · exact absurd h1.symm hop
        · intro x hx hlive o1 ho1 hp1
          rw [inGraph_congr hb] at hx
          rw [hphiAt, hunAt] at hlive
          rw [hopsAt] at ho1
          rw [hphiAt] at hp1
          rw [hunAt]
          rcases h.live x hx hlive o1 ho1 hp1 with h1 | h1 | h1
          · exact Or.inl h1
          · exact Or.inr (Or.inl (List.mem_append_left _ h1))
          · rcases List.mem_cons.mp h1 with h2 | h2
            · subst h2
              exact Or.inr (Or.inl (List.mem_append_right _ (List.mem_singleton_self _)))
            · exact Or.inr (Or.inr h2)
        · intro o1 ho1 hp1
          rw [allPhis_congr hb]
          rw [hphiAt] at hp1
          exact h.operands o1 (List.mem_cons_of_mem _ ho1) hp1

theorem IsPhiRedundant_view (g g2 : MIRGraph) (X : Nat) (r : Option Nat)
    (h : IsPhiRedundant g X = some (r, g2)) :
    g2.blocks = g.blocks ∧ (∀ x, phiAt g2 x = phiAt g x) ∧ (∀ x, opsAt g2 x = opsAt g x) ∧
      (∀ x, isUnused g2 x = isUnused g x) ∧ (∀ x, isInWorklist g2 x = isInWorklist g x) ∧
      ∃ first rest, opsAt g X = first :: rest ∧
        ((r = none ∧ g2 = g) ∨ (r = some first ∧ ∀ o ∈ rest, o = first ∨ o = X)) := by
  have hset : ∀ d, (setHasBytecodeUses g d).blocks = g.blocks ∧
      (∀ x, phiAt (setHasBytecodeUses g d) x = phiAt g x) ∧
      (∀ x, opsAt (setHasBytecodeUses g d) x = opsAt g x) ∧
      (∀ x, isUnused (setHasBytecodeUses g d) x = isUnused g x) ∧
      (∀ x, isInWorklist (setHasBytecodeUses g d) x = isInWorklist g x) := fun d =>
    ⟨rfl, phiAt_modify g d _ (fun _ => rfl), opsAt_modify g d _ (fun _ => rfl),
      isUnused_flag g d _ (fun _ => rfl), isInWorklist_flag g d _ (fun _ => rfl)⟩
  have hrefl : g.blocks = g.blocks ∧ (∀ x, phiAt g x = phiAt g x) ∧
      (∀ x, opsAt g x = opsAt g x) ∧ (∀ x, isUnused g x = isUnused g x) ∧
      (∀ x, isInWorklist g x = isInWorklist g x) :=
    ⟨rfl, fun _ => rfl, fun _ => rfl, fun _ => rfl, fun _ => rfl⟩
  unfold IsPhiRedundant at h
  cases hy : g.definition X with
  | none => simp [hy] at h
  | some y =>
    simp only [hy] at h
    cases hops : y.operands with
    | nil => simp [hops] at h
    | cons first rest =>
      simp only [hops] at h
      have hopsAt : opsAt g X = first :: rest := by simp only [opsAt, hy, hops]
      by_cases hany : (rest.any fun o => decide (o ≠ first ∧ o ≠ X)) = true
      · simp only [hany, if_true, Option.some.injEq, Prod.mk.injEq] at h
        obtain ⟨hr, hg⟩ := h
        subst hr hg
        exact ⟨hrefl.1, hrefl.2.1, hrefl.2.2.1, hrefl.2.2.2.1, hrefl.2.2.2.2,
          first, rest, hopsAt, Or.inl ⟨rfl, rfl⟩⟩
      · simp only [hany, Bool.false_eq_true, if_false] at h
        have hall : ∀ o ∈ rest, o = first ∨ o = X := by
          intro o ho
          by_contra hcon
          apply hany
          rw [List.any_eq_true]
          refine ⟨o, ho, ?_⟩
          rw [not_or] at hcon
          simpa using hcon
        by_cases hb : y.hasBytecodeUses = true
        · simp only [hb, if_true] at h
          cases hf : g.definition first with
          | none => simp [hf] at h
          | some f =>
            simp only [hf, Option.some.injEq, Prod.mk.injEq] at h
            obtain ⟨hr, hg⟩ := h
            subst hr hg
            split_ifs
            · exact ⟨(hset first).1, (hset first).2.1, (hset first).2.2.1,
                (hset first).2.2.2.1, (hset first).2.2.2.2,
                first, rest, hopsAt, Or.inr ⟨rfl, hall⟩⟩
            · exact ⟨hrefl.1, hrefl.2.1, hrefl.2.2.1, hrefl.2.2.2.1, hrefl.2.2.2.2,
                first, rest, hopsAt, Or.inr ⟨rfl, hall⟩⟩
        · simp only [hb, Bool.false_eq_true, if_false, Option.some.injEq,
            Prod.mk.injEq] at h
          obtain ⟨hr, hg⟩ := h
          subst hr hg
          exact ⟨hrefl.1, hrefl.2.1, hrefl.2.2.1, hrefl.2.2.2.1, hrefl.2.2.2.2,
            first, rest, hopsAt, Or.inr ⟨rfl, hall⟩⟩

theorem markPhi_ok (s s1 : PhiState) (P : Nat) (W : List Nat)
    (hrun : markPhi s P W = .ok s1) :
    ∃ r g2 g4, IsPhiRedundant (setNotInWorklist s.graph P) P = some (r, g2) ∧
      ((r = none ∧ g4 = setNotUnused g2 P) ∨
        ∃ first, r = some first ∧
          g4 = if phiAt (replaceAllUsesWith g2 P first) first = true
               then setUnused (replaceAllUsesWith g2 P first) first
               else replaceAllUsesWith g2 P first) ∧
      enqueueOperands (opsAt g4 P) g4 W = .ok (s1.graph, s1.worklist) := by
  unfold markPhi at hrun
  cases hp : s.graph.definition P with
  | none => simp [hp] at hrun
  | some p =>
    simp only [hp] at hrun
    by_cases hun : p.unused = true
    · simp only [hun, Bool.not_true, Bool.false_eq_true, if_false] at hrun
      cases hred : IsPhiRedundant (setNotInWorklist s.graph P) P with
      | none => simp [hred] at hrun
      | some res =>
        obtain ⟨r, g2⟩ := res
        simp only [hred] at hrun
        have key : ∀ g4 : MIRGraph,
            (match g4.definition P with
              | none => Run.fail Failure.nullPointer
              | some p4 =>
                match enqueueOperands p4.operands g4 W with
                | .fail e => .fail e
                | .ok (g5, worklist5) =>
                  .ok ({ graph := g5, worklist := worklist5,
                         replaced := if r.isSome then P :: s.replaced else s.replaced } :
                       PhiState)) = .ok s1 →
            enqueueOperands (opsAt g4 P) g4 W = .ok (s1.graph, s1.worklist) := by
          intro g4 h
          cases hp4 : g4.definition P with
          | none => simp [hp4] at h
          | some p4 =>
            simp only [hp4] at h
            cases henq : enqueueOperands p4.operands g4 W with
            | fail e => simp [henq] at h
            | ok res5 =>
              obtain ⟨g5, wl5⟩ := res5
              simp only [henq, Run.ok.injEq] at h
              subst h
              simp only [opsAt, hp4, henq]
        cases r with
        | none =>
          simp only at hrun
          exact ⟨none, g2, _, rfl, Or.inl ⟨rfl, rfl⟩, key _ hrun⟩
        | some first =>
          simp only at hrun
          cases hrd : (replaceAllUsesWith g2 P first).definition first with
          | none => simp [hrd] at hrun
          | some rd =>
            simp only [hrd] at hrun
            refine ⟨some first, g2, _, rfl, Or.inr ⟨first, rfl, ?_⟩, key _ hrun⟩
            simp only [phiAt, hrd]
    · simp [hun] at hrun

theorem markPhi_assertion (s : PhiState) (P : Nat) (W : List Nat)
    (hun : isUnused s.graph P = true) : markPhi s P W ≠ .fail .assertion := by
  unfold markPhi
  cases hp : s.graph.definition P with
  | none => simp
  | some p =>
    have hpu : p.unused = true := by simpa only [isUnused, hp] using hun
    simp only [hpu, Bool.not_true, Bool.false_eq_true, if_false]
    cases hred : IsPhiRedundant (setNotInWorklist s.graph P) P with
    | none => simp
    | some res =>
      obtain ⟨r, g2⟩ := res
      simp only
      have key : ∀ (g4 : MIRGraph) (rep : List Nat),
          (match g4.definition P with
            | none => Run.fail Failure.nullPointer
            | some p4 =>
              match enqueueOperands p4.operands g4 W with
              | .fail e => .fail e
              | .ok (g5, worklist5) =>
                .ok ({ graph := g5, worklist := worklist5, replaced := rep } : PhiState)) ≠
            .fail .assertion := by
        intro g4 rep
        cases hp4 : g4.definition P with
        | none => simp
        | some p4 =>
          simp only
          cases henq : enqueueOperands p4.operands g4 W with
          | fail e =>
            simp only [ne_eq, Run.fail.injEq]
            intro he
            exact enqueueOperands_no_assertion _ _ _ (henq.trans (by rw [he]))
          | ok res5 => simp
      cases r with
      | none => exact key _ _
      | some first =>
        simp only
        cases hrd : (replaceAllUsesWith g2 P first).definition first with
        | none => simp
        | some rd => exact key _ _

theorem phiAt_setUnused (g : MIRGraph) (d x : Nat) : phiAt (setUnused g d) x = phiAt g x := by
  unfold setUnused
  apply phiAt_modify
  intro _
  rfl

theorem opsAt_setUnused (g : MIRGraph) (d x : Nat) : opsAt (setUnused g d) x = opsAt g x := by
  unfold setUnused
  apply opsAt_modify
  intro _
  rfl

theorem isInWorklist_setUnused (g : MIRGraph) (d x : Nat) :
    isInWorklist (setUnused g d) x = isInWorklist g x := by
  unfold setUnused
  apply isInWorklist_flag
  intro _
  rfl

theorem phiAt_setNotUnused (g : MIRGraph) (d x : Nat) :
    phiAt (setNotUnused g d) x = phiAt g x := by
  unfold setNotUnused
  apply phiAt_modify
  intro _
  rfl

theorem opsAt_setNotUnused (g : MIRGraph) (d x : Nat) :
    opsAt (setNotUnused g d) x = opsAt g x := by
  unfold setNotUnused
  apply opsAt_modify
  intro _
  rfl

theorem isInWorklist_setNotUnused (g : MIRGraph) (d x : Nat) :
    isInWorklist (setNotUnused g d) x = isInWorklist g x := by
  unfold setNotUnused
  apply isInWorklist_flag
  intro _
  rfl

theorem phiAt_setInWorklist (g : MIRGraph) (d x : Nat) :
    phiAt (setInWorklist g d) x = phiAt g x := by
  unfold setInWorklist
  apply phiAt_modify
  intro _
  rfl

theorem opsAt_setInWorklist (g : MIRGraph) (d x : Nat) :
    opsAt (setInWorklist g d) x = opsAt g x := by
  unfold setInWorklist
  apply opsAt_modify
  intro _
  rfl

theorem isUnused_setInWorklist (g : MIRGraph) (d x : Nat) :
    isUnused (setInWorklist g d) x = isUnused g x := by
  unfold setInWorklist
  apply isUnused_flag
  intro _
  rfl

theorem phiAt_setNotInWorklist (g : MIRGraph) (d x : Nat) :
    phiAt (setNotInWorklist g d) x = phiAt g x := by
  unfold setNotInWorklist
  apply phiAt_modify
  intro _
  rfl

theorem opsAt_setNotInWorklist (g : MIRGraph) (d x : Nat) :
    opsAt (setNotInWorklist g d) x = opsAt g x := by
  unfold setNotInWorklist
  apply opsAt_modify
  intro _
  rfl

theorem isUnused_setNotInWorklist (g : MIRGraph) (d x : Nat) :
    isUnused (setNotInWorklist g d) x = isUnused g x := by
  unfold setNotInWorklist
  apply isUnused_flag
  intro _
  rfl

theorem markPhi_inv (T : MIRGraph) (hT : PhiGraph T) (s s1 : PhiState) (P : Nat)
    (W : List Nat) (h : MarkInv T s.graph (W ++ [P]) []) (hrun : markPhi s P W = .ok s1) :
    MarkInv T s1.graph s1.worklist [] := by
  obtain ⟨r, g2, g4, hred, hg4, henq⟩ := markPhi_ok s s1 P W hrun
  refine enqueueOperands_inv T _ g4 W _ _ ?_ henq
  obtain ⟨g, hg⟩ : ∃ g, g = s.graph := ⟨_, rfl⟩
  rw [← hg] at h hred
  -- the popped Phi
  have hPW : P ∉ W := fun hm => by
    have := h.nodup
    rw [List.nodup_append] at this
    exact this.2.2 hm (List.mem_singleton_self P)
  have hndW : W.Nodup := (List.nodup_append.mp h.nodup).1
  obtain ⟨hPall, hPun⟩ := h.queued P (List.mem_append_right _ (List.mem_singleton_self P))
  have hPphi : phiAt g P = true := phiCore_listed hT h.core P hPall
  have hPin : g.inGraph P = true := inGraph_of_allPhis hPall
  have hPdef : (g.definition P).isSome = true := by
    unfold phiAt at hPphi
    cases hd : g.definition P with
    | none => simp [hd] at hPphi
    | some y => rfl
  -- the graph after `setNotInWorklist` and `IsPhiRedundant`
  obtain ⟨hb2, hphi2, hops2, hun2, hwl2, first, rest, hopsP, hcase⟩ :=
    IsPhiRedundant_view _ g2 P r hred
  have hphi1 : ∀ x, phiAt (setNotInWorklist g P) x = phiAt g x :=
    phiAt_setNotInWorklist g P
  have hops1 : ∀ x, opsAt (setNotInWorklist g P) x = opsAt g x :=
    opsAt_setNotInWorklist g P
  have hun1 : ∀ x, isUnused (setNotInWorklist g P) x = isUnused g x :=
    isUnused_setNotInWorklist g P
  have hwl1 : ∀ x, isInWorklist (setNotInWorklist g P) x =
      if P = x then false else isInWorklist g x := by
    intro x
    rw [setNotInWorklist, isInWorklist_set]
    by_cases hx : P = x
    · subst hx
      simp [hPdef]
    · simp [hx]
  have hb2g : g2.blocks = g.blocks := hb2
  have hphi2g : ∀ x, phiAt g2 x = phiAt g x := fun x => (hphi2 x).trans (hphi1 x)
  have hops2g : ∀ x, opsAt g2 x = opsAt g x := fun x => (hops2 x).trans (hops1 x)
  have hun2g : ∀ x, isUnused g2 x = isUnused g x := fun x => (hun2 x).trans (hun1 x)
  have hwl2g : ∀ x, isInWorklist g2 x = if P = x then false else isInWorklist g x :=
    fun x => (hwl2 x).trans (hwl1 x)
  rw [hops1] at hopsP
  have hflag : ∀ g4 : MIRGraph, g4.blocks = g.blocks →
      (∀ x, isInWorklist g4 x = if P = x then false else isInWorklist g x) →
      ∀ p ∈ allPhis g4, (isInWorklist g4 p = true ↔ p ∈ W) := by
    intro g4 hb hwl p hp
    rw [allPhis_congr hb] at hp
    rw [hwl]
    by_cases hx : P = p
    · subst hx
      simp [hPW]
    · rw [if_neg hx, h.flagged p hp, List.mem_append, List.mem_singleton]
      constructor
      · rintro (h1 | h1)
        · exact h1
        · exact absurd h1.symm hx
      · exact Or.inl
  rcases hg4 with ⟨hr, hg4⟩ | ⟨first1, hr, hg4⟩
  · -- the Phi is marked used
    have hb4 : g4.blocks = g.blocks := by rw [hg4]; exact hb2g
    have hphi4 : ∀ x, phiAt g4 x = phiAt g x := fun x => by
      rw [hg4]; exact (phiAt_setNotUnused g2 P x).trans (hphi2g x)
    have hops4 : ∀ x, opsAt g4 x = opsAt g x := fun x => by
      rw [hg4]; exact (opsAt_setNotUnused g2 P x).trans (hops2g x)
    have hwl4 : ∀ x, isInWorklist g4 x = if P = x then false else isInWorklist g x :=
      fun x => by
        rw [hg4]; exact (isInWorklist_setNotUnused g2 P x).trans (hwl2g x)
    have hP2 : (g2.definition P).isSome = true := by
      have := hphi2g P
      rw [hPphi] at this
      unfold phiAt at this
      cases hd : g2.definition P with
      | none => simp [hd] at this
      | some y => rfl
    have hun4 : ∀ x, isUnused g4 x = if P = x then false else isUnused g x := by
      intro x
      rw [hg4, setNotUnused, isUnused_set]
      by_cases hx : P = x
      · subst hx
        simp [hP2]
      · simp [hx, hun2g]
    have hcore : PhiCore T g4 := phiCore_congr h.core hb4 hphi4 hops4
    refine ⟨hcore, hndW, ?_, hflag g4 hb4 hwl4, ?_, ?_⟩
    · intro p hp
      have hne : P ≠ p := fun hc => hPW (hc ▸ hp)
      rw [allPhis_congr hb4, hun4, if_neg hne]
      exact h.queued p (List.mem_append_left _ hp)
    · intro x hx hlive o ho hpo
      by_cases hxP : x = P
      · subst hxP
        exact Or.inr (Or.inr ho)
      · rw [inGraph_congr hb4] at hx
        rw [hphi4, hun4, if_neg (Ne.symm hxP)] at hlive
        rw [hops4] at ho
        rw [hphi4] at hpo
        rw [hun4]
        by_cases hoP : P = o
        · exact Or.inl (by rw [if_pos hoP])
        · rw [if_neg hoP]
          rcases h.live x hx hlive o ho hpo with h1 | h1 | h1
          · exact Or.inl h1
          · rcases List.mem_append.mp h1 with h2 | h2
            · exact Or.inr (Or.inl h2)
            · exact absurd (List.mem_singleton.mp h2).symm hoP
          · cases h1
    · intro o ho hpo
      exact hcore.closed P (by rw [inGraph_congr hb4]; exact hPin) o ho hpo
  · -- the uses of the Phi are replaced
    rcases hcase with ⟨hr1, _⟩ | ⟨hr1, hrest⟩
    · rw [hr] at hr1
      cases hr1
    rw [hr] at hr1
    cases hr1
    have hfirstne : first ≠ P := by
      intro hc
      obtain ⟨bP, hbP⟩ := allPhis_inBlock hPall
      obtain ⟨b1, hlt, hin1⟩ := h.core.ranked bP P first hbP (by rw [hopsP]; simp)
        (by rw [hc]; exact hPphi)
      rw [hc] at hin1
      have := inBlock_unique (phiCore_nodup hT h.core) hbP hin1
      omega
    have hfirstall : phiAt g first = true → first ∈ allPhis g := fun hp =>
      h.core.closed P hPin first (by rw [hopsP]; exact List.mem_cons_self _ _) hp
    obtain ⟨g3, hg3⟩ : ∃ g3, g3 = replaceAllUsesWith g2 P first := ⟨_, rfl⟩
    rw [← hg3] at hg4
    have hb3 : g3.blocks = g.blocks := by rw [hg3]; exact hb2g
    have hphi3 : ∀ x, phiAt g3 x = phiAt g x := fun x => by
      rw [hg3]; exact (phiAt_replaceAllUsesWith g2 P first x).trans (hphi2g x)
    have hops3 : ∀ x, opsAt g3 x =
        if g.inGraph x then (opsAt g x).map fun o => if o = P then first else o
        else opsAt g x := fun x => by
      rw [hg3, opsAt_replaceAllUsesWith, inGraph_congr hb2g, hops2g]
    have hun3 : ∀ x, isUnused g3 x = isUnused g x := fun x => by
      rw [hg3]; exact (isUnused_replaceAllUsesWith g2 P first x).trans (hun2g x)
    have hwl3 : ∀ x, isInWorklist g3 x = if P = x then false else isInWorklist g x :=
      fun x => by
        rw [hg3]; exact (isInWorklist_replaceAllUsesWith g2 P first x).trans (hwl2g x)
    have hb4 : g4.blocks = g.blocks := by
      rw [hg4]; split_ifs
      · exact hb3
      · exact hb3
    have hphi4 : ∀ x, phiAt g4 x = phiAt g x := fun x => by
      by_cases hc : phiAt g3 first = true
      · rw [hg4, if_pos hc]
        exact (phiAt_setUnused g3 first x).trans (hphi3 x)
      · rw [hg4, if_neg hc]
        exact hphi3 x
    have hops4 : ∀ x, opsAt g4 x =
        if g.inGraph x then (opsAt g x).map fun o => if o = P then first else o
        else opsAt g x := fun x => by
      by_cases hc : phiAt g3 first = true
      · rw [hg4, if_pos hc]
        exact (opsAt_setUnused g3 first x).trans (hops3 x)
      · rw [hg4, if_neg hc]
        exact hops3 x
    have hwl4 : ∀ x, isInWorklist g4 x = if P = x then false else isInWorklist g x :=
      fun x => by
        by_cases hc : phiAt g3 first = true
        · rw [hg4, if_pos hc]
          exact (isInWorklist_setUnused g3 first x).trans (hwl3 x)
        · rw [hg4, if_neg hc]
          exact hwl3 x
    have hun4 : ∀ x, isUnused g4 x = true ∨ isUnused g4 x = isUnused g x := by
      intro x
      rw [hg4]
      split_ifs with hc
      · rw [setUnused, isUnused_set]
        split_ifs
        · exact Or.inl rfl
        · exact Or.inr (hun3 x)
      · exact Or.inr (hun3 x)
    have hun4first : ∀ x, x ≠ first ∨ phiAt g first = false →
        isUnused g4 x = isUnused g x := by
      intro x hx
      rw [hg4]
      split_ifs with hc
      · rw [setUnused, isUnused_set]
        rcases hx with hx | hx
        · rw [if_neg (fun hh => hx hh.1.symm)]
          exact hun3 x
        · rw [hphi3, hx] at hc
          cases hc
      · exact hun3 x
    have hopsP4 : first ∈ opsAt g4 P := by
      rw [hops4, if_pos hPin, hopsP, List.map_cons, if_neg hfirstne]
      exact List.mem_cons_self _ _
    have hcore : PhiCore T g4 := by
      refine ⟨fun x => (hphi4 x).trans (h.core.phi x), by rw [hb4]; exact h.core.instrs,
        by rw [allPhis_congr hb4]; exact h.core.sub, ?_, ?_⟩
      · intro x hx o ho hpo
        rw [allPhis_congr hb4]
        rw [inGraph_congr hb4] at hx
        rw [hops4, if_pos hx, List.mem_map] at ho
        rw [hphi4] at hpo
        obtain ⟨o1, ho1, heq⟩ := ho
        by_cases hc : o1 = P
        · rw [if_pos hc] at heq
          subst heq
          exact hfirstall hpo
        · rw [if_neg hc] at heq
          subst heq
          exact h.core.closed x hx o1 ho1 hpo
      · intro b p o hin hop hpo
        rw [inBlock_congr hb4] at hin
        rw [hphi4] at hpo
        rw [hops4, if_pos (inGraph_of_allPhis (inBlock_allPhis hin)), List.getElem?_map] at hop
        cases ho1 : (opsAt g p)[0]? with
        | none => simp [ho1] at hop
        | some o1 =>
          simp only [ho1, Option.map_some', Option.some.injEq] at hop
          by_cases hc : o1 = P
          · rw [if_pos hc] at hop
            subst hop
            subst hc
            obtain ⟨b1, hlt1, hin1⟩ := h.core.ranked b p o1 hin ho1 hPphi
            obtain ⟨b2, hlt2, hin2⟩ := h.core.ranked b1 o1 first hin1
              (by rw [hopsP]; simp) hpo
            exact ⟨b2, by omega, (inBlock_congr hb4 b2 first).mpr hin2⟩
          · rw [if_neg hc] at hop
            subst hop
            obtain ⟨b1, hlt1, hin1⟩ := h.core.ranked b p o1 hin ho1 hpo
            exact ⟨b1, hlt1, (inBlock_congr hb4 b1 o1).mpr hin1⟩
    refine ⟨hcore, hndW, ?_, hflag g4 hb4 hwl4, ?_, ?_⟩
    · intro p hp
      rw [allPhis_congr hb4]
      obtain ⟨h1, h2⟩ := h.queued p (List.mem_append_left _ hp)
      refine ⟨h1, ?_⟩
      rcases hun4 p with h3 | h3
      · exact h3
      · exact h3.trans h2
    · intro x hx hlive o ho hpo
      rw [inGraph_congr hb4] at hx
      have hliveg : phiAt g x = false ∨ isUnused g x = false := by
        rcases hlive with h1 | h1
        · exact Or.inl ((hphi4 x).symm.trans h1)
        · rcases hun4 x with h2 | h2
          · rw [h2] at h1
            cases h1
          · exact Or.inr (h2.symm.trans h1)
      rw [hops4, if_pos hx, List.mem_map] at ho
      rw [hphi4] at hpo
      obtain ⟨o1, ho1, heq⟩ := ho
      by_cases hc : o1 = P
      · rw [if_pos hc] at heq
        subst heq
        exact Or.inr (Or.inr hopsP4)
      · rw [if_neg hc] at heq
        subst heq
        rcases h.live x hx hliveg o1 ho1 hpo with h1 | h1 | h1
        · by_cases hof : o1 = first
          · subst hof
            exact Or.inr (Or.inr hopsP4)
          · exact Or.inl ((hun4first o1 (Or.inl hof)).trans h1)
        · rcases List.mem_append.mp h1 with h2 | h2
          · exact Or.inr (Or.inl h2)
          · exact absurd (List.mem_singleton.mp h2) hc
        · cases h1
    · intro o ho hpo
      exact hcore.closed P (by rw [inGraph_congr hb4]; exact hPin) o ho hpo
theorem markPhis_inv (T : MIRGraph) (hT : PhiGraph T) :
    ∀ (fuel : Nat) (s s1 : PhiState), MarkInv T s.graph s.worklist [] →
      markPhis fuel s = .ok s1 → MarkInv T s1.graph [] []
  | fuel, s, s1, h, hrun => by
    unfold markPhis at hrun
    cases hw : s.worklist with
    | nil =>
      simp only [hw, Run.ok.injEq] at hrun
      subst hrun
      rw [hw] at h
      exact h
    | cons w ws =>
      simp only [hw] at hrun
      cases fuel with
      | zero => simp at hrun
      | succ fuel =>
        simp only at hrun
        cases hm : markPhi s ((w :: ws).getLast (List.cons_ne_nil w ws)) (w :: ws).dropLast with
        | fail e => simp [hm] at hrun
        | ok s2 =>
          simp only [hm] at hrun
          have h2 : MarkInv T s.graph
              ((w :: ws).dropLast ++ [(w :: ws).getLast (List.cons_ne_nil w ws)]) [] := by
            rw [List.dropLast_append_getLast, ← hw]
            exact h
          exact markPhis_inv T hT fuel s2 s1 (markPhi_inv T hT s s2 _ _ h2 hm) hrun

theorem markPhis_no_assertion (T : MIRGraph) (hT : PhiGraph T) :
    ∀ (fuel : Nat) (s : PhiState), MarkInv T s.graph s.worklist [] →
      markPhis fuel s ≠ .fail .assertion
  | fuel, s, h => by
    unfold markPhis
    cases hw : s.worklist with
    | nil => simp
    | cons w ws =>
      simp only
      cases fuel with
      | zero => simp
      | succ fuel =>
        simp only
        have h2 : MarkInv T s.graph
            ((w :: ws).dropLast ++ [(w :: ws).getLast (List.cons_ne_nil w ws)]) [] := by
          rw [List.dropLast_append_getLast, ← hw]
          exact h
        cases hm : markPhi s ((w :: ws).getLast (List.cons_ne_nil w ws)) (w :: ws).dropLast with
        | fail e =>
          simp only [ne_eq, Run.fail.injEq]
          intro he
          subst he
          exact markPhi_assertion s _ _
            (h2.queued _ (List.mem_append_right _ (List.mem_singleton_self _))).2 hm
        | ok s2 =>
          simp only
          exact markPhis_no_assertion T hT fuel s2 (markPhi_inv T hT s s2 _ _ h2 hm)

theorem inBlock_discardPhi (g : MIRGraph) (b P b1 p : Nat)
    (h : InBlock (discardPhi g b P) b1 p) : InBlock g b1 p := by
  obtain ⟨blk1, hb1, hp⟩ := h
  rw [block_discardPhi] at hb1
  cases hg : g.block b1 with
  | none => simp [hg] at hb1
  | some blk =>
    simp only [hg, Option.map_some', Option.some.injEq] at hb1
    refine ⟨blk, hg, ?_⟩
    subst hb1
    split_ifs at hp
    · exact List.mem_of_mem_erase hp
    · exact hp

theorem inBlock_discardPhi_ne (g : MIRGraph) (b P b1 p : Nat) (hne : p ≠ P)
    (h : InBlock g b1 p) : InBlock (discardPhi g b P) b1 p := by
  obtain ⟨blk, hb, hp⟩ := h
  refine ⟨_, by rw [block_discardPhi, hb]; rfl, ?_⟩
  split_ifs
  · exact (List.mem_erase_of_ne hne).mpr hp
  · exact hp

theorem not_inBlock_discardPhi (g : MIRGraph) (hnd : (allPhis g).Nodup) (b P : Nat)
    (hin : InBlock g b P) (b1 : Nat) : ¬InBlock (discardPhi g b P) b1 P := by
  intro h
  have h0 := inBlock_discardPhi g b P b1 P h
  have hbb : b = b1 := inBlock_unique hnd hin h0
  obtain ⟨blk1, hb1, hp⟩ := h
  rw [block_discardPhi] at hb1
  obtain ⟨blk, hb, _⟩ := h0
  simp only [hb, Option.map_some', Option.some.injEq] at hb1
  subst hb1
  rw [if_pos hbb] at hp
  have hndb := phis_nodup_of_allPhis g hnd b1 blk hb
  exact (List.Nodup.mem_erase_iff hndb).mp hp |>.1 rfl

theorem instrs_discardPhi (g : MIRGraph) (b P : Nat) :
    (discardPhi g b P).blocks.map MBasicBlock.instructions =
      g.blocks.map MBasicBlock.instructions := by
  apply List.ext_getElem?
  intro i
  simp only [discardPhi, List.getElem?_map, List.getElem?_modify]
  cases g.blocks[i]? with
  | none => rfl
  | some blk =>
    simp only [Option.map_some']
    split_ifs <;> rfl

theorem inGraph_discardPhi_ne (g : MIRGraph) (b P x : Nat) (hne : x ≠ P)
    (h : g.inGraph x = true) : (discardPhi g b P).inGraph x = true := by
  rw [inGraph_iff] at h ⊢
  obtain ⟨b1, blk, hb, hx⟩ := h
  refine ⟨b1, _, by rw [block_discardPhi, hb]; rfl, ?_⟩
  split_ifs
  · rcases hx with hx | hx
    · exact Or.inl ((List.mem_erase_of_ne hne).mpr hx)
    · exact Or.inr hx
  · exact hx

theorem instr_of_discardPhi (g : MIRGraph) (b P x : Nat) :
    (∃ blk ∈ (discardPhi g b P).blocks, x ∈ blk.instructions) →
      ∃ blk ∈ g.blocks, x ∈ blk.instructions := by
  rintro ⟨blk, hblk, hx⟩
  have hmem : blk.instructions ∈ (discardPhi g b P).blocks.map MBasicBlock.instructions :=
    List.mem_map_of_mem _ hblk
  rw [instrs_discardPhi, List.mem_map] at hmem
  obtain ⟨blk0, hblk0, heq⟩ := hmem
  exact ⟨blk0, hblk0, by rw [heq]; exact hx⟩

theorem seedPhi_ok (s s1 : PhiState) (b P : Nat) (h : seedPhi s b P = .ok s1) :
    ∃ r g2, IsPhiRedundant (setUnused s.graph P) P = some (r, g2) ∧
      ((∃ first, r = some first ∧
          s1.graph = discardPhi (replaceAllUsesWith g2 P first) b P ∧
          s1.worklist = s.worklist) ∨
        (r = none ∧
          (s1.graph = setInWorklist g2 P ∧ s1.worklist = s.worklist ++ [P] ∨
            hasNonPhiUse g2 P = false ∧ s1.graph = g2 ∧ s1.worklist = s.worklist))) := by
  unfold seedPhi at h
  cases hred : IsPhiRedundant (setUnused s.graph P) P with
  | none => simp [hred] at h
  | some res =>
    obtain ⟨r, g2⟩ := res
    refine ⟨r, g2, rfl, ?_⟩
    cases r with
    | some first =>
      simp only [hred, Run.ok.injEq] at h
      subst h
      exact Or.inl ⟨first, rfl, rfl, rfl⟩
    | none =>
      simp only [hred] at h
      right
      refine ⟨rfl, ?_⟩
      cases hobs : IsPhiObservable g2 P with
      | none => simp [hobs] at h
      | some o =>
        cases o with
        | true =>
          simp only [hobs, Run.ok.injEq] at h
          subst h
          exact Or.inl ⟨rfl, rfl⟩
        | false =>
          simp only [hobs, Run.ok.injEq] at h
          subst h
          refine Or.inr ⟨?_, rfl, rfl⟩
          unfold IsPhiObservable at hobs
          cases hp : g2.definition P with
          | none => simp [hp] at hobs
          | some p =>
            simp only [hp, Option.some.injEq, Bool.or_eq_false_iff] at hobs
            exact hobs.1.2
theorem visited_cons {k P : Nat} {rest : List Nat} {b p : Nat} (hne : p ≠ P)
    (hv : Visited k rest b p) : Visited k (P :: rest) b p := by
  rcases hv with h1 | ⟨h1, h2⟩
  · exact Or.inl h1
  · exact Or.inr ⟨h1, by simp [hne, h2]⟩

theorem visited_tail {k P : Nat} {rest : List Nat} {b p : Nat}
    (hv : Visited k (P :: rest) b p) : Visited k rest b p := by
  rcases hv with h1 | ⟨h1, h2⟩
  · exact Or.inl h1
  · exact Or.inr ⟨h1, fun hm => h2 (List.mem_cons_of_mem _ hm)⟩

theorem seedInv_head {T g : MIRGraph} (hT : PhiGraph T) {W : List Nat} {k P : Nat}
    {rest : List Nat} (h : SeedInv T g W k (P :: rest)) :
    InBlock g k P ∧ P ∉ rest ∧ rest.Nodup ∧ P ∉ W ∧
      ∀ b, InBlock g b P → ¬Visited k (P :: rest) b P := by
  have hnd := phiCore_nodup hT h.core
  have hPin : InBlock g k P := h.pending P (List.mem_cons_self _ _)
  have hnotvis : ∀ b, InBlock g b P → ¬Visited k (P :: rest) b P := by
    intro b hb hv
    have := inBlock_unique hnd hb hPin
    rcases hv with h1 | ⟨_, h2⟩
    · omega
    · exact h2 (List.mem_cons_self _ _)
  refine ⟨hPin, (List.nodup_cons.mp h.pendingNodup).1, (List.nodup_cons.mp h.pendingNodup).2,
    ?_, hnotvis⟩
  intro hm
  obtain ⟨b, hb, hv⟩ := h.queued P hm
  exact hnotvis b hb hv

theorem seedInv_keep (T : MIRGraph) (hT : PhiGraph T) (g g1 : MIRGraph) (W W1 : List Nat)
    (k P : Nat) (rest : List Nat) (h : SeedInv T g W k (P :: rest))
    (hb : g1.blocks = g.blocks) (hphi : ∀ x, phiAt g1 x = phiAt g x)
    (hops : ∀ x, opsAt g1 x = opsAt g x)
    (hun : ∀ x, isUnused g1 x = if P = x then true else isUnused g x)
    (hwl : ∀ x, isInWorklist g1 x = if P = x then decide (P ∈ W1) else isInWorklist g x)
    (hW : W1 = W ∨ W1 = W ++ [P]) (hobs : hasNonPhiUse g P = true → P ∈ W1) :
    SeedInv T g1 W1 k rest := by
  obtain ⟨hPin, hPrest, hrestnd, hPW, hnotvis⟩ := seedInv_head hT h
  have hsubW : ∀ p ∈ W, p ∈ W1 := by
    intro p hp
    rcases hW with h1 | h1
    · rw [h1]; exact hp
    · rw [h1]; exact List.mem_append_left _ hp
  refine ⟨phiCore_congr h.core hb hphi hops, ?_, hrestnd, ?_, ?_, ?_, ?_, ?_⟩
  · intro p hp
    exact (inBlock_congr hb k p).mpr (h.pending p (List.mem_cons_of_mem _ hp))
  · intro b p hin hv
    rw [inBlock_congr hb] at hin
    rw [hun]
    by_cases hx : P = p
    · rw [if_pos hx]
    · rw [if_neg hx]
      exact h.unused b p hin (visited_cons (Ne.symm hx) hv)
  · intro b p hin hv huse
    rw [inBlock_congr hb] at hin
    rw [hasNonPhiUse_congr hb hphi hops] at huse
    by_cases hx : P = p
    · subst hx
      exact hobs huse
    · exact hsubW p (h.observed b p hin (visited_cons (Ne.symm hx) hv) huse)
  · intro p hp
    have hcase : p ∈ W ∨ p = P := by
      rcases hW with h1 | h1
      · rw [h1] at hp; exact Or.inl hp
      · rw [h1, List.mem_append, List.mem_singleton] at hp; exact hp
    rcases hcase with h1 | h1
    · obtain ⟨b, hin, hv⟩ := h.queued p h1
      exact ⟨b, (inBlock_congr hb b p).mpr hin, visited_tail hv⟩
    · subst h1
      exact ⟨k, (inBlock_congr hb k p).mpr hPin, Or.inr ⟨rfl, hPrest⟩⟩
  · rcases hW with h1 | h1
    · rw [h1]; exact h.nodup
    · rw [h1]
      exact List.Nodup.append h.nodup (List.nodup_singleton P) (by
        intro a ha hb
        rw [List.mem_singleton] at hb
        subst hb
        exact hPW ha)
  · intro p hp
    rw [allPhis_congr hb] at hp
    rw [hwl]
    by_cases hx : P = p
    · subst hx
      simp
    · rw [if_neg hx, h.flagged p hp]
      rcases hW with h1 | h1
      · rw [h1]
      · rw [h1, List.mem_append, List.mem_singleton]
        constructor
        · exact Or.inl
        · rintro (h2 | h2)
          · exact h2
          · exact absurd h2.symm hx
theorem seedInv_discard (T : MIRGraph) (hT : PhiGraph T) (g g3 : MIRGraph) (W : List Nat)
    (k P first : Nat) (rest rest1 : List Nat) (h : SeedInv T g W k (P :: rest))
    (hopsP : opsAt g P = first :: rest1)
    (hb : g3.blocks = g.blocks) (hphi : ∀ x, phiAt g3 x = phiAt g x)
    (hops : ∀ x, opsAt g3 x =
      if g.inGraph x then (opsAt g x).map fun o => if o = P then first else o
      else opsAt g x)
    (hun : ∀ x, isUnused g3 x = if P = x then true else isUnused g x)
    (hwl : ∀ x, isInWorklist g3 x = isInWorklist g x) :
    SeedInv T (discardPhi g3 k P) W k rest := by
  obtain ⟨hPin, hPrest, hrestnd, hPW, hnotvis⟩ := seedInv_head hT h
  have hnd := phiCore_nodup hT h.core
  have hnd3 : (allPhis g3).Nodup := by rw [allPhis_congr hb]; exact hnd
  have hPall := inBlock_allPhis hPin
  have hPphi : phiAt g P = true := phiCore_listed hT h.core P hPall
  have hPgraph : g.inGraph P = true := inGraph_of_allPhis hPall
  have hPin3 : InBlock g3 k P := (inBlock_congr hb k P).mpr hPin
  -- the Phi lists
  have hin1 : ∀ b p, InBlock (discardPhi g3 k P) b p → InBlock g b p ∧ p ≠ P := by
    intro b p hin
    refine ⟨(inBlock_congr hb b p).mp (inBlock_discardPhi g3 k P b p hin), ?_⟩
    intro hc
    subst hc
    exact not_inBlock_discardPhi g3 hnd3 k p hPin3 b hin
  have hin2 : ∀ b p, InBlock g b p → p ≠ P → InBlock (discardPhi g3 k P) b p := by
    intro b p hin hne
    exact inBlock_discardPhi_ne g3 k P b p hne ((inBlock_congr hb b p).mpr hin)
  have hall1 : ∀ p, p ∈ allPhis (discardPhi g3 k P) → p ∈ allPhis g ∧ p ≠ P := by
    intro p hp
    obtain ⟨b, hin⟩ := allPhis_inBlock hp
    exact ⟨inBlock_allPhis (hin1 b p hin).1, (hin1 b p hin).2⟩
  have hgraph1 : ∀ x, (discardPhi g3 k P).inGraph x = true → g.inGraph x = true ∧ x ≠ P := by
    intro x hx
    refine ⟨(inGraph_congr hb x) ▸ inGraph_discardPhi g3 k P x hx, ?_⟩
    intro hc
    subst hc
    rw [inGraph_iff] at hx
    obtain ⟨b1, blk, hb1, hx | hx⟩ := hx
    · exact not_inBlock_discardPhi g3 hnd3 k x hPin3 b1 ⟨blk, hb1, hx⟩
    · obtain ⟨blk0, hblk0, hx0⟩ := instr_of_discardPhi g3 k x x
        ⟨blk, List.getElem?_mem hb1, hx⟩
      rw [hb] at hblk0
      exact phiCore_not_instr hT h.core x hPphi blk0 hblk0 hx0
  -- the replacement
  have hfirst : phiAt g first = true → ∃ b1, b1 < k ∧ InBlock g b1 first := fun hp =>
    h.core.ranked k P first hPin (by rw [hopsP]; simp) hp
  have hfirstne : first ≠ P := by
    intro hc
    obtain ⟨b1, hlt, hin1⟩ := hfirst (by rw [hc]; exact hPphi)
    rw [hc] at hin1
    have := inBlock_unique hnd hPin hin1
    omega
  have hphi1 : ∀ x, phiAt (discardPhi g3 k P) x = phiAt g x := fun x => hphi x
  have hops1 : ∀ x, opsAt (discardPhi g3 k P) x =
      if g.inGraph x then (opsAt g x).map fun o => if o = P then first else o
      else opsAt g x := fun x => hops x
  have hun1 : ∀ x, isUnused (discardPhi g3 k P) x = if P = x then true else isUnused g x :=
    fun x => hun x
  have hwl1 : ∀ x, isInWorklist (discardPhi g3 k P) x = isInWorklist g x := fun x => hwl x
  have hmapped : ∀ x o, g.inGraph x = true → o ∈ opsAt (discardPhi g3 k P) x →
      (o = first ∧ P ∈ opsAt g x) ∨ (o ≠ P ∧ o ∈ opsAt g x) := by
    intro x o hx ho
    rw [hops1, if_pos hx, List.mem_map] at ho
    obtain ⟨o1, ho1, heq⟩ := ho
    by_cases hc : o1 = P
    · rw [if_pos hc] at heq
      subst hc
      exact Or.inl ⟨heq.symm, ho1⟩
    · rw [if_neg hc] at heq
      subst heq
      exact Or.inr ⟨hc, ho1⟩
  refine ⟨⟨fun x => (hphi1 x).trans (h.core.phi x), ?_, ?_, ?_, ?_⟩, ?_, hrestnd, ?_, ?_, ?_,
    h.nodup, ?_⟩
  · rw [instrs_discardPhi, hb]
    exact h.core.instrs
  · exact (allPhis_discardPhi_sublist g3 k P).trans (by
      rw [allPhis_congr hb]; exact h.core.sub)
  · intro x hx o ho hpo
    obtain ⟨hxg, _⟩ := hgraph1 x hx
    rw [hphi1] at hpo
    rcases hmapped x o hxg ho with ⟨h1, _⟩ | ⟨h1, h2⟩
    · subst h1
      obtain ⟨b1, _, hin⟩ := hfirst hpo
      exact inBlock_allPhis (hin2 b1 o hin hfirstne)
    · obtain ⟨b1, hin⟩ := allPhis_inBlock (h.core.closed x hxg o h2 hpo)
      exact inBlock_allPhis (hin2 b1 o hin h1)
  · intro b p o hin hop hpo
    obtain ⟨hing, hpne⟩ := hin1 b p hin
    rw [hphi1] at hpo
    rw [hops1, if_pos (inGraph_of_allPhis (inBlock_allPhis hing)), List.getElem?_map] at hop
    cases ho1 : (opsAt g p)[0]? with
    | none => simp [ho1] at hop
    | some o1 =>
      simp only [ho1, Option.map_some', Option.some.injEq] at hop
      by_cases hc : o1 = P
      · rw [if_pos hc] at hop
        subst hop
        subst hc
        obtain ⟨b1, hlt1, hin1⟩ := h.core.ranked b p o1 hing ho1 hPphi
        obtain ⟨b2, hlt2, hin2'⟩ := h.core.ranked b1 o1 first hin1
          (by rw [hopsP]; simp) hpo
        exact ⟨b2, by omega, hin2 b2 first hin2' hfirstne⟩
      · rw [if_neg hc] at hop
        subst hop
        obtain ⟨b1, hlt1, hin1⟩ := h.core.ranked b p o1 hing ho1 hpo
        exact ⟨b1, hlt1, hin2 b1 o1 hin1 hc⟩
  · intro p hp
    have hne : p ≠ P := fun hc => hPrest (hc ▸ hp)
    exact hin2 k p (h.pending p (List.mem_cons_of_mem _ hp)) hne
  · intro b p hin hv
    obtain ⟨hing, hpne⟩ := hin1 b p hin
    rw [hun1, if_neg (Ne.symm hpne)]
    exact h.unused b p hing (visited_cons hpne hv)
  · intro b p hin hv huse
    obtain ⟨hing, hpne⟩ := hin1 b p hin
    refine h.observed b p hing (visited_cons hpne hv) ?_
    rw [hasNonPhiUse_iff_ops] at huse ⊢
    obtain ⟨i, hi, hphii, hpi⟩ := huse
    obtain ⟨hig, _⟩ := hgraph1 i hi
    rw [hphi1] at hphii
    refine ⟨i, hig, hphii, ?_⟩
    rcases hmapped i p hig hpi with ⟨h1, _⟩ | ⟨_, h2⟩
    · exfalso
      subst h1
      have hpphi : phiAt g p = true := phiCore_listed hT h.core p (inBlock_allPhis hing)
      obtain ⟨b1, hlt, hinf⟩ := hfirst hpphi
      have hbb := inBlock_unique hnd hing hinf
      rcases hv with h3 | ⟨h3, _⟩ <;> omega
    · exact h2
  · intro p hp
    obtain ⟨b, hin, hv⟩ := h.queued p hp
    have hne : p ≠ P := fun hc => hPW (hc ▸ hp)
    exact ⟨b, hin2 b p hin hne, visited_tail hv⟩
  · intro p hp
    rw [hwl1]
    exact h.flagged p (hall1 p hp).1

theorem seedPhi_inv (T : MIRGraph) (hT : PhiGraph T) (s s1 : PhiState) (k P : Nat)
    (rest : List Nat) (h : SeedInv T s.graph s.worklist k (P :: rest))
    (hrun : seedPhi s k P = .ok s1) : SeedInv T s1.graph s1.worklist k rest := by
  obtain ⟨r, g2, hred, hcases⟩ := seedPhi_ok s s1 k P hrun
  obtain ⟨g, hg⟩ : ∃ g, g = s.graph := ⟨_, rfl⟩
  obtain ⟨W, hW⟩ : ∃ W, W = s.worklist := ⟨_, rfl⟩
  rw [← hg, ← hW] at h
  rw [← hg] at hred
  rw [← hW] at hcases
  obtain ⟨hPin, hPrest, hrestnd, hPW, hnotvis⟩ := seedInv_head hT h
  have hPall := inBlock_allPhis hPin
  have hPphi : phiAt g P = true := phiCore_listed hT h.core P hPall
  have hPdef : (g.definition P).isSome = true := by
    unfold phiAt at hPphi
    cases hd : g.definition P with
    | none => simp [hd] at hPphi
    | some y => rfl
  obtain ⟨hb2, hphi2, hops2, hun2, hwl2, first, rest1, hopsP, hcase⟩ :=
    IsPhiRedundant_view _ g2 P r hred
  have hb2g : g2.blocks = g.blocks := hb2
  have hphi2g : ∀ x, phiAt g2 x = phiAt g x := fun x =>
    (hphi2 x).trans (phiAt_setUnused g P x)
  have hops2g : ∀ x, opsAt g2 x = opsAt g x := fun x =>
    (hops2 x).trans (opsAt_setUnused g P x)
  have hwl2g : ∀ x, isInWorklist g2 x = isInWorklist g x := fun x =>
    (hwl2 x).trans (isInWorklist_setUnused g P x)
  have hun2g : ∀ x, isUnused g2 x = if P = x then true else isUnused g x := by
    intro x
    rw [hun2, setUnused, isUnused_set]
    by_cases hx : P = x
    · subst hx
      simp [hPdef]
    · simp [hx]
  rw [opsAt_setUnused] at hopsP
  have hPwl : isInWorklist g P = false := by
    cases hc : isInWorklist g P with
    | false => rfl
    | true => exact absurd ((h.flagged P hPall).mp hc) hPW
  rcases hcases with ⟨first1, hr, hgraph, hwl⟩ | ⟨hr, hsub⟩
  · rcases hcase with ⟨hr1, _⟩ | ⟨hr1, _⟩
    · rw [hr] at hr1
      cases hr1
    rw [hr] at hr1
    cases hr1
    rw [hgraph, hwl]
    refine seedInv_discard T hT g (replaceAllUsesWith g2 P first) W k P first rest rest1 h
      hopsP hb2g (fun x => (phiAt_replaceAllUsesWith g2 P first x).trans (hphi2g x)) ?_
      (fun x => (isUnused_replaceAllUsesWith g2 P first x).trans (hun2g x))
      (fun x => (isInWorklist_replaceAllUsesWith g2 P first x).trans (hwl2g x))
    intro x
    rw [opsAt_replaceAllUsesWith, inGraph_congr hb2g, hops2g]
  · rcases hsub with ⟨hgraph, hwl⟩ | ⟨hobs, hgraph, hwl⟩
    · rw [hgraph, hwl]
      refine seedInv_keep T hT g (setInWorklist g2 P) W (W ++ [P]) k P rest h hb2g
        (fun x => (phiAt_setInWorklist g2 P x).trans (hphi2g x))
        (fun x => (opsAt_setInWorklist g2 P x).trans (hops2g x))
        (fun x => (isUnused_setInWorklist g2 P x).trans (hun2g x)) ?_ (Or.inr rfl)
        (fun _ => List.mem_append_right _ (List.mem_singleton_self P))
      intro x
      have hP2 : (g2.definition P).isSome = true := by
        have := hphi2g P
        rw [hPphi] at this
        unfold phiAt at this
        cases hd : g2.definition P with
        | none => simp [hd] at this
        | some y => rfl
      rw [setInWorklist, isInWorklist_set]
      by_cases hx : P = x
      · subst hx
        simp [hP2]
      · simp [hx, hwl2g]
    · rw [hgraph, hwl]
      refine seedInv_keep T hT g g2 W W k P rest h hb2g hphi2g hops2g hun2g ?_ (Or.inl rfl) ?_
      · intro x
        rw [hwl2g]
        by_cases hx : P = x
        · subst hx
          simp [hPwl, hPW]
        · simp [hx]
      · intro huse
        rw [hasNonPhiUse_congr hb2g hphi2g hops2g] at hobs
        rw [hobs] at huse
        cases huse

theorem seedPhis_inv (T : MIRGraph) (hT : PhiGraph T) (k : Nat) :
    ∀ (rest : List Nat) (s s1 : PhiState), SeedInv T s.graph s.worklist k rest →
      seedPhis k rest s = .ok s1 → SeedInv T s1.graph s1.worklist k []
  | [], s, s1, h, hrun => by
    simp only [seedPhis, Run.ok.injEq] at hrun
    subst hrun
    exact h
  | P :: rest, s, s1, h, hrun => by
    unfold seedPhis at hrun
    cases hs : seedPhi s k P with
    | fail e => simp [hs] at hrun
    | ok s2 =>
      simp only [hs] at hrun
      exact seedPhis_inv T hT k rest s2 s1 (seedPhi_inv T hT s s2 k P rest h hs) hrun

theorem seedInv_next (T : MIRGraph) (hT : PhiGraph T) (g : MIRGraph) (W : List Nat) (k : Nat)
    (blk : MBasicBlock) (h : SeedInv T g W (k + 1) []) (hb : g.block k = some blk) :
    SeedInv T g W k blk.phis := by
  have hvis : ∀ b p, InBlock g b p → Visited k blk.phis b p → Visited (k + 1) [] b p := by
    intro b p hin hv
    rcases hv with h1 | ⟨h1, h2⟩
    · rcases Nat.lt_or_ge (k + 1) b with h3 | h3
      · exact Or.inl h3
      · exact Or.inr ⟨by omega, by simp⟩
    · exfalso
      subst h1
      obtain ⟨blk1, hb1, hp⟩ := hin
      rw [hb] at hb1
      cases hb1
      exact h2 hp
  refine ⟨h.core, fun p hp => ⟨blk, hb, hp⟩,
    phis_nodup_of_allPhis g (phiCore_nodup hT h.core) k blk hb, ?_, ?_, ?_, h.nodup, h.flagged⟩
  · intro b p hin hv
    exact h.unused b p hin (hvis b p hin hv)
  · intro b p hin hv
    exact h.observed b p hin (hvis b p hin hv)
  · intro p hp
    obtain ⟨b, hin, hv⟩ := h.queued p hp
    refine ⟨b, hin, ?_⟩
    rcases hv with h1 | ⟨h1, _⟩
    · rcases Nat.lt_or_ge k b with h3 | h3
      · exact Or.inl h3
      · omega
    · exact Or.inl (by omega)

theorem seedBlocks_inv (T : MIRGraph) (hT : PhiGraph T) :
    ∀ (k : Nat) (s s1 : PhiState), SeedInv T s.graph s.worklist k [] →
      seedBlocks (List.range k).reverse s = .ok s1 → SeedInv T s1.graph s1.worklist 0 []
  | 0, s, s1, h, hrun => by
    simp only [List.range_zero, List.reverse_nil, seedBlocks, Run.ok.injEq] at hrun
    subst hrun
    exact h
  | k + 1, s, s1, h, hrun => by
    rw [List.range_succ, List.reverse_append, List.reverse_singleton, List.singleton_append]
      at hrun
    unfold seedBlocks at hrun
    cases hb : s.graph.block k with
    | none => simp [hb] at hrun
    | some blk =>
      simp only [hb] at hrun
      cases hs : seedPhis k blk.phis s with
      | fail e => simp [hs] at hrun
      | ok s2 =>
        simp only [hs] at hrun
        exact seedBlocks_inv T hT k s2 s1
          (seedPhis_inv T hT k blk.phis s s2 (seedInv_next T hT _ _ k blk h hb) hs) hrun

theorem seedInv_init (T : MIRGraph) (hT : PhiGraph T) : SeedInv T T [] T.blocks.length [] := by
  have hnone : ∀ b p, InBlock T b p → ¬Visited T.blocks.length [] b p := by
    intro b p hin hv
    obtain ⟨blk, hb, _⟩ := hin
    have hlt : b < T.blocks.length := (List.getElem?_eq_some.mp hb).1
    rcases hv with h1 | ⟨h1, _⟩ <;> omega
  refine ⟨⟨fun _ => rfl, rfl, List.Sublist.refl _, ?_, hT.later⟩, ?_, List.nodup_nil, ?_, ?_,
    ?_, List.nodup_nil, ?_⟩
  · intro x _ o _ hpo
    exact hT.allListed o hpo
  · intro p hp
    cases hp
  · intro b p hin hv
    exact absurd hv (hnone b p hin)
  · intro b p hin hv
    exact absurd hv (hnone b p hin)
  · intro p hp
    cases hp
  · intro p hp
    rw [hT.clear p hp]
    simp
theorem markInv_of_seedInv (T : MIRGraph) (hT : PhiGraph T) (g : MIRGraph) (W : List Nat)
    (h : SeedInv T g W 0 []) : MarkInv T g W [] := by
  have hvis : ∀ b p, InBlock g b p → Visited 0 [] b p := by
    intro b p _
    rcases Nat.eq_zero_or_pos b with h1 | h1
    · exact Or.inr ⟨h1, by simp⟩
    · exact Or.inl h1
  refine ⟨h.core, h.nodup, ?_, h.flagged, ?_, ?_⟩
  · intro p hp
    obtain ⟨b, hin, hv⟩ := h.queued p hp
    exact ⟨inBlock_allPhis hin, h.unused b p hin hv⟩
  · intro x hx hlive o ho hpo
    have hxphi : phiAt g x = false := by
      rcases hlive with h1 | h1
      · exact h1
      · cases hc : phiAt g x with
        | false => rfl
        | true =>
          obtain ⟨b, hin⟩ := allPhis_inBlock (phiCore_inGraph hT h.core x hc hx)
          rw [h.unused b x hin (hvis b x hin)] at h1
          cases h1
    obtain ⟨b, hin⟩ := allPhis_inBlock (h.core.closed x hx o ho hpo)
    right; left
    exact h.observed b o hin (hvis b o hin)
      ((hasNonPhiUse_iff_ops g o).mpr ⟨x, hx, hxphi, ho⟩)
  · intro o ho
    cases ho

theorem seedPhis_no_assertion (b : Nat) :
    ∀ (rest : List Nat) (s : PhiState), seedPhis b rest s ≠ .fail .assertion
  | [], s => by simp [seedPhis]
  | P :: rest, s => by
    unfold seedPhis
    cases hs : seedPhi s b P with
    | ok s2 => exact seedPhis_no_assertion b rest s2
    | fail e =>
      simp only [ne_eq, Run.fail.injEq]
      intro he
      subst he
      unfold seedPhi at hs
      cases hred : IsPhiRedundant (setUnused s.graph P) P with
      | none => simp [hred] at hs
      | some res =>
        obtain ⟨r, g2⟩ := res
        cases r with
        | some first => simp [hred] at hs
        | none =>
          simp only [hred] at hs
          cases hobs : IsPhiObservable g2 P with
          | none => simp [hobs] at hs
          | some o => cases o <;> simp [hobs] at hs

theorem seedBlocks_no_assertion :
    ∀ (bs : List Nat) (s : PhiState), seedBlocks bs s ≠ .fail .assertion
  | [], s => by simp [seedBlocks]
  | b :: bs, s => by
    unfold seedBlocks
    cases hb : s.graph.block b with
    | none => simp
    | some blk =>
      simp only
      cases hs : seedPhis b blk.phis s with
      | ok s2 => exact seedBlocks_no_assertion bs s2
      | fail e =>
        simp only [ne_eq, Run.fail.injEq]
        intro he
        subst he
        exact seedPhis_no_assertion b blk.phis s hs

theorem sweepPhis_no_assertion (b : Nat) :
    ∀ (rest : List Nat) (g : MIRGraph), sweepPhis b rest g ≠ .fail .assertion
  | [], g => by simp [sweepPhis]
  | P :: rest, g => by
    unfold sweepPhis
    cases hs : sweepPhi g b P with
    | ok g2 => exact sweepPhis_no_assertion b rest g2
    | fail e =>
      simp only [ne_eq, Run.fail.injEq]
      intro he
      subst he
      unfold sweepPhi at hs
      cases hp : g.definition P with
      | none => simp [hp] at hs
      | some p => simp [hp] at hs

theorem sweepBlocks_no_assertion :
    ∀ (bs : List Nat) (g : MIRGraph), sweepBlocks bs g ≠ .fail .assertion
  | [], g => by simp [sweepBlocks]
  | b :: bs, g => by
    unfold sweepBlocks
    cases hb : g.block b with
    | none => simp
    | some blk =>
      simp only
      cases hs : sweepPhis b blk.phis g with
      | ok g2 => exact sweepBlocks_no_assertion bs g2
      | fail e =>
        simp only [ne_eq, Run.fail.injEq]
        intro he
        subst he
        exact sweepPhis_no_assertion b blk.phis g hs

theorem sweepBlocks_postorder (T : MIRGraph) (hT : PhiGraph T) (g g1 : MIRGraph)
    (h : MarkInv T g [] []) (hrun : sweepBlocks g.postorder g = .ok g1) :
    g1.defs = g.defs ∧
      ∀ i, g1.block i =
        (g.block i).map fun blk => { blk with phis := blk.phis.filter fun p => !isUnused g p } := by
  have hnd := phiCore_nodup hT h.core
  obtain ⟨g2, hrun2, hdefs, _, hblocks⟩ := sweepBlocks_spec g.postorder g
    (by
      unfold MIRGraph.postorder
      exact List.nodup_reverse.mpr (List.nodup_range _))
    (by
      intro b hb
      unfold MIRGraph.postorder at hb
      rw [List.mem_reverse, List.mem_range] at hb
      exact hb)
    (by
      intro b blk hb
      refine ⟨phis_nodup_of_allPhis g hnd b blk hb, ?_⟩
      intro p hp
      have := phiCore_listed hT h.core p ((mem_allPhis g p).mpr ⟨b, blk, hb, hp⟩)
      unfold phiAt at this
      cases hd : g.definition p with
      | none => simp [hd] at this
      | some y => rfl)
  rw [hrun] at hrun2
  cases hrun2
  refine ⟨hdefs, ?_⟩
  intro i
  rw [hblocks]
  split_ifs with hi
  · rfl
  · unfold MIRGraph.postorder at hi
    rw [List.mem_reverse, List.mem_range] at hi
    rw [MIRGraph.block, List.getElem?_eq_none (not_lt.mp hi)]
    rfl

theorem markLivePhis_inv (T : MIRGraph) (hT : PhiGraph T) (fuel : Nat) :
    markLivePhis fuel T ≠ .fail .assertion ∧
      ∀ s, markLivePhis fuel T = .ok s → MarkInv T s.graph [] [] := by
  unfold markLivePhis MIRGraph.postorder
  cases hs : seedBlocks (List.range T.blocks.length).reverse { graph := T, worklist := [] } with
  | fail e =>
    refine ⟨?_, fun s h => by simp at h⟩
    simp only [ne_eq, Run.fail.injEq]
    intro he
    subst he
    exact seedBlocks_no_assertion _ _ hs
  | ok s0 =>
    simp only
    have h0 : MarkInv T s0.graph s0.worklist [] :=
      markInv_of_seedInv T hT _ _
        (seedBlocks_inv T hT T.blocks.length { graph := T, worklist := [] } s0
          (seedInv_init T hT) hs)
    exact ⟨markPhis_no_assertion T hT fuel s0 h0,
      fun s h => markPhis_inv T hT fuel s0 s h0 h⟩

/-- C35: in a graph whose Phi lists and definition table agree, whose
instruction lists hold no Phi, and in which operand 0 of each Phi is no Phi or
a Phi of a block that the postorder iteration visits later than the block of
the Phi, the assertion `JS_ASSERT(phi->isUnused())` of `EliminatePhis` never
fails, and when `EliminatePhis` returns true no definition that is still in
the graph, instruction or Phi, has among its operands a Phi of the graph that
was discarded. -/
theorem EliminatePhis_no_dangling_use (T : MIRGraph) (fuel : Nat)
    (hcoh : phisCoherent T = true) (hins : noPhiInstruction T = true)
    (hlater : operandZeroLater T = true) :
    EliminatePhis fuel T ≠ .fail .assertion ∧
      ∀ g1, EliminatePhis fuel T = .ok g1 →
        ∀ x y, g1.inGraph x = true → g1.definition x = some y →
          ∀ o ∈ y.operands, o ∈ allPhis T → o ∈ allPhis g1 := by
  have hT := phiGraph_of_bool T hcoh hins hlater
  obtain ⟨hna, hinv⟩ := markLivePhis_inv T hT fuel
  unfold EliminatePhis
  cases hs : markLivePhis fuel T with
  | fail e =>
    refine ⟨?_, fun g1 h => by simp at h⟩
    simp only [ne_eq, Run.fail.injEq]
    intro he
    subst he
    exact hna hs
  | ok s =>
    simp only
    refine ⟨sweepBlocks_no_assertion _ _, ?_⟩
    intro g1 hrun x y hx hy o ho hoT
    have h := hinv s hs
    obtain ⟨hdefs, hblocks⟩ := sweepBlocks_postorder T hT s.graph g1 h hrun
    have hdef : g1.definition x = s.graph.definition x := by
      simp only [MIRGraph.definition, hdefs]
    rw [hdef] at hy
    have hops : o ∈ opsAt s.graph x := by simp only [opsAt, hy, ho]
    have hophi : phiAt s.graph o = true := by
      rw [h.core.phi]
      exact hT.listed o hoT
    -- the definition is in the graph before the sweep, and live
    have hlive : s.graph.inGraph x = true ∧
        (phiAt s.graph x = false ∨ isUnused s.graph x = false) := by
      rw [inGraph_iff] at hx
      obtain ⟨b, blk1, hb1, hmem⟩ := hx
      rw [hblocks] at hb1
      cases hb : s.graph.block b with
      | none => simp [hb] at hb1
      | some blk =>
        simp only [hb, Option.map_some', Option.some.injEq] at hb1
        subst hb1
        rcases hmem with hmem | hmem
        · simp only [List.mem_filter, Bool.not_eq_true'] at hmem
          exact ⟨(inGraph_iff _ x).mpr ⟨b, blk, hb, Or.inl hmem.1⟩, Or.inr hmem.2⟩
        · refine ⟨(inGraph_iff _ x).mpr ⟨b, blk, hb, Or.inr hmem⟩, Or.inl ?_⟩
          cases hc : phiAt s.graph x with
          | false => rfl
          | true =>
            exact absurd hmem
              (phiCore_not_instr hT h.core x hc blk (List.getElem?_mem hb))
    have hused : isUnused s.graph o = false := by
      rcases h.live x hlive.1 hlive.2 o hops hophi with h1 | h1 | h1
      · exact h1
      · cases h1
      · cases h1
    obtain ⟨b, blk, hb, hmem⟩ := (mem_allPhis _ o).mp (h.core.closed x hlive.1 o hops hophi)
    refine (mem_allPhis g1 o).mpr ⟨b, _, by rw [hblocks, hb]; rfl, ?_⟩
    simp only [List.mem_filter, Bool.not_eq_true']
    exact ⟨hmem, hused⟩

theorem EliminatePhis_no_dangling_use_witness :
    (EliminatePhis 7 phiChainGraph).map (fun g => (allPhis g, g.defs.map fun d => d.operands)) =
        .ok ([], [[], [0, 0], [1, 1], [0]]) ∧
      EliminatePhis 7 phiChainGraph ≠ .fail .assertion ∧
      ∀ g1, EliminatePhis 7 phiChainGraph = .ok g1 →
        ∀ x y, g1.inGraph x = true → g1.definition x = some y →
          ∀ o ∈ y.operands, o ∈ allPhis phiChainGraph → o ∈ allPhis g1 :=
  ⟨by decide,
    EliminatePhis_no_dangling_use phiChainGraph 7 (by decide) (by decide) (by decide)⟩

/-! ## EliminatePhis: the operands of the Phis -/

theorem usesAt_eq_opsAt (g : MIRGraph) (x k : Nat) : usesAt g x k = (opsAt g x)[k]? := by
  unfold usesAt opsAt
  cases g.definition x with
  | none => rfl
  | some y => rfl

theorem opsAt_sameShape {g g1 : MIRGraph} (h : SameShape g g1) (x : Nat) :
    opsAt g1 x = opsAt g x := by
  have := h.defs x
  unfold opsAt
  cases hg : g.definition x with
  | none =>
    cases hg1 : g1.definition x with
    | none => rfl
    | some y1 => simp [hg, hg1] at this
  | some y =>
    cases hg1 : g1.definition x with
    | none => simp [hg, hg1] at this
    | some y1 =>
      simp only [hg, hg1, Option.map_some', Option.some.injEq, MDefinition.shape,
        Prod.mk.injEq] at this
      exact this.2

theorem phiAt_sameShape {g g1 : MIRGraph} (h : SameShape g g1) (x : Nat) :
    phiAt g1 x = phiAt g x := by
  have := h.defs x
  unfold phiAt
  cases hg : g.definition x with
  | none =>
    cases hg1 : g1.definition x with
    | none => rfl
    | some y1 => simp [hg, hg1] at this
  | some y =>
    cases hg1 : g1.definition x with
    | none => simp [hg, hg1] at this
    | some y1 =>
      simp only [hg, hg1, Option.map_some', Option.some.injEq, MDefinition.shape,
        Prod.mk.injEq] at this
      simp only [MDefinition.isPhi, this.1]

theorem defined_sameShape {g g1 : MIRGraph} (h : SameShape g g1) (x : Nat) :
    (g1.definition x).isSome = (g.definition x).isSome := by
  have := congrArg Option.isSome (h.defs x)
  simpa using this

theorem defined_replaceAllUsesWith (g : MIRGraph) (d r x : Nat) :
    ((replaceAllUsesWith g d r).definition x).isSome = (g.definition x).isSome := by
  rw [definition_replaceAllUsesWith]
  cases g.definition x <;> rfl

theorem phiOps_sameShape {T g g1 : MIRGraph} (h : PhiOps T g) (hs : SameShape g g1) :
    PhiOps T g1 := by
  have hb : g1.blocks = g.blocks := hs.blocks
  refine ⟨fun x => (defined_sameShape hs x).trans (h.defined x), ?_, ?_⟩
  · intro p hp
    rw [allPhis_congr hb] at hp
    rw [opsAt_sameShape hs]
    exact h.nonempty p hp
  · intro p hp o ho
    rw [allPhis_congr hb] at hp
    rw [opsAt_sameShape hs] at ho
    rw [defined_sameShape hs]
    exact h.operands p hp o ho

theorem phiOps_replace {T g : MIRGraph} (h : PhiOps T g) (P first : Nat)
    (hP : P ∈ allPhis g) (hfirst : first ∈ opsAt g P) :
    PhiOps T (replaceAllUsesWith g P first) := by
  have hb : (replaceAllUsesWith g P first).blocks = g.blocks := rfl
  refine ⟨fun x => (defined_replaceAllUsesWith g P first x).trans (h.defined x), ?_, ?_⟩
  · intro p hp
    rw [allPhis_congr hb] at hp
    rw [opsAt_replaceAllUsesWith, if_pos (inGraph_of_allPhis hp)]
    intro hc
    exact h.nonempty p hp (List.map_eq_nil_iff.mp hc)
  · intro p hp o ho
    rw [allPhis_congr hb] at hp
    rw [opsAt_replaceAllUsesWith, if_pos (inGraph_of_allPhis hp), List.mem_map] at ho
    rw [defined_replaceAllUsesWith]
    obtain ⟨o1, ho1, heq⟩ := ho
    split_ifs at heq
    · subst heq
      exact h.operands P hP first hfirst
    · subst heq
      exact h.operands p hp o1 ho1

theorem phiOps_discard {T g : MIRGraph} (h : PhiOps T g) (b P : Nat) :
    PhiOps T (discardPhi g b P) := by
  have hsub : ∀ p, p ∈ allPhis (discardPhi g b P) → p ∈ allPhis g :=
    fun p hp => (allPhis_discardPhi_sublist g b P).subset hp
  exact ⟨fun x => h.defined x, fun p hp => h.nonempty p (hsub p hp),
    fun p hp o ho => h.operands p (hsub p hp) o ho⟩

theorem phiOps_init (T : MIRGraph) (hcoh : phisCoherent T = true)
    (hops : phisHaveOperands T = true) : PhiOps T T := by
  obtain ⟨h1, _, h3⟩ := phisCoherent_spec T hcoh
  refine ⟨fun _ => rfl, ?_, ?_⟩
  · intro p hp hc
    unfold phisHaveOperands at hops
    rw [List.all_eq_true] at hops
    have := hops p hp
    simp [hc] at this
  · intro p hp o ho
    obtain ⟨y, hy, hphi⟩ := h1 p hp
    simp only [opsAt, hy] at ho
    have hlt := (h3 p y hy hphi).2.2 o ho
    simp only [MIRGraph.definition, List.getElem?_eq_getElem hlt, Option.isSome_some]

theorem IsPhiRedundant_total (g : MIRGraph) (X : Nat) (hne : opsAt g X ≠ [])
    (hdef : ∀ o ∈ opsAt g X, (g.definition o).isSome = true) :
    ∃ r g2, IsPhiRedundant g X = some (r, g2) := by
  unfold IsPhiRedundant
  cases hy : g.definition X with
  | none => simp [opsAt, hy] at hne
  | some y =>
    simp only
    cases hops : y.operands with
    | nil => simp [opsAt, hy, hops] at hne
    | cons first rest =>
      simp only
      split_ifs
      · exact ⟨_, _, rfl⟩
      · have := hdef first (by simp [opsAt, hy, hops])
        cases hf : g.definition first with
        | none => simp [hf] at this
        | some f => exact ⟨_, _, rfl⟩
      · exact ⟨_, _, rfl⟩

theorem enqueueOperands_total :
    ∀ (todo : List Nat) (g : MIRGraph) (W : List Nat),
      (∀ o ∈ todo, (g.definition o).isSome = true) → ∃ r, enqueueOperands todo g W = .ok r
  | [], g, W, _ => ⟨_, rfl⟩
  | o :: rest, g, W, h => by
    unfold enqueueOperands
    have ho := h o (List.mem_cons_self _ _)
    cases hd : g.definition o with
    | none => simp [hd] at ho
    | some d =>
      simp only
      split_ifs
      · exact enqueueOperands_total rest g W (fun o1 h1 => h o1 (List.mem_cons_of_mem _ h1))
      · refine enqueueOperands_total rest _ _ (fun o1 h1 => ?_)
        rw [defined_sameShape (sameShape_setInWorklist g o)]
        exact h o1 (List.mem_cons_of_mem _ h1)
theorem defined_of_opsAt {g : MIRGraph} {x : Nat} (h : opsAt g x ≠ []) :
    ∃ y, g.definition x = some y := by
  unfold opsAt at h
  cases hy : g.definition x with
  | none => simp [hy] at h
  | some y => exact ⟨y, rfl⟩

theorem seedPhi_total (T : MIRGraph) (s : PhiState) (b P : Nat) (h : PhiOps T s.graph)
    (hP : P ∈ allPhis s.graph) :
    ∃ s1, seedPhi s b P = .ok s1 ∧ PhiOps T s1.graph ∧ s1.replaced = s.replaced := by
  have hs1 := sameShape_setUnused s.graph P
  have h1 : PhiOps T (setUnused s.graph P) := phiOps_sameShape h hs1
  have hP1 : P ∈ allPhis (setUnused s.graph P) := hP
  obtain ⟨r, g2, hred⟩ := IsPhiRedundant_total _ P (h1.nonempty P hP1) (h1.operands P hP1)
  obtain ⟨hs2, y, first, rest, hy, hops, hcase⟩ := IsPhiRedundant_cases _ g2 P r hred
  have h2 : PhiOps T g2 := phiOps_sameShape h1 hs2
  have hP2 : P ∈ allPhis g2 := by rw [allPhis_congr hs2.blocks]; exact hP1
  have hopsP : opsAt g2 P = first :: rest := by
    rw [opsAt_sameShape hs2]
    simp only [opsAt, hy, hops]
  unfold seedPhi
  simp only [hred]
  rcases hcase with ⟨hr, _⟩ | ⟨hr, _⟩
  · subst hr
    simp only
    obtain ⟨y2, hy2⟩ := defined_of_opsAt (h2.nonempty P hP2)
    simp only [IsPhiObservable, hy2]
    split
    · rename_i heq
      cases heq
    · exact ⟨_, rfl, phiOps_sameShape h2 (sameShape_setInWorklist g2 P), rfl⟩
    · exact ⟨_, rfl, h2, rfl⟩
  · subst hr
    simp only
    refine ⟨_, rfl, ?_, rfl⟩
    exact phiOps_discard (phiOps_replace h2 P first hP2
      (by rw [hopsP]; exact List.mem_cons_self _ _)) b P

theorem markPhi_total (T : MIRGraph) (s : PhiState) (P : Nat) (W : List Nat)
    (h : PhiOps T s.graph) (hP : P ∈ allPhis s.graph) (hun : isUnused s.graph P = true) :
    ∃ s1, markPhi s P W = .ok s1 ∧ PhiOps T s1.graph := by
  obtain ⟨p, hp⟩ := defined_of_opsAt (h.nonempty P hP)
  have hpu : p.unused = true := by simpa only [isUnused, hp] using hun
  have hs1 := sameShape_setNotInWorklist s.graph P
  have h1 : PhiOps T (setNotInWorklist s.graph P) := phiOps_sameShape h hs1
  have hP1 : P ∈ allPhis (setNotInWorklist s.graph P) := hP
  obtain ⟨r, g2, hred⟩ := IsPhiRedundant_total _ P (h1.nonempty P hP1) (h1.operands P hP1)
  obtain ⟨hs2, y, first, rest, hy, hops, hcase⟩ := IsPhiRedundant_cases _ g2 P r hred
  have h2 : PhiOps T g2 := phiOps_sameShape h1 hs2
  have hP2 : P ∈ allPhis g2 := by rw [allPhis_congr hs2.blocks]; exact hP1
  have hopsP : opsAt g2 P = first :: rest := by
    rw [opsAt_sameShape hs2]
    simp only [opsAt, hy, hops]
  have key : ∀ (g4 : MIRGraph) (rep : List Nat), PhiOps T g4 → P ∈ allPhis g4 →
      ∃ s1, (match g4.definition P with
        | none => Run.fail Failure.nullPointer
        | some p4 =>
          match enqueueOperands p4.operands g4 W with
          | .fail e => .fail e
          | .ok (g5, worklist5) =>
            .ok ({ graph := g5, worklist := worklist5, replaced := rep } : PhiState)) =
          .ok s1 ∧ PhiOps T s1.graph := by
    intro g4 rep h4 hP4
    obtain ⟨p4, hp4⟩ := defined_of_opsAt (h4.nonempty P hP4)
    simp only [hp4]
    have hdef : ∀ o ∈ p4.operands, (g4.definition o).isSome = true := by
      intro o ho
      exact h4.operands P hP4 o (by simp only [opsAt, hp4, ho])
    obtain ⟨⟨g5, W5⟩, henq⟩ := enqueueOperands_total p4.operands g4 W hdef
    simp only [henq]
    exact ⟨_, rfl, phiOps_sameShape h4 (enqueueOperands_cases _ _ _ _ _ henq).1⟩
  unfold markPhi
  simp only [hp, hpu, Bool.not_true, Bool.false_eq_true, if_false, hred]
  rcases hcase with ⟨hr, _⟩ | ⟨hr, _⟩
  · subst hr
    simp only
    exact key _ _ (phiOps_sameShape h2 (sameShape_setNotUnused g2 P)) hP2
  · subst hr
    simp only
    have h3 : PhiOps T (replaceAllUsesWith g2 P first) :=
      phiOps_replace h2 P first hP2 (by rw [hopsP]; exact List.mem_cons_self _ _)
    have hP3 : P ∈ allPhis (replaceAllUsesWith g2 P first) := hP2
    have hfirst : ((replaceAllUsesWith g2 P first).definition first).isSome = true := by
      rw [defined_replaceAllUsesWith]
      exact h2.operands P hP2 first (by rw [hopsP]; exact List.mem_cons_self _ _)
    cases hrd : (replaceAllUsesWith g2 P first).definition first with
    | none => simp [hrd] at hfirst
    | some rd =>
      simp only
      by_cases hc : rd.isPhi = true
      · rw [if_pos hc]
        exact key _ _ (phiOps_sameShape h3 (sameShape_setUnused _ first)) hP3
      · rw [if_neg hc]
        exact key _ _ h3 hP3
theorem unusedCount_eq_count (g : MIRGraph) :
    unusedCount g = (g.defs.map MDefinition.unused).count true := by
  unfold unusedCount
  rw [List.count, List.countP_map]
  congr 1
  funext y
  simp

theorem unusedCount_flag (g : MIRGraph) (d : Nat) (f : MDefinition → MDefinition)
    (hf : ∀ y, (f y).unused = y.unused) : unusedCount (modifyDefinition g d f) = unusedCount g := by
  rw [unusedCount_eq_count, unusedCount_eq_count]
  congr 1
  apply List.ext_getElem?
  intro i
  simp only [modifyDefinition, List.getElem?_map, List.getElem?_modify]
  cases g.defs[i]? with
  | none => rfl
  | some y =>
    simp only [Option.map_some']
    split_ifs
    · exact congrArg some (hf y)
    · rfl

theorem unusedCount_replaceAllUsesWith (g : MIRGraph) (d r : Nat) :
    unusedCount (replaceAllUsesWith g d r) = unusedCount g := by
  rw [unusedCount_eq_count, unusedCount_eq_count]
  congr 1
  apply List.ext_getElem?
  intro i
  simp only [replaceAllUsesWith, List.getElem?_map, List.getElem?_enum]
  cases g.defs[i]? with
  | none => rfl
  | some y =>
    simp only [Option.map_some']
    split_ifs <;> rfl

theorem unusedCount_setNotUnused (g : MIRGraph) (P : Nat) (hun : isUnused g P = true) :
    unusedCount (setNotUnused g P) + 1 = unusedCount g := by
  unfold isUnused at hun
  cases hy : g.definition P with
  | none => simp [hy] at hun
  | some y =>
    simp only [hy] at hun
    have := unusedCount_modify g P (fun x => { x with unused := false }) y hy
    simp only [hun, if_true, Bool.false_eq_true, if_false, Nat.add_zero] at this
    exact this

theorem unusedCount_setUnused_le (g : MIRGraph) (d : Nat) :
    unusedCount (setUnused g d) ≤ unusedCount g + 1 := by
  cases hy : g.definition d with
  | none =>
    have : setUnused g d = g := by
      unfold setUnused modifyDefinition
      have hlen : g.defs.length ≤ d := by
        by_contra hlt
        rw [MIRGraph.definition, List.getElem?_eq_getElem (not_le.mp hlt)] at hy
        cases hy
      have : List.modify (fun x : MDefinition => { x with unused := true }) d g.defs = g.defs := by
        apply List.ext_getElem?
        intro i
        rw [List.getElem?_modify]
        by_cases hi : d = i
        · subst hi
          rw [List.getElem?_eq_none hlen]
          rfl
        · simp [hi]
      rw [this]
    rw [this]
    omega
  | some y =>
    have := unusedCount_modify g d (fun x => { x with unused := true }) y hy
    simp only [if_true] at this
    unfold setUnused
    split_ifs at this <;> omega

theorem unusedCount_le (g : MIRGraph) : unusedCount g ≤ g.defs.length :=
  List.countP_le_length _

theorem defs_length_of_defined {g T : MIRGraph}
    (h : ∀ x, (g.definition x).isSome = (T.definition x).isSome) :
    g.defs.length = T.defs.length := by
  rcases Nat.lt_trichotomy g.defs.length T.defs.length with hlt | heq | hgt
  · have := h g.defs.length
    simp only [MIRGraph.definition, List.getElem?_eq_none (le_refl _),
      List.getElem?_eq_getElem hlt] at this
    cases this
  · exact heq
  · have := h T.defs.length
    simp only [MIRGraph.definition, List.getElem?_eq_none (le_refl _),
      List.getElem?_eq_getElem hgt] at this
    cases this

theorem enqueueOperands_view :
    ∀ (todo : List Nat) (g : MIRGraph) (W : List Nat) (g1 : MIRGraph) (W1 : List Nat),
      enqueueOperands todo g W = .ok (g1, W1) →
      g1.blocks = g.blocks ∧ (∀ x, opsAt g1 x = opsAt g x) ∧
        (∀ x, isUnused g1 x = isUnused g x) ∧ unusedCount g1 = unusedCount g ∧
        ∀ w ∈ W1, w ∈ W ∨ w ∈ todo
  | [], g, W, g1, W1, hrun => by
    simp only [enqueueOperands, Run.ok.injEq, Prod.mk.injEq] at hrun
    obtain ⟨h1, h2⟩ := hrun
    subst h1 h2
    exact ⟨rfl, fun _ => rfl, fun _ => rfl, rfl, fun w hw => Or.inl hw⟩
  | o :: rest, g, W, g1, W1, hrun => by
    unfold enqueueOperands at hrun
    cases hd : g.definition o with
    | none => simp [hd] at hrun
    | some d =>
      simp only [hd] at hrun
      split_ifs at hrun
      · obtain ⟨h1, h2, h3, h4, h5⟩ := enqueueOperands_view rest g W g1 W1 hrun
        refine ⟨h1, h2, h3, h4, fun w hw => ?_⟩
        rcases h5 w hw with h6 | h6
        · exact Or.inl h6
        · exact Or.inr (List.mem_cons_of_mem _ h6)
      · obtain ⟨h1, h2, h3, h4, h5⟩ := enqueueOperands_view rest _ _ g1 W1 hrun
        refine ⟨h1, fun x => (h2 x).trans (opsAt_setInWorklist g o x),
          fun x => (h3 x).trans (isUnused_setInWorklist g o x),
          h4.trans (unusedCount_flag g o _ (fun _ => rfl)), fun w hw => ?_⟩
        rcases h5 w hw with h6 | h6
        · rcases List.mem_append.mp h6 with h7 | h7
          · exact Or.inl h7
          · rw [List.mem_singleton] at h7
            subst h7
            exact Or.inr (List.mem_cons_self _ _)
        · exact Or.inr (List.mem_cons_of_mem _ h6)

theorem markPhi_replaced (s s1 : PhiState) (P : Nat) (W : List Nat)
    (hrun : markPhi s P W = .ok s1) (r : Option Nat) (g2 : MIRGraph)
    (hred : IsPhiRedundant (setNotInWorklist s.graph P) P = some (r, g2)) :
    s1.replaced = if r.isSome then P :: s.replaced else s.replaced := by
  unfold markPhi at hrun
  cases hp : s.graph.definition P with
  | none => simp [hp] at hrun
  | some p =>
    simp only [hp] at hrun
    by_cases hun : p.unused = true
    · simp only [hun, Bool.not_true, Bool.false_eq_true, if_false, hred] at hrun
      have key : ∀ g4 : MIRGraph,
          (match g4.definition P with
            | none => Run.fail Failure.nullPointer
            | some p4 =>
              match enqueueOperands p4.operands g4 W with
              | .fail e => .fail e
              | .ok (g5, worklist5) =>
                .ok ({ graph := g5, worklist := worklist5,
                       replaced := if r.isSome then P :: s.replaced else s.replaced } :
                     PhiState)) = .ok s1 →
          s1.replaced = if r.isSome then P :: s.replaced else s.replaced := by
        intro g4 h
        cases hp4 : g4.definition P with
        | none => simp [hp4] at h
        | some p4 =>
          simp only [hp4] at h
          cases henq : enqueueOperands p4.operands g4 W with
          | fail e => simp [henq] at h
          | ok res5 =>
            obtain ⟨g5, wl5⟩ := res5
            simp only [henq, Run.ok.injEq] at h
            subst h
            rfl
      cases r with
      | none =>
        simp only at hrun
        exact key _ hrun
      | some first =>
        simp only at hrun
        cases hrd : (replaceAllUsesWith g2 P first).definition first with
        | none => simp [hrd] at hrun
        | some rd =>
          simp only [hrd] at hrun
          exact key _ hrun
    · simp [hun] at hrun

theorem markPhi_flags (T : MIRGraph) (hT : PhiGraph T) (s s1 : PhiState) (P : Nat)
    (W : List Nat) (h : MarkInv T s.graph (W ++ [P]) []) (hrun : markPhi s P W = .ok s1) :
    s1.graph.blocks = s.graph.blocks ∧
    ((s1.replaced = s.replaced ∧ (∀ x, opsAt s1.graph x = opsAt s.graph x) ∧
        (∀ i k, resumeAt s1.graph i k = resumeAt s.graph i k) ∧
        (∀ x, x ≠ P → isUnused s1.graph x = isUnused s.graph x) ∧
        unusedCount s1.graph + 1 = unusedCount s.graph ∧
        ∀ w ∈ s1.worklist, w ∈ W ∨ w ∈ opsAt s.graph P) ∨
      ∃ first, first ∈ opsAt s.graph P ∧ first ≠ P ∧ s1.replaced = P :: s.replaced ∧
        (∀ x, opsAt s1.graph x =
          if s.graph.inGraph x then (opsAt s.graph x).map fun o => if o = P then first else o
          else opsAt s.graph x) ∧
        (∀ i k, resumeAt s1.graph i k =
          (resumeAt s.graph i k).map fun o => if o = P then first else o) ∧
        (∀ x, isUnused s.graph x = true → isUnused s1.graph x = true) ∧
        unusedCount s1.graph ≤ unusedCount s.graph + 1 ∧
        ∀ w ∈ s1.worklist, w ∈ W ∨ w = first) := by
  obtain ⟨r, g2, g4, hred, hg4, henq⟩ := markPhi_ok s s1 P W hrun
  have hrep := markPhi_replaced s s1 P W hrun r g2 hred
  obtain ⟨hb5, hops5, hun5, hcnt5, hwl5⟩ := enqueueOperands_view _ g4 W _ _ henq
  obtain ⟨g, hg⟩ : ∃ g, g = s.graph := ⟨_, rfl⟩
  obtain ⟨r1, g21, g41, hred1, hsh4, hsh5, _⟩ := markPhi_cases s s1 P W hrun
  rw [← hg] at h hred hred1 ⊢
  rw [hred] at hred1
  cases hred1
  have hsh2 := (IsPhiRedundant_cases _ g2 P r hred).1
  have hsh0 := sameShape_setNotInWorklist g P
  obtain ⟨hPall, hPun⟩ := h.queued P (List.mem_append_right _ (List.mem_singleton_self P))
  have hPphi : phiAt g P = true := phiCore_listed hT h.core P hPall
  have hPin : g.inGraph P = true := inGraph_of_allPhis hPall
  obtain ⟨hb2, hphi2, hops2, hun2, hwl2, first, rest, hopsP, hcase⟩ :=
    IsPhiRedundant_view _ g2 P r hred
  have hops2g : ∀ x, opsAt g2 x = opsAt g x := fun x =>
    (hops2 x).trans (opsAt_setNotInWorklist g P x)
  have hun2g : ∀ x, isUnused g2 x = isUnused g x := fun x =>
    (hun2 x).trans (isUnused_setNotInWorklist g P x)
  have hcnt2 : unusedCount g2 = unusedCount g := by
    have h1 : unusedCount (setNotInWorklist g P) = unusedCount g :=
      unusedCount_flag g P _ (fun _ => rfl)
    rcases hcase with ⟨_, hg2⟩ | ⟨hr1, _⟩
    · rw [hg2]; exact h1
    · -- only `hasBytecodeUses` may have been set
      unfold IsPhiRedundant at hred
      cases hy : (setNotInWorklist g P).definition P with
      | none => simp [hy] at hred
      | some y =>
        simp only [hy] at hred
        cases hyo : y.operands with
        | nil => simp [hyo] at hred
        | cons f1 r1 =>
          simp only [hyo] at hred
          split_ifs at hred
          · simp only [Option.some.injEq, Prod.mk.injEq] at hred
            rw [← hred.2]; exact h1
          · cases hf : (setNotInWorklist g P).definition f1 with
            | none => simp [hf] at hred
            | some f =>
              simp only [hf, Option.some.injEq, Prod.mk.injEq] at hred
              rw [← hred.2]
              split_ifs
              · refine Eq.trans ?_ h1
                unfold setHasBytecodeUses
                apply unusedCount_flag
                intro _
                rfl
              · exact h1
          · simp only [Option.some.injEq, Prod.mk.injEq] at hred
            rw [← hred.2]; exact h1
  rw [opsAt_setNotInWorklist] at hopsP
  rcases hg4 with ⟨hr, hg4⟩ | ⟨first1, hr, hg4⟩
  · subst hr
    have hsh24 : SameShape g2 g41 := by
      rcases hsh4 with ⟨_, hc, _⟩ | ⟨_, hc⟩
      · cases hc
      · exact hc
    have hsh := sameShape_trans (sameShape_trans (sameShape_trans hsh0 hsh2) hsh24) hsh5
    refine ⟨hsh.blocks, Or.inl ?_⟩
    have hP2 : isUnused g2 P = true := (hun2g P).trans hPun
    refine ⟨by simpa using hrep, ?_, fun i k => resumeAt_sameShape hsh i k, ?_, ?_, ?_⟩
    · intro x
      rw [hops5, hg4, opsAt_setNotUnused, hops2g]
    · intro x hx
      rw [hun5, hg4, setNotUnused, isUnused_of_ne g2 P x _ (Ne.symm hx), hun2g]
    · rw [hcnt5, hg4, unusedCount_setNotUnused g2 P hP2, hcnt2]
    · intro w hw
      rcases hwl5 w hw with h1 | h1
      · exact Or.inl h1
      · rw [hg4, opsAt_setNotUnused, hops2g] at h1
        exact Or.inr h1
  · rcases hcase with ⟨hr1, _⟩ | ⟨hr1, hrest⟩
    · rw [hr] at hr1
      cases hr1
    rw [hr] at hr1
    cases hr1
    subst hr
    have hsh34 : SameShape (replaceAllUsesWith g2 P first) g41 := by
      rcases hsh4 with ⟨f, hc, hs⟩ | ⟨hc, _⟩
      · cases hc
        exact hs
      · cases hc
    have hsh02 := sameShape_trans hsh0 hsh2
    have hsh35 := sameShape_trans hsh34 hsh5
    have hblocks : s1.graph.blocks = g.blocks := by
      rw [hsh35.blocks]
      exact hsh02.blocks
    refine ⟨hblocks, Or.inr ?_⟩
    have hfirstne : first ≠ P := by
      intro hc
      obtain ⟨bP, hbP⟩ := allPhis_inBlock hPall
      obtain ⟨b1, hlt, hin1⟩ := h.core.ranked bP P first hbP (by rw [hopsP]; simp)
        (by rw [hc]; exact hPphi)
      rw [hc] at hin1
      have := inBlock_unique (phiCore_nodup hT h.core) hbP hin1
      omega
    obtain ⟨g3, hg3⟩ : ∃ g3, g3 = replaceAllUsesWith g2 P first := ⟨_, rfl⟩
    rw [← hg3] at hg4
    have hops3 : ∀ x, opsAt g3 x =
        if g.inGraph x then (opsAt g x).map fun o => if o = P then first else o
        else opsAt g x := fun x => by
      rw [hg3, opsAt_replaceAllUsesWith, inGraph_congr hb2, hops2g]
      rfl
    have hun3 : ∀ x, isUnused g3 x = isUnused g x := fun x => by
      rw [hg3]; exact (isUnused_replaceAllUsesWith g2 P first x).trans (hun2g x)
    have hcnt3 : unusedCount g3 = unusedCount g := by
      rw [hg3, unusedCount_replaceAllUsesWith, hcnt2]
    have hops4 : ∀ x, opsAt g4 x = opsAt g3 x := fun x => by
      by_cases hc : phiAt g3 first = true
      · rw [hg4, if_pos hc]
        exact opsAt_setUnused g3 first x
      · rw [hg4, if_neg hc]
    have hun4 : ∀ x, isUnused g x = true → isUnused g4 x = true := by
      intro x hx
      by_cases hc : phiAt g3 first = true
      · rw [hg4, if_pos hc, setUnused, isUnused_set]
        split_ifs
        · rfl
        · exact (hun3 x).trans hx
      · rw [hg4, if_neg hc]
        exact (hun3 x).trans hx
    have hcnt4 : unusedCount g4 ≤ unusedCount g + 1 := by
      by_cases hc : phiAt g3 first = true
      · rw [hg4, if_pos hc, ← hcnt3]
        exact unusedCount_setUnused_le g3 first
      · rw [hg4, if_neg hc, hcnt3]
        omega
    refine ⟨first, by rw [hopsP]; exact List.mem_cons_self _ _, hfirstne,
      by simpa using hrep, ?_, ?_, ?_, ?_, ?_⟩
    · intro x
      rw [hops5, hops4, hops3]
    · intro i k
      rw [resumeAt_sameShape hsh35, resumeAt_replaceAllUsesWith, resumeAt_sameShape hsh02]
    · intro x hx
      rw [hun5]
      exact hun4 x hx
    · rw [hcnt5]
      exact hcnt4
    · intro w hw
      rcases hwl5 w hw with h1 | h1
      · exact Or.inl h1
      · right
        rw [hops4, hops3, if_pos hPin, hopsP, List.mem_map] at h1
        obtain ⟨o, ho, heq⟩ := h1
        rcases List.mem_cons.mp ho with h2 | h2
        · subst h2
          rw [if_neg hfirstne] at heq
          exact heq.symm
        · rcases hrest o h2 with h3 | h3
          · subst h3
            rw [if_neg hfirstne] at heq
            exact heq.symm
          · rw [if_pos h3] at heq
            exact heq.symm

theorem markPhi_dead (T : MIRGraph) (hT : PhiGraph T) (s s1 : PhiState) (P : Nat)
    (W : List Nat) (h : MarkInv T s.graph (W ++ [P]) [])
    (hd : Dead s.graph (W ++ [P]) s.replaced) (hrun : markPhi s P W = .ok s1) :
    Dead s1.graph s1.worklist s1.replaced := by
  obtain ⟨hPall, hPun⟩ := h.queued P (List.mem_append_right _ (List.mem_singleton_self P))
  have hPin : s.graph.inGraph P = true := inGraph_of_allPhis hPall
  have hPW : P ∉ W := fun hm => by
    have := h.nodup
    rw [List.nodup_append] at this
    exact this.2.2 hm (List.mem_singleton_self P)
  have hPrep : P ∉ s.replaced := fun hm =>
    hd.notQueued P hm (List.mem_append_right _ (List.mem_singleton_self P))
  obtain ⟨hb, hcase⟩ := markPhi_flags T hT s s1 P W h hrun
  have hall : allPhis s1.graph = allPhis s.graph := allPhis_congr hb
  have hin : ∀ x, s1.graph.inGraph x = s.graph.inGraph x := inGraph_congr hb
  rcases hcase with ⟨hrep, hops, _, hun, _, hwl⟩ | ⟨first, hfirst, hne, hrep, hops, _, hun, _, hwl⟩
  · rw [hrep]
    refine ⟨hd.nodup, fun p hp => by rw [hall]; exact hd.listed p hp, ?_, ?_, ?_⟩
    · intro p hp
      rw [hun p (fun hc => hPrep (hc ▸ hp))]
      exact hd.unused p hp
    · intro p hp hm
      rcases hwl p hm with h1 | h1
      · exact hd.notQueued p hp (List.mem_append_left _ h1)
      · exact hd.noUse p hp P hPin h1
    · intro p hp x hx
      rw [hops, ]
      exact hd.noUse p hp x (by rw [← hin]; exact hx)
  · rw [hrep]
    have hfirstrep : first ∉ s.replaced := fun hm => hd.noUse first hm P hPin hfirst
    refine ⟨List.nodup_cons.mpr ⟨hPrep, hd.nodup⟩, ?_, ?_, ?_, ?_⟩
    · intro p hp
      rw [hall]
      rcases List.mem_cons.mp hp with h1 | h1
      · rw [h1]; exact hPall
      · exact hd.listed p h1
    · intro p hp
      apply hun
      rcases List.mem_cons.mp hp with h1 | h1
      · rw [h1]; exact hPun
      · exact hd.unused p h1
    · intro p hp hm
      rcases hwl p hm with h1 | h1
      · rcases List.mem_cons.mp hp with h2 | h2
        · rw [h2] at h1; exact hPW h1
        · exact hd.notQueued p h2 (List.mem_append_left _ h1)
      · rcases List.mem_cons.mp hp with h2 | h2
        · exact hne (h1.symm.trans h2)
        · exact hfirstrep (h1 ▸ h2)
    · intro p hp x hx hm
      have hxin : s.graph.inGraph x = true := by rw [← hin]; exact hx
      rw [hops, if_pos hxin, List.mem_map] at hm
      obtain ⟨o, ho, heq⟩ := hm
      by_cases hoP : o = P
      · rw [if_pos hoP] at heq
        rcases List.mem_cons.mp hp with h2 | h2
        · exact hne (heq.trans h2)
        · exact hfirstrep (heq ▸ h2)
      · rw [if_neg hoP] at heq
        rcases List.mem_cons.mp hp with h2 | h2
        · exact hoP (heq.trans h2)
        · exact hd.noUse p h2 x hxin (heq ▸ ho)

theorem replaced_length_le (T : MIRGraph) {g : MIRGraph} {W replaced : List Nat}
    (hops : PhiOps T g) (hd : Dead g W replaced) : replaced.length ≤ T.defs.length := by
  have hsub : replaced ⊆ List.range T.defs.length := by
    intro p hp
    rw [List.mem_range]
    obtain ⟨y, hy⟩ := defined_of_opsAt (hops.nonempty p (hd.listed p hp))
    have := hops.defined p
    rw [hy] at this
    by_contra hlt
    rw [MIRGraph.definition, List.getElem?_eq_none (not_lt.mp hlt)] at this
    cases this
  have := (List.subperm_of_subset hd.nodup hsub).length_le
  rwa [List.length_range] at this

theorem markPhi_measure (T : MIRGraph) (hT : PhiGraph T) (s s1 : PhiState) (P : Nat)
    (W : List Nat) (h : MarkInv T s.graph (W ++ [P]) []) (hops1 : PhiOps T s1.graph)
    (hd : Dead s.graph (W ++ [P]) s.replaced) (hrun : markPhi s P W = .ok s1) :
    markMeasure T.defs.length s1 < markMeasure T.defs.length s := by
  have hd1 := markPhi_dead T hT s s1 P W h hd hrun
  have hlen := replaced_length_le T hops1 hd1
  obtain ⟨_, hcase⟩ := markPhi_flags T hT s s1 P W h hrun
  unfold markMeasure
  rcases hcase with ⟨hrep, _, _, _, hcnt, _⟩ | ⟨first, _, _, hrep, _, _, _, hcnt, _⟩
  · rw [hrep]
    omega
  · rw [hrep] at hlen ⊢
    rw [List.length_cons] at hlen ⊢
    obtain ⟨a, ha⟩ : ∃ a, T.defs.length = s.replaced.length + 1 + a := ⟨_, (Nat.add_sub_cancel' hlen).symm⟩
    have e1 : T.defs.length - (s.replaced.length + 1) = a := by omega
    have e2 : T.defs.length - s.replaced.length = a + 1 := by omega
    rw [e1, e2, Nat.succ_mul]
    omega

theorem markPhis_total (T : MIRGraph) (hT : PhiGraph T) (I : PhiState → Prop)
    (hstep : ∀ s s1 P W, s.worklist = W ++ [P] → MarkInv T s.graph s.worklist [] →
      PhiOps T s.graph → Dead s.graph s.worklist s.replaced → I s →
      markPhi s P W = .ok s1 → I s1) :
    ∀ (fuel : Nat) (s : PhiState), MarkInv T s.graph s.worklist [] → PhiOps T s.graph →
      Dead s.graph s.worklist s.replaced → I s → markMeasure T.defs.length s ≤ fuel →
      ∃ s1, markPhis fuel s = .ok s1 ∧ MarkInv T s1.graph [] [] ∧ PhiOps T s1.graph ∧
        Dead s1.graph [] s1.replaced ∧ I s1 := by
  intro fuel
  induction fuel with
  | zero =>
    intro s h hops hd hI hm
    unfold markPhis
    cases hw : s.worklist with
    | nil =>
      rw [hw] at h hd
      exact ⟨s, rfl, h, hops, hd, hI⟩
    | cons w ws =>
      exfalso
      have hsplit : s.worklist = (w :: ws).dropLast ++ [(w :: ws).getLast (List.cons_ne_nil w ws)] := by
        rw [hw, List.dropLast_append_getLast]
      rw [hsplit] at h hd
      obtain ⟨hPall, hPun⟩ := h.queued _ (List.mem_append_right _ (List.mem_singleton_self _))
      obtain ⟨s1, hrun, hops1⟩ := markPhi_total T s _ (w :: ws).dropLast hops hPall hPun
      have := markPhi_measure T hT s s1 _ _ h hops1 hd hrun
      omega
  | succ fuel ih =>
    intro s h hops hd hI hm
    unfold markPhis
    cases hw : s.worklist with
    | nil =>
      rw [hw] at h hd
      exact ⟨s, rfl, h, hops, hd, hI⟩
    | cons w ws =>
      have hsplit : s.worklist = (w :: ws).dropLast ++ [(w :: ws).getLast (List.cons_ne_nil w ws)] := by
        rw [hw, List.dropLast_append_getLast]
      have h0 := h
      have hd0 := hd
      rw [hsplit] at h hd
      obtain ⟨hPall, hPun⟩ := h.queued _ (List.mem_append_right _ (List.mem_singleton_self _))
      obtain ⟨s1, hrun, hops1⟩ := markPhi_total T s _ (w :: ws).dropLast hops hPall hPun
      have hlt := markPhi_measure T hT s s1 _ _ h hops1 hd hrun
      have h1 := markPhi_inv T hT s s1 _ _ h hrun
      have hd1 := markPhi_dead T hT s s1 _ _ h hd hrun
      have hI1 := hstep s s1 _ _ hsplit h0 hops hd0 hI hrun
      simp only [hrun]
      exact ih s1 h1 hops1 hd1 hI1 (by omega)

theorem pendingPhi_sameShape {T g g1 : MIRGraph} {P : Nat} (h : PendingPhi T g P)
    (hs : SameShape g g1) : PendingPhi T g1 P :=
  ⟨(opsAt_sameShape hs P).trans h.ops,
    fun x k hx => (usesAt_sameShape hs x k).trans (h.uses x k hx),
    fun i k hi => (resumeAt_sameShape hs i k).trans (h.resume i k hi)⟩

theorem redirected_step {T g g1 : MIRGraph} {replaced replaced1 : List Nat} {P d : Nat}
    (h : Redirected T g replaced P d)
    (hall : ∀ p, p ∈ allPhis g1 → p ∈ allPhis g)
    (hin : ∀ x, g1.inGraph x = true → g.inGraph x = true)
    (hrep : ∀ p, p ∈ replaced → p ∈ replaced1)
    (huses : ∀ x k, g1.inGraph x = true → usesAt g x k = some d →
      usesAt g1 x k = some d ∨ Gone T g1 replaced1 d)
    (hres : ∀ i k, resumeAt g i k = some d →
      resumeAt g1 i k = some d ∨ Gone T g1 replaced1 d) :
    Redirected T g1 replaced1 P d := by
  have hgone : Gone T g replaced d → Gone T g1 replaced1 d := by
    rintro ⟨h1, h2⟩
    refine ⟨h1, ?_⟩
    rcases h2 with h2 | h2
    · exact Or.inl fun hm => h2 (hall d hm)
    · exact Or.inr (hrep d h2)
  refine ⟨fun hm => h.removed (hall P hm), ?_, ?_⟩
  · intro x k hx hxin
    rcases h.uses x k hx (hin x hxin) with h1 | h1
    · exact huses x k hxin h1
    · exact Or.inr (hgone h1)
  · intro i k hi
    rcases h.resume i k hi with h1 | h1
    · exact hres i k h1
    · exact Or.inr (hgone h1)

theorem redirected_sameShape {T g g1 : MIRGraph} {replaced : List Nat} {P d : Nat}
    (h : Redirected T g replaced P d) (hs : SameShape g g1) : Redirected T g1 replaced P d := by
  refine redirected_step h ?_ ?_ (fun _ hp => hp) ?_ ?_
  · intro p hp
    rw [← allPhis_congr hs.blocks]
    exact hp
  · intro x hx
    rw [← inGraph_congr hs.blocks]
    exact hx
  · intro x k _ hx
    exact Or.inl ((usesAt_sameShape hs x k).trans hx)
  · intro i k hi
    exact Or.inl ((resumeAt_sameShape hs i k).trans hi)

theorem usesAt_map_ne {u : Option Nat} {X first a : Nat} (hu : u = some a) (hne : a ≠ X) :
    u.map (fun o => if o = X then first else o) = some a := by
  rw [hu, Option.map_some', if_neg hne]

theorem seedPhi_track (T : MIRGraph) (hT : PhiGraph T) (P d : Nat) (rest0 : List Nat)
    (hopsT : opsAt T P = d :: rest0) (hrest : ∀ o ∈ rest0, o = d ∨ o = P)
    (s s1 : PhiState) (k X : Nat) (rest : List Nat)
    (h : SeedInv T s.graph s.worklist k (X :: rest))
    (hJ : (∃ b, InBlock s.graph b P ∧ ¬Visited k (X :: rest) b P ∧ PendingPhi T s.graph P) ∨
      Redirected T s.graph [] P d)
    (hrun : seedPhi s k X = .ok s1) :
    (∃ b, InBlock s1.graph b P ∧ ¬Visited k rest b P ∧ PendingPhi T s1.graph P) ∨
      Redirected T s1.graph [] P d := by
  obtain ⟨hXin, hXrest, _, _, _⟩ := seedInv_head hT h
  obtain ⟨r, g2, hred, hcase⟩ := seedPhi_cases s s1 k X hrun
  obtain ⟨hsh2, y, first, rest1, hy, hyops, hcase2⟩ := IsPhiRedundant_cases _ g2 X r hred
  have hsh : SameShape s.graph g2 := sameShape_trans (sameShape_setUnused s.graph X) hsh2
  have hopsX : opsAt s.graph X = first :: rest1 := by
    rw [← opsAt_setUnused s.graph X X]
    unfold opsAt
    rw [hy]
    exact hyops
  have hnd := phiCore_nodup hT h.core
  rcases hcase with ⟨first1, hr, hs1⟩ | ⟨hr, hsh3, _⟩
  · -- the Phi `X` is replaced by operand 0 and discarded
    have hf : first1 = first := by
      rcases hcase2 with ⟨hc, _⟩ | ⟨hc, _⟩
      · rw [hr] at hc; cases hc
      · rw [hr] at hc; cases hc; rfl
    subst hf
    have hrestX : ∀ o ∈ rest1, o = first1 ∨ o = X := by
      rcases hcase2 with ⟨hc, _⟩ | ⟨_, hc⟩
      · rw [hr] at hc; cases hc
      · exact hc
    obtain ⟨g3, hg3⟩ : ∃ g3, g3 = replaceAllUsesWith g2 X first1 := ⟨_, rfl⟩
    have hb3 : g3.blocks = s.graph.blocks := by
      rw [hg3]
      exact hsh.blocks
    have hg1 : s1.graph = discardPhi g3 k X := by
      rw [hs1, hg3]
    have hall1 : ∀ p, p ∈ allPhis s1.graph → p ∈ allPhis s.graph := by
      intro p hp
      rw [hg1] at hp
      have := (allPhis_discardPhi_sublist g3 k X).subset hp
      rwa [allPhis_congr hb3] at this
    have hin1 : ∀ x, s1.graph.inGraph x = true → s.graph.inGraph x = true := by
      intro x hx
      rw [hg1] at hx
      have := inGraph_discardPhi g3 k X x hx
      rwa [inGraph_congr hb3] at this
    have hXgone : X ∉ allPhis s1.graph := by
      intro hm
      obtain ⟨b1, hb1⟩ := allPhis_inBlock hm
      rw [hg1] at hb1
      exact not_inBlock_discardPhi g3 (by rw [allPhis_congr hb3]; exact hnd) k X
        ((inBlock_congr hb3 k X).mpr hXin) b1 hb1
    have huses0 : ∀ x j, usesAt s1.graph x j =
        if s.graph.inGraph x then (usesAt s.graph x j).map fun o => if o = X then first1 else o
        else usesAt s.graph x j := by
      intro x j
      have e1 : usesAt s1.graph x j = usesAt g3 x j := by rw [hg1]; rfl
      rw [e1, hg3, usesAt_replaceAllUsesWith, inGraph_congr hsh.blocks, usesAt_sameShape hsh]
    have huses1 : ∀ x j, s1.graph.inGraph x = true →
        usesAt s1.graph x j = (usesAt s.graph x j).map fun o => if o = X then first1 else o := by
      intro x j hx
      rw [huses0, hin1 x hx, if_pos rfl]
    have hres1 : ∀ i j,
        resumeAt s1.graph i j = (resumeAt s.graph i j).map fun o => if o = X then first1 else o := by
      intro i j
      have e1 : resumeAt s1.graph i j = resumeAt g3 i j := by rw [hg1]; rfl
      rw [e1, hg3, resumeAt_replaceAllUsesWith, resumeAt_sameShape hsh]
    have hopsP1 : ∀ x, opsAt s1.graph x =
        if s.graph.inGraph x then (opsAt s.graph x).map fun o => if o = X then first1 else o
        else opsAt s.graph x := by
      intro x
      have e1 : opsAt s1.graph x = opsAt g3 x := by rw [hg1]; rfl
      rw [e1, hg3, opsAt_replaceAllUsesWith, inGraph_congr hsh.blocks, opsAt_sameShape hsh]
    rcases hJ with ⟨b, hb, hnv, hpend⟩ | hredir
    · by_cases hXP : X = P
      · -- the visit of `P`
        right
        subst hXP
        have hfd : first1 = d := by
          have := hpend.ops
          rw [hopsX, hopsT] at this
          exact (List.cons.inj this).1
        subst hfd
        refine ⟨hXgone, ?_, ?_⟩
        · intro x j hx hxin
          left
          rw [huses1 x j hxin, hpend.uses x j hx, Option.map_some', if_pos rfl]
        · intro i j hi
          left
          rw [hres1 i j, hpend.resume i j hi, Option.map_some', if_pos rfl]
      · -- another Phi is replaced before the visit of `P`
        left
        have hPX : P ≠ X := fun hc => hXP hc.symm
        have hbk : b ≤ k ∧ (b = k → P ∈ rest) := by
          unfold Visited at hnv
          push_neg at hnv
          refine ⟨hnv.1, fun hbk => ?_⟩
          have := hnv.2 hbk
          rcases List.mem_cons.mp this with h1 | h1
          · exact absurd h1 hPX
          · exact h1
        have hdX : d ≠ X := by
          intro hc
          have hphiX : phiAt s.graph X = true :=
            phiCore_listed hT h.core X (inBlock_allPhis hXin)
          obtain ⟨b1, hlt, hin1⟩ := h.core.ranked b P d hb
            (by rw [hpend.ops, hopsT]; simp) (by rw [hc]; exact hphiX)
          rw [hc] at hin1
          have := inBlock_unique hnd hin1 hXin
          omega
        refine ⟨b, ?_, ?_, ?_, ?_, ?_⟩
        · rw [hg1]
          exact inBlock_discardPhi_ne g3 k X b P hPX ((inBlock_congr hb3 b P).mpr hb)
        · unfold Visited
          push_neg
          exact hbk
        · rw [hopsP1, if_pos (inGraph_of_allPhis (inBlock_allPhis hb)), hpend.ops, hopsT]
          have hid : ∀ o ∈ d :: rest0, (if o = X then first1 else o) = o := by
            intro o ho
            apply if_neg
            rcases List.mem_cons.mp ho with h1 | h1
            · rw [h1]; exact hdX
            · rcases hrest o h1 with h2 | h2
              · rw [h2]; exact hdX
              · rw [h2]; exact hPX
          exact (List.map_congr_left hid).trans (List.map_id _)
        · intro x j hx
          rw [huses0]
          split_ifs
          · exact usesAt_map_ne (hpend.uses x j hx) hPX
          · exact hpend.uses x j hx
        · intro i j hi
          rw [hres1, usesAt_map_ne (hpend.resume i j hi) hPX]
    · right
      refine redirected_step hredir hall1 hin1 (fun _ hp => hp) ?_ ?_
      · intro x j hxin hx
        by_cases hdX : d = X
        · right
          refine ⟨h.core.sub.subset (hdX ▸ inBlock_allPhis hXin), Or.inl ?_⟩
          rw [hdX]
          exact hXgone
        · left
          rw [huses1 x j hxin, usesAt_map_ne hx hdX]
      · intro i j hi
        by_cases hdX : d = X
        · right
          refine ⟨h.core.sub.subset (hdX ▸ inBlock_allPhis hXin), Or.inl ?_⟩
          rw [hdX]
          exact hXgone
        · left
          rw [hres1 i j, usesAt_map_ne hi hdX]
  · -- the Phi `X` stays
    have hsh1 : SameShape s.graph s1.graph := sameShape_trans hsh hsh3
    rcases hJ with ⟨b, hb, hnv, hpend⟩ | hredir
    · left
      have hXP : P ≠ X := by
        intro hc
        rcases hcase2 with ⟨_, o, ho, h1, h2⟩ | ⟨hc2, _⟩
        · subst hc
          have := hpend.ops
          rw [hopsX, hopsT] at this
          obtain ⟨e1, e2⟩ := List.cons.inj this
          subst e1 e2
          rcases hrest o ho with h3 | h3
          · exact h1 h3
          · exact h2 h3
        · rw [hr] at hc2; cases hc2
      refine ⟨b, (inBlock_congr hsh1.blocks b P).mpr hb, ?_, pendingPhi_sameShape hpend hsh1⟩
      intro hv
      exact hnv (visited_cons hXP hv)
    · right
      exact redirected_sameShape hredir hsh1

theorem phiCore_blocks_length {T g : MIRGraph} (h : PhiCore T g) :
    g.blocks.length = T.blocks.length := by
  have := congrArg List.length h.instrs
  simpa using this

theorem seedPhis_total (T : MIRGraph) (hT : PhiGraph T) (I : Nat → List Nat → PhiState → Prop)
    (hstep : ∀ s s1 k X rest, SeedInv T s.graph s.worklist k (X :: rest) → I k (X :: rest) s →
      seedPhi s k X = .ok s1 → I k rest s1) (k : Nat) :
    ∀ (rest : List Nat) (s : PhiState), SeedInv T s.graph s.worklist k rest →
      PhiOps T s.graph → I k rest s →
      ∃ s1, seedPhis k rest s = .ok s1 ∧ SeedInv T s1.graph s1.worklist k [] ∧
        PhiOps T s1.graph ∧ s1.replaced = s.replaced ∧ I k [] s1
  | [], s, h, hops, hI => ⟨s, rfl, h, hops, rfl, hI⟩
  | X :: rest, s, h, hops, hI => by
    have hX : X ∈ allPhis s.graph := inBlock_allPhis (h.pending X (List.mem_cons_self _ _))
    obtain ⟨s1, hrun, hops1, hrep1⟩ := seedPhi_total T s k X hops hX
    have h1 := seedPhi_inv T hT s s1 k X rest h hrun
    have hI1 := hstep s s1 k X rest h hI hrun
    obtain ⟨s2, hrun2, h2, hops2, hrep2, hI2⟩ := seedPhis_total T hT I hstep k rest s1 h1 hops1 hI1
    refine ⟨s2, ?_, h2, hops2, hrep2.trans hrep1, hI2⟩
    unfold seedPhis
    simp only [hrun]
    exact hrun2

theorem seedBlocks_total (T : MIRGraph) (hT : PhiGraph T) (I : Nat → List Nat → PhiState → Prop)
    (hstep : ∀ s s1 k X rest, SeedInv T s.graph s.worklist k (X :: rest) → I k (X :: rest) s →
      seedPhi s k X = .ok s1 → I k rest s1)
    (hnext : ∀ s k blk, SeedInv T s.graph s.worklist (k + 1) [] → I (k + 1) [] s →
      s.graph.block k = some blk → I k blk.phis s) :
    ∀ (k : Nat) (s : PhiState), k ≤ T.blocks.length → SeedInv T s.graph s.worklist k [] →
      PhiOps T s.graph → I k [] s →
      ∃ s1, seedBlocks (List.range k).reverse s = .ok s1 ∧ SeedInv T s1.graph s1.worklist 0 [] ∧
        PhiOps T s1.graph ∧ s1.replaced = s.replaced ∧ I 0 [] s1
  | 0, s, _, h, hops, hI => ⟨s, rfl, h, hops, rfl, hI⟩
  | k + 1, s, hk, h, hops, hI => by
    have hlt : k < s.graph.blocks.length := by
      rw [phiCore_blocks_length h.core]
      omega
    have hb : s.graph.block k = some s.graph.blocks[k] := by
      rw [MIRGraph.block, List.getElem?_eq_getElem hlt]
    have h0 := seedInv_next T hT s.graph s.worklist k _ h hb
    have hI0 := hnext s k _ h hI hb
    obtain ⟨s1, hrun1, h1, hops1, hrep1, hI1⟩ :=
      seedPhis_total T hT I hstep k _ s h0 hops hI0
    obtain ⟨s2, hrun2, h2, hops2, hrep2, hI2⟩ :=
      seedBlocks_total T hT I hstep hnext k s1 (by omega) h1 hops1 hI1
    refine ⟨s2, ?_, h2, hops2, hrep2.trans hrep1, hI2⟩
    rw [List.range_succ, List.reverse_append, List.reverse_singleton, List.singleton_append]
    unfold seedBlocks
    simp only [hb, hrun1]
    exact hrun2

theorem markPhi_track (T : MIRGraph) (hT : PhiGraph T) (P d : Nat) (s s1 : PhiState)
    (X : Nat) (W : List Nat) (h : MarkInv T s.graph (W ++ [X]) [])
    (hred : Redirected T s.graph s.replaced P d) (hrun : markPhi s X W = .ok s1) :
    Redirected T s1.graph s1.replaced P d := by
  obtain ⟨hXall, _⟩ := h.queued X (List.mem_append_right _ (List.mem_singleton_self X))
  obtain ⟨hb, hcase⟩ := markPhi_flags T hT s s1 X W h hrun
  have hall : ∀ p, p ∈ allPhis s1.graph → p ∈ allPhis s.graph := by
    intro p hp
    rw [← allPhis_congr hb]
    exact hp
  have hin : ∀ x, s1.graph.inGraph x = true → s.graph.inGraph x = true := by
    intro x hx
    rw [← inGraph_congr hb]
    exact hx
  rcases hcase with ⟨hrep, hops, hres, _⟩ | ⟨first, _, _, hrep, hops, hres, _⟩
  · refine redirected_step hred hall hin (fun p hp => by rw [hrep]; exact hp) ?_ ?_
    · intro x k _ hx
      left
      rw [usesAt_eq_opsAt, hops, ← usesAt_eq_opsAt]
      exact hx
    · intro i k hi
      left
      rw [hres]
      exact hi
  · have hgone : d = X → Gone T s1.graph s1.replaced d := by
      intro hdX
      refine ⟨h.core.sub.subset (hdX ▸ hXall), Or.inr ?_⟩
      rw [hrep, hdX]
      exact List.mem_cons_self _ _
    refine redirected_step hred hall hin
      (fun p hp => by rw [hrep]; exact List.mem_cons_of_mem _ hp) ?_ ?_
    · intro x k hxin hx
      by_cases hdX : d = X
      · exact Or.inr (hgone hdX)
      · left
        rw [usesAt_eq_opsAt, hops, if_pos (hin x hxin), List.getElem?_map, ← usesAt_eq_opsAt]
        exact usesAt_map_ne hx hdX
    · intro i k hi
      by_cases hdX : d = X
      · exact Or.inr (hgone hdX)
      · left
        rw [hres]
        exact usesAt_map_ne hi hdX

theorem sweepBlocks_total (T : MIRGraph) (hT : PhiGraph T) (g : MIRGraph)
    (h : MarkInv T g [] []) :
    ∃ g1, sweepBlocks g.postorder g = .ok g1 ∧ g1.defs = g.defs ∧
      g1.resumePoints = g.resumePoints ∧
      (∀ p, p ∈ allPhis g1 → p ∈ allPhis g ∧ isUnused g p = false) ∧
      ∀ x, g1.inGraph x = true → g.inGraph x = true := by
  have hnd := phiCore_nodup hT h.core
  obtain ⟨g1, hrun, hdefs, hrp, hblocks⟩ := sweepBlocks_spec g.postorder g
    (by
      unfold MIRGraph.postorder
      exact List.nodup_reverse.mpr (List.nodup_range _))
    (by
      intro b hb
      unfold MIRGraph.postorder at hb
      rw [List.mem_reverse, List.mem_range] at hb
      exact hb)
    (by
      intro b blk hb
      refine ⟨phis_nodup_of_allPhis g hnd b blk hb, ?_⟩
      intro p hp
      have := phiCore_listed hT h.core p ((mem_allPhis g p).mpr ⟨b, blk, hb, hp⟩)
      unfold phiAt at this
      cases hd : g.definition p with
      | none => simp [hd] at this
      | some y => rfl)
  have hblk : ∀ i, g1.block i =
      (g.block i).map fun blk =>
        { blk with phis := blk.phis.filter fun p => !isUnused g p } := by
    intro i
    rw [hblocks]
    split_ifs with hi
    · rfl
    · unfold MIRGraph.postorder at hi
      rw [List.mem_reverse, List.mem_range] at hi
      rw [MIRGraph.block, List.getElem?_eq_none (not_lt.mp hi)]
      rfl
  refine ⟨g1, hrun, hdefs, hrp, ?_, ?_⟩
  · intro p hp
    obtain ⟨b, blk1, hb1, hmem⟩ := (mem_allPhis g1 p).mp hp
    rw [hblk] at hb1
    cases hb : g.block b with
    | none => simp [hb] at hb1
    | some blk =>
      simp only [hb, Option.map_some', Option.some.injEq] at hb1
      subst hb1
      simp only [List.mem_filter, Bool.not_eq_true'] at hmem
      exact ⟨(mem_allPhis g p).mpr ⟨b, blk, hb, hmem.1⟩, hmem.2⟩
  · intro x hx
    rw [inGraph_iff] at hx ⊢
    obtain ⟨b, blk1, hb1, hmem⟩ := hx
    rw [hblk] at hb1
    cases hb : g.block b with
    | none => simp [hb] at hb1
    | some blk =>
      simp only [hb, Option.map_some', Option.some.injEq] at hb1
      subst hb1
      refine ⟨b, blk, hb, ?_⟩
      rcases hmem with hmem | hmem
      · simp only [List.mem_filter] at hmem
        exact Or.inl hmem.1
      · exact Or.inr hmem

theorem redundant_operands (T : MIRGraph) (hT : PhiGraph T) (hops : PhiOps T T) (P d : Nat)
    (hP : P ∈ allPhis T) (hall : ∀ o ∈ opsAt T P, o = d ∨ o = P) :
    ∃ rest, opsAt T P = d :: rest ∧ ∀ o ∈ rest, o = d ∨ o = P := by
  have hne := hops.nonempty P hP
  cases hl : opsAt T P with
  | nil => exact absurd hl hne
  | cons first rest =>
    rw [hl] at hall
    have hfirst : first ≠ P := by
      intro hc
      obtain ⟨b, hb⟩ := allPhis_inBlock hP
      obtain ⟨b1, hlt, hb1⟩ := hT.later b P P hb (by rw [hl, hc]; simp) (hT.listed P hP)
      have := inBlock_unique hT.nodup hb hb1
      omega
    have hfd : first = d := by
      rcases hall first (List.mem_cons_self _ _) with h1 | h1
      · exact h1
      · exact absurd h1 hfirst
    subst hfd
    exact ⟨rest, rfl, fun o ho => hall o (List.mem_cons_of_mem _ ho)⟩

theorem EliminatePhis_redirects (T : MIRGraph) (fuel : Nat)
    (hcoh : phisCoherent T = true) (hins : noPhiInstruction T = true)
    (hlater : operandZeroLater T = true) (hops : phisHaveOperands T = true)
    (hfuel : T.defs.length * (T.defs.length + 3) ≤ fuel) :
    ∃ s g1, markLivePhis fuel T = .ok s ∧ sweepBlocks s.graph.postorder s.graph = .ok g1 ∧
      Dead s.graph [] s.replaced ∧
      g1.defs = s.graph.defs ∧ g1.resumePoints = s.graph.resumePoints ∧
      (∀ p, p ∈ allPhis g1 → p ∈ allPhis s.graph ∧ isUnused s.graph p = false) ∧
      (∀ x, g1.inGraph x = true → s.graph.inGraph x = true) ∧
      ∀ P d rest, P ∈ allPhis T → opsAt T P = d :: rest → (∀ o ∈ rest, o = d ∨ o = P) →
        Redirected T s.graph s.replaced P d := by
  have hT := phiGraph_of_bool T hcoh hins hlater
  have hops0 := phiOps_init T hcoh hops
  -- the first loop
  obtain ⟨s1, hrun1, hinv1, hops1, hrep1, hI1⟩ := seedBlocks_total T hT
    (fun k rest s => ∀ P d rest0, P ∈ allPhis T → opsAt T P = d :: rest0 →
      (∀ o ∈ rest0, o = d ∨ o = P) →
      (∃ b, InBlock s.graph b P ∧ ¬Visited k rest b P ∧ PendingPhi T s.graph P) ∨
        Redirected T s.graph [] P d)
    (fun s s1 k X rest h hI hrun P d rest0 hP hopsP hrest =>
      seedPhi_track T hT P d rest0 hopsP hrest s s1 k X rest h (hI P d rest0 hP hopsP hrest) hrun)
    (by
      intro s k blk _ hI hb P d rest0 hP hopsP hrest
      rcases hI P d rest0 hP hopsP hrest with ⟨b, hbP, hnv, hpend⟩ | hred
      · left
        refine ⟨b, hbP, ?_, hpend⟩
        intro hv
        apply hnv
        rcases hv with hv | ⟨hv1, hv2⟩
        · rcases Nat.lt_or_ge (k + 1) b with h1 | h1
          · exact Or.inl h1
          · exact Or.inr ⟨by omega, fun hm => by cases hm⟩
        · exfalso
          obtain ⟨blk1, hblk1, hm⟩ := hbP
          rw [hv1, hb] at hblk1
          cases hblk1
          exact hv2 hm
      · exact Or.inr hred)
    T.blocks.length { graph := T, worklist := [] } (le_refl _) (seedInv_init T hT) hops0
    (by
      intro P d rest0 hP _ _
      left
      obtain ⟨b, hb⟩ := allPhis_inBlock hP
      refine ⟨b, hb, ?_, rfl, fun _ _ h => h, fun _ _ h => h⟩
      have hlt : b < T.blocks.length := by
        obtain ⟨blk, hblk, _⟩ := hb
        by_contra hc
        rw [MIRGraph.block, List.getElem?_eq_none (not_lt.mp hc)] at hblk
        cases hblk
      rintro (hv | ⟨hv, _⟩)
      · omega
      · omega)
  have hrep1 : s1.replaced = [] := hrep1
  have hmark1 : MarkInv T s1.graph s1.worklist [] := markInv_of_seedInv T hT _ _ hinv1
  have hdead1 : Dead s1.graph s1.worklist s1.replaced := by
    rw [hrep1]
    exact ⟨List.nodup_nil, fun _ h => (by cases h), fun _ h => (by cases h),
      fun _ h => (by cases h), fun _ h => (by cases h)⟩
  have hmeasure : markMeasure T.defs.length s1 ≤ fuel := by
    unfold markMeasure
    rw [hrep1]
    have h1 := unusedCount_le s1.graph
    rw [defs_length_of_defined hops1.defined] at h1
    have h2 : T.defs.length * (T.defs.length + 3) =
        T.defs.length * (T.defs.length + 2) + T.defs.length := by ring
    simp only [List.length_nil, Nat.sub_zero]
    omega
  -- the worklist loop
  obtain ⟨s2, hrun2, hmark2, _, hdead2, hI2⟩ := markPhis_total T hT
    (fun s => ∀ P d rest0, P ∈ allPhis T → opsAt T P = d :: rest0 →
      (∀ o ∈ rest0, o = d ∨ o = P) → Redirected T s.graph s.replaced P d)
    (by
      intro s s3 X W hw h _ _ hI hrun P d rest0 hP hopsP hrest
      rw [hw] at h
      exact markPhi_track T hT P d s s3 X W h (hI P d rest0 hP hopsP hrest) hrun)
    fuel s1 hmark1 hops1 hdead1
    (by
      intro P d rest0 hP hopsP hrest
      rcases hI1 P d rest0 hP hopsP hrest with ⟨b, _, hnv, _⟩ | hred
      · exfalso
        apply hnv
        rcases Nat.eq_zero_or_pos b with h0 | h0
        · exact Or.inr ⟨h0, fun hm => by cases hm⟩
        · exact Or.inl h0
      · rw [hrep1]
        exact hred)
    hmeasure
  -- the last loop
  obtain ⟨g1, hrun3, hdefs, hrp, hphis, hin⟩ := sweepBlocks_total T hT s2.graph hmark2
  refine ⟨s2, g1, ?_, hrun3, hdead2, hdefs, hrp, hphis, hin, hI2⟩
  unfold markLivePhis MIRGraph.postorder
  simp only [hrun1]
  exact hrun2

/-- C9 as amended: let `T` be a graph as `EliminatePhis` receives it: the Phi
lists and the definition table agree, no instruction list holds a Phi, every
Phi has an operand, and operand 0 of each Phi is no Phi or a Phi of a block
that the postorder iteration visits later than the block of the Phi.  Then
`EliminatePhis` returns true, and for every Phi `P` whose operands, ignoring
the operands that are `P` itself, are all the same definition `d`: `P` is in
no Phi list afterwards, and, unless `d` is itself a Phi that the pass removed,
every operand slot that held `P`, in a definition that is still in the graph
or in a resume point, holds `d`. -/
theorem EliminatePhis_replaces_redundant (T : MIRGraph) (fuel : Nat)
    (hcoh : phisCoherent T = true) (hins : noPhiInstruction T = true)
    (hlater : operandZeroLater T = true) (hops : phisHaveOperands T = true)
    (hfuel : T.defs.length * (T.defs.length + 3) ≤ fuel) :
    ∃ g1, EliminatePhis fuel T = .ok g1 ∧
      ∀ P d, P ∈ allPhis T → (∀ o ∈ opsAt T P, o = d ∨ o = P) →
        P ∉ allPhis g1 ∧
        ((d ∈ allPhis T → d ∈ allPhis g1) →
          (∀ x k, usesAt T x k = some P → g1.inGraph x = true → usesAt g1 x k = some d) ∧
          ∀ i k, resumeAt T i k = some P → resumeAt g1 i k = some d) := by
  have hT := phiGraph_of_bool T hcoh hins hlater
  have hops0 := phiOps_init T hcoh hops
  obtain ⟨s, g1, hrun, hsweep, hdead, hdefs, hrp, hphis, hin, hI⟩ :=
    EliminatePhis_redirects T fuel hcoh hins hlater hops hfuel
  refine ⟨g1, ?_, ?_⟩
  · unfold EliminatePhis
    simp only [hrun]
    exact hsweep
  intro P d hP hall
  obtain ⟨rest, hopsP, hrest⟩ := redundant_operands T hT hops0 P d hP hall
  have hred := hI P d rest hP hopsP hrest
  have hgone : Gone T s.graph s.replaced d → d ∈ allPhis T ∧ d ∉ allPhis g1 := by
    rintro ⟨h1, h2 | h2⟩
    · exact ⟨h1, fun hm => h2 (hphis d hm).1⟩
    · refine ⟨h1, fun hm => ?_⟩
      have h3 := hdead.unused d h2
      rw [(hphis d hm).2] at h3
      cases h3
  refine ⟨fun hm => hred.removed (hphis P hm).1, fun hd => ⟨?_, ?_⟩⟩
  · intro x k hx hxin
    have e : usesAt g1 x k = usesAt s.graph x k := by
      unfold usesAt MIRGraph.definition
      rw [hdefs]
    rcases hred.uses x k hx (hin x hxin) with h1 | h1
    · rw [e]
      exact h1
    · exact absurd (hd (hgone h1).1) (hgone h1).2
  · intro i k hi
    have e : resumeAt g1 i k = resumeAt s.graph i k := by
      unfold resumeAt
      rw [hrp]
    rcases hred.resume i k hi with h1 | h1
    · rw [e]
      exact h1
    · exact absurd (hd (hgone h1).1) (hgone h1).2

theorem EliminatePhis_replaces_redundant_witness :
    (phisCoherent invariantLoopGraph = true ∧ noPhiInstruction invariantLoopGraph = true ∧
      operandZeroLater invariantLoopGraph = true ∧
      phisHaveOperands invariantLoopGraph = true ∧
      invariantLoopGraph.defs.length * (invariantLoopGraph.defs.length + 3) ≤ 28) ∧
    (1 ∈ allPhis invariantLoopGraph ∧ opsAt invariantLoopGraph 1 = [0, 1] ∧
      (EliminatePhis 28 invariantLoopGraph).map
          (fun g => (allPhis g, g.inGraph 2, g.inGraph 3)) = .ok ([], true, true) ∧
      (EliminatePhis 28 invariantLoopGraph).map
          (fun g => (usesAt g 2 0, usesAt g 3 0, resumeAt g 0 0)) =
        .ok (some 0, some 0, some 0)) ∧
    ∃ g1, EliminatePhis 28 invariantLoopGraph = .ok g1 ∧
      ∀ P d, P ∈ allPhis invariantLoopGraph →
        (∀ o ∈ opsAt invariantLoopGraph P, o = d ∨ o = P) →
        P ∉ allPhis g1 ∧
        ((d ∈ allPhis invariantLoopGraph → d ∈ allPhis g1) →
          (∀ x k, usesAt invariantLoopGraph x k = some P → g1.inGraph x = true →
            usesAt g1 x k = some d) ∧
          ∀ i k, resumeAt invariantLoopGraph i k = some P → resumeAt g1 i k = some d) :=
  ⟨by decide, by decide,
    EliminatePhis_replaces_redundant invariantLoopGraph 28 (by decide) (by decide) (by decide)
      (by decide) (by decide)⟩

/-- C9 as stated fails on a chain of Phis.  In `nestedLoopGraph`, a graph as
the pass receives it, the operands of the Phi 2 of the inner loop are the
Phi 1 of the outer loop and the Phi 2 itself, so that `d` is the Phi 1, and the
instruction 3 uses the Phi 2.  `EliminatePhis` replaces the Phi 2 by the Phi 1,
whose operands are then the constant 0 and the Phi 1 itself, and replaces the
Phi 1 by the constant in turn: the pass returns true, both Phis are removed,
and the instruction 3, still in the graph, refers to the constant 0 and not
to the Phi 1. -/
theorem EliminatePhis_redundant_counterexample :
    (phisCoherent nestedLoopGraph = true ∧ noPhiInstruction nestedLoopGraph = true ∧
      operandZeroLater nestedLoopGraph = true ∧ phisHaveOperands nestedLoopGraph = true) ∧
    2 ∈ allPhis nestedLoopGraph ∧ opsAt nestedLoopGraph 2 = [1, 2] ∧
    usesAt nestedLoopGraph 3 0 = some 2 ∧
    (EliminatePhis 40 nestedLoopGraph).map
        (fun g => (allPhis g, g.inGraph 3, usesAt g 3 0)) = .ok ([], true, some 0) := by
  decide

end Ion
